import Mathlib

/-!
# Cesium 3D Tiles traversal: a shallow embedding of `Source/Scene/Cesium3DTilesetTraversal.js`

Tiles are JavaScript objects with identity that point at each other (`parent`, `children`,
`_priorityDistanceHolder`, `_ancestorWithContentAvailable`), so the embedding uses an explicit
heap: a tile is named by a `TileId` and the heap is a function `TileId → Tile`.

* JavaScript numbers that carry measurements are rationals (`ℚ`); frame numbers, depths and
  counters are integers or naturals.  `Number.MAX_VALUE` is the exact rational value of the
  largest finite double.  Arithmetic is exact: the rounding of doubles, overflow to `Infinity`
  and `NaN` are not modelled, so a comparison such as `movementRatio < 1` in
  `isOnScreenLongEnough` is decided on the exact quotient.
* The per-tile operations of `Cesium3DTile` (`updateVisibility`, `updateExpiration`,
  `getScreenSpaceError`, `contentVisibility`), the vector library `Cartesian3`, `Math.cos`,
  `CesiumMath.clamp` and the tileset's `foveatedInterpolationCallback` are not part of the
  traversal file; they are parameters, collected in `Env`.
* A `ManagedArray` used as a stack is a `List TileId` whose head is the top of the stack
  (`push` is cons, `pop` removes the head, `peek` reads the head).
* The output arrays (`_selectedTiles`, `_requestedTiles`, ...) are lists in push order
  (`push` appends at the end).
* Loops over a stack and the recursion of `updateTileVisibility` take a fuel argument and
  return `none` when it runs out.
-/

set_option linter.unusedTactic false
set_option linter.unreachableTactic false
set_option linter.unusedVariables false

namespace Cesium

/-- Identity of a tile object. -/
abbrev TileId := Nat

/-- Modelled from the spec: the refinement mode of a tile, `Cesium3DTileRefine` (its file is not
among the sources); the spec gives the two modes ADD and REPLACE. -/
inductive Cesium3DTileRefine where
  | ADD
  | REPLACE
  deriving DecidableEq, Repr

/-- Modelled from the spec: the result of the content-visibility test, `Intersect` (its file is
not among the sources); the traversal only compares it with `OUTSIDE`. -/
inductive Intersect where
  | OUTSIDE
  | INTERSECTING
  | INSIDE
  deriving DecidableEq, Repr

/-- Modelled from the spec: the hint `Cesium3DTileOptimizationHint` (its file is not among the
sources); the traversal only compares it with `USE_OPTIMIZATION`. -/
inductive Cesium3DTileOptimizationHint where
  | NOT_COMPUTED
  | USE_OPTIMIZATION
  | SKIP_OPTIMIZATION
  deriving DecidableEq, Repr

/-- A `Cartesian3` value. -/
structure Cartesian3 where
  x : ℚ
  y : ℚ
  z : ℚ
  deriving DecidableEq

/-- The `boundingSphere` of a tile. -/
structure BoundingSphere where
  center : Cartesian3
  radius : ℚ
  deriving DecidableEq

/-- The fields of a `Cesium3DTile` that the traversal reads or writes. -/
structure Tile where
  parent : Option TileId
  children : List TileId
  refine : Cesium3DTileRefine
  boundingSphere : BoundingSphere
  hasEmptyContent : Bool
  hasTilesetContent : Bool
  contentAvailable : Bool
  contentUnloaded : Bool
  contentExpired : Bool
  featurePropertiesDirty : Bool
  lastStyleTime : ℚ
  priorityDeferred : Bool
  _optimChildrenWithinParent : Cesium3DTileOptimizationHint
  _depth : Int
  _visible : Bool
  _inRequestVolume : Bool
  _distanceToCamera : ℚ
  _centerZDepth : ℚ
  _screenSpaceError : ℚ
  _updatedVisibilityFrame : Int
  _touchedFrame : Int
  _visitedFrame : Int
  _selectedFrame : Int
  _requestedFrame : Int
  _wasMinPriorityChild : Bool
  _priorityDistance : ℚ
  _priorityDistanceHolder : TileId
  _foveatedFactor : ℚ
  _shouldSelect : Bool
  _finalResolution : Bool
  _selectionDepth : Nat
  _stackLength : Nat
  _refines : Bool
  _ancestorWithContent : Option TileId
  _ancestorWithContentAvailable : Option TileId

/-- The records `tileset._maxPriority` and `tileset._minPriority`. -/
structure Priority where
  distance : ℚ
  depth : Int

/-- The counters of `tileset._statistics` that the traversal increments. -/
structure Statistics where
  visited : Nat
  numberOfTilesCulledWithChildrenUnion : Nat

/-- The fields of a `Cesium3DTileset` that the traversal reads or writes.  `_cache` records the
tiles passed to `tileset._cache.touch`, in call order. -/
structure Tileset where
  root : TileId
  debugFreezeFrame : Bool
  _skipLevelOfDetail : Bool
  immediatelyLoadDesiredLevelOfDetail : Bool
  loadSiblings : Bool
  cullRequestsWhileMoving : Bool
  cullRequestsWhileMovingMultiplier : ℚ
  foveatedScreenSpaceError : Bool
  foveatedConeSize : ℚ
  foveatedMinimumScreenSpaceErrorRelaxation : ℚ
  foveatedTimeDelay : ℚ
  _maximumScreenSpaceError : ℚ
  maximumScreenSpaceError : ℚ
  baseScreenSpaceError : ℚ
  skipScreenSpaceErrorFactor : ℚ
  skipLevels : Int
  _updatedVisibilityFrame : Int
  _requestedTiles : List TileId
  _selectedTiles : List TileId
  _selectedTilesToStyle : List TileId
  _emptyTiles : List TileId
  _hasMixedContent : Bool
  _statistics : Statistics
  _maxPriority : Priority
  _minPriority : Priority
  _cache : List TileId

/-- The `frameState.camera` fields read by the traversal; `_timeSinceCameraMoved` is
`camera._scene._timeSinceCameraMoved` and `fov` is `camera.frustum.fov`. -/
structure Camera where
  positionWC : Cartesian3
  directionWC : Cartesian3
  positionWCDeltaMagnitude : ℚ
  positionWCDeltaMagnitudeLastFrame : ℚ
  fov : ℚ
  _timeSinceCameraMoved : ℚ

/-- The `frameState` argument. -/
structure FrameState where
  frameNumber : Int
  camera : Camera

/-- What `tile.updateVisibility(frameState)` writes on the tile. -/
structure Visibility where
  _visible : Bool
  _inRequestVolume : Bool
  _distanceToCamera : ℚ
  _centerZDepth : ℚ
  _screenSpaceError : ℚ

/-- The content-state getters of a tile, as `tile.updateExpiration()` may change them. -/
structure ContentState where
  hasEmptyContent : Bool
  hasTilesetContent : Bool
  contentAvailable : Bool
  contentUnloaded : Bool
  contentExpired : Bool
  deriving DecidableEq

/-- The collaborators of the traversal whose code is outside the traversal file: the per-tile
operations of `Cesium3DTile`, the `Cartesian3` library, `Math.cos`, `CesiumMath.clamp` and the
tileset's `foveatedInterpolationCallback`. -/
structure Env where
  tileUpdateVisibility : FrameState → TileId → Visibility
  tileUpdateExpiration : TileId → ContentState → ContentState
  getScreenSpaceError : FrameState → TileId → ℚ
  contentVisibility : FrameState → TileId → Intersect
  multiplyByScalar : Cartesian3 → ℚ → Cartesian3
  add : Cartesian3 → Cartesian3 → Cartesian3
  subtract : Cartesian3 → Cartesian3 → Cartesian3
  dot : Cartesian3 → Cartesian3 → ℚ
  normalize : Cartesian3 → Cartesian3
  cos : ℚ → ℚ
  clamp : ℚ → ℚ → ℚ → ℚ
  foveatedInterpolationCallback : ℚ → ℚ → ℚ → ℚ

/-- One of the module-level records `traversal`, `emptyTraversal`, `descendantTraversal`. -/
structure Traversal where
  stack : List TileId
  stackMaximumLength : Nat

/-- The module-level record `selectionTraversal`. -/
structure SelectionTraversal where
  stack : List TileId
  stackMaximumLength : Nat
  ancestorStack : List TileId
  ancestorStackMaximumLength : Nat

/-- Everything the traversal can read or write: the heap of tiles, the tileset and the
module-level traversal records. -/
structure State where
  tiles : TileId → Tile
  tileset : Tileset
  traversal : Traversal
  emptyTraversal : Traversal
  descendantTraversal : Traversal
  selectionTraversal : SelectionTraversal

/-- Exact value of `Number.MAX_VALUE`, `(2^53 - 1) * 2^971`. -/
def Number.MAX_VALUE : ℚ := (2 ^ 53 - 1) * 2 ^ 971

/-- The constant `descendantSelectionDepth`. -/
def descendantSelectionDepth : Int := 2

/-- Writes fields of one tile object. -/
def State.setTile (s : State) (tile : TileId) (f : Tile → Tile) : State :=
  { s with tiles := Function.update s.tiles tile (f (s.tiles tile)) }

/-- Writes fields of the tileset object. -/
def State.setTileset (s : State) (f : Tileset → Tileset) : State :=
  { s with tileset := f s.tileset }

/-- The function `isVisible`. -/
def isVisible (tile : Tile) : Bool :=
  tile._visible && tile._inRequestVolume

/-- The function `skipLevelOfDetail`. -/
def skipLevelOfDetail (tileset : Tileset) : Bool :=
  tileset._skipLevelOfDetail

/-- The function `addEmptyTile`. -/
def addEmptyTile (s : State) (tile : TileId) : State :=
  s.setTileset fun ts => { ts with _emptyTiles := ts._emptyTiles ++ [tile] }

/-- The function `selectTile`. -/
def selectTile (env : Env) (s : State) (tile : TileId) (frameState : FrameState) : State :=
  if env.contentVisibility frameState tile ≠ Intersect.OUTSIDE then
    let s :=
      if (s.tiles tile).featurePropertiesDirty then
        let s := s.setTile tile fun t => { t with featurePropertiesDirty := false }
        let s := s.setTile tile fun t => { t with lastStyleTime := 0 }
        s.setTileset fun ts => { ts with _selectedTilesToStyle := ts._selectedTilesToStyle ++ [tile] }
      else if (s.tiles tile)._selectedFrame < frameState.frameNumber - 1 then
        s.setTileset fun ts => { ts with _selectedTilesToStyle := ts._selectedTilesToStyle ++ [tile] }
      else s
    let s := s.setTile tile fun t => { t with _selectedFrame := frameState.frameNumber }
    s.setTileset fun ts => { ts with _selectedTiles := ts._selectedTiles ++ [tile] }
  else s

/-- The function `visitTile`. -/
def visitTile (s : State) (tile : TileId) (frameState : FrameState) : State :=
  let s := s.setTileset fun ts =>
    { ts with _statistics := { ts._statistics with visited := ts._statistics.visited + 1 } }
  s.setTile tile fun t => { t with _visitedFrame := frameState.frameNumber }

/-- The function `touchTile`. -/
def touchTile (s : State) (tile : TileId) (frameState : FrameState) : State :=
  if (s.tiles tile)._touchedFrame = frameState.frameNumber then s
  else
    let s := s.setTileset fun ts => { ts with _cache := ts._cache ++ [tile] }
    s.setTile tile fun t => { t with _touchedFrame := frameState.frameNumber }

/-- The function `updateMinMaxPriority`. -/
def updateMinMaxPriority (s : State) (tile : TileId) : State :=
  let holder := s.tiles (s.tiles tile)._priorityDistanceHolder
  let s := s.setTileset fun ts =>
    { ts with _maxPriority := { ts._maxPriority with
        distance := max holder._priorityDistance ts._maxPriority.distance } }
  let s := s.setTileset fun ts =>
    { ts with _minPriority := { ts._minPriority with
        distance := min holder._priorityDistance ts._minPriority.distance } }
  let s := s.setTileset fun ts =>
    { ts with _maxPriority := { ts._maxPriority with
        depth := max (s.tiles tile)._depth ts._maxPriority.depth } }
  s.setTileset fun ts =>
    { ts with _minPriority := { ts._minPriority with
        depth := min (s.tiles tile)._depth ts._minPriority.depth } }

/-- The function `isOnScreenLongEnough`. -/
def isOnScreenLongEnough (tileset : Tileset) (tile : Tile) (frameState : FrameState) : Bool :=
  if !tileset.cullRequestsWhileMoving then true
  else
    let sphere := tile.boundingSphere
    let diameter := max (sphere.radius * 2) 1
    let camera := frameState.camera
    let deltaMagnitude :=
      if camera.positionWCDeltaMagnitude ≠ 0 then camera.positionWCDeltaMagnitude
      else camera.positionWCDeltaMagnitudeLastFrame
    let movementRatio := tileset.cullRequestsWhileMovingMultiplier * deltaMagnitude / diameter
    decide (movementRatio < 1)

/-- The first part of `isPriorityDeferred`, up to the last assignment of `tile._foveatedFactor`
(`scratchCartesian` only carries intermediate values). -/
def updateFoveatedFactor (env : Env) (s : State) (tile : TileId) (frameState : FrameState) :
    State :=
  let s := s.setTile tile fun t => { t with _foveatedFactor := 0 }
  let camera := frameState.camera
  let boundingSphere := (s.tiles tile).boundingSphere
  let radius := boundingSphere.radius
  let scaledCameraDirection := env.multiplyByScalar camera.directionWC (s.tiles tile)._centerZDepth
  let closestPointOnLine := env.add camera.positionWC scaledCameraDirection
  let distanceToLine := env.subtract closestPointOnLine boundingSphere.center
  let distanceSquared := env.dot distanceToLine distanceToLine
  if distanceSquared > radius * radius then
    let toLineNormalized := env.normalize distanceToLine
    let scaledToLine := env.multiplyByScalar toLineNormalized radius
    let closestOnSphere := env.add boundingSphere.center scaledToLine
    let toClosestOnSphere := env.subtract closestOnSphere camera.positionWC
    let toClosestOnSphereNormalize := env.normalize toClosestOnSphere
    s.setTile tile fun t =>
      { t with _foveatedFactor := 1 - |env.dot camera.directionWC toClosestOnSphereNormalize| }
  else
    s.setTile tile fun t => { t with _foveatedFactor := 0 }

/-- The local `maxFoveatedFactor` of `isPriorityDeferred`. -/
def maxFoveatedFactor (env : Env) (frameState : FrameState) : ℚ :=
  1 - env.cos (frameState.camera.fov * (1 / 2))

/-- The local `foveatedConeFactor` of `isPriorityDeferred`. -/
def foveatedConeFactor (env : Env) (tileset : Tileset) (frameState : FrameState) : ℚ :=
  tileset.foveatedConeSize * maxFoveatedFactor env frameState

/-- The local `sseRelaxation` of `isPriorityDeferred`, for a tile whose `_foveatedFactor` has
been computed. -/
def sseRelaxation (env : Env) (tileset : Tileset) (tile : Tile) (frameState : FrameState) : ℚ :=
  let range := maxFoveatedFactor env frameState - foveatedConeFactor env tileset frameState
  let normalizedFoveatedFactor :=
    env.clamp ((tile._foveatedFactor - foveatedConeFactor env tileset frameState) / range) 0 1
  env.foveatedInterpolationCallback tileset.foveatedMinimumScreenSpaceErrorRelaxation
    tileset.maximumScreenSpaceError normalizedFoveatedFactor

/-- The local `sse` of `isPriorityDeferred`. -/
def foveatedSse (s : State) (tile : TileId) : ℚ :=
  match (s.tiles tile).parent with
  | some parent =>
    if (s.tiles tile)._screenSpaceError = 0 then (s.tiles parent)._screenSpaceError * (1 / 2)
    else (s.tiles tile)._screenSpaceError
  | none => (s.tiles tile)._screenSpaceError

/-- The local `cameraMovedRecently` of `isPriorityDeferred`. -/
def cameraMovedRecently (tileset : Tileset) (frameState : FrameState) : Bool :=
  decide (frameState.camera._timeSinceCameraMoved < tileset.foveatedTimeDelay * 1000)

/-- The function `isPriorityDeferred`; it returns the state with `tile._foveatedFactor` written
and the boolean result.  `tile._tileset` is the one tileset of the state. -/
def isPriorityDeferred (env : Env) (s : State) (tile : TileId) (frameState : FrameState) :
    State × Bool :=
  let tileset := s.tileset
  if !tileset._skipLevelOfDetail || !tileset.foveatedScreenSpaceError
      || decide (tileset.foveatedConeSize = 1) then (s, false)
  else
    let s := updateFoveatedFactor env s tile frameState
    if (s.tiles tile)._foveatedFactor ≤ foveatedConeFactor env tileset frameState then (s, false)
    else
      let shouldDefer :=
        decide (tileset.maximumScreenSpaceError
          - sseRelaxation env tileset (s.tiles tile) frameState ≤ foveatedSse s tile)
      (s, shouldDefer && cameraMovedRecently tileset frameState)

/-- The function `hasEmptyContent`. -/
def hasEmptyContent (tile : Tile) : Bool :=
  tile.hasEmptyContent || tile.hasTilesetContent

/-- The function `hasUnloadedContent`. -/
def hasUnloadedContent (tile : Tile) : Bool :=
  !hasEmptyContent tile && tile.contentUnloaded

/-- The function `loadTile`.  The condition short-circuits: `isPriorityDeferred` runs, and
`tile.priorityDeferred` is assigned, only when the first two conjuncts hold. -/
def loadTile (env : Env) (s : State) (tile : TileId) (frameState : FrameState) : State :=
  if (hasUnloadedContent (s.tiles tile) || (s.tiles tile).contentExpired)
      && isOnScreenLongEnough s.tileset (s.tiles tile) frameState then
    let r := isPriorityDeferred env s tile frameState
    let s := r.1.setTile tile fun t => { t with priorityDeferred := r.2 }
    if !r.2 then
      let s := s.setTile tile fun t => { t with _requestedFrame := frameState.frameNumber }
      s.setTileset fun ts => { ts with _requestedTiles := ts._requestedTiles ++ [tile] }
    else s
  else s

/-- The function `updateVisibility`. -/
def updateVisibility (env : Env) (s : State) (tile : TileId) (frameState : FrameState) : State :=
  if (s.tiles tile)._updatedVisibilityFrame = s.tileset._updatedVisibilityFrame then s
  else
    let v := env.tileUpdateVisibility frameState tile
    let s := s.setTile tile fun t =>
      { t with
        _visible := v._visible
        _inRequestVolume := v._inRequestVolume
        _distanceToCamera := v._distanceToCamera
        _centerZDepth := v._centerZDepth
        _screenSpaceError := v._screenSpaceError }
    s.setTile tile fun t => { t with _updatedVisibilityFrame := s.tileset._updatedVisibilityFrame }

/-- The function `anyChildrenVisible`. -/
def anyChildrenVisible (env : Env) (s : State) (tile : TileId) (frameState : FrameState) :
    State × Bool :=
  (s.tiles tile).children.foldl
    (fun (acc : State × Bool) child =>
      let s := updateVisibility env acc.1 child frameState
      (s, acc.2 || isVisible (s.tiles child)))
    (s, false)

/-- The function `meetsScreenSpaceErrorEarly`. -/
def meetsScreenSpaceErrorEarly (env : Env) (s : State) (tile : TileId) (frameState : FrameState) :
    Bool :=
  match (s.tiles tile).parent with
  | none => false
  | some parent =>
    if (s.tiles parent).hasTilesetContent
        || decide ((s.tiles parent).refine ≠ Cesium3DTileRefine.ADD) then false
    else decide (env.getScreenSpaceError frameState tile ≤ s.tileset._maximumScreenSpaceError)

/-- The function `updateTileVisibility`; the fuel bounds its recursion into `children[0]`. -/
def updateTileVisibility (env : Env) (frameState : FrameState) :
    Nat → State → TileId → Option State
  | 0, _, _ => none
  | fuel + 1, s, tile =>
    let s := updateVisibility env s tile frameState
    if !isVisible (s.tiles tile) then some s
    else
      let hasChildren := decide ((s.tiles tile).children.length > 0)
      match (s.tiles tile).hasTilesetContent && hasChildren, (s.tiles tile).children with
      | true, child :: _ =>
        (updateTileVisibility env frameState fuel s child).map fun s =>
          s.setTile tile fun t => { t with _visible := (s.tiles child)._visible }
      | _, _ =>
        if meetsScreenSpaceErrorEarly env s tile frameState then
          some (s.setTile tile fun t => { t with _visible := false })
        else
          let replace := decide ((s.tiles tile).refine = Cesium3DTileRefine.REPLACE)
          let useOptimization := decide ((s.tiles tile)._optimChildrenWithinParent
            = Cesium3DTileOptimizationHint.USE_OPTIMIZATION)
          if replace && useOptimization && hasChildren then
            let r := anyChildrenVisible env s tile frameState
            if !r.2 then
              let s := r.1.setTileset fun ts =>
                { ts with _statistics := { ts._statistics with
                    numberOfTilesCulledWithChildrenUnion :=
                      ts._statistics.numberOfTilesCulledWithChildrenUnion + 1 } }
              some (s.setTile tile fun t => { t with _visible := false })
            else some r.1
          else some s

/-- The content-state getters of a tile. -/
def Tile.contentState (t : Tile) : ContentState :=
  { hasEmptyContent := t.hasEmptyContent
    hasTilesetContent := t.hasTilesetContent
    contentAvailable := t.contentAvailable
    contentUnloaded := t.contentUnloaded
    contentExpired := t.contentExpired }

/-- Stores content-state getters on a tile. -/
def Tile.withContentState (t : Tile) (c : ContentState) : Tile :=
  { t with
    hasEmptyContent := c.hasEmptyContent
    hasTilesetContent := c.hasTilesetContent
    contentAvailable := c.contentAvailable
    contentUnloaded := c.contentUnloaded
    contentExpired := c.contentExpired }

/-- The function `updateTile`. -/
def updateTile (env : Env) (frameState : FrameState) (fuel : Nat) (s : State) (tile : TileId) :
    Option State :=
  (updateTileVisibility env frameState fuel s tile).map fun s =>
    let s := s.setTile tile fun t => t.withContentState (env.tileUpdateExpiration tile t.contentState)
    let s := s.setTile tile fun t => { t with _wasMinPriorityChild := false }
    let s := s.setTile tile fun t => { t with _priorityDistance := t._distanceToCamera }
    let s := s.setTile tile fun t => { t with _priorityDistanceHolder := tile }
    let s := updateMinMaxPriority s tile
    let s := s.setTile tile fun t => { t with _shouldSelect := false }
    s.setTile tile fun t => { t with _finalResolution := true }

/-- The function `updateTileAncestorContentLinks`. -/
def updateTileAncestorContentLinks (s : State) (tile : TileId) (frameState : FrameState) : State :=
  let s := s.setTile tile fun t => { t with _ancestorWithContent := none }
  let s := s.setTile tile fun t => { t with _ancestorWithContentAvailable := none }
  match (s.tiles tile).parent with
  | none => s
  | some parent =>
    let hasContent := !hasUnloadedContent (s.tiles parent)
      || decide ((s.tiles parent)._requestedFrame = frameState.frameNumber)
    let s := s.setTile tile fun t =>
      { t with _ancestorWithContent :=
          if hasContent then some parent else (s.tiles parent)._ancestorWithContent }
    s.setTile tile fun t =>
      { t with _ancestorWithContentAvailable :=
          if (s.tiles parent).contentAvailable then some parent
          else (s.tiles parent)._ancestorWithContentAvailable }

/-- The function `reachedSkippingThreshold`.  When `skipScreenSpaceErrorFactor` is 0 the
quotient of the source is `Infinity` for a positive error of the ancestor, and `NaN` or
`-Infinity` otherwise, so the comparison with the finite error of the tile holds exactly when
the error of the ancestor is positive. -/
def reachedSkippingThreshold (s : State) (tile : TileId) : Bool :=
  match (s.tiles tile)._ancestorWithContent with
  | none => false
  | some ancestor =>
    !s.tileset.immediatelyLoadDesiredLevelOfDetail
      && (if s.tileset.skipScreenSpaceErrorFactor = 0 then
            decide ((s.tiles ancestor)._screenSpaceError > 0)
          else
            decide ((s.tiles tile)._screenSpaceError
              < (s.tiles ancestor)._screenSpaceError / s.tileset.skipScreenSpaceErrorFactor))
      && decide ((s.tiles tile)._depth > (s.tiles ancestor)._depth + s.tileset.skipLevels)

/-- The comparator `sortChildrenByDistanceToCamera`. -/
def sortChildrenByDistanceToCamera (a b : Tile) : ℚ :=
  if b._distanceToCamera = 0 ∧ a._distanceToCamera = 0 then b._centerZDepth - a._centerZDepth
  else b._distanceToCamera - a._distanceToCamera

/-- The call `children.sort(sortChildrenByDistanceToCamera)`, as a stable sort: `a` stays before
`b` when the comparator is not positive. -/
def sortChildren (s : State) (children : List TileId) : List TileId :=
  children.insertionSort fun a b => sortChildrenByDistanceToCamera (s.tiles a) (s.tiles b) ≤ 0

/-- The function `canTraverse`. -/
def canTraverse (tileset : Tileset) (tile : Tile) : Bool :=
  if tile.children.length = 0 then false
  else if tile.hasTilesetContent then !tile.contentExpired
  else decide (tile._screenSpaceError > tileset._maximumScreenSpaceError)

/-- The body of the loop of `executeEmptyTraversal`, for the tile just popped; the boolean is
the local `allDescendantsLoaded`. -/
def executeEmptyTraversalVisit (env : Env) (frameState : FrameState) (fuel : Nat) (s : State)
    (tile : TileId) (allDescendantsLoaded : Bool) : Option (State × Bool) :=
  let children := (s.tiles tile).children
  let traverse := hasEmptyContent (s.tiles tile) && canTraverse s.tileset (s.tiles tile)
  let allDescendantsLoaded :=
    if !traverse && !(s.tiles tile).contentAvailable then false else allDescendantsLoaded
  (updateTile env frameState fuel s tile).map fun s =>
    let s :=
      if !isVisible (s.tiles tile) then
        touchTile (loadTile env s tile frameState) tile frameState
      else s
    let s :=
      if traverse then
        children.foldl
          (fun (s : State) child =>
            { s with emptyTraversal := { s.emptyTraversal with
                stack := child :: s.emptyTraversal.stack } })
          s
      else s
    (s, allDescendantsLoaded)

/-- The loop of `executeEmptyTraversal` over `emptyTraversal.stack`. -/
def executeEmptyTraversalLoop (env : Env) (frameState : FrameState) :
    Nat → State → Bool → Option (State × Bool)
  | 0, _, _ => none
  | fuel + 1, s, allDescendantsLoaded =>
    match s.emptyTraversal.stack with
    | [] => some (s, allDescendantsLoaded)
    | tile :: rest =>
      let s := { s with emptyTraversal :=
        { stack := rest
          stackMaximumLength := max s.emptyTraversal.stackMaximumLength (tile :: rest).length } }
      match executeEmptyTraversalVisit env frameState fuel s tile allDescendantsLoaded with
      | none => none
      | some r => executeEmptyTraversalLoop env frameState fuel r.1 r.2

/-- The function `executeEmptyTraversal`. -/
def executeEmptyTraversal (env : Env) (frameState : FrameState) (fuel : Nat) (s : State)
    (root : TileId) : Option (State × Bool) :=
  let s := { s with emptyTraversal := { s.emptyTraversal with
    stack := root :: s.emptyTraversal.stack } }
  executeEmptyTraversalLoop env frameState fuel s true

/-- The local variables of the second loop of `updateAndPushChildren`, with the state. -/
structure PushChildren where
  s : State
  refines : Bool
  anyChildrenVisible : Bool
  minIndex : Option Nat
  minPriorityDistance : ℚ

/-- The first part of an iteration of the second loop of `updateAndPushChildren`, for
`child = children[i]`: a visible child is pushed, a child that is not visible is loaded and
touched when it is needed for refinement or `loadSiblings` is set.  `stack` is
`traversal.stack`, the only stack the function is called with. -/
def pushOrLoadChild (env : Env) (frameState : FrameState) (checkRefines : Bool)
    (acc : PushChildren) (ic : Nat × TileId) : PushChildren :=
  let i := ic.1
  let child := ic.2
  let s := acc.s
  if isVisible (s.tiles child) then
    let s := { s with traversal := { s.traversal with stack := child :: s.traversal.stack } }
    let acc := { acc with s := s }
    let acc :=
      if (s.tiles child)._priorityDistance < acc.minPriorityDistance then
        { acc with minIndex := some i, minPriorityDistance := (s.tiles child)._priorityDistance }
      else acc
    { acc with anyChildrenVisible := true }
  else if checkRefines || s.tileset.loadSiblings then
    let acc :=
      if (s.tiles child)._priorityDistance < acc.minPriorityDistance then
        { acc with minIndex := some i, minPriorityDistance := (s.tiles child)._priorityDistance }
      else acc
    { acc with s := touchTile (loadTile env s child frameState) child frameState }
  else acc

/-- The computation of the local `childRefines` in the second loop of
`updateAndPushChildren`. -/
def childRefines (env : Env) (frameState : FrameState) (fuel : Nat) (s : State)
    (child : TileId) : Option (State × Bool) :=
  if !(s.tiles child)._inRequestVolume then some (s, false)
  else if hasEmptyContent (s.tiles child) then executeEmptyTraversal env frameState fuel s child
  else some (s, (s.tiles child).contentAvailable)

/-- One iteration of the second loop of `updateAndPushChildren`, for `child = children[i]`. -/
def updateAndPushChildrenStep (env : Env) (frameState : FrameState) (fuel : Nat)
    (checkRefines : Bool) (acc : PushChildren) (ic : Nat × TileId) : Option PushChildren :=
  let acc := pushOrLoadChild env frameState checkRefines acc ic
  if checkRefines then
    (childRefines env frameState fuel acc.s ic.2).map fun r =>
      { acc with s := r.1, refines := acc.refines && r.2 }
  else some acc

/-- The first loop of `updateAndPushChildren`: `updateTile` on every child. -/
def updateChildren (env : Env) (frameState : FrameState) (fuel : Nat) (s : State)
    (children : List TileId) : Option State :=
  children.foldlM (fun s child => updateTile env frameState fuel s child) s

/-- The locals of `updateAndPushChildren` before its second loop. -/
def PushChildren.init (s : State) : PushChildren :=
  { s := s
    refines := true
    anyChildrenVisible := false
    minIndex := none
    minPriorityDistance := Number.MAX_VALUE }

/-- The last part of `updateAndPushChildren`, after the second loop: `refines` is cleared when
no child is visible, and the priority holder of the children is wired up. -/
def updateAndPushChildrenFinish (tile : TileId) (children : List TileId) (acc : PushChildren) :
    State × Bool :=
  let refines := if !acc.anyChildrenVisible then false else acc.refines
  let s := acc.s
  match acc.minIndex.bind fun i => children[i]? with
  | none => (s, refines)
  | some minPriorityChild =>
    let s := s.setTile minPriorityChild fun t => { t with _wasMinPriorityChild := true }
    let priorityHolder :=
      if (s.tiles tile)._wasMinPriorityChild || decide (tile = s.tileset.root) then
        (s.tiles tile)._priorityDistanceHolder
      else tile
    let minDistance := (s.tiles minPriorityChild)._priorityDistance
    let s := s.setTile priorityHolder fun t =>
      { t with _priorityDistance := min minDistance t._priorityDistance }
    let s := children.foldl
      (fun (s : State) child =>
        s.setTile child fun t => { t with _priorityDistanceHolder := priorityHolder })
      s
    (s, refines)

/-- The local `checkRefines` of `updateAndPushChildren`. -/
def checkRefines (s : State) (tile : TileId) : Bool :=
  !skipLevelOfDetail s.tileset && decide ((s.tiles tile).refine = Cesium3DTileRefine.REPLACE)
    && !hasEmptyContent (s.tiles tile)

/-- The state at the start of the second loop of `updateAndPushChildren`: every child updated
and the children sorted. -/
def updateAndSortChildren (env : Env) (frameState : FrameState) (fuel : Nat) (s : State)
    (tile : TileId) : Option State :=
  (updateChildren env frameState fuel s (s.tiles tile).children).map fun s =>
    s.setTile tile fun t => { t with children := sortChildren s t.children }

/-- The function `updateAndPushChildren`; it returns the state and the local `refines`. -/
def updateAndPushChildren (env : Env) (frameState : FrameState) (fuel : Nat) (s : State)
    (tile : TileId) : Option (State × Bool) :=
  (updateAndSortChildren env frameState fuel s tile).bind fun s =>
    let children := (s.tiles tile).children
    (children.enum.foldlM
        (updateAndPushChildrenStep env frameState fuel (checkRefines s tile))
        (PushChildren.init s)).map fun acc =>
      updateAndPushChildrenFinish tile children acc

/-- The state and locals of the second loop of `updateAndPushChildren` when it reaches
`children[i]`, having examined the children before it; `s` is the state at the start of the
loop. -/
def updateAndPushChildrenAt (env : Env) (frameState : FrameState) (fuel : Nat) (s : State)
    (tile : TileId) (i : Nat) : Option PushChildren :=
  ((s.tiles tile).children.enum.take i).foldlM
    (updateAndPushChildrenStep env frameState fuel (checkRefines s tile))
    (PushChildren.init s)

/-- The function `inBaseTraversal`; `none` is the `TypeError` of reading `tile.parent` when the
tile has no parent. -/
def inBaseTraversal (s : State) (tile : TileId) (baseScreenSpaceError : ℚ) : Option Bool :=
  if !skipLevelOfDetail s.tileset then some true
  else if s.tileset.immediatelyLoadDesiredLevelOfDetail then some false
  else if (s.tiles tile)._ancestorWithContent.isNone then some true
  else if (s.tiles tile)._screenSpaceError = 0 then
    (s.tiles tile).parent.map fun parent =>
      decide ((s.tiles parent)._screenSpaceError > baseScreenSpaceError)
  else some (decide ((s.tiles tile)._screenSpaceError > baseScreenSpaceError))

/-- The body of the loop of `selectDescendants`, for the tile just popped. -/
def selectDescendantsVisit (env : Env) (frameState : FrameState) (root : TileId) (fuel : Nat)
    (s : State) (tile : TileId) : Option State :=
  (s.tiles tile).children.foldlM
    (fun (s : State) child =>
      if isVisible (s.tiles child) then
        if (s.tiles child).contentAvailable then
          (updateTile env frameState fuel s child).map fun s =>
            selectTile env (touchTile s child frameState) child frameState
        else if (s.tiles child)._depth - (s.tiles root)._depth < descendantSelectionDepth then
          some { s with descendantTraversal := { s.descendantTraversal with
            stack := child :: s.descendantTraversal.stack } }
        else some s
      else some s)
    s

/-- The loop of `selectDescendants` over `descendantTraversal.stack`. -/
def selectDescendantsLoop (env : Env) (frameState : FrameState) (root : TileId) :
    Nat → State → Option State
  | 0, _ => none
  | fuel + 1, s =>
    match s.descendantTraversal.stack with
    | [] => some s
    | tile :: rest =>
      let s := { s with descendantTraversal :=
        { stack := rest
          stackMaximumLength :=
            max s.descendantTraversal.stackMaximumLength (tile :: rest).length } }
      match selectDescendantsVisit env frameState root fuel s tile with
      | none => none
      | some s => selectDescendantsLoop env frameState root fuel s

/-- The function `selectDescendants`. -/
def selectDescendants (env : Env) (frameState : FrameState) (fuel : Nat) (s : State)
    (root : TileId) : Option State :=
  let s := { s with descendantTraversal := { s.descendantTraversal with
    stack := root :: s.descendantTraversal.stack } }
  selectDescendantsLoop env frameState root fuel s

/-- The function `selectDesiredTile`. -/
def selectDesiredTile (env : Env) (frameState : FrameState) (fuel : Nat) (s : State)
    (tile : TileId) : Option State :=
  if !skipLevelOfDetail s.tileset then
    if (s.tiles tile).contentAvailable then some (selectTile env s tile frameState)
    else some s
  else
    let loadedTile :=
      if (s.tiles tile).contentAvailable then some tile
      else (s.tiles tile)._ancestorWithContentAvailable
    match loadedTile with
    | some loadedTile => some (s.setTile loadedTile fun t => { t with _shouldSelect := true })
    | none => selectDescendants env frameState fuel s tile

/-- The local `parentRefines` of `executeTraversal`. -/
def parentRefines (s : State) (tile : TileId) : Bool :=
  match (s.tiles tile).parent with
  | none => true
  | some parent => (s.tiles parent)._refines

/-- The computation of the local `refines` in the body of the loop of `executeTraversal`. -/
def executeTraversalRefine (env : Env) (frameState : FrameState) (fuel : Nat) (s : State)
    (tile : TileId) (parentRefines : Bool) : Option (State × Bool) :=
  if canTraverse s.tileset (s.tiles tile) then
    (updateAndPushChildren env frameState fuel s tile).map fun r => (r.1, r.2 && parentRefines)
  else some (s, false)

/-- The case distinction in the body of the loop of `executeTraversal` on the content of the
tile (empty, additive, replacement) that loads the tile and selects the desired tile. -/
def executeTraversalSelect (env : Env) (frameState : FrameState) (fuel : Nat) (s : State)
    (tile : TileId) (add replace baseTraversal stoppedRefining : Bool) : Option State :=
  if hasEmptyContent (s.tiles tile) then
    let s := addEmptyTile s tile
    let s := loadTile env s tile frameState
    if stoppedRefining then selectDesiredTile env frameState fuel s tile else some s
  else if add then
    (selectDesiredTile env frameState fuel s tile).map fun s => loadTile env s tile frameState
  else if replace then
    if baseTraversal then
      let s := loadTile env s tile frameState
      if stoppedRefining then selectDesiredTile env frameState fuel s tile else some s
    else if stoppedRefining then
      (selectDesiredTile env frameState fuel s tile).map fun s => loadTile env s tile frameState
    else if reachedSkippingThreshold s tile then some (loadTile env s tile frameState)
    else some s
  else some s

/-- The body of the loop of `executeTraversal`, for the tile just popped. -/
def executeTraversalVisit (env : Env) (frameState : FrameState) (baseScreenSpaceError : ℚ)
    (fuel : Nat) (s : State) (tile : TileId) : Option State :=
  let s := updateTileAncestorContentLinks s tile frameState
  (inBaseTraversal s tile baseScreenSpaceError).bind fun baseTraversal =>
    let add := decide ((s.tiles tile).refine = Cesium3DTileRefine.ADD)
    let replace := decide ((s.tiles tile).refine = Cesium3DTileRefine.REPLACE)
    let parentRefines := parentRefines s tile
    (executeTraversalRefine env frameState fuel s tile parentRefines).bind fun r =>
      let refines := r.2
      let stoppedRefining := !refines && parentRefines
      (executeTraversalSelect env frameState fuel r.1 tile add replace baseTraversal
          stoppedRefining).map fun s =>
        let s := visitTile s tile frameState
        let s := touchTile s tile frameState
        s.setTile tile fun t => { t with _refines := refines }

/-- The loop of `executeTraversal` over `traversal.stack`. -/
def executeTraversalLoop (env : Env) (frameState : FrameState) (baseScreenSpaceError : ℚ) :
    Nat → State → Option State
  | 0, _ => none
  | fuel + 1, s =>
    match s.traversal.stack with
    | [] => some s
    | tile :: rest =>
      let s := { s with traversal :=
        { stack := rest
          stackMaximumLength := max s.traversal.stackMaximumLength (tile :: rest).length } }
      match executeTraversalVisit env frameState baseScreenSpaceError fuel s tile with
      | none => none
      | some s => executeTraversalLoop env frameState baseScreenSpaceError fuel s

/-- The function `executeTraversal`.  Its parameter `maximumScreenSpaceError` is not read by the
body, which uses `tileset._maximumScreenSpaceError` through `canTraverse`. -/
def executeTraversal (env : Env) (frameState : FrameState) (fuel : Nat) (s : State)
    (root : TileId) (baseScreenSpaceError : ℚ) (_maximumScreenSpaceError : ℚ) : Option State :=
  let s := { s with traversal := { s.traversal with stack := root :: s.traversal.stack } }
  executeTraversalLoop env frameState baseScreenSpaceError fuel s

/-- The last part of the body of the loop of `traverseAndSelect`: the visible children of the
popped tile are pushed when the tile can be traversed. -/
def pushVisibleChildren (s : State) (traverse : Bool) (children : List TileId) : State :=
  if traverse then
    children.foldl
      (fun (s : State) child =>
        if isVisible (s.tiles child) then
          { s with selectionTraversal := { s.selectionTraversal with
            stack := child :: s.selectionTraversal.stack } }
        else s)
      s
  else s

/-- The body of the loop of `traverseAndSelect`: one iteration, from the state and the local
`lastAncestor` to the state and `lastAncestor` at the next test of the loop condition.  Popping
the empty stack gives `undefined` and leaves the stack empty. -/
def traverseAndSelectStep (env : Env) (frameState : FrameState) (s : State)
    (lastAncestor : Option TileId) : State × Option TileId :=
  let s := { s with selectionTraversal := { s.selectionTraversal with
    stackMaximumLength :=
      max s.selectionTraversal.stackMaximumLength s.selectionTraversal.stack.length } }
  let s := { s with selectionTraversal := { s.selectionTraversal with
    ancestorStackMaximumLength :=
      max s.selectionTraversal.ancestorStackMaximumLength
        s.selectionTraversal.ancestorStack.length } }
  let waiting :=
    match s.selectionTraversal.ancestorStack with
    | waitingTile :: ancestorRest =>
      if (s.tiles waitingTile)._stackLength = s.selectionTraversal.stack.length then
        some (waitingTile, ancestorRest)
      else none
    | [] => none
  match waiting with
  | some (waitingTile, ancestorRest) =>
    let s := { s with selectionTraversal := { s.selectionTraversal with
      ancestorStack := ancestorRest } }
    let s :=
      if some waitingTile ≠ lastAncestor then
        s.setTile waitingTile fun t => { t with _finalResolution := false }
      else s
    (selectTile env s waitingTile frameState, lastAncestor)
  | none =>
    match s.selectionTraversal.stack with
    | [] => (s, lastAncestor)
    | tile :: rest =>
      let s := { s with selectionTraversal := { s.selectionTraversal with stack := rest } }
      let add := decide ((s.tiles tile).refine = Cesium3DTileRefine.ADD)
      let shouldSelect := (s.tiles tile)._shouldSelect
      let children := (s.tiles tile).children
      let traverse := canTraverse s.tileset (s.tiles tile)
      if shouldSelect then
        if add then
          let s := selectTile env s tile frameState
          (pushVisibleChildren s traverse children, lastAncestor)
        else
          let s := s.setTile tile fun t =>
            { t with _selectionDepth := s.selectionTraversal.ancestorStack.length }
          let s :=
            if (s.tiles tile)._selectionDepth > 0 then
              s.setTileset fun ts => { ts with _hasMixedContent := true }
            else s
          let lastAncestor := some tile
          if !traverse then
            (selectTile env s tile frameState, lastAncestor)
          else
            let s := { s with selectionTraversal := { s.selectionTraversal with
              ancestorStack := tile :: s.selectionTraversal.ancestorStack } }
            let s := s.setTile tile fun t =>
              { t with _stackLength := s.selectionTraversal.stack.length }
            (pushVisibleChildren s traverse children, lastAncestor)
      else
        (pushVisibleChildren s traverse children, lastAncestor)

/-- The loop of `traverseAndSelect` over `selectionTraversal.stack` and
`selectionTraversal.ancestorStack`; `lastAncestor` is the local variable of that name. -/
def traverseAndSelectLoop (env : Env) (frameState : FrameState) :
    Nat → State → Option TileId → Option State
  | 0, _, _ => none
  | fuel + 1, s, lastAncestor =>
    if s.selectionTraversal.stack.length > 0 ∨ s.selectionTraversal.ancestorStack.length > 0 then
      let r := traverseAndSelectStep env frameState s lastAncestor
      traverseAndSelectLoop env frameState fuel r.1 r.2
    else some s

/-- The function `traverseAndSelect`. -/
def traverseAndSelect (env : Env) (frameState : FrameState) (fuel : Nat) (s : State)
    (root : TileId) : Option State :=
  let s := { s with selectionTraversal := { s.selectionTraversal with
    stack := root :: s.selectionTraversal.stack } }
  traverseAndSelectLoop env frameState fuel s none

/-- The function `executeBaseTraversal`. -/
def executeBaseTraversal (env : Env) (frameState : FrameState) (fuel : Nat) (s : State)
    (root : TileId) : Option State :=
  let baseScreenSpaceError := s.tileset._maximumScreenSpaceError
  let maximumScreenSpaceError := s.tileset._maximumScreenSpaceError
  executeTraversal env frameState fuel s root baseScreenSpaceError maximumScreenSpaceError

/-- The function `executeSkipTraversal`. -/
def executeSkipTraversal (env : Env) (frameState : FrameState) (fuel : Nat) (s : State)
    (root : TileId) : Option State :=
  let baseScreenSpaceError := Number.MAX_VALUE
  let maximumScreenSpaceError := s.tileset._maximumScreenSpaceError
  (executeTraversal env frameState fuel s root baseScreenSpaceError maximumScreenSpaceError).bind
    fun s => traverseAndSelect env frameState fuel s root

/-- The function `executeBaseAndSkipTraversal`. -/
def executeBaseAndSkipTraversal (env : Env) (frameState : FrameState) (fuel : Nat) (s : State)
    (root : TileId) : Option State :=
  let baseScreenSpaceError := max s.tileset.baseScreenSpaceError s.tileset.maximumScreenSpaceError
  let maximumScreenSpaceError := s.tileset.maximumScreenSpaceError
  (executeTraversal env frameState fuel s root baseScreenSpaceError maximumScreenSpaceError).bind
    fun s => traverseAndSelect env frameState fuel s root

/-- The function `Cesium3DTilesetTraversal.selectTiles`.  The final `trim` calls only release
spare capacity of the stacks and write nothing the state records. -/
def selectTiles (env : Env) (frameState : FrameState) (fuel : Nat) (s : State) : Option State :=
  let s := s.setTileset fun ts => { ts with _requestedTiles := [] }
  if s.tileset.debugFreezeFrame then some s
  else
    let s := s.setTileset fun ts => { ts with _selectedTiles := [] }
    let s := s.setTileset fun ts => { ts with _selectedTilesToStyle := [] }
    let s := s.setTileset fun ts => { ts with _emptyTiles := [] }
    let s := s.setTileset fun ts => { ts with _hasMixedContent := false }
    let root := s.tileset.root
    match updateTile env frameState fuel s root with
    | none => none
    | some s =>
      if !isVisible (s.tiles root) then some s
      else if env.getScreenSpaceError frameState root ≤ s.tileset._maximumScreenSpaceError then
        some s
      else if !skipLevelOfDetail s.tileset then executeBaseTraversal env frameState fuel s root
      else if s.tileset.immediatelyLoadDesiredLevelOfDetail then
        executeSkipTraversal env frameState fuel s root
      else executeBaseAndSkipTraversal env frameState fuel s root

/-! ## Frames: which fields an operation may write -/

/-- The fields that the traversal writes: fields of a tile (`content` stands for the five
content-state getters), fields of the tileset and the module-level traversal records. -/
inductive Field where
  | children
  | content
  | featurePropertiesDirty
  | lastStyleTime
  | priorityDeferred
  | _visible
  | _inRequestVolume
  | _distanceToCamera
  | _centerZDepth
  | _screenSpaceError
  | _updatedVisibilityFrame
  | _touchedFrame
  | _visitedFrame
  | _selectedFrame
  | _requestedFrame
  | _wasMinPriorityChild
  | _priorityDistance
  | _priorityDistanceHolder
  | _foveatedFactor
  | _shouldSelect
  | _finalResolution
  | _selectionDepth
  | _stackLength
  | _refines
  | _ancestorWithContent
  | _ancestorWithContentAvailable
  | _requestedTiles
  | _selectedTiles
  | _selectedTilesToStyle
  | _emptyTiles
  | _hasMixedContent
  | _statistics
  | _maxPriority
  | _minPriority
  | _cache
  | traversal
  | emptyTraversal
  | descendantTraversal
  | selectionTraversal
  deriving DecidableEq, Repr

/-- The tile field `f` has the same value in `t'` as in `t` (true for a field that is not a tile
field). -/
def Field.tileSame : Field → Tile → Tile → Prop
  | .children, t, t' => t'.children = t.children
  | .content, t, t' => t'.contentState = t.contentState
  | .featurePropertiesDirty, t, t' => t'.featurePropertiesDirty = t.featurePropertiesDirty
  | .lastStyleTime, t, t' => t'.lastStyleTime = t.lastStyleTime
  | .priorityDeferred, t, t' => t'.priorityDeferred = t.priorityDeferred
  | ._visible, t, t' => t'._visible = t._visible
  | ._inRequestVolume, t, t' => t'._inRequestVolume = t._inRequestVolume
  | ._distanceToCamera, t, t' => t'._distanceToCamera = t._distanceToCamera
  | ._centerZDepth, t, t' => t'._centerZDepth = t._centerZDepth
  | ._screenSpaceError, t, t' => t'._screenSpaceError = t._screenSpaceError
  | ._updatedVisibilityFrame, t, t' => t'._updatedVisibilityFrame = t._updatedVisibilityFrame
  | ._touchedFrame, t, t' => t'._touchedFrame = t._touchedFrame
  | ._visitedFrame, t, t' => t'._visitedFrame = t._visitedFrame
  | ._selectedFrame, t, t' => t'._selectedFrame = t._selectedFrame
  | ._requestedFrame, t, t' => t'._requestedFrame = t._requestedFrame
  | ._wasMinPriorityChild, t, t' => t'._wasMinPriorityChild = t._wasMinPriorityChild
  | ._priorityDistance, t, t' => t'._priorityDistance = t._priorityDistance
  | ._priorityDistanceHolder, t, t' => t'._priorityDistanceHolder = t._priorityDistanceHolder
  | ._foveatedFactor, t, t' => t'._foveatedFactor = t._foveatedFactor
  | ._shouldSelect, t, t' => t'._shouldSelect = t._shouldSelect
  | ._finalResolution, t, t' => t'._finalResolution = t._finalResolution
  | ._selectionDepth, t, t' => t'._selectionDepth = t._selectionDepth
  | ._stackLength, t, t' => t'._stackLength = t._stackLength
  | ._refines, t, t' => t'._refines = t._refines
  | ._ancestorWithContent, t, t' => t'._ancestorWithContent = t._ancestorWithContent
  | ._ancestorWithContentAvailable, t, t' => t'._ancestorWithContentAvailable = t._ancestorWithContentAvailable
  | _, _, _ => True

/-- The tileset field or traversal record `f` has the same value in `s'` as in `s` (true for a
tile field). -/
def Field.globalSame : Field → State → State → Prop
  | ._requestedTiles, s, s' => s'.tileset._requestedTiles = s.tileset._requestedTiles
  | ._selectedTiles, s, s' => s'.tileset._selectedTiles = s.tileset._selectedTiles
  | ._selectedTilesToStyle, s, s' => s'.tileset._selectedTilesToStyle = s.tileset._selectedTilesToStyle
  | ._emptyTiles, s, s' => s'.tileset._emptyTiles = s.tileset._emptyTiles
  | ._hasMixedContent, s, s' => s'.tileset._hasMixedContent = s.tileset._hasMixedContent
  | ._statistics, s, s' => s'.tileset._statistics = s.tileset._statistics
  | ._maxPriority, s, s' => s'.tileset._maxPriority = s.tileset._maxPriority
  | ._minPriority, s, s' => s'.tileset._minPriority = s.tileset._minPriority
  | ._cache, s, s' => s'.tileset._cache = s.tileset._cache
  | .traversal, s, s' => s'.traversal = s.traversal
  | .emptyTraversal, s, s' => s'.emptyTraversal = s.emptyTraversal
  | .descendantTraversal, s, s' => s'.descendantTraversal = s.descendantTraversal
  | .selectionTraversal, s, s' => s'.selectionTraversal = s.selectionTraversal
  | _, _, _ => True

/-- The fields of a tile that the traversal never writes are the same in `t'` as in `t`, and the
children are the same up to their order. -/
structure Tile.Static (t t' : Tile) : Prop where
  children : t'.children.Perm t.children
  parent : t'.parent = t.parent
  refine : t'.refine = t.refine
  boundingSphere : t'.boundingSphere = t.boundingSphere
  _optimChildrenWithinParent : t'._optimChildrenWithinParent = t._optimChildrenWithinParent
  _depth : t'._depth = t._depth

/-- The configuration fields of the tileset, which the traversal never writes, are the same in
`ts'` as in `ts`. -/
structure Tileset.Static (ts ts' : Tileset) : Prop where
  root : ts'.root = ts.root
  debugFreezeFrame : ts'.debugFreezeFrame = ts.debugFreezeFrame
  _skipLevelOfDetail : ts'._skipLevelOfDetail = ts._skipLevelOfDetail
  immediatelyLoadDesiredLevelOfDetail : ts'.immediatelyLoadDesiredLevelOfDetail = ts.immediatelyLoadDesiredLevelOfDetail
  loadSiblings : ts'.loadSiblings = ts.loadSiblings
  cullRequestsWhileMoving : ts'.cullRequestsWhileMoving = ts.cullRequestsWhileMoving
  cullRequestsWhileMovingMultiplier : ts'.cullRequestsWhileMovingMultiplier = ts.cullRequestsWhileMovingMultiplier
  foveatedScreenSpaceError : ts'.foveatedScreenSpaceError = ts.foveatedScreenSpaceError
  foveatedConeSize : ts'.foveatedConeSize = ts.foveatedConeSize
  foveatedMinimumScreenSpaceErrorRelaxation : ts'.foveatedMinimumScreenSpaceErrorRelaxation = ts.foveatedMinimumScreenSpaceErrorRelaxation
  foveatedTimeDelay : ts'.foveatedTimeDelay = ts.foveatedTimeDelay
  _maximumScreenSpaceError : ts'._maximumScreenSpaceError = ts._maximumScreenSpaceError
  maximumScreenSpaceError : ts'.maximumScreenSpaceError = ts.maximumScreenSpaceError
  baseScreenSpaceError : ts'.baseScreenSpaceError = ts.baseScreenSpaceError
  skipScreenSpaceErrorFactor : ts'.skipScreenSpaceErrorFactor = ts.skipScreenSpaceErrorFactor
  skipLevels : ts'.skipLevels = ts.skipLevels
  _updatedVisibilityFrame : ts'._updatedVisibilityFrame = ts._updatedVisibilityFrame

/-- A set of fields, as its characteristic function. -/
abbrev Mask := Field → Bool

/-- The mask `M` contains every field of the list `l`. -/
def Mask.contains (M : Mask) (l : List Field) : Prop := ∀ f ∈ l, M f = true

/-- The mask of the fields of a list. -/
def Mask.of (l : List Field) : Mask := fun f => decide (f ∈ l)

/-- Going from `s` to `s'` wrote no field outside the mask `M`: the static fields are the same
and every field outside `M` has the same value, on every tile. -/
structure Frame (M : Mask) (s s' : State) : Prop where
  tileStatic : ∀ t, Tile.Static (s.tiles t) (s'.tiles t)
  tilesetStatic : Tileset.Static s.tileset s'.tileset
  tile : ∀ f, M f = false → ∀ t, f.tileSame (s.tiles t) (s'.tiles t)
  global : ∀ f, M f = false → f.globalSame s s'

/-- The fields `updateTile` may write, apart from the content state. -/
def updateTileFields : List Field :=
  [._visible, ._inRequestVolume, ._distanceToCamera, ._centerZDepth, ._screenSpaceError,
    ._updatedVisibilityFrame, ._statistics, ._wasMinPriorityChild, ._priorityDistance,
    ._priorityDistanceHolder, ._maxPriority, ._minPriority, ._shouldSelect, ._finalResolution]

/-- The fields `loadTile` may write. -/
def loadTileFields : List Field :=
  [._foveatedFactor, .priorityDeferred, ._requestedFrame, ._requestedTiles]

/-- The fields `touchTile` may write. -/
def touchTileFields : List Field := [._touchedFrame, ._cache]

/-- The fields `selectTile` may write. -/
def selectTileFields : List Field :=
  [.featurePropertiesDirty, .lastStyleTime, ._selectedFrame, ._selectedTilesToStyle,
    ._selectedTiles]

/-- The fields `executeEmptyTraversal` may write, apart from the content state. -/
def emptyTraversalFields : List Field :=
  updateTileFields ++ loadTileFields ++ touchTileFields ++ [.emptyTraversal]

/-- The fields `updateAndPushChildren` may write, apart from the content state. -/
def pushChildrenFields : List Field :=
  emptyTraversalFields ++ [.children, .traversal]

/-- The per-tile operation `updateExpiration` leaves the content state of every tile as it is
(no tile expires during the frame). -/
def Env.ContentStable (env : Env) : Prop :=
  ∀ i c, env.tileUpdateExpiration i c = c

/-- The sum of the sizes of the tiles of a stack. -/
def stackSize (size : TileId → Nat) (stack : List TileId) : Nat :=
  (stack.map size).sum

/-- The function `size` bounds the tree below every tile: the sizes of the children of a tile
add up to less than the size of the tile.  Such a function exists exactly when the `children`
arrays describe finite trees. -/
def SizeOK (size : TileId → Nat) (s : State) : Prop :=
  ∀ p, stackSize size (s.tiles p).children < size p

/-- The heap is a finite tree of tiles under `tileset.root`, as `Cesium3DTile` builds it, and the
module-level stacks are empty, as every traversal leaves them: `size` bounds the subtrees, the
`parent` of a child is the tile that lists it, the root has no parent and no tile lists a child
twice. -/
structure WellFormed (size : TileId → Nat) (s : State) : Prop where
  sizeOK : SizeOK size s
  parent_of_child : ∀ p c, c ∈ (s.tiles p).children → (s.tiles c).parent = some p
  root_parent : (s.tiles s.tileset.root).parent = none
  children_nodup : ∀ p, (s.tiles p).children.Nodup
  traversal_stack : s.traversal.stack = []
  emptyTraversal_stack : s.emptyTraversal.stack = []
  descendantTraversal_stack : s.descendantTraversal.stack = []
  selectionTraversal_stack : s.selectionTraversal.stack = []
  selectionTraversal_ancestorStack : s.selectionTraversal.ancestorStack = []

/-- Every field. -/
def Mask.all : Mask := fun _ => true

/-! ## Sample objects -/

/-- A tile as it is before its first traversal: no parent, no children, REPLACE refinement,
content not yet loaded, frame stamps 0. -/
def sampleTile : Tile :=
  { parent := none
    children := []
    refine := Cesium3DTileRefine.REPLACE
    boundingSphere := { center := { x := 0, y := 0, z := 0 }, radius := 1 }
    hasEmptyContent := false
    hasTilesetContent := false
    contentAvailable := false
    contentUnloaded := true
    contentExpired := false
    featurePropertiesDirty := false
    lastStyleTime := 0
    priorityDeferred := false
    _optimChildrenWithinParent := Cesium3DTileOptimizationHint.NOT_COMPUTED
    _depth := 0
    _visible := false
    _inRequestVolume := false
    _distanceToCamera := 0
    _centerZDepth := 0
    _screenSpaceError := 0
    _updatedVisibilityFrame := 0
    _touchedFrame := 0
    _visitedFrame := 0
    _selectedFrame := 0
    _requestedFrame := 0
    _wasMinPriorityChild := false
    _priorityDistance := 0
    _priorityDistanceHolder := 0
    _foveatedFactor := 0
    _shouldSelect := false
    _finalResolution := true
    _selectionDepth := 0
    _stackLength := 0
    _refines := false
    _ancestorWithContent := none
    _ancestorWithContentAvailable := none }

/-- A tileset with root tile 0, target screen-space error 16, mixed-LOD rendering and foveation
off, and empty output arrays. -/
def sampleTileset : Tileset :=
  { root := 0
    debugFreezeFrame := false
    _skipLevelOfDetail := false
    immediatelyLoadDesiredLevelOfDetail := false
    loadSiblings := false
    cullRequestsWhileMoving := false
    cullRequestsWhileMovingMultiplier := 60
    foveatedScreenSpaceError := false
    foveatedConeSize := 1 / 10
    foveatedMinimumScreenSpaceErrorRelaxation := 0
    foveatedTimeDelay := 1 / 5
    _maximumScreenSpaceError := 16
    maximumScreenSpaceError := 16
    baseScreenSpaceError := 1024
    skipScreenSpaceErrorFactor := 16
    skipLevels := 1
    _updatedVisibilityFrame := 1
    _requestedTiles := []
    _selectedTiles := []
    _selectedTilesToStyle := []
    _emptyTiles := []
    _hasMixedContent := false
    _statistics := { visited := 0, numberOfTilesCulledWithChildrenUnion := 0 }
    _maxPriority := { distance := 0, depth := 0 }
    _minPriority := { distance := 0, depth := 0 }
    _cache := [] }

/-- A camera at the origin looking along the z axis, at rest. -/
def sampleCamera : Camera :=
  { positionWC := { x := 0, y := 0, z := 0 }
    directionWC := { x := 0, y := 0, z := 1 }
    positionWCDeltaMagnitude := 0
    positionWCDeltaMagnitudeLastFrame := 0
    fov := 1287 / 1000
    _timeSinceCameraMoved := 1000 }

/-- Frame number 1 with the sample camera. -/
def sampleFrameState : FrameState :=
  { frameNumber := 1
    camera := sampleCamera }

/-- A square root that is exact on the squared lengths 25, 36 and 169. -/
def sampleSqrt (x : ℚ) : ℚ :=
  if x = 25 then 5 else if x = 36 then 6 else if x = 169 then 13 else 1

/-- An environment: every tile is visible, inside the request volume, at distance 10 with
screen-space error 32; content state never expires; contents are inside the view; the vector
operations are the usual ones, with `sampleSqrt` for lengths; the cosine of half the field of
view is 4/5; the interpolation callback is linear interpolation. -/
def sampleEnv : Env :=
  { tileUpdateVisibility := fun _ _ =>
      { _visible := true
        _inRequestVolume := true
        _distanceToCamera := 10
        _centerZDepth := 10
        _screenSpaceError := 32 }
    tileUpdateExpiration := fun _ c => c
    getScreenSpaceError := fun _ _ => 32
    contentVisibility := fun _ _ => Intersect.INSIDE
    multiplyByScalar := fun v k => { x := v.x * k, y := v.y * k, z := v.z * k }
    add := fun a b => { x := a.x + b.x, y := a.y + b.y, z := a.z + b.z }
    subtract := fun a b => { x := a.x - b.x, y := a.y - b.y, z := a.z - b.z }
    dot := fun a b => a.x * b.x + a.y * b.y + a.z * b.z
    normalize := fun v =>
      let m := sampleSqrt (v.x * v.x + v.y * v.y + v.z * v.z)
      { x := v.x / m, y := v.y / m, z := v.z / m }
    cos := fun _ => 4 / 5
    clamp := fun v lo hi => if v < lo then lo else if v > hi then hi else v
    foveatedInterpolationCallback := fun p q time => (1 - time) * p + time * q }

/-- A state with the given heap and tileset and empty traversal stacks. -/
def sampleState (tiles : TileId → Tile) (tileset : Tileset) : State :=
  { tiles := tiles
    tileset := tileset
    traversal := { stack := [], stackMaximumLength := 0 }
    emptyTraversal := { stack := [], stackMaximumLength := 0 }
    descendantTraversal := { stack := [], stackMaximumLength := 0 }
    selectionTraversal :=
      { stack := [], stackMaximumLength := 0, ancestorStack := [], ancestorStackMaximumLength := 0 } }

/-- A frozen tileset that still lists tiles 3 and 4 as requested and tile 7 as selected. -/
def frozenState : State :=
  sampleState (fun _ => sampleTile)
    { sampleTileset with
      debugFreezeFrame := true
      _requestedTiles := [3, 4]
      _selectedTiles := [7] }

/-- The sample environment, except that no tile is visible. -/
def hiddenEnv : Env :=
  { sampleEnv with
    tileUpdateVisibility := fun _ _ =>
      { _visible := false
        _inRequestVolume := true
        _distanceToCamera := 10
        _centerZDepth := 10
        _screenSpaceError := 32 } }

/-- A tileset of one tile whose output arrays still hold the tiles of the previous frame. -/
def staleState : State :=
  sampleState (fun _ => sampleTile)
    { sampleTileset with
      _requestedTiles := [3]
      _selectedTiles := [7]
      _selectedTilesToStyle := [7]
      _emptyTiles := [8]
      _hasMixedContent := true }

/-- A tileset with mixed-LOD rendering and foveation on (cone size 1/10, time delay 1/5 s). -/
def foveatedTileset : Tileset :=
  { sampleTileset with
    _skipLevelOfDetail := true
    foveatedScreenSpaceError := true }

/-- Tile 1 lies off the view axis: bounding sphere of radius 1 around (6, 0, 12), 12 in front of
the camera, unloaded, with the given screen-space error.  Its foveated factor is 1/13; the cone
factor is 1/10 * (1 - 4/5) = 1/50. -/
def peripheralState (sse : ℚ) : State :=
  sampleState
    (fun i =>
      if i = 1 then
        { sampleTile with
          boundingSphere := { center := { x := 6, y := 0, z := 12 }, radius := 1 }
          _centerZDepth := 12
          _screenSpaceError := sse }
      else sampleTile)
    foveatedTileset

/-- The sample frame with a camera that moved at this instant. -/
def movingFrameState : FrameState :=
  { sampleFrameState with camera := { sampleCamera with _timeSinceCameraMoved := 0 } }

/-- The fields that the body of the loop of `executeTraversal` may write before it stamps the
tile as visited, apart from the content state, when mixed-LOD rendering is off. -/
def visitFields : List Field :=
  pushChildrenFields ++ selectTileFields
    ++ [._ancestorWithContent, ._ancestorWithContentAvailable, ._emptyTiles]

/-- The invariant of the loop of `executeTraversal` when mixed-LOD rendering is off, relative to
the state `s0` at the start of the frame; `visited` lists the tiles popped so far.  The stack
holds distinct tiles that were not visited yet, every tile on the stack or visited is the root
or has a visited parent, every selected tile was visited, a selected tile that is not additive
stopped refining under a parent that refines, the tiles stamped with this frame number were
visited (when none was stamped with it at the start), and (when no content expires) every visited additive tile with non-empty available
content inside the view is selected; no tile is selected twice. -/
structure BaseInv (env : Env) (frameState : FrameState) (s0 s : State)
    (visited : List TileId) : Prop where
  frame : Frame Mask.all s0 s
  emptyStack : s.emptyTraversal.stack = []
  nodup : s.traversal.stack.Nodup
  fresh : ∀ x ∈ s.traversal.stack, x ∉ visited
  parent : ∀ x, x ∈ s.traversal.stack ∨ x ∈ visited →
    x = s0.tileset.root ∨ ∃ p, (s0.tiles x).parent = some p ∧ p ∈ visited
  selected : ∀ x ∈ s.tileset._selectedTiles, x ∈ visited
    ∧ ((s0.tiles x).refine ≠ Cesium3DTileRefine.ADD →
        (s.tiles x)._refines = false ∧ parentRefines s x = true)
  stamped : (∀ x, (s0.tiles x)._visitedFrame ≠ frameState.frameNumber) →
    ∀ x, (s.tiles x)._visitedFrame = frameState.frameNumber → x ∈ visited
  additive : env.ContentStable → ∀ x ∈ visited,
    (s0.tiles x).refine = Cesium3DTileRefine.ADD → hasEmptyContent (s0.tiles x) = false →
    (s0.tiles x).contentAvailable = true →
    env.contentVisibility frameState x ≠ Intersect.OUTSIDE → x ∈ s.tileset._selectedTiles
  content : env.ContentStable → ∀ x, (s.tiles x).contentState = (s0.tiles x).contentState
  selectedNodup : s.tileset._selectedTiles.Nodup

/-- A tree of three tiles: the root 0 is a REPLACE tile with available content; its child 1 is an
ADD tile with available content, its child 2 a REPLACE tile whose content is not loaded. -/
def mixedRefineTiles : TileId → Tile := fun i =>
  if i = 0 then
    { sampleTile with
      children := [1, 2]
      contentAvailable := true
      contentUnloaded := false }
  else if i = 1 then
    { sampleTile with
      parent := some 0
      refine := Cesium3DTileRefine.ADD
      contentAvailable := true
      contentUnloaded := false
      _depth := 1 }
  else if i = 2 then
    { sampleTile with
      parent := some 0
      _depth := 1 }
  else sampleTile

/-- The three-tile tree under the sample tileset (mixed-LOD rendering off). -/
def mixedRefineState : State :=
  sampleState mixedRefineTiles sampleTileset

/-- A size function for the three-tile tree. -/
def mixedRefineSize : TileId → Nat := fun i => if i = 0 then 3 else 1

/-- The two traversal modules a pass can name in `Cesium3DTilePass.js`. -/
inductive TraversalModule where
  | Cesium3DTilesetTraversal
  | Cesium3DTilesetMostDetailedTraversal
  deriving DecidableEq, Repr

/-- The options record of a pass. -/
structure PassOptions where
  traversal : TraversalModule
  isRender : Bool
  requestTiles : Bool
  ignoreCommands : Bool
  deriving DecidableEq, Repr

/-- The constant `Cesium3DTilePass.RENDER`. -/
def Cesium3DTilePass.RENDER : Nat := 0

/-- The constant `Cesium3DTilePass.PICK`. -/
def Cesium3DTilePass.PICK : Nat := 1

/-- The constant `Cesium3DTilePass.SHADOW`. -/
def Cesium3DTilePass.SHADOW : Nat := 2

/-- The constant `Cesium3DTilePass.PREFETCH`. -/
def Cesium3DTilePass.PREFETCH : Nat := 3

/-- The constant `Cesium3DTilePass.MOST_DETAILED_PREFETCH`. -/
def Cesium3DTilePass.MOST_DETAILED_PREFETCH : Nat := 4

/-- The constant `Cesium3DTilePass.MOST_DETAILED_PICK`. -/
def Cesium3DTilePass.MOST_DETAILED_PICK : Nat := 5

/-- The constant `Cesium3DTilePass.NUMBER_OF_PASSES`. -/
def Cesium3DTilePass.NUMBER_OF_PASSES : Nat := 6

/-- The module-level array `passOptions` after the six assignments; `none` is an element that
was never assigned. -/
def passOptions : List (Option PassOptions) :=
  let a : List (Option PassOptions) := List.replicate Cesium3DTilePass.NUMBER_OF_PASSES none
  let a := a.set Cesium3DTilePass.RENDER (some
    { traversal := .Cesium3DTilesetTraversal
      isRender := true
      requestTiles := true
      ignoreCommands := false })
  let a := a.set Cesium3DTilePass.PICK (some
    { traversal := .Cesium3DTilesetTraversal
      isRender := false
      requestTiles := false
      ignoreCommands := false })
  let a := a.set Cesium3DTilePass.SHADOW (some
    { traversal := .Cesium3DTilesetTraversal
      isRender := false
      requestTiles := true
      ignoreCommands := false })
  let a := a.set Cesium3DTilePass.PREFETCH (some
    { traversal := .Cesium3DTilesetTraversal
      isRender := false
      requestTiles := true
      ignoreCommands := true })
  let a := a.set Cesium3DTilePass.MOST_DETAILED_PREFETCH (some
    { traversal := .Cesium3DTilesetMostDetailedTraversal
      isRender := false
      requestTiles := true
      ignoreCommands := true })
  a.set Cesium3DTilePass.MOST_DETAILED_PICK (some
    { traversal := .Cesium3DTilesetMostDetailedTraversal
      isRender := false
      requestTiles := false
      ignoreCommands := false })

/-- The function `Cesium3DTilePass.getPassOptions`; `none` is `undefined`. -/
def Cesium3DTilePass.getPassOptions (pass : Nat) : Option PassOptions :=
  passOptions.getD pass none

/-- A tile with one child that points to an external tileset, with content that has not
expired, and a screen-space error of 0. -/
def externalPointerTile : Tile :=
  { sampleTile with children := [1], hasTilesetContent := true, contentExpired := false,
                    _screenSpaceError := 0 }

/-- The local `traverse` of `executeEmptyTraversal` for the tile just popped. -/
def emptyTraverse (s : State) (tile : TileId) : Bool :=
  hasEmptyContent (s.tiles tile) && canTraverse s.tileset (s.tiles tile)

/-- The tiles popped by the loop of `executeEmptyTraversal`, in order, each with the state in
which the loop body starts on it. -/
def executeEmptyTraversalPopped (env : Env) (frameState : FrameState) :
    Nat → State → Option (List (TileId × State))
  | 0, _ => none
  | fuel + 1, s =>
    match s.emptyTraversal.stack with
    | [] => some []
    | tile :: rest =>
      let s := { s with emptyTraversal :=
        { stack := rest
          stackMaximumLength := max s.emptyTraversal.stackMaximumLength (tile :: rest).length } }
      match executeEmptyTraversalVisit env frameState fuel s tile true with
      | none => none
      | some r =>
        (executeEmptyTraversalPopped env frameState fuel r.1).map fun l => (tile, s) :: l

/-- The tiles popped by `executeEmptyTraversal` called on `root`. -/
def executeEmptyTraversalTiles (env : Env) (frameState : FrameState) (fuel : Nat) (s : State)
    (root : TileId) : Option (List (TileId × State)) :=
  let s := { s with emptyTraversal := { s.emptyTraversal with
    stack := root :: s.emptyTraversal.stack } }
  executeEmptyTraversalPopped env frameState fuel s

/-- A tileset whose root points to an external tileset, has no children and has no content
available (the external tileset failed to load). -/
def failedPointerState : State :=
  sampleState
    (fun _ => { sampleTile with hasTilesetContent := true, contentAvailable := false,
                                contentUnloaded := false })
    sampleTileset

/-- The tile `x` is a child of the tile `p`. -/
def IsChild (s : State) (p x : TileId) : Prop :=
  x ∈ (s.tiles p).children

/-- The tile `x` is `t` or a descendant of `t`. -/
def InSubtree (s : State) (t x : TileId) : Prop :=
  Relation.ReflTransGen (IsChild s) t x

/-- The selection pass pushes `x` when it pops `p`: `p` can be traversed and `x` is a visible
child of `p`. -/
def SelectionChild (s : State) (p x : TileId) : Prop :=
  canTraverse s.tileset (s.tiles p) = true ∧ x ∈ (s.tiles p).children
    ∧ isVisible (s.tiles x) = true

/-- The selection pass started on `t` reaches `x` through the tiles of `l`: `l` lists `t` and
the tiles between `t` and `x`, the proper ancestors of `x` from `t` on. -/
inductive SelectionPath (s : State) : TileId → List TileId → TileId → Prop
  | nil (t : TileId) : SelectionPath s t [] t
  | cons {t c x : TileId} {l : List TileId} :
      SelectionChild s t c → SelectionPath s c l x → SelectionPath s t (t :: l) x

/-- The tile `d` stands before the tile `a` in the list `l`. -/
def Precedes (d a : TileId) (l : List TileId) : Prop :=
  ∃ l1 l2 l3, l = l1 ++ d :: l2 ++ a :: l3

/-- The tile is flagged `_shouldSelect` and is not an ADD tile: the tiles for which
`traverseAndSelect` writes `_selectionDepth`. -/
def flaggedReplace (s : State) (x : TileId) : Bool :=
  (s.tiles x)._shouldSelect && !decide ((s.tiles x).refine = Cesium3DTileRefine.ADD)

/-- The fields `traverseAndSelect` may write. -/
def selectionFields : List Field :=
  selectTileFields ++ [._selectionDepth, ._hasMixedContent, ._stackLength, ._finalResolution,
    .selectionTraversal]

/-- The tiles that `selectTile` appends for `tile`: the tile when its content is in view. -/
def selectedIfInView (env : Env) (frameState : FrameState) (tile : TileId) : List TileId :=
  if env.contentVisibility frameState tile ≠ Intersect.OUTSIDE then [tile] else []

/-- The start of an iteration of the loop of `traverseAndSelect` that pops a tile: the two
high-water marks are updated and the stack is left with `rest`. -/
def selectionPop (s : State) (rest : List TileId) : State :=
  { s with selectionTraversal :=
    { stack := rest
      stackMaximumLength :=
        max s.selectionTraversal.stackMaximumLength s.selectionTraversal.stack.length
      ancestorStack := s.selectionTraversal.ancestorStack
      ancestorStackMaximumLength :=
        max s.selectionTraversal.ancestorStackMaximumLength
          s.selectionTraversal.ancestorStack.length } }

/-- The two statements of `traverseAndSelect` that write `tile._selectionDepth` and
`tileset._hasMixedContent`. -/
def markSelectionDepth (s : State) (tile : TileId) : State :=
  let s := s.setTile tile fun t =>
    { t with _selectionDepth := s.selectionTraversal.ancestorStack.length }
  if (s.tiles tile)._selectionDepth > 0 then
    s.setTileset fun ts => { ts with _hasMixedContent := true }
  else s

/-- The two statements of `traverseAndSelect` that push `tile` on the ancestor stack and write
`tile._stackLength`. -/
def pushAncestor (s : State) (tile : TileId) : State :=
  let s := { s with selectionTraversal := { s.selectionTraversal with
    ancestorStack := tile :: s.selectionTraversal.ancestorStack } }
  s.setTile tile fun t => { t with _stackLength := s.selectionTraversal.stack.length }

/-- The start of an iteration of the loop of `traverseAndSelect` that takes the waiting tile
off the ancestor stack: the two high-water marks are updated, the ancestor stack is left with
`rest` and `_finalResolution` is cleared unless the tile is `lastAncestor`. -/
def ancestorPop (s : State) (lastAncestor : Option TileId) (waitingTile : TileId)
    (rest : List TileId) : State :=
  let s : State := { s with selectionTraversal :=
    { stack := s.selectionTraversal.stack
      stackMaximumLength :=
        max s.selectionTraversal.stackMaximumLength s.selectionTraversal.stack.length
      ancestorStack := rest
      ancestorStackMaximumLength :=
        max s.selectionTraversal.ancestorStackMaximumLength
          s.selectionTraversal.ancestorStack.length } }
  if some waitingTile ≠ lastAncestor then
    s.setTile waitingTile fun t => { t with _finalResolution := false }
  else s

/-- What the loop of `traverseAndSelect` has done when it has emptied the part `cs` of the stack
`cs ++ rest`, `k` iterations after the state `s`: it is in the state `s1` with the stack `rest`
and the same ancestor stack, it wrote only tiles below `cs`, and it appended `out` to
`_selectedTiles`.  `s0` is the state in which the pass started. -/
structure SelectionDone (env : Env) (frameState : FrameState) (size : TileId → Nat)
    (s0 : State) (cs rest : List TileId) (s : State) (la : Option TileId) (k : Nat)
    (s1 : State) (la1 : Option TileId) (out : List TileId) : Prop where
  steps : k ≤ 2 * stackSize size cs
  loop : ∀ fuel, traverseAndSelectLoop env frameState (fuel + k) s la
    = traverseAndSelectLoop env frameState fuel s1 la1
  frame : Frame (Mask.of selectionFields) s0 s1
  stack : s1.selectionTraversal.stack = rest
  ancestorStack : s1.selectionTraversal.ancestorStack = s.selectionTraversal.ancestorStack
  outside : ∀ x, (∀ c ∈ cs, ¬InSubtree s0 c x) → s1.tiles x = s.tiles x
  selected : s1.tileset._selectedTiles = s.tileset._selectedTiles ++ out
  sub : ∀ x ∈ out, ∃ c ∈ cs, InSubtree s0 c x
  nodup : out.Nodup
  order : ∀ a d, a ∈ out → d ∈ out → (s0.tiles a).refine ≠ Cesium3DTileRefine.ADD →
    InSubtree s0 a d → a ≠ d → Precedes d a out
  depth : ∀ c ∈ cs, ∀ l x, SelectionPath s0 c l x → flaggedReplace s0 x = true →
    (s1.tiles x)._selectionDepth
      = s.selectionTraversal.ancestorStack.length + (l.filter (flaggedReplace s0)).length
  sound : ∀ x ∈ out, (s0.tiles x)._shouldSelect = true
    ∧ env.contentVisibility frameState x ≠ Intersect.OUTSIDE
    ∧ ∃ c ∈ cs, ∃ l, SelectionPath s0 c l x
  complete : ∀ c ∈ cs, ∀ l x, SelectionPath s0 c l x → (s0.tiles x)._shouldSelect = true →
    env.contentVisibility frameState x ≠ Intersect.OUTSIDE → x ∈ out

/-- The sample tileset with mixed-LOD rendering (`skipLevelOfDetail`) on. -/
def skipTileset : Tileset :=
  { sampleTileset with _skipLevelOfDetail := true }

/-- A tree of two tiles with available content: an ADD root 0 and its REPLACE child 1, whose
`_selectionDepth` holds 7 from an earlier frame. -/
def additiveRootTiles : TileId → Tile := fun i =>
  if i = 0 then
    { sampleTile with
      children := [1]
      refine := Cesium3DTileRefine.ADD
      contentAvailable := true
      contentUnloaded := false }
  else if i = 1 then
    { sampleTile with
      parent := some 0
      contentAvailable := true
      contentUnloaded := false
      _depth := 1
      _selectionDepth := 7 }
  else sampleTile

/-- The two-tile tree with an ADD root, in mixed-LOD rendering. -/
def additiveRootState : State :=
  sampleState additiveRootTiles skipTileset

/-- A chain of four REPLACE tiles 0, 1, 2, 3 in which only the root 0 and the grandchild 2 have
available content. -/
def chainTiles : TileId → Tile := fun i =>
  if i = 0 then
    { sampleTile with children := [1], contentAvailable := true, contentUnloaded := false }
  else if i = 1 then
    { sampleTile with parent := some 0, children := [2], _depth := 1 }
  else if i = 2 then
    { sampleTile with
      parent := some 1
      children := [3]
      contentAvailable := true
      contentUnloaded := false
      _depth := 2 }
  else if i = 3 then
    { sampleTile with parent := some 2, _depth := 3 }
  else sampleTile

/-- The four-tile chain in mixed-LOD rendering. -/
def chainState : State :=
  sampleState chainTiles skipTileset

/-- A tree of two visible REPLACE tiles that are both flagged `_shouldSelect`: the root 0, with
a screen-space error of 32, and its child 1. -/
def flaggedPairTiles : TileId → Tile := fun i =>
  if i = 0 then
    { sampleTile with
      children := [1]
      _visible := true
      _inRequestVolume := true
      _screenSpaceError := 32
      _shouldSelect := true }
  else if i = 1 then
    { sampleTile with
      parent := some 0
      _depth := 1
      _visible := true
      _inRequestVolume := true
      _shouldSelect := true }
  else sampleTile

/-- The two flagged tiles, in mixed-LOD rendering. -/
def flaggedPairState : State :=
  sampleState flaggedPairTiles skipTileset

/-- A size function for the sample trees that are chains 0, 1, 2, 3. -/
def chainSize : TileId → Nat := fun i => if i < 4 then 4 - i else 1

/-- The fields of the header returned by `read(data)` that `parseKTX2` inspects; `colorModel`
is `header.dataFormatDescriptor[0].colorModel`. -/
structure KTX2Header where
  layerCount : Nat
  pixelDepth : Nat
  vkFormat : Nat
  levelCount : Nat
  colorModel : Nat
  deriving DecidableEq, Repr

/-- The constant `colorModelETC1S`. -/
def colorModelETC1S : Nat := 163

/-- The constant `colorModelUASTC`. -/
def colorModelUASTC : Nat := 166

/-- The collaborators of `parseKTX2`: the third-party `read`, which fails (`none`) on an
invalid file, and the two parsers that fill the result array, with the array they leave;
`transcodeCompressed` can throw a `RuntimeError` of its own, whose message is the error. -/
structure KTX2Env where
  read : List Nat → Option KTX2Header
  transcodeCompressed : List Nat → KTX2Header → List String → Except String (List (List Nat))
  parseUncompressed : KTX2Header → List (List Nat)

/-- The function `parseKTX2`; an error is the message of the `RuntimeError` thrown, and
`supportedTargetFormats` is `none` when it is not defined. -/
def parseKTX2 (env : KTX2Env) (data : List Nat) (supportedTargetFormats : Option (List String)) :
    Except String (List (List Nat)) :=
  match supportedTargetFormats with
  | none => .error "KTX2 Loader does not know which GPU formats are supported."
  | some formats =>
    match env.read data with
    | none => .error "Invalid KTX2 file."
    | some header =>
      if header.layerCount ≠ 0 then .error "KTX2 Videos are not supported"
      else if header.pixelDepth ≠ 0 then .error "KTX2 3D textures are unsupported."
      else if header.vkFormat = 0
          ∧ (header.colorModel = colorModelETC1S ∨ header.colorModel = colorModelUASTC) then
        env.transcodeCompressed data header formats
      else .ok (env.parseUncompressed header)

/-- A reader that finds, in any data, the header of a 4x4 texture with `layerCount` 15, as the
test "texture arrays are unsupported" builds it. -/
def layeredKTX2Env : KTX2Env :=
  { read := fun _ =>
      some { layerCount := 15, pixelDepth := 0, vkFormat := 43, levelCount := 1, colorModel := 1 }
    transcodeCompressed := fun _ _ _ => .ok []
    parseUncompressed := fun _ => [] }

/-- Per-tile visibility as `sampleEnv` computes it, except that the root 0 is at distance 5 and
the tile 2 at distance 20. -/
def nearRootEnv : Env :=
  { sampleEnv with
    tileUpdateVisibility := fun _ tile =>
      { _visible := true
        _inRequestVolume := true
        _distanceToCamera := if tile = 0 then 5 else if tile = 2 then 20 else 10
        _centerZDepth := 10
        _screenSpaceError := 32 } }

/-- A root 0 with two leaves 1 and 2, all REPLACE tiles with unloaded content. -/
def twoLeavesTiles : TileId → Tile := fun i =>
  if i = 0 then { sampleTile with children := [1, 2] }
  else if i = 1 then { sampleTile with parent := some 0, _depth := 1 }
  else if i = 2 then { sampleTile with parent := some 0, _depth := 1 }
  else sampleTile

/-- The root with two leaves, with mixed-LOD rendering off. -/
def twoLeavesState : State :=
  sampleState twoLeavesTiles sampleTileset

/-- Per-tile visibility as `sampleEnv` computes it, except that the tile 2 is not visible. -/
def hiddenGrandchildEnv : Env :=
  { sampleEnv with
    tileUpdateVisibility := fun _ tile =>
      { _visible := decide (tile ≠ 2)
        _inRequestVolume := true
        _distanceToCamera := 10
        _centerZDepth := 10
        _screenSpaceError := 32 } }

/-- A chain of an unloaded ADD root 0, its unloaded child 1 and its grandchild 2, whose
content is available and which still carries the visibility of an earlier frame: visible, with
the stamp 0. -/
def staleGrandchildTiles : TileId → Tile := fun i =>
  if i = 0 then { sampleTile with children := [1], refine := Cesium3DTileRefine.ADD }
  else if i = 1 then { sampleTile with parent := some 0, children := [2], _depth := 1 }
  else if i = 2 then
    { sampleTile with
      parent := some 1
      contentAvailable := true
      contentUnloaded := false
      _depth := 2
      _visible := true
      _inRequestVolume := true }
  else sampleTile

/-- The chain with the stale grandchild, in mixed-LOD rendering. -/
def staleGrandchildState : State :=
  sampleState staleGrandchildTiles skipTileset

/-- An unloaded ADD root 0 with one leaf 1 whose content is available. -/
def unloadedAdditiveRootTiles : TileId → Tile := fun i =>
  if i = 0 then { sampleTile with children := [1], refine := Cesium3DTileRefine.ADD }
  else if i = 1 then
    { sampleTile with
      parent := some 0
      contentAvailable := true
      contentUnloaded := false
      _depth := 1 }
  else sampleTile

/-- The unloaded ADD root with an available leaf, in mixed-LOD rendering. -/
def unloadedAdditiveRootState : State :=
  sampleState unloadedAdditiveRootTiles skipTileset

/-- Per-tile visibility as `sampleEnv` computes it, except that the tile 1 is not visible
(it is inside the request volume). -/
def hiddenChildEnv : Env :=
  { sampleEnv with
    tileUpdateVisibility := fun _ tile =>
      { _visible := decide (tile ≠ 1)
        _inRequestVolume := true
        _distanceToCamera := 10
        _centerZDepth := 10
        _screenSpaceError := 32 } }

/-- A REPLACE root 0 whose one child 1 points to an external tileset and has expired. -/
def expiredPointerTiles : TileId → Tile := fun i =>
  if i = 0 then { sampleTile with children := [1] }
  else if i = 1 then
    { sampleTile with
      parent := some 0
      hasTilesetContent := true
      contentAvailable := true
      contentUnloaded := false
      contentExpired := true
      _depth := 1 }
  else sampleTile

/-- The root with an expired external child, with mixed-LOD rendering off. -/
def expiredPointerState : State :=
  sampleState expiredPointerTiles sampleTileset

/-- A state after `updateTile` on the root of the four-tile chain, as `selectTiles` hands it to
the traversal. -/
def chainUpdatedState : State :=
  (updateTile sampleEnv sampleFrameState 4 chainState 0).getD chainState

/-- The reading of `executeSkipTraversal` in which the base threshold is the maximum threshold
`tileset._maximumScreenSpaceError` (the source passes `Number.MAX_VALUE`).  It is compared with
the function of the source. -/
def executeSkipTraversalAtMaximum (env : Env) (frameState : FrameState) (fuel : Nat) (s : State)
    (root : TileId) : Option State :=
  (executeTraversal env frameState fuel s root s.tileset._maximumScreenSpaceError
      s.tileset._maximumScreenSpaceError).bind
    fun s => traverseAndSelect env frameState fuel s root

/-- A tile that was last selected in frame 5, in a tileset of one tile. -/
def laterSelectedState : State :=
  sampleState (fun _ => { sampleTile with _selectedFrame := 5 }) sampleTileset

/-- A chain of three visible REPLACE tiles 0, 1, 2 with a screen-space error of 32, of which the
root 0 and the grandchild 2 are flagged `_shouldSelect`. -/
def flaggedChainTiles : TileId → Tile := fun i =>
  if i = 0 then
    { sampleTile with
      children := [1]
      _visible := true
      _inRequestVolume := true
      _screenSpaceError := 32
      _shouldSelect := true }
  else if i = 1 then
    { sampleTile with
      parent := some 0
      children := [2]
      _depth := 1
      _visible := true
      _inRequestVolume := true
      _screenSpaceError := 32 }
  else if i = 2 then
    { sampleTile with
      parent := some 1
      _depth := 2
      _visible := true
      _inRequestVolume := true
      _screenSpaceError := 32
      _shouldSelect := true }
  else sampleTile

/-- The chain with the flagged root and grandchild, in mixed-LOD rendering. -/
def flaggedChainState : State :=
  sampleState flaggedChainTiles skipTileset

/-- A tileset of one tile, the root 0, whose content is available. -/
def loadedRootState : State :=
  sampleState (fun _ => { sampleTile with contentAvailable := true, contentUnloaded := false })
    sampleTileset

/-- The frame state of the sample with the frame number 5. -/
def laterFrameState : FrameState :=
  { sampleFrameState with frameNumber := 5 }

/-- The tileset of one tile after `selectTiles` has run on it in frame 5, which selects the
root, with the visibility stamp of the tileset advanced for the next traversal. -/
def selectedInFrameFiveState : State :=
  let s := (selectTiles sampleEnv laterFrameState 4 loadedRootState).getD loadedRootState
  { s with tileset :=
    { s.tileset with _updatedVisibilityFrame := s.tileset._updatedVisibilityFrame + 1 } }

/-- The body of the inner loop of `selectDescendants`, for the child `children[i]` of the tile
just popped: the statements of `selectDescendantsVisit` for one child. -/
def selectDescendantsChild (env : Env) (frameState : FrameState) (root : TileId) (fuel : Nat)
    (s : State) (child : TileId) : Option State :=
  if isVisible (s.tiles child) then
    if (s.tiles child).contentAvailable then
      (updateTile env frameState fuel s child).map fun s =>
        selectTile env (touchTile s child frameState) child frameState
    else if (s.tiles child)._depth - (s.tiles root)._depth < descendantSelectionDepth then
      some { s with descendantTraversal := { s.descendantTraversal with
        stack := child :: s.descendantTraversal.stack } }
    else some s
  else some s

/-- What every operation of the main traversal other than the write of `_shouldSelect` in
`selectDesiredTile` keeps, going from `s` to `s'` within the frame `frameNumber`: a tile whose
visibility was computed in this frame (its stamp is the stamp of the tileset) keeps the stamp,
its screen-space error and `_inRequestVolume`, and its `_visible` flag is only ever cleared; a
tile touched in this frame stays touched, and a tile that becomes touched is appended to
`_cache`, which only grows; no `_shouldSelect` flag is raised. -/
structure Mono (frameNumber : Int) (s s' : State) : Prop where
  tilesetStamp : s'.tileset._updatedVisibilityFrame = s.tileset._updatedVisibilityFrame
  stamp : ∀ x, (s.tiles x)._updatedVisibilityFrame = s.tileset._updatedVisibilityFrame →
    (s'.tiles x)._updatedVisibilityFrame = s.tileset._updatedVisibilityFrame
      ∧ (s'.tiles x)._screenSpaceError = (s.tiles x)._screenSpaceError
      ∧ (s'.tiles x)._inRequestVolume = (s.tiles x)._inRequestVolume
      ∧ ((s'.tiles x)._visible = true → (s.tiles x)._visible = true)
  touched : ∀ x, (s.tiles x)._touchedFrame = frameNumber →
    (s'.tiles x)._touchedFrame = frameNumber
  cache : ∃ l, s'.tileset._cache = s.tileset._cache ++ l
    ∧ ∀ x, (s'.tiles x)._touchedFrame = frameNumber →
        (s.tiles x)._touchedFrame = frameNumber ∨ x ∈ l
  flag : ∀ x, (s'.tiles x)._shouldSelect = true → (s.tiles x)._shouldSelect = true

/-- The visibility of the tile was computed in this frame: its stamp is the stamp of the
tileset. -/
def Stamped (s : State) (x : TileId) : Prop :=
  (s.tiles x)._updatedVisibilityFrame = s.tileset._updatedVisibilityFrame

/-- Going from `s` to `s'` the traversal appended tiles to `_selectedTiles` that, in `s'`, have
been touched in this frame, whose content is in view and (when no content expires) whose
content was available in `s`; the content state of no tile changed (when no content
expires). -/
structure Selects (env : Env) (frameState : FrameState) (s s' : State) : Prop where
  content : env.ContentStable → ∀ x, (s'.tiles x).contentState = (s.tiles x).contentState
  touched : ∀ x, (s.tiles x)._touchedFrame = frameState.frameNumber →
    (s'.tiles x)._touchedFrame = frameState.frameNumber
  selected : ∃ out, s'.tileset._selectedTiles = s.tileset._selectedTiles ++ out
    ∧ ∀ y ∈ out, (s'.tiles y)._touchedFrame = frameState.frameNumber
      ∧ env.contentVisibility frameState y ≠ Intersect.OUTSIDE
      ∧ (env.ContentStable → (s.tiles y).contentAvailable = true)

/-- The fields `selectDescendants` may write, apart from the content state. -/
def descendantFields : List Field :=
  updateTileFields ++ touchTileFields ++ selectTileFields ++ [.descendantTraversal]

/-- The fields one iteration of the loop of `executeTraversal` may write before it stamps the
tile as visited, apart from the content state, in every traversal strategy. -/
def traversalFields : List Field :=
  visitFields ++ [.descendantTraversal]

/-- The part of `Mono` that the write of `_shouldSelect` in `selectDesiredTile` keeps as well:
the facts about the visibility computed in this frame and about the touched tiles. -/
structure MonoVis (frameNumber : Int) (s s' : State) : Prop where
  tilesetStamp : s'.tileset._updatedVisibilityFrame = s.tileset._updatedVisibilityFrame
  stamp : ∀ x, (s.tiles x)._updatedVisibilityFrame = s.tileset._updatedVisibilityFrame →
    (s'.tiles x)._updatedVisibilityFrame = s.tileset._updatedVisibilityFrame
      ∧ (s'.tiles x)._screenSpaceError = (s.tiles x)._screenSpaceError
      ∧ (s'.tiles x)._inRequestVolume = (s.tiles x)._inRequestVolume
      ∧ ((s'.tiles x)._visible = true → (s.tiles x)._visible = true)
  touched : ∀ x, (s.tiles x)._touchedFrame = frameNumber →
    (s'.tiles x)._touchedFrame = frameNumber
  cache : ∃ l, s'.tileset._cache = s.tileset._cache ++ l
    ∧ ∀ x, (s'.tiles x)._touchedFrame = frameNumber →
        (s.tiles x)._touchedFrame = frameNumber ∨ x ∈ l

/-- The tile `x` is one that `selectDesiredTile(tile)` flags in the state `s`, in mixed-LOD
rendering: the tile itself when its content is available, and otherwise its
`_ancestorWithContentAvailable`. -/
def Flags (s : State) (tile x : TileId) : Prop :=
  s.tileset._skipLevelOfDetail = true
    ∧ ((x = tile ∧ (s.tiles tile).contentAvailable = true)
      ∨ ((s.tiles tile).contentAvailable = false
        ∧ (s.tiles tile)._ancestorWithContentAvailable = some x))

/-- What the statements of the visit of `tile` between the update of its ancestor links and its
stamping as visited do, going from `s` to `s'`: they keep the static fields and the ancestor
links, they keep the facts of `MonoVis`, the tiles they select are the tile itself or tiles
touched in this frame, with content in view and available, and the only `_shouldSelect` flags
they raise are those `selectDesiredTile(tile)` raises. -/
structure Phase (env : Env) (frameState : FrameState) (tile : TileId) (s s' : State) :
    Prop where
  frame : Frame Mask.all s s'
  links : ∀ x, (s'.tiles x)._ancestorWithContentAvailable
    = (s.tiles x)._ancestorWithContentAvailable
  content : env.ContentStable → ∀ x, (s'.tiles x).contentState = (s.tiles x).contentState
  vis : MonoVis frameState.frameNumber s s'
  selected : ∃ out, s'.tileset._selectedTiles = s.tileset._selectedTiles ++ out
    ∧ ∀ y ∈ out, (y = tile ∨ (s'.tiles y)._touchedFrame = frameState.frameNumber)
      ∧ env.contentVisibility frameState y ≠ Intersect.OUTSIDE
      ∧ (env.ContentStable → (s.tiles y).contentAvailable = true)
  flag : env.ContentStable → ∀ x, (s'.tiles x)._shouldSelect = true →
    (s.tiles x)._shouldSelect = true ∨ Flags s tile x

/-- The fields the part of the visit that loads the tile and selects the desired tile may
write, apart from the content state. -/
def selectPhaseFields : List Field :=
  loadTileFields ++ descendantFields ++ [._emptyTiles]

/-- The tile `a` is a proper ancestor of the tile `x`, along the `parent` links. -/
def ProperAncestor (s : State) (a x : TileId) : Prop :=
  Relation.TransGen (fun p c => (s.tiles c).parent = some p) a x

/-- The link `a` is the nearest proper ancestor of `x` whose content is available: when it is
undefined no proper ancestor of `x` has available content, and otherwise it is a proper ancestor
of `x` with available content and no proper ancestor of `x` below it has available content. -/
def NearestAvailable (s : State) (x : TileId) (a : Option TileId) : Prop :=
  match a with
  | none => ∀ b, ProperAncestor s b x → (s.tiles b).contentAvailable = false
  | some a => ProperAncestor s a x ∧ (s.tiles a).contentAvailable = true
      ∧ ∀ b, ProperAncestor s b x → ProperAncestor s a b → (s.tiles b).contentAvailable = false

/-- The part of the invariant of the loop of `executeTraversal` that holds in every traversal
strategy, relative to the state `s0` at the start of `selectTiles`; `visited` lists the tiles
popped so far and `bound` is the size of the tree.  The stacks of the inner traversals are
empty, the stack holds distinct tiles that were not visited yet, every tile on the stack or
visited is the root or a child of a visited tile, the sizes of the tiles on the stack add up to
at most `bound`, the high-water mark is at most the larger of its value in `s0` and `bound`,
the visited tiles are those stamped with this frame number, and every tile touched in this
frame was touched in it before `s0` or has been appended to `_cache` since. -/
structure GenCore (frameState : FrameState) (size : TileId → Nat) (bound : Nat)
    (s0 s : State) (visited : List TileId) : Prop where
  frame : Frame Mask.all s0 s
  selectionTraversal : s.selectionTraversal = s0.selectionTraversal
  emptyStack : s.emptyTraversal.stack = []
  descendantStack : s.descendantTraversal.stack = []
  nodup : s.traversal.stack.Nodup
  fresh : ∀ x ∈ s.traversal.stack, x ∉ visited
  parent : ∀ x, x ∈ s.traversal.stack ∨ x ∈ visited →
    x = s0.tileset.root
      ∨ ∃ p, (s0.tiles x).parent = some p ∧ p ∈ visited ∧ x ∈ (s0.tiles p).children
  root : s0.tileset.root ∈ s.traversal.stack ∨ s0.tileset.root ∈ visited
  sizeBound : stackSize size s.traversal.stack ≤ bound
  maxLength : s.traversal.stackMaximumLength ≤ max s0.traversal.stackMaximumLength bound
  visitedStamp : ∀ x ∈ visited, (s.tiles x)._visitedFrame = frameState.frameNumber
  stamped : (∀ x, (s0.tiles x)._visitedFrame ≠ frameState.frameNumber) →
    ∀ x, (s.tiles x)._visitedFrame = frameState.frameNumber → x ∈ visited
  touches : ∃ l, s.tileset._cache = s0.tileset._cache ++ l
    ∧ ∀ x, (s.tiles x)._touchedFrame = frameState.frameNumber →
        (s0.tiles x)._touchedFrame = frameState.frameNumber ∨ x ∈ l

/-- The part of the invariant of the loop of `executeTraversal` that holds when no content
expires during the frame.  The content state of every tile is as in `s0`; the visibility of the
tiles on the stack, of the visited tiles and of the children of the visited tiles that can be
traversed was computed in this frame, and such a child that is visible is on the stack or
visited; the visited tiles are touched; the selected tiles are touched, their content is
available and in view; a flagged tile on the stack or visited has available content; and the
`_ancestorWithContentAvailable` of a visited tile is its nearest proper ancestor with available
content. -/
structure GenStable (env : Env) (frameState : FrameState) (s0 s : State)
    (visited : List TileId) : Prop where
  content : ∀ x, (s.tiles x).contentState = (s0.tiles x).contentState
  stampedMember : ∀ x, x ∈ s.traversal.stack ∨ x ∈ visited → Stamped s x
  reach : ∀ p ∈ visited, canTraverse s.tileset (s.tiles p) = true →
    ∀ c ∈ (s0.tiles p).children,
      Stamped s c ∧ (isVisible (s.tiles c) = true → c ∈ s.traversal.stack ∨ c ∈ visited)
  touched : ∀ x ∈ visited, (s.tiles x)._touchedFrame = frameState.frameNumber
  selected : ∀ x ∈ s.tileset._selectedTiles,
    (s.tiles x)._touchedFrame = frameState.frameNumber
      ∧ env.contentVisibility frameState x ≠ Intersect.OUTSIDE
      ∧ (s0.tiles x).contentAvailable = true
  flag : ∀ x, x ∈ s.traversal.stack ∨ x ∈ visited → (s.tiles x)._shouldSelect = true →
    (s0.tiles x).contentAvailable = true
  links : ∀ x ∈ visited, NearestAvailable s0 x (s.tiles x)._ancestorWithContentAvailable

/-- The state in which `selectTiles` starts the traversal of the four-tile chain: the output
arrays are cleared and the root is updated. -/
def chainRootUpdatedState : State :=
  (updateTile sampleEnv sampleFrameState 10
    { chainState with tileset := { chainState.tileset with
        _requestedTiles := [], _selectedTiles := [], _selectedTilesToStyle := [],
        _emptyTiles := [], _hasMixedContent := false } } chainState.tileset.root).getD chainState

/-- A record of one pass of the inner loop of `selectDescendants`: the tile `tile` just popped,
its child `child` under examination, the values of `isVisible(child)` and of
`child.contentAvailable` that the pass reads, and what the pass does: whether it appends to
`_selectedTiles` and whether it pushes on the stack of the descendant traversal. -/
structure DescendantCheck where
  tile : TileId
  child : TileId
  visible : Bool
  contentAvailable : Bool
  selected : Bool
  pushed : Bool
  deriving DecidableEq, Repr

/-- The record of the pass for `child` that goes from the state `s` to the state `s'`. -/
def descendantCheck (s s' : State) (tile child : TileId) : DescendantCheck :=
  { tile := tile
    child := child
    visible := isVisible (s.tiles child)
    contentAvailable := (s.tiles child).contentAvailable
    selected := decide (s.tileset._selectedTiles.length < s'.tileset._selectedTiles.length)
    pushed := decide (s.descendantTraversal.stack.length < s'.descendantTraversal.stack.length) }

/-- The records of the passes of the inner loop of `selectDescendants` for the popped `tile`,
over the children `children` that remain, from the state `s`.  The states are those of
`selectDescendantsVisit`. -/
def selectDescendantsVisitChecks (env : Env) (frameState : FrameState) (root : TileId)
    (fuel : Nat) (tile : TileId) : List TileId → State → Option (List DescendantCheck)
  | [], _ => some []
  | child :: children, s =>
    match selectDescendantsChild env frameState root fuel s child with
    | none => none
    | some s' =>
      (selectDescendantsVisitChecks env frameState root fuel tile children s').map fun l =>
        descendantCheck s s' tile child :: l

/-- The records of all the passes of the inner loop during the loop of `selectDescendants`, in
order.  The states are those of `selectDescendantsLoop`. -/
def selectDescendantsLoopChecks (env : Env) (frameState : FrameState) (root : TileId) :
    Nat → State → Option (List DescendantCheck)
  | 0, _ => none
  | fuel + 1, s =>
    match s.descendantTraversal.stack with
    | [] => some []
    | tile :: rest =>
      let s := { s with descendantTraversal :=
        { stack := rest
          stackMaximumLength :=
            max s.descendantTraversal.stackMaximumLength (tile :: rest).length } }
      match selectDescendantsVisitChecks env frameState root fuel tile (s.tiles tile).children s,
        selectDescendantsVisit env frameState root fuel s tile with
      | some l, some s' =>
        (selectDescendantsLoopChecks env frameState root fuel s').map fun l' => l ++ l'
      | _, _ => none

/-- The records of all the passes of the inner loop during `selectDescendants(root)`. -/
def selectDescendantsChecks (env : Env) (frameState : FrameState) (fuel : Nat) (s : State)
    (root : TileId) : Option (List DescendantCheck) :=
  let s := { s with descendantTraversal := { s.descendantTraversal with
    stack := root :: s.descendantTraversal.stack } }
  selectDescendantsLoopChecks env frameState root fuel s

/-- The chain with the stale grandchild after the visit of the root has updated the child 1:
the child carries the visibility of this frame and the grandchild 2 that of an earlier one. -/
def staleDescendantState : State :=
  { staleGrandchildState with
    tiles := fun i =>
      if i = 1 then
        { staleGrandchildTiles 1 with
          _visible := true
          _inRequestVolume := true
          _updatedVisibilityFrame := 1 }
      else staleGrandchildTiles i }

/-- The `_depth` of every child is the `_depth` of its parent plus one. -/
def DepthOK (s : State) : Prop :=
  ∀ p c, c ∈ (s.tiles p).children → (s.tiles c)._depth = (s.tiles p)._depth + 1

/-- The visibility of the tile `x` is in `s'` as it is in `s`: its flags `_visible` and
`_inRequestVolume`, its stamp `_updatedVisibilityFrame` and its children, in their order. -/
structure VisSame (s s' : State) (x : TileId) : Prop where
  visible : (s'.tiles x)._visible = (s.tiles x)._visible
  inRequestVolume : (s'.tiles x)._inRequestVolume = (s.tiles x)._inRequestVolume
  stamp : (s'.tiles x)._updatedVisibilityFrame = (s.tiles x)._updatedVisibilityFrame
  children : (s'.tiles x).children = (s.tiles x).children

/-- Going from `s` to `s'` the visibility of the tiles outside `P` was not written: the static
fields are the same, the content state of every tile is the same when no content expires, and
every tile outside `P` has the same visibility. -/
structure Local (env : Env) (P : TileId → Prop) (s s' : State) : Prop where
  frame : Frame Mask.all s s'
  content : env.ContentStable → ∀ x, (s'.tiles x).contentState = (s.tiles x).contentState
  outside : ∀ x, ¬P x → VisSame s s' x

/-- The visibility of the tile `t` is as `updateTileVisibility(t)` leaves it, so that another
call in the same frame writes nothing: the tile carries the stamp of this frame and either it is
not visible, or it points to an external tileset whose root `children[0]` is in that state with
`_visible` set, or it does not meet the screen-space error early and, when the optimization
that culls a tile with its children applies, every child carries the stamp and some child is
visible. -/
inductive Settled (env : Env) (frameState : FrameState) (s : State) : TileId → Prop
  | hidden (t : TileId) (hst : Stamped s t) (hv : isVisible (s.tiles t) = false) :
    Settled env frameState s t
  | external (t child : TileId) (rest : List TileId) (hst : Stamped s t)
    (hv : isVisible (s.tiles t) = true) (hc : (s.tiles t).hasTilesetContent = true)
    (hch : (s.tiles t).children = child :: rest) (hs : Settled env frameState s child)
    (hcv : (s.tiles child)._visible = true) : Settled env frameState s t
  | plain (t : TileId) (hst : Stamped s t) (hv : isVisible (s.tiles t) = true)
    (hc : ((s.tiles t).hasTilesetContent && decide ((s.tiles t).children.length > 0)) = false)
    (hm : meetsScreenSpaceErrorEarly env s t frameState = false)
    (ho : (decide ((s.tiles t).refine = Cesium3DTileRefine.REPLACE)
        && decide ((s.tiles t)._optimChildrenWithinParent
          = Cesium3DTileOptimizationHint.USE_OPTIMIZATION)
        && decide ((s.tiles t).children.length > 0)) = true →
      (∀ c ∈ (s.tiles t).children, Stamped s c)
        ∧ ∃ c ∈ (s.tiles t).children, isVisible (s.tiles c) = true) :
    Settled env frameState s t

/-- The tiles form finite trees: `size` bounds the subtrees, the `parent` of a child is the tile
that lists it, and no tile lists a child twice. -/
structure TreeOK (size : TileId → Nat) (s : State) : Prop where
  sizeOK : SizeOK size s
  parent_of_child : ∀ p c, c ∈ (s.tiles p).children → (s.tiles c).parent = some p
  children_nodup : ∀ p, (s.tiles p).children.Nodup

/-- The tiles popped by the loop of `executeTraversal`, in order, each with the value of
`isVisible(tile)` in the state in which it is popped.  The states are those of
`executeTraversalLoop`. -/
def executeTraversalLoopPopped (env : Env) (frameState : FrameState)
    (baseScreenSpaceError : ℚ) : Nat → State → Option (List (TileId × Bool))
  | 0, _ => none
  | fuel + 1, s =>
    match s.traversal.stack with
    | [] => some []
    | tile :: rest =>
      let visible := isVisible (s.tiles tile)
      let s := { s with traversal :=
        { stack := rest
          stackMaximumLength := max s.traversal.stackMaximumLength (tile :: rest).length } }
      match executeTraversalVisit env frameState baseScreenSpaceError fuel s tile with
      | none => none
      | some s =>
        (executeTraversalLoopPopped env frameState baseScreenSpaceError fuel s).map fun l =>
          (tile, visible) :: l

/-- The tiles popped by `executeTraversal` called on `root`, each with its visibility when it
is popped. -/
def executeTraversalPopped (env : Env) (frameState : FrameState) (fuel : Nat) (s : State)
    (root : TileId) (baseScreenSpaceError : ℚ) : Option (List (TileId × Bool)) :=
  let s := { s with traversal := { s.traversal with stack := root :: s.traversal.stack } }
  executeTraversalLoopPopped env frameState baseScreenSpaceError fuel s

/-- The tile that an iteration of the loop of `traverseAndSelect` pops from the stack in the
state `s`, with the value of `isVisible(tile)`: none when the iteration takes the waiting tile
off the ancestor stack instead, or when the stack is empty. -/
def selectionPopped (s : State) : List (TileId × Bool) :=
  let waiting :=
    match s.selectionTraversal.ancestorStack with
    | waitingTile :: _ =>
      decide ((s.tiles waitingTile)._stackLength = s.selectionTraversal.stack.length)
    | [] => false
  if waiting then []
  else
    match s.selectionTraversal.stack with
    | [] => []
    | tile :: _ => [(tile, isVisible (s.tiles tile))]

/-- The tiles popped from the stack by the loop of `traverseAndSelect`, in order, each with the
value of `isVisible(tile)` in the state in which it is popped.  The states are those of
`traverseAndSelectLoop`. -/
def traverseAndSelectLoopPopped (env : Env) (frameState : FrameState) :
    Nat → State → Option TileId → Option (List (TileId × Bool))
  | 0, _, _ => none
  | fuel + 1, s, lastAncestor =>
    if s.selectionTraversal.stack.length > 0 ∨ s.selectionTraversal.ancestorStack.length > 0 then
      let r := traverseAndSelectStep env frameState s lastAncestor
      (traverseAndSelectLoopPopped env frameState fuel r.1 r.2).map fun l =>
        selectionPopped s ++ l
    else some []

/-- The tiles popped from the stack by `traverseAndSelect` called on `root`, each with its
visibility when it is popped. -/
def traverseAndSelectPopped (env : Env) (frameState : FrameState) (fuel : Nat) (s : State)
    (root : TileId) : Option (List (TileId × Bool)) :=
  let s := { s with selectionTraversal := { s.selectionTraversal with
    stack := root :: s.selectionTraversal.stack } }
  traverseAndSelectLoopPopped env frameState fuel s none

/-- The tiles popped by `executeBaseTraversal`: those of its main traversal, and none from the
selection stack. -/
def executeBaseTraversalPopped (env : Env) (frameState : FrameState) (fuel : Nat) (s : State)
    (root : TileId) : Option (List (TileId × Bool) × List (TileId × Bool)) :=
  let baseScreenSpaceError := s.tileset._maximumScreenSpaceError
  (executeTraversalPopped env frameState fuel s root baseScreenSpaceError).map fun main =>
    (main, [])

/-- The tiles popped by `executeSkipTraversal`: those of its main traversal and those of the
selection pass that follows it. -/
def executeSkipTraversalPopped (env : Env) (frameState : FrameState) (fuel : Nat) (s : State)
    (root : TileId) : Option (List (TileId × Bool) × List (TileId × Bool)) :=
  let baseScreenSpaceError := Number.MAX_VALUE
  let maximumScreenSpaceError := s.tileset._maximumScreenSpaceError
  (executeTraversalPopped env frameState fuel s root baseScreenSpaceError).bind fun main =>
    (executeTraversal env frameState fuel s root baseScreenSpaceError
        maximumScreenSpaceError).bind fun s =>
      (traverseAndSelectPopped env frameState fuel s root).map fun selection =>
        (main, selection)

/-- The tiles popped by `executeBaseAndSkipTraversal`: those of its main traversal and those of
the selection pass that follows it. -/
def executeBaseAndSkipTraversalPopped (env : Env) (frameState : FrameState) (fuel : Nat)
    (s : State) (root : TileId) : Option (List (TileId × Bool) × List (TileId × Bool)) :=
  let baseScreenSpaceError := max s.tileset.baseScreenSpaceError s.tileset.maximumScreenSpaceError
  let maximumScreenSpaceError := s.tileset.maximumScreenSpaceError
  (executeTraversalPopped env frameState fuel s root baseScreenSpaceError).bind fun main =>
    (executeTraversal env frameState fuel s root baseScreenSpaceError
        maximumScreenSpaceError).bind fun s =>
      (traverseAndSelectPopped env frameState fuel s root).map fun selection =>
        (main, selection)

/-- The tiles popped during `selectTiles`, each with the value of `isVisible(tile)` in the state
in which it is popped: first those popped from the stack of the main traversal, then those
popped from the stack of the selection pass.  It follows `selectTiles` branch by branch. -/
def selectTilesPopped (env : Env) (frameState : FrameState) (fuel : Nat) (s : State) :
    Option (List (TileId × Bool) × List (TileId × Bool)) :=
  let s := s.setTileset fun ts => { ts with _requestedTiles := [] }
  if s.tileset.debugFreezeFrame then some ([], [])
  else
    let s := s.setTileset fun ts => { ts with _selectedTiles := [] }
    let s := s.setTileset fun ts => { ts with _selectedTilesToStyle := [] }
    let s := s.setTileset fun ts => { ts with _emptyTiles := [] }
    let s := s.setTileset fun ts => { ts with _hasMixedContent := false }
    let root := s.tileset.root
    match updateTile env frameState fuel s root with
    | none => none
    | some s =>
      if !isVisible (s.tiles root) then some ([], [])
      else if env.getScreenSpaceError frameState root ≤ s.tileset._maximumScreenSpaceError then
        some ([], [])
      else if !skipLevelOfDetail s.tileset then
        executeBaseTraversalPopped env frameState fuel s root
      else if s.tileset.immediatelyLoadDesiredLevelOfDetail then
        executeSkipTraversalPopped env frameState fuel s root
      else executeBaseAndSkipTraversalPopped env frameState fuel s root

/-- The four-tile chain after the update of its root, in mixed-LOD rendering with
`immediatelyLoadDesiredLevelOfDetail` set: a state in which `selectTiles` calls
`executeSkipTraversal`. -/
def immediateChainState : State :=
  { chainUpdatedState with tileset :=
    { chainUpdatedState.tileset with immediatelyLoadDesiredLevelOfDetail := true } }

/-- The condition under which an iteration of the second loop of `updateAndPushChildren`
compares `child._priorityDistance` with the local `minPriorityDistance`, with the locals `a` of
the loop when it reaches the child: the child is visible, or `checkRefines` or
`tileset.loadSiblings` holds. -/
def comparesPriorityDistance (checkRefines : Bool) (a : PushChildren) (child : TileId) : Bool :=
  isVisible (a.s.tiles child) || (checkRefines || a.s.tileset.loadSiblings)

/-- The root with two leaves after `updateAndPushChildren` has updated and sorted the leaves,
with the per-tile visibility of `nearRootEnv`: the leaf 2, at distance 20, comes before the
leaf 1, at distance 10. -/
def twoLeavesSortedState : State :=
  (updateAndSortChildren nearRootEnv sampleFrameState 4 twoLeavesState 0).getD twoLeavesState

/-- The condition under which the body of the loop of `executeTraversal` calls
`selectDesiredTile(tile)`, read on the fields the visit leaves on the tile: the tile stopped
refining (`!refines && parentRefines`, with `refines` stored in `tile._refines`), or it is an
ADD tile with content of its own. -/
def desiresSelection (s : State) (tile : TileId) : Bool :=
  (!(s.tiles tile)._refines && parentRefines s tile)
    || (decide ((s.tiles tile).refine = Cesium3DTileRefine.ADD)
      && !hasEmptyContent (s.tiles tile))

/-- The local `loadedTile` of `selectDesiredTile`: the tile when its content is available, and
otherwise its `_ancestorWithContentAvailable`. -/
def loadedTile (s : State) (tile : TileId) : Option TileId :=
  if (s.tiles tile).contentAvailable then some tile
  else (s.tiles tile)._ancestorWithContentAvailable

/-- The four-tile chain 0, 1, 2, 3 in which only the root 0 and the grandchild 2 have
available content, with a second child 4 of the root: a leaf whose content is not loaded. -/
def forkTiles : TileId → Tile := fun i =>
  if i = 0 then
    { sampleTile with children := [1, 4], contentAvailable := true, contentUnloaded := false }
  else if i = 4 then { sampleTile with parent := some 0, _depth := 1 }
  else chainTiles i

/-- The chain with the second child of the root, in mixed-LOD rendering. -/
def forkState : State :=
  sampleState forkTiles skipTileset

/-- A size function for the chain with the second child of the root. -/
def forkSize : TileId → Nat := fun i => if i = 0 then 5 else if i < 4 then 4 - i else 1

/-- The part of the invariant of the loop of `executeTraversal` that holds in mixed-LOD
rendering when no content expires and the content of the root is available, relative to the
state `s0` at the start of `selectTiles`, with `visited` the tiles popped so far: `GenStable`
holds; every visited tile that desires selection has its loaded tile flagged `_shouldSelect`;
the parent of a tile on the stack or visited can be traversed; the tiles on the stack and the
visited tiles are visible, and each is the root or lies below it. -/
structure SkipInv (env : Env) (frameState : FrameState) (s0 s : State)
    (visited : List TileId) : Prop where
  stable : GenStable env frameState s0 s visited
  flagged : ∀ t ∈ visited, desiresSelection s t = true → ∀ x, loadedTile s t = some x →
    (s.tiles x)._shouldSelect = true
  traversable : ∀ x, x ∈ s.traversal.stack ∨ x ∈ visited → ∀ p, (s0.tiles x).parent = some p →
    canTraverse s.tileset (s.tiles p) = true
  visible : ∀ x, x ∈ s.traversal.stack ∨ x ∈ visited → isVisible (s.tiles x) = true
  belowRoot : ∀ x, x ∈ s.traversal.stack ∨ x ∈ visited →
    x = s0.tileset.root ∨ ProperAncestor s0 s0.tileset.root x

/-- The part of the invariant of the loop of `executeTraversal` about `_refines`, in mixed-LOD
rendering, with `visited` the tiles popped so far: the parent of every tile on the stack or
visited refines, and a visited tile refines exactly when it can be traversed and one of its
children is on the stack or visited. -/
structure RefineInv (s : State) (visited : List TileId) : Prop where
  parentOK : ∀ x, x ∈ s.traversal.stack ∨ x ∈ visited → parentRefines s x = true
  refinesIff : ∀ t ∈ visited, ((s.tiles t)._refines = true ↔
    canTraverse s.tileset (s.tiles t) = true
      ∧ ∃ c ∈ (s.tiles t).children, c ∈ s.traversal.stack ∨ c ∈ visited)

/-! ## Basic facts about writes -/

@[simp] theorem State.setTile_tiles_self (s : State) (i : TileId) (f : Tile → Tile) :
    (s.setTile i f).tiles i = f (s.tiles i) := by
  simp [State.setTile]

@[simp] theorem State.setTile_tiles_ne (s : State) (i t : TileId) (f : Tile → Tile) (h : t ≠ i) :
    (s.setTile i f).tiles t = s.tiles t := by
  simp [State.setTile, Function.update, h]

theorem State.setTile_tiles (s : State) (i t : TileId) (f : Tile → Tile) :
    (s.setTile i f).tiles t = if t = i then f (s.tiles i) else s.tiles t := by
  by_cases h : t = i
  · subst h; simp
  · simp [h]

@[simp] theorem State.setTile_tileset (s : State) (i : TileId) (f : Tile → Tile) :
    (s.setTile i f).tileset = s.tileset := rfl

@[simp] theorem State.setTile_traversal (s : State) (i : TileId) (f : Tile → Tile) :
    (s.setTile i f).traversal = s.traversal := rfl

@[simp] theorem State.setTile_emptyTraversal (s : State) (i : TileId) (f : Tile → Tile) :
    (s.setTile i f).emptyTraversal = s.emptyTraversal := rfl

@[simp] theorem State.setTile_descendantTraversal (s : State) (i : TileId) (f : Tile → Tile) :
    (s.setTile i f).descendantTraversal = s.descendantTraversal := rfl

@[simp] theorem State.setTile_selectionTraversal (s : State) (i : TileId) (f : Tile → Tile) :
    (s.setTile i f).selectionTraversal = s.selectionTraversal := rfl

@[simp] theorem State.setTileset_tiles (s : State) (f : Tileset → Tileset) :
    (s.setTileset f).tiles = s.tiles := rfl

@[simp] theorem State.setTileset_tileset (s : State) (f : Tileset → Tileset) :
    (s.setTileset f).tileset = f s.tileset := rfl

@[simp] theorem State.setTileset_traversal (s : State) (f : Tileset → Tileset) :
    (s.setTileset f).traversal = s.traversal := rfl

@[simp] theorem State.setTileset_emptyTraversal (s : State) (f : Tileset → Tileset) :
    (s.setTileset f).emptyTraversal = s.emptyTraversal := rfl

@[simp] theorem State.setTileset_descendantTraversal (s : State) (f : Tileset → Tileset) :
    (s.setTileset f).descendantTraversal = s.descendantTraversal := rfl

@[simp] theorem State.setTileset_selectionTraversal (s : State) (f : Tileset → Tileset) :
    (s.setTileset f).selectionTraversal = s.selectionTraversal := rfl

theorem Tile.Static.tile_refl (t : Tile) : Tile.Static t t :=
  ⟨List.Perm.refl _, rfl, rfl, rfl, rfl, rfl⟩

theorem Tile.Static.tile_trans {a b c : Tile} (h1 : Tile.Static a b) (h2 : Tile.Static b c) :
    Tile.Static a c :=
  ⟨h2.children.trans h1.children, h2.parent.trans h1.parent, h2.refine.trans h1.refine,
    h2.boundingSphere.trans h1.boundingSphere,
    h2._optimChildrenWithinParent.trans h1._optimChildrenWithinParent,
    h2._depth.trans h1._depth⟩

theorem Tileset.Static.tileset_refl (ts : Tileset) : Tileset.Static ts ts := by
  constructor <;> rfl

theorem Tileset.Static.tileset_trans {a b c : Tileset} (h1 : Tileset.Static a b)
    (h2 : Tileset.Static b c) : Tileset.Static a c := by
  cases h1; cases h2
  constructor <;> simp_all

theorem Field.tileSame_refl (f : Field) (t : Tile) : f.tileSame t t := by
  cases f <;> first | rfl | trivial

theorem Field.tileSame_trans (f : Field) {a b c : Tile} (h1 : f.tileSame a b)
    (h2 : f.tileSame b c) : f.tileSame a c := by
  cases f <;> first | exact h2.trans h1 | trivial

theorem Field.globalSame_refl (f : Field) (s : State) : f.globalSame s s := by
  cases f <;> first | rfl | trivial

theorem Field.globalSame_trans (f : Field) {a b c : State} (h1 : f.globalSame a b)
    (h2 : f.globalSame b c) : f.globalSame a c := by
  cases f <;> first | exact h2.trans h1 | trivial

theorem Mask.contains.of_subset {M : Mask} {l l' : List Field} (h : M.contains l) (hsub : l' ⊆ l) :
    M.contains l' :=
  fun f hf => h f (hsub hf)

theorem Mask.contains_of (l : List Field) : (Mask.of l).contains l :=
  fun f hf => by simp [Mask.of, hf]

theorem Frame.refl (M : Mask) (s : State) : Frame M s s :=
  ⟨fun _ => Tile.Static.tile_refl _, Tileset.Static.tileset_refl _, fun f _ _ => f.tileSame_refl _,
    fun f _ => f.globalSame_refl _⟩

theorem Frame.trans {M : Mask} {a b c : State} (h1 : Frame M a b) (h2 : Frame M b c) :
    Frame M a c :=
  ⟨fun t => (h1.tileStatic t).tile_trans (h2.tileStatic t), h1.tilesetStatic.tileset_trans h2.tilesetStatic,
    fun f hf t => f.tileSame_trans (h1.tile f hf t) (h2.tile f hf t),
    fun f hf => f.globalSame_trans (h1.global f hf) (h2.global f hf)⟩

theorem Frame.mono {M M' : Mask} {s s' : State} (h : Frame M s s')
    (hM : ∀ f, M f = true → M' f = true) : Frame M' s s' :=
  ⟨h.tileStatic, h.tilesetStatic,
    fun f hf t => h.tile f (by cases hm : M f; rfl; rw [hM f hm] at hf; cases hf) t,
    fun f hf => h.global f (by cases hm : M f; rfl; rw [hM f hm] at hf; cases hf)⟩

theorem Frame.setTile {M : Mask} (s : State) (i : TileId) (f : Tile → Tile)
    (hs : Tile.Static (s.tiles i) (f (s.tiles i)))
    (hf : ∀ fld, M fld = false → fld.tileSame (s.tiles i) (f (s.tiles i))) :
    Frame M s (s.setTile i f) := by
  refine ⟨fun t => ?_, Tileset.Static.tileset_refl _, fun fld hfld t => ?_, fun fld _ => ?_⟩
  · rw [State.setTile_tiles]; split
    · rename_i h; subst h; exact hs
    · exact Tile.Static.tile_refl _
  · rw [State.setTile_tiles]; split
    · rename_i h; subst h; exact hf fld hfld
    · exact fld.tileSame_refl _
  · cases fld <;> first | rfl | trivial

theorem Frame.setTileset {M : Mask} (s : State) (f : Tileset → Tileset)
    (hs : Tileset.Static s.tileset (f s.tileset))
    (hf : ∀ fld, M fld = false → fld.globalSame s (s.setTileset f)) :
    Frame M s (s.setTileset f) :=
  ⟨fun _ => Tile.Static.tile_refl _, hs, fun fld _ _ => fld.tileSame_refl _, hf⟩

/-! ## Frames of the operations on one tile -/

theorem selectTile_frame {M : Mask}
    (hM : M.contains [.featurePropertiesDirty, .lastStyleTime, ._selectedFrame,
      ._selectedTilesToStyle, ._selectedTiles])
    (env : Env) (s : State) (tile : TileId) (frameState : FrameState) :
    Frame M s (selectTile env s tile frameState) := by
  simp [Mask.contains] at hM
  unfold selectTile
  try simp only []
  repeat' first
    | with_reducible exact Frame.refl _ _
    | (intro fld hf; cases fld <;> first | rfl | trivial | exact absurd hf (by simp [hM]))
    | with_reducible
        refine Frame.trans ?_ (Frame.setTile _ _ _ ⟨List.Perm.refl _, rfl, rfl, rfl, rfl, rfl⟩ ?_)
    | with_reducible refine Frame.trans ?_ (Frame.setTileset _ _ (by constructor <;> rfl) ?_)
    | split

theorem visitTile_frame {M : Mask} (hM : M.contains [._visitedFrame, ._statistics])
    (s : State) (tile : TileId) (frameState : FrameState) :
    Frame M s (visitTile s tile frameState) := by
  simp [Mask.contains] at hM
  unfold visitTile
  try simp only []
  repeat' first
    | with_reducible exact Frame.refl _ _
    | (intro fld hf; cases fld <;> first | rfl | trivial | exact absurd hf (by simp [hM]))
    | with_reducible
        refine Frame.trans ?_ (Frame.setTile _ _ _ ⟨List.Perm.refl _, rfl, rfl, rfl, rfl, rfl⟩ ?_)
    | with_reducible refine Frame.trans ?_ (Frame.setTileset _ _ (by constructor <;> rfl) ?_)
    | split

theorem touchTile_frame {M : Mask} (hM : M.contains [._touchedFrame, ._cache])
    (s : State) (tile : TileId) (frameState : FrameState) :
    Frame M s (touchTile s tile frameState) := by
  simp [Mask.contains] at hM
  unfold touchTile
  try simp only []
  repeat' first
    | with_reducible exact Frame.refl _ _
    | (intro fld hf; cases fld <;> first | rfl | trivial | exact absurd hf (by simp [hM]))
    | with_reducible
        refine Frame.trans ?_ (Frame.setTile _ _ _ ⟨List.Perm.refl _, rfl, rfl, rfl, rfl, rfl⟩ ?_)
    | with_reducible refine Frame.trans ?_ (Frame.setTileset _ _ (by constructor <;> rfl) ?_)
    | split

theorem addEmptyTile_frame {M : Mask} (hM : M.contains [._emptyTiles])
    (s : State) (tile : TileId) : Frame M s (addEmptyTile s tile) := by
  simp [Mask.contains] at hM
  unfold addEmptyTile
  try simp only []
  repeat' first
    | with_reducible exact Frame.refl _ _
    | (intro fld hf; cases fld <;> first | rfl | trivial | exact absurd hf (by simp [hM]))
    | with_reducible
        refine Frame.trans ?_ (Frame.setTile _ _ _ ⟨List.Perm.refl _, rfl, rfl, rfl, rfl, rfl⟩ ?_)
    | with_reducible refine Frame.trans ?_ (Frame.setTileset _ _ (by constructor <;> rfl) ?_)
    | split

theorem updateMinMaxPriority_frame {M : Mask} (hM : M.contains [._maxPriority, ._minPriority])
    (s : State) (tile : TileId) : Frame M s (updateMinMaxPriority s tile) := by
  simp [Mask.contains] at hM
  unfold updateMinMaxPriority
  try simp only []
  repeat' first
    | with_reducible exact Frame.refl _ _
    | (intro fld hf; cases fld <;> first | rfl | trivial | exact absurd hf (by simp [hM]))
    | with_reducible
        refine Frame.trans ?_ (Frame.setTile _ _ _ ⟨List.Perm.refl _, rfl, rfl, rfl, rfl, rfl⟩ ?_)
    | with_reducible refine Frame.trans ?_ (Frame.setTileset _ _ (by constructor <;> rfl) ?_)
    | split

theorem updateFoveatedFactor_frame {M : Mask} (hM : M.contains [._foveatedFactor])
    (env : Env) (s : State) (tile : TileId) (frameState : FrameState) :
    Frame M s (updateFoveatedFactor env s tile frameState) := by
  simp [Mask.contains] at hM
  unfold updateFoveatedFactor
  try simp only []
  repeat' first
    | with_reducible exact Frame.refl _ _
    | (intro fld hf; cases fld <;> first | rfl | trivial | exact absurd hf (by simp [hM]))
    | with_reducible
        refine Frame.trans ?_ (Frame.setTile _ _ _ ⟨List.Perm.refl _, rfl, rfl, rfl, rfl, rfl⟩ ?_)
    | with_reducible refine Frame.trans ?_ (Frame.setTileset _ _ (by constructor <;> rfl) ?_)
    | split

theorem isPriorityDeferred_frame {M : Mask} (hM : M.contains [._foveatedFactor])
    (env : Env) (s : State) (tile : TileId) (frameState : FrameState) :
    Frame M s (isPriorityDeferred env s tile frameState).1 := by
  unfold isPriorityDeferred
  simp only []
  split
  · exact Frame.refl _ _
  · split <;> exact updateFoveatedFactor_frame hM env s tile frameState

theorem loadTile_frame {M : Mask}
    (hM : M.contains [._foveatedFactor, .priorityDeferred, ._requestedFrame, ._requestedTiles])
    (env : Env) (s : State) (tile : TileId) (frameState : FrameState) :
    Frame M s (loadTile env s tile frameState) := by
  have h1 := isPriorityDeferred_frame (hM.of_subset (by decide)) env s tile frameState
  simp [Mask.contains] at hM
  unfold loadTile
  simp only []
  repeat' first
    | with_reducible exact Frame.refl _ _
    | with_reducible exact h1
    | (intro fld hf; cases fld <;> first | rfl | trivial | exact absurd hf (by simp [hM]))
    | with_reducible
        refine Frame.trans ?_ (Frame.setTile _ _ _ ⟨List.Perm.refl _, rfl, rfl, rfl, rfl, rfl⟩ ?_)
    | with_reducible refine Frame.trans ?_ (Frame.setTileset _ _ (by constructor <;> rfl) ?_)
    | split

theorem updateVisibility_frame {M : Mask}
    (hM : M.contains [._visible, ._inRequestVolume, ._distanceToCamera, ._centerZDepth,
      ._screenSpaceError, ._updatedVisibilityFrame])
    (env : Env) (s : State) (tile : TileId) (frameState : FrameState) :
    Frame M s (updateVisibility env s tile frameState) := by
  simp [Mask.contains] at hM
  unfold updateVisibility
  try simp only []
  repeat' first
    | with_reducible exact Frame.refl _ _
    | (intro fld hf; cases fld <;> first | rfl | trivial | exact absurd hf (by simp [hM]))
    | with_reducible
        refine Frame.trans ?_ (Frame.setTile _ _ _ ⟨List.Perm.refl _, rfl, rfl, rfl, rfl, rfl⟩ ?_)
    | with_reducible refine Frame.trans ?_ (Frame.setTileset _ _ (by constructor <;> rfl) ?_)
    | split

/-! ## Frames of the operations with loops -/

theorem foldl_preorder {β α : Type} (R : β → β → Prop) (hr : ∀ b, R b b)
    (ht : ∀ a b c, R a b → R b c → R a c) (f : β → α → β) (hf : ∀ b a, R b (f b a))
    (l : List α) (b : β) : R b (l.foldl f b) := by
  induction l generalizing b with
  | nil => exact hr b
  | cons a l ih => exact ht _ _ _ (hf b a) (ih (f b a))

theorem foldlM_preorder {β α : Type} (R : β → β → Prop) (hr : ∀ b, R b b)
    (ht : ∀ a b c, R a b → R b c → R a c) (f : β → α → Option β)
    (hf : ∀ b a b', f b a = some b' → R b b')
    (l : List α) (b b' : β) (h : l.foldlM f b = some b') : R b b' := by
  induction l generalizing b with
  | nil => simp at h; subst h; exact hr b
  | cons a l ih =>
    rw [List.foldlM_cons] at h
    cases hfa : f b a with
    | none => simp [hfa] at h
    | some b1 =>
      simp [hfa] at h
      exact ht _ _ _ (hf b a b1 hfa) (ih b1 h)

theorem Tile.withContentState_contentState (t : Tile) : t.withContentState t.contentState = t :=
  rfl

theorem anyChildrenVisible_frame {M : Mask}
    (hM : M.contains [._visible, ._inRequestVolume, ._distanceToCamera, ._centerZDepth,
      ._screenSpaceError, ._updatedVisibilityFrame])
    (env : Env) (s : State) (tile : TileId) (frameState : FrameState) :
    Frame M s (anyChildrenVisible env s tile frameState).1 := by
  unfold anyChildrenVisible
  exact foldl_preorder (fun (a b : State × Bool) => Frame M a.1 b.1) (fun _ => Frame.refl _ _)
    (fun _ _ _ => Frame.trans) _
    (fun b a => updateVisibility_frame hM env b.1 a frameState) _ (s, false)

theorem updateTileVisibility_frame {M : Mask}
    (hM : M.contains [._visible, ._inRequestVolume, ._distanceToCamera, ._centerZDepth,
      ._screenSpaceError, ._updatedVisibilityFrame, ._statistics])
    (env : Env) (frameState : FrameState) (fuel : Nat) (s : State) (tile : TileId) (s' : State)
    (h : updateTileVisibility env frameState fuel s tile = some s') : Frame M s s' := by
  have hv := fun s t => updateVisibility_frame (hM.of_subset (by decide)) env s t frameState
  have ha := fun s t => anyChildrenVisible_frame (hM.of_subset (by decide)) env s t frameState
  simp [Mask.contains] at hM
  induction fuel generalizing s tile s' with
  | zero => simp [updateTileVisibility] at h
  | succ n ih =>
    unfold updateTileVisibility at h
    simp only [] at h
    split at h
    · cases h; exact hv _ _
    · split at h
      · rw [Option.map_eq_some'] at h
        obtain ⟨s1, h1, rfl⟩ := h
        refine ((hv s tile).trans (ih _ _ _ h1)).trans ?_
        try simp only []
        repeat' first
          | with_reducible exact Frame.refl _ _
          | (intro fld hf; cases fld <;> first | rfl | trivial | exact absurd hf (by simp [hM]))
          | with_reducible
              refine Frame.trans ?_
                (Frame.setTile _ _ _ ⟨List.Perm.refl _, rfl, rfl, rfl, rfl, rfl⟩ ?_)
          | with_reducible refine Frame.trans ?_ (Frame.setTileset _ _ (by constructor <;> rfl) ?_)
          | split
      · split at h
        · cases h
          refine (hv s tile).trans ?_
          try simp only []
          repeat' first
            | with_reducible exact Frame.refl _ _
            | (intro fld hf; cases fld <;> first | rfl | trivial | exact absurd hf (by simp [hM]))
            | with_reducible
                refine Frame.trans ?_
                  (Frame.setTile _ _ _ ⟨List.Perm.refl _, rfl, rfl, rfl, rfl, rfl⟩ ?_)
            | with_reducible refine Frame.trans ?_ (Frame.setTileset _ _ (by constructor <;> rfl) ?_)
            | split
        · split at h
          · split at h
            · cases h
              refine ((hv s tile).trans (ha _ tile)).trans ?_
              try simp only []
              repeat' first
                | with_reducible exact Frame.refl _ _
                | (intro fld hf; cases fld <;> first | rfl | trivial | exact absurd hf (by simp [hM]))
                | with_reducible
                    refine Frame.trans ?_
                      (Frame.setTile _ _ _ ⟨List.Perm.refl _, rfl, rfl, rfl, rfl, rfl⟩ ?_)
                | with_reducible refine Frame.trans ?_ (Frame.setTileset _ _ (by constructor <;> rfl) ?_)
                | split
            · cases h
              exact (hv s tile).trans (ha _ tile)
          · cases h; exact hv _ _

theorem updateTile_frame {M : Mask} (hM : M.contains updateTileFields) (env : Env)
    (hc : M .content = false → env.ContentStable)
    (frameState : FrameState) (fuel : Nat) (s : State) (tile : TileId) (s' : State)
    (h : updateTile env frameState fuel s tile = some s') : Frame M s s' := by
  unfold updateTile at h
  rw [Option.map_eq_some'] at h
  obtain ⟨s1, h1, rfl⟩ := h
  have h2 := updateTileVisibility_frame (hM.of_subset (by decide)) env frameState fuel s tile s1 h1
  have hp := fun s t => updateMinMaxPriority_frame (M := M) (hM.of_subset (by decide)) s t
  simp [Mask.contains, updateTileFields] at hM
  refine h2.trans ?_
  simp only []
  refine Frame.trans (b := s1.setTile tile fun t =>
    t.withContentState (env.tileUpdateExpiration tile t.contentState)) ?_ ?_
  · refine Frame.setTile _ _ _ ⟨List.Perm.refl _, rfl, rfl, rfl, rfl, rfl⟩ ?_
    intro fld hf
    cases fld <;> first
      | rfl
      | trivial
      | (show _ = _
         rw [hc hf tile]
         rfl)
  · repeat' first
      | with_reducible exact Frame.refl _ _
      | with_reducible exact hp _ _
      | (intro fld hf; cases fld <;> first | rfl | trivial | exact absurd hf (by simp [hM]))
      | with_reducible
          refine Frame.trans ?_
            (Frame.setTile _ _ _ ⟨List.Perm.refl _, rfl, rfl, rfl, rfl, rfl⟩ ?_)
      | with_reducible refine Frame.trans ?_ (hp _ _)

theorem updateTileAncestorContentLinks_frame {M : Mask}
    (hM : M.contains [._ancestorWithContent, ._ancestorWithContentAvailable])
    (s : State) (tile : TileId) (frameState : FrameState) :
    Frame M s (updateTileAncestorContentLinks s tile frameState) := by
  simp [Mask.contains] at hM
  unfold updateTileAncestorContentLinks
  try simp only []
  repeat' first
    | with_reducible exact Frame.refl _ _
    | (intro fld hf; cases fld <;> first | rfl | trivial | exact absurd hf (by simp [hM]))
    | with_reducible
        refine Frame.trans ?_
          (Frame.setTile _ _ _ ⟨List.Perm.refl _, rfl, rfl, rfl, rfl, rfl⟩ ?_)
    | with_reducible refine Frame.trans ?_ (Frame.setTileset _ _ (by constructor <;> rfl) ?_)
    | split

theorem Frame.of_tiles_tileset {M : Mask} (s s' : State) (h1 : s'.tiles = s.tiles)
    (h2 : s'.tileset = s.tileset) (hg : ∀ f, M f = false → f.globalSame s s') : Frame M s s' :=
  ⟨fun t => by rw [h1]; exact Tile.Static.tile_refl _, by rw [h2]; exact Tileset.Static.tileset_refl _,
    fun f _ t => by rw [h1]; exact f.tileSame_refl _, hg⟩

theorem Frame.setTraversal {M : Mask} (hM : M .traversal = true) (s : State) (x : Traversal) :
    Frame M s { s with traversal := x } :=
  Frame.of_tiles_tileset _ _ rfl rfl
    (by intro fld hf; cases fld <;> first | rfl | trivial | exact absurd hf (by simp [hM]))

theorem Frame.setEmptyTraversal {M : Mask} (hM : M .emptyTraversal = true) (s : State)
    (x : Traversal) : Frame M s { s with emptyTraversal := x } :=
  Frame.of_tiles_tileset _ _ rfl rfl
    (by intro fld hf; cases fld <;> first | rfl | trivial | exact absurd hf (by simp [hM]))

theorem Frame.setDescendantTraversal {M : Mask} (hM : M .descendantTraversal = true) (s : State)
    (x : Traversal) : Frame M s { s with descendantTraversal := x } :=
  Frame.of_tiles_tileset _ _ rfl rfl
    (by intro fld hf; cases fld <;> first | rfl | trivial | exact absurd hf (by simp [hM]))

theorem Frame.setSelectionTraversal {M : Mask} (hM : M .selectionTraversal = true) (s : State)
    (x : SelectionTraversal) : Frame M s { s with selectionTraversal := x } :=
  Frame.of_tiles_tileset _ _ rfl rfl
    (by intro fld hf; cases fld <;> first | rfl | trivial | exact absurd hf (by simp [hM]))

theorem Frame.ite {M : Mask} (s : State) (c : Prop) [Decidable c] (a b : State)
    (ha : c → Frame M s a) (hb : ¬c → Frame M s b) : Frame M s (if c then a else b) := by
  split
  · exact ha ‹_›
  · exact hb ‹_›

theorem executeEmptyTraversalVisit_frame {M : Mask} (hM : M.contains emptyTraversalFields)
    (env : Env) (hc : M .content = false → env.ContentStable) (frameState : FrameState)
    (fuel : Nat) (s : State) (tile : TileId) (b : Bool) (r : State × Bool)
    (h : executeEmptyTraversalVisit env frameState fuel s tile b = some r) : Frame M s r.1 := by
  unfold executeEmptyTraversalVisit at h
  simp only [] at h
  rw [Option.map_eq_some'] at h
  obtain ⟨s1, h1, rfl⟩ := h
  have hu := updateTile_frame (hM.of_subset (by decide)) env hc frameState fuel s tile s1 h1
  have hl := fun s t => loadTile_frame (M := M) (hM.of_subset (by decide)) env s t frameState
  have ht := fun s t => touchTile_frame (M := M) (hM.of_subset (by decide)) s t frameState
  have he : M .emptyTraversal = true := hM _ (by decide)
  refine hu.trans ?_
  simp only []
  refine Frame.trans (b := if !isVisible (s1.tiles tile) then
      touchTile (loadTile env s1 tile frameState) tile frameState else s1) ?_ ?_
  · split
    · exact (hl _ _).trans (ht _ _)
    · exact Frame.refl _ _
  · refine Frame.ite _ _ _ _ (fun _ => ?_) (fun _ => Frame.refl _ _)
    exact foldl_preorder (Frame M) (Frame.refl M) (fun _ _ _ => Frame.trans) _
      (fun b a => Frame.setEmptyTraversal he b _) _ _

theorem executeEmptyTraversalLoop_frame {M : Mask} (hM : M.contains emptyTraversalFields)
    (env : Env) (hc : M .content = false → env.ContentStable) (frameState : FrameState)
    (fuel : Nat) (s : State) (b : Bool) (r : State × Bool)
    (h : executeEmptyTraversalLoop env frameState fuel s b = some r) : Frame M s r.1 := by
  have he : M .emptyTraversal = true := hM _ (by decide)
  induction fuel generalizing s b with
  | zero => simp [executeEmptyTraversalLoop] at h
  | succ n ih =>
    unfold executeEmptyTraversalLoop at h
    split at h
    · cases h; exact Frame.refl _ _
    · simp only [] at h
      split at h
      · cases h
      · rename_i r1 hv
        exact ((Frame.setEmptyTraversal he s _).trans
          (executeEmptyTraversalVisit_frame hM env hc frameState n _ _ _ r1 hv)).trans
          (ih _ _ h)

theorem executeEmptyTraversal_frame {M : Mask} (hM : M.contains emptyTraversalFields)
    (env : Env) (hc : M .content = false → env.ContentStable) (frameState : FrameState)
    (fuel : Nat) (s : State) (root : TileId) (r : State × Bool)
    (h : executeEmptyTraversal env frameState fuel s root = some r) : Frame M s r.1 := by
  have he : M .emptyTraversal = true := hM _ (by decide)
  unfold executeEmptyTraversal at h
  exact (Frame.setEmptyTraversal he s _).trans
    (executeEmptyTraversalLoop_frame hM env hc frameState fuel _ _ r h)

theorem updateChildren_frame {M : Mask} (hM : M.contains updateTileFields) (env : Env)
    (hc : M .content = false → env.ContentStable)
    (frameState : FrameState) (fuel : Nat) (s : State) (children : List TileId) (s' : State)
    (h : updateChildren env frameState fuel s children = some s') : Frame M s s' :=
  foldlM_preorder (Frame M) (Frame.refl M) (fun _ _ _ => Frame.trans) _
    (fun b a b' hb => updateTile_frame hM env hc frameState fuel b a b' hb) _ _ _ h

theorem pushOrLoadChild_frame {M : Mask}
    (hM : M.contains (loadTileFields ++ touchTileFields ++ [.traversal]))
    (env : Env) (frameState : FrameState) (checkRefines : Bool) (acc : PushChildren)
    (ic : Nat × TileId) :
    Frame M acc.s (pushOrLoadChild env frameState checkRefines acc ic).s := by
  have hl := fun s t => loadTile_frame (M := M) (hM.of_subset (by decide)) env s t frameState
  have ht := fun s t => touchTile_frame (M := M) (hM.of_subset (by decide)) s t frameState
  have htr : M .traversal = true := hM _ (by decide)
  unfold pushOrLoadChild
  simp only []
  split
  · split
    · exact Frame.setTraversal htr _ _
    · exact Frame.setTraversal htr _ _
  · split
    · split
      · exact (hl _ _).trans (ht _ _)
      · exact (hl _ _).trans (ht _ _)
    · exact Frame.refl _ _

theorem childRefines_frame {M : Mask} (hM : M.contains emptyTraversalFields)
    (env : Env) (hc : M .content = false → env.ContentStable) (frameState : FrameState)
    (fuel : Nat) (s : State) (child : TileId) (r : State × Bool)
    (h : childRefines env frameState fuel s child = some r) : Frame M s r.1 := by
  unfold childRefines at h
  split at h
  · cases h; exact Frame.refl _ _
  · split at h
    · exact executeEmptyTraversal_frame hM env hc frameState fuel s child r h
    · cases h; exact Frame.refl _ _

theorem updateAndPushChildrenStep_frame {M : Mask} (hM : M.contains pushChildrenFields)
    (env : Env) (hc : M .content = false → env.ContentStable) (frameState : FrameState)
    (fuel : Nat) (checkRefines : Bool) (acc : PushChildren) (ic : Nat × TileId)
    (acc' : PushChildren)
    (h : updateAndPushChildrenStep env frameState fuel checkRefines acc ic = some acc') :
    Frame M acc.s acc'.s := by
  have h1 := pushOrLoadChild_frame (M := M) (hM.of_subset (by decide)) env frameState checkRefines
    acc ic
  unfold updateAndPushChildrenStep at h
  simp only [] at h
  split at h
  · rw [Option.map_eq_some'] at h
    obtain ⟨r, hr, rfl⟩ := h
    exact h1.trans (childRefines_frame (hM.of_subset (by decide)) env hc frameState fuel _ _ r hr)
  · cases h; exact h1

theorem sortChildren_perm (s : State) (children : List TileId) :
    (sortChildren s children).Perm children :=
  List.perm_insertionSort _ _

theorem updateAndSortChildren_frame {M : Mask} (hM : M.contains pushChildrenFields)
    (env : Env) (hc : M .content = false → env.ContentStable) (frameState : FrameState)
    (fuel : Nat) (s : State) (tile : TileId) (s' : State)
    (h : updateAndSortChildren env frameState fuel s tile = some s') : Frame M s s' := by
  have hch : M .children = true := hM _ (by decide)
  unfold updateAndSortChildren at h
  rw [Option.map_eq_some'] at h
  obtain ⟨s1, h1, rfl⟩ := h
  have f1 := updateChildren_frame (hM.of_subset (by decide)) env hc frameState fuel s _ s1 h1
  refine f1.trans (Frame.setTile _ _ _ ⟨sortChildren_perm _ _, rfl, rfl, rfl, rfl, rfl⟩ ?_)
  intro fld hf; cases fld <;> first | rfl | trivial | exact absurd hf (by simp [hch])

theorem updateAndPushChildrenFinish_frame {M : Mask}
    (hM : M.contains [._wasMinPriorityChild, ._priorityDistance, ._priorityDistanceHolder])
    (tile : TileId) (children : List TileId) (acc : PushChildren) :
    Frame M acc.s (updateAndPushChildrenFinish tile children acc).1 := by
  have hpd : M ._priorityDistance = true := hM _ (by decide)
  have hph : M ._priorityDistanceHolder = true := hM _ (by decide)
  have hwm : M ._wasMinPriorityChild = true := hM _ (by decide)
  unfold updateAndPushChildrenFinish
  simp only []
  split
  · exact Frame.refl _ _
  · refine Frame.trans ?_ (foldl_preorder (Frame M) (Frame.refl M) (fun _ _ _ => Frame.trans) _
      (fun b a => Frame.setTile b a _ ⟨List.Perm.refl _, rfl, rfl, rfl, rfl, rfl⟩
        (by intro fld hf; cases fld <;> first | rfl | trivial | exact absurd hf (by simp [hph])))
      _ _)
    refine Frame.trans (Frame.setTile _ _ _ ⟨List.Perm.refl _, rfl, rfl, rfl, rfl, rfl⟩
        (by intro fld hf; cases fld <;> first | rfl | trivial | exact absurd hf (by simp [hwm])))
      (Frame.setTile _ _ _ ⟨List.Perm.refl _, rfl, rfl, rfl, rfl, rfl⟩
        (by intro fld hf; cases fld <;> first | rfl | trivial | exact absurd hf (by simp [hpd])))

theorem pushLoop_frame {M : Mask} (hM : M.contains pushChildrenFields)
    (env : Env) (hc : M .content = false → env.ContentStable) (frameState : FrameState)
    (fuel : Nat) (check : Bool) (l : List (Nat × TileId)) (acc acc' : PushChildren)
    (h : l.foldlM (updateAndPushChildrenStep env frameState fuel check) acc = some acc') :
    Frame M acc.s acc'.s :=
  foldlM_preorder (fun (a b : PushChildren) => Frame M a.s b.s)
    (fun _ => Frame.refl _ _) (fun _ _ _ => Frame.trans) _
    (fun a ic a' => updateAndPushChildrenStep_frame hM env hc frameState fuel _ a ic a')
    _ _ _ h

theorem updateAndPushChildren_frame {M : Mask} (hM : M.contains pushChildrenFields)
    (env : Env) (hc : M .content = false → env.ContentStable) (frameState : FrameState)
    (fuel : Nat) (s : State) (tile : TileId) (r : State × Bool)
    (h : updateAndPushChildren env frameState fuel s tile = some r) : Frame M s r.1 := by
  unfold updateAndPushChildren at h
  rw [Option.bind_eq_some] at h
  obtain ⟨s1, h1, h2⟩ := h
  simp only [] at h2
  rw [Option.map_eq_some'] at h2
  obtain ⟨acc, h3, rfl⟩ := h2
  exact ((updateAndSortChildren_frame hM env hc frameState fuel s tile s1 h1).trans
    (pushLoop_frame hM env hc frameState fuel _ _ _ acc h3)).trans
    (updateAndPushChildrenFinish_frame (hM.of_subset (by decide)) tile _ acc)

/-! ## Termination: enough fuel gives a result -/

theorem stackSize_perm (size : TileId → Nat) {l l' : List TileId} (h : l.Perm l') :
    stackSize size l = stackSize size l' :=
  (h.map size).sum_eq

theorem stackSize_append (size : TileId → Nat) (l l' : List TileId) :
    stackSize size (l ++ l') = stackSize size l + stackSize size l' := by
  simp [stackSize]

theorem stackSize_cons (size : TileId → Nat) (a : TileId) (l : List TileId) :
    stackSize size (a :: l) = size a + stackSize size l := by
  simp [stackSize]

theorem stackSize_mem (size : TileId → Nat) {a : TileId} {l : List TileId} (h : a ∈ l) :
    size a ≤ stackSize size l :=
  List.single_le_sum (fun _ _ => Nat.zero_le _) _ (List.mem_map_of_mem size h)

theorem SizeOK.of_frame {M : Mask} {size : TileId → Nat} {s s' : State} (h : Frame M s s')
    (hS : SizeOK size s) : SizeOK size s' := fun p => by
  rw [stackSize_perm size (h.tileStatic p).children]; exact hS p

theorem SizeOK.child_lt {size : TileId → Nat} {s : State} (hS : SizeOK size s) {p c : TileId}
    (h : c ∈ (s.tiles p).children) : size c < size p :=
  lt_of_le_of_lt (stackSize_mem size h) (hS p)

theorem Mask.all_contains (l : List Field) : Mask.all.contains l := fun _ _ => rfl

theorem updateTileVisibility_isSome (env : Env) (frameState : FrameState) (size : TileId → Nat)
    (fuel : Nat) (s : State) (tile : TileId) (hS : SizeOK size s) (hfuel : size tile ≤ fuel) :
    ∃ s', updateTileVisibility env frameState fuel s tile = some s' := by
  induction fuel generalizing s tile with
  | zero =>
    have := hS tile
    omega
  | succ n ih =>
    have fv := updateVisibility_frame (M := Mask.all) (Mask.all_contains _) env s tile frameState
    have hS1 := hS.of_frame fv
    unfold updateTileVisibility
    simp only []
    split
    · exact ⟨_, rfl⟩
    · split
      · rename_i child tail _ hch
        have hlt : size child < size tile :=
          hS1.child_lt (p := tile) (by rw [hch]; exact List.mem_cons_self _ _)
        obtain ⟨s2, h2⟩ := ih _ child hS1 (by omega)
        exact ⟨_, by rw [h2]; rfl⟩
      · split
        · exact ⟨_, rfl⟩
        · split
          · split <;> exact ⟨_, rfl⟩
          · exact ⟨_, rfl⟩

theorem updateTile_isSome (env : Env) (frameState : FrameState) (size : TileId → Nat)
    (fuel : Nat) (s : State) (tile : TileId) (hS : SizeOK size s) (hfuel : size tile ≤ fuel) :
    ∃ s', updateTile env frameState fuel s tile = some s' := by
  obtain ⟨s1, h1⟩ := updateTileVisibility_isSome env frameState size fuel s tile hS hfuel
  exact ⟨_, by unfold updateTile; rw [h1]; rfl⟩

theorem updateChildren_isSome (env : Env) (frameState : FrameState) (size : TileId → Nat)
    (fuel : Nat) (s : State) (children : List TileId) (hS : SizeOK size s)
    (hfuel : ∀ c ∈ children, size c ≤ fuel) :
    ∃ s', updateChildren env frameState fuel s children = some s' := by
  induction children generalizing s with
  | nil => exact ⟨s, rfl⟩
  | cons c l ih =>
    obtain ⟨s1, h1⟩ := updateTile_isSome env frameState size fuel s c hS
      (hfuel c (List.mem_cons_self _ _))
    have f1 := updateTile_frame (M := Mask.all) (Mask.all_contains _) env
      (fun h => absurd h (by decide)) frameState fuel s c s1 h1
    obtain ⟨s2, h2⟩ := ih s1 (hS.of_frame f1) (fun c hc => hfuel c (List.mem_cons_of_mem _ hc))
    refine ⟨s2, ?_⟩
    unfold updateChildren at h2 ⊢
    rw [List.foldlM_cons, h1]
    exact h2

theorem foldlM_isSome {β α : Type} (I : β → Prop) (P : α → Prop) (f : β → α → Option β)
    (hf : ∀ b a, I b → P a → ∃ b', f b a = some b' ∧ I b')
    (l : List α) (hP : ∀ a ∈ l, P a) (b : β) (hb : I b) :
    ∃ b', l.foldlM f b = some b' ∧ I b' := by
  induction l generalizing b with
  | nil => exact ⟨b, rfl, hb⟩
  | cons a l ih =>
    obtain ⟨b1, h1, hI1⟩ := hf b a hb (hP a (List.mem_cons_self _ _))
    obtain ⟨b2, h2, hI2⟩ := ih (fun a ha => hP a (List.mem_cons_of_mem _ ha)) b1 hI1
    exact ⟨b2, by rw [List.foldlM_cons, h1]; exact h2, hI2⟩

theorem foldlM_prefix_inv {β α : Type} (f : β → α → Option β) (I : List α → β → Prop)
    (hstep : ∀ pre a b b', I pre b → f b a = some b' → I (pre ++ [a]) b')
    (l pre : List α) (b b' : β) (hb : I pre b) (h : l.foldlM f b = some b') :
    I (pre ++ l) b' := by
  induction l generalizing pre b with
  | nil => simp at h; subst h; simpa using hb
  | cons a l ih =>
    rw [List.foldlM_cons] at h
    cases hfa : f b a with
    | none => simp [hfa] at h
    | some b1 =>
      simp [hfa] at h
      have := ih (pre ++ [a]) b1 (hstep pre a b b1 hb hfa) h
      simpa using this

theorem foldl_push_emptyTraversal (children : List TileId) (s : State) :
    (children.foldl
      (fun (s : State) child =>
        { s with emptyTraversal := { s.emptyTraversal with
            stack := child :: s.emptyTraversal.stack } }) s).emptyTraversal.stack
      = children.reverse ++ s.emptyTraversal.stack := by
  induction children generalizing s with
  | nil => rfl
  | cons c l ih => simp [List.foldl_cons, ih]

/-- The mask of the fields that `executeEmptyTraversal` may write, content state included. -/
theorem emptyMask_contains :
    (Mask.of (.content :: emptyTraversalFields)).contains emptyTraversalFields :=
  (Mask.contains_of _).of_subset (by decide)

theorem executeEmptyTraversalVisit_stack (env : Env) (frameState : FrameState) (fuel : Nat)
    (s : State) (tile : TileId) (b : Bool) (r : State × Bool)
    (h : executeEmptyTraversalVisit env frameState fuel s tile b = some r) :
    ∃ pushed, r.1.emptyTraversal.stack = pushed ++ s.emptyTraversal.stack
      ∧ pushed.reverse.Sublist (s.tiles tile).children := by
  unfold executeEmptyTraversalVisit at h
  simp only [] at h
  rw [Option.map_eq_some'] at h
  obtain ⟨s1, h1, rfl⟩ := h
  have hu := updateTile_frame (M := Mask.of (.content :: updateTileFields))
    ((Mask.contains_of _).of_subset (by decide)) env (fun h => absurd h (by decide))
    frameState fuel s tile s1 h1
  have e1 : s1.emptyTraversal = s.emptyTraversal := hu.global .emptyTraversal (by decide)
  have hl := fun s t => loadTile_frame (M := Mask.of loadTileFields) (Mask.contains_of _)
    env s t frameState
  have ht := fun s t => touchTile_frame (M := Mask.of touchTileFields) (Mask.contains_of _)
    s t frameState
  have e2 : (if (!isVisible (s1.tiles tile)) = true then
      touchTile (loadTile env s1 tile frameState) tile frameState else s1).emptyTraversal
      = s.emptyTraversal := by
    split
    · rw [← e1]
      exact ((ht _ _).global .emptyTraversal (by decide)).trans
        ((hl _ _).global .emptyTraversal (by decide))
    · exact e1
  simp only []
  split
  · refine ⟨(s.tiles tile).children.reverse, ?_, by simp⟩
    rw [foldl_push_emptyTraversal, e2]
  · exact ⟨[], by simpa using congrArg Traversal.stack e2, by simp⟩

theorem executeEmptyTraversalVisit_isSome (env : Env) (frameState : FrameState)
    (size : TileId → Nat) (fuel : Nat) (s : State) (tile : TileId) (b : Bool)
    (hS : SizeOK size s) (hfuel : size tile ≤ fuel) :
    ∃ r, executeEmptyTraversalVisit env frameState fuel s tile b = some r := by
  obtain ⟨s1, h1⟩ := updateTile_isSome env frameState size fuel s tile hS hfuel
  unfold executeEmptyTraversalVisit
  simp only [h1]
  exact ⟨_, rfl⟩

theorem executeEmptyTraversalLoop_isSome (env : Env) (frameState : FrameState)
    (size : TileId → Nat) (fuel : Nat) (s : State) (b : Bool) (hS : SizeOK size s)
    (hfuel : stackSize size s.emptyTraversal.stack + 1 ≤ fuel) :
    ∃ r, executeEmptyTraversalLoop env frameState fuel s b = some r := by
  induction fuel generalizing s b with
  | zero => omega
  | succ n ih =>
    unfold executeEmptyTraversalLoop
    split
    · exact ⟨_, rfl⟩
    · rename_i tile rest hst
      simp only []
      rw [hst, stackSize_cons] at hfuel
      have hS0 : SizeOK size { s with emptyTraversal :=
          { stack := rest
            stackMaximumLength := max s.emptyTraversal.stackMaximumLength (tile :: rest).length } } :=
        fun p => hS p
      obtain ⟨r1, hr1⟩ := executeEmptyTraversalVisit_isSome env frameState size n _ tile b hS0
        (by omega)
      have hf1 := executeEmptyTraversalVisit_frame emptyMask_contains env
        (fun h => absurd h (by decide)) frameState n _ tile b r1 hr1
      obtain ⟨pushed, hp1, hp2⟩ := executeEmptyTraversalVisit_stack env frameState n _ tile b r1 hr1
      rw [hr1]
      simp only []
      refine ih r1.1 r1.2 (hS0.of_frame hf1) ?_
      rw [hp1, stackSize_append]
      have h1 : stackSize size pushed ≤ stackSize size (s.tiles tile).children := by
        rw [← stackSize_perm size (List.reverse_perm pushed)]
        exact List.Sublist.sum_le_sum (hp2.map size) (fun _ _ => Nat.zero_le _)
      have h2 := hS tile
      show stackSize size pushed + stackSize size rest + 1 ≤ n
      omega

theorem executeEmptyTraversalLoop_stack (env : Env) (frameState : FrameState)
    (fuel : Nat) (s : State) (b : Bool) (r : State × Bool)
    (h : executeEmptyTraversalLoop env frameState fuel s b = some r) :
    r.1.emptyTraversal.stack = [] := by
  induction fuel generalizing s b with
  | zero => simp [executeEmptyTraversalLoop] at h
  | succ n ih =>
    unfold executeEmptyTraversalLoop at h
    split at h
    · cases h; assumption
    · simp only [] at h
      split at h
      · cases h
      · exact ih _ _ h

theorem executeEmptyTraversal_isSome (env : Env) (frameState : FrameState)
    (size : TileId → Nat) (fuel : Nat) (s : State) (root : TileId) (hS : SizeOK size s)
    (hst : s.emptyTraversal.stack = [])
    (hfuel : size root + 1 ≤ fuel) :
    ∃ r, executeEmptyTraversal env frameState fuel s root = some r
      ∧ r.1.emptyTraversal.stack = [] := by
  unfold executeEmptyTraversal
  obtain ⟨r, hr⟩ := executeEmptyTraversalLoop_isSome env frameState size fuel
    { s with emptyTraversal := { s.emptyTraversal with stack := root :: s.emptyTraversal.stack } }
    true (fun p => hS p) (by simp [hst, stackSize]; omega)
  exact ⟨r, hr, executeEmptyTraversalLoop_stack env frameState fuel _ _ r hr⟩

theorem pushMask_contains :
    (Mask.of (.content :: pushChildrenFields)).contains pushChildrenFields :=
  (Mask.contains_of _).of_subset (by decide)

theorem pushOrLoadChild_stack (env : Env) (frameState : FrameState) (checkRefines : Bool)
    (acc : PushChildren) (ic : Nat × TileId) :
    (pushOrLoadChild env frameState checkRefines acc ic).s.traversal.stack
      = if isVisible (acc.s.tiles ic.2) = true then ic.2 :: acc.s.traversal.stack
        else acc.s.traversal.stack := by
  have hl := fun s t => loadTile_frame (M := Mask.of loadTileFields) (Mask.contains_of _)
    env s t frameState
  have ht := fun s t => touchTile_frame (M := Mask.of touchTileFields) (Mask.contains_of _)
    s t frameState
  unfold pushOrLoadChild
  simp only []
  split
  · split <;> rfl
  · split
    · have e : (touchTile (loadTile env acc.s ic.2 frameState) ic.2 frameState).traversal
          = acc.s.traversal :=
        ((ht _ _).global .traversal (by decide)).trans ((hl _ _).global .traversal (by decide))
      split <;> exact congrArg Traversal.stack e
    · rfl

theorem pushOrLoadChild_anyChildrenVisible (env : Env) (frameState : FrameState)
    (checkRefines : Bool) (acc : PushChildren) (ic : Nat × TileId) :
    (pushOrLoadChild env frameState checkRefines acc ic).anyChildrenVisible
      = (acc.anyChildrenVisible || isVisible (acc.s.tiles ic.2)) := by
  unfold pushOrLoadChild
  simp only []
  split
  · rename_i h; simp [h]
  · rename_i h
    split
    · split <;> simp [h]
    · simp [h]

theorem pushOrLoadChild_refines (env : Env) (frameState : FrameState)
    (checkRefines : Bool) (acc : PushChildren) (ic : Nat × TileId) :
    (pushOrLoadChild env frameState checkRefines acc ic).refines = acc.refines := by
  unfold pushOrLoadChild
  simp only []
  split
  · split <;> rfl
  · split
    · split <;> rfl
    · rfl

theorem pushOrLoadChild_emptyTraversal (env : Env) (frameState : FrameState)
    (checkRefines : Bool) (acc : PushChildren) (ic : Nat × TileId) :
    (pushOrLoadChild env frameState checkRefines acc ic).s.emptyTraversal
      = acc.s.emptyTraversal :=
  (pushOrLoadChild_frame (M := Mask.of (loadTileFields ++ touchTileFields ++ [.traversal]))
    (Mask.contains_of _) env frameState checkRefines acc ic).global .emptyTraversal (by decide)

theorem childRefines_traversal (env : Env) (frameState : FrameState) (fuel : Nat) (s : State)
    (child : TileId) (r : State × Bool)
    (h : childRefines env frameState fuel s child = some r) : r.1.traversal = s.traversal :=
  (childRefines_frame emptyMask_contains env (fun h => absurd h (by decide)) frameState fuel s
    child r h).global .traversal (by decide)

theorem childRefines_isSome (env : Env) (frameState : FrameState) (size : TileId → Nat)
    (fuel : Nat) (s : State) (child : TileId) (hS : SizeOK size s)
    (hst : s.emptyTraversal.stack = []) (hfuel : size child + 1 ≤ fuel) :
    ∃ r, childRefines env frameState fuel s child = some r ∧ r.1.emptyTraversal.stack = [] := by
  unfold childRefines
  split
  · exact ⟨_, rfl, hst⟩
  · split
    · exact executeEmptyTraversal_isSome env frameState size fuel s child hS hst hfuel
    · exact ⟨_, rfl, hst⟩

theorem updateAndPushChildrenStep_stack (env : Env) (frameState : FrameState)
    (fuel : Nat) (checkRefines : Bool) (acc : PushChildren) (ic : Nat × TileId)
    (acc' : PushChildren)
    (h : updateAndPushChildrenStep env frameState fuel checkRefines acc ic = some acc') :
    acc'.s.traversal.stack
      = if isVisible (acc.s.tiles ic.2) = true then ic.2 :: acc.s.traversal.stack
        else acc.s.traversal.stack := by
  rw [← pushOrLoadChild_stack env frameState checkRefines acc ic]
  unfold updateAndPushChildrenStep at h
  simp only [] at h
  split at h
  · rw [Option.map_eq_some'] at h
    obtain ⟨r, hr, rfl⟩ := h
    exact congrArg Traversal.stack (childRefines_traversal env frameState fuel _ _ r hr)
  · cases h; rfl

theorem updateAndPushChildrenStep_isSome (env : Env) (frameState : FrameState)
    (size : TileId → Nat) (fuel : Nat) (checkRefines : Bool) (acc : PushChildren)
    (ic : Nat × TileId) (hS : SizeOK size acc.s) (hst : acc.s.emptyTraversal.stack = [])
    (hfuel : size ic.2 + 1 ≤ fuel) :
    ∃ acc', updateAndPushChildrenStep env frameState fuel checkRefines acc ic = some acc'
      ∧ SizeOK size acc'.s ∧ acc'.s.emptyTraversal.stack = [] := by
  have h1 := pushOrLoadChild_frame (M := Mask.all) (Mask.all_contains _) env frameState
    checkRefines acc ic
  have hS1 := hS.of_frame h1
  have hst1 : (pushOrLoadChild env frameState checkRefines acc ic).s.emptyTraversal.stack = [] := by
    rw [pushOrLoadChild_emptyTraversal]; exact hst
  unfold updateAndPushChildrenStep
  simp only []
  split
  · obtain ⟨r, hr, hr2⟩ := childRefines_isSome env frameState size fuel _ ic.2 hS1 hst1 hfuel
    have hf := childRefines_frame (M := Mask.all) (Mask.all_contains _) env
      (fun h => absurd h (by decide)) frameState fuel _ _ r hr
    exact ⟨_, by rw [hr]; rfl, hS1.of_frame hf, hr2⟩
  · exact ⟨_, rfl, hS1, hst1⟩

/-- The stack after the second loop: the children pushed, on top of the stack before. -/
theorem pushLoop_stack (env : Env) (frameState : FrameState) (fuel : Nat) (checkRefines : Bool)
    (l : List (Nat × TileId)) (acc acc' : PushChildren)
    (h : l.foldlM (updateAndPushChildrenStep env frameState fuel checkRefines) acc = some acc') :
    ∃ pushed, acc'.s.traversal.stack = pushed ++ acc.s.traversal.stack
      ∧ pushed.reverse.Sublist (l.map Prod.snd) := by
  have := foldlM_prefix_inv (updateAndPushChildrenStep env frameState fuel checkRefines)
    (fun pre a => ∃ pushed, a.s.traversal.stack = pushed ++ acc.s.traversal.stack
      ∧ pushed.reverse.Sublist (pre.map Prod.snd))
    (by
      intro pre a b b' ⟨pushed, hp1, hp2⟩ hb
      have hs := updateAndPushChildrenStep_stack env frameState fuel checkRefines b a b' hb
      split at hs
      · refine ⟨a.2 :: pushed, by rw [hs, hp1]; rfl, ?_⟩
        simp only [List.reverse_cons, List.map_append, List.map_cons, List.map_nil]
        exact hp2.append (List.Sublist.refl _)
      · refine ⟨pushed, by rw [hs, hp1], ?_⟩
        simp only [List.map_append]
        exact hp2.trans (List.sublist_append_left _ _))
    l [] acc acc' ⟨[], rfl, by simp⟩ h
  simpa using this

theorem pushLoop_isSome (env : Env) (frameState : FrameState) (size : TileId → Nat)
    (fuel : Nat) (checkRefines : Bool) (l : List (Nat × TileId)) (acc : PushChildren)
    (hS : SizeOK size acc.s) (hst : acc.s.emptyTraversal.stack = [])
    (hfuel : ∀ ic ∈ l, size ic.2 + 1 ≤ fuel) :
    ∃ acc', l.foldlM (updateAndPushChildrenStep env frameState fuel checkRefines) acc = some acc'
      ∧ SizeOK size acc'.s ∧ acc'.s.emptyTraversal.stack = [] :=
  foldlM_isSome (fun a => SizeOK size a.s ∧ a.s.emptyTraversal.stack = [])
    (fun ic => size ic.2 + 1 ≤ fuel) _
    (fun b a hb ha => updateAndPushChildrenStep_isSome env frameState size fuel checkRefines b a
      hb.1 hb.2 ha)
    l hfuel acc ⟨hS, hst⟩

theorem updateAndSortChildren_isSome (env : Env) (frameState : FrameState)
    (size : TileId → Nat) (fuel : Nat) (s : State) (tile : TileId) (hS : SizeOK size s)
    (hfuel : size tile ≤ fuel) :
    ∃ s', updateAndSortChildren env frameState fuel s tile = some s' := by
  obtain ⟨s1, h1⟩ := updateChildren_isSome env frameState size fuel s (s.tiles tile).children hS
    (fun c hc => by have := hS.child_lt hc; omega)
  exact ⟨_, by unfold updateAndSortChildren; rw [h1]; rfl⟩

theorem updateAndPushChildrenFinish_traversal (tile : TileId) (children : List TileId)
    (acc : PushChildren) :
    (updateAndPushChildrenFinish tile children acc).1.traversal = acc.s.traversal :=
  (updateAndPushChildrenFinish_frame
    (M := Mask.of [._wasMinPriorityChild, ._priorityDistance, ._priorityDistanceHolder])
    (Mask.contains_of _) tile children acc).global .traversal (by decide)

theorem updateAndPushChildrenFinish_emptyTraversal (tile : TileId) (children : List TileId)
    (acc : PushChildren) :
    (updateAndPushChildrenFinish tile children acc).1.emptyTraversal = acc.s.emptyTraversal :=
  (updateAndPushChildrenFinish_frame
    (M := Mask.of [._wasMinPriorityChild, ._priorityDistance, ._priorityDistanceHolder])
    (Mask.contains_of _) tile children acc).global .emptyTraversal (by decide)

theorem updateAndSortChildren_records (env : Env) (frameState : FrameState)
    (fuel : Nat) (s : State) (tile : TileId) (s' : State)
    (h : updateAndSortChildren env frameState fuel s tile = some s') :
    s'.traversal = s.traversal ∧ s'.emptyTraversal = s.emptyTraversal := by
  unfold updateAndSortChildren at h
  rw [Option.map_eq_some'] at h
  obtain ⟨s1, h1, rfl⟩ := h
  have f1 := updateChildren_frame (M := Mask.of (.content :: updateTileFields))
    ((Mask.contains_of _).of_subset (by decide)) env (fun h => absurd h (by decide))
    frameState fuel s _ s1 h1
  exact ⟨f1.global .traversal (by decide), f1.global .emptyTraversal (by decide)⟩

/-- The children pushed by `updateAndPushChildren` are children of the tile, each pushed once,
and they go on top of the stack. -/
theorem updateAndPushChildren_stack (env : Env) (frameState : FrameState)
    (fuel : Nat) (s : State) (tile : TileId) (r : State × Bool)
    (h : updateAndPushChildren env frameState fuel s tile = some r) :
    ∃ pushed sorted, r.1.traversal.stack = pushed ++ s.traversal.stack
      ∧ pushed.reverse.Sublist sorted ∧ sorted.Perm (s.tiles tile).children := by
  unfold updateAndPushChildren at h
  rw [Option.bind_eq_some] at h
  obtain ⟨s1, h1, h2⟩ := h
  simp only [] at h2
  rw [Option.map_eq_some'] at h2
  obtain ⟨acc, h3, rfl⟩ := h2
  obtain ⟨pushed, hp1, hp2⟩ := pushLoop_stack env frameState fuel _ _ _ acc h3
  have f1 := updateAndSortChildren_frame (M := Mask.all) (Mask.all_contains _) env
    (fun h => absurd h (by decide)) frameState fuel s tile s1 h1
  refine ⟨pushed, (s1.tiles tile).children, ?_, ?_, (f1.tileStatic tile).children⟩
  · rw [updateAndPushChildrenFinish_traversal, hp1]
    exact congrArg (fun x => pushed ++ Traversal.stack x)
      (updateAndSortChildren_records env frameState fuel s tile s1 h1).1
  · simpa [List.enum_map_snd] using hp2

theorem updateAndPushChildren_isSome (env : Env) (frameState : FrameState)
    (size : TileId → Nat) (fuel : Nat) (s : State) (tile : TileId) (hS : SizeOK size s)
    (hst : s.emptyTraversal.stack = []) (hfuel : size tile ≤ fuel) :
    ∃ r, updateAndPushChildren env frameState fuel s tile = some r
      ∧ r.1.emptyTraversal.stack = [] := by
  obtain ⟨s1, h1⟩ := updateAndSortChildren_isSome env frameState size fuel s tile hS hfuel
  have f1 := updateAndSortChildren_frame (M := Mask.all) (Mask.all_contains _) env
    (fun h => absurd h (by decide)) frameState fuel s tile s1 h1
  have hS1 := hS.of_frame f1
  have hst1 : s1.emptyTraversal.stack = [] := by
    rw [(updateAndSortChildren_records env frameState fuel s tile s1 h1).2]; exact hst
  obtain ⟨acc, h2, _, hst2⟩ := pushLoop_isSome env frameState size fuel (checkRefines s1 tile)
    (s1.tiles tile).children.enum (PushChildren.init s1) hS1 hst1
    (fun ic hic => by
      have := hS1.child_lt (List.snd_mem_of_mem_enum hic)
      omega)
  refine ⟨updateAndPushChildrenFinish tile (s1.tiles tile).children acc, ?_, ?_⟩
  · unfold updateAndPushChildren
    rw [h1]
    simp only [Option.some_bind, h2]
    rfl
  · rw [updateAndPushChildrenFinish_emptyTraversal]; exact hst2

theorem selectTile_selectedTiles (env : Env) (s : State) (tile : TileId)
    (frameState : FrameState) :
    (selectTile env s tile frameState).tileset._selectedTiles
      = if env.contentVisibility frameState tile ≠ Intersect.OUTSIDE then
          s.tileset._selectedTiles ++ [tile]
        else s.tileset._selectedTiles := by
  unfold selectTile
  split
  · simp only [State.setTileset_tileset, State.setTile_tileset]
    split
    · rfl
    · split <;> rfl
  · rfl

theorem inBaseTraversal_base (s : State) (tile : TileId) (base : ℚ)
    (hskip : s.tileset._skipLevelOfDetail = false) : inBaseTraversal s tile base = some true := by
  simp [inBaseTraversal, skipLevelOfDetail, hskip]

theorem selectDesiredTile_base (env : Env) (frameState : FrameState) (fuel : Nat) (s : State)
    (tile : TileId) (hskip : s.tileset._skipLevelOfDetail = false) :
    selectDesiredTile env frameState fuel s tile
      = some (if (s.tiles tile).contentAvailable = true then selectTile env s tile frameState
          else s) := by
  unfold selectDesiredTile
  simp only [skipLevelOfDetail, hskip, Bool.not_false, if_true]
  split <;> rfl

/-- The fields written by the selection part of the visit when mixed-LOD rendering is off. -/
theorem selectPhase_contains :
    (Mask.of (loadTileFields ++ selectTileFields ++ [._emptyTiles])).contains
      (loadTileFields ++ selectTileFields ++ [._emptyTiles]) :=
  Mask.contains_of _

theorem selectDesiredTile_base_frame {M : Mask} (hM : M.contains selectTileFields)
    (env : Env) (frameState : FrameState) (fuel : Nat) (s : State)
    (tile : TileId) (hskip : s.tileset._skipLevelOfDetail = false) (s' : State)
    (h : selectDesiredTile env frameState fuel s tile = some s') : Frame M s s' := by
  rw [selectDesiredTile_base env frameState fuel s tile hskip] at h
  cases h
  split
  · exact selectTile_frame (hM.of_subset (by decide)) env s tile frameState
  · exact Frame.refl _ _

theorem executeTraversalSelect_base_frame {M : Mask}
    (hM : M.contains (loadTileFields ++ selectTileFields ++ [._emptyTiles]))
    (env : Env) (frameState : FrameState) (fuel : Nat) (s : State)
    (tile : TileId) (add replace stoppedRefining : Bool)
    (hskip : s.tileset._skipLevelOfDetail = false) (s' : State)
    (h : executeTraversalSelect env frameState fuel s tile add replace true stoppedRefining
      = some s') : Frame M s s' := by
  have hl := fun s t => loadTile_frame (M := M) (hM.of_subset (by decide)) env s t frameState
  have he := fun s t => addEmptyTile_frame (M := M) (hM.of_subset (by decide)) s t
  have hd := fun s (hs : s.tileset._skipLevelOfDetail = false) s' =>
    selectDesiredTile_base_frame (M := M) (hM.of_subset (by decide)) env frameState fuel s tile hs s'
  have hsk : ∀ s1, Frame M s s1 → s1.tileset._skipLevelOfDetail = false := fun s1 h1 => by
    rw [h1.tilesetStatic._skipLevelOfDetail]; exact hskip
  unfold executeTraversalSelect at h
  split at h
  · simp only [] at h
    have f1 := (he s tile).trans (hl _ tile)
    split at h
    · exact f1.trans (hd _ (hsk _ f1) _ h)
    · cases h; exact f1
  · split at h
    · rw [Option.map_eq_some'] at h
      obtain ⟨s1, h1, rfl⟩ := h
      exact (hd _ hskip _ h1).trans (hl _ _)
    · split at h
      · simp only [if_true] at h
        have f1 := hl s tile
        split at h
        · exact f1.trans (hd _ (hsk _ f1) _ h)
        · cases h; exact f1
      · cases h; exact Frame.refl _ _

theorem executeTraversalSelect_base_isSome
    (env : Env) (frameState : FrameState) (fuel : Nat) (s : State)
    (tile : TileId) (add replace stoppedRefining : Bool)
    (hskip : s.tileset._skipLevelOfDetail = false) :
    ∃ s', executeTraversalSelect env frameState fuel s tile add replace true stoppedRefining
      = some s' := by
  have hd := fun s (hs : s.tileset._skipLevelOfDetail = false) =>
    selectDesiredTile_base env frameState fuel s tile hs
  have hl := fun s t => loadTile_frame (M := Mask.all) (Mask.all_contains _) env s t frameState
  have he := fun s t => addEmptyTile_frame (M := Mask.all) (Mask.all_contains _) s t
  have hsk : ∀ s1, Frame Mask.all s s1 → s1.tileset._skipLevelOfDetail = false := fun s1 h1 => by
    rw [h1.tilesetStatic._skipLevelOfDetail]; exact hskip
  unfold executeTraversalSelect
  split
  · simp only []
    split
    · rw [hd _ (hsk _ ((he s tile).trans (hl _ tile)))]; exact ⟨_, rfl⟩
    · exact ⟨_, rfl⟩
  · split
    · rw [hd _ hskip]; exact ⟨_, rfl⟩
    · split
      · simp only [if_true]
        split
        · rw [hd _ (hsk _ (hl s tile))]; exact ⟨_, rfl⟩
        · exact ⟨_, rfl⟩
      · exact ⟨_, rfl⟩

/-- What the selection part of the visit does to `_selectedTiles` when mixed-LOD rendering is
off: it appends the tile or nothing, and it appends the tile only if the tile is additive or
stopped refining; it appends an additive tile whose content is not empty, is available and is
not outside the view. -/
theorem executeTraversalSelect_base_selected
    (env : Env) (frameState : FrameState) (fuel : Nat) (s : State)
    (tile : TileId) (stoppedRefining : Bool)
    (hskip : s.tileset._skipLevelOfDetail = false) (s' : State)
    (h : executeTraversalSelect env frameState fuel s tile
      (decide ((s.tiles tile).refine = Cesium3DTileRefine.ADD))
      (decide ((s.tiles tile).refine = Cesium3DTileRefine.REPLACE)) true stoppedRefining
      = some s') :
    (s'.tileset._selectedTiles = s.tileset._selectedTiles
      ∨ (s'.tileset._selectedTiles = s.tileset._selectedTiles ++ [tile]
        ∧ ((s.tiles tile).refine = Cesium3DTileRefine.ADD ∨ stoppedRefining = true)))
    ∧ ((s.tiles tile).refine = Cesium3DTileRefine.ADD → hasEmptyContent (s.tiles tile) = false →
        (s.tiles tile).contentAvailable = true →
        env.contentVisibility frameState tile ≠ Intersect.OUTSIDE →
        s'.tileset._selectedTiles = s.tileset._selectedTiles ++ [tile]) := by
  have hd := fun s (hs : s.tileset._skipLevelOfDetail = false) =>
    selectDesiredTile_base env frameState fuel s tile hs
  have hl := fun s t => loadTile_frame (M := Mask.of loadTileFields) (Mask.contains_of _)
    env s t frameState
  have he := fun s t => addEmptyTile_frame (M := Mask.of [._emptyTiles]) (Mask.contains_of _) s t
  have hlsk : ∀ s1 t, s1.tileset._skipLevelOfDetail = false →
      (loadTile env s1 t frameState).tileset._skipLevelOfDetail = false := fun s1 t h1 => by
    rw [(hl s1 t).tilesetStatic._skipLevelOfDetail]; exact h1
  have hlsel : ∀ s1 t, (loadTile env s1 t frameState).tileset._selectedTiles
      = s1.tileset._selectedTiles := fun s1 t => (hl s1 t).global ._selectedTiles (by decide)
  have hsel : ∀ s1, (if (s1.tiles tile).contentAvailable = true then
        selectTile env s1 tile frameState else s1).tileset._selectedTiles
        = s1.tileset._selectedTiles
      ∨ (if (s1.tiles tile).contentAvailable = true then
        selectTile env s1 tile frameState else s1).tileset._selectedTiles
        = s1.tileset._selectedTiles ++ [tile] := by
    intro s1
    split
    · rw [selectTile_selectedTiles]
      split
      · exact Or.inr rfl
      · exact Or.inl rfl
    · exact Or.inl rfl
  unfold executeTraversalSelect at h
  split at h
  · rename_i hempty
    refine ⟨?_, fun _ hne => absurd hempty (by simp [hne])⟩
    simp only [] at h
    have e1 : (loadTile env (addEmptyTile s tile) tile frameState).tileset._selectedTiles
        = s.tileset._selectedTiles := (hlsel _ _).trans rfl
    split at h
    · rename_i hstop
      rw [hd _ (hlsk _ _ (by exact hskip))] at h
      cases h
      rcases hsel (loadTile env (addEmptyTile s tile) tile frameState) with h1 | h1
      · exact Or.inl (h1.trans e1)
      · exact Or.inr ⟨by rw [h1, e1], Or.inr hstop⟩
    · cases h; exact Or.inl e1
  · split at h
    · rename_i hadd
      have hadd' : (s.tiles tile).refine = Cesium3DTileRefine.ADD := by simpa using hadd
      rw [hd _ hskip] at h
      simp only [Option.map_some'] at h
      cases h
      refine ⟨?_, ?_⟩
      · rw [hlsel]
        rcases hsel s with h1 | h1
        · exact Or.inl h1
        · exact Or.inr ⟨h1, Or.inl hadd'⟩
      · intro _ _ hav hcv
        rw [hlsel, if_pos hav, selectTile_selectedTiles, if_pos hcv]
    · rename_i hadd
      have hadd' : ¬ (s.tiles tile).refine = Cesium3DTileRefine.ADD := by simpa using hadd
      refine ⟨?_, fun h' => absurd h' hadd'⟩
      split at h
      · simp only [if_true] at h
        split at h
        · rename_i hstop
          rw [hd _ (hlsk _ _ hskip)] at h
          cases h
          rcases hsel (loadTile env s tile frameState) with h1 | h1
          · exact Or.inl (h1.trans (hlsel _ _))
          · exact Or.inr ⟨by rw [h1, hlsel], Or.inr hstop⟩
        · cases h; exact Or.inl (hlsel _ _)
      · cases h; exact Or.inl rfl

theorem executeTraversalRefine_frame {M : Mask} (hM : M.contains pushChildrenFields)
    (env : Env) (hc : M .content = false → env.ContentStable) (frameState : FrameState)
    (fuel : Nat) (s : State) (tile : TileId) (p : Bool) (r : State × Bool)
    (h : executeTraversalRefine env frameState fuel s tile p = some r) : Frame M s r.1 := by
  unfold executeTraversalRefine at h
  split at h
  · rw [Option.map_eq_some'] at h
    obtain ⟨r1, h1, rfl⟩ := h
    exact updateAndPushChildren_frame hM env hc frameState fuel s tile r1 h1
  · cases h; exact Frame.refl _ _

theorem executeTraversalRefine_stack (env : Env) (frameState : FrameState)
    (fuel : Nat) (s : State) (tile : TileId) (p : Bool) (r : State × Bool)
    (h : executeTraversalRefine env frameState fuel s tile p = some r) :
    (∃ pushed sorted, r.1.traversal.stack = pushed ++ s.traversal.stack
      ∧ pushed.reverse.Sublist sorted ∧ sorted.Perm (s.tiles tile).children)
    ∧ (r.2 = true → p = true)
    ∧ (s.emptyTraversal.stack = [] → r.1.emptyTraversal.stack = []) := by
  unfold executeTraversalRefine at h
  split at h
  · rw [Option.map_eq_some'] at h
    obtain ⟨r1, h1, rfl⟩ := h
    refine ⟨updateAndPushChildren_stack env frameState fuel s tile r1 h1, ?_, ?_⟩
    · intro h2
      simp only [Bool.and_eq_true] at h2
      exact h2.2
    · intro hst
      -- the empty traversal leaves its stack empty, every other write leaves it as it is
      unfold updateAndPushChildren at h1
      rw [Option.bind_eq_some] at h1
      obtain ⟨s1, h2, h3⟩ := h1
      simp only [] at h3
      rw [Option.map_eq_some'] at h3
      obtain ⟨acc, h4, rfl⟩ := h3
      rw [updateAndPushChildrenFinish_emptyTraversal]
      have hst1 : s1.emptyTraversal.stack = [] := by
        rw [(updateAndSortChildren_records env frameState fuel s tile s1 h2).2]; exact hst
      have := foldlM_prefix_inv
        (updateAndPushChildrenStep env frameState fuel (checkRefines s1 tile))
        (fun _ a => a.s.emptyTraversal.stack = [])
        (by
          intro pre a b b' hb hstep
          unfold updateAndPushChildrenStep at hstep
          simp only [] at hstep
          have hb1 : (pushOrLoadChild env frameState (checkRefines s1 tile) b a).s.emptyTraversal.stack
              = [] := by rw [pushOrLoadChild_emptyTraversal]; exact hb
          split at hstep
          · rw [Option.map_eq_some'] at hstep
            obtain ⟨r, hr, rfl⟩ := hstep
            unfold childRefines at hr
            split at hr
            · cases hr; exact hb1
            · split at hr
              · unfold executeEmptyTraversal at hr
                exact executeEmptyTraversalLoop_stack env frameState fuel _ _ r hr
              · cases hr; exact hb1
          · cases hstep; exact hb1)
        _ [] _ acc hst1 h4
      exact this
  · cases h
    exact ⟨⟨[], (s.tiles tile).children, rfl, by simp, List.Perm.refl _⟩, by simp, fun h => h⟩

theorem executeTraversalRefine_isSome (env : Env) (frameState : FrameState)
    (size : TileId → Nat) (fuel : Nat) (s : State) (tile : TileId) (p : Bool)
    (hS : SizeOK size s) (hst : s.emptyTraversal.stack = []) (hfuel : size tile ≤ fuel) :
    ∃ r, executeTraversalRefine env frameState fuel s tile p = some r := by
  unfold executeTraversalRefine
  split
  · obtain ⟨r, hr, _⟩ := updateAndPushChildren_isSome env frameState size fuel s tile hS hst hfuel
    exact ⟨_, by rw [hr]; rfl⟩
  · exact ⟨_, rfl⟩

/-- The end of the body of the loop of `executeTraversal`: the tile is stamped as visited,
touched, and its `_refines` is stored. -/
theorem executeTraversalVisit_eq (env : Env) (frameState : FrameState) (base : ℚ)
    (fuel : Nat) (s : State) (tile : TileId) (s' : State)
    (hskip : s.tileset._skipLevelOfDetail = false)
    (h : executeTraversalVisit env frameState base fuel s tile = some s') :
    ∃ r s3,
      executeTraversalRefine env frameState fuel
        (updateTileAncestorContentLinks s tile frameState) tile
        (parentRefines (updateTileAncestorContentLinks s tile frameState) tile) = some r
      ∧ executeTraversalSelect env frameState fuel r.1 tile
          (decide ((s.tiles tile).refine = Cesium3DTileRefine.ADD))
          (decide ((s.tiles tile).refine = Cesium3DTileRefine.REPLACE)) true
          (!r.2 && parentRefines (updateTileAncestorContentLinks s tile frameState) tile)
        = some s3
      ∧ s' = (touchTile (visitTile s3 tile frameState) tile frameState).setTile tile
          fun t => { t with _refines := r.2 } := by
  have fl := updateTileAncestorContentLinks_frame
    (M := Mask.of [._ancestorWithContent, ._ancestorWithContentAvailable]) (Mask.contains_of _)
    s tile frameState
  have hsk : (updateTileAncestorContentLinks s tile frameState).tileset._skipLevelOfDetail
      = false := by rw [fl.tilesetStatic._skipLevelOfDetail]; exact hskip
  have hrf : ((updateTileAncestorContentLinks s tile frameState).tiles tile).refine
      = (s.tiles tile).refine := (fl.tileStatic tile).refine
  unfold executeTraversalVisit at h
  simp only [inBaseTraversal_base _ _ _ hsk, Option.some_bind] at h
  rw [Option.bind_eq_some] at h
  obtain ⟨r, hr, h2⟩ := h
  rw [Option.map_eq_some'] at h2
  obtain ⟨s3, h3, rfl⟩ := h2
  rw [hrf] at h3
  exact ⟨r, s3, hr, h3, rfl⟩

theorem visitMask_contains :
    (Mask.of (.content :: visitFields)).contains visitFields :=
  (Mask.contains_of _).of_subset (by decide)

theorem parentRefines_links (s : State) (tile : TileId) (frameState : FrameState) :
    parentRefines (updateTileAncestorContentLinks s tile frameState) tile
      = parentRefines s tile := by
  have fl := updateTileAncestorContentLinks_frame
    (M := Mask.of [._ancestorWithContent, ._ancestorWithContentAvailable]) (Mask.contains_of _)
    s tile frameState
  unfold parentRefines
  rw [(fl.tileStatic tile).parent]
  split
  · rfl
  · exact fl.tile ._refines (by decide) _

/-- Summary of one visit of `executeTraversal` when mixed-LOD rendering is off. -/
theorem executeTraversalVisit_base (env : Env) (frameState : FrameState) (base : ℚ)
    (fuel : Nat) (s : State) (tile : TileId) (s' : State)
    (hskip : s.tileset._skipLevelOfDetail = false)
    (h : executeTraversalVisit env frameState base fuel s tile = some s') :
    ∃ s3 refines pushed sorted,
      s' = (touchTile (visitTile s3 tile frameState) tile frameState).setTile tile
          (fun t => { t with _refines := refines })
      ∧ Frame (Mask.of (.content :: visitFields)) s s3
      ∧ (env.ContentStable → Frame (Mask.of visitFields) s s3)
      ∧ s3.traversal.stack = pushed ++ s.traversal.stack
      ∧ pushed.reverse.Sublist sorted ∧ sorted.Perm (s.tiles tile).children
      ∧ (s.emptyTraversal.stack = [] → s3.emptyTraversal.stack = [])
      ∧ (s3.tileset._selectedTiles = s.tileset._selectedTiles
        ∨ (s3.tileset._selectedTiles = s.tileset._selectedTiles ++ [tile]
          ∧ ((s.tiles tile).refine = Cesium3DTileRefine.ADD
            ∨ (refines = false ∧ parentRefines s tile = true))))
      ∧ (env.ContentStable → (s.tiles tile).refine = Cesium3DTileRefine.ADD →
          hasEmptyContent (s.tiles tile) = false → (s.tiles tile).contentAvailable = true →
          env.contentVisibility frameState tile ≠ Intersect.OUTSIDE →
          s3.tileset._selectedTiles = s.tileset._selectedTiles ++ [tile]) := by
  obtain ⟨r, s3, hr, h3, rfl⟩ := executeTraversalVisit_eq env frameState base fuel s tile s' hskip h
  have fl := updateTileAncestorContentLinks_frame (M := Mask.all) (Mask.all_contains _) s tile
    frameState
  have fr := executeTraversalRefine_frame (M := Mask.all) (Mask.all_contains _) env
    (fun h => absurd h (by decide)) frameState fuel _ tile _ r hr
  have flr := fl.trans fr
  have hsk : r.1.tileset._skipLevelOfDetail = false := by
    rw [flr.tilesetStatic._skipLevelOfDetail]; exact hskip
  have hrf : (r.1.tiles tile).refine = (s.tiles tile).refine := (flr.tileStatic tile).refine
  have key : ∀ M : Mask, M.contains visitFields → (M .content = false → env.ContentStable) →
      Frame M s s3 := fun M hM hc =>
    ((updateTileAncestorContentLinks_frame (M := M) (hM.of_subset (by decide)) s tile
      frameState).trans
    (executeTraversalRefine_frame (hM.of_subset (by decide)) env hc frameState fuel _ tile _
      r hr)).trans
    (executeTraversalSelect_base_frame (M := M) (hM.of_subset (by decide)) env frameState
      fuel r.1 tile _ _ _ hsk s3 h3)
  obtain ⟨⟨pushed, sorted, hp1, hp2, hp3⟩, hpr, hem⟩ :=
    executeTraversalRefine_stack env frameState fuel _ tile _ r hr
  rw [← hrf] at h3
  obtain ⟨hsel1, hsel2⟩ := executeTraversalSelect_base_selected env frameState fuel r.1 tile _
    hsk s3 h3
  -- facts that need masks without the fields in question
  have flr' := (updateTileAncestorContentLinks_frame
      (M := Mask.of (.content :: pushChildrenFields
        ++ [._ancestorWithContent, ._ancestorWithContentAvailable]))
      ((Mask.contains_of _).of_subset (by decide)) s tile frameState).trans
    (executeTraversalRefine_frame (M := Mask.of (.content :: pushChildrenFields
        ++ [._ancestorWithContent, ._ancestorWithContentAvailable]))
      ((Mask.contains_of _).of_subset (by decide)) env (fun h => absurd h (by decide))
      frameState fuel _ tile _ r hr)
  have fs' := executeTraversalSelect_base_frame
    (M := Mask.of (loadTileFields ++ selectTileFields ++ [._emptyTiles]))
    (Mask.contains_of _) env frameState fuel r.1 tile _ _ _ hsk s3 h3
  have hselr : r.1.tileset._selectedTiles = s.tileset._selectedTiles :=
    flr'.global ._selectedTiles (by decide)
  have hl1 : (updateTileAncestorContentLinks s tile frameState).traversal = s.traversal :=
    (updateTileAncestorContentLinks_frame
      (M := Mask.of [._ancestorWithContent, ._ancestorWithContentAvailable])
      (Mask.contains_of _) s tile frameState).global .traversal (by decide)
  have hl2 : (updateTileAncestorContentLinks s tile frameState).emptyTraversal
      = s.emptyTraversal :=
    (updateTileAncestorContentLinks_frame
      (M := Mask.of [._ancestorWithContent, ._ancestorWithContentAvailable])
      (Mask.contains_of _) s tile frameState).global .emptyTraversal (by decide)
  refine ⟨s3, r.2, pushed, sorted, rfl,
    key _ visitMask_contains (fun h => absurd h (by decide)),
    fun hstable => key _ (Mask.contains_of _) (fun _ => hstable), ?_, hp2, ?_, ?_, ?_, ?_⟩
  · rw [fs'.global .traversal (by decide), hp1, hl1]
  · exact hp3.trans (fl.tileStatic tile).children
  · intro hst
    rw [fs'.global .emptyTraversal (by decide)]
    exact hem (by rw [hl2]; exact hst)
  · rcases hsel1 with h1 | ⟨h1, h2⟩
    · exact Or.inl (h1.trans hselr)
    · refine Or.inr ⟨by rw [h1, hselr], ?_⟩
      rcases h2 with h2 | h2
      · exact Or.inl (hrf ▸ h2)
      · right
        rw [parentRefines_links] at h2
        simp only [Bool.and_eq_true, Bool.not_eq_true'] at h2
        exact h2
  · intro hstable hadd hne hav hcv
    have hcs : (r.1.tiles tile).contentState = (s.tiles tile).contentState :=
      ((updateTileAncestorContentLinks_frame
        (M := Mask.of (pushChildrenFields
          ++ [._ancestorWithContent, ._ancestorWithContentAvailable]))
        ((Mask.contains_of _).of_subset (by decide)) s tile frameState).trans
      (executeTraversalRefine_frame (M := Mask.of (pushChildrenFields
          ++ [._ancestorWithContent, ._ancestorWithContentAvailable]))
        ((Mask.contains_of _).of_subset (by decide)) env (fun _ => hstable)
        frameState fuel _ tile _ r hr)).tile .content (by decide) tile
    have hne' : hasEmptyContent (r.1.tiles tile) = false := by
      have e1 := congrArg ContentState.hasEmptyContent hcs
      have e2 := congrArg ContentState.hasTilesetContent hcs
      simp only [Tile.contentState] at e1 e2
      unfold hasEmptyContent at hne ⊢
      rw [e1, e2]; exact hne
    have hav' : (r.1.tiles tile).contentAvailable = true := by
      have e1 := congrArg ContentState.contentAvailable hcs
      simp only [Tile.contentState] at e1
      rw [e1]; exact hav
    rw [hsel2 (hrf.trans hadd) hne' hav' hcv, hselr]

/-- The function `selectTiles` with its writes to the output arrays gathered. -/
theorem selectTiles_eq (env : Env) (frameState : FrameState) (fuel : Nat) (s : State) :
    selectTiles env frameState fuel s
      = if s.tileset.debugFreezeFrame = true then
          some { s with tileset := { s.tileset with _requestedTiles := [] } }
        else
          match updateTile env frameState fuel
            { s with tileset := { s.tileset with
                _requestedTiles := [], _selectedTiles := [], _selectedTilesToStyle := [],
                _emptyTiles := [], _hasMixedContent := false } } s.tileset.root with
          | none => none
          | some s1 =>
            if (!isVisible (s1.tiles s.tileset.root)) = true then some s1
            else if env.getScreenSpaceError frameState s.tileset.root
                ≤ s1.tileset._maximumScreenSpaceError then some s1
            else if (!skipLevelOfDetail s1.tileset) = true then
              executeBaseTraversal env frameState fuel s1 s.tileset.root
            else if s1.tileset.immediatelyLoadDesiredLevelOfDetail = true then
              executeSkipTraversal env frameState fuel s1 s.tileset.root
            else executeBaseAndSkipTraversal env frameState fuel s1 s.tileset.root := by
  unfold selectTiles
  by_cases h : s.tileset.debugFreezeFrame = true
  · rw [if_pos h]
    dsimp only [State.setTileset]
    rw [if_pos h]
  · rw [if_neg h]
    dsimp only [State.setTileset]
    rw [if_neg h]
    first | done | rfl
theorem visitFinish_frame {M : Mask}
    (hM : M.contains [._visitedFrame, ._statistics, ._touchedFrame, ._cache, ._refines])
    (s : State) (tile : TileId) (frameState : FrameState) (refines : Bool) :
    Frame M s ((touchTile (visitTile s tile frameState) tile frameState).setTile tile
      (fun t => { t with _refines := refines })) := by
  have hr : M ._refines = true := hM _ (by decide)
  refine ((visitTile_frame (hM.of_subset (by decide)) s tile frameState).trans
    (touchTile_frame (hM.of_subset (by decide)) _ tile frameState)).trans
    (Frame.setTile _ _ _ ⟨List.Perm.refl _, rfl, rfl, rfl, rfl, rfl⟩ ?_)
  intro fld hf; cases fld <;> first | rfl | trivial | exact absurd hf (by simp [hr])

theorem visitTouch_frame {M : Mask}
    (hM : M.contains [._visitedFrame, ._statistics, ._touchedFrame, ._cache])
    (s : State) (tile : TileId) (frameState : FrameState) :
    Frame M s (touchTile (visitTile s tile frameState) tile frameState) :=
  (visitTile_frame (hM.of_subset (by decide)) s tile frameState).trans
    (touchTile_frame (hM.of_subset (by decide)) _ tile frameState)

theorem visitFinish_refines (s : State) (tile : TileId) (frameState : FrameState)
    (refines : Bool) (t : TileId) :
    (((touchTile (visitTile s tile frameState) tile frameState).setTile tile
      (fun t => { t with _refines := refines })).tiles t)._refines
      = if t = tile then refines else (s.tiles t)._refines := by
  rw [State.setTile_tiles]
  split
  · rfl
  · exact (visitTouch_frame (M := Mask.of [._visitedFrame, ._statistics, ._touchedFrame, ._cache])
      (Mask.contains_of _) s tile frameState).tile ._refines (by decide) t

theorem visitFinish_visitedFrame (s : State) (tile : TileId) (frameState : FrameState)
    (refines : Bool) (t : TileId) :
    (((touchTile (visitTile s tile frameState) tile frameState).setTile tile
      (fun t => { t with _refines := refines })).tiles t)._visitedFrame
      = if t = tile then frameState.frameNumber else (s.tiles t)._visitedFrame := by
  have ht := touchTile_frame (M := Mask.of [._touchedFrame, ._cache]) (Mask.contains_of _)
    (visitTile s tile frameState) tile frameState
  have e : ((touchTile (visitTile s tile frameState) tile frameState).tiles t)._visitedFrame
      = ((visitTile s tile frameState).tiles t)._visitedFrame :=
    ht.tile ._visitedFrame (by decide) t
  rw [State.setTile_tiles]
  split
  · rename_i h
    subst h
    show ((touchTile (visitTile s t frameState) t frameState).tiles t)._visitedFrame = _
    rw [e]
    simp [visitTile]
  · rename_i h
    rw [e]
    simp [visitTile, h]

theorem parentRefines_congr (s s' : State) (x : TileId)
    (hp : (s'.tiles x).parent = (s.tiles x).parent)
    (hr : ∀ p, (s.tiles x).parent = some p → (s'.tiles p)._refines = (s.tiles p)._refines) :
    parentRefines s' x = parentRefines s x := by
  unfold parentRefines
  rw [hp]
  cases h : (s.tiles x).parent with
  | none => rfl
  | some p => exact hr p h

theorem hasEmptyContent_congr {t t' : Tile} (h : t'.contentState = t.contentState) :
    hasEmptyContent t' = hasEmptyContent t := by
  have e1 := congrArg ContentState.hasEmptyContent h
  have e2 := congrArg ContentState.hasTilesetContent h
  simp only [Tile.contentState] at e1 e2
  unfold hasEmptyContent
  rw [e1, e2]

theorem contentAvailable_congr {t t' : Tile} (h : t'.contentState = t.contentState) :
    t'.contentAvailable = t.contentAvailable := by
  have e1 := congrArg ContentState.contentAvailable h
  simpa only [Tile.contentState] using e1

/-- One iteration of the loop of `executeTraversal` keeps the invariant, with the popped tile
added to the visited tiles. -/
theorem BaseInv.step (env : Env) (frameState : FrameState) (base : ℚ) (fuel : Nat)
    (s0 s s1 : State) (V : List TileId) (tile : TileId) (rest : List TileId)
    (hskip : s0.tileset._skipLevelOfDetail = false)
    (hpc : ∀ p c, c ∈ (s0.tiles p).children → (s0.tiles c).parent = some p)
    (hroot : (s0.tiles s0.tileset.root).parent = none)
    (hnd : ∀ p, (s0.tiles p).children.Nodup)
    (inv : BaseInv env frameState s0 s V) (hst : s.traversal.stack = tile :: rest)
    (hv : executeTraversalVisit env frameState base fuel
      { s with traversal :=
        { stack := rest
          stackMaximumLength := max s.traversal.stackMaximumLength (tile :: rest).length } }
      tile = some s1) :
    BaseInv env frameState s0 s1 (tile :: V) := by
  have hsk : s.tileset._skipLevelOfDetail = false := by
    rw [inv.frame.tilesetStatic._skipLevelOfDetail]; exact hskip
  obtain ⟨s3, refines, pushed, sorted, rfl, F1, F2, hstk, hsub, hperm, hem, hsel, hadd⟩ :=
    executeTraversalVisit_base env frameState base fuel
      { s with traversal :=
        { stack := rest
          stackMaximumLength := max s.traversal.stackMaximumLength (tile :: rest).length } }
      tile s1 hsk hv
  have hem3 := hem inv.emptyStack
  -- the popped tile
  have htile_stack : tile ∈ s.traversal.stack := by rw [hst]; exact List.mem_cons_self _ _
  have htV : tile ∉ V := inv.fresh tile htile_stack
  have hnd' := inv.nodup
  rw [hst] at hnd'
  have htrest : tile ∉ rest := (List.nodup_cons.mp hnd').1
  have hrestnd : rest.Nodup := (List.nodup_cons.mp hnd').2
  -- the pushed children
  have hchild : ∀ c ∈ pushed, (s0.tiles c).parent = some tile := fun c hc => by
    have h1 : c ∈ sorted := hsub.subset (List.mem_reverse.mpr hc)
    have h2 : c ∈ (s.tiles tile).children := hperm.subset h1
    exact hpc tile c ((inv.frame.tileStatic tile).children.subset h2)
  have hpnd : pushed.Nodup := by
    have h1 : sorted.Nodup :=
      (hperm.trans (inv.frame.tileStatic tile).children).nodup_iff.mpr (hnd tile)
    exact List.nodup_reverse.mp (hsub.nodup h1)
  have hparent_ne : ∀ x p, (x ∈ s.traversal.stack ∨ x ∈ V) → (s0.tiles x).parent = some p →
      p ∈ V := fun x p hx hp => by
    rcases inv.parent x hx with h | ⟨q, hq, hqV⟩
    · rw [h, hroot] at hp; cases hp
    · rw [hq] at hp; cases hp; exact hqV
  have hpushed_fresh : ∀ c ∈ pushed, c ∉ s.traversal.stack ∧ c ∉ V := fun c hc =>
    ⟨fun h => htV (hparent_ne c tile (Or.inl h) (hchild c hc)),
      fun h => htV (hparent_ne c tile (Or.inr h) (hchild c hc))⟩
  -- the finish
  have Ff := visitFinish_frame
    (M := Mask.of [._visitedFrame, ._statistics, ._touchedFrame, ._cache, ._refines])
    (Mask.contains_of _) s3 tile frameState refines
  have hstack1 : ((touchTile (visitTile s3 tile frameState) tile frameState).setTile tile
      (fun t => { t with _refines := refines })).traversal.stack = pushed ++ rest := by
    rw [Ff.global .traversal (by decide)]; exact hstk
  have hsel1 : ((touchTile (visitTile s3 tile frameState) tile frameState).setTile tile
      (fun t => { t with _refines := refines })).tileset._selectedTiles
      = s3.tileset._selectedTiles := Ff.global ._selectedTiles (by decide)
  have href : ∀ t, t ≠ tile →
      (((touchTile (visitTile s3 tile frameState) tile frameState).setTile tile
      (fun t => { t with _refines := refines })).tiles t)._refines = (s.tiles t)._refines := by
    intro t ht
    rw [visitFinish_refines, if_neg ht]
    exact F1.tile ._refines (by decide) t
  have hpar : ∀ t, (((touchTile (visitTile s3 tile frameState) tile frameState).setTile tile
      (fun t => { t with _refines := refines })).tiles t).parent = (s.tiles t).parent :=
    fun t => ((Ff.tileStatic t).parent).trans (F1.tileStatic t).parent
  have hpar0 : ∀ t, (s.tiles t).parent = (s0.tiles t).parent :=
    fun t => (inv.frame.tileStatic t).parent
  have hpr : ∀ x, (x ∈ s.traversal.stack ∨ x ∈ V) →
      parentRefines ((touchTile (visitTile s3 tile frameState) tile frameState).setTile tile
        (fun t => { t with _refines := refines })) x = parentRefines s x := by
    intro x hx
    refine parentRefines_congr _ _ x (hpar x) (fun p hp => href p ?_)
    rw [hpar0] at hp
    intro h
    exact htV (h ▸ hparent_ne x p hx hp)
  refine ⟨?_, ?_, ?_, ?_, ?_, ?_, ?_, ?_, ?_, ?_⟩
  · exact ((inv.frame.trans (Frame.setTraversal rfl s _)).trans
      (F1.mono (fun _ _ => rfl))).trans (Ff.mono (fun _ _ => rfl))
  · rw [Ff.global .emptyTraversal (by decide)]; exact hem3
  · rw [hstack1]
    refine List.Nodup.append hpnd hrestnd ?_
    intro c hc1 hc2
    exact (hpushed_fresh c hc1).1 (by rw [hst]; exact List.mem_cons_of_mem _ hc2)
  · intro x hx
    rw [hstack1] at hx
    rcases List.mem_append.mp hx with h | h
    · intro h2
      rcases List.mem_cons.mp h2 with h3 | h3
      · subst h3
        exact (hpushed_fresh x h).1 htile_stack
      · exact (hpushed_fresh x h).2 h3
    · intro h2
      rcases List.mem_cons.mp h2 with h3 | h3
      · subst h3; exact htrest h
      · exact inv.fresh x (by rw [hst]; exact List.mem_cons_of_mem _ h) h3
  · intro x hx
    have key : x ∈ pushed ∨ (x ∈ s.traversal.stack ∨ x ∈ V) := by
      rcases hx with h | h
      · rw [hstack1] at h
        rcases List.mem_append.mp h with h | h
        · exact Or.inl h
        · exact Or.inr (Or.inl (by rw [hst]; exact List.mem_cons_of_mem _ h))
      · rcases List.mem_cons.mp h with h | h
        · exact Or.inr (Or.inl (h ▸ htile_stack))
        · exact Or.inr (Or.inr h)
    rcases key with h | h
    · exact Or.inr ⟨tile, hchild x h, List.mem_cons_self _ _⟩
    · rcases inv.parent x h with h1 | ⟨p, hp, hpV⟩
      · exact Or.inl h1
      · exact Or.inr ⟨p, hp, List.mem_cons_of_mem _ hpV⟩
  · intro x hx
    rw [hsel1] at hx
    have old : x ∈ s.tileset._selectedTiles → x ∈ tile :: V
        ∧ ((s0.tiles x).refine ≠ Cesium3DTileRefine.ADD →
          (((touchTile (visitTile s3 tile frameState) tile frameState).setTile tile
            (fun t => { t with _refines := refines })).tiles x)._refines = false
          ∧ parentRefines ((touchTile (visitTile s3 tile frameState) tile frameState).setTile
            tile (fun t => { t with _refines := refines })) x = true) := by
      intro hxs
      obtain ⟨hxV, hxr⟩ := inv.selected x hxs
      refine ⟨List.mem_cons_of_mem _ hxV, fun hna => ?_⟩
      have hne : x ≠ tile := fun h => htV (h ▸ hxV)
      rw [href x hne, hpr x (Or.inr hxV)]
      exact hxr hna
    rcases hsel with h | ⟨h, h2⟩
    · rw [h] at hx; exact old hx
    · rw [h] at hx
      rcases List.mem_append.mp hx with h3 | h3
      · exact old h3
      · have hxt : x = tile := by simpa using h3
        subst hxt
        refine ⟨List.mem_cons_self _ _, fun hna => ?_⟩
        have hrf : (s.tiles x).refine = (s0.tiles x).refine := (inv.frame.tileStatic x).refine
        rcases h2 with h2 | ⟨h2, h4⟩
        · exact absurd (hrf ▸ h2) hna
        · refine ⟨by rw [visitFinish_refines, if_pos rfl]; exact h2, ?_⟩
          rw [hpr x (Or.inl htile_stack)]
          exact h4
  · intro hfresh x hx
    rw [visitFinish_visitedFrame] at hx
    split at hx
    · rename_i h; subst h; exact List.mem_cons_self _ _
    · rw [F1.tile ._visitedFrame (by decide) x] at hx
      exact List.mem_cons_of_mem _ (inv.stamped hfresh x hx)
  · intro hstable x hx hadd' hne hav hcv
    rw [hsel1]
    have mono : ∀ y ∈ s.tileset._selectedTiles, y ∈ s3.tileset._selectedTiles := by
      intro y hy
      rcases hsel with h | ⟨h, _⟩
      · rw [h]; exact hy
      · rw [h]; exact List.mem_append_left _ hy
    rcases List.mem_cons.mp hx with h | h
    · subst h
      have hcs := inv.content hstable x
      have hrf : (s.tiles x).refine = (s0.tiles x).refine := (inv.frame.tileStatic x).refine
      rw [hadd hstable (hrf.trans hadd') ((hasEmptyContent_congr hcs).trans hne)
        ((contentAvailable_congr hcs).trans hav) hcv]
      exact List.mem_append_right _ (List.mem_singleton_self _)
    · exact mono x (inv.additive hstable x h hadd' hne hav hcv)
  · intro hstable x
    rw [Ff.tile .content (by decide) x, (F2 hstable).tile .content (by decide) x]
    exact inv.content hstable x
  · rw [hsel1]
    rcases hsel with h | ⟨h, _⟩
    · rw [h]; exact inv.selectedNodup
    · rw [h]
      refine List.Nodup.append inv.selectedNodup (List.nodup_singleton _) ?_
      intro x hx1 hx2
      rw [List.mem_singleton] at hx2
      subst hx2
      exact htV (inv.selected x hx1).1

theorem executeTraversalVisit_base_isSome (env : Env) (frameState : FrameState) (base : ℚ)
    (size : TileId → Nat) (fuel : Nat) (s : State) (tile : TileId)
    (hS : SizeOK size s) (hst : s.emptyTraversal.stack = [])
    (hskip : s.tileset._skipLevelOfDetail = false) (hfuel : size tile ≤ fuel) :
    ∃ s', executeTraversalVisit env frameState base fuel s tile = some s' := by
  have fl := updateTileAncestorContentLinks_frame
    (M := Mask.of [._ancestorWithContent, ._ancestorWithContentAvailable]) (Mask.contains_of _)
    s tile frameState
  have hsk : (updateTileAncestorContentLinks s tile frameState).tileset._skipLevelOfDetail
      = false := by rw [fl.tilesetStatic._skipLevelOfDetail]; exact hskip
  obtain ⟨r, hr⟩ := executeTraversalRefine_isSome env frameState size fuel
    (updateTileAncestorContentLinks s tile frameState) tile
    (parentRefines (updateTileAncestorContentLinks s tile frameState) tile)
    (hS.of_frame fl) (by rw [fl.global .emptyTraversal (by decide)]; exact hst) hfuel
  have fr := executeTraversalRefine_frame (M := Mask.all) (Mask.all_contains _) env
    (fun h => absurd h (by decide)) frameState fuel _ tile _ r hr
  have hsk2 : r.1.tileset._skipLevelOfDetail = false := by
    rw [fr.tilesetStatic._skipLevelOfDetail]; exact hsk
  obtain ⟨s3, h3⟩ := executeTraversalSelect_base_isSome env frameState fuel r.1 tile
    (decide (((updateTileAncestorContentLinks s tile frameState).tiles tile).refine
      = Cesium3DTileRefine.ADD))
    (decide (((updateTileAncestorContentLinks s tile frameState).tiles tile).refine
      = Cesium3DTileRefine.REPLACE))
    (!r.2 && parentRefines (updateTileAncestorContentLinks s tile frameState) tile) hsk2
  have : executeTraversalVisit env frameState base fuel s tile
      = some ((touchTile (visitTile s3 tile frameState) tile frameState).setTile tile
          fun t => { t with _refines := r.2 }) := by
    unfold executeTraversalVisit
    simp only [inBaseTraversal_base _ _ _ hsk, Option.some_bind, hr, h3, Option.map_some']
  exact ⟨_, this⟩

/-- With enough fuel the loop of `executeTraversal` returns when mixed-LOD rendering is off, and
its invariant holds at the end, with an empty stack. -/
theorem executeTraversalLoop_base (env : Env) (frameState : FrameState) (base : ℚ)
    (size : TileId → Nat) (s0 : State)
    (hskip : s0.tileset._skipLevelOfDetail = false)
    (hS0 : SizeOK size s0)
    (hpc : ∀ p c, c ∈ (s0.tiles p).children → (s0.tiles c).parent = some p)
    (hroot : (s0.tiles s0.tileset.root).parent = none)
    (hnd : ∀ p, (s0.tiles p).children.Nodup)
    (fuel : Nat) (s : State) (V : List TileId) (inv : BaseInv env frameState s0 s V)
    (hfuel : stackSize size s.traversal.stack + 1 ≤ fuel) :
    ∃ s' V', executeTraversalLoop env frameState base fuel s = some s'
      ∧ BaseInv env frameState s0 s' V' ∧ s'.traversal.stack = [] := by
  induction fuel generalizing s V with
  | zero => omega
  | succ n ih =>
    unfold executeTraversalLoop
    split
    · rename_i hst
      exact ⟨s, V, rfl, inv, hst⟩
    · rename_i tile rest hst
      simp only []
      rw [hst, stackSize_cons] at hfuel
      have hsk : s.tileset._skipLevelOfDetail = false := by
        rw [inv.frame.tilesetStatic._skipLevelOfDetail]; exact hskip
      have hS : SizeOK size s := hS0.of_frame inv.frame
      obtain ⟨s1, h1⟩ := executeTraversalVisit_base_isSome env frameState base size n
        { s with traversal :=
          { stack := rest
            stackMaximumLength := max s.traversal.stackMaximumLength (tile :: rest).length } }
        tile (fun p => hS p) inv.emptyStack hsk (by omega)
      have inv1 := BaseInv.step env frameState base n s0 s s1 V tile rest hskip hpc hroot hnd
        inv hst h1
      obtain ⟨s3, refines, pushed, sorted, rfl, F1, F2, hstk, hsub, hperm, hem, hsel, hadd⟩ :=
        executeTraversalVisit_base env frameState base n
          { s with traversal :=
            { stack := rest
              stackMaximumLength := max s.traversal.stackMaximumLength (tile :: rest).length } }
          tile s1 hsk h1
      have Ff := visitFinish_frame
        (M := Mask.of [._visitedFrame, ._statistics, ._touchedFrame, ._cache, ._refines])
        (Mask.contains_of _) s3 tile frameState refines
      rw [h1]
      simp only []
      refine ih _ (tile :: V) inv1 ?_
      rw [Ff.global .traversal (by decide), hstk]
      show stackSize size (pushed ++ rest) + 1 ≤ n
      rw [stackSize_append]
      have h2 : stackSize size pushed ≤ stackSize size (s.tiles tile).children := by
        rw [← stackSize_perm size (List.reverse_perm pushed), ← stackSize_perm size hperm]
        exact List.Sublist.sum_le_sum (hsub.map size) (fun _ _ => Nat.zero_le _)
      have h3 := hS tile
      omega

theorem Frame.all_of_static (s s' : State) (h1 : ∀ t, Tile.Static (s.tiles t) (s'.tiles t))
    (h2 : Tileset.Static s.tileset s'.tileset) : Frame Mask.all s s' :=
  ⟨h1, h2, fun f hf => absurd hf (by simp [Mask.all]),
    fun f hf => absurd hf (by simp [Mask.all])⟩

/-- When mixed-LOD rendering is off and the traversal is not frozen, `selectTiles` returns once
the fuel exceeds the size of the tree, in a state that satisfies the invariant of the base
traversal. -/
theorem selectTiles_base (env : Env) (frameState : FrameState) (size : TileId → Nat)
    (fuel : Nat) (s : State) (hwf : WellFormed size s)
    (hskip : s.tileset._skipLevelOfDetail = false)
    (hfreeze : s.tileset.debugFreezeFrame = false)
    (hfuel : size s.tileset.root + 1 ≤ fuel) :
    ∃ s' V, selectTiles env frameState fuel s = some s' ∧ BaseInv env frameState s s' V := by
  obtain ⟨s1, h1⟩ := updateTile_isSome env frameState size fuel
    { s with tileset := { s.tileset with
        _requestedTiles := [], _selectedTiles := [], _selectedTilesToStyle := [],
        _emptyTiles := [], _hasMixedContent := false } } s.tileset.root
    (fun p => hwf.sizeOK p) (by omega)
  have fc : Frame Mask.all s
      { s with tileset := { s.tileset with
        _requestedTiles := [], _selectedTiles := [], _selectedTilesToStyle := [],
        _emptyTiles := [], _hasMixedContent := false } } :=
    Frame.all_of_static _ _ (fun _ => Tile.Static.tile_refl _) (by constructor <;> rfl)
  have key : ∀ M : Mask, M.contains updateTileFields → (M .content = false → env.ContentStable) →
      Frame M { s with tileset := { s.tileset with
        _requestedTiles := [], _selectedTiles := [], _selectedTilesToStyle := [],
        _emptyTiles := [], _hasMixedContent := false } } s1 := fun M hM hc =>
    updateTile_frame hM env hc frameState fuel _ _ s1 h1
  have fu := key (Mask.of (.content :: updateTileFields)) ((Mask.contains_of _).of_subset (by decide))
    (fun h => absurd h (by decide))
  have hsel1 : s1.tileset._selectedTiles = [] := fu.global ._selectedTiles (by decide)
  -- the invariant after the update of the root, with the given stack
  have inv0 : ∀ stack : List TileId, stack.Nodup → (∀ x ∈ stack, x = s.tileset.root) →
      BaseInv env frameState s
        { s1 with traversal := { s1.traversal with stack := stack } } [] := by
    intro stack hnd hst
    refine ⟨?_, ?_, hnd, fun _ _ h => (by cases h), ?_, ?_, ?_, fun _ _ h => (by cases h), ?_,
      ?_⟩
    · exact (fc.trans (fu.mono (fun _ _ => rfl))).trans (Frame.setTraversal rfl _ _)
    · show s1.emptyTraversal.stack = []
      rw [fu.global .emptyTraversal (by decide)]; exact hwf.emptyTraversal_stack
    · intro x hx
      rcases hx with h | h
      · exact Or.inl (hst x h)
      · cases h
    · intro x hx
      have : x ∈ s1.tileset._selectedTiles := hx
      rw [hsel1] at this; cases this
    · intro hfresh x hx
      have : (s1.tiles x)._visitedFrame = frameState.frameNumber := hx
      rw [fu.tile ._visitedFrame (by decide) x] at this
      exact absurd this (hfresh x)
    · intro hstable x
      exact (key (Mask.of updateTileFields) (Mask.contains_of _) (fun _ => hstable)).tile
        .content (by decide) x
    · show s1.tileset._selectedTiles.Nodup
      rw [hsel1]; exact List.nodup_nil
  have hS1 : SizeOK size s1 := hwf.sizeOK.of_frame (fc.trans (fu.mono (fun _ _ => rfl)))
  have hskip1 : s1.tileset._skipLevelOfDetail = false := by
    rw [fu.tilesetStatic._skipLevelOfDetail]; exact hskip
  have hstack1 : s1.traversal.stack = [] := by
    rw [fu.global .traversal (by decide)]; exact hwf.traversal_stack
  have hearly : BaseInv env frameState s s1 [] := by
    have := inv0 [] List.nodup_nil (fun _ h => by cases h)
    have e : ({ s1 with traversal := { s1.traversal with stack := [] } } : State) = s1 := by
      cases s1 with
      | mk tiles tileset traversal e d sel =>
        cases traversal with
        | mk stack m =>
          simp only at hstack1
          subst hstack1
          rfl
    rw [e] at this
    exact this
  rw [selectTiles_eq, if_neg (by simp [hfreeze]), h1]
  simp only []
  split
  · exact ⟨s1, [], rfl, hearly⟩
  · split
    · exact ⟨s1, [], rfl, hearly⟩
    · rw [if_pos (by simp [skipLevelOfDetail, hskip1])]
      unfold executeBaseTraversal executeTraversal
      simp only [hstack1]
      obtain ⟨s', V', h2, inv2, _⟩ := executeTraversalLoop_base env frameState
        s1.tileset._maximumScreenSpaceError size s hskip hwf.sizeOK hwf.parent_of_child
        hwf.root_parent hwf.children_nodup fuel
        { s1 with traversal := { s1.traversal with stack := [s.tileset.root] } } []
        (inv0 [s.tileset.root] (List.nodup_singleton _) (fun x hx => by simpa using hx))
        (by simp [stackSize]; omega)
      exact ⟨s', V', h2, inv2⟩

/-- The three-tile sample tree is well formed. -/
theorem mixedRefineState_wellFormed : WellFormed mixedRefineSize mixedRefineState := by
  refine ⟨?_, ?_, rfl, ?_, rfl, rfl, rfl, rfl, rfl⟩
  · intro p
    rcases p with _ | _ | _ | p <;>
      simp [mixedRefineState, sampleState, mixedRefineTiles, mixedRefineSize, stackSize,
        sampleTile]
  · intro p c hc
    rcases p with _ | _ | _ | p <;>
      simp [mixedRefineState, sampleState, mixedRefineTiles, sampleTile] at hc
    rcases hc with rfl | rfl <;> rfl
  · intro p
    rcases p with _ | _ | _ | p <;>
      simp [mixedRefineState, sampleState, mixedRefineTiles, sampleTile]

theorem updateAndPushChildrenFinish_refines (tile : TileId) (children : List TileId)
    (acc : PushChildren) :
    (updateAndPushChildrenFinish tile children acc).2
      = (if !acc.anyChildrenVisible then false else acc.refines) := by
  unfold updateAndPushChildrenFinish
  simp only []
  split <;> rfl

/-- The locals `refines` and `anyChildrenVisible` of the second loop of `updateAndPushChildren`
(with `checkRefines` set) after the first `n` children, in terms of what each iteration found. -/
theorem pushLoop_refines (env : Env) (frameState : FrameState) (fuel : Nat)
    (l : List (Nat × TileId)) (init : PushChildren) (hr : init.refines = true)
    (hv : init.anyChildrenVisible = false) (n : Nat) (acc : PushChildren)
    (h : (l.take n).foldlM (updateAndPushChildrenStep env frameState fuel true) init = some acc) :
    (acc.refines = true ↔ ∀ k ic, k < n → l[k]? = some ic →
        ∃ a r, (l.take k).foldlM (updateAndPushChildrenStep env frameState fuel true) init = some a
          ∧ childRefines env frameState fuel (pushOrLoadChild env frameState true a ic).s ic.2
              = some r ∧ r.2 = true)
    ∧ (acc.anyChildrenVisible = true ↔ ∃ k ic a, k < n ∧ l[k]? = some ic
          ∧ (l.take k).foldlM (updateAndPushChildrenStep env frameState fuel true) init = some a
          ∧ isVisible (a.s.tiles ic.2) = true) := by
  induction n generalizing acc with
  | zero =>
    simp only [List.take_zero, List.foldlM_nil] at h
    cases h
    constructor
    · simp [hr]
    · simp [hv]
  | succ n ih =>
    rw [List.take_succ, List.foldlM_append] at h
    cases h1 : (l.take n).foldlM (updateAndPushChildrenStep env frameState fuel true) init with
    | none => rw [h1] at h; cases h
    | some a =>
      rw [h1] at h
      obtain ⟨ihr, ihv⟩ := ih a h1
      cases hk : l[n]? with
      | none =>
        rw [hk] at h
        simp only [Option.toList, List.foldlM_nil, Option.bind_eq_bind, Option.some_bind,
          Option.pure_def, Option.some.injEq] at h
        subst h
        constructor
        · rw [ihr]
          constructor
          · intro H k ic hlt hic
            have : k ≠ n := by rintro rfl; rw [hk] at hic; cases hic
            exact H k ic (by omega) hic
          · intro H k ic hlt hic
            exact H k ic (by omega) hic
        · rw [ihv]
          constructor
          · rintro ⟨k, ic, a', hlt, hic, ha⟩
            exact ⟨k, ic, a', by omega, hic, ha⟩
          · rintro ⟨k, ic, a', hlt, hic, ha⟩
            have : k ≠ n := by rintro rfl; rw [hk] at hic; cases hic
            exact ⟨k, ic, a', by omega, hic, ha⟩
      | some ic =>
        rw [hk] at h
        simp only [Option.toList, List.foldlM_cons, List.foldlM_nil, bind_pure,
          Option.bind_eq_bind, Option.some_bind] at h
        unfold updateAndPushChildrenStep at h
        simp only [if_true] at h
        cases hc : childRefines env frameState fuel
            (pushOrLoadChild env frameState true a ic).s ic.2 with
        | none => rw [hc] at h; simp at h
        | some r =>
          rw [hc] at h
          simp only [Option.map_some', Option.bind_eq_bind, Option.some_bind, Option.bind_some,
            Option.pure_def, Option.some.injEq] at h
          subst h
          constructor
          · simp only [Bool.and_eq_true, pushOrLoadChild_refines]
            rw [ihr]
            constructor
            · rintro ⟨H, hr2⟩ k ic' hlt hic
              by_cases hkn : k = n
              · subst hkn
                rw [hk] at hic
                cases hic
                exact ⟨a, r, h1, hc, hr2⟩
              · exact H k ic' (by omega) hic
            · intro H
              refine ⟨fun k ic' hlt hic => H k ic' (by omega) hic, ?_⟩
              obtain ⟨a', r', ha', hc', hr'⟩ := H n ic (by omega) hk
              rw [h1] at ha'
              cases ha'
              rw [hc] at hc'
              cases hc'
              exact hr'
          · simp only [pushOrLoadChild_anyChildrenVisible, Bool.or_eq_true]
            rw [ihv]
            constructor
            · rintro (⟨k, ic', a', hlt, hic, ha⟩ | hvis)
              · exact ⟨k, ic', a', by omega, hic, ha⟩
              · exact ⟨n, ic, a, by omega, hk, h1, hvis⟩
            · rintro ⟨k, ic', a', hlt, hic, ha, hvis⟩
              by_cases hkn : k = n
              · subst hkn
                rw [hk] at hic
                cases hic
                rw [h1] at ha
                cases ha
                exact Or.inr hvis
              · exact Or.inl ⟨k, ic', a', by omega, hic, ha, hvis⟩

theorem childRefines_true_iff (env : Env) (frameState : FrameState) (fuel : Nat) (s : State)
    (child : TileId) :
    (∃ r, childRefines env frameState fuel s child = some r ∧ r.2 = true)
      ↔ (s.tiles child)._inRequestVolume = true
        ∧ (if hasEmptyContent (s.tiles child) then
            ∃ r, executeEmptyTraversal env frameState fuel s child = some r ∧ r.2 = true
          else (s.tiles child).contentAvailable = true) := by
  unfold childRefines
  cases hv : (s.tiles child)._inRequestVolume <;> cases he : hasEmptyContent (s.tiles child) <;>
    simp

theorem Option.isSome_getD_eq {α : Type} (o : Option α) (d : α) (h : o.isSome = true) :
    o = some (o.getD d) := by
  cases o with
  | none => cases h
  | some a => rfl

/-- The loop of `updateAndPushChildren` reads `_inRequestVolume` and the content state of a
child as they were before `pushOrLoadChild` ran on it. -/
theorem pushOrLoadChild_child (env : Env) (frameState : FrameState) (checkRefines : Bool)
    (acc : PushChildren) (ic : Nat × TileId) (c : TileId) :
    ((pushOrLoadChild env frameState checkRefines acc ic).s.tiles c)._inRequestVolume
        = (acc.s.tiles c)._inRequestVolume
      ∧ hasEmptyContent ((pushOrLoadChild env frameState checkRefines acc ic).s.tiles c)
        = hasEmptyContent (acc.s.tiles c)
      ∧ ((pushOrLoadChild env frameState checkRefines acc ic).s.tiles c).contentAvailable
        = (acc.s.tiles c).contentAvailable := by
  have f := pushOrLoadChild_frame
    (M := Mask.of (loadTileFields ++ touchTileFields ++ [.traversal])) (Mask.contains_of _)
    env frameState checkRefines acc ic
  exact ⟨f.tile ._inRequestVolume (by decide) c,
    hasEmptyContent_congr (f.tile .content (by decide) c),
    contentAvailable_congr (f.tile .content (by decide) c)⟩

/-- The result of the loop body of `executeEmptyTraversal`: the state does not depend on the
local `allDescendantsLoaded`, which is cleared exactly when the traversal stops at a tile whose
content is not available; the children of a traversed tile are pushed. -/
theorem executeEmptyTraversalVisit_eq (env : Env) (frameState : FrameState) (fuel : Nat)
    (s : State) (tile : TileId) (b : Bool) (r : State × Bool)
    (h : executeEmptyTraversalVisit env frameState fuel s tile b = some r) :
    executeEmptyTraversalVisit env frameState fuel s tile true
        = some (r.1, !(!emptyTraverse s tile && !(s.tiles tile).contentAvailable))
      ∧ r.2 = (!(!emptyTraverse s tile && !(s.tiles tile).contentAvailable) && b)
      ∧ r.1.emptyTraversal.stack
          = (if emptyTraverse s tile then (s.tiles tile).children.reverse else [])
              ++ s.emptyTraversal.stack := by
  unfold executeEmptyTraversalVisit at h ⊢
  simp only [] at h ⊢
  rw [Option.map_eq_some'] at h
  obtain ⟨s1, h1, rfl⟩ := h
  rw [h1]
  have hu := updateTile_frame (M := Mask.of (.content :: updateTileFields))
    ((Mask.contains_of _).of_subset (by decide)) env (fun h => absurd h (by decide))
    frameState fuel s tile s1 h1
  have e1 : s1.emptyTraversal = s.emptyTraversal := hu.global .emptyTraversal (by decide)
  have hl := fun s t => loadTile_frame (M := Mask.of loadTileFields) (Mask.contains_of _)
    env s t frameState
  have ht := fun s t => touchTile_frame (M := Mask.of touchTileFields) (Mask.contains_of _)
    s t frameState
  have e2 : (if (!isVisible (s1.tiles tile)) = true then
      touchTile (loadTile env s1 tile frameState) tile frameState else s1).emptyTraversal
      = s.emptyTraversal := by
    split
    · rw [← e1]
      exact ((ht _ _).global .emptyTraversal (by decide)).trans
        ((hl _ _).global .emptyTraversal (by decide))
    · exact e1
  have e3 : emptyTraverse s tile
      = (hasEmptyContent (s.tiles tile) && canTraverse s.tileset (s.tiles tile)) := rfl
  rw [e3]
  refine ⟨?_, ?_, ?_⟩
  · simp only [Option.map_some']
    congr 2
    cases (hasEmptyContent (s.tiles tile) && canTraverse s.tileset (s.tiles tile)) <;>
      cases (s.tiles tile).contentAvailable <;> rfl
  · simp only []
    cases (hasEmptyContent (s.tiles tile) && canTraverse s.tileset (s.tiles tile)) <;>
      cases (s.tiles tile).contentAvailable <;> cases b <;> rfl
  · simp only []
    split
    · rw [foldl_push_emptyTraversal, e2]
    · simpa using congrArg Traversal.stack e2

/-- The loop of `executeEmptyTraversal` and the list of the tiles it pops: the result is true
exactly when it started true and every popped tile at which the traversal stops has available
content; every tile of the stack is popped, the children of a traversed tile are popped, and
every popped tile comes from the stack or is a child of a traversed popped tile. -/
theorem executeEmptyTraversalLoop_popped (env : Env) (frameState : FrameState) (fuel : Nat)
    (s : State) (b : Bool) (r : State × Bool)
    (h : executeEmptyTraversalLoop env frameState fuel s b = some r) :
    ∃ popped, executeEmptyTraversalPopped env frameState fuel s = some popped
      ∧ (r.2 = true ↔ b = true ∧ ∀ p ∈ popped, emptyTraverse p.2 p.1 = false →
          (p.2.tiles p.1).contentAvailable = true)
      ∧ (∀ x ∈ s.emptyTraversal.stack, ∃ σ, (x, σ) ∈ popped)
      ∧ (∀ p ∈ popped, emptyTraverse p.2 p.1 = true →
          ∀ c ∈ (p.2.tiles p.1).children, ∃ σ, (c, σ) ∈ popped)
      ∧ (∀ p ∈ popped, p.1 ∈ s.emptyTraversal.stack
          ∨ ∃ q ∈ popped, emptyTraverse q.2 q.1 = true ∧ p.1 ∈ (q.2.tiles q.1).children) := by
  induction fuel generalizing s b with
  | zero => simp [executeEmptyTraversalLoop] at h
  | succ n ih =>
    unfold executeEmptyTraversalLoop at h
    unfold executeEmptyTraversalPopped
    split at h
    · rename_i hst
      cases h
      rw [hst]
      exact ⟨[], rfl, by simp, by simp, by simp, by simp⟩
    · rename_i tile rest hst
      simp only [] at h
      split at h
      · cases h
      · rename_i r1 hr1
        rw [hst]
        simp only []
        obtain ⟨hv1, hv2, hv3⟩ := executeEmptyTraversalVisit_eq env frameState n _ tile b r1 hr1
        rw [hv1]
        simp only []
        obtain ⟨popped, hp, hres, hstk, hcl, hor⟩ := ih r1.1 r1.2 h
        rw [hp]
        refine ⟨_, rfl, ?_, ?_, ?_, ?_⟩
        · rw [hres, hv2]
          simp only [List.mem_cons, forall_eq_or_imp, Bool.and_eq_true, Bool.not_eq_true',
            Bool.and_eq_false_imp, Bool.not_eq_eq_eq_not, Bool.not_true, Bool.not_false]
          constructor
          · rintro ⟨⟨h1, h2⟩, h3⟩
            refine ⟨h2, ?_, h3⟩
            intro hstop
            cases hav : ((s.tiles tile).contentAvailable) with
            | true => rfl
            | false =>
              exfalso
              revert h1
              simp only [emptyTraverse] at hstop ⊢
              simp [hstop, hav]
          · rintro ⟨h2, h1, h3⟩
            refine ⟨⟨?_, h2⟩, h3⟩
            cases htr : emptyTraverse
                { s with emptyTraversal :=
                  { stack := rest
                    stackMaximumLength :=
                      max s.emptyTraversal.stackMaximumLength (tile :: rest).length } } tile with
            | true => simp
            | false =>
              have := h1 htr
              simp only [] at this
              simp [this]
        · intro x hx
          rcases List.mem_cons.1 hx with rfl | hx
          · exact ⟨_, List.mem_cons_self _ _⟩
          · obtain ⟨σ, hσ⟩ := hstk x (by rw [hv3]; exact List.mem_append_right _ hx)
            exact ⟨σ, List.mem_cons_of_mem _ hσ⟩
        · intro p hp' htr c hc
          rcases List.mem_cons.1 hp' with rfl | hp'
          · simp only [] at htr hc
            obtain ⟨σ, hσ⟩ := hstk c (by
              rw [hv3, if_pos htr]
              exact List.mem_append_left _ (List.mem_reverse.2 hc))
            exact ⟨σ, List.mem_cons_of_mem _ hσ⟩
          · obtain ⟨σ, hσ⟩ := hcl p hp' htr c hc
            exact ⟨σ, List.mem_cons_of_mem _ hσ⟩
        · intro p hp'
          rcases List.mem_cons.1 hp' with rfl | hp'
          · exact Or.inl (List.mem_cons_self _ _)
          · rcases hor p hp' with hin | ⟨q, hq, hq1, hq2⟩
            · rw [hv3] at hin
              rcases List.mem_append.1 hin with hin | hin
              · split at hin
                · rename_i htr
                  exact Or.inr ⟨_, List.mem_cons_self _ _, htr, List.mem_reverse.1 hin⟩
                · cases hin
              · exact Or.inl (List.mem_cons_of_mem _ hin)
            · exact Or.inr ⟨q, List.mem_cons_of_mem _ hq, hq1, hq2⟩

theorem selectTile_tiles_ne (env : Env) (s : State) (tile x : TileId) (frameState : FrameState)
    (h : x ≠ tile) : (selectTile env s tile frameState).tiles x = s.tiles x := by
  unfold selectTile
  simp only []
  split
  · split
    · simp [h]
    · split <;> simp [h]
  · rfl

theorem selectTile_selectionTraversal (env : Env) (s : State) (tile : TileId)
    (frameState : FrameState) :
    (selectTile env s tile frameState).selectionTraversal = s.selectionTraversal :=
  (selectTile_frame (M := Mask.of selectTileFields) (Mask.contains_of _) env s tile
    frameState).global .selectionTraversal (by decide)

theorem selectTile_selected (env : Env) (s : State) (tile : TileId) (frameState : FrameState) :
    (selectTile env s tile frameState).tileset._selectedTiles
      = s.tileset._selectedTiles ++ selectedIfInView env frameState tile := by
  rw [selectTile_selectedTiles]
  unfold selectedIfInView
  split <;> simp

theorem canTraverse_frame {M : Mask} {s s' : State} (h : Frame M s s')
    (h1 : M .children = false) (h2 : M .content = false) (h3 : M ._screenSpaceError = false)
    (x : TileId) : canTraverse s'.tileset (s'.tiles x) = canTraverse s.tileset (s.tiles x) := by
  have e1 : (s'.tiles x).children = (s.tiles x).children := h.tile .children h1 x
  have e2 : (s'.tiles x).contentState = (s.tiles x).contentState := h.tile .content h2 x
  have e3 : (s'.tiles x)._screenSpaceError = (s.tiles x)._screenSpaceError :=
    h.tile ._screenSpaceError h3 x
  have e4 := congrArg ContentState.hasTilesetContent e2
  have e5 := congrArg ContentState.contentExpired e2
  simp only [Tile.contentState] at e4 e5
  unfold canTraverse
  rw [e1, e3, e4, e5, h.tilesetStatic._maximumScreenSpaceError]

theorem isVisible_frame {M : Mask} {s s' : State} (h : Frame M s s')
    (h1 : M ._visible = false) (h2 : M ._inRequestVolume = false) (x : TileId) :
    isVisible (s'.tiles x) = isVisible (s.tiles x) := by
  have e1 : (s'.tiles x)._visible = (s.tiles x)._visible := h.tile ._visible h1 x
  have e2 : (s'.tiles x)._inRequestVolume = (s.tiles x)._inRequestVolume :=
    h.tile ._inRequestVolume h2 x
  unfold isVisible
  rw [e1, e2]

/-- The effect of `pushVisibleChildren`: the visible children are pushed, the last one on
top. -/
theorem pushVisibleChildren_eq (s : State) (traverse : Bool) (children : List TileId) :
    pushVisibleChildren s traverse children
      = { s with selectionTraversal := { s.selectionTraversal with
          stack := (if traverse then
              (children.filter fun c => isVisible (s.tiles c)).reverse else [])
            ++ s.selectionTraversal.stack } } := by
  unfold pushVisibleChildren
  cases traverse with
  | false => simp
  | true =>
    simp only [if_true]
    induction children generalizing s with
    | nil => simp
    | cons c l ih =>
      rw [List.foldl_cons]
      by_cases hc : isVisible (s.tiles c) = true
      · rw [if_pos hc, ih]
        simp [List.filter_cons, hc]
      · rw [if_neg hc, ih]
        simp [List.filter_cons, hc]

theorem traverseAndSelectLoop_step (env : Env) (frameState : FrameState) (fuel : Nat)
    (s : State) (lastAncestor : Option TileId)
    (h : s.selectionTraversal.stack ≠ [] ∨ s.selectionTraversal.ancestorStack ≠ []) :
    traverseAndSelectLoop env frameState (fuel + 1) s lastAncestor
      = traverseAndSelectLoop env frameState fuel
          (traverseAndSelectStep env frameState s lastAncestor).1
          (traverseAndSelectStep env frameState s lastAncestor).2 := by
  rw [traverseAndSelectLoop]
  rw [if_pos]
  rcases h with h | h
  · exact Or.inl (List.length_pos.2 h)
  · exact Or.inr (List.length_pos.2 h)

theorem selectionMask_contains : (Mask.of selectionFields).contains selectionFields :=
  Mask.contains_of _

theorem pushVisibleChildren_frame {M : Mask} (hM : M .selectionTraversal = true) (s : State)
    (traverse : Bool) (children : List TileId) :
    Frame M s (pushVisibleChildren s traverse children) := by
  rw [pushVisibleChildren_eq]
  exact Frame.setSelectionTraversal hM _ _

/-- The loop body of `traverseAndSelect` when no ancestor waits for the present stack length:
the tile `c` on top of the stack is popped. -/
theorem traverseAndSelectStep_of_not_waiting (env : Env) (frameState : FrameState) (s : State)
    (lastAncestor : Option TileId) (c : TileId) (st : List TileId)
    (hst : s.selectionTraversal.stack = c :: st)
    (hw : ∀ w ar, s.selectionTraversal.ancestorStack = w :: ar →
      (s.tiles w)._stackLength ≠ (c :: st).length) :
    traverseAndSelectStep env frameState s lastAncestor
      = (let traverse := canTraverse s.tileset (s.tiles c)
         if (s.tiles c)._shouldSelect then
           if decide ((s.tiles c).refine = Cesium3DTileRefine.ADD) then
             (pushVisibleChildren (selectTile env (selectionPop s st) c frameState) traverse
               (s.tiles c).children, lastAncestor)
           else
             if !traverse then
               (selectTile env (markSelectionDepth (selectionPop s st) c) c frameState, some c)
             else
               (pushVisibleChildren (pushAncestor (markSelectionDepth (selectionPop s st) c) c)
                 traverse (s.tiles c).children, some c)
         else (pushVisibleChildren (selectionPop s st) traverse (s.tiles c).children,
           lastAncestor)) := by
  unfold traverseAndSelectStep selectionPop
  dsimp only
  rw [hst]
  split
  · rename_i w ar heq
    exfalso
    split at heq
    · rename_i w1 ar1 ha
      split at heq
      · rename_i h1
        exact hw _ _ ha h1
      · cases heq
    · cases heq
  · rfl

/-- The loop body of `traverseAndSelect` when the tile on top of the ancestor stack waits for
the present stack length: it is taken off the ancestor stack and selected. -/
theorem traverseAndSelectStep_of_waiting (env : Env) (frameState : FrameState) (s : State)
    (lastAncestor : Option TileId) (w : TileId) (ar : List TileId)
    (ha : s.selectionTraversal.ancestorStack = w :: ar)
    (hl : (s.tiles w)._stackLength = s.selectionTraversal.stack.length) :
    traverseAndSelectStep env frameState s lastAncestor
      = (selectTile env (ancestorPop s lastAncestor w ar) w frameState, lastAncestor) := by
  unfold traverseAndSelectStep ancestorPop
  dsimp only
  rw [ha]
  dsimp only
  rw [if_pos hl]

theorem selectionPop_frame (s : State) (rest : List TileId) :
    Frame (Mask.of selectionFields) s (selectionPop s rest) :=
  Frame.setSelectionTraversal (by decide) _ _

theorem markSelectionDepth_frame (s : State) (tile : TileId) :
    Frame (Mask.of selectionFields) s (markSelectionDepth s tile) := by
  unfold markSelectionDepth
  dsimp only
  have h1 : Frame (Mask.of selectionFields) s (s.setTile tile fun t =>
      { t with _selectionDepth := s.selectionTraversal.ancestorStack.length }) :=
    Frame.setTile s tile _ ⟨List.Perm.refl _, rfl, rfl, rfl, rfl, rfl⟩
      (by intro fld hf; cases fld <;> first | rfl | trivial | exact absurd hf (by decide))
  split
  · exact h1.trans (Frame.setTileset _ _ (by constructor <;> rfl)
      (by intro fld hf; cases fld <;> first | rfl | trivial | exact absurd hf (by decide)))
  · exact h1

theorem pushAncestor_frame (s : State) (tile : TileId) :
    Frame (Mask.of selectionFields) s (pushAncestor s tile) := by
  unfold pushAncestor
  dsimp only
  exact (Frame.setSelectionTraversal (by decide) _ _).trans
    (Frame.setTile _ tile _ ⟨List.Perm.refl _, rfl, rfl, rfl, rfl, rfl⟩
      (by intro fld hf; cases fld <;> first | rfl | trivial | exact absurd hf (by decide)))

theorem ancestorPop_frame (s : State) (lastAncestor : Option TileId) (w : TileId)
    (rest : List TileId) : Frame (Mask.of selectionFields) s (ancestorPop s lastAncestor w rest) := by
  unfold ancestorPop
  dsimp only
  have h1 := Frame.setSelectionTraversal (M := Mask.of selectionFields) (by decide) s
    { stack := s.selectionTraversal.stack
      stackMaximumLength :=
        max s.selectionTraversal.stackMaximumLength s.selectionTraversal.stack.length
      ancestorStack := rest
      ancestorStackMaximumLength :=
        max s.selectionTraversal.ancestorStackMaximumLength
          s.selectionTraversal.ancestorStack.length }
  split
  · exact h1.trans (Frame.setTile _ w _ ⟨List.Perm.refl _, rfl, rfl, rfl, rfl, rfl⟩
      (by intro fld hf; cases fld <;> first | rfl | trivial | exact absurd hf (by decide)))
  · exact h1

@[simp] theorem selectionPop_tiles (s : State) (rest : List TileId) :
    (selectionPop s rest).tiles = s.tiles := rfl

@[simp] theorem selectionPop_tileset (s : State) (rest : List TileId) :
    (selectionPop s rest).tileset = s.tileset := rfl

@[simp] theorem selectionPop_stack (s : State) (rest : List TileId) :
    (selectionPop s rest).selectionTraversal.stack = rest := rfl

@[simp] theorem selectionPop_ancestorStack (s : State) (rest : List TileId) :
    (selectionPop s rest).selectionTraversal.ancestorStack
      = s.selectionTraversal.ancestorStack := rfl

theorem markSelectionDepth_tiles_ne (s : State) (tile x : TileId) (h : x ≠ tile) :
    (markSelectionDepth s tile).tiles x = s.tiles x := by
  unfold markSelectionDepth
  dsimp only
  split <;> simp [h]

@[simp] theorem markSelectionDepth_selectionDepth (s : State) (tile : TileId) :
    ((markSelectionDepth s tile).tiles tile)._selectionDepth
      = s.selectionTraversal.ancestorStack.length := by
  unfold markSelectionDepth
  dsimp only
  split <;> simp

@[simp] theorem markSelectionDepth_selectionTraversal (s : State) (tile : TileId) :
    (markSelectionDepth s tile).selectionTraversal = s.selectionTraversal := by
  unfold markSelectionDepth
  dsimp only
  split <;> simp

@[simp] theorem markSelectionDepth_selected (s : State) (tile : TileId) :
    (markSelectionDepth s tile).tileset._selectedTiles = s.tileset._selectedTiles := by
  unfold markSelectionDepth
  dsimp only
  split <;> simp

theorem pushAncestor_tiles_ne (s : State) (tile x : TileId) (h : x ≠ tile) :
    (pushAncestor s tile).tiles x = s.tiles x := by
  unfold pushAncestor
  simp [h]

@[simp] theorem pushAncestor_stackLength (s : State) (tile : TileId) :
    ((pushAncestor s tile).tiles tile)._stackLength = s.selectionTraversal.stack.length := by
  unfold pushAncestor
  simp

@[simp] theorem pushAncestor_selectionDepth (s : State) (tile : TileId) :
    ((pushAncestor s tile).tiles tile)._selectionDepth = (s.tiles tile)._selectionDepth := by
  unfold pushAncestor
  simp

@[simp] theorem pushAncestor_stack (s : State) (tile : TileId) :
    (pushAncestor s tile).selectionTraversal.stack = s.selectionTraversal.stack := by
  unfold pushAncestor
  simp

@[simp] theorem pushAncestor_ancestorStack (s : State) (tile : TileId) :
    (pushAncestor s tile).selectionTraversal.ancestorStack
      = tile :: s.selectionTraversal.ancestorStack := by
  unfold pushAncestor
  simp

@[simp] theorem pushAncestor_tileset (s : State) (tile : TileId) :
    (pushAncestor s tile).tileset = s.tileset := by
  unfold pushAncestor
  simp

theorem ancestorPop_tiles_ne (s : State) (lastAncestor : Option TileId) (w : TileId)
    (rest : List TileId) (x : TileId) (h : x ≠ w) :
    (ancestorPop s lastAncestor w rest).tiles x = s.tiles x := by
  unfold ancestorPop
  dsimp only
  split <;> simp [h]

@[simp] theorem ancestorPop_selectionDepth (s : State) (lastAncestor : Option TileId)
    (w : TileId) (rest : List TileId) :
    ((ancestorPop s lastAncestor w rest).tiles w)._selectionDepth
      = (s.tiles w)._selectionDepth := by
  unfold ancestorPop
  dsimp only
  split <;> simp

@[simp] theorem ancestorPop_stack (s : State) (lastAncestor : Option TileId) (w : TileId)
    (rest : List TileId) :
    (ancestorPop s lastAncestor w rest).selectionTraversal.stack
      = s.selectionTraversal.stack := by
  unfold ancestorPop
  dsimp only
  split <;> simp

@[simp] theorem ancestorPop_ancestorStack (s : State) (lastAncestor : Option TileId)
    (w : TileId) (rest : List TileId) :
    (ancestorPop s lastAncestor w rest).selectionTraversal.ancestorStack = rest := by
  unfold ancestorPop
  dsimp only
  split <;> simp

@[simp] theorem ancestorPop_tileset (s : State) (lastAncestor : Option TileId) (w : TileId)
    (rest : List TileId) : (ancestorPop s lastAncestor w rest).tileset = s.tileset := by
  unfold ancestorPop
  dsimp only
  split <;> simp

theorem selectTile_selectionDepth (env : Env) (s : State) (tile x : TileId)
    (frameState : FrameState) :
    ((selectTile env s tile frameState).tiles x)._selectionDepth = (s.tiles x)._selectionDepth :=
  (selectTile_frame (M := Mask.of selectTileFields) (Mask.contains_of _) env s tile
    frameState).tile ._selectionDepth (by decide) x

theorem selectTile_stackLength (env : Env) (s : State) (tile x : TileId)
    (frameState : FrameState) :
    ((selectTile env s tile frameState).tiles x)._stackLength = (s.tiles x)._stackLength :=
  (selectTile_frame (M := Mask.of selectTileFields) (Mask.contains_of _) env s tile
    frameState).tile ._stackLength (by decide) x

/-- Summary of an iteration of the loop of `traverseAndSelect` that pops the tile `c`. -/
theorem traverseAndSelectStep_pop (env : Env) (frameState : FrameState) (s : State)
    (lastAncestor : Option TileId) (c : TileId) (st : List TileId)
    (hst : s.selectionTraversal.stack = c :: st)
    (hw : ∀ w ar, s.selectionTraversal.ancestorStack = w :: ar →
      (s.tiles w)._stackLength ≠ (c :: st).length) :
    ∃ r, traverseAndSelectStep env frameState s lastAncestor = r
      ∧ Frame (Mask.of selectionFields) s r.1
      ∧ (∀ x, x ≠ c → r.1.tiles x = s.tiles x)
      ∧ r.1.selectionTraversal.stack
          = (if canTraverse s.tileset (s.tiles c) then
              ((s.tiles c).children.filter fun x => isVisible (s.tiles x)).reverse else [])
            ++ st
      ∧ r.1.selectionTraversal.ancestorStack
          = (if flaggedReplace s c && canTraverse s.tileset (s.tiles c) then
              c :: s.selectionTraversal.ancestorStack
            else s.selectionTraversal.ancestorStack)
      ∧ (flaggedReplace s c = true → canTraverse s.tileset (s.tiles c) = true →
          (r.1.tiles c)._stackLength = st.length)
      ∧ (flaggedReplace s c = true →
          (r.1.tiles c)._selectionDepth = s.selectionTraversal.ancestorStack.length)
      ∧ r.1.tileset._selectedTiles
          = s.tileset._selectedTiles
            ++ (if (s.tiles c)._shouldSelect
                  && (decide ((s.tiles c).refine = Cesium3DTileRefine.ADD)
                    || !canTraverse s.tileset (s.tiles c)) then
                selectedIfInView env frameState c else []) := by
  have hfsel := fun s t => selectTile_frame (M := Mask.of selectionFields)
    (selectionMask_contains.of_subset (by decide)) env s t frameState
  have hfpush := fun s b l => pushVisibleChildren_frame (M := Mask.of selectionFields)
    (by decide) s b l
  have hvis : ∀ {σ : State}, Frame (Mask.of selectionFields) s σ →
      (fun x => isVisible (σ.tiles x)) = fun x => isVisible (s.tiles x) := fun h =>
    funext fun x => isVisible_frame h (by decide) (by decide) x
  refine ⟨_, traverseAndSelectStep_of_not_waiting env frameState s lastAncestor c st hst hw, ?_⟩
  dsimp only
  unfold flaggedReplace
  cases hsel : (s.tiles c)._shouldSelect with
  | false =>
    rw [if_neg (by simp)]
    refine ⟨(selectionPop_frame _ _).trans (hfpush _ _ _), ?_, ?_, ?_, ?_, ?_, ?_⟩
    · intro x _; rw [pushVisibleChildren_eq]; rfl
    · rw [pushVisibleChildren_eq]; rfl
    · rw [pushVisibleChildren_eq]; simp
    · intro h; cases h
    · intro h; cases h
    · rw [pushVisibleChildren_eq]; simp
  | true =>
    rw [if_pos rfl]
    by_cases hadd : (s.tiles c).refine = Cesium3DTileRefine.ADD
    · rw [if_pos (by simp [hadd])]
      have f1 := (selectionPop_frame s st).trans (hfsel (selectionPop s st) c)
      refine ⟨f1.trans (hfpush _ _ _), ?_, ?_, ?_, ?_, ?_, ?_⟩
      · intro x hx
        rw [pushVisibleChildren_eq]
        exact selectTile_tiles_ne env _ c x frameState hx
      · rw [pushVisibleChildren_eq]
        simp only [selectTile_selectionTraversal, selectionPop_stack, hvis f1]
      · rw [pushVisibleChildren_eq]
        simp [hadd, selectTile_selectionTraversal]
      · intro h; simp [hadd] at h
      · intro h; simp [hadd] at h
      · rw [pushVisibleChildren_eq]
        simp [hadd, selectTile_selected]
    · rw [if_neg (by simp [hadd])]
      have f1 := (selectionPop_frame s st).trans
        (markSelectionDepth_frame (selectionPop s st) c)
      cases htr : canTraverse s.tileset (s.tiles c) with
      | false =>
        rw [if_pos (by simp)]
        refine ⟨f1.trans (hfsel _ _), ?_, ?_, ?_, ?_, ?_, ?_⟩
        · intro x hx
          rw [selectTile_tiles_ne env _ c x frameState hx, markSelectionDepth_tiles_ne _ _ _ hx]
          rfl
        · simp [selectTile_selectionTraversal]
        · simp [selectTile_selectionTraversal]
        · intro _ h; cases h
        · intro _
          rw [selectTile_selectionDepth]
          simp
        · simp [hadd, selectTile_selected]
      | true =>
        rw [if_neg (by simp)]
        have f2 := f1.trans (pushAncestor_frame _ c)
        refine ⟨f2.trans (hfpush _ true (s.tiles c).children), ?_, ?_, ?_, ?_, ?_, ?_⟩
        · intro x hx
          rw [pushVisibleChildren_eq]
          show (pushAncestor _ c).tiles x = _
          rw [pushAncestor_tiles_ne _ _ _ hx, markSelectionDepth_tiles_ne _ _ _ hx]
          rfl
        · rw [pushVisibleChildren_eq]
          simp only [pushAncestor_stack, markSelectionDepth_selectionTraversal,
            selectionPop_stack, hvis f2, if_true]
        · rw [pushVisibleChildren_eq]
          simp [hadd]
        · intro _ _
          rw [pushVisibleChildren_eq]
          show ((pushAncestor _ c).tiles c)._stackLength = _
          simp
        · intro _
          rw [pushVisibleChildren_eq]
          show ((pushAncestor _ c).tiles c)._selectionDepth = _
          simp
        · rw [pushVisibleChildren_eq]
          simp [hadd]

/-- Summary of an iteration of the loop of `traverseAndSelect` that takes the waiting tile `w`
off the ancestor stack. -/
theorem traverseAndSelectStep_wait (env : Env) (frameState : FrameState) (s : State)
    (lastAncestor : Option TileId) (w : TileId) (ar : List TileId)
    (ha : s.selectionTraversal.ancestorStack = w :: ar)
    (hl : (s.tiles w)._stackLength = s.selectionTraversal.stack.length) :
    ∃ r, traverseAndSelectStep env frameState s lastAncestor = r
      ∧ Frame (Mask.of selectionFields) s r.1
      ∧ (∀ x, x ≠ w → r.1.tiles x = s.tiles x)
      ∧ (r.1.tiles w)._selectionDepth = (s.tiles w)._selectionDepth
      ∧ r.1.selectionTraversal.stack = s.selectionTraversal.stack
      ∧ r.1.selectionTraversal.ancestorStack = ar
      ∧ r.1.tileset._selectedTiles
          = s.tileset._selectedTiles ++ selectedIfInView env frameState w := by
  have hfsel := fun s t => selectTile_frame (M := Mask.of selectionFields)
    (selectionMask_contains.of_subset (by decide)) env s t frameState
  refine ⟨_, traverseAndSelectStep_of_waiting env frameState s lastAncestor w ar ha hl, ?_⟩
  dsimp only
  refine ⟨(ancestorPop_frame _ _ _ _).trans (hfsel _ _), ?_, ?_, ?_, ?_, ?_⟩
  · intro x hx
    rw [selectTile_tiles_ne env _ w x frameState hx, ancestorPop_tiles_ne _ _ _ _ _ hx]
  · rw [selectTile_selectionDepth]; simp
  · simp [selectTile_selectionTraversal]
  · simp [selectTile_selectionTraversal]
  · simp [selectTile_selected]

theorem SizeOK.size_pos {size : TileId → Nat} {s : State} (hS : SizeOK size s) (t : TileId) :
    0 < size t :=
  lt_of_le_of_lt (Nat.zero_le _) (hS t)

theorem InSubtree.self (s : State) (t : TileId) : InSubtree s t t :=
  Relation.ReflTransGen.refl

theorem InSubtree.of_child {s : State} {t c x : TileId} (hc : c ∈ (s.tiles t).children)
    (h : InSubtree s c x) : InSubtree s t x :=
  Relation.ReflTransGen.head hc h

theorem InSubtree.append {s : State} {a b c : TileId} (h1 : InSubtree s a b)
    (h2 : InSubtree s b c) : InSubtree s a c :=
  Relation.ReflTransGen.trans h1 h2

theorem InSubtree.size_le {size : TileId → Nat} {s : State} (hS : SizeOK size s) {t x : TileId}
    (h : InSubtree s t x) : size x ≤ size t := by
  induction h with
  | refl => exact le_refl _
  | tail _ hc ih => exact le_trans (le_of_lt (hS.child_lt hc)) ih

/-- Two tiles that have a common descendant lie one below the other, when every tile has one
parent. -/
theorem InSubtree.linear {s : State}
    (hpar : ∀ p c, c ∈ (s.tiles p).children → (s.tiles c).parent = some p) {a b x : TileId}
    (h1 : InSubtree s a x) (h2 : InSubtree s b x) : InSubtree s a b ∨ InSubtree s b a := by
  induction h1 generalizing b with
  | refl => exact Or.inr h2
  | @tail p x hap hpx ih =>
    rcases Relation.ReflTransGen.cases_tail h2 with hbx | ⟨q, hbq, hqx⟩
    · left
      rw [← hbx]
      exact Relation.ReflTransGen.tail hap hpx
    · have e1 := hpar p x hpx
      have e2 := hpar q x hqx
      rw [e1] at e2
      cases e2
      exact ih hbq

/-- The subtrees of two different children of a tile have no tile in common. -/
theorem InSubtree.children_disjoint {size : TileId → Nat} {s : State} (hS : SizeOK size s)
    (hpar : ∀ p c, c ∈ (s.tiles p).children → (s.tiles c).parent = some p) {t c1 c2 x : TileId}
    (hc1 : c1 ∈ (s.tiles t).children) (hc2 : c2 ∈ (s.tiles t).children)
    (h1 : InSubtree s c1 x) (h2 : InSubtree s c2 x) : c1 = c2 := by
  have key : ∀ {u v : TileId}, u ∈ (s.tiles t).children → v ∈ (s.tiles t).children →
      InSubtree s u v → u = v := by
    intro u v hu hv huv
    rcases Relation.ReflTransGen.cases_tail huv with h | ⟨q, huq, hqv⟩
    · exact h.symm
    · exfalso
      have e1 := hpar q v hqv
      have e2 := hpar t v hv
      rw [e1] at e2
      cases e2
      have := InSubtree.size_le hS huq
      have := hS.child_lt hu
      omega
  rcases InSubtree.linear hpar h1 h2 with h | h
  · exact key hc1 hc2 h
  · exact (key hc2 hc1 h).symm

theorem Precedes.append_left {d a : TileId} {l : List TileId} (h : Precedes d a l)
    (pre : List TileId) : Precedes d a (pre ++ l) := by
  obtain ⟨l1, l2, l3, rfl⟩ := h
  exact ⟨pre ++ l1, l2, l3, by simp⟩

theorem Precedes.append_right {d a : TileId} {l : List TileId} (h : Precedes d a l)
    (post : List TileId) : Precedes d a (l ++ post) := by
  obtain ⟨l1, l2, l3, rfl⟩ := h
  exact ⟨l1, l2, l3 ++ post, by simp⟩

theorem Precedes.of_mem {d a : TileId} {l : List TileId} (h : d ∈ l) (post : List TileId) :
    Precedes d a (l ++ a :: post) := by
  obtain ⟨u, v, rfl⟩ := List.append_of_mem h
  exact ⟨u, v, post, by simp⟩

theorem flaggedReplace_frame {M : Mask} {s s' : State} (h : Frame M s s')
    (h1 : M ._shouldSelect = false) (x : TileId) :
    flaggedReplace s' x = flaggedReplace s x := by
  have e1 : (s'.tiles x)._shouldSelect = (s.tiles x)._shouldSelect := h.tile ._shouldSelect h1 x
  unfold flaggedReplace
  rw [e1, (h.tileStatic x).refine]

/-- The visible children that the selection pass pushes for `c`, top of the stack first. -/
theorem selectionChildren_facts {size : TileId → Nat} {s0 : State} (hS : SizeOK size s0)
    (hpar : ∀ p c, c ∈ (s0.tiles p).children → (s0.tiles c).parent = some p)
    (hnd : ∀ p, (s0.tiles p).children.Nodup) (c : TileId) (forest : List TileId)
    (hforest : forest = if canTraverse s0.tileset (s0.tiles c) then
      ((s0.tiles c).children.filter fun x => isVisible (s0.tiles x)).reverse else []) :
    (∀ x, x ∈ forest ↔ SelectionChild s0 c x)
      ∧ stackSize size forest + 1 ≤ size c
      ∧ forest.Nodup
      ∧ (∀ c1 ∈ forest, ∀ c2 ∈ forest, ∀ x, InSubtree s0 c1 x → InSubtree s0 c2 x → c1 = c2) := by
  have hmem : ∀ x, x ∈ forest ↔ SelectionChild s0 c x := by
    intro x
    rw [hforest]
    unfold SelectionChild
    cases canTraverse s0.tileset (s0.tiles c) <;> simp
  refine ⟨hmem, ?_, ?_, ?_⟩
  · have h1 : stackSize size forest ≤ stackSize size (s0.tiles c).children := by
      rw [hforest]
      split
      · rw [stackSize_perm size (List.reverse_perm _)]
        exact List.Sublist.sum_le_sum ((List.filter_sublist _).map size)
          (fun _ _ => Nat.zero_le _)
      · exact Nat.zero_le _
    have := hS c
    omega
  · rw [hforest]
    split
    · exact List.nodup_reverse.2 ((hnd c).filter _)
    · exact List.nodup_nil
  · intro c1 h1 c2 h2 x hx1 hx2
    exact InSubtree.children_disjoint hS hpar ((hmem c1).1 h1).2.1 ((hmem c2).1 h2).2.1 hx1 hx2

theorem SelectionDone.nil (env : Env) (frameState : FrameState) (size : TileId → Nat)
    (s0 : State) (rest : List TileId) (s : State) (la : Option TileId)
    (hf : Frame (Mask.of selectionFields) s0 s) (hst : s.selectionTraversal.stack = rest) :
    SelectionDone env frameState size s0 [] rest s la 0 s la [] where
  steps := Nat.zero_le _
  loop := fun _ => rfl
  frame := hf
  stack := hst
  ancestorStack := rfl
  outside := fun _ _ => rfl
  selected := by simp
  sub := by simp
  nodup := List.nodup_nil
  order := by simp
  depth := by simp
  sound := by simp
  complete := by simp

/-- The iterations of the loop of `traverseAndSelect` that follow the emptying of the subtrees
of the children of `c`: when `c` waits on the ancestor stack it is taken off and selected. -/
theorem traverseAndSelect_release (env : Env) (frameState : FrameState) (s0 : State)
    (c : TileId) (st anc : List TileId) (s1 : State) (la1 : Option TileId) (waits : Bool)
    (hf : Frame (Mask.of selectionFields) s0 s1)
    (hst : s1.selectionTraversal.stack = st)
    (hanc : s1.selectionTraversal.ancestorStack = if waits then c :: anc else anc)
    (hlen : waits = true → (s1.tiles c)._stackLength = st.length) :
    ∃ k s2 la2,
      k ≤ (if waits then 1 else 0)
      ∧ (∀ fuel, traverseAndSelectLoop env frameState (fuel + k) s1 la1
          = traverseAndSelectLoop env frameState fuel s2 la2)
      ∧ Frame (Mask.of selectionFields) s0 s2
      ∧ s2.selectionTraversal.stack = st
      ∧ s2.selectionTraversal.ancestorStack = anc
      ∧ (∀ x, x ≠ c → s2.tiles x = s1.tiles x)
      ∧ (s2.tiles c)._selectionDepth = (s1.tiles c)._selectionDepth
      ∧ s2.tileset._selectedTiles = s1.tileset._selectedTiles
          ++ (if waits then selectedIfInView env frameState c else []) := by
  cases waits with
  | false =>
    exact ⟨0, s1, la1, le_refl _, fun _ => rfl, hf, hst, by simpa using hanc, fun _ _ => rfl,
      rfl, by simp⟩
  | true =>
    simp only [if_true] at hanc
    obtain ⟨r, hr, fr, hne, hdep, hstack, hanc2, hsel⟩ :=
      traverseAndSelectStep_wait env frameState s1 la1 c anc hanc
        (by rw [hlen rfl, hst])
    refine ⟨1, r.1, r.2, le_refl _, ?_, hf.trans fr, by rw [hstack, hst], hanc2, hne, hdep,
      by simpa using hsel⟩
    intro fuel
    rw [traverseAndSelectLoop_step env frameState fuel s1 la1 (Or.inr (by rw [hanc]; simp)), hr]

theorem mem_selectedIfInView {env : Env} {frameState : FrameState} {c x : TileId}
    (h : x ∈ selectedIfInView env frameState c) : x = c := by
  unfold selectedIfInView at h
  split at h
  · simpa using h
  · cases h

theorem nodup_selectedIfInView (env : Env) (frameState : FrameState) (c : TileId) :
    (selectedIfInView env frameState c).Nodup := by
  unfold selectedIfInView
  split <;> simp

theorem selectedIfInView_eq_of_mem {env : Env} {frameState : FrameState} {c x : TileId}
    (h : x ∈ selectedIfInView env frameState c) : selectedIfInView env frameState c = [c] := by
  unfold selectedIfInView at h ⊢
  split at h
  · rename_i hv; rw [if_pos hv]
  · cases h

theorem selectedIfInView_of_inView {env : Env} {frameState : FrameState} {c : TileId}
    (h : env.contentVisibility frameState c ≠ Intersect.OUTSIDE) :
    selectedIfInView env frameState c = [c] := by
  unfold selectedIfInView
  rw [if_pos h]

theorem inView_of_mem_selectedIfInView {env : Env} {frameState : FrameState} {c x : TileId}
    (h : x ∈ selectedIfInView env frameState c) :
    env.contentVisibility frameState c ≠ Intersect.OUTSIDE := by
  unfold selectedIfInView at h
  split at h
  · assumption
  · cases h

theorem SelectionPath.inSubtree {s : State} {t x : TileId} {l : List TileId}
    (h : SelectionPath s t l x) : InSubtree s t x := by
  induction h with
  | nil t => exact InSubtree.self s t
  | cons hc _ ih => exact InSubtree.of_child hc.2.1 ih

/-- The loop of `traverseAndSelect` empties the part `cs` of the stack `cs ++ rest`, when the
tiles of `cs` have disjoint subtrees and no tile of the ancestor stack waits for a stack longer
than `rest` or lies below `cs`. -/
theorem traverseAndSelect_forest (env : Env) (frameState : FrameState) (size : TileId → Nat)
    (s0 : State) (hS : SizeOK size s0)
    (hpar : ∀ p c, c ∈ (s0.tiles p).children → (s0.tiles c).parent = some p)
    (hnd : ∀ p, (s0.tiles p).children.Nodup) :
    ∀ (n : Nat) (cs : List TileId), stackSize size cs ≤ n →
    ∀ (s : State) (la : Option TileId) (rest : List TileId),
      Frame (Mask.of selectionFields) s0 s →
      s.selectionTraversal.stack = cs ++ rest →
      cs.Nodup →
      (∀ c1 ∈ cs, ∀ c2 ∈ cs, ∀ x, InSubtree s0 c1 x → InSubtree s0 c2 x → c1 = c2) →
      (∀ a ∈ s.selectionTraversal.ancestorStack,
        (s.tiles a)._stackLength ≤ rest.length ∧ ∀ c ∈ cs, ¬InSubtree s0 c a) →
      ∃ k s1 la1 out, SelectionDone env frameState size s0 cs rest s la k s1 la1 out := by
  intro n
  induction n with
  | zero =>
    intro cs hn s la rest hf hstk hndc hdis hanc
    cases cs with
    | nil =>
      exact ⟨0, s, la, [], SelectionDone.nil env frameState size s0 rest s la hf
        (by simpa using hstk)⟩
    | cons c cs' =>
      exfalso
      rw [stackSize_cons] at hn
      have := hS.size_pos c
      omega
  | succ n ih =>
    intro cs hn s la rest hf hstk hndc hdis hanc
    cases cs with
    | nil =>
      exact ⟨0, s, la, [], SelectionDone.nil env frameState size s0 rest s la hf
        (by simpa using hstk)⟩
    | cons c cs' =>
      rw [stackSize_cons] at hn
      have hpos := hS.size_pos c
      have hstk1 : s.selectionTraversal.stack = c :: (cs' ++ rest) := by simpa using hstk
      have hw : ∀ w ar, s.selectionTraversal.ancestorStack = w :: ar →
          (s.tiles w)._stackLength ≠ (c :: (cs' ++ rest)).length := by
        intro w ar ha
        have := (hanc w (by rw [ha]; exact List.mem_cons_self _ _)).1
        simp only [List.length_cons, List.length_append]
        omega
      obtain ⟨r, hr, fr, hne, hstack1, hanc1, hlen1, hdep1, hsel1⟩ :=
        traverseAndSelectStep_pop env frameState s la c (cs' ++ rest) hstk1 hw
      have e_ch : (s.tiles c).children = (s0.tiles c).children := hf.tile .children (by decide) c
      have e_tr := canTraverse_frame hf (by decide) (by decide) (by decide) c
      have e_vis : (fun x => isVisible (s.tiles x)) = fun x => isVisible (s0.tiles x) :=
        funext fun x => isVisible_frame hf (by decide) (by decide) x
      have e_fl := flaggedReplace_frame hf (by decide) c
      have e_ss : (s.tiles c)._shouldSelect = (s0.tiles c)._shouldSelect :=
        hf.tile ._shouldSelect (by decide) c
      have e_ref := (hf.tileStatic c).refine
      rw [e_ch, e_tr, e_vis] at hstack1
      rw [e_fl, e_tr] at hanc1 hlen1
      rw [e_fl] at hdep1
      rw [e_ss, e_ref, e_tr] at hsel1
      obtain ⟨hmem, hsz, hnd1, hdis1⟩ := selectionChildren_facts hS hpar hnd c _ rfl
      generalize (if canTraverse s0.tileset (s0.tiles c) = true then
        (List.filter (fun x => isVisible (s0.tiles x)) (s0.tiles c).children).reverse
        else []) = forest at hstack1 hmem hsz hnd1 hdis1
      generalize hpre : (if ((s0.tiles c)._shouldSelect
          && (decide ((s0.tiles c).refine = Cesium3DTileRefine.ADD)
            || !canTraverse s0.tileset (s0.tiles c))) = true then
          selectedIfInView env frameState c else []) = pre at hsel1
      generalize hwaits : (flaggedReplace s0 c && canTraverse s0.tileset (s0.tiles c)) = waits
        at hanc1
      have hc_notin : ∀ c1 ∈ forest, ¬InSubtree s0 c1 c := by
        intro c1 h1 h
        have := InSubtree.size_le hS h
        have := hS.child_lt ((hmem c1).1 h1).2.1
        omega
      have hsub_forest : ∀ c1 ∈ forest, ∀ x, InSubtree s0 c1 x → InSubtree s0 c x ∧ x ≠ c := by
        intro c1 h1 x hx
        refine ⟨InSubtree.of_child ((hmem c1).1 h1).2.1 hx, ?_⟩
        rintro rfl
        exact hc_notin c1 h1 hx
      have hanc_ne : ∀ a ∈ s.selectionTraversal.ancestorStack, a ≠ c := by
        rintro a ha rfl
        exact (hanc a ha).2 a (List.mem_cons_self _ _) (InSubtree.self s0 a)
      have hc_cs : ∀ c0 ∈ cs', ∀ x, InSubtree s0 c x → ¬InSubtree s0 c0 x := by
        intro c0 h0 x hx hx0
        have := hdis c (List.mem_cons_self _ _) c0 (List.mem_cons_of_mem _ h0) x hx hx0
        rw [← this] at h0
        exact (List.nodup_cons.1 hndc).1 h0
      -- the subtrees of the pushed children
      obtain ⟨k1, s1, la1, out1, d1⟩ := ih forest (by omega) r.1 r.2 (cs' ++ rest)
        (hf.trans fr) hstack1 hnd1 hdis1 (by
          intro a ha
          rw [hanc1] at ha
          have hold : ∀ a ∈ s.selectionTraversal.ancestorStack,
              (r.1.tiles a)._stackLength ≤ (cs' ++ rest).length
                ∧ ∀ c1 ∈ forest, ¬InSubtree s0 c1 a := by
            intro a ha
            rw [hne a (hanc_ne a ha)]
            refine ⟨?_, ?_⟩
            · have := (hanc a ha).1
              simp only [List.length_append]
              omega
            · intro c1 h1 h
              exact (hanc a ha).2 c (List.mem_cons_self _ _) (hsub_forest c1 h1 a h).1
          cases hwv : waits with
          | false =>
            rw [hwv] at ha
            exact hold a ha
          | true =>
            rw [hwv] at ha
            rcases List.mem_cons.1 ha with rfl | ha
            · rw [← hwaits, Bool.and_eq_true] at hwv
              exact ⟨le_of_eq (hlen1 hwv.1 hwv.2), hc_notin⟩
            · exact hold a ha)
      -- the tile is taken off the ancestor stack when it waits there
      obtain ⟨k2, s2, la2, hk2, hloop2, f2, hstack2, hanc2, hne2, hdep2, hsel2⟩ :=
        traverseAndSelect_release env frameState s0 c (cs' ++ rest)
          s.selectionTraversal.ancestorStack s1 la1 waits d1.frame d1.stack
          (by rw [d1.ancestorStack, hanc1])
          (by
            intro hwv
            rw [d1.outside c hc_notin]
            rw [← hwaits, Bool.and_eq_true] at hwv
            exact hlen1 hwv.1 hwv.2)
      generalize hpost : (if waits = true then selectedIfInView env frameState c else [])
        = post at hsel2
      -- the other tiles of the stack
      obtain ⟨k3, s3, la3, out3, d3⟩ := ih cs' (by omega) s2 la2 rest f2 hstack2
        (List.nodup_cons.1 hndc).2
        (fun c1 h1 c2 h2 x hx1 hx2 =>
          hdis c1 (List.mem_cons_of_mem _ h1) c2 (List.mem_cons_of_mem _ h2) x hx1 hx2)
        (by
          intro a ha
          rw [hanc2] at ha
          have hac := hanc_ne a ha
          rw [hne2 a hac, d1.outside a (fun c1 h1 h =>
            (hanc a ha).2 c (List.mem_cons_self _ _) (hsub_forest c1 h1 a h).1), hne a hac]
          exact ⟨(hanc a ha).1, fun c0 h0 => (hanc a ha).2 c0 (List.mem_cons_of_mem _ h0)⟩)
      -- facts about the four parts of the output
      have hpre_mem : ∀ x ∈ pre, x = c ∧ pre = [c]
          ∧ ((s0.tiles c).refine = Cesium3DTileRefine.ADD
            ∨ canTraverse s0.tileset (s0.tiles c) = false)
          ∧ (s0.tiles c)._shouldSelect = true
          ∧ env.contentVisibility frameState c ≠ Intersect.OUTSIDE := by
        intro x hx
        rw [← hpre] at hx ⊢
        split at hx
        · rename_i hcond
          rw [if_pos hcond]
          rw [Bool.and_eq_true] at hcond
          refine ⟨mem_selectedIfInView hx, selectedIfInView_eq_of_mem hx, ?_, hcond.1,
            inView_of_mem_selectedIfInView hx⟩
          simpa using hcond.2
        · cases hx
      have hpost_mem : ∀ x ∈ post, x = c ∧ post = [c] ∧ waits = true
          ∧ env.contentVisibility frameState c ≠ Intersect.OUTSIDE := by
        intro x hx
        rw [← hpost] at hx ⊢
        split at hx
        · rename_i hcond
          rw [if_pos hcond]
          exact ⟨mem_selectedIfInView hx, selectedIfInView_eq_of_mem hx, hcond,
            inView_of_mem_selectedIfInView hx⟩
        · cases hx
      have hpre_nd : pre.Nodup := by
        rw [← hpre]; split
        · exact nodup_selectedIfInView _ _ _
        · exact List.nodup_nil
      have hpost_nd : post.Nodup := by
        rw [← hpost]; split
        · exact nodup_selectedIfInView _ _ _
        · exact List.nodup_nil
      have hout1 : ∀ x ∈ out1, InSubtree s0 c x ∧ x ≠ c
          ∧ canTraverse s0.tileset (s0.tiles c) = true := by
        intro x hx
        obtain ⟨c1, h1, hx1⟩ := d1.sub x hx
        exact ⟨(hsub_forest c1 h1 x hx1).1, (hsub_forest c1 h1 x hx1).2, ((hmem c1).1 h1).1⟩
      have hout3 : ∀ x ∈ out3, ¬InSubtree s0 c x := by
        intro x hx h
        obtain ⟨c0, h0, hx0⟩ := d3.sub x hx
        exact hc_cs c0 h0 x h hx0
      have hwaits_iff : waits = true → (s0.tiles c).refine ≠ Cesium3DTileRefine.ADD
          ∧ canTraverse s0.tileset (s0.tiles c) = true := by
        intro hwv
        rw [← hwaits, Bool.and_eq_true] at hwv
        refine ⟨?_, hwv.2⟩
        have := hwv.1
        unfold flaggedReplace at this
        rw [Bool.and_eq_true] at this
        simpa using this.2
      have hpre_post : ∀ x ∈ pre, ∀ y ∈ post, False := by
        intro x hx y hy
        obtain ⟨_, _, h1, _⟩ := hpre_mem x hx
        obtain ⟨h2, h3⟩ := hwaits_iff (hpost_mem y hy).2.2.1
        rcases h1 with h1 | h1
        · exact h2 h1
        · rw [h3] at h1; cases h1
      refine ⟨1 + k1 + k2 + k3, s3, la3, pre ++ (out1 ++ (post ++ out3)), ?_⟩
      constructor
      · -- steps
        have h1 := d1.steps
        have h3 := d3.steps
        rw [stackSize_cons]
        have : k2 ≤ 1 := le_trans hk2 (by split <;> omega)
        omega
      · -- loop
        intro fuel
        have e : fuel + (1 + k1 + k2 + k3) = (fuel + k3 + k2 + k1) + 1 := by omega
        rw [e, traverseAndSelectLoop_step env frameState _ s la
          (Or.inl (by rw [hstk1]; simp)), hr, d1.loop, hloop2, d3.loop]
      · exact d3.frame
      · exact d3.stack
      · rw [d3.ancestorStack, hanc2]
      · -- outside
        intro x hx
        have hxc : ¬InSubtree s0 c x := hx c (List.mem_cons_self _ _)
        have hne_c : x ≠ c := by rintro rfl; exact hxc (InSubtree.self s0 x)
        rw [d3.outside x (fun c0 h0 => hx c0 (List.mem_cons_of_mem _ h0)), hne2 x hne_c,
          d1.outside x (fun c1 h1 h => hxc (hsub_forest c1 h1 x h).1), hne x hne_c]
      · rw [d3.selected, hsel2, d1.selected, hsel1]
        simp
      · -- sub
        intro x hx
        simp only [List.mem_append] at hx
        rcases hx with hx | hx | hx | hx
        · exact ⟨c, List.mem_cons_self _ _, by rw [(hpre_mem x hx).1]; exact InSubtree.self s0 c⟩
        · exact ⟨c, List.mem_cons_self _ _, (hout1 x hx).1⟩
        · exact ⟨c, List.mem_cons_self _ _, by rw [(hpost_mem x hx).1]; exact InSubtree.self s0 c⟩
        · obtain ⟨c0, h0, hx0⟩ := d3.sub x hx
          exact ⟨c0, List.mem_cons_of_mem _ h0, hx0⟩
      · -- nodup
        rw [List.nodup_append]
        refine ⟨hpre_nd, ?_, ?_⟩
        · rw [List.nodup_append]
          refine ⟨d1.nodup, ?_, ?_⟩
          · rw [List.nodup_append]
            refine ⟨hpost_nd, d3.nodup, ?_⟩
            intro x hx hx3
            apply hout3 x hx3
            rw [(hpost_mem x hx).1]
            exact InSubtree.self s0 c
          · intro x hx hx2
            rcases List.mem_append.1 hx2 with hx2 | hx2
            · exact (hout1 x hx).2.1 (hpost_mem x hx2).1
            · exact hout3 x hx2 (hout1 x hx).1
        · intro x hx hx2
          simp only [List.mem_append] at hx2
          rcases hx2 with hx2 | hx2 | hx2
          · exact (hout1 x hx2).2.1 (hpre_mem x hx).1
          · exact hpre_post x hx x hx2
          · apply hout3 x hx2
            rw [(hpre_mem x hx).1]
            exact InSubtree.self s0 c
      · -- order
        intro a d ha hd hna had hne_ad
        simp only [List.mem_append] at ha hd
        have hd_cases : d = c ∨ d ∈ out1 ∨ d ∈ out3 := by
          rcases hd with hd | hd | hd | hd
          · exact Or.inl (hpre_mem d hd).1
          · exact Or.inr (Or.inl hd)
          · exact Or.inl (hpost_mem d hd).1
          · exact Or.inr (Or.inr hd)
        have ha_c : a = c → Precedes d a (pre ++ (out1 ++ (post ++ out3))) := by
          intro hac
          rcases hd_cases with hdc | hd1 | hd3
          · exact absurd (hac.trans hdc.symm) hne_ad
          · have htr := (hout1 d hd1).2.2
            rcases ha with ha | ha | ha | ha
            · rcases (hpre_mem a ha).2.2.1 with h | h
              · rw [hac] at hna; exact absurd h hna
              · rw [htr] at h; cases h
            · exact absurd hac (hout1 a ha).2.1
            · rw [(hpost_mem a ha).2.1, hac]
              exact (Precedes.of_mem hd1 out3).append_left pre
            · exact absurd (hac ▸ InSubtree.self s0 c) (hout3 a ha)
          · exact absurd (hac ▸ had) (hout3 d hd3)
        rcases ha with ha | ha | ha | ha
        · exact ha_c (hpre_mem a ha).1
        · obtain ⟨c1, h1, ha1⟩ := d1.sub a ha
          rcases hd_cases with hdc | hd1 | hd3
          · exfalso
            rw [hdc] at had
            exact hc_notin c1 h1 (ha1.append had)
          · exact ((d1.order a d ha hd1 hna had hne_ad).append_right _).append_left pre
          · exact absurd ((hout1 a ha).1.append had) (hout3 d hd3)
        · exact ha_c (hpost_mem a ha).1
        · obtain ⟨c0, h0, ha0⟩ := d3.sub a ha
          rcases hd_cases with hdc | hd1 | hd3
          · exfalso
            rw [hdc] at had
            exact hc_cs c0 h0 c (InSubtree.self s0 c) (ha0.append had)
          · exact absurd (hout1 d hd1).1 (fun h => hc_cs c0 h0 d h (ha0.append had))
          · have := d3.order a d ha hd3 hna had hne_ad
            have e : pre ++ (out1 ++ (post ++ out3)) = (pre ++ (out1 ++ post)) ++ out3 := by
              simp
            rw [e]
            exact this.append_left _
      · -- depth
        intro c0 hc0 l x hp hfl
        rcases List.mem_cons.1 hc0 with rfl | hc0
        · have hx_out : ∀ c3 ∈ cs', ¬InSubtree s0 c3 x := fun c3 h3 =>
            hc_cs c3 h3 x hp.inSubtree
          rw [d3.outside x hx_out]
          cases hp with
          | nil =>
            rw [hdep2, d1.outside c0 hc_notin, hdep1 hfl]
            simp
          | @cons _ c1 _ l1 hsc hp1 =>
            have h1 : c1 ∈ forest := (hmem c1).2 hsc
            have hx1 := hsub_forest c1 h1 x hp1.inSubtree
            rw [hne2 x hx1.2, d1.depth c1 h1 l1 x hp1 hfl, hanc1, List.filter_cons]
            have hwv : waits = flaggedReplace s0 c0 := by
              rw [← hwaits, hsc.1, Bool.and_true]
            rw [hwv]
            cases flaggedReplace s0 c0
            · simp
            · simp; omega
        · rw [d3.depth c0 hc0 l x hp hfl, hanc2]
      · -- sound
        intro x hx
        simp only [List.mem_append] at hx
        rcases hx with hx | hx | hx | hx
        · obtain ⟨rfl, _, _, h1, h2⟩ := hpre_mem x hx
          exact ⟨h1, h2, x, List.mem_cons_self _ _, [], SelectionPath.nil x⟩
        · obtain ⟨h1, h2, c1, hc1, l, hl⟩ := d1.sound x hx
          exact ⟨h1, h2, c, List.mem_cons_self _ _, c :: l, SelectionPath.cons ((hmem c1).1 hc1) hl⟩
        · obtain ⟨rfl, _, hwv, h2⟩ := hpost_mem x hx
          rw [← hwaits, Bool.and_eq_true] at hwv
          have h1 := hwv.1
          unfold flaggedReplace at h1
          rw [Bool.and_eq_true] at h1
          exact ⟨h1.1, h2, x, List.mem_cons_self _ _, [], SelectionPath.nil x⟩
        · obtain ⟨h1, h2, c0, hc0, l, hl⟩ := d3.sound x hx
          exact ⟨h1, h2, c0, List.mem_cons_of_mem _ hc0, l, hl⟩
      · -- complete
        intro c0 hc0 l x hp hfl hview
        simp only [List.mem_append]
        rcases List.mem_cons.1 hc0 with rfl | hc0
        · cases hp with
          | nil =>
            by_cases hcond : ((s0.tiles c0)._shouldSelect
                && (decide ((s0.tiles c0).refine = Cesium3DTileRefine.ADD)
                  || !canTraverse s0.tileset (s0.tiles c0))) = true
            · left
              rw [← hpre, if_pos hcond, selectedIfInView_of_inView hview]
              exact List.mem_cons_self _ _
            · right; right; left
              have hwv : waits = true := by
                rw [← hwaits]
                unfold flaggedReplace
                rw [hfl] at hcond ⊢
                revert hcond
                cases decide ((s0.tiles c0).refine = Cesium3DTileRefine.ADD) <;>
                  cases canTraverse s0.tileset (s0.tiles c0) <;> simp
              rw [← hpost, if_pos hwv, selectedIfInView_of_inView hview]
              exact List.mem_cons_self _ _
          | @cons _ c1 _ l1 hsc hp1 =>
            right; left
            exact d1.complete c1 ((hmem c1).2 hsc) l1 x hp1 hfl hview
        · right; right; right
          exact d3.complete c0 hc0 l x hp hfl hview

/-- The function `traverseAndSelect` returns on a finite tree of tiles, with enough fuel, and
the loop has then emptied the stack that held the root. -/
theorem traverseAndSelect_done (env : Env) (frameState : FrameState) (size : TileId → Nat)
    (fuel : Nat) (s : State) (root : TileId) (hS : SizeOK size s)
    (hpar : ∀ p c, c ∈ (s.tiles p).children → (s.tiles c).parent = some p)
    (hnd : ∀ p, (s.tiles p).children.Nodup)
    (hst : s.selectionTraversal.stack = [])
    (hanc : s.selectionTraversal.ancestorStack = [])
    (hfuel : 2 * size root + 1 ≤ fuel) :
    ∃ k s1 la1 out, traverseAndSelect env frameState fuel s root = some s1
      ∧ s1.selectionTraversal.ancestorStack = []
      ∧ s1.tileset._selectedTiles = s.tileset._selectedTiles ++ out
      ∧ SelectionDone env frameState size s [root] []
          { s with selectionTraversal := { s.selectionTraversal with
              stack := root :: s.selectionTraversal.stack } } none k s1 la1 out := by
  obtain ⟨k, s1, la1, out, d⟩ := traverseAndSelect_forest env frameState size s hS hpar hnd
    (size root) [root] (by simp [stackSize])
    { s with selectionTraversal := { s.selectionTraversal with
        stack := root :: s.selectionTraversal.stack } } none []
    (Frame.setSelectionTraversal (by decide) _ _) (by simp [hst]) (by simp)
    (by
      intro c1 h1 c2 h2 _ _ _
      rw [List.mem_singleton.1 h1, List.mem_singleton.1 h2])
    (by
      intro a ha
      rw [show ({ s with selectionTraversal := { s.selectionTraversal with
        stack := root :: s.selectionTraversal.stack } } : State).selectionTraversal.ancestorStack
          = [] from hanc] at ha
      cases ha)
  have hk := d.steps
  simp only [stackSize, List.map_cons, List.map_nil, List.sum_cons, List.sum_nil,
    Nat.add_zero] at hk
  have hanc1 : s1.selectionTraversal.ancestorStack = [] := by
    rw [d.ancestorStack]; exact hanc
  refine ⟨k, s1, la1, out, ?_, hanc1, d.selected, d⟩
  unfold traverseAndSelect
  dsimp only
  obtain ⟨m, hm⟩ : ∃ m, fuel = (m + 1) + k := ⟨fuel - k - 1, by omega⟩
  rw [hm, d.loop]
  rw [traverseAndSelectLoop, if_neg]
  rw [d.stack, hanc1]
  simp

theorem flaggedPairState_tree :
    SizeOK chainSize flaggedPairState
      ∧ (∀ p c, c ∈ (flaggedPairState.tiles p).children →
          (flaggedPairState.tiles c).parent = some p)
      ∧ ∀ p, (flaggedPairState.tiles p).children.Nodup := by
  refine ⟨?_, ?_, ?_⟩
  · intro p
    rcases p with _ | _ | p <;>
      simp [flaggedPairState, sampleState, flaggedPairTiles, chainSize, stackSize, sampleTile]
    split
    · rename_i h
      have h1 : (p : Nat) + 1 + 1 < 4 := h
      show (0 : Nat) < 2 - (p : Nat)
      omega
    · exact Nat.one_pos
  · intro p c hc
    rcases p with _ | _ | p <;>
      simp [flaggedPairState, sampleState, flaggedPairTiles, sampleTile] at hc
    subst hc
    rfl
  · intro p
    rcases p with _ | _ | p <;>
      simp [flaggedPairState, sampleState, flaggedPairTiles, sampleTile]

theorem flaggedChainState_tree :
    SizeOK chainSize flaggedChainState
      ∧ (∀ p c, c ∈ (flaggedChainState.tiles p).children →
          (flaggedChainState.tiles c).parent = some p)
      ∧ ∀ p, (flaggedChainState.tiles p).children.Nodup := by
  refine ⟨?_, ?_, ?_⟩
  · intro p
    rcases p with _ | _ | _ | p <;>
      simp [flaggedChainState, sampleState, flaggedChainTiles, chainSize, stackSize, sampleTile]
    split
    · rename_i h
      have h1 : (p : Nat) + 1 + 1 + 1 < 4 := h
      show (0 : Nat) < 1 - (p : Nat)
      omega
    · exact Nat.one_pos
  · intro p c hc
    rcases p with _ | _ | _ | p <;>
      simp [flaggedChainState, sampleState, flaggedChainTiles, sampleTile] at hc <;>
      subst hc <;> rfl
  · intro p
    rcases p with _ | _ | _ | p <;>
      simp [flaggedChainState, sampleState, flaggedChainTiles, sampleTile]

theorem foldl_setHolder_priorityDistance (children : List TileId) (holder : TileId) (s : State)
    (x : TileId) :
    ((children.foldl
        (fun (s : State) child =>
          s.setTile child fun t => { t with _priorityDistanceHolder := holder }) s).tiles
      x)._priorityDistance = (s.tiles x)._priorityDistance := by
  induction children generalizing s with
  | nil => rfl
  | cons c l ih =>
    rw [List.foldl_cons, ih]
    by_cases h : x = c
    · subst h; simp
    · simp [h]

theorem foldl_setHolder_holder (children : List TileId) (holder : TileId) (s : State)
    (x : TileId) (hx : x ∈ children) :
    ((children.foldl
        (fun (s : State) child =>
          s.setTile child fun t => { t with _priorityDistanceHolder := holder }) s).tiles
      x)._priorityDistanceHolder = holder := by
  induction children generalizing s with
  | nil => cases hx
  | cons c l ih =>
    rw [List.foldl_cons]
    by_cases hl : x ∈ l
    · exact ih _ hl
    · have hxc : x = c := by
        rcases List.mem_cons.1 hx with h | h
        · exact h
        · exact absurd h hl
      subst hxc
      have key : ∀ (l : List TileId) (σ : State), x ∉ l →
          ((l.foldl (fun (s : State) child =>
            s.setTile child fun t => { t with _priorityDistanceHolder := holder }) σ).tiles x)
            = σ.tiles x := by
        intro l
        induction l with
        | nil => intro σ _; rfl
        | cons d l ih2 =>
          intro σ hd
          rw [List.foldl_cons, ih2 _ (fun h => hd (List.mem_cons_of_mem _ h))]
          simp [show x ≠ d from fun h => hd (h ▸ List.mem_cons_self _ _)]
      rw [key l _ hl]
      simp

theorem selectDescendantsVisit_eq_foldlM (env : Env) (frameState : FrameState) (root : TileId)
    (fuel : Nat) (s : State) (tile : TileId) :
    selectDescendantsVisit env frameState root fuel s tile
      = (s.tiles tile).children.foldlM (selectDescendantsChild env frameState root fuel) s :=
  rfl

theorem staleGrandchildState_sizeOK : SizeOK chainSize staleGrandchildState := by
  intro p
  rcases p with _ | _ | _ | p <;>
    simp [staleGrandchildState, sampleState, staleGrandchildTiles, chainSize, stackSize,
      sampleTile]
  split
  · rename_i h
    have h1 : (p : Nat) + 1 + 1 + 1 < 4 := h
    show (0 : Nat) < 1 - (p : Nat)
    omega
  · exact Nat.one_pos

theorem cache_refl (n : Int) (s : State) :
    ∃ l, s.tileset._cache = s.tileset._cache ++ l
      ∧ ∀ x, (s.tiles x)._touchedFrame = n → (s.tiles x)._touchedFrame = n ∨ x ∈ l :=
  ⟨[], by simp, fun _ h => Or.inl h⟩

theorem cache_trans {n : Int} {a b c : State}
    (h1 : ∃ l, b.tileset._cache = a.tileset._cache ++ l
      ∧ ∀ x, (b.tiles x)._touchedFrame = n → (a.tiles x)._touchedFrame = n ∨ x ∈ l)
    (h2 : ∃ l, c.tileset._cache = b.tileset._cache ++ l
      ∧ ∀ x, (c.tiles x)._touchedFrame = n → (b.tiles x)._touchedFrame = n ∨ x ∈ l) :
    ∃ l, c.tileset._cache = a.tileset._cache ++ l
      ∧ ∀ x, (c.tiles x)._touchedFrame = n → (a.tiles x)._touchedFrame = n ∨ x ∈ l := by
  obtain ⟨l1, e1, p1⟩ := h1
  obtain ⟨l2, e2, p2⟩ := h2
  refine ⟨l1 ++ l2, by rw [e2, e1, List.append_assoc], fun x hx => ?_⟩
  rcases p2 x hx with h | h
  · rcases p1 x h with h | h
    · exact Or.inl h
    · exact Or.inr (List.mem_append_left _ h)
  · exact Or.inr (List.mem_append_right _ h)

/-- An operation that writes neither `_touchedFrame` nor `_cache` touches nothing. -/
theorem cache_of_eq {n : Int} {s s' : State}
    (h1 : s'.tileset._cache = s.tileset._cache)
    (h2 : ∀ x, (s'.tiles x)._touchedFrame = (s.tiles x)._touchedFrame) :
    ∃ l, s'.tileset._cache = s.tileset._cache ++ l
      ∧ ∀ x, (s'.tiles x)._touchedFrame = n → (s.tiles x)._touchedFrame = n ∨ x ∈ l :=
  ⟨[], by simp [h1], fun x h => Or.inl ((h2 x).symm.trans h)⟩

theorem Mono.mono_refl (n : Int) (s : State) : Mono n s s :=
  ⟨rfl, fun _ h => ⟨h, rfl, rfl, fun h => h⟩, fun _ h => h, cache_refl n s, fun _ h => h⟩

theorem Mono.mono_trans {n : Int} {a b c : State} (h1 : Mono n a b) (h2 : Mono n b c) :
    Mono n a c := by
  refine ⟨h2.tilesetStamp.trans h1.tilesetStamp, fun x hx => ?_,
    fun x hx => h2.touched x (h1.touched x hx), cache_trans h1.cache h2.cache,
    fun x hx => h1.flag x (h2.flag x hx)⟩
  obtain ⟨a1, a2, a3, a4⟩ := h1.stamp x hx
  obtain ⟨b1, b2, b3, b4⟩ := h2.stamp x (a1.trans h1.tilesetStamp.symm)
  exact ⟨b1.trans h1.tilesetStamp, b2.trans a2, b3.trans a3, fun h => a4 (b4 h)⟩

theorem Mono.mono_of_frame {M : Mask} {n : Int} {s s' : State} (h : Frame M s s')
    (h1 : M ._visible = false) (h2 : M ._inRequestVolume = false)
    (h3 : M ._screenSpaceError = false) (h4 : M ._updatedVisibilityFrame = false)
    (h5 : M ._touchedFrame = false) (h6 : M ._shouldSelect = false)
    (h7 : M ._cache = false) : Mono n s s' := by
  refine ⟨h.tilesetStatic._updatedVisibilityFrame, fun x hx => ⟨?_, ?_, ?_, fun hv => ?_⟩,
    fun x hx => ?_, cache_of_eq (h.global ._cache h7) (h.tile ._touchedFrame h5),
    fun x hx => ?_⟩
  · exact (h.tile ._updatedVisibilityFrame h4 x).trans hx
  · exact h.tile ._screenSpaceError h3 x
  · exact h.tile ._inRequestVolume h2 x
  · exact (h.tile ._visible h1 x).symm.trans hv
  · exact (h.tile ._touchedFrame h5 x).trans hx
  · exact (h.tile ._shouldSelect h6 x).symm.trans hx

theorem Mono.mono_setTile (n : Int) (s : State) (i : TileId) (f : Tile → Tile)
    (hv : Stamped s i →
      (f (s.tiles i))._updatedVisibilityFrame = s.tileset._updatedVisibilityFrame
      ∧ (f (s.tiles i))._screenSpaceError = (s.tiles i)._screenSpaceError
      ∧ (f (s.tiles i))._inRequestVolume = (s.tiles i)._inRequestVolume
      ∧ ((f (s.tiles i))._visible = true → (s.tiles i)._visible = true))
    (ht : (f (s.tiles i))._touchedFrame = (s.tiles i)._touchedFrame)
    (hf : (f (s.tiles i))._shouldSelect = true → (s.tiles i)._shouldSelect = true) :
    Mono n s (s.setTile i f) := by
  have hte : ∀ x, ((s.setTile i f).tiles x)._touchedFrame = (s.tiles x)._touchedFrame := by
    intro x
    rw [State.setTile_tiles]
    split
    · rename_i h; subst h; exact ht
    · rfl
  refine ⟨rfl, fun x hx => ?_, fun x hx => ?_, cache_of_eq rfl hte, fun x hx => ?_⟩
  · rw [State.setTile_tiles]
    split
    · rename_i h; subst h; exact hv hx
    · exact ⟨hx, rfl, rfl, fun h => h⟩
  · rw [hte]; exact hx
  · rw [State.setTile_tiles] at hx
    split at hx
    · rename_i h; subst h; exact hf hx
    · exact hx

theorem updateVisibility_mono (n : Int) (env : Env) (s : State) (tile : TileId)
    (frameState : FrameState) : Mono n s (updateVisibility env s tile frameState) := by
  unfold updateVisibility
  split
  · exact Mono.mono_refl _ _
  · rename_i hns
    simp only []
    refine Mono.mono_trans (Mono.mono_setTile n s tile _ (fun h => absurd h hns) rfl
      (fun h => h)) (Mono.mono_setTile n _ tile _ (fun h => absurd ?_ hns) rfl (fun h => h))
    simpa [Stamped] using h

theorem updateVisibility_stamped (env : Env) (s : State) (tile : TileId)
    (frameState : FrameState) : Stamped (updateVisibility env s tile frameState) tile := by
  unfold updateVisibility Stamped
  split
  · assumption
  · simp

theorem anyChildrenVisible_mono (n : Int) (env : Env) (s : State) (tile : TileId)
    (frameState : FrameState) : Mono n s (anyChildrenVisible env s tile frameState).1 := by
  unfold anyChildrenVisible
  exact foldl_preorder (fun (a b : State × Bool) => Mono n a.1 b.1) (fun _ => Mono.mono_refl _ _)
    (fun _ _ _ => Mono.mono_trans) _
    (fun b a => updateVisibility_mono n env b.1 a frameState) _ (s, false)

theorem Mono.stamped {n : Int} {s s' : State} (h : Mono n s s') {x : TileId}
    (hx : Stamped s x) : Stamped s' x :=
  ((h.stamp x hx).1).trans h.tilesetStamp.symm

theorem Mono.visible_of {n : Int} {s s' : State} (h : Mono n s s') {x : TileId}
    (hx : Stamped s x) (hv : isVisible (s'.tiles x) = true) : isVisible (s.tiles x) = true := by
  obtain ⟨_, _, a3, a4⟩ := h.stamp x hx
  unfold isVisible at hv ⊢
  rw [Bool.and_eq_true] at hv ⊢
  exact ⟨a4 hv.1, a3 ▸ hv.2⟩

theorem updateTileVisibility_mono (n : Int) (env : Env) (frameState : FrameState) (fuel : Nat)
    (s : State) (tile : TileId) (s' : State)
    (h : updateTileVisibility env frameState fuel s tile = some s') :
    Mono n s s' ∧ Stamped s' tile := by
  induction fuel generalizing s tile s' with
  | zero => simp [updateTileVisibility] at h
  | succ k ih =>
    have hv := updateVisibility_mono n env s tile frameState
    have hst := updateVisibility_stamped env s tile frameState
    -- a write of `_visible` on the tile, after the visibility test: fine when the tile was
    -- visible after `updateVisibility`
    have hwrite : ∀ (s2 : State) (b : Bool), Mono n (updateVisibility env s tile frameState) s2 →
        isVisible ((updateVisibility env s tile frameState).tiles tile) = true →
        Mono n s (s2.setTile tile fun t => { t with _visible := b })
          ∧ Stamped (s2.setTile tile fun t => { t with _visible := b }) tile := by
      intro s2 b h2 hvis
      have h3 : Mono n (updateVisibility env s tile frameState)
          (s2.setTile tile fun t => { t with _visible := b }) := by
        have hte : ∀ x, ((s2.setTile tile fun t => { t with _visible := b }).tiles
            x)._touchedFrame = (s2.tiles x)._touchedFrame := by
          intro x
          rw [State.setTile_tiles]
          split
          · rename_i h; subst h; rfl
          · rfl
        refine ⟨h2.tilesetStamp, fun x hx => ?_, fun x hx => ?_,
          cache_trans h2.cache (cache_of_eq rfl hte), fun x hx => ?_⟩
        · obtain ⟨a1, a2, a3, a4⟩ := h2.stamp x hx
          rw [State.setTile_tiles]
          split
          · rename_i h; subst h
            refine ⟨a1, a2, a3, fun _ => ?_⟩
            unfold isVisible at hvis
            rw [Bool.and_eq_true] at hvis
            exact hvis.1
          · exact ⟨a1, a2, a3, a4⟩
        · rw [hte]; exact h2.touched x hx
        · rw [State.setTile_tiles] at hx
          split at hx
          · rename_i h; subst h; exact h2.flag x hx
          · exact h2.flag x hx
      refine ⟨hv.mono_trans h3, ?_⟩
      have := h2.stamped hst
      unfold Stamped at this ⊢
      simpa using this
    unfold updateTileVisibility at h
    simp only [] at h
    split at h
    · cases h; exact ⟨hv, hst⟩
    · rename_i hvis
      have hvis' : isVisible ((updateVisibility env s tile frameState).tiles tile) = true := by
        simpa using hvis
      split at h
      · rw [Option.map_eq_some'] at h
        obtain ⟨s1, h1, rfl⟩ := h
        exact hwrite s1 _ (ih _ _ _ h1).1 hvis'
      · split at h
        · cases h
          exact hwrite _ false (Mono.mono_refl _ _) hvis'
        · split at h
          · split at h
            · cases h
              have ha := anyChildrenVisible_mono n env (updateVisibility env s tile frameState)
                tile frameState
              have hs : Mono n (anyChildrenVisible env (updateVisibility env s tile frameState)
                  tile frameState).1
                  ((anyChildrenVisible env (updateVisibility env s tile frameState)
                    tile frameState).1.setTileset fun ts =>
                    { ts with _statistics := { ts._statistics with
                        numberOfTilesCulledWithChildrenUnion :=
                          ts._statistics.numberOfTilesCulledWithChildrenUnion + 1 } }) :=
                ⟨rfl, fun x hx => ⟨hx, rfl, rfl, fun h => h⟩, fun _ h => h,
                  cache_of_eq rfl (fun _ => rfl), fun _ h => h⟩
              exact hwrite _ false (ha.mono_trans hs) hvis'
            · cases h
              have ha := anyChildrenVisible_mono n env (updateVisibility env s tile frameState)
                tile frameState
              exact ⟨hv.mono_trans ha, ha.stamped hst⟩
          · cases h
            exact ⟨hv, hst⟩

theorem updateMinMaxPriority_tiles (s : State) (tile : TileId) :
    (updateMinMaxPriority s tile).tiles = s.tiles := by
  simp [updateMinMaxPriority]

theorem updateMinMaxPriority_stamp (s : State) (tile : TileId) :
    (updateMinMaxPriority s tile).tileset._updatedVisibilityFrame
      = s.tileset._updatedVisibilityFrame := by
  simp [updateMinMaxPriority]

theorem updateTile_mono (n : Int) (env : Env) (frameState : FrameState) (fuel : Nat)
    (s : State) (tile : TileId) (s' : State)
    (h : updateTile env frameState fuel s tile = some s') :
    Mono n s s' ∧ Stamped s' tile ∧ (s'.tiles tile)._shouldSelect = false := by
  unfold updateTile at h
  rw [Option.map_eq_some'] at h
  obtain ⟨s1, h1, rfl⟩ := h
  obtain ⟨m1, st1⟩ := updateTileVisibility_mono n env frameState fuel s tile s1 h1
  have hp : ∀ s t, Mono n s (updateMinMaxPriority s t) := fun s t =>
    Mono.mono_of_frame (updateMinMaxPriority_frame (M := Mask.of [._maxPriority, ._minPriority])
      (Mask.contains_of _) s t) rfl rfl rfl rfl rfl rfl rfl
  refine ⟨m1.mono_trans ?_, ?_, ?_⟩
  · simp only []
    repeat' first
      | with_reducible exact Mono.mono_refl _ _
      | with_reducible exact hp _ _
      | with_reducible refine Mono.mono_trans ?_ (Mono.mono_setTile _ _ _ _ ?_ ?_ ?_)
      | with_reducible refine Mono.mono_trans ?_ (hp _ _)
      | exact fun h => ⟨h, rfl, rfl, fun h => h⟩
      | rfl
      | exact fun h => h
      | (intro h; cases h)
  · unfold Stamped at st1 ⊢
    simpa [updateMinMaxPriority_tiles, updateMinMaxPriority_stamp] using st1
  · simp [updateMinMaxPriority_tiles]

theorem touchTile_mono (n : Int) (s : State) (tile : TileId) (frameState : FrameState)
    (hn : frameState.frameNumber = n) :
    Mono n s (touchTile s tile frameState) ∧ ((touchTile s tile frameState).tiles tile)._touchedFrame = n := by
  unfold touchTile
  split
  · rename_i h
    exact ⟨Mono.mono_refl _ _, h.trans hn⟩
  · simp only []
    refine ⟨?_, by simp [hn]⟩
    refine ⟨rfl, fun x hx => ?_, fun x hx => ?_, ⟨[tile], rfl, fun x hx => ?_⟩, fun x hx => ?_⟩
    · rw [State.setTile_tiles]
      split
      · rename_i h; subst h; exact ⟨hx, rfl, rfl, fun h => h⟩
      · exact ⟨hx, rfl, rfl, fun h => h⟩
    · rw [State.setTile_tiles]
      split
      · exact hn
      · exact hx
    · rw [State.setTile_tiles] at hx
      split at hx
      · rename_i h; exact Or.inr (by rw [h]; exact List.mem_singleton_self _)
      · exact Or.inl hx
    · rw [State.setTile_tiles] at hx
      split at hx
      · rename_i h; subst h; exact hx
      · exact hx

theorem loadTile_mono (n : Int) (env : Env) (s : State) (tile : TileId)
    (frameState : FrameState) : Mono n s (loadTile env s tile frameState) :=
  Mono.mono_of_frame (loadTile_frame (M := Mask.of loadTileFields) (Mask.contains_of _) env s tile
    frameState) rfl rfl rfl rfl rfl rfl rfl

theorem selectTile_mono (n : Int) (env : Env) (s : State) (tile : TileId)
    (frameState : FrameState) : Mono n s (selectTile env s tile frameState) :=
  Mono.mono_of_frame (selectTile_frame (M := Mask.of selectTileFields) (Mask.contains_of _) env s tile
    frameState) rfl rfl rfl rfl rfl rfl rfl

theorem Mono.of_same_tiles {n : Int} {s s' : State} (h1 : s'.tiles = s.tiles)
    (h2 : s'.tileset = s.tileset) : Mono n s s' := by
  refine ⟨by rw [h2], fun x hx => ?_, fun x hx => ?_,
    cache_of_eq (by rw [h2]) (fun x => by rw [h1]), fun x hx => ?_⟩
  · rw [h1]; exact ⟨hx, rfl, rfl, fun h => h⟩
  · rw [h1]; exact hx
  · rw [h1] at hx; exact hx

theorem foldl_push_emptyTraversal_tiles (children : List TileId) (s : State) :
    (children.foldl
      (fun (s : State) child =>
        { s with emptyTraversal := { s.emptyTraversal with
            stack := child :: s.emptyTraversal.stack } }) s).tiles = s.tiles
    ∧ (children.foldl
      (fun (s : State) child =>
        { s with emptyTraversal := { s.emptyTraversal with
            stack := child :: s.emptyTraversal.stack } }) s).tileset = s.tileset := by
  induction children generalizing s with
  | nil => exact ⟨rfl, rfl⟩
  | cons c l ih => simp only [List.foldl_cons]; exact ih _

theorem executeEmptyTraversalVisit_mono (n : Int) (env : Env) (frameState : FrameState)
    (hn : frameState.frameNumber = n) (fuel : Nat)
    (s : State) (tile : TileId) (b : Bool) (r : State × Bool)
    (h : executeEmptyTraversalVisit env frameState fuel s tile b = some r) : Mono n s r.1 := by
  unfold executeEmptyTraversalVisit at h
  simp only [] at h
  rw [Option.map_eq_some'] at h
  obtain ⟨s1, h1, rfl⟩ := h
  obtain ⟨m1, _, _⟩ := updateTile_mono n env frameState fuel s tile s1 h1
  have m2 : Mono n s1 (if (!isVisible (s1.tiles tile)) = true then
      touchTile (loadTile env s1 tile frameState) tile frameState else s1) := by
    split
    · exact (loadTile_mono n env s1 tile frameState).mono_trans
        (touchTile_mono n _ tile frameState hn).1
    · exact Mono.mono_refl _ _
  have key : ∀ (X : State) (c : Bool) (l : List TileId), Mono n s1 X →
      Mono n s1 (if c = true then
        l.foldl (fun (s : State) child =>
          { s with emptyTraversal := { s.emptyTraversal with
              stack := child :: s.emptyTraversal.stack } }) X
        else X) := by
    intro X c l hX
    split
    · exact hX.mono_trans (Mono.of_same_tiles (foldl_push_emptyTraversal_tiles _ _).1
        (foldl_push_emptyTraversal_tiles _ _).2)
    · exact hX
  exact m1.mono_trans (key _ _ _ m2)

theorem executeEmptyTraversalLoop_mono (n : Int) (env : Env) (frameState : FrameState)
    (hn : frameState.frameNumber = n) (fuel : Nat) (s : State) (b : Bool) (r : State × Bool)
    (h : executeEmptyTraversalLoop env frameState fuel s b = some r) : Mono n s r.1 := by
  induction fuel generalizing s b with
  | zero => simp [executeEmptyTraversalLoop] at h
  | succ k ih =>
    unfold executeEmptyTraversalLoop at h
    split at h
    · cases h; exact Mono.mono_refl _ _
    · simp only [] at h
      split at h
      · cases h
      · rename_i r1 hv
        refine Mono.mono_trans ?_ (ih _ _ h)
        refine Mono.mono_trans ?_ (executeEmptyTraversalVisit_mono n env frameState hn k _ _ _ r1 hv)
        exact Mono.of_same_tiles rfl rfl

theorem executeEmptyTraversal_mono (n : Int) (env : Env) (frameState : FrameState)
    (hn : frameState.frameNumber = n) (fuel : Nat) (s : State) (root : TileId)
    (r : State × Bool)
    (h : executeEmptyTraversal env frameState fuel s root = some r) : Mono n s r.1 := by
  unfold executeEmptyTraversal at h
  refine Mono.mono_trans ?_ (executeEmptyTraversalLoop_mono n env frameState hn fuel _ _ r h)
  exact Mono.of_same_tiles rfl rfl

theorem updateChildren_mono (n : Int) (env : Env) (frameState : FrameState) (fuel : Nat)
    (children : List TileId) (s s' : State)
    (h : updateChildren env frameState fuel s children = some s') :
    Mono n s s' ∧ ∀ c ∈ children, Stamped s' c ∧ (s'.tiles c)._shouldSelect = false := by
  induction children generalizing s with
  | nil =>
    simp [updateChildren] at h
    subst h
    exact ⟨Mono.mono_refl _ _, fun _ hc => by cases hc⟩
  | cons c l ih =>
    unfold updateChildren at h
    rw [List.foldlM_cons] at h
    cases h1 : updateTile env frameState fuel s c with
    | none => simp [h1] at h
    | some s1 =>
      simp [h1] at h
      obtain ⟨m1, st1, f1⟩ := updateTile_mono n env frameState fuel s c s1 h1
      obtain ⟨m2, h2⟩ := ih s1 h
      refine ⟨m1.mono_trans m2, fun x hx => ?_⟩
      rcases List.mem_cons.mp hx with hx | hx
      · subst hx
        refine ⟨m2.stamped st1, ?_⟩
        cases hf : (s'.tiles x)._shouldSelect with
        | false => rfl
        | true => rw [m2.flag x hf] at f1; cases f1
      · exact h2 x hx

theorem updateAndSortChildren_mono (n : Int) (env : Env) (frameState : FrameState)
    (fuel : Nat) (s : State) (tile : TileId) (s' : State)
    (h : updateAndSortChildren env frameState fuel s tile = some s') :
    Mono n s s' ∧ ∀ c ∈ (s.tiles tile).children,
      Stamped s' c ∧ (s'.tiles c)._shouldSelect = false := by
  unfold updateAndSortChildren at h
  rw [Option.map_eq_some'] at h
  obtain ⟨s1, h1, rfl⟩ := h
  obtain ⟨m1, h2⟩ := updateChildren_mono n env frameState fuel _ s s1 h1
  have m2 : Mono n s1 (s1.setTile tile fun t => { t with children := sortChildren s1 t.children }) :=
    Mono.mono_setTile _ _ _ _ (fun h => ⟨h, rfl, rfl, fun h => h⟩) rfl (fun h => h)
  refine ⟨m1.mono_trans m2, fun c hc => ?_⟩
  obtain ⟨a, b⟩ := h2 c hc
  refine ⟨m2.stamped a, ?_⟩
  cases hf : ((s1.setTile tile fun t =>
      { t with children := sortChildren s1 t.children }).tiles c)._shouldSelect with
  | false => rfl
  | true => rw [m2.flag c hf] at b; cases b

theorem pushOrLoadChild_mono (n : Int) (env : Env) (frameState : FrameState)
    (hn : frameState.frameNumber = n) (checkRefines : Bool)
    (acc : PushChildren) (ic : Nat × TileId) :
    Mono n acc.s (pushOrLoadChild env frameState checkRefines acc ic).s := by
  unfold pushOrLoadChild
  simp only []
  split
  · split <;> exact Mono.of_same_tiles rfl rfl
  · split
    · split <;> exact (loadTile_mono n env _ _ frameState).mono_trans
        (touchTile_mono n _ _ frameState hn).1
    · exact Mono.mono_refl _ _

theorem pushOrLoadChild_stackMaximumLength (env : Env) (frameState : FrameState)
    (checkRefines : Bool) (acc : PushChildren) (ic : Nat × TileId) :
    (pushOrLoadChild env frameState checkRefines acc ic).s.traversal.stackMaximumLength
      = acc.s.traversal.stackMaximumLength := by
  have hl := fun s t => loadTile_frame (M := Mask.of loadTileFields) (Mask.contains_of _)
    env s t frameState
  have ht := fun s t => touchTile_frame (M := Mask.of touchTileFields) (Mask.contains_of _)
    s t frameState
  unfold pushOrLoadChild
  simp only []
  split
  · split <;> rfl
  · split
    · have e : (touchTile (loadTile env acc.s ic.2 frameState) ic.2 frameState).traversal
          = acc.s.traversal :=
        ((ht _ _).global .traversal (by decide)).trans ((hl _ _).global .traversal (by decide))
      split <;> exact congrArg Traversal.stackMaximumLength e
    · rfl

theorem childRefines_mono (n : Int) (env : Env) (frameState : FrameState)
    (hn : frameState.frameNumber = n) (fuel : Nat) (s : State)
    (child : TileId) (r : State × Bool)
    (h : childRefines env frameState fuel s child = some r) : Mono n s r.1 := by
  unfold childRefines at h
  split at h
  · cases h; exact Mono.mono_refl _ _
  · split at h
    · exact executeEmptyTraversal_mono n env frameState hn fuel s child r h
    · cases h; exact Mono.mono_refl _ _

/-- One iteration of the second loop of `updateAndPushChildren`: what it does to the state and
to the traversal stack. -/
theorem updateAndPushChildrenStep_mono (n : Int) (env : Env) (frameState : FrameState)
    (hn : frameState.frameNumber = n) (fuel : Nat) (checkRefines : Bool) (acc : PushChildren)
    (ic : Nat × TileId) (acc' : PushChildren)
    (h : updateAndPushChildrenStep env frameState fuel checkRefines acc ic = some acc') :
    Mono n acc.s acc'.s
      ∧ acc'.s.traversal.stackMaximumLength = acc.s.traversal.stackMaximumLength
      ∧ acc'.s.traversal.stack
        = if isVisible (acc.s.tiles ic.2) = true then ic.2 :: acc.s.traversal.stack
          else acc.s.traversal.stack := by
  refine ⟨?_, ?_, updateAndPushChildrenStep_stack env frameState fuel checkRefines acc ic acc' h⟩
  · unfold updateAndPushChildrenStep at h
    simp only [] at h
    split at h
    · rw [Option.map_eq_some'] at h
      obtain ⟨r, hr, rfl⟩ := h
      exact (pushOrLoadChild_mono n env frameState hn _ acc ic).mono_trans
        (childRefines_mono n env frameState hn fuel _ _ r hr)
    · cases h
      exact pushOrLoadChild_mono n env frameState hn _ acc ic
  · rw [← pushOrLoadChild_stackMaximumLength env frameState checkRefines acc ic]
    unfold updateAndPushChildrenStep at h
    simp only [] at h
    split at h
    · rw [Option.map_eq_some'] at h
      obtain ⟨r, hr, rfl⟩ := h
      exact congrArg Traversal.stackMaximumLength
        (childRefines_traversal env frameState fuel _ _ r hr)
    · cases h; rfl

/-- The second loop of `updateAndPushChildren`, started in a state in which every child of the
list was updated in this frame: the children that are visible at the end are on the stack. -/
theorem pushLoop_mono (n : Int) (env : Env) (frameState : FrameState)
    (hn : frameState.frameNumber = n) (fuel : Nat) (checkRefines : Bool)
    (l : List (Nat × TileId)) (acc acc' : PushChildren)
    (hst : ∀ ic ∈ l, Stamped acc.s ic.2)
    (h : l.foldlM (updateAndPushChildrenStep env frameState fuel checkRefines) acc = some acc') :
    Mono n acc.s acc'.s
      ∧ acc'.s.traversal.stackMaximumLength = acc.s.traversal.stackMaximumLength
      ∧ ∃ pushed, acc'.s.traversal.stack = pushed ++ acc.s.traversal.stack
        ∧ (∀ c ∈ pushed, c ∈ l.map Prod.snd)
        ∧ ∀ ic ∈ l, isVisible (acc'.s.tiles ic.2) = true → ic.2 ∈ pushed := by
  induction l generalizing acc with
  | nil =>
    simp at h
    subst h
    refine ⟨Mono.mono_refl _ _, rfl, [], rfl, ?_, ?_⟩
    · intro c hc; cases hc
    · intro ic hic; cases hic
  | cons a l ih =>
    rw [List.foldlM_cons] at h
    cases h1 : updateAndPushChildrenStep env frameState fuel checkRefines acc a with
    | none => simp [h1] at h
    | some acc1 =>
      simp [h1] at h
      obtain ⟨m1, e1, k1⟩ := updateAndPushChildrenStep_mono n env frameState hn fuel _ acc a acc1 h1
      obtain ⟨m2, e2, pushed, k2, k3, k4⟩ := ih acc1
        (fun ic hic => m1.stamped (hst ic (List.mem_cons_of_mem _ hic))) h
      refine ⟨m1.mono_trans m2, e2.trans e1, ?_⟩
      by_cases hv : isVisible (acc.s.tiles a.2) = true
      · rw [if_pos hv] at k1
        refine ⟨pushed ++ [a.2], by rw [k2, k1]; simp, ?_, ?_⟩
        · intro c hc
          rcases List.mem_append.mp hc with hc | hc
          · exact List.mem_cons_of_mem _ (k3 c hc)
          · rw [List.mem_singleton] at hc
            subst hc
            exact List.mem_cons_self _ _
        · intro ic hic hvis
          rcases List.mem_cons.mp hic with hic | hic
          · subst hic
            exact List.mem_append_right _ (List.mem_singleton_self _)
          · exact List.mem_append_left _ (k4 ic hic hvis)
      · rw [if_neg hv] at k1
        refine ⟨pushed, by rw [k2, k1], fun c hc => List.mem_cons_of_mem _ (k3 c hc), ?_⟩
        intro ic hic hvis
        rcases List.mem_cons.mp hic with hic | hic
        · subst hic
          exact absurd ((m1.mono_trans m2).visible_of (hst ic (List.mem_cons_self _ _)) hvis) hv
        · exact k4 ic hic hvis

theorem updateAndPushChildrenFinish_mono (n : Int) (tile : TileId) (children : List TileId)
    (acc : PushChildren) : Mono n acc.s (updateAndPushChildrenFinish tile children acc).1 :=
  Mono.mono_of_frame (updateAndPushChildrenFinish_frame
    (M := Mask.of [._wasMinPriorityChild, ._priorityDistance, ._priorityDistanceHolder])
    (Mask.contains_of _) tile children acc) rfl rfl rfl rfl rfl rfl rfl

/-- What `updateAndPushChildren` does to the stack and to the children of the tile: every child
was updated in this frame and is not flagged, the children pushed are children of the tile, and
every child that is visible at the end was pushed. -/
theorem updateAndPushChildren_mono (n : Int) (env : Env) (frameState : FrameState)
    (hn : frameState.frameNumber = n) (fuel : Nat) (s : State) (tile : TileId)
    (r : State × Bool) (h : updateAndPushChildren env frameState fuel s tile = some r) :
    Mono n s r.1
      ∧ r.1.traversal.stackMaximumLength = s.traversal.stackMaximumLength
      ∧ ∃ pushed, r.1.traversal.stack = pushed ++ s.traversal.stack
        ∧ (∀ c ∈ pushed, c ∈ (s.tiles tile).children)
        ∧ ∀ c ∈ (s.tiles tile).children, Stamped r.1 c ∧ (r.1.tiles c)._shouldSelect = false
          ∧ (isVisible (r.1.tiles c) = true → c ∈ pushed) := by
  unfold updateAndPushChildren at h
  rw [Option.bind_eq_some] at h
  obtain ⟨s1, h1, h2⟩ := h
  simp only [] at h2
  rw [Option.map_eq_some'] at h2
  obtain ⟨acc, h3, rfl⟩ := h2
  obtain ⟨m1, c1⟩ := updateAndSortChildren_mono n env frameState fuel s tile s1 h1
  have f1 := updateAndSortChildren_frame (M := Mask.all) (Mask.all_contains _) env
    (fun h => absurd h (by decide)) frameState fuel s tile s1 h1
  have hperm : (s1.tiles tile).children.Perm (s.tiles tile).children :=
    (f1.tileStatic tile).children
  have hrec := updateAndSortChildren_records env frameState fuel s tile s1 h1
  obtain ⟨m2, e2, pushed, k2, k3, k4⟩ := pushLoop_mono n env frameState hn fuel _ _
    (PushChildren.init s1) acc
    (fun ic hic => (c1 ic.2 (hperm.subset (by
      have := List.mem_map_of_mem Prod.snd hic
      rwa [List.enum_map_snd] at this))).1) h3
  have m3 := updateAndPushChildrenFinish_mono n tile (s1.tiles tile).children acc
  have ff := updateAndPushChildrenFinish_frame
    (M := Mask.of [._wasMinPriorityChild, ._priorityDistance, ._priorityDistanceHolder])
    (Mask.contains_of _) tile (s1.tiles tile).children acc
  refine ⟨(m1.mono_trans m2).mono_trans m3, ?_, pushed, ?_, ?_, ?_⟩
  · rw [updateAndPushChildrenFinish_traversal, e2]
    exact congrArg Traversal.stackMaximumLength hrec.1
  · rw [updateAndPushChildrenFinish_traversal, k2]
    exact congrArg (fun x => pushed ++ Traversal.stack x) hrec.1
  · intro c hc
    have := k3 c hc
    rw [List.enum_map_snd] at this
    exact hperm.subset this
  · intro c hc
    obtain ⟨a, b⟩ := c1 c hc
    have m23 := m2.mono_trans m3
    refine ⟨m23.stamped a, ?_, ?_⟩
    · cases hf : ((updateAndPushChildrenFinish tile (s1.tiles tile).children acc).1.tiles
          c)._shouldSelect with
      | false => rfl
      | true =>
        have := m23.flag c hf
        change (s1.tiles c)._shouldSelect = true at this
        rw [this] at b; cases b
    · intro hv
      have hc1 : c ∈ (s1.tiles tile).children := hperm.symm.subset hc
      obtain ⟨i, hi⟩ : ∃ i, (i, c) ∈ (s1.tiles tile).children.enum := by
        obtain ⟨i, hi, rfl⟩ := List.getElem_of_mem hc1
        exact ⟨i, List.mk_mem_enum_iff_getElem?.mpr (List.getElem?_eq_getElem hi)⟩
      refine k4 (i, c) hi ?_
      rw [← isVisible_frame ff rfl rfl c]
      exact hv

theorem Selects.selects_refl (env : Env) (frameState : FrameState) (s : State) :
    Selects env frameState s s :=
  ⟨fun _ _ => rfl, fun _ h => h, [], by simp, fun _ h => by cases h⟩

theorem Selects.selects_trans {env : Env} {frameState : FrameState} {a b c : State}
    (h1 : Selects env frameState a b) (h2 : Selects env frameState b c) :
    Selects env frameState a c := by
  obtain ⟨o1, e1, p1⟩ := h1.selected
  obtain ⟨o2, e2, p2⟩ := h2.selected
  refine ⟨fun hs x => (h2.content hs x).trans (h1.content hs x),
    fun x hx => h2.touched x (h1.touched x hx), o1 ++ o2, by rw [e2, e1, List.append_assoc], ?_⟩
  intro y hy
  rcases List.mem_append.mp hy with hy | hy
  · obtain ⟨a1, a2, a3⟩ := p1 y hy
    exact ⟨h2.touched y a1, a2, a3⟩
  · obtain ⟨a1, a2, a3⟩ := p2 y hy
    refine ⟨a1, a2, fun hs => ?_⟩
    rw [← contentAvailable_congr (h1.content hs y)]
    exact a3 hs

/-- An operation that keeps the touched tiles touched and does not write `_selectedTiles`
(nor, when no content expires, the content state) selects nothing. -/
theorem Selects.selects_of_frame {M : Mask} {env : Env} {frameState : FrameState} {s s' : State}
    (h : Frame M s s') (hm : Mono frameState.frameNumber s s')
    (h1 : M ._selectedTiles = false)
    (h2 : env.ContentStable → ∀ x, (s'.tiles x).contentState = (s.tiles x).contentState) :
    Selects env frameState s s' :=
  ⟨h2, hm.touched, [],
    by rw [List.append_nil]; exact h.global ._selectedTiles h1, fun _ h => by cases h⟩

theorem descendantMask_contains :
    (Mask.of (.content :: descendantFields)).contains descendantFields :=
  (Mask.contains_of _).of_subset (by decide)

theorem selectDescendantsChild_frame {M : Mask} (hM : M.contains descendantFields)
    (env : Env) (hc : M .content = false → env.ContentStable) (frameState : FrameState)
    (root : TileId) (fuel : Nat) (s : State) (child : TileId) (s' : State)
    (h : selectDescendantsChild env frameState root fuel s child = some s') : Frame M s s' := by
  have hd : M .descendantTraversal = true := hM _ (by decide)
  unfold selectDescendantsChild at h
  split at h
  · split at h
    · rw [Option.map_eq_some'] at h
      obtain ⟨s1, h1, rfl⟩ := h
      exact ((updateTile_frame (hM.of_subset (by decide)) env hc frameState fuel s child s1
        h1).trans (touchTile_frame (hM.of_subset (by decide)) s1 child frameState)).trans
        (selectTile_frame (hM.of_subset (by decide)) env _ child frameState)
    · split at h
      · cases h; exact Frame.setDescendantTraversal hd s _
      · cases h; exact Frame.refl _ _
  · cases h; exact Frame.refl _ _

theorem selectDescendantsChild_mono (env : Env) (frameState : FrameState)
    (root : TileId) (fuel : Nat) (s : State) (child : TileId) (s' : State)
    (h : selectDescendantsChild env frameState root fuel s child = some s') :
    Mono frameState.frameNumber s s' := by
  unfold selectDescendantsChild at h
  split at h
  · split at h
    · rw [Option.map_eq_some'] at h
      obtain ⟨s1, h1, rfl⟩ := h
      exact ((updateTile_mono _ env frameState fuel s child s1 h1).1.mono_trans
        (touchTile_mono _ s1 child frameState rfl).1).mono_trans
        (selectTile_mono _ env _ child frameState)
    · split at h
      · cases h; exact Mono.of_same_tiles rfl rfl
      · cases h; exact Mono.mono_refl _ _
  · cases h; exact Mono.mono_refl _ _

theorem selectDescendantsChild_selects (env : Env) (frameState : FrameState)
    (root : TileId) (fuel : Nat) (s : State) (child : TileId) (s' : State)
    (h : selectDescendantsChild env frameState root fuel s child = some s') :
    Selects env frameState s s' := by
  have hf := selectDescendantsChild_frame descendantMask_contains env
    (fun h => absurd h (by decide)) frameState root fuel s child s' h
  have hm := selectDescendantsChild_mono env frameState root fuel s child s' h
  have hcs : env.ContentStable → ∀ x, (s'.tiles x).contentState = (s.tiles x).contentState :=
    fun hs x => (selectDescendantsChild_frame (M := Mask.of descendantFields)
      (Mask.contains_of _) env (fun _ => hs) frameState root fuel s child s' h).tile .content
      (by decide) x
  refine ⟨hcs, hm.touched, ?_⟩
  unfold selectDescendantsChild at h
  split at h
  · split at h
    · rename_i hv ha
      rw [Option.map_eq_some'] at h
      obtain ⟨s1, h1, rfl⟩ := h
      have f1 := updateTile_frame (M := Mask.of (.content :: updateTileFields))
        ((Mask.contains_of _).of_subset (by decide)) env (fun h => absurd h (by decide))
        frameState fuel s child s1 h1
      have f2 := touchTile_frame (M := Mask.of touchTileFields) (Mask.contains_of _) s1 child
        frameState
      have f3 := selectTile_frame (M := Mask.of selectTileFields) (Mask.contains_of _) env
        (touchTile s1 child frameState) child frameState
      refine ⟨selectedIfInView env frameState child, ?_, ?_⟩
      · rw [selectTile_selected, f2.global ._selectedTiles (by decide),
          f1.global ._selectedTiles (by decide)]
      · intro y hy
        have hy1 := mem_selectedIfInView hy
        subst hy1
        refine ⟨?_, inView_of_mem_selectedIfInView hy, fun _ => ha⟩
        rw [f3.tile ._touchedFrame (by decide) y]
        exact (touchTile_mono _ s1 y frameState rfl).2
    · split at h <;> cases h <;> exact ⟨[], by simp, fun _ h => by cases h⟩
  · cases h
    exact ⟨[], by simp, fun _ h => by cases h⟩

/-- One child in `selectDescendants` leaves the stack of the descendant traversal as it is or
pushes the child. -/
theorem selectDescendantsChild_stack (env : Env) (frameState : FrameState)
    (root : TileId) (fuel : Nat) (s : State) (child : TileId) (s' : State)
    (h : selectDescendantsChild env frameState root fuel s child = some s') :
    s'.descendantTraversal.stackMaximumLength = s.descendantTraversal.stackMaximumLength
      ∧ (s'.descendantTraversal.stack = s.descendantTraversal.stack
        ∨ s'.descendantTraversal.stack = child :: s.descendantTraversal.stack) := by
  unfold selectDescendantsChild at h
  split at h
  · split at h
    · rw [Option.map_eq_some'] at h
      obtain ⟨s1, h1, rfl⟩ := h
      have f1 := updateTile_frame (M := Mask.of (.content :: updateTileFields))
        ((Mask.contains_of _).of_subset (by decide)) env (fun h => absurd h (by decide))
        frameState fuel s child s1 h1
      have f2 := touchTile_frame (M := Mask.of touchTileFields) (Mask.contains_of _) s1 child
        frameState
      have f3 := selectTile_frame (M := Mask.of selectTileFields) (Mask.contains_of _) env
        (touchTile s1 child frameState) child frameState
      have e : (selectTile env (touchTile s1 child frameState) child
          frameState).descendantTraversal = s.descendantTraversal :=
        ((f3.global .descendantTraversal (by decide)).trans
          (f2.global .descendantTraversal (by decide))).trans
          (f1.global .descendantTraversal (by decide))
      exact ⟨congrArg Traversal.stackMaximumLength e, Or.inl (congrArg Traversal.stack e)⟩
    · split at h
      · cases h; exact ⟨rfl, Or.inr rfl⟩
      · cases h; exact ⟨rfl, Or.inl rfl⟩
  · cases h; exact ⟨rfl, Or.inl rfl⟩

theorem selectDescendantsChild_isSome (env : Env) (frameState : FrameState)
    (size : TileId → Nat) (root : TileId) (fuel : Nat) (s : State) (child : TileId)
    (hS : SizeOK size s) (hfuel : size child ≤ fuel) :
    ∃ s', selectDescendantsChild env frameState root fuel s child = some s' := by
  obtain ⟨s1, h1⟩ := updateTile_isSome env frameState size fuel s child hS hfuel
  unfold selectDescendantsChild
  split
  · split
    · exact ⟨_, by rw [h1]; rfl⟩
    · split <;> exact ⟨_, rfl⟩
  · exact ⟨_, rfl⟩

theorem selectDescendantsVisit_frame {M : Mask} (hM : M.contains descendantFields)
    (env : Env) (hc : M .content = false → env.ContentStable) (frameState : FrameState)
    (root : TileId) (fuel : Nat) (s : State) (tile : TileId) (s' : State)
    (h : selectDescendantsVisit env frameState root fuel s tile = some s') : Frame M s s' := by
  rw [selectDescendantsVisit_eq_foldlM] at h
  exact foldlM_preorder (Frame M) (Frame.refl M) (fun _ _ _ => Frame.trans) _
    (fun a c a' => selectDescendantsChild_frame hM env hc frameState root fuel a c a') _ _ _ h

theorem selectDescendantsVisit_mono (env : Env) (frameState : FrameState)
    (root : TileId) (fuel : Nat) (s : State) (tile : TileId) (s' : State)
    (h : selectDescendantsVisit env frameState root fuel s tile = some s') :
    Mono frameState.frameNumber s s' := by
  rw [selectDescendantsVisit_eq_foldlM] at h
  exact foldlM_preorder (Mono frameState.frameNumber) (Mono.mono_refl _)
    (fun _ _ _ => Mono.mono_trans) _
    (fun a c a' => selectDescendantsChild_mono env frameState root fuel a c a') _ _ _ h

theorem selectDescendantsVisit_selects (env : Env) (frameState : FrameState)
    (root : TileId) (fuel : Nat) (s : State) (tile : TileId) (s' : State)
    (h : selectDescendantsVisit env frameState root fuel s tile = some s') :
    Selects env frameState s s' := by
  rw [selectDescendantsVisit_eq_foldlM] at h
  exact foldlM_preorder (Selects env frameState) (Selects.selects_refl env frameState)
    (fun _ _ _ => Selects.selects_trans) _
    (fun a c a' => selectDescendantsChild_selects env frameState root fuel a c a') _ _ _ h

theorem selectDescendantsFold_stack (env : Env) (frameState : FrameState)
    (root : TileId) (fuel : Nat) (children : List TileId) (s s' : State)
    (h : children.foldlM (selectDescendantsChild env frameState root fuel) s = some s') :
    s'.descendantTraversal.stackMaximumLength = s.descendantTraversal.stackMaximumLength
      ∧ ∃ pushed, s'.descendantTraversal.stack = pushed ++ s.descendantTraversal.stack
        ∧ pushed.reverse.Sublist children := by
  induction children generalizing s with
  | nil =>
    simp at h
    subst h
    exact ⟨rfl, [], rfl, by simp⟩
  | cons c l ih =>
    rw [List.foldlM_cons] at h
    cases h1 : selectDescendantsChild env frameState root fuel s c with
    | none => simp [h1] at h
    | some s1 =>
      simp [h1] at h
      obtain ⟨e1, k1⟩ := selectDescendantsChild_stack env frameState root fuel s c s1 h1
      obtain ⟨e2, pushed, k2, k3⟩ := ih s1 h
      refine ⟨e2.trans e1, ?_⟩
      rcases k1 with k1 | k1
      · exact ⟨pushed, by rw [k2, k1], k3.trans (List.sublist_cons_self _ _)⟩
      · refine ⟨pushed ++ [c], by rw [k2, k1]; simp, ?_⟩
        rw [List.reverse_append]
        simpa using k3

theorem selectDescendantsVisit_stack (env : Env) (frameState : FrameState)
    (root : TileId) (fuel : Nat) (s : State) (tile : TileId) (s' : State)
    (h : selectDescendantsVisit env frameState root fuel s tile = some s') :
    s'.descendantTraversal.stackMaximumLength = s.descendantTraversal.stackMaximumLength
      ∧ ∃ pushed, s'.descendantTraversal.stack = pushed ++ s.descendantTraversal.stack
        ∧ pushed.reverse.Sublist (s.tiles tile).children := by
  rw [selectDescendantsVisit_eq_foldlM] at h
  exact selectDescendantsFold_stack env frameState root fuel _ s s' h

theorem selectDescendantsVisit_isSome (env : Env) (frameState : FrameState)
    (size : TileId → Nat) (root : TileId) (fuel : Nat) (s : State) (tile : TileId)
    (hS : SizeOK size s) (hfuel : size tile ≤ fuel) :
    ∃ s', selectDescendantsVisit env frameState root fuel s tile = some s' := by
  rw [selectDescendantsVisit_eq_foldlM]
  obtain ⟨s', h, _⟩ := foldlM_isSome (fun a => SizeOK size a) (fun c => size c ≤ fuel) _
    (fun b a hb ha => by
      obtain ⟨b', hb'⟩ := selectDescendantsChild_isSome env frameState size root fuel b a hb ha
      exact ⟨b', hb', hb.of_frame (selectDescendantsChild_frame (M := Mask.all)
        (Mask.all_contains _) env (fun h => absurd h (by decide)) frameState root fuel b a b'
        hb')⟩)
    (s.tiles tile).children (fun c hc => by have := hS.child_lt hc; omega) s hS
  exact ⟨s', h⟩

/-- The loop of `selectDescendants`, from a state `s`: it returns, with the stack empty. -/
theorem selectDescendantsLoop_isSome (env : Env) (frameState : FrameState)
    (size : TileId → Nat) (root : TileId) (fuel : Nat) (s : State) (hS : SizeOK size s)
    (hfuel : stackSize size s.descendantTraversal.stack + 1 ≤ fuel) :
    ∃ s', selectDescendantsLoop env frameState root fuel s = some s' := by
  induction fuel generalizing s with
  | zero => omega
  | succ n ih =>
    unfold selectDescendantsLoop
    split
    · exact ⟨_, rfl⟩
    · rename_i tile rest hst
      simp only []
      rw [hst, stackSize_cons] at hfuel
      have hS0 : SizeOK size { s with descendantTraversal :=
          { stack := rest
            stackMaximumLength :=
              max s.descendantTraversal.stackMaximumLength (tile :: rest).length } } :=
        fun p => hS p
      obtain ⟨s1, hs1⟩ := selectDescendantsVisit_isSome env frameState size root n _ tile hS0
        (by omega)
      have hf1 := selectDescendantsVisit_frame descendantMask_contains env
        (fun h => absurd h (by decide)) frameState root n _ tile s1 hs1
      obtain ⟨_, pushed, hp1, hp2⟩ := selectDescendantsVisit_stack env frameState root n _ tile
        s1 hs1
      rw [hs1]
      simp only []
      refine ih s1 (hS0.of_frame hf1) ?_
      rw [hp1, stackSize_append]
      have h1 : stackSize size pushed ≤ stackSize size (s.tiles tile).children := by
        rw [← stackSize_perm size (List.reverse_perm pushed)]
        exact List.Sublist.sum_le_sum (hp2.map size) (fun _ _ => Nat.zero_le _)
      have h2 := hS tile
      show stackSize size pushed + stackSize size rest + 1 ≤ n
      omega

/-- What the loop of `selectDescendants` does, when it returns. -/
theorem selectDescendantsLoop_facts {M : Mask} (hM : M.contains descendantFields)
    (env : Env) (hc : M .content = false → env.ContentStable) (frameState : FrameState)
    (root : TileId) (fuel : Nat) (s s' : State)
    (h : selectDescendantsLoop env frameState root fuel s = some s') :
    Frame M s s' ∧ Mono frameState.frameNumber s s' ∧ Selects env frameState s s'
      ∧ s'.descendantTraversal.stack = [] := by
  have hd : M .descendantTraversal = true := hM _ (by decide)
  induction fuel generalizing s with
  | zero => simp [selectDescendantsLoop] at h
  | succ n ih =>
    unfold selectDescendantsLoop at h
    split at h
    · cases h
      exact ⟨Frame.refl _ _, Mono.mono_refl _ _, Selects.selects_refl _ _ _, by assumption⟩
    · simp only [] at h
      split at h
      · cases h
      · rename_i s1 hv
        obtain ⟨a1, a2, a3, a4⟩ := ih _ h
        refine ⟨((Frame.setDescendantTraversal hd s _).trans
          (selectDescendantsVisit_frame hM env hc frameState root n _ _ s1 hv)).trans a1,
          ?_, ?_, a4⟩
        · refine Mono.mono_trans ?_ a2
          refine Mono.mono_trans ?_ (selectDescendantsVisit_mono env frameState root n _ _ s1 hv)
          exact Mono.of_same_tiles rfl rfl
        · refine Selects.selects_trans ?_ a3
          refine Selects.selects_trans ?_
            (selectDescendantsVisit_selects env frameState root n _ _ s1 hv)
          exact ⟨fun _ _ => rfl, fun _ h => h, [], by simp, fun _ h => by cases h⟩

theorem selectDescendants_isSome (env : Env) (frameState : FrameState)
    (size : TileId → Nat) (fuel : Nat) (s : State) (root : TileId) (hS : SizeOK size s)
    (hst : s.descendantTraversal.stack = []) (hfuel : size root + 1 ≤ fuel) :
    ∃ s', selectDescendants env frameState fuel s root = some s' := by
  unfold selectDescendants
  exact selectDescendantsLoop_isSome env frameState size root fuel _ (fun p => hS p)
    (by simp [hst, stackSize]; omega)

theorem selectDescendants_facts {M : Mask} (hM : M.contains descendantFields)
    (env : Env) (hc : M .content = false → env.ContentStable) (frameState : FrameState)
    (fuel : Nat) (s : State) (root : TileId) (s' : State)
    (h : selectDescendants env frameState fuel s root = some s') :
    Frame M s s' ∧ Mono frameState.frameNumber s s' ∧ Selects env frameState s s'
      ∧ s'.descendantTraversal.stack = [] := by
  have hd : M .descendantTraversal = true := hM _ (by decide)
  unfold selectDescendants at h
  obtain ⟨a1, a2, a3, a4⟩ := selectDescendantsLoop_facts hM env hc frameState root fuel _ s' h
  refine ⟨(Frame.setDescendantTraversal hd s _).trans a1, ?_, ?_, a4⟩
  · refine Mono.mono_trans ?_ a2
    exact Mono.of_same_tiles rfl rfl
  · refine Selects.selects_trans ?_ a3
    exact ⟨fun _ _ => rfl, fun _ h => h, [], by simp, fun _ h => by cases h⟩

theorem MonoVis.vis_refl (n : Int) (s : State) : MonoVis n s s :=
  ⟨rfl, fun _ h => ⟨h, rfl, rfl, fun h => h⟩, fun _ h => h, cache_refl n s⟩

theorem MonoVis.vis_trans {n : Int} {a b c : State} (h1 : MonoVis n a b) (h2 : MonoVis n b c) :
    MonoVis n a c := by
  refine ⟨h2.tilesetStamp.trans h1.tilesetStamp, fun x hx => ?_,
    fun x hx => h2.touched x (h1.touched x hx), cache_trans h1.cache h2.cache⟩
  obtain ⟨a1, a2, a3, a4⟩ := h1.stamp x hx
  obtain ⟨b1, b2, b3, b4⟩ := h2.stamp x (a1.trans h1.tilesetStamp.symm)
  exact ⟨b1.trans h1.tilesetStamp, b2.trans a2, b3.trans a3, fun h => a4 (b4 h)⟩

theorem Mono.toVis {n : Int} {s s' : State} (h : Mono n s s') : MonoVis n s s' :=
  ⟨h.tilesetStamp, h.stamp, h.touched, h.cache⟩

theorem MonoVis.stamped_of {n : Int} {s s' : State} (h : MonoVis n s s') {x : TileId}
    (hx : Stamped s x) : Stamped s' x :=
  ((h.stamp x hx).1).trans h.tilesetStamp.symm

theorem MonoVis.visible_at {n : Int} {s s' : State} (h : MonoVis n s s') {x : TileId}
    (hx : Stamped s x) (hv : isVisible (s'.tiles x) = true) : isVisible (s.tiles x) = true := by
  obtain ⟨_, _, a3, a4⟩ := h.stamp x hx
  unfold isVisible at hv ⊢
  rw [Bool.and_eq_true] at hv ⊢
  exact ⟨a4 hv.1, a3 ▸ hv.2⟩

theorem MonoVis.screenSpaceError {n : Int} {s s' : State} (h : MonoVis n s s') {x : TileId}
    (hx : Stamped s x) : (s'.tiles x)._screenSpaceError = (s.tiles x)._screenSpaceError :=
  (h.stamp x hx).2.1

theorem MonoVis.vis_of_frame {M : Mask} {n : Int} {s s' : State} (h : Frame M s s')
    (h1 : M ._visible = false) (h2 : M ._inRequestVolume = false)
    (h3 : M ._screenSpaceError = false) (h4 : M ._updatedVisibilityFrame = false)
    (h5 : M ._touchedFrame = false) (h7 : M ._cache = false) : MonoVis n s s' := by
  refine ⟨h.tilesetStatic._updatedVisibilityFrame, fun x hx => ⟨?_, ?_, ?_, fun hv => ?_⟩,
    fun x hx => ?_, cache_of_eq (h.global ._cache h7) (h.tile ._touchedFrame h5)⟩
  · exact (h.tile ._updatedVisibilityFrame h4 x).trans hx
  · exact h.tile ._screenSpaceError h3 x
  · exact h.tile ._inRequestVolume h2 x
  · exact (h.tile ._visible h1 x).symm.trans hv
  · exact (h.tile ._touchedFrame h5 x).trans hx

theorem Phase.phase_refl (env : Env) (frameState : FrameState) (tile : TileId) (s : State) :
    Phase env frameState tile s s :=
  ⟨Frame.refl _ _, fun _ => rfl, fun _ _ => rfl, MonoVis.vis_refl _ _,
    ⟨[], by simp, fun _ h => by cases h⟩, fun _ _ h => Or.inl h⟩

theorem Phase.phase_trans {env : Env} {frameState : FrameState} {tile : TileId}
    {a b c : State} (h1 : Phase env frameState tile a b) (h2 : Phase env frameState tile b c) :
    Phase env frameState tile a c := by
  obtain ⟨o1, e1, p1⟩ := h1.selected
  obtain ⟨o2, e2, p2⟩ := h2.selected
  refine ⟨h1.frame.trans h2.frame, fun x => (h2.links x).trans (h1.links x),
    fun hs x => (h2.content hs x).trans (h1.content hs x), h1.vis.vis_trans h2.vis,
    ⟨o1 ++ o2, by rw [e2, e1, List.append_assoc], ?_⟩, ?_⟩
  · intro y hy
    rcases List.mem_append.mp hy with hy | hy
    · obtain ⟨a1, a2, a3⟩ := p1 y hy
      refine ⟨?_, a2, a3⟩
      rcases a1 with a1 | a1
      · exact Or.inl a1
      · exact Or.inr (h2.vis.touched y a1)
    · obtain ⟨a1, a2, a3⟩ := p2 y hy
      refine ⟨a1, a2, fun hs => ?_⟩
      rw [← contentAvailable_congr (h1.content hs y)]
      exact a3 hs
  · intro hs x hx
    rcases h2.flag hs x hx with h | h
    · exact h1.flag hs x h
    · right
      unfold Flags at h ⊢
      rw [h1.frame.tilesetStatic._skipLevelOfDetail, h1.links tile,
        contentAvailable_congr (h1.content hs tile)] at h
      exact h

/-- An operation that raises no flag and selects nothing, and does not write the ancestor
links, is a `Phase`. -/
theorem Phase.of_mono {M : Mask} {env : Env} {frameState : FrameState} {tile : TileId}
    {s s' : State} (h : Frame M s s') (hm : Mono frameState.frameNumber s s')
    (h1 : M ._selectedTiles = false) (h2 : M ._ancestorWithContentAvailable = false)
    (h3 : env.ContentStable → ∀ x, (s'.tiles x).contentState = (s.tiles x).contentState) :
    Phase env frameState tile s s' :=
  ⟨h.mono (fun _ _ => rfl), h.tile ._ancestorWithContentAvailable h2, h3, hm.toVis,
    ⟨[], by rw [List.append_nil]; exact h.global ._selectedTiles h1, fun _ h => by cases h⟩,
    fun _ x hx => Or.inl (hm.flag x hx)⟩

/-- An operation that raises no flag and selects tiles touched in this frame, and does not
write the ancestor links, is a `Phase`. -/
theorem Phase.of_selects {M : Mask} {env : Env} {frameState : FrameState} {tile : TileId}
    {s s' : State} (h : Frame M s s') (hm : Mono frameState.frameNumber s s')
    (hsel : Selects env frameState s s') (h2 : M ._ancestorWithContentAvailable = false) :
    Phase env frameState tile s s' := by
  obtain ⟨out, e, p⟩ := hsel.selected
  exact ⟨h.mono (fun _ _ => rfl), h.tile ._ancestorWithContentAvailable h2, hsel.content,
    hm.toVis, ⟨out, e, fun y hy => ⟨Or.inr (p y hy).1, (p y hy).2⟩⟩,
    fun _ x hx => Or.inl (hm.flag x hx)⟩

theorem selectPhaseMask_contains :
    (Mask.of (.content :: selectPhaseFields)).contains selectPhaseFields :=
  (Mask.contains_of _).of_subset (by decide)

theorem selectDesiredTile_frame {M : Mask}
    (hM : M.contains descendantFields)
    (env : Env) (hc : M .content = false → env.ContentStable) (frameState : FrameState)
    (fuel : Nat) (s : State) (tile : TileId) (s' : State)
    (h : selectDesiredTile env frameState fuel s tile = some s') : Frame M s s' := by
  have hss : M ._shouldSelect = true := hM _ (by decide)
  unfold selectDesiredTile at h
  split at h
  · split at h
    · cases h; exact selectTile_frame (hM.of_subset (by decide)) env s tile frameState
    · cases h; exact Frame.refl _ _
  · simp only [] at h
    split at h
    · cases h
      refine Frame.setTile _ _ _ ⟨List.Perm.refl _, rfl, rfl, rfl, rfl, rfl⟩ ?_
      intro fld hf; cases fld <;> first | rfl | trivial | exact absurd hf (by simp [hss])
    · exact (selectDescendants_facts hM env hc frameState fuel s tile s' h).1

theorem selectDesiredTile_descendantStack (env : Env) (frameState : FrameState)
    (fuel : Nat) (s : State) (tile : TileId) (s' : State)
    (hst : s.descendantTraversal.stack = [])
    (h : selectDesiredTile env frameState fuel s tile = some s') :
    s'.descendantTraversal.stack = [] := by
  unfold selectDesiredTile at h
  split at h
  · split at h
    · cases h
      rw [(selectTile_frame (M := Mask.of selectTileFields) (Mask.contains_of _) env s tile
        frameState).global .descendantTraversal (by decide)]
      exact hst
    · cases h; exact hst
  · simp only [] at h
    split at h
    · cases h; exact hst
    · exact (selectDescendants_facts descendantMask_contains env (fun h => absurd h (by decide))
        frameState fuel s tile s' h).2.2.2

theorem selectDesiredTile_isSome (env : Env) (frameState : FrameState)
    (size : TileId → Nat) (fuel : Nat) (s : State) (tile : TileId) (hS : SizeOK size s)
    (hst : s.descendantTraversal.stack = []) (hfuel : size tile + 1 ≤ fuel) :
    ∃ s', selectDesiredTile env frameState fuel s tile = some s' := by
  unfold selectDesiredTile
  split
  · split <;> exact ⟨_, rfl⟩
  · simp only []
    split
    · exact ⟨_, rfl⟩
    · exact selectDescendants_isSome env frameState size fuel s tile hS hst hfuel

theorem selectDesiredTile_phase (env : Env) (frameState : FrameState)
    (fuel : Nat) (s : State) (tile : TileId) (s' : State)
    (h : selectDesiredTile env frameState fuel s tile = some s') :
    Phase env frameState tile s s' := by
  have hf := selectDesiredTile_frame descendantMask_contains env
    (fun h => absurd h (by decide)) frameState fuel s tile s' h
  have hcs : env.ContentStable → ∀ x, (s'.tiles x).contentState = (s.tiles x).contentState :=
    fun hs x => (selectDesiredTile_frame (M := Mask.of descendantFields)
      (Mask.contains_of _) env (fun _ => hs) frameState fuel s tile s' h).tile .content
      (by decide) x
  unfold selectDesiredTile at h
  split at h
  · split at h
    · rename_i ha
      cases h
      have fs := selectTile_frame (M := Mask.of selectTileFields) (Mask.contains_of _) env s
        tile frameState
      refine ⟨hf.mono (fun _ _ => rfl), fs.tile ._ancestorWithContentAvailable (by decide),
        hcs, (selectTile_mono _ env s tile frameState).toVis,
        ⟨selectedIfInView env frameState tile, selectTile_selected env s tile frameState, ?_⟩,
        fun _ x hx => Or.inl ((selectTile_mono frameState.frameNumber env s tile
          frameState).flag x hx)⟩
      intro y hy
      have := mem_selectedIfInView hy
      subst this
      exact ⟨Or.inl rfl, inView_of_mem_selectedIfInView hy, fun _ => ha⟩
    · cases h; exact Phase.phase_refl _ _ _ _
  · rename_i hskip
    simp only [] at h
    split at h
    · rename_i l hl
      cases h
      have hsk : s.tileset._skipLevelOfDetail = true := by
        simpa [skipLevelOfDetail] using hskip
      refine ⟨hf.mono (fun _ _ => rfl), fun x => ?_, hcs, ?_, ⟨[], by simp, fun _ h => by cases h⟩,
        fun _ x hx => ?_⟩
      · rw [State.setTile_tiles]; split
        · rename_i h; subst h; rfl
        · rfl
      · have hte : ∀ x, ((s.setTile l fun t => { t with _shouldSelect := true }).tiles
            x)._touchedFrame = (s.tiles x)._touchedFrame := by
          intro x
          rw [State.setTile_tiles]
          split
          · rename_i h; subst h; rfl
          · rfl
        refine ⟨rfl, fun x hx => ?_, fun x hx => ?_, cache_of_eq rfl hte⟩
        · rw [State.setTile_tiles]; split
          · rename_i h; subst h; exact ⟨hx, rfl, rfl, fun h => h⟩
          · exact ⟨hx, rfl, rfl, fun h => h⟩
        · rw [hte]; exact hx
      · rw [State.setTile_tiles] at hx
        split at hx
        · rename_i hxl
          subst hxl
          right
          refine ⟨hsk, ?_⟩
          split at hl
          · rename_i ha
            cases hl
            exact Or.inl ⟨rfl, ha⟩
          · rename_i ha
            exact Or.inr ⟨by simpa using ha, hl⟩
        · exact Or.inl hx
    · obtain ⟨a1, a2, a3, _⟩ := selectDescendants_facts descendantMask_contains env
        (fun h => absurd h (by decide)) frameState fuel s tile s' h
      exact Phase.of_selects a1 a2 a3 (by decide)

/-- Any transitive relation that holds across `addEmptyTile`, `loadTile` and
`selectDesiredTile` on the tile holds across the part of the visit that loads the tile and
selects the desired tile. -/
theorem executeTraversalSelect_preorder (R : State → State → Prop) (hr : ∀ a, R a a)
    (ht : ∀ a b c, R a b → R b c → R a c)
    (env : Env) (frameState : FrameState) (fuel : Nat) (tile : TileId)
    (he : ∀ s, R s (addEmptyTile s tile)) (hl : ∀ s, R s (loadTile env s tile frameState))
    (hd : ∀ s s', selectDesiredTile env frameState fuel s tile = some s' → R s s')
    (s : State) (add replace baseTraversal stoppedRefining : Bool) (s' : State)
    (h : executeTraversalSelect env frameState fuel s tile add replace baseTraversal
      stoppedRefining = some s') : R s s' := by
  unfold executeTraversalSelect at h
  split at h
  · simp only [] at h
    have f1 := ht _ _ _ (he s) (hl _)
    split at h
    · exact ht _ _ _ f1 (hd _ _ h)
    · cases h; exact f1
  · split at h
    · rw [Option.map_eq_some'] at h
      obtain ⟨s1, h1, rfl⟩ := h
      exact ht _ _ _ (hd _ _ h1) (hl _)
    · split at h
      · split at h
        · simp only [] at h
          split at h
          · exact ht _ _ _ (hl s) (hd _ _ h)
          · cases h; exact hl s
        · split at h
          · rw [Option.map_eq_some'] at h
            obtain ⟨s1, h1, rfl⟩ := h
            exact ht _ _ _ (hd _ _ h1) (hl _)
          · split at h
            · cases h; exact hl s
            · cases h; exact hr s
      · cases h; exact hr s

theorem executeTraversalSelect_frame {M : Mask} (hM : M.contains selectPhaseFields)
    (env : Env) (hc : M .content = false → env.ContentStable) (frameState : FrameState)
    (fuel : Nat) (s : State) (tile : TileId) (add replace baseTraversal stoppedRefining : Bool)
    (s' : State)
    (h : executeTraversalSelect env frameState fuel s tile add replace baseTraversal
      stoppedRefining = some s') : Frame M s s' :=
  executeTraversalSelect_preorder (Frame M) (Frame.refl M) (fun _ _ _ => Frame.trans)
    env frameState fuel tile
    (fun s => addEmptyTile_frame (hM.of_subset (by decide)) s tile)
    (fun s => loadTile_frame (hM.of_subset (by decide)) env s tile frameState)
    (fun s s' => selectDesiredTile_frame (hM.of_subset (by decide)) env hc frameState fuel s
      tile s')
    s add replace baseTraversal stoppedRefining s' h

theorem executeTraversalSelect_phase (env : Env) (frameState : FrameState)
    (fuel : Nat) (s : State) (tile : TileId) (add replace baseTraversal stoppedRefining : Bool)
    (s' : State)
    (h : executeTraversalSelect env frameState fuel s tile add replace baseTraversal
      stoppedRefining = some s') : Phase env frameState tile s s' :=
  executeTraversalSelect_preorder (Phase env frameState tile) (Phase.phase_refl env frameState tile)
    (fun _ _ _ => Phase.phase_trans) env frameState fuel tile
    (fun s => Phase.of_mono (addEmptyTile_frame (M := Mask.of [._emptyTiles])
        (Mask.contains_of _) s tile)
      (Mono.mono_of_frame (addEmptyTile_frame (M := Mask.of [._emptyTiles]) (Mask.contains_of _) s
        tile) rfl rfl rfl rfl rfl rfl rfl) rfl rfl
      (fun _ x => (addEmptyTile_frame (M := Mask.of [._emptyTiles]) (Mask.contains_of _) s
        tile).tile .content rfl x))
    (fun s => Phase.of_mono (loadTile_frame (M := Mask.of loadTileFields)
        (Mask.contains_of _) env s tile frameState)
      (loadTile_mono _ env s tile frameState) rfl rfl
      (fun _ x => (loadTile_frame (M := Mask.of loadTileFields) (Mask.contains_of _) env s tile
        frameState).tile .content rfl x))
    (fun s s' => selectDesiredTile_phase env frameState fuel s tile s')
    s add replace baseTraversal stoppedRefining s' h

theorem executeTraversalSelect_descendantStack (env : Env) (frameState : FrameState)
    (fuel : Nat) (s : State) (tile : TileId) (add replace baseTraversal stoppedRefining : Bool)
    (s' : State) (hst : s.descendantTraversal.stack = [])
    (h : executeTraversalSelect env frameState fuel s tile add replace baseTraversal
      stoppedRefining = some s') : s'.descendantTraversal.stack = [] :=
  executeTraversalSelect_preorder
    (fun a b => a.descendantTraversal.stack = [] → b.descendantTraversal.stack = [])
    (fun _ h => h) (fun _ _ _ h1 h2 h => h2 (h1 h)) env frameState fuel tile
    (fun s h => by
      rw [(addEmptyTile_frame (M := Mask.of [._emptyTiles]) (Mask.contains_of _) s
        tile).global .descendantTraversal rfl]; exact h)
    (fun s h => by
      rw [(loadTile_frame (M := Mask.of loadTileFields) (Mask.contains_of _) env s tile
        frameState).global .descendantTraversal rfl]; exact h)
    (fun s s' h hst => selectDesiredTile_descendantStack env frameState fuel s tile s' hst h)
    s add replace baseTraversal stoppedRefining s' h hst

theorem executeTraversalSelect_isSome (env : Env) (frameState : FrameState)
    (size : TileId → Nat) (fuel : Nat) (s : State) (tile : TileId)
    (add replace baseTraversal stoppedRefining : Bool) (hS : SizeOK size s)
    (hst : s.descendantTraversal.stack = []) (hfuel : size tile + 1 ≤ fuel) :
    ∃ s', executeTraversalSelect env frameState fuel s tile add replace baseTraversal
      stoppedRefining = some s' := by
  have hl := fun s t => loadTile_frame (M := Mask.of loadTileFields) (Mask.contains_of _)
    env s t frameState
  have he := fun s t => addEmptyTile_frame (M := Mask.of [._emptyTiles]) (Mask.contains_of _) s t
  have hd : ∀ s1 : State, SizeOK size s1 → s1.descendantTraversal.stack = [] →
      ∃ s', selectDesiredTile env frameState fuel s1 tile = some s' := fun s1 h1 h2 =>
    selectDesiredTile_isSome env frameState size fuel s1 tile h1 h2 hfuel
  have hdm : ∀ s1 : State, SizeOK size s1 → s1.descendantTraversal.stack = [] →
      ∃ s', (selectDesiredTile env frameState fuel s1 tile).map
        (fun s => loadTile env s tile frameState) = some s' := fun s1 h1 h2 => by
    obtain ⟨s2, h⟩ := hd s1 h1 h2
    exact ⟨_, by rw [h]; rfl⟩
  have hS1 : SizeOK size (loadTile env s tile frameState) := hS.of_frame (hl s tile)
  have hst1 : (loadTile env s tile frameState).descendantTraversal.stack = [] := by
    rw [(hl s tile).global .descendantTraversal rfl]; exact hst
  have hS2 : SizeOK size (loadTile env (addEmptyTile s tile) tile frameState) :=
    (hS.of_frame (he s tile)).of_frame (hl _ tile)
  have hst2 : (loadTile env (addEmptyTile s tile) tile frameState).descendantTraversal.stack
      = [] := by
    rw [(hl _ tile).global .descendantTraversal rfl,
      (he s tile).global .descendantTraversal rfl]; exact hst
  unfold executeTraversalSelect
  split
  · simp only []
    split
    · exact hd _ hS2 hst2
    · exact ⟨_, rfl⟩
  · split
    · exact hdm _ hS hst
    · split
      · split
        · simp only []
          split
          · exact hd _ hS1 hst1
          · exact ⟨_, rfl⟩
        · split
          · exact hdm _ hS hst
          · split <;> exact ⟨_, rfl⟩
      · exact ⟨_, rfl⟩

theorem executeTraversalRefine_phase (env : Env) (frameState : FrameState)
    (fuel : Nat) (s : State) (tile : TileId) (p : Bool) (r : State × Bool)
    (h : executeTraversalRefine env frameState fuel s tile p = some r) :
    Phase env frameState tile s r.1
      ∧ r.1.traversal.stackMaximumLength = s.traversal.stackMaximumLength
      ∧ ∃ pushed, r.1.traversal.stack = pushed ++ s.traversal.stack
        ∧ (canTraverse s.tileset (s.tiles tile) = false → pushed = [])
        ∧ (canTraverse s.tileset (s.tiles tile) = true →
          ∀ c ∈ (s.tiles tile).children, Stamped r.1 c ∧ (r.1.tiles c)._shouldSelect = false
            ∧ (isVisible (r.1.tiles c) = true → c ∈ pushed)) := by
  have hf := executeTraversalRefine_frame pushMask_contains env (fun h => absurd h (by decide))
    frameState fuel s tile p r h
  have hcs : env.ContentStable → ∀ x, (r.1.tiles x).contentState = (s.tiles x).contentState :=
    fun hs x => (executeTraversalRefine_frame (M := Mask.of pushChildrenFields)
      (Mask.contains_of _) env (fun _ => hs) frameState fuel s tile p r h).tile .content
      (by decide) x
  unfold executeTraversalRefine at h
  split at h
  · rename_i hct
    rw [Option.map_eq_some'] at h
    obtain ⟨r1, h1, rfl⟩ := h
    obtain ⟨m, e, pushed, k1, k2, k3⟩ := updateAndPushChildren_mono frameState.frameNumber env
      frameState rfl fuel s tile r1 h1
    refine ⟨Phase.of_mono hf m (by decide) (by decide) hcs, e, pushed, k1, ?_, fun _ => k3⟩
    intro h
    exact absurd (hct.symm.trans h) (by decide)
  · rename_i hct
    cases h
    refine ⟨Phase.phase_refl _ _ _ _, rfl, [], rfl, fun _ => rfl, ?_⟩
    intro h
    exact absurd h hct

theorem updateTileAncestorContentLinks_tiles_ne (s : State) (tile x : TileId)
    (frameState : FrameState) (h : x ≠ tile) :
    (updateTileAncestorContentLinks s tile frameState).tiles x = s.tiles x := by
  unfold updateTileAncestorContentLinks
  simp only []
  split <;> simp [h]

theorem updateTileAncestorContentLinks_link (s : State) (tile : TileId)
    (frameState : FrameState) (hp : (s.tiles tile).parent ≠ some tile) :
    ((updateTileAncestorContentLinks s tile frameState).tiles tile)._ancestorWithContentAvailable
      = match (s.tiles tile).parent with
        | none => none
        | some p =>
          if (s.tiles p).contentAvailable = true then some p
          else (s.tiles p)._ancestorWithContentAvailable := by
  unfold updateTileAncestorContentLinks
  simp only []
  cases hpar : (s.tiles tile).parent with
  | none => simp [hpar]
  | some p =>
    have hne : p ≠ tile := fun h => hp (by rw [hpar, h])
    simp [hpar, hne]

theorem updateTileAncestorContentLinks_root (s : State) (tile : TileId)
    (frameState : FrameState) (hp : (s.tiles tile).parent = none) :
    ((updateTileAncestorContentLinks s tile frameState).tiles tile)._ancestorWithContent
      = none := by
  unfold updateTileAncestorContentLinks
  simp [hp]

theorem inBaseTraversal_links_isSome (s : State) (tile : TileId) (frameState : FrameState)
    (base : ℚ) :
    ∃ b, inBaseTraversal (updateTileAncestorContentLinks s tile frameState) tile base
      = some b := by
  have fl := updateTileAncestorContentLinks_frame
    (M := Mask.of [._ancestorWithContent, ._ancestorWithContentAvailable]) (Mask.contains_of _)
    s tile frameState
  unfold inBaseTraversal
  split
  · exact ⟨_, rfl⟩
  · split
    · exact ⟨_, rfl⟩
    · split
      · exact ⟨_, rfl⟩
      · rename_i hn
        split
        · cases hpar : (s.tiles tile).parent with
          | none =>
            rw [updateTileAncestorContentLinks_root s tile frameState hpar] at hn
            exact absurd rfl hn
          | some p =>
            rw [(fl.tileStatic tile).parent, hpar]
            exact ⟨_, rfl⟩
        · exact ⟨_, rfl⟩

/-- The body of the loop of `executeTraversal` as the sequence of its parts. -/
theorem executeTraversalVisit_parts (env : Env) (frameState : FrameState) (base : ℚ)
    (fuel : Nat) (s : State) (tile : TileId) (s' : State)
    (h : executeTraversalVisit env frameState base fuel s tile = some s') :
    ∃ b r s3,
      executeTraversalRefine env frameState fuel
        (updateTileAncestorContentLinks s tile frameState) tile
        (parentRefines (updateTileAncestorContentLinks s tile frameState) tile) = some r
      ∧ executeTraversalSelect env frameState fuel r.1 tile
          (decide (((updateTileAncestorContentLinks s tile frameState).tiles tile).refine
            = Cesium3DTileRefine.ADD))
          (decide (((updateTileAncestorContentLinks s tile frameState).tiles tile).refine
            = Cesium3DTileRefine.REPLACE)) b
          (!r.2 && parentRefines (updateTileAncestorContentLinks s tile frameState) tile)
        = some s3
      ∧ s' = (touchTile (visitTile s3 tile frameState) tile frameState).setTile tile
          fun t => { t with _refines := r.2 } := by
  unfold executeTraversalVisit at h
  simp only [] at h
  rw [Option.bind_eq_some] at h
  obtain ⟨b, _, h⟩ := h
  rw [Option.bind_eq_some] at h
  obtain ⟨r, hr, h2⟩ := h
  rw [Option.map_eq_some'] at h2
  obtain ⟨s3, h3, rfl⟩ := h2
  exact ⟨b, r, s3, hr, h3, rfl⟩

theorem executeTraversalVisit_isSome (env : Env) (frameState : FrameState) (base : ℚ)
    (size : TileId → Nat) (fuel : Nat) (s : State) (tile : TileId)
    (hS : SizeOK size s) (hst : s.emptyTraversal.stack = [])
    (hds : s.descendantTraversal.stack = []) (hfuel : size tile + 1 ≤ fuel) :
    ∃ s', executeTraversalVisit env frameState base fuel s tile = some s' := by
  have fl := updateTileAncestorContentLinks_frame
    (M := Mask.of [._ancestorWithContent, ._ancestorWithContentAvailable]) (Mask.contains_of _)
    s tile frameState
  have hS1 := hS.of_frame fl
  have hst1 : (updateTileAncestorContentLinks s tile frameState).emptyTraversal.stack = [] := by
    rw [fl.global .emptyTraversal (by decide)]; exact hst
  obtain ⟨b, hb⟩ := inBaseTraversal_links_isSome s tile frameState base
  obtain ⟨r, hr⟩ := executeTraversalRefine_isSome env frameState size fuel _ tile
    (parentRefines (updateTileAncestorContentLinks s tile frameState) tile) hS1 hst1 (by omega)
  have fr := executeTraversalRefine_frame pushMask_contains env (fun h => absurd h (by decide))
    frameState fuel _ tile _ r hr
  have hds1 : r.1.descendantTraversal.stack = [] := by
    rw [fr.global .descendantTraversal (by decide), fl.global .descendantTraversal (by decide)]
    exact hds
  obtain ⟨s3, h3⟩ := executeTraversalSelect_isSome env frameState size fuel r.1 tile
    (decide (((updateTileAncestorContentLinks s tile frameState).tiles tile).refine
      = Cesium3DTileRefine.ADD))
    (decide (((updateTileAncestorContentLinks s tile frameState).tiles tile).refine
      = Cesium3DTileRefine.REPLACE)) b
    (!r.2 && parentRefines (updateTileAncestorContentLinks s tile frameState) tile)
    (hS1.of_frame fr) hds1 hfuel
  have : executeTraversalVisit env frameState base fuel s tile
      = some ((touchTile (visitTile s3 tile frameState) tile frameState).setTile tile
          fun t => { t with _refines := r.2 }) := by
    unfold executeTraversalVisit
    simp only [hb, Option.some_bind, hr, h3, Option.map_some']
  exact ⟨_, this⟩

/-- What the body of the loop of `executeTraversal` does, in every traversal strategy, between
the update of the ancestor links of the tile (the state `sl`) and the stamping of the tile as
visited (from the state `s3`). -/
theorem executeTraversalVisit_general (env : Env) (frameState : FrameState) (base : ℚ)
    (fuel : Nat) (s : State) (tile : TileId) (s' : State)
    (h : executeTraversalVisit env frameState base fuel s tile = some s') :
    ∃ s3 refines pushed sorted,
      s' = (touchTile (visitTile s3 tile frameState) tile frameState).setTile tile
          (fun t => { t with _refines := refines })
      ∧ Phase env frameState tile (updateTileAncestorContentLinks s tile frameState) s3
      ∧ Frame (Mask.of (.content :: traversalFields)) s s3
      ∧ s3.traversal.stack = pushed ++ s.traversal.stack
      ∧ s3.traversal.stackMaximumLength = s.traversal.stackMaximumLength
      ∧ pushed.reverse.Sublist sorted ∧ sorted.Perm (s.tiles tile).children
      ∧ (s.emptyTraversal.stack = [] → s3.emptyTraversal.stack = [])
      ∧ (s.descendantTraversal.stack = [] → s3.descendantTraversal.stack = [])
      ∧ (canTraverse s.tileset (s.tiles tile) = false → pushed = [])
      ∧ (canTraverse s.tileset (s.tiles tile) = true →
          ∀ c ∈ (s.tiles tile).children, Stamped s3 c
            ∧ (isVisible (s3.tiles c) = true → c ∈ pushed)
            ∧ (env.ContentStable → (s3.tiles c)._shouldSelect = true →
                Flags (updateTileAncestorContentLinks s tile frameState) tile c)) := by
  obtain ⟨b, r, s3, hr, h3, rfl⟩ := executeTraversalVisit_parts env frameState base fuel s tile
    s' h
  have fl := updateTileAncestorContentLinks_frame
    (M := Mask.of [._ancestorWithContent, ._ancestorWithContentAvailable]) (Mask.contains_of _)
    s tile frameState
  have fr := executeTraversalRefine_frame pushMask_contains env (fun h => absurd h (by decide))
    frameState fuel _ tile _ r hr
  have fs := executeTraversalSelect_frame selectPhaseMask_contains env
    (fun h => absurd h (by decide)) frameState fuel r.1 tile _ _ _ _ s3 h3
  obtain ⟨p1, e1, pushed, k1, k2, k3⟩ := executeTraversalRefine_phase env frameState fuel _ tile
    _ r hr
  have p2 := executeTraversalSelect_phase env frameState fuel r.1 tile _ _ _ _ s3 h3
  obtain ⟨⟨pushed', sorted, q1, q2, q3⟩, _, q4⟩ := executeTraversalRefine_stack env frameState
    fuel _ tile _ r hr
  have hpp : pushed' = pushed := by
    rw [k1] at q1
    exact (List.append_cancel_right q1).symm
  subst hpp
  have hct : canTraverse (updateTileAncestorContentLinks s tile frameState).tileset
      ((updateTileAncestorContentLinks s tile frameState).tiles tile)
      = canTraverse s.tileset (s.tiles tile) :=
    canTraverse_frame fl (by decide) (by decide) (by decide) tile
  have hch : ∀ x, ((updateTileAncestorContentLinks s tile frameState).tiles x).children
      = (s.tiles x).children := fun x => fl.tile .children (by decide) x
  refine ⟨s3, r.2, pushed', sorted, rfl, p1.phase_trans p2, ?_, ?_, ?_, q2, ?_, ?_, ?_,
    fun h => k2 (hct.trans h), ?_⟩
  · have hM : (Mask.of (.content :: traversalFields)).contains (.content :: traversalFields) :=
      Mask.contains_of _
    exact ((updateTileAncestorContentLinks_frame (hM.of_subset (by decide)) s tile
      frameState).trans
      (executeTraversalRefine_frame (hM.of_subset (by decide)) env
        (fun h => absurd h (by decide)) frameState fuel _ tile _ r hr)).trans
      (executeTraversalSelect_frame (hM.of_subset (by decide)) env
        (fun h => absurd h (by decide)) frameState fuel r.1 tile _ _ _ _ s3 h3)
  · rw [fs.global .traversal (by decide), k1, fl.global .traversal (by decide)]
  · rw [fs.global .traversal (by decide), e1, fl.global .traversal (by decide)]
  · rw [← hch tile]; exact q3
  · intro hst
    rw [fs.global .emptyTraversal (by decide)]
    exact q4 (by rw [fl.global .emptyTraversal (by decide)]; exact hst)
  · intro hds
    refine executeTraversalSelect_descendantStack env frameState fuel r.1 tile _ _ _ _ s3 ?_ h3
    rw [fr.global .descendantTraversal (by decide), fl.global .descendantTraversal (by decide)]
    exact hds
  · intro hc c hcm
    obtain ⟨a1, a2, a3⟩ := k3 (hct.trans hc) c (by rw [hch]; exact hcm)
    refine ⟨p2.vis.stamped_of a1, fun hv => a3 (p2.vis.visible_at a1 hv), fun hs hf => ?_⟩
    rcases p2.flag hs c hf with h | h
    · rw [a2] at h; cases h
    · unfold Flags at h ⊢
      rw [p1.frame.tilesetStatic._skipLevelOfDetail, p1.links tile,
        contentAvailable_congr (p1.content hs tile)] at h
      exact h

theorem length_le_stackSize {size : TileId → Nat} {s : State} (hS : SizeOK size s)
    (l : List TileId) : l.length ≤ stackSize size l := by
  induction l with
  | nil => simp [stackSize]
  | cons a l ih =>
    rw [stackSize_cons, List.length_cons]
    have := hS.size_pos a
    omega

theorem canTraverse_stable {s s' : State} (hf : Frame Mask.all s s') (x : TileId)
    (hc : (s'.tiles x).contentState = (s.tiles x).contentState)
    (he : (s'.tiles x)._screenSpaceError = (s.tiles x)._screenSpaceError) :
    canTraverse s'.tileset (s'.tiles x) = canTraverse s.tileset (s.tiles x) := by
  have e1 : (s'.tiles x).children.length = (s.tiles x).children.length :=
    (hf.tileStatic x).children.length_eq
  have e4 := congrArg ContentState.hasTilesetContent hc
  have e5 := congrArg ContentState.contentExpired hc
  simp only [Tile.contentState] at e4 e5
  unfold canTraverse
  rw [e1, he, e4, e5, hf.tilesetStatic._maximumScreenSpaceError]

theorem visitFinish_vis (s : State) (tile : TileId) (frameState : FrameState)
    (refines : Bool) :
    MonoVis frameState.frameNumber s
        ((touchTile (visitTile s tile frameState) tile frameState).setTile tile
          (fun t => { t with _refines := refines }))
      ∧ (((touchTile (visitTile s tile frameState) tile frameState).setTile tile
          (fun t => { t with _refines := refines })).tiles tile)._touchedFrame
        = frameState.frameNumber := by
  have f1 := visitTile_frame (M := Mask.of [._visitedFrame, ._statistics]) (Mask.contains_of _)
    s tile frameState
  have m1 : MonoVis frameState.frameNumber s (visitTile s tile frameState) :=
    MonoVis.vis_of_frame f1 rfl rfl rfl rfl rfl rfl
  obtain ⟨m2, t2⟩ := touchTile_mono frameState.frameNumber (visitTile s tile frameState) tile
    frameState rfl
  have f3 : Frame (Mask.of [._refines]) (touchTile (visitTile s tile frameState) tile frameState)
      ((touchTile (visitTile s tile frameState) tile frameState).setTile tile
        (fun t => { t with _refines := refines })) := by
    refine Frame.setTile _ _ _ ⟨List.Perm.refl _, rfl, rfl, rfl, rfl, rfl⟩ ?_
    intro fld hf; cases fld <;> first | rfl | trivial | exact absurd hf (by decide)
  refine ⟨(m1.vis_trans m2.toVis).vis_trans (MonoVis.vis_of_frame f3 rfl rfl rfl rfl rfl rfl), ?_⟩
  rw [f3.tile ._touchedFrame rfl tile]
  exact t2

/-- One iteration of the loop of `executeTraversal` keeps the part of the invariant that holds
in every traversal strategy, with the popped tile added to the visited tiles. -/
theorem GenCore.core_step (env : Env) (frameState : FrameState) (base : ℚ) (fuel : Nat)
    (size : TileId → Nat) (bound : Nat)
    (s0 s s1 : State) (V : List TileId) (tile : TileId) (rest : List TileId)
    (hS0 : SizeOK size s0)
    (hpc : ∀ p c, c ∈ (s0.tiles p).children → (s0.tiles c).parent = some p)
    (hroot : (s0.tiles s0.tileset.root).parent = none)
    (hnd : ∀ p, (s0.tiles p).children.Nodup)
    (inv : GenCore frameState size bound s0 s V) (hst : s.traversal.stack = tile :: rest)
    (hv : executeTraversalVisit env frameState base fuel
      { s with traversal :=
        { stack := rest
          stackMaximumLength := max s.traversal.stackMaximumLength (tile :: rest).length } }
      tile = some s1) :
    GenCore frameState size bound s0 s1 (tile :: V) := by
  obtain ⟨s3, refines, pushed, sorted, rfl, ph, F1, hstk, hmax, hsub, hperm, hem, hds, _, hch⟩ :=
    executeTraversalVisit_general env frameState base fuel
      { s with traversal :=
        { stack := rest
          stackMaximumLength := max s.traversal.stackMaximumLength (tile :: rest).length } }
      tile s1 hv
  have hem3 := hem inv.emptyStack
  have hds3 := hds inv.descendantStack
  have hS : SizeOK size s := hS0.of_frame inv.frame
  -- the popped tile
  have htile_stack : tile ∈ s.traversal.stack := by rw [hst]; exact List.mem_cons_self _ _
  have htV : tile ∉ V := inv.fresh tile htile_stack
  have hnd' := inv.nodup
  rw [hst] at hnd'
  have htrest : tile ∉ rest := (List.nodup_cons.mp hnd').1
  have hrestnd : rest.Nodup := (List.nodup_cons.mp hnd').2
  -- the pushed children
  have hchild0 : ∀ c ∈ pushed, c ∈ (s0.tiles tile).children := fun c hc => by
    have h1 : c ∈ sorted := hsub.subset (List.mem_reverse.mpr hc)
    have h2 : c ∈ (s.tiles tile).children := hperm.subset h1
    exact (inv.frame.tileStatic tile).children.subset h2
  have hchild : ∀ c ∈ pushed, (s0.tiles c).parent = some tile := fun c hc =>
    hpc tile c (hchild0 c hc)
  have hpnd : pushed.Nodup := by
    have h1 : sorted.Nodup :=
      (hperm.trans (inv.frame.tileStatic tile).children).nodup_iff.mpr (hnd tile)
    exact List.nodup_reverse.mp (hsub.nodup h1)
  have hparent_ne : ∀ x p, (x ∈ s.traversal.stack ∨ x ∈ V) → (s0.tiles x).parent = some p →
      p ∈ V := fun x p hx hp => by
    rcases inv.parent x hx with h | ⟨q, hq, hqV, _⟩
    · rw [h, hroot] at hp; cases hp
    · rw [hq] at hp; cases hp; exact hqV
  have hpushed_fresh : ∀ c ∈ pushed, c ∉ s.traversal.stack ∧ c ∉ V := fun c hc =>
    ⟨fun h => htV (hparent_ne c tile (Or.inl h) (hchild c hc)),
      fun h => htV (hparent_ne c tile (Or.inr h) (hchild c hc))⟩
  have hpsize : stackSize size pushed < size tile := by
    have h1 : stackSize size pushed ≤ stackSize size (s.tiles tile).children := by
      rw [← stackSize_perm size (List.reverse_perm pushed), ← stackSize_perm size hperm]
      exact List.Sublist.sum_le_sum (hsub.map size) (fun _ _ => Nat.zero_le _)
    exact lt_of_le_of_lt h1 (hS tile)
  -- the finish
  have Ff := visitFinish_frame
    (M := Mask.of [._visitedFrame, ._statistics, ._touchedFrame, ._cache, ._refines])
    (Mask.contains_of _) s3 tile frameState refines
  have hstack1 : ((touchTile (visitTile s3 tile frameState) tile frameState).setTile tile
      (fun t => { t with _refines := refines })).traversal.stack = pushed ++ rest := by
    rw [Ff.global .traversal (by decide)]; exact hstk
  have fl := updateTileAncestorContentLinks_frame
    (M := Mask.of [._ancestorWithContent, ._ancestorWithContentAvailable]) (Mask.contains_of _)
    { s with traversal :=
      { stack := rest
        stackMaximumLength := max s.traversal.stackMaximumLength (tile :: rest).length } }
    tile frameState
  have hvis0 := ((MonoVis.vis_of_frame (n := frameState.frameNumber) fl rfl rfl rfl rfl rfl
    rfl).vis_trans ph.vis).vis_trans (visitFinish_vis s3 tile frameState refines).1
  refine ⟨?_, ?_, ?_, ?_, ?_, ?_, ?_, ?_, ?_, ?_, ?_, ?_, cache_trans inv.touches hvis0.cache⟩
  · exact ((inv.frame.trans (Frame.setTraversal rfl s _)).trans
      (F1.mono (fun _ _ => rfl))).trans (Ff.mono (fun _ _ => rfl))
  · rw [Ff.global .selectionTraversal (by decide)]
    exact (F1.global .selectionTraversal (by decide)).trans inv.selectionTraversal
  · rw [Ff.global .emptyTraversal (by decide)]; exact hem3
  · rw [Ff.global .descendantTraversal (by decide)]; exact hds3
  · rw [hstack1]
    refine List.Nodup.append hpnd hrestnd ?_
    intro c hc1 hc2
    exact (hpushed_fresh c hc1).1 (by rw [hst]; exact List.mem_cons_of_mem _ hc2)
  · intro x hx
    rw [hstack1] at hx
    rcases List.mem_append.mp hx with h | h
    · intro h2
      rcases List.mem_cons.mp h2 with h3 | h3
      · subst h3
        exact (hpushed_fresh x h).1 htile_stack
      · exact (hpushed_fresh x h).2 h3
    · intro h2
      rcases List.mem_cons.mp h2 with h3 | h3
      · subst h3; exact htrest h
      · exact inv.fresh x (by rw [hst]; exact List.mem_cons_of_mem _ h) h3
  · intro x hx
    have key : x ∈ pushed ∨ (x ∈ s.traversal.stack ∨ x ∈ V) := by
      rcases hx with h | h
      · rw [hstack1] at h
        rcases List.mem_append.mp h with h | h
        · exact Or.inl h
        · exact Or.inr (Or.inl (by rw [hst]; exact List.mem_cons_of_mem _ h))
      · rcases List.mem_cons.mp h with h | h
        · exact Or.inr (Or.inl (h ▸ htile_stack))
        · exact Or.inr (Or.inr h)
    rcases key with h | h
    · exact Or.inr ⟨tile, hchild x h, List.mem_cons_self _ _, hchild0 x h⟩
    · rcases inv.parent x h with h1 | ⟨p, hp, hpV, hpc'⟩
      · exact Or.inl h1
      · exact Or.inr ⟨p, hp, List.mem_cons_of_mem _ hpV, hpc'⟩
  · rw [hstack1]
    rcases inv.root with h | h
    · rw [hst] at h
      rcases List.mem_cons.mp h with h | h
      · exact Or.inr (h ▸ List.mem_cons_self _ _)
      · exact Or.inl (List.mem_append_right _ h)
    · exact Or.inr (List.mem_cons_of_mem _ h)
  · rw [hstack1, stackSize_append]
    have := inv.sizeBound
    rw [hst, stackSize_cons] at this
    omega
  · rw [Ff.global .traversal (by decide), hmax]
    show max s.traversal.stackMaximumLength (tile :: rest).length ≤ _
    have h1 := inv.maxLength
    have h2 := length_le_stackSize hS (tile :: rest)
    have h3 := inv.sizeBound
    rw [hst] at h3
    have h4 : (tile :: rest).length ≤ bound := le_trans h2 h3
    exact max_le h1 (le_trans h4 (le_max_right _ _))
  · intro x hx
    rw [visitFinish_visitedFrame]
    split
    · rfl
    · rw [F1.tile ._visitedFrame (by decide) x]
      rcases List.mem_cons.mp hx with h | h
      · rename_i hne; exact absurd h hne
      · exact inv.visitedStamp x h
  · intro hfresh x hx
    rw [visitFinish_visitedFrame] at hx
    split at hx
    · rename_i h; subst h; exact List.mem_cons_self _ _
    · rw [F1.tile ._visitedFrame (by decide) x] at hx
      exact List.mem_cons_of_mem _ (inv.stamped hfresh x hx)

theorem properAncestor_parent {s : State} {x p b : TileId}
    (hp : (s.tiles x).parent = some p) (h : ProperAncestor s b x) :
    b = p ∨ ProperAncestor s b p := by
  unfold ProperAncestor at h ⊢
  cases h with
  | single h1 =>
    rw [hp] at h1
    exact Or.inl (Option.some.inj h1).symm
  | tail hab hbc =>
    rw [hp] at hbc
    cases hbc
    exact Or.inr hab

theorem properAncestor_of_root {s : State} {x b : TileId}
    (hp : (s.tiles x).parent = none) (h : ProperAncestor s b x) : False := by
  unfold ProperAncestor at h
  cases h with
  | single h1 => rw [hp] at h1; cases h1
  | tail hab hbc => rw [hp] at hbc; cases hbc

theorem nearestAvailable_root {s : State} {x : TileId} (hp : (s.tiles x).parent = none) :
    NearestAvailable s x none :=
  fun _ h => (properAncestor_of_root hp h).elim

theorem nearestAvailable_child {s : State} {x p : TileId} {l : Option TileId}
    (hp : (s.tiles x).parent = some p) (hirr : ¬ProperAncestor s p p)
    (hN : NearestAvailable s p l) :
    NearestAvailable s x (if (s.tiles p).contentAvailable = true then some p else l) := by
  have hpx : ProperAncestor s p x := Relation.TransGen.single hp
  split
  · rename_i ha
    refine ⟨hpx, ha, fun b hb hpb => ?_⟩
    rcases properAncestor_parent hp hb with h | h
    · subst h; exact absurd hpb hirr
    · exact absurd (Relation.TransGen.trans hpb h) hirr
  · rename_i ha
    have ha' : (s.tiles p).contentAvailable = false := by simpa using ha
    cases l with
    | none =>
      intro b hb
      rcases properAncestor_parent hp hb with h | h
      · subst h; exact ha'
      · exact hN b h
    | some a =>
      obtain ⟨h1, h2, h3⟩ := hN
      refine ⟨Relation.TransGen.tail h1 hp, h2, fun b hb hab => ?_⟩
      rcases properAncestor_parent hp hb with h | h
      · subst h; exact ha'
      · exact h3 b h hab

/-- A proper ancestor of a tile that is on the stack or visited is visited, and larger. -/
theorem GenCore.ancestor {frameState : FrameState} {size : TileId → Nat} {bound : Nat}
    {s0 s : State} {V : List TileId} (inv : GenCore frameState size bound s0 s V)
    (hS0 : SizeOK size s0) (hroot : (s0.tiles s0.tileset.root).parent = none)
    {b x : TileId} (h : ProperAncestor s0 b x) (hx : x ∈ s.traversal.stack ∨ x ∈ V) :
    b ∈ V ∧ size x < size b := by
  unfold ProperAncestor at h
  induction h with
  | single h1 =>
    rcases inv.parent _ hx with h | ⟨p, hp, hpV, hc⟩
    · rw [h, hroot] at h1; cases h1
    · rw [hp] at h1
      cases h1
      exact ⟨hpV, hS0.child_lt hc⟩
  | tail hab hbc ih =>
    rcases inv.parent _ hx with h | ⟨p, hp, hpV, hc⟩
    · rw [h, hroot] at hbc; cases hbc
    · rw [hp] at hbc
      cases hbc
      obtain ⟨h1, h2⟩ := ih (Or.inr hpV)
      exact ⟨h1, lt_trans (hS0.child_lt hc) h2⟩

/-- One iteration of the loop of `executeTraversal` keeps the part of the invariant that holds
when no content expires, with the popped tile added to the visited tiles. -/
theorem GenStable.stable_step (env : Env) (frameState : FrameState) (base : ℚ) (fuel : Nat)
    (size : TileId → Nat) (bound : Nat)
    (s0 s s1 : State) (V : List TileId) (tile : TileId) (rest : List TileId)
    (hs : env.ContentStable) (hS0 : SizeOK size s0)
    (hroot : (s0.tiles s0.tileset.root).parent = none)
    (core : GenCore frameState size bound s0 s V)
    (inv : GenStable env frameState s0 s V) (hst : s.traversal.stack = tile :: rest)
    (hv : executeTraversalVisit env frameState base fuel
      { s with traversal :=
        { stack := rest
          stackMaximumLength := max s.traversal.stackMaximumLength (tile :: rest).length } }
      tile = some s1) :
    GenStable env frameState s0 s1 (tile :: V) := by
  obtain ⟨s3, refines, pushed, sorted, rfl, ph, F1, hstk, hmax, hsub, hperm, hem, hds, hnil,
      hch⟩ :=
    executeTraversalVisit_general env frameState base fuel
      { s with traversal :=
        { stack := rest
          stackMaximumLength := max s.traversal.stackMaximumLength (tile :: rest).length } }
      tile s1 hv
  have htile_stack : tile ∈ s.traversal.stack := by rw [hst]; exact List.mem_cons_self _ _
  have htV : tile ∉ V := core.fresh tile htile_stack
  have fl := updateTileAncestorContentLinks_frame
    (M := Mask.of [._ancestorWithContent, ._ancestorWithContentAvailable]) (Mask.contains_of _)
    { s with traversal :=
      { stack := rest
        stackMaximumLength := max s.traversal.stackMaximumLength (tile :: rest).length } }
    tile frameState
  have Ff := visitFinish_frame
    (M := Mask.of [._visitedFrame, ._statistics, ._touchedFrame, ._cache, ._refines])
    (Mask.contains_of _) s3 tile frameState refines
  obtain ⟨vf, tf⟩ := visitFinish_vis s3 tile frameState refines
  have hstack1 : ((touchTile (visitTile s3 tile frameState) tile frameState).setTile tile
      (fun t => { t with _refines := refines })).traversal.stack = pushed ++ rest := by
    rw [Ff.global .traversal (by decide)]; exact hstk
  -- from the state at the pop to the state after the visit
  have hvis0 := ((MonoVis.vis_of_frame (n := frameState.frameNumber) fl rfl rfl rfl rfl rfl
    rfl).vis_trans ph.vis).vis_trans vf
  have hvis : MonoVis frameState.frameNumber s
      ((touchTile (visitTile s3 tile frameState) tile frameState).setTile tile
        (fun t => { t with _refines := refines })) :=
    ⟨hvis0.tilesetStamp, hvis0.stamp, hvis0.touched, hvis0.cache⟩
  have hframe : Frame Mask.all s
      ((touchTile (visitTile s3 tile frameState) tile frameState).setTile tile
        (fun t => { t with _refines := refines })) :=
    ((Frame.setTraversal rfl s _).trans (F1.mono (fun _ _ => rfl))).trans
      (Ff.mono (fun _ _ => rfl))
  have hcl : ∀ x, ((updateTileAncestorContentLinks
      { s with traversal :=
        { stack := rest
          stackMaximumLength := max s.traversal.stackMaximumLength (tile :: rest).length } }
      tile frameState).tiles x).contentState = (s0.tiles x).contentState := fun x =>
    (fl.tile .content (by decide) x).trans (inv.content x)
  have hc3 : ∀ x, (s3.tiles x).contentState = (s0.tiles x).contentState := fun x =>
    (ph.content hs x).trans (hcl x)
  have hcontent : ∀ x, (((touchTile (visitTile s3 tile frameState) tile frameState).setTile tile
      (fun t => { t with _refines := refines })).tiles x).contentState
      = (s0.tiles x).contentState := fun x =>
    (Ff.tile .content (by decide) x).trans (hc3 x)
  have hpar : ∀ x, (s.tiles x).parent = (s0.tiles x).parent :=
    fun x => (core.frame.tileStatic x).parent
  have hmem : ∀ x, x ∈ pushed ++ rest ∨ x ∈ tile :: V →
      x ∈ pushed ∨ (x ∈ s.traversal.stack ∨ x ∈ V) := by
    intro x hx
    rcases hx with h | h
    · rcases List.mem_append.mp h with h | h
      · exact Or.inl h
      · exact Or.inr (Or.inl (by rw [hst]; exact List.mem_cons_of_mem _ h))
    · rcases List.mem_cons.mp h with h | h
      · exact Or.inr (Or.inl (h ▸ htile_stack))
      · exact Or.inr (Or.inr h)
  have hold : ∀ x, (x ∈ s.traversal.stack ∨ x ∈ V) → x ∈ pushed ++ rest ∨ x ∈ tile :: V := by
    intro x hx
    rcases hx with h | h
    · rw [hst] at h
      rcases List.mem_cons.mp h with h | h
      · exact Or.inr (h ▸ List.mem_cons_self _ _)
      · exact Or.inl (List.mem_append_right _ h)
    · exact Or.inr (List.mem_cons_of_mem _ h)
  have hct : pushed ≠ [] → canTraverse s.tileset (s.tiles tile) = true := by
    intro hne
    cases hc : canTraverse s.tileset (s.tiles tile) with
    | true => rfl
    | false => exact absurd (hnil hc) hne
  have hchildren : ∀ c, c ∈ (s0.tiles tile).children → c ∈ (s.tiles tile).children :=
    fun c hc => (core.frame.tileStatic tile).children.symm.subset hc
  -- the link of the popped tile
  have hlink : NearestAvailable s0 tile ((updateTileAncestorContentLinks
      { s with traversal :=
        { stack := rest
          stackMaximumLength := max s.traversal.stackMaximumLength (tile :: rest).length } }
      tile frameState).tiles tile)._ancestorWithContentAvailable := by
    rcases core.parent tile (Or.inl htile_stack) with h | ⟨p, hp, hpV, hc⟩
    · have hp0 : (s0.tiles tile).parent = none := by rw [h]; exact hroot
      rw [updateTileAncestorContentLinks_link _ _ _ (by
        show (s.tiles tile).parent ≠ some tile
        rw [hpar, hp0]; exact fun h => by cases h)]
      have : (s.tiles tile).parent = none := by rw [hpar, hp0]
      show NearestAvailable s0 tile (match (s.tiles tile).parent with
        | none => none
        | some p => if (s.tiles p).contentAvailable = true then some p
          else (s.tiles p)._ancestorWithContentAvailable)
      rw [this]
      exact nearestAvailable_root hp0
    · have hne : p ≠ tile := fun h => htV (h ▸ hpV)
      rw [updateTileAncestorContentLinks_link _ _ _ (by
        show (s.tiles tile).parent ≠ some tile
        rw [hpar, hp]; exact fun h => hne (Option.some.inj h))]
      have : (s.tiles tile).parent = some p := by rw [hpar, hp]
      show NearestAvailable s0 tile (match (s.tiles tile).parent with
        | none => none
        | some p => if (s.tiles p).contentAvailable = true then some p
          else (s.tiles p)._ancestorWithContentAvailable)
      rw [this]
      simp only []
      rw [contentAvailable_congr (inv.content p)]
      exact nearestAvailable_child hp
        (fun h => absurd (core.ancestor hS0 hroot h (Or.inr hpV)).2 (lt_irrefl _))
        (inv.links p hpV)
  have hflags : ∀ x, Flags (updateTileAncestorContentLinks
      { s with traversal :=
        { stack := rest
          stackMaximumLength := max s.traversal.stackMaximumLength (tile :: rest).length } }
      tile frameState) tile x → (s0.tiles x).contentAvailable = true := by
    intro x hx
    obtain ⟨_, h | ⟨h1, h2⟩⟩ := hx
    · obtain ⟨rfl, h⟩ := h
      rw [← contentAvailable_congr (hcl x)]; exact h
    · rw [h2] at hlink
      exact hlink.2.1
  refine ⟨hcontent, ?_, ?_, ?_, ?_, ?_, ?_⟩
  · -- stampedMember
    intro x hx
    rw [hstack1] at hx
    rcases hmem x hx with h | h
    · exact vf.stamped_of (hch (hct (List.ne_nil_of_mem h)) x
        (hperm.subset (hsub.subset (List.mem_reverse.mpr h)))).1
    · exact hvis.stamped_of (inv.stampedMember x h)
  · -- reach
    intro p hp hcan c hc
    rw [hstack1]
    have hpm : p ∈ s.traversal.stack ∨ p ∈ V := by
      rcases List.mem_cons.mp hp with h | h
      · exact Or.inl (h ▸ htile_stack)
      · exact Or.inr h
    have hcan0 : canTraverse s.tileset (s.tiles p) = true := by
      rw [← canTraverse_stable hframe p ((hcontent p).trans (inv.content p).symm)
        (hvis.screenSpaceError (inv.stampedMember p hpm))]
      exact hcan
    rcases List.mem_cons.mp hp with h | h
    · subst h
      obtain ⟨a1, a2, _⟩ := hch hcan0 c (hchildren c hc)
      refine ⟨vf.stamped_of a1, fun hv => Or.inl (List.mem_append_left _ (a2 ?_))⟩
      exact vf.visible_at a1 hv
    · obtain ⟨a1, a2⟩ := inv.reach p h hcan0 c hc
      exact ⟨hvis.stamped_of a1, fun hv => hold c (a2 (hvis.visible_at a1 hv))⟩
  · -- touched
    intro x hx
    rcases List.mem_cons.mp hx with h | h
    · subst h; exact tf
    · exact hvis.touched x (inv.touched x h)
  · -- selected
    intro x hx
    rw [Ff.global ._selectedTiles (by decide)] at hx
    obtain ⟨out, e, p⟩ := ph.selected
    rw [e, fl.global ._selectedTiles (by decide)] at hx
    rcases List.mem_append.mp hx with h | h
    · obtain ⟨a1, a2, a3⟩ := inv.selected x h
      exact ⟨hvis.touched x a1, a2, a3⟩
    · obtain ⟨a1, a2, a3⟩ := p x h
      refine ⟨?_, a2, ?_⟩
      · rcases a1 with a1 | a1
        · subst a1; exact tf
        · exact vf.touched x a1
      · rw [← contentAvailable_congr (hcl x)]; exact a3 hs
  · -- flag
    intro x hx hf
    rw [hstack1] at hx
    rw [Ff.tile ._shouldSelect (by decide) x] at hf
    rcases hmem x hx with h | h
    · exact hflags x ((hch (hct (List.ne_nil_of_mem h)) x
        (hperm.subset (hsub.subset (List.mem_reverse.mpr h)))).2.2 hs hf)
    · rcases ph.flag hs x hf with h1 | h1
      · rw [fl.tile ._shouldSelect (by decide) x] at h1
        exact inv.flag x h h1
      · exact hflags x h1
  · -- links
    intro x hx
    rw [Ff.tile ._ancestorWithContentAvailable (by decide) x, ph.links x]
    rcases List.mem_cons.mp hx with h | h
    · subst h; exact hlink
    · have hne : x ≠ tile := fun h1 => htV (h1 ▸ h)
      rw [updateTileAncestorContentLinks_tiles_ne _ _ _ _ hne]
      exact inv.links x h

/-- With enough fuel the loop of `executeTraversal` returns, in every traversal strategy, and
its invariant holds at the end, with an empty stack. -/
theorem executeTraversalLoop_general (env : Env) (frameState : FrameState) (base : ℚ)
    (size : TileId → Nat) (bound : Nat) (s0 : State)
    (hS0 : SizeOK size s0)
    (hpc : ∀ p c, c ∈ (s0.tiles p).children → (s0.tiles c).parent = some p)
    (hroot : (s0.tiles s0.tileset.root).parent = none)
    (hnd : ∀ p, (s0.tiles p).children.Nodup)
    (fuel : Nat) (s : State) (V : List TileId)
    (core : GenCore frameState size bound s0 s V)
    (stable : env.ContentStable → GenStable env frameState s0 s V)
    (hfuel : stackSize size s.traversal.stack + 2 ≤ fuel) :
    ∃ s' V', executeTraversalLoop env frameState base fuel s = some s'
      ∧ GenCore frameState size bound s0 s' V'
      ∧ (env.ContentStable → GenStable env frameState s0 s' V')
      ∧ s'.traversal.stack = [] := by
  induction fuel generalizing s V with
  | zero => omega
  | succ n ih =>
    unfold executeTraversalLoop
    split
    · rename_i hst
      exact ⟨s, V, rfl, core, stable, hst⟩
    · rename_i tile rest hst
      simp only []
      rw [hst, stackSize_cons] at hfuel
      have hS : SizeOK size s := hS0.of_frame core.frame
      obtain ⟨s1, h1⟩ := executeTraversalVisit_isSome env frameState base size n
        { s with traversal :=
          { stack := rest
            stackMaximumLength := max s.traversal.stackMaximumLength (tile :: rest).length } }
        tile (fun p => hS p) core.emptyStack core.descendantStack (by omega)
      have core1 := GenCore.core_step env frameState base n size bound s0 s s1 V tile rest hS0 hpc
        hroot hnd core hst h1
      have stable1 : env.ContentStable → GenStable env frameState s0 s1 (tile :: V) :=
        fun hs => GenStable.stable_step env frameState base n size bound s0 s s1 V tile rest hs hS0
          hroot core (stable hs) hst h1
      obtain ⟨s3, refines, pushed, sorted, rfl, _, F1, hstk, _, hsub, hperm, _⟩ :=
        executeTraversalVisit_general env frameState base n
          { s with traversal :=
            { stack := rest
              stackMaximumLength := max s.traversal.stackMaximumLength (tile :: rest).length } }
          tile s1 h1
      have Ff := visitFinish_frame
        (M := Mask.of [._visitedFrame, ._statistics, ._touchedFrame, ._cache, ._refines])
        (Mask.contains_of _) s3 tile frameState refines
      rw [h1]
      simp only []
      refine ih _ (tile :: V) core1 stable1 ?_
      rw [Ff.global .traversal (by decide), hstk]
      show stackSize size (pushed ++ rest) + 2 ≤ n
      rw [stackSize_append]
      have h2 : stackSize size pushed ≤ stackSize size (s.tiles tile).children := by
        rw [← stackSize_perm size (List.reverse_perm pushed), ← stackSize_perm size hperm]
        exact List.Sublist.sum_le_sum (hsub.map size) (fun _ _ => Nat.zero_le _)
      have h3 := hS tile
      omega

theorem properAncestor_congr {s s' : State}
    (hp : ∀ x, (s'.tiles x).parent = (s.tiles x).parent) (a x : TileId) :
    ProperAncestor s' a x ↔ ProperAncestor s a x := by
  have : (fun p c => (s'.tiles c).parent = some p) = (fun p c => (s.tiles c).parent = some p) := by
    funext p c; rw [hp]
  unfold ProperAncestor
  rw [this]

theorem nearestAvailable_congr {s s' : State}
    (hp : ∀ x, (s'.tiles x).parent = (s.tiles x).parent)
    (hc : ∀ x, (s'.tiles x).contentAvailable = (s.tiles x).contentAvailable)
    (x : TileId) (a : Option TileId) (h : NearestAvailable s x a) :
    NearestAvailable s' x a := by
  cases a with
  | none =>
    intro b hb
    rw [hc]
    exact h b ((properAncestor_congr hp b x).mp hb)
  | some a =>
    obtain ⟨h1, h2, h3⟩ := h
    refine ⟨(properAncestor_congr hp a x).mpr h1, by rw [hc]; exact h2, fun b hb hab => ?_⟩
    rw [hc]
    exact h3 b ((properAncestor_congr hp b x).mp hb) ((properAncestor_congr hp a b).mp hab)

/-- The tiles the selection pass reaches from a visited tile were visited, when the main
traversal has emptied its stack. -/
theorem GenStable.path {env : Env} {frameState : FrameState} {s0 s : State}
    {V : List TileId} (inv : GenStable env frameState s0 s V) (hf : Frame Mask.all s0 s)
    (hst : s.traversal.stack = []) {c x : TileId} {l : List TileId}
    (h : SelectionPath s c l x) (hc : c ∈ V) : x ∈ V := by
  induction h with
  | nil t => exact hc
  | cons hch _ ih =>
    obtain ⟨h1, h2, h3⟩ := hch
    rcases (inv.reach _ hc h1 _ ((hf.tileStatic _).children.subset h2)).2 h3 with h | h
    · rw [hst] at h; cases h
    · exact ih h

/-- A frame keeps a tree of tiles well formed, when the stacks are empty at the end. -/
theorem WellFormed.wf_of_frame {size : TileId → Nat} {s s' : State} (hwf : WellFormed size s)
    (hf : Frame Mask.all s s') (h1 : s'.traversal.stack = [])
    (h2 : s'.emptyTraversal.stack = []) (h3 : s'.descendantTraversal.stack = [])
    (h4 : s'.selectionTraversal.stack = []) (h5 : s'.selectionTraversal.ancestorStack = []) :
    WellFormed size s' := by
  refine ⟨hwf.sizeOK.of_frame hf, ?_, ?_, ?_, h1, h2, h3, h4, h5⟩
  · intro p c hc
    rw [(hf.tileStatic c).parent]
    exact hwf.parent_of_child p c ((hf.tileStatic p).children.subset hc)
  · rw [hf.tilesetStatic.root, (hf.tileStatic _).parent]
    exact hwf.root_parent
  · intro p
    exact (hf.tileStatic p).children.nodup_iff.mpr (hwf.children_nodup p)

/-- The main traversal as `selectTiles` runs it, after the update of the root: it returns, and
its invariant holds at the end, with an empty stack.  `s` is the state at the start of
`selectTiles` and `s1` the state after the update of the root. -/
theorem executeTraversal_general (env : Env) (frameState : FrameState) (size : TileId → Nat)
    (fuel : Nat) (s s1 : State) (base maximum : ℚ) (hwf : WellFormed size s)
    (h1 : updateTile env frameState fuel
      { s with tileset := { s.tileset with
          _requestedTiles := [], _selectedTiles := [], _selectedTilesToStyle := [],
          _emptyTiles := [], _hasMixedContent := false } } s.tileset.root = some s1)
    (hfuel : size s.tileset.root + 2 ≤ fuel) :
    ∃ s2 V, executeTraversal env frameState fuel s1 s.tileset.root base maximum = some s2
      ∧ GenCore frameState size (size s.tileset.root) s s2 V
      ∧ (env.ContentStable → GenStable env frameState s s2 V)
      ∧ s2.traversal.stack = [] := by
  have fc : Frame Mask.all s
      { s with tileset := { s.tileset with
        _requestedTiles := [], _selectedTiles := [], _selectedTilesToStyle := [],
        _emptyTiles := [], _hasMixedContent := false } } :=
    Frame.all_of_static _ _ (fun _ => Tile.Static.tile_refl _) (by constructor <;> rfl)
  have key : ∀ M : Mask, M.contains updateTileFields → (M .content = false → env.ContentStable) →
      Frame M { s with tileset := { s.tileset with
        _requestedTiles := [], _selectedTiles := [], _selectedTilesToStyle := [],
        _emptyTiles := [], _hasMixedContent := false } } s1 := fun M hM hc =>
    updateTile_frame hM env hc frameState fuel _ _ s1 h1
  have fu := key (Mask.of (.content :: updateTileFields)) ((Mask.contains_of _).of_subset (by decide))
    (fun h => absurd h (by decide))
  obtain ⟨mu, st1, fl1⟩ := updateTile_mono frameState.frameNumber env frameState fuel _ _ s1 h1
  have hsel1 : s1.tileset._selectedTiles = [] := fu.global ._selectedTiles (by decide)
  have hstack1 : s1.traversal.stack = [] := by
    rw [fu.global .traversal (by decide)]; exact hwf.traversal_stack
  have hmax1 : s1.traversal.stackMaximumLength = s.traversal.stackMaximumLength :=
    congrArg Traversal.stackMaximumLength (fu.global .traversal (by decide))
  have core0 : GenCore frameState size (size s.tileset.root) s
      { s1 with traversal := { s1.traversal with stack := [s.tileset.root] } } [] := by
    refine ⟨?_, ?_, ?_, ?_, List.nodup_singleton _, fun _ _ h => (by cases h), ?_,
      Or.inl (List.mem_singleton_self _), ?_, ?_, fun _ h => (by cases h), ?_, mu.cache⟩
    · exact (fc.trans (fu.mono (fun _ _ => rfl))).trans (Frame.setTraversal rfl _ _)
    · exact fu.global .selectionTraversal (by decide)
    · show s1.emptyTraversal.stack = []
      rw [fu.global .emptyTraversal (by decide)]; exact hwf.emptyTraversal_stack
    · show s1.descendantTraversal.stack = []
      rw [fu.global .descendantTraversal (by decide)]; exact hwf.descendantTraversal_stack
    · intro x hx
      rcases hx with h | h
      · exact Or.inl (by simpa using h)
      · cases h
    · show stackSize size [s.tileset.root] ≤ size s.tileset.root
      simp [stackSize]
    · show s1.traversal.stackMaximumLength ≤ _
      rw [hmax1]; exact le_max_left _ _
    · intro hfresh x hx
      have : (s1.tiles x)._visitedFrame = frameState.frameNumber := hx
      rw [fu.tile ._visitedFrame (by decide) x] at this
      exact absurd this (hfresh x)
  have stable0 : env.ContentStable → GenStable env frameState s
      { s1 with traversal := { s1.traversal with stack := [s.tileset.root] } } [] := by
    intro hs
    refine ⟨?_, ?_, fun _ h => (by cases h), fun _ h => (by cases h), ?_, ?_,
      fun _ h => (by cases h)⟩
    · intro x
      exact (key (Mask.of updateTileFields) (Mask.contains_of _) (fun _ => hs)).tile
        .content (by decide) x
    · intro x hx
      rcases hx with h | h
      · have : x = s.tileset.root := by simpa using h
        subst this
        exact st1
      · cases h
    · intro x hx
      have : x ∈ s1.tileset._selectedTiles := hx
      rw [hsel1] at this; cases this
    · intro x hx hf
      rcases hx with h | h
      · have : x = s.tileset.root := by simpa using h
        subst this
        have hf' : (s1.tiles s.tileset.root)._shouldSelect = true := hf
        rw [fl1] at hf'; cases hf'
      · cases h
  unfold executeTraversal
  simp only [hstack1]
  exact executeTraversalLoop_general env frameState base size (size s.tileset.root) s
    hwf.sizeOK hwf.parent_of_child hwf.root_parent hwf.children_nodup fuel _ [] core0 stable0
    (by simp [stackSize]; omega)

/-- The facts about the state after `selectTiles` that follow from the invariant of the main
traversal at its end. -/
theorem GenCore.done {env : Env} {frameState : FrameState} {size : TileId → Nat}
    {s s2 : State} {V : List TileId} (hwf : WellFormed size s)
    (core : GenCore frameState size (size s.tileset.root) s s2 V)
    (stable : env.ContentStable → GenStable env frameState s s2 V)
    (hst : s2.traversal.stack = []) :
    WellFormed size s2
      ∧ Frame Mask.all s s2
      ∧ s2.traversal.stackMaximumLength
        ≤ max s.traversal.stackMaximumLength (size s.tileset.root)
      ∧ (env.ContentStable → ∀ x ∈ s2.tileset._selectedTiles,
          (s2.tiles x)._touchedFrame = frameState.frameNumber
            ∧ env.contentVisibility frameState x ≠ Intersect.OUTSIDE
            ∧ (s2.tiles x).contentAvailable = true)
      ∧ (env.ContentStable → (∀ x, (s.tiles x)._visitedFrame ≠ frameState.frameNumber) →
          ∀ x, (s2.tiles x)._visitedFrame = frameState.frameNumber →
            NearestAvailable s2 x (s2.tiles x)._ancestorWithContentAvailable)
      ∧ (∃ l, s2.tileset._cache = s.tileset._cache ++ l
        ∧ ∀ x, (s2.tiles x)._touchedFrame = frameState.frameNumber →
            (s.tiles x)._touchedFrame = frameState.frameNumber ∨ x ∈ l) := by
  refine ⟨hwf.wf_of_frame core.frame hst core.emptyStack core.descendantStack ?_ ?_, core.frame,
    core.maxLength, ?_, ?_, core.touches⟩
  · rw [core.selectionTraversal]; exact hwf.selectionTraversal_stack
  · rw [core.selectionTraversal]; exact hwf.selectionTraversal_ancestorStack
  · intro hs x hx
    obtain ⟨a1, a2, a3⟩ := (stable hs).selected x hx
    exact ⟨a1, a2, by rw [contentAvailable_congr ((stable hs).content x)]; exact a3⟩
  · intro hs hfresh x hx
    exact nearestAvailable_congr (fun y => (core.frame.tileStatic y).parent)
      (fun y => contentAvailable_congr ((stable hs).content y)) x _
      ((stable hs).links x (core.stamped hfresh x hx))

/-- The selection pass after the main traversal: it returns, and the facts about the state
after `selectTiles` hold. -/
theorem traverseAndSelect_general (env : Env) (frameState : FrameState) (size : TileId → Nat)
    (fuel : Nat) (s s2 : State) (V : List TileId) (hwf : WellFormed size s)
    (core : GenCore frameState size (size s.tileset.root) s s2 V)
    (stable : env.ContentStable → GenStable env frameState s s2 V)
    (hst : s2.traversal.stack = [])
    (hfuel : 2 * size s.tileset.root + 1 ≤ fuel) :
    ∃ s3, traverseAndSelect env frameState fuel s2 s.tileset.root = some s3
      ∧ WellFormed size s3
      ∧ Frame Mask.all s s3
      ∧ s3.traversal.stackMaximumLength
        ≤ max s.traversal.stackMaximumLength (size s.tileset.root)
      ∧ (env.ContentStable → ∀ x ∈ s3.tileset._selectedTiles,
          (s3.tiles x)._touchedFrame = frameState.frameNumber
            ∧ env.contentVisibility frameState x ≠ Intersect.OUTSIDE
            ∧ (s3.tiles x).contentAvailable = true)
      ∧ (env.ContentStable → (∀ x, (s.tiles x)._visitedFrame ≠ frameState.frameNumber) →
          ∀ x, (s3.tiles x)._visitedFrame = frameState.frameNumber →
            NearestAvailable s3 x (s3.tiles x)._ancestorWithContentAvailable)
      ∧ (∃ l, s3.tileset._cache = s.tileset._cache ++ l
        ∧ ∀ x, (s3.tiles x)._touchedFrame = frameState.frameNumber →
            (s.tiles x)._touchedFrame = frameState.frameNumber ∨ x ∈ l) := by
  obtain ⟨wf2, f2, m2, sel2, l2, t2⟩ := core.done hwf stable hst
  obtain ⟨k, s3, la, out, h3, hanc, hsel, d⟩ := traverseAndSelect_done env frameState size fuel
    s2 s.tileset.root wf2.sizeOK wf2.parent_of_child wf2.children_nodup
    wf2.selectionTraversal_stack wf2.selectionTraversal_ancestorStack hfuel
  have f3 := d.frame
  have hroot : s.tileset.root ∈ V := by
    rcases core.root with h | h
    · rw [hst] at h; cases h
    · exact h
  refine ⟨s3, h3, ?_, f2.trans (f3.mono (fun _ _ => rfl)), ?_, ?_, ?_,
    cache_trans t2 (cache_of_eq (f3.global ._cache (by decide))
      (f3.tile ._touchedFrame (by decide)))⟩
  · refine wf2.wf_of_frame (f3.mono (fun _ _ => rfl)) ?_ ?_ ?_ d.stack hanc
    · rw [f3.global .traversal (by decide)]; exact hst
    · rw [f3.global .emptyTraversal (by decide)]; exact wf2.emptyTraversal_stack
    · rw [f3.global .descendantTraversal (by decide)]; exact wf2.descendantTraversal_stack
  · rw [f3.global .traversal (by decide)]; exact m2
  · intro hs x hx
    rw [f3.tile ._touchedFrame (by decide) x, contentAvailable_congr (f3.tile .content
      (by decide) x)]
    rw [hsel] at hx
    rcases List.mem_append.mp hx with h | h
    · exact sel2 hs x h
    · obtain ⟨a1, a2, c, hc, l, hl⟩ := d.sound x h
      rw [List.mem_singleton.1 hc] at hl
      have hxV := (stable hs).path core.frame hst hl hroot
      refine ⟨(stable hs).touched x hxV, a2, ?_⟩
      rw [contentAvailable_congr ((stable hs).content x)]
      exact (stable hs).flag x (Or.inr hxV) a1
  · intro hs hfresh x hx
    rw [f3.tile ._visitedFrame (by decide) x] at hx
    rw [f3.tile ._ancestorWithContentAvailable (by decide) x]
    exact nearestAvailable_congr (fun y => (f3.tileStatic y).parent)
      (fun y => contentAvailable_congr (f3.tile .content (by decide) y)) x _
      (l2 hs hfresh x hx)

/-- On a finite tree of tiles `selectTiles` returns, in every traversal strategy; it leaves the
tree well formed and the stacks empty, the high-water mark of the traversal stack is at most
the larger of its old value and the size of the tree, and, when no content expires during the
call, every selected tile has been touched in this frame and has available content in view,
and the `_ancestorWithContentAvailable` of every tile visited in this frame is its nearest
proper ancestor with available content; every tile touched in this frame at the end was
touched in it before the call or has been appended to `_cache` by the call. -/
theorem selectTiles_general (env : Env) (frameState : FrameState) (size : TileId → Nat)
    (fuel : Nat) (s : State) (hwf : WellFormed size s)
    (hfuel : 2 * size s.tileset.root + 1 ≤ fuel) :
    ∃ s', selectTiles env frameState fuel s = some s'
      ∧ WellFormed size s'
      ∧ Frame Mask.all s s'
      ∧ s'.traversal.stackMaximumLength
        ≤ max s.traversal.stackMaximumLength (size s.tileset.root)
      ∧ (env.ContentStable → s.tileset.debugFreezeFrame = false →
          ∀ x ∈ s'.tileset._selectedTiles,
            (s'.tiles x)._touchedFrame = frameState.frameNumber
              ∧ env.contentVisibility frameState x ≠ Intersect.OUTSIDE
              ∧ (s'.tiles x).contentAvailable = true)
      ∧ (env.ContentStable → (∀ x, (s.tiles x)._visitedFrame ≠ frameState.frameNumber) →
          ∀ x, (s'.tiles x)._visitedFrame = frameState.frameNumber →
            NearestAvailable s' x (s'.tiles x)._ancestorWithContentAvailable)
      ∧ (∃ l, s'.tileset._cache = s.tileset._cache ++ l
        ∧ ∀ x, (s'.tiles x)._touchedFrame = frameState.frameNumber →
            (s.tiles x)._touchedFrame = frameState.frameNumber ∨ x ∈ l) := by
  have hpos := hwf.sizeOK.size_pos s.tileset.root
  rw [selectTiles_eq]
  by_cases hfreeze : s.tileset.debugFreezeFrame = true
  · rw [if_pos hfreeze]
    have f0 : Frame Mask.all s { s with tileset := { s.tileset with _requestedTiles := [] } } :=
      Frame.all_of_static _ _ (fun _ => Tile.Static.tile_refl _) (by constructor <;> rfl)
    refine ⟨_, rfl, ?_, f0, le_max_left _ _, ?_, ?_, cache_of_eq rfl (fun _ => rfl)⟩
    · exact hwf.wf_of_frame f0 hwf.traversal_stack hwf.emptyTraversal_stack
        hwf.descendantTraversal_stack hwf.selectionTraversal_stack
        hwf.selectionTraversal_ancestorStack
    · intro _ h
      rw [hfreeze] at h; cases h
    · intro _ hfresh x hx
      exact absurd hx (hfresh x)
  · rw [if_neg hfreeze]
    obtain ⟨s1, h1⟩ := updateTile_isSome env frameState size fuel
      { s with tileset := { s.tileset with
          _requestedTiles := [], _selectedTiles := [], _selectedTilesToStyle := [],
          _emptyTiles := [], _hasMixedContent := false } } s.tileset.root
      (fun p => hwf.sizeOK p) (by omega)
    have fc : Frame Mask.all s
        { s with tileset := { s.tileset with
          _requestedTiles := [], _selectedTiles := [], _selectedTilesToStyle := [],
          _emptyTiles := [], _hasMixedContent := false } } :=
      Frame.all_of_static _ _ (fun _ => Tile.Static.tile_refl _) (by constructor <;> rfl)
    have fu := updateTile_frame (M := Mask.of (.content :: updateTileFields))
      ((Mask.contains_of _).of_subset (by decide)) env (fun h => absurd h (by decide))
      frameState fuel _ _ s1 h1
    have f1 : Frame Mask.all s s1 := fc.trans (fu.mono (fun _ _ => rfl))
    have hsel1 : s1.tileset._selectedTiles = [] := fu.global ._selectedTiles (by decide)
    have early : WellFormed size s1
        ∧ Frame Mask.all s s1
        ∧ s1.traversal.stackMaximumLength
          ≤ max s.traversal.stackMaximumLength (size s.tileset.root)
        ∧ (env.ContentStable → s.tileset.debugFreezeFrame = false →
            ∀ x ∈ s1.tileset._selectedTiles,
              (s1.tiles x)._touchedFrame = frameState.frameNumber
                ∧ env.contentVisibility frameState x ≠ Intersect.OUTSIDE
                ∧ (s1.tiles x).contentAvailable = true)
        ∧ (env.ContentStable → (∀ x, (s.tiles x)._visitedFrame ≠ frameState.frameNumber) →
            ∀ x, (s1.tiles x)._visitedFrame = frameState.frameNumber →
              NearestAvailable s1 x (s1.tiles x)._ancestorWithContentAvailable)
        ∧ (∃ l, s1.tileset._cache = s.tileset._cache ++ l
          ∧ ∀ x, (s1.tiles x)._touchedFrame = frameState.frameNumber →
              (s.tiles x)._touchedFrame = frameState.frameNumber ∨ x ∈ l) := by
      refine ⟨?_, f1, ?_, ?_, ?_, (updateTile_mono frameState.frameNumber env frameState fuel _ _
        s1 h1).1.cache⟩
      · refine hwf.wf_of_frame f1 ?_ ?_ ?_ ?_ ?_
        · rw [fu.global .traversal (by decide)]; exact hwf.traversal_stack
        · rw [fu.global .emptyTraversal (by decide)]; exact hwf.emptyTraversal_stack
        · rw [fu.global .descendantTraversal (by decide)]; exact hwf.descendantTraversal_stack
        · rw [fu.global .selectionTraversal (by decide)]; exact hwf.selectionTraversal_stack
        · rw [fu.global .selectionTraversal (by decide)]
          exact hwf.selectionTraversal_ancestorStack
      · rw [fu.global .traversal (by decide)]; exact le_max_left _ _
      · intro _ _ x hx
        rw [hsel1] at hx; cases hx
      · intro _ hfresh x hx
        rw [fu.tile ._visitedFrame (by decide) x] at hx
        exact absurd hx (hfresh x)
    rw [h1]
    simp only []
    split
    · exact ⟨s1, rfl, early⟩
    · split
      · exact ⟨s1, rfl, early⟩
      · split
        · unfold executeBaseTraversal
          obtain ⟨s2, V, h2, core, stable, hst⟩ := executeTraversal_general env frameState size
            fuel s s1 s1.tileset._maximumScreenSpaceError s1.tileset._maximumScreenSpaceError hwf
            h1 (by omega)
          obtain ⟨a1, a2, a3, a4, a5, a6⟩ := core.done hwf stable hst
          exact ⟨s2, h2, a1, a2, a3, fun hs _ => a4 hs, a5, a6⟩
        · split
          · unfold executeSkipTraversal
            obtain ⟨s2, V, h2, core, stable, hst⟩ := executeTraversal_general env frameState
              size fuel s s1 Number.MAX_VALUE s1.tileset._maximumScreenSpaceError hwf h1
              (by omega)
            obtain ⟨s3, h3, a1, a2, a3, a4, a5, a6⟩ := traverseAndSelect_general env frameState
              size fuel s s2 V hwf core stable hst hfuel
            refine ⟨s3, ?_, a1, a2, a3, fun hs _ => a4 hs, a5, a6⟩
            simp only [h2, Option.some_bind, h3]
          · unfold executeBaseAndSkipTraversal
            obtain ⟨s2, V, h2, core, stable, hst⟩ := executeTraversal_general env frameState
              size fuel s s1
              (max s1.tileset.baseScreenSpaceError s1.tileset.maximumScreenSpaceError)
              s1.tileset.maximumScreenSpaceError hwf h1 (by omega)
            obtain ⟨s3, h3, a1, a2, a3, a4, a5, a6⟩ := traverseAndSelect_general env frameState
              size fuel s s2 V hwf core stable hst hfuel
            refine ⟨s3, ?_, a1, a2, a3, fun hs _ => a4 hs, a5, a6⟩
            simp only [h2, Option.some_bind, h3]

/-- The four-tile chain is well formed. -/
theorem chainState_wellFormed : WellFormed chainSize chainState := by
  refine ⟨?_, ?_, rfl, ?_, rfl, rfl, rfl, rfl, rfl⟩
  · intro p
    rcases p with _ | _ | _ | _ | p <;>
      simp [chainState, sampleState, chainTiles, chainSize, stackSize, sampleTile]
    split
    · rename_i h
      have h1 : (p : Nat) + 1 + 1 + 1 + 1 < 4 := h
      omega
    · exact Nat.one_pos
  · intro p c hc
    rcases p with _ | _ | _ | _ | p <;>
      simp [chainState, sampleState, chainTiles, sampleTile] at hc <;>
      subst hc <;> rfl
  · intro p
    rcases p with _ | _ | _ | _ | p <;>
      simp [chainState, sampleState, chainTiles, sampleTile]

theorem sampleEnv_contentStable : sampleEnv.ContentStable := fun _ _ => rfl

/-- The three outcomes of one pass of the inner loop of `selectDescendants`: the child is
updated, touched and selected (its stored flags say visible and its content is available), or
it is pushed (visible, content not available, less than `descendantSelectionDepth` below the
root), or nothing is done. -/
theorem selectDescendantsChild_cases (env : Env) (frameState : FrameState)
    (root : TileId) (fuel : Nat) (s : State) (child : TileId) (s' : State)
    (h : selectDescendantsChild env frameState root fuel s child = some s') :
    (isVisible (s.tiles child) = true ∧ (s.tiles child).contentAvailable = true
        ∧ s'.descendantTraversal.stack = s.descendantTraversal.stack
        ∧ s'.tileset._selectedTiles
          = s.tileset._selectedTiles ++ selectedIfInView env frameState child)
      ∨ (isVisible (s.tiles child) = true ∧ (s.tiles child).contentAvailable = false
        ∧ (s.tiles child)._depth - (s.tiles root)._depth < descendantSelectionDepth
        ∧ s'.descendantTraversal.stack = child :: s.descendantTraversal.stack
        ∧ s'.tileset._selectedTiles = s.tileset._selectedTiles)
      ∨ (s'.descendantTraversal.stack = s.descendantTraversal.stack
        ∧ s'.tileset._selectedTiles = s.tileset._selectedTiles) := by
  unfold selectDescendantsChild at h
  split at h
  · rename_i hv
    split at h
    · rename_i ha
      rw [Option.map_eq_some'] at h
      obtain ⟨s1, h1, rfl⟩ := h
      have f1 := updateTile_frame (M := Mask.of (.content :: updateTileFields))
        ((Mask.contains_of _).of_subset (by decide)) env (fun h => absurd h (by decide))
        frameState fuel s child s1 h1
      have f2 := touchTile_frame (M := Mask.of touchTileFields) (Mask.contains_of _) s1 child
        frameState
      have f3 := selectTile_frame (M := Mask.of selectTileFields) (Mask.contains_of _) env
        (touchTile s1 child frameState) child frameState
      refine Or.inl ⟨hv, ha, ?_, ?_⟩
      · exact congrArg Traversal.stack
          (((f3.global .descendantTraversal (by decide)).trans
            (f2.global .descendantTraversal (by decide))).trans
            (f1.global .descendantTraversal (by decide)))
      · rw [selectTile_selected, f2.global ._selectedTiles (by decide),
          f1.global ._selectedTiles (by decide)]
    · rename_i ha
      split at h
      · rename_i hd
        cases h
        exact Or.inr (Or.inl ⟨hv, by simpa using ha, hd, rfl, rfl⟩)
      · cases h
        exact Or.inr (Or.inr ⟨rfl, rfl⟩)
  · cases h
    exact Or.inr (Or.inr ⟨rfl, rfl⟩)

/-- The record of a pass of the inner loop of `selectDescendants` says what the pass did: the
stack and `_selectedTiles` grow by the child exactly when the record says so; a selected child
was read as visible with available content and its content is in view; a pushed child was read
as visible, without available content, less than `descendantSelectionDepth` below the root. -/
theorem descendantCheck_spec (env : Env) (frameState : FrameState)
    (root : TileId) (fuel : Nat) (s : State) (tile child : TileId) (s' : State)
    (h : selectDescendantsChild env frameState root fuel s child = some s') :
    s'.tileset._selectedTiles = s.tileset._selectedTiles
        ++ (if (descendantCheck s s' tile child).selected then [child] else [])
      ∧ s'.descendantTraversal.stack
        = (if (descendantCheck s s' tile child).pushed then [child] else [])
          ++ s.descendantTraversal.stack
      ∧ ((descendantCheck s s' tile child).selected = true →
          isVisible (s.tiles child) = true ∧ (s.tiles child).contentAvailable = true
            ∧ env.contentVisibility frameState child ≠ Intersect.OUTSIDE)
      ∧ ((descendantCheck s s' tile child).pushed = true →
          isVisible (s.tiles child) = true ∧ (s.tiles child).contentAvailable = false
            ∧ (s.tiles child)._depth - (s.tiles root)._depth < descendantSelectionDepth) := by
  rcases selectDescendantsChild_cases env frameState root fuel s child s' h with
    ⟨hv, ha, hst, hsel⟩ | ⟨hv, ha, hd, hst, hsel⟩ | ⟨hst, hsel⟩
  · unfold descendantCheck
    simp only [hst, hsel, lt_irrefl, decide_False, if_false, List.nil_append]
    unfold selectedIfInView
    by_cases hin : env.contentVisibility frameState child ≠ Intersect.OUTSIDE
    · simp [hin, hv, ha]
    · simp [hin]
  · unfold descendantCheck
    simp [hst, hsel, hv, ha, hd]
  · unfold descendantCheck
    simp [hst, hsel]

/-- The passes of the inner loop of `selectDescendants` over the children `l` of the popped
`tile`: the records say which children were appended to `_selectedTiles` and which were
pushed, and what was read of each. -/
theorem selectDescendantsVisitChecks_spec (env : Env) (frameState : FrameState)
    (root : TileId) (fuel : Nat) (tile : TileId) (l : List TileId) (s s' : State)
    (h : l.foldlM (selectDescendantsChild env frameState root fuel) s = some s') :
    ∃ checks, selectDescendantsVisitChecks env frameState root fuel tile l s = some checks
      ∧ s'.tileset._selectedTiles = s.tileset._selectedTiles
          ++ ((checks.filter fun c => c.selected).map fun c => c.child)
      ∧ s'.descendantTraversal.stack
          = ((checks.filter fun c => c.pushed).map fun c => c.child).reverse
            ++ s.descendantTraversal.stack
      ∧ ∀ c ∈ checks, c.tile = tile ∧ c.child ∈ l
          ∧ (c.selected = true → c.visible = true ∧ c.contentAvailable = true
              ∧ env.contentVisibility frameState c.child ≠ Intersect.OUTSIDE)
          ∧ (c.pushed = true → c.visible = true ∧ c.contentAvailable = false
              ∧ (s.tiles c.child)._depth - (s.tiles root)._depth < descendantSelectionDepth) := by
  induction l generalizing s with
  | nil =>
    simp at h
    subst h
    exact ⟨[], rfl, by simp, by simp, fun _ hc => by cases hc⟩
  | cons a l ih =>
    rw [List.foldlM_cons] at h
    cases h1 : selectDescendantsChild env frameState root fuel s a with
    | none => simp [h1] at h
    | some s1 =>
      simp [h1] at h
      obtain ⟨checks, k1, k2, k3, k4⟩ := ih s1 h
      obtain ⟨e1, e2, e3, e4⟩ := descendantCheck_spec env frameState root fuel s tile a s1 h1
      have f1 := selectDescendantsChild_frame descendantMask_contains env
        (fun h => absurd h (by decide)) frameState root fuel s a s1 h1
      have hdep : ∀ x, (s1.tiles x)._depth = (s.tiles x)._depth := fun x => (f1.tileStatic x)._depth
      refine ⟨descendantCheck s s1 tile a :: checks, ?_, ?_, ?_, ?_⟩
      · unfold selectDescendantsVisitChecks
        rw [h1]
        simp only [k1]
        rfl
      · rw [k2, e1]
        by_cases hs : (descendantCheck s s1 tile a).selected = true
        · simp [hs, List.filter_cons]
          rfl
        · simp [hs, List.filter_cons]
      · rw [k3, e2]
        by_cases hp : (descendantCheck s s1 tile a).pushed = true
        · simp [hp, List.filter_cons]
          rfl
        · simp [hp, List.filter_cons]
      · intro c hc
        rcases List.mem_cons.mp hc with rfl | hc
        · refine ⟨rfl, List.mem_cons_self _ _, ?_, ?_⟩
          · intro hsel
            exact e3 hsel
          · intro hp
            exact e4 hp
        · obtain ⟨c1, c2, c3, c4⟩ := k4 c hc
          refine ⟨c1, List.mem_cons_of_mem _ c2, c3, ?_⟩
          intro hp
          have := c4 hp
          rw [hdep, hdep] at this
          exact this

/-- The loop of `selectDescendants(root)`, from a state whose stack holds the root or children
of the root, when the `_depth` of a child is one more than that of its parent: it returns, and
the records of its passes say that every tile examined is a child of the root or of a child of
the root, that the tiles selected were read as visible with available content, and that only
children of the root are pushed.  `s0` is the state in which `selectDescendants` was called. -/
theorem selectDescendantsLoopChecks_spec (env : Env) (frameState : FrameState)
    (size : TileId → Nat) (root : TileId) (s0 : State)
    (hdepth : ∀ p c, c ∈ (s0.tiles p).children → (s0.tiles c)._depth = (s0.tiles p)._depth + 1)
    (fuel : Nat) (s : State) (hS : SizeOK size s)
    (hsame : ∀ x, (s.tiles x).children = (s0.tiles x).children
      ∧ (s.tiles x)._depth = (s0.tiles x)._depth)
    (hstack : ∀ t ∈ s.descendantTraversal.stack, t = root ∨ t ∈ (s0.tiles root).children)
    (hfuel : stackSize size s.descendantTraversal.stack + 1 ≤ fuel) :
    ∃ s' checks, selectDescendantsLoop env frameState root fuel s = some s'
      ∧ selectDescendantsLoopChecks env frameState root fuel s = some checks
      ∧ s'.tileset._selectedTiles = s.tileset._selectedTiles
          ++ ((checks.filter fun c => c.selected).map fun c => c.child)
      ∧ s'.descendantTraversal.stack = []
      ∧ ∀ c ∈ checks, (c.tile = root ∨ c.tile ∈ (s0.tiles root).children)
          ∧ c.child ∈ (s0.tiles c.tile).children
          ∧ (c.selected = true → c.visible = true ∧ c.contentAvailable = true
              ∧ env.contentVisibility frameState c.child ≠ Intersect.OUTSIDE)
          ∧ (c.pushed = true → c.tile = root ∧ c.visible = true
              ∧ c.contentAvailable = false) := by
  induction fuel generalizing s with
  | zero => omega
  | succ n ih =>
    cases hst : s.descendantTraversal.stack with
    | nil =>
      exact ⟨s, [], by simp only [selectDescendantsLoop, hst],
        by simp only [selectDescendantsLoopChecks, hst], by simp, hst,
        fun _ hc => by cases hc⟩
    | cons tile rest =>
      rw [hst, stackSize_cons] at hfuel
      have htile : tile = root ∨ tile ∈ (s0.tiles root).children :=
        hstack tile (by rw [hst]; exact List.mem_cons_self _ _)
      have hrest : ∀ t ∈ rest, t = root ∨ t ∈ (s0.tiles root).children :=
        fun t ht => hstack t (by rw [hst]; exact List.mem_cons_of_mem _ ht)
      obtain ⟨sp, hsp⟩ : ∃ sp : State, sp = { s with descendantTraversal :=
          { stack := rest
            stackMaximumLength :=
              max s.descendantTraversal.stackMaximumLength (tile :: rest).length } } :=
        ⟨_, rfl⟩
      have hSp : SizeOK size sp := by rw [hsp]; exact fun p => hS p
      have hsamep : ∀ x, (sp.tiles x).children = (s0.tiles x).children
          ∧ (sp.tiles x)._depth = (s0.tiles x)._depth := by rw [hsp]; exact hsame
      have hstp : sp.descendantTraversal.stack = rest := by rw [hsp]
      have hselp : sp.tileset._selectedTiles = s.tileset._selectedTiles := by rw [hsp]
      obtain ⟨s1, hs1⟩ := selectDescendantsVisit_isSome env frameState size root n sp tile hSp
        (by omega)
      have hf1 := selectDescendantsVisit_frame descendantMask_contains env
        (fun h => absurd h (by decide)) frameState root n sp tile s1 hs1
      obtain ⟨_, pushed, hp1, hp2⟩ := selectDescendantsVisit_stack env frameState root n sp tile
        s1 hs1
      have hfold := hs1
      rw [selectDescendantsVisit_eq_foldlM] at hfold
      obtain ⟨checks, k1, k2, k3, k4⟩ := selectDescendantsVisitChecks_spec env frameState root n
        tile _ sp s1 hfold
      have hpushed : pushed = ((checks.filter fun c => c.pushed).map fun c => c.child).reverse :=
        List.append_cancel_right (hp1.symm.trans k3)
      have hsame1 : ∀ x, (s1.tiles x).children = (s0.tiles x).children
          ∧ (s1.tiles x)._depth = (s0.tiles x)._depth := fun x =>
        ⟨(hf1.tile .children (by decide) x).trans (hsamep x).1,
          ((hf1.tileStatic x)._depth).trans (hsamep x).2⟩
      -- what the records of this visit say
      have hchecks : ∀ c ∈ checks, (c.tile = root ∨ c.tile ∈ (s0.tiles root).children)
          ∧ c.child ∈ (s0.tiles c.tile).children
          ∧ (c.selected = true → c.visible = true ∧ c.contentAvailable = true
              ∧ env.contentVisibility frameState c.child ≠ Intersect.OUTSIDE)
          ∧ (c.pushed = true → c.tile = root ∧ c.visible = true
              ∧ c.contentAvailable = false) := by
        intro c hc
        obtain ⟨c1, c2, c3, c4⟩ := k4 c hc
        rw [(hsamep tile).1] at c2
        refine ⟨by rw [c1]; exact htile, by rw [c1]; exact c2, c3, ?_⟩
        intro hp
        obtain ⟨d1, d2, d3⟩ := c4 hp
        refine ⟨?_, d1, d2⟩
        rw [c1]
        rcases htile with ht | ht
        · exact ht
        · exfalso
          rw [(hsamep c.child).2, (hsamep root).2, hdepth tile c.child c2,
            hdepth root tile ht] at d3
          unfold descendantSelectionDepth at d3
          omega
      have hstack1 : ∀ t ∈ s1.descendantTraversal.stack,
          t = root ∨ t ∈ (s0.tiles root).children := by
        intro t ht
        rw [k3, hstp] at ht
        rcases List.mem_append.mp ht with ht | ht
        · rw [List.mem_reverse, List.mem_map] at ht
          obtain ⟨c, hc, rfl⟩ := ht
          rw [List.mem_filter] at hc
          obtain ⟨_, c2, _, c4⟩ := hchecks c hc.1
          have := (c4 hc.2).1
          rw [this] at c2
          exact Or.inr c2
        · exact hrest t ht
      have hfuel1 : stackSize size s1.descendantTraversal.stack + 1 ≤ n := by
        rw [hp1, hstp, stackSize_append]
        have h1 : stackSize size pushed ≤ stackSize size (sp.tiles tile).children := by
          rw [← stackSize_perm size (List.reverse_perm pushed)]
          exact List.Sublist.sum_le_sum (hp2.map size) (fun _ _ => Nat.zero_le _)
        have h2 := hSp tile
        omega
      obtain ⟨s', checks', a1, a2, a3, a4, a5⟩ := ih s1 (hSp.of_frame hf1) hsame1 hstack1 hfuel1
      refine ⟨s', checks ++ checks', ?_, ?_, ?_, a4, ?_⟩
      · simp only [selectDescendantsLoop, hst]
        rw [← hsp, hs1]
        exact a1
      · simp only [selectDescendantsLoopChecks, hst]
        rw [← hsp, show (s.tiles tile).children = (sp.tiles tile).children from by rw [hsp],
          k1, hs1]
        simp only [a2]
        rfl
      · rw [a3, k2, hselp, List.filter_append, List.map_append, List.append_assoc]
      · intro c hc
        rcases List.mem_append.mp hc with hc | hc
        · exact hchecks c hc
        · exact a5 c hc

theorem staleDescendantState_sizeOK : SizeOK chainSize staleDescendantState := by
  intro p
  rcases p with _ | _ | _ | p <;>
    simp [staleDescendantState, staleGrandchildState, sampleState, staleGrandchildTiles,
      chainSize, stackSize, sampleTile]
  split
  · rename_i h
    have h1 : (p : Nat) + 1 + 1 + 1 < 4 := h
    show (0 : Nat) < 1 - (p : Nat)
    omega
  · exact Nat.one_pos

theorem staleDescendantState_depthOK : DepthOK staleDescendantState := by
  intro p c hc
  rcases p with _ | _ | _ | p <;>
    simp [staleDescendantState, staleGrandchildState, sampleState, staleGrandchildTiles,
      sampleTile] at hc <;>
    subst hc <;> rfl

theorem VisSame.same_refl (s : State) (x : TileId) : VisSame s s x := ⟨rfl, rfl, rfl, rfl⟩

theorem VisSame.same_trans {a b c : State} {x : TileId} (h1 : VisSame a b x)
    (h2 : VisSame b c x) : VisSame a c x :=
  ⟨h2.visible.trans h1.visible, h2.inRequestVolume.trans h1.inRequestVolume,
    h2.stamp.trans h1.stamp, h2.children.trans h1.children⟩

theorem VisSame.of_tile {s s' : State} {x : TileId} (h : s'.tiles x = s.tiles x) :
    VisSame s s' x := by
  refine ⟨?_, ?_, ?_, ?_⟩ <;> rw [h]

theorem VisSame.isVisible_eq {s s' : State} {x : TileId} (h : VisSame s s' x) :
    isVisible (s'.tiles x) = isVisible (s.tiles x) := by
  unfold isVisible
  rw [h.visible, h.inRequestVolume]

theorem VisSame.stamped_iff {s s' : State} {x : TileId} (h : VisSame s s' x)
    (ht : s'.tileset._updatedVisibilityFrame = s.tileset._updatedVisibilityFrame) :
    Stamped s' x ↔ Stamped s x := by
  unfold Stamped
  rw [h.stamp, ht]

theorem Local.local_refl (env : Env) (P : TileId → Prop) (s : State) : Local env P s s :=
  ⟨Frame.refl _ _, fun _ _ => rfl, fun x _ => VisSame.same_refl s x⟩

theorem Local.local_trans {env : Env} {P : TileId → Prop} {a b c : State}
    (h1 : Local env P a b) (h2 : Local env P b c) : Local env P a c :=
  ⟨h1.frame.trans h2.frame, fun hs x => (h2.content hs x).trans (h1.content hs x),
    fun x hx => (h1.outside x hx).same_trans (h2.outside x hx)⟩

theorem Local.local_mono {env : Env} {P Q : TileId → Prop} {s s' : State}
    (h : Local env P s s') (hPQ : ∀ x, P x → Q x) : Local env Q s s' :=
  ⟨h.frame, h.content, fun x hx => h.outside x (fun hp => hx (hPQ x hp))⟩

/-- An operation that writes only the fields of `fields`, none of which is a visibility field,
`children` or the content state, writes the visibility of no tile. -/
theorem Local.of_frames {env : Env} {s s' : State} (fields : List Field)
    (h : ∀ M : Mask, M.contains fields → (M .content = false → env.ContentStable) →
      Frame M s s')
    (h1 : Field._visible ∉ fields) (h2 : Field._inRequestVolume ∉ fields)
    (h3 : Field._updatedVisibilityFrame ∉ fields) (h4 : Field.children ∉ fields)
    (h5 : Field.content ∉ fields) (P : TileId → Prop) : Local env P s s' := by
  have f1 := h (Mask.of (.content :: fields))
    ((Mask.contains_of _).of_subset (List.subset_cons_self _ _))
    (fun h => absurd h (by simp [Mask.of]))
  refine ⟨h Mask.all (Mask.all_contains _) (fun h => absurd h (by decide)), ?_, ?_⟩
  · intro hs x
    exact (h (Mask.of fields) (Mask.contains_of _) (fun _ => hs)).tile .content
      (by simp [Mask.of, h5]) x
  · intro x _
    exact ⟨f1.tile ._visible (by simp [Mask.of, h1]) x,
      f1.tile ._inRequestVolume (by simp [Mask.of, h2]) x,
      f1.tile ._updatedVisibilityFrame (by simp [Mask.of, h3]) x,
      f1.tile .children (by simp [Mask.of, h4]) x⟩

/-- A frame keeps the tree: the tiles below a tile are the same. -/
theorem InSubtree.subtree_of_frame {M : Mask} {s s' : State} (h : Frame M s s') (t x : TileId) :
    InSubtree s' t x ↔ InSubtree s t x := by
  have key : IsChild s' = IsChild s := by
    funext p c
    unfold IsChild
    exact propext ((h.tileStatic p).children.mem_iff)
  unfold InSubtree
  rw [key]

/-- A tile below a child of `t` is not `t`, on a finite tree. -/
theorem InSubtree.ne_of_child {size : TileId → Nat} {s : State} (hS : SizeOK size s)
    {t c x : TileId} (hc : c ∈ (s.tiles t).children) (h : InSubtree s c x) : x ≠ t := by
  rintro rfl
  have h1 := InSubtree.size_le hS h
  have h2 := hS.child_lt hc
  omega

/-- A tile below `t` is `t` or lies below a child of `t`. -/
theorem InSubtree.cases_child {s : State} {t x : TileId} (h : InSubtree s t x) :
    x = t ∨ ∃ c ∈ (s.tiles t).children, InSubtree s c x := by
  rcases Relation.ReflTransGen.cases_head h with h | ⟨c, hc, hcx⟩
  · exact Or.inl h.symm
  · exact Or.inr ⟨c, hc, hcx⟩

theorem State.setTile_eq_self (s : State) (i : TileId) (f : Tile → Tile)
    (h : f (s.tiles i) = s.tiles i) : s.setTile i f = s := by
  unfold State.setTile
  rw [h, Function.update_eq_self]

theorem updateVisibility_of_stamped (env : Env) (s : State) (tile : TileId)
    (frameState : FrameState) (h : Stamped s tile) :
    updateVisibility env s tile frameState = s := by
  unfold updateVisibility
  unfold Stamped at h
  rw [if_pos h]

theorem updateVisibility_tiles_ne (env : Env) (s : State) (tile x : TileId)
    (frameState : FrameState) (h : x ≠ tile) :
    (updateVisibility env s tile frameState).tiles x = s.tiles x := by
  unfold updateVisibility
  split
  · rfl
  · simp [State.setTile_tiles_ne, h]

theorem updateVisibility_tileset (env : Env) (s : State) (tile : TileId)
    (frameState : FrameState) :
    (updateVisibility env s tile frameState).tileset = s.tileset := by
  unfold updateVisibility
  split
  · rfl
  · rfl

/-- The loop of `anyChildrenVisible` over the children `l`, from the state `s` and the value
`b`: the tiles outside `l` are not written, every child of `l` carries the stamp at the end, and
the result is `b` or whether some child of `l` is visible at the end. -/
theorem anyChildrenVisible_fold (env : Env) (frameState : FrameState) (l : List TileId)
    (s : State) (b : Bool) :
    (∀ x, x ∉ l → ((l.foldl
        (fun (acc : State × Bool) child =>
          let s := updateVisibility env acc.1 child frameState
          (s, acc.2 || isVisible (s.tiles child))) (s, b)).1.tiles x) = s.tiles x)
      ∧ (∀ x, Stamped s x → ((l.foldl
        (fun (acc : State × Bool) child =>
          let s := updateVisibility env acc.1 child frameState
          (s, acc.2 || isVisible (s.tiles child))) (s, b)).1.tiles x) = s.tiles x)
      ∧ (l.foldl
        (fun (acc : State × Bool) child =>
          let s := updateVisibility env acc.1 child frameState
          (s, acc.2 || isVisible (s.tiles child))) (s, b)).1.tileset = s.tileset
      ∧ (∀ c ∈ l, Stamped (l.foldl
        (fun (acc : State × Bool) child =>
          let s := updateVisibility env acc.1 child frameState
          (s, acc.2 || isVisible (s.tiles child))) (s, b)).1 c)
      ∧ ((l.foldl
        (fun (acc : State × Bool) child =>
          let s := updateVisibility env acc.1 child frameState
          (s, acc.2 || isVisible (s.tiles child))) (s, b)).2 = true ↔
        (b = true ∨ ∃ c ∈ l, isVisible ((l.foldl
        (fun (acc : State × Bool) child =>
          let s := updateVisibility env acc.1 child frameState
          (s, acc.2 || isVisible (s.tiles child))) (s, b)).1.tiles c) = true)) := by
  induction l generalizing s b with
  | nil => simp
  | cons a l ih =>
    rw [List.foldl_cons]
    obtain ⟨i1, i2, i3, i4, i5⟩ := ih (updateVisibility env s a frameState)
      (b || isVisible ((updateVisibility env s a frameState).tiles a))
    have hst_a : Stamped (updateVisibility env s a frameState) a :=
      updateVisibility_stamped env s a frameState
    have hkeep : ∀ x, Stamped s x → Stamped (updateVisibility env s a frameState) x
        ∧ (updateVisibility env s a frameState).tiles x = s.tiles x := by
      intro x hx
      by_cases hxa : x = a
      · subst hxa
        rw [updateVisibility_of_stamped env s x frameState hx]
        exact ⟨hx, rfl⟩
      · refine ⟨?_, updateVisibility_tiles_ne env s a x frameState hxa⟩
        unfold Stamped
        rw [updateVisibility_tiles_ne env s a x frameState hxa, updateVisibility_tileset]
        exact hx
    refine ⟨?_, ?_, ?_, ?_, ?_⟩
    · intro x hx
      rw [i1 x (fun h => hx (List.mem_cons_of_mem _ h))]
      exact updateVisibility_tiles_ne env s a x frameState
        (fun h => hx (h ▸ List.mem_cons_self _ _))
    · intro x hx
      rw [i2 x (hkeep x hx).1]
      exact (hkeep x hx).2
    · rw [i3, updateVisibility_tileset]
    · intro c hc
      rcases List.mem_cons.mp hc with rfl | hc
      · unfold Stamped
        rw [i2 c hst_a, i3]
        exact hst_a
      · exact i4 c hc
    · rw [i5]
      constructor
      · rintro (h | ⟨c, hc, hv⟩)
        · rw [Bool.or_eq_true] at h
          rcases h with h | h
          · exact Or.inl h
          · refine Or.inr ⟨a, List.mem_cons_self _ _, ?_⟩
            rw [i2 a hst_a]
            exact h
        · exact Or.inr ⟨c, List.mem_cons_of_mem _ hc, hv⟩
      · rintro (h | ⟨c, hc, hv⟩)
        · exact Or.inl (by rw [h]; rfl)
        · rcases List.mem_cons.mp hc with rfl | hc
          · left
            rw [i2 c hst_a] at hv
            rw [hv]
            simp
          · exact Or.inr ⟨c, hc, hv⟩

/-- The function `anyChildrenVisible` writes only children of the tile, every child carries the
stamp afterwards, tiles that carried the stamp are not written, and the result says whether
some child is visible afterwards. -/
theorem anyChildrenVisible_spec (env : Env) (s : State) (tile : TileId)
    (frameState : FrameState) :
    (∀ x, x ∉ (s.tiles tile).children →
        (anyChildrenVisible env s tile frameState).1.tiles x = s.tiles x)
      ∧ (∀ x, Stamped s x → (anyChildrenVisible env s tile frameState).1.tiles x = s.tiles x)
      ∧ (anyChildrenVisible env s tile frameState).1.tileset = s.tileset
      ∧ (∀ c ∈ (s.tiles tile).children,
          Stamped (anyChildrenVisible env s tile frameState).1 c)
      ∧ ((anyChildrenVisible env s tile frameState).2 = true ↔
          ∃ c ∈ (s.tiles tile).children,
            isVisible ((anyChildrenVisible env s tile frameState).1.tiles c) = true) := by
  obtain ⟨a1, a2, a3, a4, a5⟩ := anyChildrenVisible_fold env frameState (s.tiles tile).children
    s false
  refine ⟨a1, a2, a3, a4, ?_⟩
  unfold anyChildrenVisible
  rw [a5]
  simp

theorem anyChildrenVisible_of_stamped (env : Env) (s : State) (tile : TileId)
    (frameState : FrameState) (h : ∀ c ∈ (s.tiles tile).children, Stamped s c) :
    (anyChildrenVisible env s tile frameState).1 = s := by
  unfold anyChildrenVisible
  generalize (s.tiles tile).children = l at h
  generalize false = b
  induction l generalizing b with
  | nil => rfl
  | cons a l ih =>
    rw [List.foldl_cons]
    simp only [updateVisibility_of_stamped env s a frameState (h a (List.mem_cons_self _ _))]
    exact ih (fun c hc => h c (List.mem_cons_of_mem _ hc)) _

/-- The paths through `updateTileVisibility(tile)`, with `s1` the state after
`updateVisibility(tile)`: the tile is not visible; or it points to an external tileset, the
function recurs into `children[0]` and copies its `_visible`; or it meets the screen-space error
early and is hidden; or the optimization applies and no child is visible, and it is hidden; or
the optimization applies and some child is visible; or nothing more is done. -/
theorem updateTileVisibility_cases (env : Env) (frameState : FrameState) (fuel : Nat)
    (s : State) (tile : TileId) (s' : State)
    (h : updateTileVisibility env frameState (fuel + 1) s tile = some s') :
    (isVisible ((updateVisibility env s tile frameState).tiles tile) = false
        ∧ s' = updateVisibility env s tile frameState)
      ∨ (isVisible ((updateVisibility env s tile frameState).tiles tile) = true
        ∧ ((updateVisibility env s tile frameState).tiles tile).hasTilesetContent = true
        ∧ ∃ child rest s2,
          ((updateVisibility env s tile frameState).tiles tile).children = child :: rest
          ∧ updateTileVisibility env frameState fuel (updateVisibility env s tile frameState)
              child = some s2
          ∧ s' = s2.setTile tile fun t => { t with _visible := (s2.tiles child)._visible })
      ∨ (isVisible ((updateVisibility env s tile frameState).tiles tile) = true
        ∧ (((updateVisibility env s tile frameState).tiles tile).hasTilesetContent
            && decide (((updateVisibility env s tile frameState).tiles tile).children.length
              > 0)) = false
        ∧ ((meetsScreenSpaceErrorEarly env (updateVisibility env s tile frameState) tile
              frameState = true
            ∧ s' = (updateVisibility env s tile frameState).setTile tile
                fun t => { t with _visible := false })
          ∨ (meetsScreenSpaceErrorEarly env (updateVisibility env s tile frameState) tile
              frameState = false
            ∧ (decide (((updateVisibility env s tile frameState).tiles tile).refine
                  = Cesium3DTileRefine.REPLACE)
                && decide (((updateVisibility env s tile frameState).tiles
                  tile)._optimChildrenWithinParent
                  = Cesium3DTileOptimizationHint.USE_OPTIMIZATION)
                && decide (((updateVisibility env s tile frameState).tiles
                  tile).children.length > 0)) = true
            ∧ (anyChildrenVisible env (updateVisibility env s tile frameState) tile
                frameState).2 = false
            ∧ s' = ((anyChildrenVisible env (updateVisibility env s tile frameState) tile
                frameState).1.setTileset fun ts =>
                  { ts with _statistics := { ts._statistics with
                      numberOfTilesCulledWithChildrenUnion :=
                        ts._statistics.numberOfTilesCulledWithChildrenUnion + 1 } }).setTile
                tile fun t => { t with _visible := false })
          ∨ (meetsScreenSpaceErrorEarly env (updateVisibility env s tile frameState) tile
              frameState = false
            ∧ (decide (((updateVisibility env s tile frameState).tiles tile).refine
                  = Cesium3DTileRefine.REPLACE)
                && decide (((updateVisibility env s tile frameState).tiles
                  tile)._optimChildrenWithinParent
                  = Cesium3DTileOptimizationHint.USE_OPTIMIZATION)
                && decide (((updateVisibility env s tile frameState).tiles
                  tile).children.length > 0)) = true
            ∧ (anyChildrenVisible env (updateVisibility env s tile frameState) tile
                frameState).2 = true
            ∧ s' = (anyChildrenVisible env (updateVisibility env s tile frameState) tile
                frameState).1)
          ∨ (meetsScreenSpaceErrorEarly env (updateVisibility env s tile frameState) tile
              frameState = false
            ∧ (decide (((updateVisibility env s tile frameState).tiles tile).refine
                  = Cesium3DTileRefine.REPLACE)
                && decide (((updateVisibility env s tile frameState).tiles
                  tile)._optimChildrenWithinParent
                  = Cesium3DTileOptimizationHint.USE_OPTIMIZATION)
                && decide (((updateVisibility env s tile frameState).tiles
                  tile).children.length > 0)) = false
            ∧ s' = updateVisibility env s tile frameState))) := by
  unfold updateTileVisibility at h
  simp only [] at h
  split at h
  · rename_i hvis
    cases h
    exact Or.inl ⟨by simpa using hvis, rfl⟩
  · rename_i hvis
    have hvis' : isVisible ((updateVisibility env s tile frameState).tiles tile) = true := by
      simpa using hvis
    split at h
    · rename_i child rest hb hch
      rw [Option.map_eq_some'] at h
      obtain ⟨s2, h2, rfl⟩ := h
      rw [Bool.and_eq_true] at hb
      exact Or.inr (Or.inl ⟨hvis', hb.1, child, rest, s2, hch, h2, rfl⟩)
    · rename_i hno
      have hb : (((updateVisibility env s tile frameState).tiles tile).hasTilesetContent
            && decide (((updateVisibility env s tile frameState).tiles tile).children.length
              > 0)) = false := by
        cases hch : ((updateVisibility env s tile frameState).tiles tile).children with
        | nil => simp
        | cons c r =>
          cases hb : (((updateVisibility env s tile frameState).tiles tile).hasTilesetContent
            && decide (((updateVisibility env s tile frameState).tiles tile).children.length
              > 0)) with
          | false => rw [hch] at hb; exact hb
          | true => exact absurd hch (hno c r hb)
      refine Or.inr (Or.inr ⟨hvis', hb, ?_⟩)
      split at h
      · rename_i hm
        cases h
        exact Or.inl ⟨hm, rfl⟩
      · rename_i hm
        have hm' : meetsScreenSpaceErrorEarly env (updateVisibility env s tile frameState) tile
            frameState = false := by simpa using hm
        split at h
        · rename_i ho
          split at h
          · rename_i hr
            cases h
            exact Or.inr (Or.inl ⟨hm', ho, by simpa using hr, rfl⟩)
          · rename_i hr
            cases h
            exact Or.inr (Or.inr (Or.inl ⟨hm', ho, by simpa using hr, rfl⟩))
        · rename_i ho
          cases h
          exact Or.inr (Or.inr (Or.inr ⟨hm', by simpa using ho, rfl⟩))

theorem updateVisibility_children (env : Env) (s : State) (tile x : TileId)
    (frameState : FrameState) :
    ((updateVisibility env s tile frameState).tiles x).children = (s.tiles x).children :=
  (updateVisibility_frame (M := Mask.of [._visible, ._inRequestVolume, ._distanceToCamera,
    ._centerZDepth, ._screenSpaceError, ._updatedVisibilityFrame]) (Mask.contains_of _) env s
    tile frameState).tile .children (by decide) x

/-- The function `updateTileVisibility(tile)` writes only tiles below `tile`. -/
theorem updateTileVisibility_outside (env : Env) (frameState : FrameState) (fuel : Nat)
    (s : State) (tile : TileId) (s' : State)
    (h : updateTileVisibility env frameState fuel s tile = some s') (x : TileId)
    (hx : ¬InSubtree s tile x) : s'.tiles x = s.tiles x := by
  induction fuel generalizing s tile s' with
  | zero => simp [updateTileVisibility] at h
  | succ k ih =>
    have hne : x ≠ tile := fun e => hx (e ▸ InSubtree.self s tile)
    have h1 := updateVisibility_tiles_ne env s tile x frameState hne
    rcases updateTileVisibility_cases env frameState k s tile s' h with
      ⟨_, rfl⟩ | ⟨_, _, child, rest, s2, hch, h2, rfl⟩ | ⟨_, _, hrest⟩
    · exact h1
    · rw [State.setTile_tiles_ne _ _ _ _ hne]
      rw [ih _ _ _ h2, h1]
      intro hsub
      apply hx
      have hf := updateVisibility_frame (M := Mask.all) (Mask.all_contains _) env s tile
        frameState
      rw [InSubtree.subtree_of_frame hf] at hsub
      refine InSubtree.of_child ?_ hsub
      rw [← updateVisibility_children env s tile tile frameState, hch]
      exact List.mem_cons_self _ _
    · rcases hrest with ⟨_, rfl⟩ | ⟨_, _, _, rfl⟩ | ⟨_, _, _, rfl⟩ | ⟨_, _, rfl⟩
      · rw [State.setTile_tiles_ne _ _ _ _ hne]
        exact h1
      · rw [State.setTile_tiles_ne _ _ _ _ hne]
        show (anyChildrenVisible env (updateVisibility env s tile frameState) tile
          frameState).1.tiles x = s.tiles x
        rw [(anyChildrenVisible_spec env _ tile frameState).1 x, h1]
        intro hc
        rw [updateVisibility_children] at hc
        exact hx (InSubtree.of_child hc (InSubtree.self s x))
      · rw [(anyChildrenVisible_spec env _ tile frameState).1 x, h1]
        intro hc
        rw [updateVisibility_children] at hc
        exact hx (InSubtree.of_child hc (InSubtree.self s x))
      · exact h1

/-- The function `updateTile(tile)` writes only tiles below `tile`. -/
theorem updateTile_outside (env : Env) (frameState : FrameState) (fuel : Nat)
    (s : State) (tile : TileId) (s' : State)
    (h : updateTile env frameState fuel s tile = some s') (x : TileId)
    (hx : ¬InSubtree s tile x) : s'.tiles x = s.tiles x := by
  have hne : x ≠ tile := fun e => hx (e ▸ InSubtree.self s tile)
  unfold updateTile at h
  rw [Option.map_eq_some'] at h
  obtain ⟨s1, h1, rfl⟩ := h
  simp only [State.setTile_tiles_ne _ _ _ _ hne, updateMinMaxPriority_tiles]
  exact updateTileVisibility_outside env frameState fuel s tile s1 h1 x hx

theorem updateTile_local (env : Env) (frameState : FrameState) (fuel : Nat)
    (s : State) (tile : TileId) (s' : State)
    (h : updateTile env frameState fuel s tile = some s') :
    Local env (InSubtree s tile) s s' :=
  ⟨updateTile_frame (Mask.all_contains _) env (fun h => absurd h (by decide)) frameState fuel
      s tile s' h,
    fun hs x => (updateTile_frame (M := Mask.of updateTileFields) (Mask.contains_of _) env
      (fun _ => hs) frameState fuel s tile s' h).tile .content (by decide) x,
    fun x hx => VisSame.of_tile (updateTile_outside env frameState fuel s tile s' h x hx)⟩

/-- On a tile whose visibility is settled, `updateTileVisibility` writes nothing. -/
theorem Settled.noop {env : Env} {frameState : FrameState} {s : State} {t : TileId}
    (h : Settled env frameState s t) (fuel : Nat) (s' : State)
    (hu : updateTileVisibility env frameState fuel s t = some s') : s' = s := by
  induction h generalizing fuel s' with
  | hidden t hst hv =>
    cases fuel with
    | zero => simp [updateTileVisibility] at hu
    | succ k =>
      have e := updateVisibility_of_stamped env s t frameState hst
      rcases updateTileVisibility_cases env frameState k s t s' hu with
        ⟨_, rfl⟩ | ⟨h1, _⟩ | ⟨h1, _⟩
      · exact e
      · rw [e, hv] at h1; cases h1
      · rw [e, hv] at h1; cases h1
  | external t child rest hst hv hc hch hs hcv ih =>
    cases fuel with
    | zero => simp [updateTileVisibility] at hu
    | succ k =>
      have e := updateVisibility_of_stamped env s t frameState hst
      rcases updateTileVisibility_cases env frameState k s t s' hu with
        ⟨h1, _⟩ | ⟨_, _, child', rest', s2, hch', h2, rfl⟩ | ⟨_, hb, _⟩
      · rw [e, hv] at h1; cases h1
      · rw [e] at hch' h2
        rw [hch] at hch'
        cases hch'
        have := ih k s2 h2
        subst this
        apply State.setTile_eq_self
        have hvt : (s2.tiles t)._visible = true := by
          unfold isVisible at hv
          rw [Bool.and_eq_true] at hv
          exact hv.1
        rw [hcv, ← hvt]
      · rw [e, hc, hch] at hb
        simp at hb
  | plain t hst hv hc hm ho =>
    cases fuel with
    | zero => simp [updateTileVisibility] at hu
    | succ k =>
      have e := updateVisibility_of_stamped env s t frameState hst
      rcases updateTileVisibility_cases env frameState k s t s' hu with
        ⟨h1, _⟩ | ⟨_, h1, child', rest', s2, hch', _, _⟩ | ⟨_, _, hrest⟩
      · rw [e, hv] at h1; cases h1
      · rw [e] at h1 hch'
        rw [h1, hch'] at hc
        simp at hc
      · rw [e] at hrest
        rcases hrest with ⟨h1, _⟩ | ⟨_, h1, h2, _⟩ | ⟨_, h1, _, rfl⟩ | ⟨_, _, rfl⟩
        · rw [hm] at h1; cases h1
        · obtain ⟨a1, c, hc1, hc2⟩ := ho h1
          have e2 := anyChildrenVisible_of_stamped env s t frameState a1
          have := ((anyChildrenVisible_spec env s t frameState).2.2.2.2).2
            ⟨c, hc1, by rw [e2]; exact hc2⟩
          rw [h2] at this
          cases this
        · exact anyChildrenVisible_of_stamped env s t frameState (ho h1).1
        · rfl

theorem hasTilesetContent_of_content {t t' : Tile} (h : t'.contentState = t.contentState) :
    t'.hasTilesetContent = t.hasTilesetContent :=
  congrArg ContentState.hasTilesetContent h

theorem meetsScreenSpaceErrorEarly_congr (env : Env) (frameState : FrameState) {s s' : State}
    (hf : Frame Mask.all s s')
    (hc : ∀ x, (s'.tiles x).contentState = (s.tiles x).contentState) (t : TileId) :
    meetsScreenSpaceErrorEarly env s' t frameState
      = meetsScreenSpaceErrorEarly env s t frameState := by
  unfold meetsScreenSpaceErrorEarly
  rw [(hf.tileStatic t).parent]
  cases (s.tiles t).parent with
  | none => rfl
  | some p =>
    simp only []
    rw [hasTilesetContent_of_content (hc p), (hf.tileStatic p).refine,
      hf.tilesetStatic._maximumScreenSpaceError]

/-- A settled tile stays settled when the static fields and the content states are kept and
the visibility of the tiles below it is not written. -/
theorem Settled.preserved {env : Env} {frameState : FrameState} {s s' : State} {t : TileId}
    (h : Settled env frameState s t) (hf : Frame Mask.all s s')
    (hc : ∀ x, (s'.tiles x).contentState = (s.tiles x).contentState)
    (hv : ∀ x, InSubtree s t x → VisSame s s' x) : Settled env frameState s' t := by
  have hts := hf.tilesetStatic._updatedVisibilityFrame
  induction h with
  | hidden t hst hvis =>
    have v := hv t (InSubtree.self s t)
    exact Settled.hidden t ((v.stamped_iff hts).2 hst) (by rw [v.isVisible_eq]; exact hvis)
  | external t child rest hst hvis hcon hch hs hcv ih =>
    have v := hv t (InSubtree.self s t)
    have hcm : child ∈ (s.tiles t).children := by rw [hch]; exact List.mem_cons_self _ _
    have vc := hv child (InSubtree.of_child hcm (InSubtree.self s child))
    exact Settled.external t child rest ((v.stamped_iff hts).2 hst)
      (by rw [v.isVisible_eq]; exact hvis)
      (by rw [hasTilesetContent_of_content (hc t)]; exact hcon)
      (by rw [v.children]; exact hch)
      (ih (fun x hx => hv x (InSubtree.of_child hcm hx)))
      (by rw [vc.visible]; exact hcv)
  | plain t hst hvis hcon hm ho =>
    have v := hv t (InSubtree.self s t)
    refine Settled.plain t ((v.stamped_iff hts).2 hst) (by rw [v.isVisible_eq]; exact hvis)
      (by rw [hasTilesetContent_of_content (hc t), v.children]; exact hcon)
      (by rw [meetsScreenSpaceErrorEarly_congr env frameState hf hc]; exact hm) ?_
    intro hopt
    rw [(hf.tileStatic t).refine, (hf.tileStatic t)._optimChildrenWithinParent,
      v.children] at hopt
    obtain ⟨a1, c, hc1, hc2⟩ := ho hopt
    rw [v.children]
    refine ⟨fun c hc => ?_, c, hc1, ?_⟩
    · exact ((hv c (InSubtree.of_child hc (InSubtree.self s c))).stamped_iff hts).2 (a1 c hc)
    · rw [(hv c (InSubtree.of_child hc1 (InSubtree.self s c))).isVisible_eq]
      exact hc2

theorem Frame.setVisible (s : State) (i : TileId) (b : Bool) :
    Frame Mask.all s (s.setTile i fun t => { t with _visible := b }) :=
  Frame.setTile s i _ ⟨List.Perm.refl _, rfl, rfl, rfl, rfl, rfl⟩
    (fun fld h => absurd h (by simp [Mask.all]))

/-- After `updateTileVisibility(tile)` the visibility of the tile is settled, on a finite
tree. -/
theorem updateTileVisibility_settled (env : Env) (frameState : FrameState)
    (size : TileId → Nat) (fuel : Nat) (s : State) (tile : TileId) (s' : State)
    (hS : SizeOK size s)
    (h : updateTileVisibility env frameState fuel s tile = some s') :
    Settled env frameState s' tile := by
  induction fuel generalizing s tile s' with
  | zero => simp [updateTileVisibility] at h
  | succ k ih =>
    have hst1 := updateVisibility_stamped env s tile frameState
    have hf1 := updateVisibility_frame (M := Mask.all) (Mask.all_contains _) env s tile
      frameState
    have hS1 : SizeOK size (updateVisibility env s tile frameState) := hS.of_frame hf1
    -- hiding the tile
    have hide : ∀ (s2 : State), Stamped s2 tile →
        Settled env frameState (s2.setTile tile fun t => { t with _visible := false })
          tile := by
      intro s2 h2
      refine Settled.hidden tile ?_ ?_
      · unfold Stamped at h2 ⊢
        simpa using h2
      · simp [isVisible]
    rcases updateTileVisibility_cases env frameState k s tile s' h with
      ⟨hv, rfl⟩ | ⟨hv, hcon, child, rest, s2, hch, h2, rfl⟩ | ⟨hv, hcon, hrest⟩
    · exact Settled.hidden tile hst1 hv
    · have hcm : child ∈ ((updateVisibility env s tile frameState).tiles tile).children := by
        rw [hch]; exact List.mem_cons_self _ _
      have hne : child ≠ tile := by
        intro e
        have := hS1.child_lt hcm
        rw [e] at this
        omega
      have hnot : ¬InSubtree (updateVisibility env s tile frameState) child tile := by
        intro hsub
        have h1 := InSubtree.size_le hS1 hsub
        have h3 := hS1.child_lt hcm
        omega
      have hset := ih _ _ _ hS1 h2
      have hf2 := updateTileVisibility_frame (M := Mask.all) (Mask.all_contains _) env
        frameState k _ child s2 h2
      have e2 : s2.tiles tile = (updateVisibility env s tile frameState).tiles tile :=
        updateTileVisibility_outside env frameState k _ child s2 h2 tile hnot
      have hst2 : Stamped s2 tile := by
        unfold Stamped at hst1 ⊢
        rw [e2, hf2.tilesetStatic._updatedVisibilityFrame]
        exact hst1
      have hst' : Stamped (s2.setTile tile fun t =>
          { t with _visible := (s2.tiles child)._visible }) tile := by
        unfold Stamped at hst2 ⊢
        simpa using hst2
      by_cases hvis : isVisible ((s2.setTile tile fun t =>
          { t with _visible := (s2.tiles child)._visible }).tiles tile) = true
      · have hnot2 : ¬InSubtree s2 child tile := by
          rw [InSubtree.subtree_of_frame hf2]
          exact hnot
        refine Settled.external tile child rest hst' hvis ?_ ?_ ?_ ?_
        · simp only [State.setTile_tiles_self]
          rw [e2]
          exact hcon
        · simp only [State.setTile_tiles_self]
          rw [e2]
          exact hch
        · refine hset.preserved (Frame.setVisible _ _ _) ?_ ?_
          · intro x
            rw [State.setTile_tiles]
            split
            · rename_i e; subst e; rfl
            · rfl
          · intro x hx
            have : x ≠ tile := fun e => hnot2 (e ▸ hx)
            exact VisSame.of_tile (State.setTile_tiles_ne _ _ _ _ this)
        · rw [State.setTile_tiles_ne _ _ _ _ hne]
          simp only [State.setTile_tiles_self, isVisible, Bool.and_eq_true] at hvis
          exact hvis.1
      · exact Settled.hidden tile hst' (by simpa using hvis)
    · rcases hrest with ⟨_, rfl⟩ | ⟨_, _, _, rfl⟩ | ⟨hm, hopt, hr, rfl⟩ | ⟨hm, hopt, rfl⟩
      · exact hide _ hst1
      · refine hide _ ?_
        obtain ⟨_, a2, a3, _, _⟩ := anyChildrenVisible_spec env
          (updateVisibility env s tile frameState) tile frameState
        unfold Stamped at hst1 ⊢
        show (((anyChildrenVisible env (updateVisibility env s tile frameState) tile
            frameState).1.tiles tile))._updatedVisibilityFrame
          = (anyChildrenVisible env (updateVisibility env s tile frameState) tile
            frameState).1.tileset._updatedVisibilityFrame
        rw [a2 tile hst1, a3]
        exact hst1
      · obtain ⟨_, a2, a3, a4, a5⟩ := anyChildrenVisible_spec env
          (updateVisibility env s tile frameState) tile frameState
        have et := a2 tile hst1
        have hfa := anyChildrenVisible_frame (M := Mask.all) (Mask.all_contains _) env
          (updateVisibility env s tile frameState) tile frameState
        have hca : ∀ x, ((anyChildrenVisible env (updateVisibility env s tile frameState) tile
            frameState).1.tiles x).contentState
            = ((updateVisibility env s tile frameState).tiles x).contentState := fun x =>
          (anyChildrenVisible_frame (M := Mask.of [._visible, ._inRequestVolume,
            ._distanceToCamera, ._centerZDepth, ._screenSpaceError, ._updatedVisibilityFrame])
            (Mask.contains_of _) env (updateVisibility env s tile frameState) tile
            frameState).tile .content (by decide) x
        refine Settled.plain tile ?_ ?_ ?_ ?_ ?_
        · unfold Stamped at hst1 ⊢
          rw [et, a3]
          exact hst1
        · rw [et]; exact hv
        · rw [et]; exact hcon
        · rw [meetsScreenSpaceErrorEarly_congr env frameState hfa hca]
          exact hm
        · intro _
          rw [et]
          exact ⟨a4, a5.1 hr⟩
      · exact Settled.plain tile hst1 hv hcon hm (fun ho => by rw [hopt] at ho; cases ho)

/-- The statements of `updateTile` after `updateTileVisibility` write only the content state
(through `updateExpiration`), the priority fields and the two selection flags of the tile. -/
theorem updateTile_after {M : Mask}
    (hM : M.contains [._wasMinPriorityChild, ._priorityDistance, ._priorityDistanceHolder,
      ._maxPriority, ._minPriority, ._shouldSelect, ._finalResolution]) (env : Env)
    (hc : M .content = false → env.ContentStable)
    (frameState : FrameState) (fuel : Nat) (s : State) (tile : TileId) (s' : State)
    (h : updateTile env frameState fuel s tile = some s') :
    ∃ s1, updateTileVisibility env frameState fuel s tile = some s1 ∧ Frame M s1 s' := by
  unfold updateTile at h
  rw [Option.map_eq_some'] at h
  obtain ⟨s1, h1, rfl⟩ := h
  refine ⟨s1, h1, ?_⟩
  have hp := fun s t => updateMinMaxPriority_frame (M := M) (hM.of_subset (by decide)) s t
  simp [Mask.contains] at hM
  simp only []
  refine Frame.trans (b := s1.setTile tile fun t =>
    t.withContentState (env.tileUpdateExpiration tile t.contentState)) ?_ ?_
  · refine Frame.setTile _ _ _ ⟨List.Perm.refl _, rfl, rfl, rfl, rfl, rfl⟩ ?_
    intro fld hf
    cases fld <;> first
      | rfl
      | trivial
      | (show _ = _
         rw [hc hf tile]
         rfl)
  · repeat' first
      | with_reducible exact Frame.refl _ _
      | with_reducible exact hp _ _
      | (intro fld hf; cases fld <;> first | rfl | trivial | exact absurd hf (by simp [hM]))
      | with_reducible
          refine Frame.trans ?_
            (Frame.setTile _ _ _ ⟨List.Perm.refl _, rfl, rfl, rfl, rfl, rfl⟩ ?_)
      | with_reducible refine Frame.trans ?_ (hp _ _)

/-- After `updateTile(tile)` the visibility of the tile is settled, on a finite tree, when no
content expires. -/
theorem updateTile_settled (env : Env) (hs : env.ContentStable) (frameState : FrameState)
    (size : TileId → Nat) (fuel : Nat) (s : State) (tile : TileId) (s' : State)
    (hS : SizeOK size s) (h : updateTile env frameState fuel s tile = some s') :
    Settled env frameState s' tile := by
  obtain ⟨s1, h1, _⟩ := updateTile_after (M := Mask.all) (Mask.all_contains _) env
    (fun h => absurd h (by decide)) frameState fuel s tile s' h
  have hset := updateTileVisibility_settled env frameState size fuel s tile s1 hS h1
  have hl : Local env (fun _ => False) s1 s' :=
    Local.of_frames [._wasMinPriorityChild, ._priorityDistance, ._priorityDistanceHolder,
      ._maxPriority, ._minPriority, ._shouldSelect, ._finalResolution]
      (fun M hM hc => by
        obtain ⟨s1', h1', f⟩ := updateTile_after hM env hc frameState fuel s tile s' h
        rw [h1] at h1'
        cases h1'
        exact f)
      (by decide) (by decide) (by decide) (by decide) (by decide) _
  exact hset.preserved hl.frame (hl.content hs) (fun x _ => hl.outside x (fun h => h))

/-- A call of `updateTile` on a tile whose visibility is settled writes the visibility of no
tile, when no content expires. -/
theorem updateTile_of_settled (env : Env) (hs : env.ContentStable) (frameState : FrameState)
    (fuel : Nat) (s : State) (tile : TileId) (s' : State)
    (hset : Settled env frameState s tile)
    (h : updateTile env frameState fuel s tile = some s') :
    Local env (fun _ => False) s s' := by
  refine Local.of_frames [._wasMinPriorityChild, ._priorityDistance, ._priorityDistanceHolder,
      ._maxPriority, ._minPriority, ._shouldSelect, ._finalResolution]
      (fun M hM hc => ?_) (by decide) (by decide) (by decide) (by decide) (by decide) _
  obtain ⟨s1, h1, f⟩ := updateTile_after hM env hc frameState fuel s tile s' h
  have := hset.noop fuel s1 h1
  subst this
  exact f

theorem Local.of_same (env : Env) (s s' : State) (h1 : s'.tiles = s.tiles)
    (h2 : s'.tileset = s.tileset) (P : TileId → Prop) : Local env P s s' :=
  ⟨Frame.all_of_static s s' (fun t => by rw [h1]; exact Tile.Static.tile_refl _)
      (by rw [h2]; exact Tileset.Static.tileset_refl _),
    fun _ x => by rw [h1], fun x _ => VisSame.of_tile (by rw [h1])⟩

/-- The facts of `Local` depend only on the tiles and the tileset of the first state. -/
theorem Local.congr_left {env : Env} {P : TileId → Prop} {a a' b : State}
    (h : Local env P a b) (h1 : a.tiles = a'.tiles) (h2 : a.tileset = a'.tileset) :
    Local env P a' b :=
  (Local.of_same env a' a h1 h2 P).local_trans h

theorem Settled.congr {env : Env} {frameState : FrameState} {s s' : State} {t : TileId}
    (h : Settled env frameState s t) (h1 : s'.tiles = s.tiles)
    (h2 : s'.tileset = s.tileset) : Settled env frameState s' t :=
  h.preserved (Local.of_same env s s' h1 h2 (fun _ => False)).frame (fun x => by rw [h1])
    (fun x _ => VisSame.of_tile (by rw [h1]))

theorem loadTile_local (env : Env) (s : State) (tile : TileId) (frameState : FrameState)
    (P : TileId → Prop) : Local env P s (loadTile env s tile frameState) :=
  Local.of_frames loadTileFields (fun M hM _ => loadTile_frame hM env s tile frameState)
    (by decide) (by decide) (by decide) (by decide) (by decide) P

theorem touchTile_local (env : Env) (s : State) (tile : TileId) (frameState : FrameState)
    (P : TileId → Prop) : Local env P s (touchTile s tile frameState) :=
  Local.of_frames touchTileFields (fun M hM _ => touchTile_frame hM s tile frameState)
    (by decide) (by decide) (by decide) (by decide) (by decide) P

theorem selectTile_local (env : Env) (s : State) (tile : TileId) (frameState : FrameState)
    (P : TileId → Prop) : Local env P s (selectTile env s tile frameState) :=
  Local.of_frames selectTileFields (fun M hM _ => selectTile_frame hM env s tile frameState)
    (by decide) (by decide) (by decide) (by decide) (by decide) P

/-- The body of the loop of `executeEmptyTraversal` writes the visibility only of tiles below
the popped tile, and of no tile when the visibility of the popped tile is settled. -/
theorem executeEmptyTraversalVisit_local (env : Env) (frameState : FrameState) (fuel : Nat)
    (s : State) (tile : TileId) (b : Bool) (r : State × Bool)
    (h : executeEmptyTraversalVisit env frameState fuel s tile b = some r) :
    Local env (InSubtree s tile) s r.1
      ∧ (env.ContentStable → Settled env frameState s tile →
          Local env (fun _ => False) s r.1) := by
  unfold executeEmptyTraversalVisit at h
  simp only [] at h
  rw [Option.map_eq_some'] at h
  obtain ⟨s1, h1, rfl⟩ := h
  have key : ∀ P : TileId → Prop, Local env P s s1 →
      Local env P s
        (if (hasEmptyContent (s.tiles tile) && canTraverse s.tileset (s.tiles tile)) = true then
          List.foldl
            (fun (s : State) child =>
              { s with emptyTraversal := { s.emptyTraversal with
                  stack := child :: s.emptyTraversal.stack } })
            (if (!isVisible (s1.tiles tile)) = true then
              touchTile (loadTile env s1 tile frameState) tile frameState else s1)
            (s.tiles tile).children
        else
          if (!isVisible (s1.tiles tile)) = true then
            touchTile (loadTile env s1 tile frameState) tile frameState else s1) := by
    intro P hl
    have h2 : Local env P s (if (!isVisible (s1.tiles tile)) = true then
        touchTile (loadTile env s1 tile frameState) tile frameState else s1) := by
      split
      · exact (hl.local_trans (loadTile_local env _ _ _ P)).local_trans
          (touchTile_local env _ _ _ P)
      · exact hl
    split
    · exact h2.local_trans (Local.of_same env _ _ (foldl_push_emptyTraversal_tiles _ _).1
        (foldl_push_emptyTraversal_tiles _ _).2 P)
    · exact h2
  exact ⟨key _ (updateTile_local env frameState fuel s tile s1 h1),
    fun hs hset => key _ (updateTile_of_settled env hs frameState fuel s tile s1 hset h1)⟩

/-- The loop of `executeEmptyTraversal` writes the visibility only of tiles below the tiles of
its stack. -/
theorem executeEmptyTraversalLoop_local (env : Env) (frameState : FrameState) (fuel : Nat)
    (s : State) (b : Bool) (r : State × Bool)
    (h : executeEmptyTraversalLoop env frameState fuel s b = some r) :
    Local env (fun x => ∃ d ∈ s.emptyTraversal.stack, InSubtree s d x) s r.1 := by
  induction fuel generalizing s b with
  | zero => simp [executeEmptyTraversalLoop] at h
  | succ n ih =>
    unfold executeEmptyTraversalLoop at h
    split at h
    · cases h
      exact Local.local_refl _ _ _
    · rename_i tile rest hst
      simp only [] at h
      split at h
      · cases h
      · rename_i r1 hv
        have l1 := (executeEmptyTraversalVisit_local env frameState n _ tile b r1 hv).1
        obtain ⟨pushed, hp1, hp2⟩ := executeEmptyTraversalVisit_stack env frameState n _ tile b
          r1 hv
        have l2 := ih _ _ h
        refine Local.local_trans (b := r1.1)
          ((l1.local_mono ?_).congr_left rfl rfl) (l2.local_mono ?_)
        · intro x hx
          exact ⟨tile, by rw [hst]; exact List.mem_cons_self _ _, hx⟩
        · rintro x ⟨d, hd, hx⟩
          rw [InSubtree.subtree_of_frame l1.frame] at hx
          rw [hp1] at hd
          rcases List.mem_append.mp hd with hd | hd
          · refine ⟨tile, by rw [hst]; exact List.mem_cons_self _ _, ?_⟩
            have hd' : d ∈ (s.tiles tile).children :=
              hp2.subset (List.mem_reverse.mpr hd)
            exact InSubtree.of_child hd' hx
          · exact ⟨d, by rw [hst]; exact List.mem_cons_of_mem _ hd, hx⟩

/-- The function `executeEmptyTraversal(root)`, called with its stack empty, writes the
visibility only of tiles below `root`, and only of tiles below the children of `root` when the
visibility of `root` is settled. -/
theorem executeEmptyTraversal_local (env : Env) (frameState : FrameState) (fuel : Nat)
    (s : State) (root : TileId) (r : State × Bool) (hst : s.emptyTraversal.stack = [])
    (h : executeEmptyTraversal env frameState fuel s root = some r) :
    Local env (InSubtree s root) s r.1
      ∧ (env.ContentStable → Settled env frameState s root →
          Local env (fun x => ∃ c ∈ (s.tiles root).children, InSubtree s c x) s r.1) := by
  unfold executeEmptyTraversal at h
  constructor
  · have l := executeEmptyTraversalLoop_local env frameState fuel _ true r h
    refine (l.local_mono ?_).congr_left rfl rfl
    rintro x ⟨d, hd, hx⟩
    have hd' : d ∈ root :: s.emptyTraversal.stack := hd
    rw [hst] at hd'
    rw [List.mem_singleton.mp hd'] at hx
    exact hx
  · intro hs hset
    cases fuel with
    | zero => simp [executeEmptyTraversalLoop] at h
    | succ n =>
      unfold executeEmptyTraversalLoop at h
      simp only [] at h
      split at h
      · cases h
      · rename_i r1 hv
        have hset' : Settled env frameState
            { s with emptyTraversal :=
              { stack := s.emptyTraversal.stack
                stackMaximumLength := max s.emptyTraversal.stackMaximumLength
                  (root :: s.emptyTraversal.stack).length } } root :=
          hset.congr rfl rfl
        have l1 := (executeEmptyTraversalVisit_local env frameState n _ root true r1 hv).2 hs
          hset'
        obtain ⟨pushed, hp1, hp2⟩ := executeEmptyTraversalVisit_stack env frameState n _ root
          true r1 hv
        have l2 := executeEmptyTraversalLoop_local env frameState n _ _ r h
        refine Local.local_trans (b := r1.1)
          ((l1.local_mono (fun _ hf => hf.elim)).congr_left rfl rfl) (l2.local_mono ?_)
        rintro x ⟨d, hd, hx⟩
        rw [InSubtree.subtree_of_frame l1.frame] at hx
        rw [hp1] at hd
        have hd2 : d ∈ pushed ++ s.emptyTraversal.stack := hd
        rw [hst, List.append_nil] at hd2
        exact ⟨d, hp2.subset (List.mem_reverse.mpr hd2), hx⟩

theorem TreeOK.tree_of_frame {M : Mask} {size : TileId → Nat} {s s' : State}
    (h : TreeOK size s) (hf : Frame M s s') : TreeOK size s' :=
  ⟨h.sizeOK.of_frame hf,
    fun p c hc => by
      rw [(hf.tileStatic c).parent]
      exact h.parent_of_child p c ((hf.tileStatic p).children.mem_iff.mp hc),
    fun p => ((hf.tileStatic p).children.nodup_iff).mpr (h.children_nodup p)⟩

theorem WellFormed.tree {size : TileId → Nat} {s : State} (h : WellFormed size s) :
    TreeOK size s :=
  ⟨h.sizeOK, h.parent_of_child, h.children_nodup⟩

/-- On a tree, a tile below a child of `t` is not below another child of `t`. -/
theorem TreeOK.disjoint {size : TileId → Nat} {s : State} (h : TreeOK size s)
    {t c1 c2 x : TileId} (hc1 : c1 ∈ (s.tiles t).children) (hc2 : c2 ∈ (s.tiles t).children)
    (hne : c1 ≠ c2) (h1 : InSubtree s c1 x) : ¬InSubtree s c2 x :=
  fun h2 => hne (InSubtree.children_disjoint h.sizeOK h.parent_of_child hc1 hc2 h1 h2)

/-- The first loop of `updateAndPushChildren`, over the children `l` of `t`: it writes the
visibility only of tiles below these children, and afterwards the visibility of each of them is
settled, when no content expires. -/
theorem updateChildren_settled (env : Env) (hs : env.ContentStable) (frameState : FrameState)
    (size : TileId → Nat) (fuel : Nat) (t : TileId) (l : List TileId) (s s' : State)
    (hT : TreeOK size s) (hl : ∀ c ∈ l, c ∈ (s.tiles t).children) (hnd : l.Nodup)
    (h : updateChildren env frameState fuel s l = some s') :
    Local env (fun x => ∃ c ∈ l, InSubtree s c x) s s'
      ∧ ∀ c ∈ l, Settled env frameState s' c := by
  unfold updateChildren at h
  induction l generalizing s with
  | nil =>
    simp at h
    subst h
    exact ⟨Local.local_refl _ _ _, fun _ hc => by cases hc⟩
  | cons a l ih =>
    rw [List.foldlM_cons] at h
    cases h1 : updateTile env frameState fuel s a with
    | none => simp [h1] at h
    | some s1 =>
      simp [h1] at h
      have l1 := updateTile_local env frameState fuel s a s1 h1
      have hset := updateTile_settled env hs frameState size fuel s a s1 hT.sizeOK h1
      have hT1 := hT.tree_of_frame l1.frame
      have hl1 : ∀ c ∈ l, c ∈ (s1.tiles t).children := fun c hc =>
        (l1.frame.tileStatic t).children.mem_iff.mpr (hl c (List.mem_cons_of_mem _ hc))
      have ha1 : a ∈ (s1.tiles t).children :=
        (l1.frame.tileStatic t).children.mem_iff.mpr (hl a (List.mem_cons_self _ _))
      obtain ⟨l2, hset2⟩ := ih s1 hT1 hl1 (List.nodup_cons.mp hnd).2 h
      refine ⟨Local.local_trans (b := s1) (l1.local_mono ?_) (l2.local_mono ?_), ?_⟩
      · intro x hx
        exact ⟨a, List.mem_cons_self _ _, hx⟩
      · rintro x ⟨c, hc, hx⟩
        rw [InSubtree.subtree_of_frame l1.frame] at hx
        exact ⟨c, List.mem_cons_of_mem _ hc, hx⟩
      · intro c hc
        rcases List.mem_cons.mp hc with rfl | hc
        · refine hset.preserved l2.frame (l2.content hs) ?_
          intro x hx
          refine l2.outside x ?_
          rintro ⟨c', hc', hx'⟩
          have hne : c ≠ c' := fun e => (List.nodup_cons.mp hnd).1 (e ▸ hc')
          exact hT1.disjoint ha1 (hl1 c' hc') hne hx hx'
        · exact hset2 c hc

theorem pushOrLoadChild_local (env : Env) (frameState : FrameState) (checkRefines : Bool)
    (acc : PushChildren) (ic : Nat × TileId) (P : TileId → Prop) :
    Local env P acc.s (pushOrLoadChild env frameState checkRefines acc ic).s :=
  Local.of_frames (loadTileFields ++ touchTileFields ++ [.traversal])
    (fun M hM _ => pushOrLoadChild_frame hM env frameState checkRefines acc ic)
    (by decide) (by decide) (by decide) (by decide) (by decide) P

/-- The computation of `childRefines` for a child whose visibility is settled writes the
visibility only of tiles properly below the child, and leaves the stack of the empty traversal
empty. -/
theorem childRefines_local (env : Env) (hs : env.ContentStable) (frameState : FrameState)
    (size : TileId → Nat) (fuel : Nat) (s : State) (child : TileId) (r : State × Bool)
    (hS : SizeOK size s) (hset : Settled env frameState s child)
    (hst : s.emptyTraversal.stack = [])
    (h : childRefines env frameState fuel s child = some r) :
    Local env (fun x => InSubtree s child x ∧ x ≠ child) s r.1
      ∧ r.1.emptyTraversal.stack = [] := by
  unfold childRefines at h
  split at h
  · cases h
    exact ⟨Local.local_refl _ _ _, hst⟩
  · split at h
    · refine ⟨((executeEmptyTraversal_local env frameState fuel s child r hst h).2 hs
        hset).local_mono ?_, ?_⟩
      · rintro x ⟨c, hc, hx⟩
        exact ⟨InSubtree.of_child hc hx, InSubtree.ne_of_child hS hc hx⟩
      · unfold executeEmptyTraversal at h
        exact executeEmptyTraversalLoop_stack env frameState fuel _ _ r h
    · cases h
      exact ⟨Local.local_refl _ _ _, hst⟩

/-- One iteration of the second loop of `updateAndPushChildren`, for a child whose visibility
is settled: it writes the visibility only of tiles properly below the child, and of no tile
when `checkRefines` is false. -/
theorem updateAndPushChildrenStep_local (env : Env) (hs : env.ContentStable)
    (frameState : FrameState) (size : TileId → Nat) (fuel : Nat) (checkRefines : Bool)
    (acc : PushChildren) (ic : Nat × TileId) (acc' : PushChildren)
    (hS : SizeOK size acc.s) (hset : Settled env frameState acc.s ic.2)
    (hst : acc.s.emptyTraversal.stack = [])
    (h : updateAndPushChildrenStep env frameState fuel checkRefines acc ic = some acc') :
    Local env (fun x => InSubtree acc.s ic.2 x ∧ x ≠ ic.2) acc.s acc'.s
      ∧ (checkRefines = false → Local env (fun _ => False) acc.s acc'.s)
      ∧ acc'.s.emptyTraversal.stack = [] := by
  have l1 : ∀ P, Local env P acc.s (pushOrLoadChild env frameState checkRefines acc ic).s :=
    fun P => pushOrLoadChild_local env frameState checkRefines acc ic P
  have e1 := pushOrLoadChild_emptyTraversal env frameState checkRefines acc ic
  unfold updateAndPushChildrenStep at h
  simp only [] at h
  split at h
  · rename_i hcr
    rw [Option.map_eq_some'] at h
    obtain ⟨r, hr, rfl⟩ := h
    have hset1 : Settled env frameState
        (pushOrLoadChild env frameState checkRefines acc ic).s ic.2 :=
      hset.preserved (l1 (fun _ => False)).frame ((l1 (fun _ => False)).content hs)
        (fun x _ => (l1 (fun _ => False)).outside x (fun h => h))
    obtain ⟨l2, e2⟩ := childRefines_local env hs frameState size fuel _ ic.2 r
      (hS.of_frame (l1 (fun _ => False)).frame) hset1 (by rw [e1]; exact hst) hr
    refine ⟨(l1 _).local_trans (l2.local_mono ?_), fun hf => ?_, e2⟩
    · rintro x ⟨hx, hne⟩
      rw [InSubtree.subtree_of_frame (l1 (fun _ => False)).frame] at hx
      exact ⟨hx, hne⟩
    · rw [hf] at hcr
      cases hcr
  · cases h
    exact ⟨l1 _, fun _ => l1 _, by rw [e1]; exact hst⟩

/-- The second loop of `updateAndPushChildren` over the children `l` of `t`, started in a state
in which the visibility of each of them is settled: it writes the visibility only of tiles
properly below these children, and of no tile when `checkRefines` is false; the children it
pushes are visible at the end. -/
theorem pushLoop_local (env : Env) (hs : env.ContentStable) (frameState : FrameState)
    (size : TileId → Nat) (fuel : Nat) (checkRefines : Bool) (t : TileId)
    (l : List (Nat × TileId)) (acc acc' : PushChildren)
    (hT : TreeOK size acc.s) (hl : ∀ ic ∈ l, ic.2 ∈ (acc.s.tiles t).children)
    (hnd : (l.map Prod.snd).Nodup) (hset : ∀ ic ∈ l, Settled env frameState acc.s ic.2)
    (hst : acc.s.emptyTraversal.stack = [])
    (h : l.foldlM (updateAndPushChildrenStep env frameState fuel checkRefines) acc = some acc') :
    Local env (fun x => ∃ ic ∈ l, InSubtree acc.s ic.2 x ∧ x ≠ ic.2) acc.s acc'.s
      ∧ (checkRefines = false → Local env (fun _ => False) acc.s acc'.s)
      ∧ acc'.s.emptyTraversal.stack = []
      ∧ ∃ pushed, acc'.s.traversal.stack = pushed ++ acc.s.traversal.stack
        ∧ ∀ c ∈ pushed, isVisible (acc'.s.tiles c) = true := by
  induction l generalizing acc with
  | nil =>
    simp at h
    subst h
    exact ⟨Local.local_refl _ _ _, fun _ => Local.local_refl _ _ _, hst, [], rfl,
      fun _ hc => by cases hc⟩
  | cons ic l ih =>
    rw [List.foldlM_cons] at h
    cases h1 : updateAndPushChildrenStep env frameState fuel checkRefines acc ic with
    | none => simp [h1] at h
    | some acc1 =>
      simp [h1] at h
      have hic : ic.2 ∈ (acc.s.tiles t).children := hl ic (List.mem_cons_self _ _)
      obtain ⟨l1, n1, e1⟩ := updateAndPushChildrenStep_local env hs frameState size fuel
        checkRefines acc ic acc1 hT.sizeOK (hset ic (List.mem_cons_self _ _)) hst h1
      have hstk := updateAndPushChildrenStep_stack env frameState fuel checkRefines acc ic acc1
        h1
      have hT1 := hT.tree_of_frame l1.frame
      have hmem1 : ∀ x, x ∈ (acc1.s.tiles t).children ↔ x ∈ (acc.s.tiles t).children :=
        fun x => (l1.frame.tileStatic t).children.mem_iff
      rw [List.map_cons, List.nodup_cons] at hnd
      have hne : ∀ ic' ∈ l, ic.2 ≠ ic'.2 := fun ic' hic' e =>
        hnd.1 (List.mem_map.mpr ⟨ic', hic', e.symm⟩)
      have hset1 : ∀ ic' ∈ l, Settled env frameState acc1.s ic'.2 := by
        intro ic' hic'
        refine (hset ic' (List.mem_cons_of_mem _ hic')).preserved l1.frame (l1.content hs) ?_
        intro x hx
        refine l1.outside x ?_
        rintro ⟨hx', _⟩
        exact hT.disjoint hic (hl ic' (List.mem_cons_of_mem _ hic')) (hne ic' hic') hx' hx
      obtain ⟨l2, n2, e2, pushed, hp, hv⟩ := ih acc1 hT1
        (fun ic' hic' => (hmem1 _).mpr (hl ic' (List.mem_cons_of_mem _ hic'))) hnd.2 hset1 e1 h
      refine ⟨Local.local_trans (b := acc1.s) (l1.local_mono ?_) (l2.local_mono ?_),
        fun hf => (n1 hf).local_trans (n2 hf), e2, ?_⟩
      · rintro x ⟨hx, hxne⟩
        exact ⟨ic, List.mem_cons_self _ _, hx, hxne⟩
      · rintro x ⟨ic', hic', hx, hxne⟩
        rw [InSubtree.subtree_of_frame l1.frame] at hx
        exact ⟨ic', List.mem_cons_of_mem _ hic', hx, hxne⟩
      · by_cases hvis : isVisible (acc.s.tiles ic.2) = true
        · rw [if_pos hvis] at hstk
          refine ⟨pushed ++ [ic.2], by rw [hp, hstk]; simp, ?_⟩
          intro c hc
          rcases List.mem_append.mp hc with hc | hc
          · exact hv c hc
          · rw [List.mem_singleton.mp hc]
            have v1 : VisSame acc.s acc1.s ic.2 := l1.outside ic.2 (fun h => h.2 rfl)
            have v2 : VisSame acc1.s acc'.s ic.2 := by
              refine l2.outside ic.2 ?_
              rintro ⟨ic', hic', hx, hxne⟩
              rw [InSubtree.subtree_of_frame l1.frame] at hx
              exact hxne (InSubtree.children_disjoint hT.sizeOK hT.parent_of_child hic
                (hl ic' (List.mem_cons_of_mem _ hic')) (InSubtree.self _ _) hx)
            rw [v2.isVisible_eq, v1.isVisible_eq]
            exact hvis
        · rw [if_neg hvis] at hstk
          exact ⟨pushed, by rw [hp, hstk], hv⟩

/-- What `updateAndPushChildren(tile)` does to the visibility of the tiles, on a finite tree,
when no content expires: it writes the visibility only of tiles below `tile`, it keeps the two
visibility flags of `tile`, the children it pushes are visible at the end, and in mixed-LOD
rendering the visibility of every child is settled at the end. -/
theorem updateAndPushChildren_local (env : Env) (hs : env.ContentStable)
    (frameState : FrameState) (size : TileId → Nat) (fuel : Nat) (s : State) (tile : TileId)
    (r : State × Bool) (hT : TreeOK size s) (hst : s.emptyTraversal.stack = [])
    (h : updateAndPushChildren env frameState fuel s tile = some r) :
    Local env (InSubtree s tile) s r.1
      ∧ (r.1.tiles tile)._visible = (s.tiles tile)._visible
      ∧ (r.1.tiles tile)._inRequestVolume = (s.tiles tile)._inRequestVolume
      ∧ (∃ pushed, r.1.traversal.stack = pushed ++ s.traversal.stack
        ∧ ∀ c ∈ pushed, isVisible (r.1.tiles c) = true)
      ∧ (skipLevelOfDetail s.tileset = true →
          ∀ c ∈ (s.tiles tile).children, Settled env frameState r.1 c)
      ∧ r.1.emptyTraversal.stack = [] := by
  unfold updateAndPushChildren at h
  rw [Option.bind_eq_some] at h
  obtain ⟨s1, h1, h2⟩ := h
  simp only [] at h2
  rw [Option.map_eq_some'] at h2
  obtain ⟨acc, h3, rfl⟩ := h2
  have hrec := updateAndSortChildren_records env frameState fuel s tile s1 h1
  unfold updateAndSortChildren at h1
  rw [Option.map_eq_some'] at h1
  obtain ⟨s0, h0, rfl⟩ := h1
  -- the first loop
  obtain ⟨la, hseta⟩ := updateChildren_settled env hs frameState size fuel tile
    (s.tiles tile).children s s0 hT (fun _ hc => hc) (hT.children_nodup tile) h0
  have hT0 := hT.tree_of_frame la.frame
  have hmem0 : ∀ x, x ∈ (s0.tiles tile).children ↔ x ∈ (s.tiles tile).children :=
    fun x => (la.frame.tileStatic tile).children.mem_iff
  have hnot0 : ∀ c ∈ (s.tiles tile).children, ¬InSubtree s c tile := fun c hc hx =>
    InSubtree.ne_of_child hT.sizeOK hc hx rfl
  have va : VisSame s s0 tile := la.outside tile (fun ⟨c, hc, hx⟩ => hnot0 c hc hx)
  -- the sort
  obtain ⟨s1, hs1⟩ : ∃ s1 : State, s1 = s0.setTile tile fun t =>
      { t with children := sortChildren s0 t.children } := ⟨_, rfl⟩
  rw [← hs1] at h3 hrec ⊢
  have fb : Frame Mask.all s0 s1 := by
    rw [hs1]
    exact Frame.setTile _ _ _ ⟨sortChildren_perm _ _, rfl, rfl, rfl, rfl, rfl⟩
      (fun fld h => absurd h (by simp [Mask.all]))
  have hb_ne : ∀ x, x ≠ tile → s1.tiles x = s0.tiles x := fun x hx => by
    rw [hs1]; exact State.setTile_tiles_ne _ _ _ _ hx
  have lb : Local env (fun x => x = tile) s0 s1 :=
    ⟨fb, fun _ x => by
        rw [hs1, State.setTile_tiles]
        split
        · rename_i e; subst e; rfl
        · rfl,
      fun x hx => VisSame.of_tile (hb_ne x hx)⟩
  have hT1 := hT0.tree_of_frame fb
  have hmem1 : ∀ x, x ∈ (s1.tiles tile).children ↔ x ∈ (s.tiles tile).children :=
    fun x => ((fb.tileStatic tile).children.mem_iff).trans (hmem0 x)
  have hset1 : ∀ c ∈ (s.tiles tile).children, Settled env frameState s1 c := by
    intro c hc
    refine (hseta c hc).preserved fb (lb.content hs) (fun x hx => lb.outside x ?_)
    exact InSubtree.ne_of_child hT0.sizeOK ((hmem0 c).mpr hc) hx
  have vb1 : (s1.tiles tile)._visible = (s0.tiles tile)._visible := by
    rw [hs1]; simp
  have vb2 : (s1.tiles tile)._inRequestVolume = (s0.tiles tile)._inRequestVolume := by
    rw [hs1]; simp
  -- the second loop
  have hst1 : (PushChildren.init s1).s.emptyTraversal.stack = [] := by
    show s1.emptyTraversal.stack = []
    rw [hrec.2]
    exact hst
  obtain ⟨lc, nc, ec, pushed, hp, hv⟩ := pushLoop_local env hs frameState size fuel
    (checkRefines s1 tile) tile (s1.tiles tile).children.enum (PushChildren.init s1) acc hT1
    (fun ic hic => List.snd_mem_of_mem_enum hic)
    (by rw [List.enum_map_snd]; exact hT1.children_nodup tile)
    (fun ic hic => hset1 ic.2 ((hmem1 _).mp (List.snd_mem_of_mem_enum hic))) hst1 h3
  have lc' : Local env (fun x => ∃ ic ∈ (s1.tiles tile).children.enum,
      InSubtree s1 ic.2 x ∧ x ≠ ic.2) s1 acc.s := lc
  have vc : VisSame s1 acc.s tile := by
    refine lc'.outside tile ?_
    rintro ⟨ic, hic, hx, _⟩
    exact InSubtree.ne_of_child hT1.sizeOK (List.snd_mem_of_mem_enum hic) hx rfl
  -- the last part
  have ld : ∀ P, Local env P acc.s
      (updateAndPushChildrenFinish tile (s1.tiles tile).children acc).1 := fun P =>
    Local.of_frames [._wasMinPriorityChild, ._priorityDistance, ._priorityDistanceHolder]
      (fun M hM _ => updateAndPushChildrenFinish_frame hM tile _ acc)
      (by decide) (by decide) (by decide) (by decide) (by decide) P
  have vd := (ld (fun _ => False)).outside tile (fun h => h)
  refine ⟨?_, ?_, ?_, ?_, ?_, ?_⟩
  · refine Local.local_trans (b := acc.s) (Local.local_trans (b := s1)
      (Local.local_trans (b := s0) (la.local_mono ?_) (lb.local_mono ?_))
      (lc'.local_mono ?_)) (ld _)
    · rintro x ⟨c, hc, hx⟩
      exact InSubtree.of_child hc hx
    · rintro x rfl
      exact InSubtree.self _ _
    · rintro x ⟨ic, hic, hx, _⟩
      rw [InSubtree.subtree_of_frame fb, InSubtree.subtree_of_frame la.frame] at hx
      exact InSubtree.of_child ((hmem1 _).mp (List.snd_mem_of_mem_enum hic)) hx
  · rw [vd.visible, vc.visible, vb1, va.visible]
  · rw [vd.inRequestVolume, vc.inRequestVolume, vb2, va.inRequestVolume]
  · refine ⟨pushed, ?_, ?_⟩
    · rw [updateAndPushChildrenFinish_traversal, hp]
      show pushed ++ s1.traversal.stack = pushed ++ s.traversal.stack
      rw [hrec.1]
    · intro c hc
      rw [((ld (fun _ => False)).outside c (fun h => h)).isVisible_eq]
      exact hv c hc
  · intro hskip c hc
    have hcr : checkRefines s1 tile = false := by
      unfold checkRefines
      have e : skipLevelOfDetail s1.tileset = true := by
        unfold skipLevelOfDetail at hskip ⊢
        rw [fb.tilesetStatic._skipLevelOfDetail, la.frame.tilesetStatic._skipLevelOfDetail]
        exact hskip
      rw [e]
      rfl
    have l3 := (nc hcr).local_trans (ld (fun _ => False))
    exact (hset1 c hc).preserved l3.frame (l3.content hs)
      (fun x _ => l3.outside x (fun h => h))
  · rw [updateAndPushChildrenFinish_emptyTraversal]
    exact ec

/-- The facts of `Local` depend only on the tiles and the tileset of the second state. -/
theorem Local.congr_right {env : Env} {P : TileId → Prop} {a b b' : State}
    (h : Local env P a b) (h1 : b'.tiles = b.tiles) (h2 : b'.tileset = b.tileset) :
    Local env P a b' :=
  h.local_trans (Local.of_same env b b' h1 h2 P)

/-- One pass of the inner loop of `selectDescendants` writes the visibility only of tiles
below the child, and of no tile when the visibility of the child is settled. -/
theorem selectDescendantsChild_local (env : Env) (frameState : FrameState)
    (root : TileId) (fuel : Nat) (s : State) (child : TileId) (s' : State)
    (h : selectDescendantsChild env frameState root fuel s child = some s') :
    Local env (InSubtree s child) s s'
      ∧ (env.ContentStable → Settled env frameState s child →
          Local env (fun _ => False) s s') := by
  unfold selectDescendantsChild at h
  split at h
  · split at h
    · rw [Option.map_eq_some'] at h
      obtain ⟨s1, h1, rfl⟩ := h
      have key : ∀ P : TileId → Prop, Local env P s s1 →
          Local env P s (selectTile env (touchTile s1 child frameState) child frameState) :=
        fun P hl => (hl.local_trans (touchTile_local env _ _ _ P)).local_trans
          (selectTile_local env _ _ _ P)
      exact ⟨key _ (updateTile_local env frameState fuel s child s1 h1),
        fun hs hset => key _ (updateTile_of_settled env hs frameState fuel s child s1 hset h1)⟩
    · split at h
      · cases h
        exact ⟨(Local.local_refl env _ s).congr_right rfl rfl,
          fun _ _ => (Local.local_refl env _ s).congr_right rfl rfl⟩
      · cases h
        exact ⟨Local.local_refl _ _ _, fun _ _ => Local.local_refl _ _ _⟩
  · cases h
    exact ⟨Local.local_refl _ _ _, fun _ _ => Local.local_refl _ _ _⟩

/-- The passes of the inner loop of `selectDescendants` over the children `l` write the
visibility only of tiles below these children, and of no tile when the visibility of each of
them is settled. -/
theorem selectDescendantsFold_local (env : Env) (frameState : FrameState)
    (root : TileId) (fuel : Nat) (l : List TileId) (s s' : State)
    (h : l.foldlM (selectDescendantsChild env frameState root fuel) s = some s') :
    Local env (fun x => ∃ c ∈ l, InSubtree s c x) s s'
      ∧ (env.ContentStable → (∀ c ∈ l, Settled env frameState s c) →
          Local env (fun _ => False) s s') := by
  induction l generalizing s with
  | nil =>
    simp at h
    subst h
    exact ⟨Local.local_refl _ _ _, fun _ _ => Local.local_refl _ _ _⟩
  | cons a l ih =>
    rw [List.foldlM_cons] at h
    cases h1 : selectDescendantsChild env frameState root fuel s a with
    | none => simp [h1] at h
    | some s1 =>
      simp [h1] at h
      obtain ⟨l1, n1⟩ := selectDescendantsChild_local env frameState root fuel s a s1 h1
      obtain ⟨l2, n2⟩ := ih s1 h
      refine ⟨Local.local_trans (b := s1) (l1.local_mono ?_) (l2.local_mono ?_), ?_⟩
      · intro x hx
        exact ⟨a, List.mem_cons_self _ _, hx⟩
      · rintro x ⟨c, hc, hx⟩
        rw [InSubtree.subtree_of_frame l1.frame] at hx
        exact ⟨c, List.mem_cons_of_mem _ hc, hx⟩
      · intro hs hset
        have m1 := n1 hs (hset a (List.mem_cons_self _ _))
        refine m1.local_trans (n2 hs ?_)
        intro c hc
        exact (hset c (List.mem_cons_of_mem _ hc)).preserved m1.frame (m1.content hs)
          (fun x _ => m1.outside x (fun h => h))

/-- The loop of `selectDescendants` writes the visibility only of tiles below the children of
the tiles of its stack. -/
theorem selectDescendantsLoop_local (env : Env) (frameState : FrameState) (root : TileId)
    (fuel : Nat) (s s' : State)
    (h : selectDescendantsLoop env frameState root fuel s = some s') :
    Local env (fun x => ∃ d ∈ s.descendantTraversal.stack,
      ∃ c ∈ (s.tiles d).children, InSubtree s c x) s s' := by
  induction fuel generalizing s with
  | zero => simp [selectDescendantsLoop] at h
  | succ n ih =>
    unfold selectDescendantsLoop at h
    split at h
    · cases h
      exact Local.local_refl _ _ _
    · rename_i tile rest hst
      simp only [] at h
      split at h
      · cases h
      · rename_i s1 hv
        obtain ⟨_, pushed, hp1, hp2⟩ := selectDescendantsVisit_stack env frameState root n _
          tile s1 hv
        rw [selectDescendantsVisit_eq_foldlM] at hv
        have l1 := (selectDescendantsFold_local env frameState root n _ _ s1 hv).1
        have l2 := ih _ h
        refine Local.local_trans (b := s1) ((l1.local_mono ?_).congr_left rfl rfl)
          (l2.local_mono ?_)
        · rintro x ⟨c, hc, hx⟩
          exact ⟨tile, by rw [hst]; exact List.mem_cons_self _ _, c, hc, hx⟩
        · rintro x ⟨d, hd, c, hc, hx⟩
          rw [InSubtree.subtree_of_frame l1.frame] at hx
          have hc' := (l1.frame.tileStatic d).children.mem_iff.mp hc
          rw [hp1] at hd
          rcases List.mem_append.mp hd with hd | hd
          · have hd' : d ∈ (s.tiles tile).children := hp2.subset (List.mem_reverse.mpr hd)
            exact ⟨tile, by rw [hst]; exact List.mem_cons_self _ _, d, hd',
              InSubtree.of_child hc' hx⟩
          · exact ⟨d, by rw [hst]; exact List.mem_cons_of_mem _ hd, c, hc', hx⟩

/-- The function `selectDescendants(tile)`, called with its stack empty when the visibility of
every child of `tile` is settled, writes the visibility only of tiles properly below the
children of `tile`, on a finite tree, when no content expires. -/
theorem selectDescendants_local (env : Env) (hs : env.ContentStable)
    (frameState : FrameState) (size : TileId → Nat) (fuel : Nat) (s : State) (tile : TileId)
    (s' : State) (hS : SizeOK size s) (hst : s.descendantTraversal.stack = [])
    (hset : ∀ c ∈ (s.tiles tile).children, Settled env frameState s c)
    (h : selectDescendants env frameState fuel s tile = some s') :
    Local env (fun x => ∃ c ∈ (s.tiles tile).children, InSubtree s c x ∧ x ≠ c) s s' := by
  unfold selectDescendants at h
  cases fuel with
  | zero => simp [selectDescendantsLoop] at h
  | succ n =>
    unfold selectDescendantsLoop at h
    simp only [] at h
    split at h
    · cases h
    · rename_i s1 hv
      obtain ⟨_, pushed, hp1, hp2⟩ := selectDescendantsVisit_stack env frameState tile n _
        tile s1 hv
      rw [selectDescendantsVisit_eq_foldlM] at hv
      have l1 := (selectDescendantsFold_local env frameState tile n _ _ s1 hv).2 hs
        (fun c hc => (hset c hc).congr rfl rfl)
      have l2 := selectDescendantsLoop_local env frameState tile n s1 s' h
      refine Local.local_trans (b := s1) ((l1.local_mono (fun _ hf => hf.elim)).congr_left
        rfl rfl) (l2.local_mono ?_)
      rintro x ⟨d, hd, c, hc, hx⟩
      rw [InSubtree.subtree_of_frame l1.frame] at hx
      have hc' := (l1.frame.tileStatic d).children.mem_iff.mp hc
      rw [hp1] at hd
      have hd2 : d ∈ pushed ++ s.descendantTraversal.stack := hd
      rw [hst, List.append_nil] at hd2
      have hd' : d ∈ (s.tiles tile).children := hp2.subset (List.mem_reverse.mpr hd2)
      exact ⟨d, hd', InSubtree.of_child hc' hx, InSubtree.ne_of_child hS hc' hx⟩

/-- The function `selectDescendants(tile)`, called with its stack empty, writes the visibility
only of tiles below the children of `tile`. -/
theorem selectDescendants_below (env : Env) (frameState : FrameState) (fuel : Nat) (s : State)
    (tile : TileId) (s' : State) (hst : s.descendantTraversal.stack = [])
    (h : selectDescendants env frameState fuel s tile = some s') :
    Local env (fun x => ∃ c ∈ (s.tiles tile).children, InSubtree s c x) s s' := by
  unfold selectDescendants at h
  have l := selectDescendantsLoop_local env frameState tile fuel _ s' h
  refine (l.local_mono ?_).congr_left rfl rfl
  rintro x ⟨d, hd, c, hc, hx⟩
  have hd' : d ∈ tile :: s.descendantTraversal.stack := hd
  rw [hst] at hd'
  rw [List.mem_singleton.mp hd'] at hc
  exact ⟨c, hc, hx⟩

theorem setShouldSelect_local (env : Env) (s : State) (i : TileId) (P : TileId → Prop) :
    Local env P s (s.setTile i fun t => { t with _shouldSelect := true }) :=
  Local.of_frames [._shouldSelect]
    (fun M hM _ => by
      have hss : M ._shouldSelect = true := hM _ (by decide)
      refine Frame.setTile _ _ _ ⟨List.Perm.refl _, rfl, rfl, rfl, rfl, rfl⟩ ?_
      intro fld hf
      cases fld <;> first | rfl | trivial | exact absurd hf (by simp [hss]))
    (by decide) (by decide) (by decide) (by decide) (by decide) P

/-- The function `selectDesiredTile(tile)`, called with the stack of the descendant traversal
empty, writes the visibility only of tiles below the children of `tile`, and only of tiles
properly below them when, in mixed-LOD rendering, the visibility of every child is settled. -/
theorem selectDesiredTile_local (env : Env) (hs : env.ContentStable)
    (frameState : FrameState) (size : TileId → Nat) (fuel : Nat) (s : State) (tile : TileId)
    (s' : State) (hS : SizeOK size s) (hst : s.descendantTraversal.stack = [])
    (h : selectDesiredTile env frameState fuel s tile = some s') :
    Local env (fun x => ∃ c ∈ (s.tiles tile).children, InSubtree s c x) s s'
      ∧ ((skipLevelOfDetail s.tileset = true →
            ∀ c ∈ (s.tiles tile).children, Settled env frameState s c) →
          Local env (fun x => ∃ c ∈ (s.tiles tile).children, InSubtree s c x ∧ x ≠ c)
            s s') := by
  unfold selectDesiredTile at h
  split at h
  · split at h
    · cases h
      exact ⟨selectTile_local env _ _ _ _, fun _ => selectTile_local env _ _ _ _⟩
    · cases h
      exact ⟨Local.local_refl _ _ _, fun _ => Local.local_refl _ _ _⟩
  · rename_i hskip
    simp only [] at h
    split at h
    · cases h
      exact ⟨setShouldSelect_local env s _ _, fun _ => setShouldSelect_local env s _ _⟩
    · refine ⟨selectDescendants_below env frameState fuel s tile s' hst h, fun hset => ?_⟩
      exact selectDescendants_local env hs frameState size fuel s tile s' hS hst
        (hset (by simpa using hskip)) h

/-- The part of the visit of `tile` that loads the tile and selects the desired tile, run with
the stack of the descendant traversal empty: it writes the visibility only of tiles below the
children of `tile`, and only of tiles properly below them when, in mixed-LOD rendering, the
visibility of every child is settled. -/
theorem executeTraversalSelect_local (env : Env) (hs : env.ContentStable)
    (frameState : FrameState) (size : TileId → Nat) (fuel : Nat) (s : State) (tile : TileId)
    (add replace baseTraversal stoppedRefining : Bool) (s' : State)
    (hS : SizeOK size s) (hst : s.descendantTraversal.stack = [])
    (h : executeTraversalSelect env frameState fuel s tile add replace baseTraversal
      stoppedRefining = some s') :
    Local env (fun x => ∃ c ∈ (s.tiles tile).children, InSubtree s c x) s s'
      ∧ ((skipLevelOfDetail s.tileset = true →
            ∀ c ∈ (s.tiles tile).children, Settled env frameState s c) →
          Local env (fun x => ∃ c ∈ (s.tiles tile).children, InSubtree s c x ∧ x ≠ c)
            s s') := by
  -- a state reached from `s` by statements that write the visibility of no tile and keep the
  -- stack of the descendant traversal
  have from_ : ∀ a a' : State, Local env (fun _ => False) s a →
      a.descendantTraversal = s.descendantTraversal →
      selectDesiredTile env frameState fuel a tile = some a' →
      Local env (fun x => ∃ c ∈ (s.tiles tile).children, InSubtree s c x) s a'
        ∧ ((skipLevelOfDetail s.tileset = true →
              ∀ c ∈ (s.tiles tile).children, Settled env frameState s c) →
            Local env (fun x => ∃ c ∈ (s.tiles tile).children, InSubtree s c x ∧ x ≠ c)
              s a') := by
    intro a a' la ea ha
    have hch : (a.tiles tile).children = (s.tiles tile).children :=
      (la.outside tile (fun h => h)).children
    obtain ⟨g1, g2⟩ := selectDesiredTile_local env hs frameState size fuel a tile a'
      (hS.of_frame la.frame) (by rw [ea]; exact hst) ha
    refine ⟨Local.local_trans (b := a) (la.local_mono (fun _ hf => hf.elim))
      (g1.local_mono ?_), fun hset => ?_⟩
    · rintro x ⟨c, hc, hx⟩
      rw [hch] at hc
      rw [InSubtree.subtree_of_frame la.frame] at hx
      exact ⟨c, hc, hx⟩
    · refine Local.local_trans (b := a) (la.local_mono (fun _ hf => hf.elim))
        ((g2 ?_).local_mono ?_)
      · intro hskip c hc
        rw [hch] at hc
        have hskip' : skipLevelOfDetail s.tileset = true := by
          unfold skipLevelOfDetail at hskip ⊢
          rw [← la.frame.tilesetStatic._skipLevelOfDetail]
          exact hskip
        exact (hset hskip' c hc).preserved la.frame (la.content hs)
          (fun x _ => la.outside x (fun h => h))
      · rintro x ⟨c, hc, hx, hne⟩
        rw [hch] at hc
        rw [InSubtree.subtree_of_frame la.frame] at hx
        exact ⟨c, hc, hx, hne⟩
  have both : ∀ {a : State}, (∀ P : TileId → Prop, Local env P s a) →
      Local env (fun x => ∃ c ∈ (s.tiles tile).children, InSubtree s c x) s a
        ∧ ((skipLevelOfDetail s.tileset = true →
              ∀ c ∈ (s.tiles tile).children, Settled env frameState s c) →
            Local env (fun x => ∃ c ∈ (s.tiles tile).children, InSubtree s c x ∧ x ≠ c)
              s a) := fun h => ⟨h _, fun _ => h _⟩
  have after : ∀ {a : State},
      (Local env (fun x => ∃ c ∈ (s.tiles tile).children, InSubtree s c x) s a
        ∧ ((skipLevelOfDetail s.tileset = true →
              ∀ c ∈ (s.tiles tile).children, Settled env frameState s c) →
            Local env (fun x => ∃ c ∈ (s.tiles tile).children, InSubtree s c x ∧ x ≠ c)
              s a)) →
      Local env (fun x => ∃ c ∈ (s.tiles tile).children, InSubtree s c x) s
          (loadTile env a tile frameState)
        ∧ ((skipLevelOfDetail s.tileset = true →
              ∀ c ∈ (s.tiles tile).children, Settled env frameState s c) →
            Local env (fun x => ∃ c ∈ (s.tiles tile).children, InSubtree s c x ∧ x ≠ c)
              s (loadTile env a tile frameState)) := fun h =>
    ⟨h.1.local_trans (loadTile_local env _ _ _ _),
      fun hset => (h.2 hset).local_trans (loadTile_local env _ _ _ _)⟩
  have hl : ∀ (a : State) (P : TileId → Prop), Local env P a (loadTile env a tile frameState) :=
    fun a P => loadTile_local env a tile frameState P
  have he : ∀ (a : State) (P : TileId → Prop), Local env P a (addEmptyTile a tile) := fun a P =>
    Local.of_frames [._emptyTiles] (fun M hM _ => addEmptyTile_frame hM a tile)
      (by decide) (by decide) (by decide) (by decide) (by decide) P
  have hld : ∀ a : State, (loadTile env a tile frameState).descendantTraversal
      = a.descendantTraversal := fun a =>
    (loadTile_frame (M := Mask.of loadTileFields) (Mask.contains_of _) env a tile
      frameState).global .descendantTraversal (by decide)
  unfold executeTraversalSelect at h
  split at h
  · simp only [] at h
    have f1 : ∀ P : TileId → Prop, Local env P s
        (loadTile env (addEmptyTile s tile) tile frameState) :=
      fun P => (he s P).local_trans (hl _ P)
    split at h
    · exact from_ _ _ (f1 _) (by rw [hld]; rfl) h
    · cases h
      exact both f1
  · split at h
    · rw [Option.map_eq_some'] at h
      obtain ⟨s1, h1, rfl⟩ := h
      exact after (from_ _ _ (Local.local_refl _ _ _) rfl h1)
    · split at h
      · split at h
        · simp only [] at h
          split at h
          · exact from_ _ _ (hl s _) (hld s) h
          · cases h
            exact both (hl s)
        · split at h
          · rw [Option.map_eq_some'] at h
            obtain ⟨s1, h1, rfl⟩ := h
            exact after (from_ _ _ (Local.local_refl _ _ _) rfl h1)
          · split at h
            · cases h
              exact both (hl s)
            · cases h
              exact both (fun P => Local.local_refl _ _ _)
      · cases h
        exact both (fun P => Local.local_refl _ _ _)

/-- What the body of the loop of `executeTraversal` does to the visibility of the tiles, for the
tile just popped, on a finite tree, when no content expires and the stacks of the inner
traversals are empty: it writes the visibility only of tiles below the popped tile, the popped
tile is as visible after it as before, and the children it pushes are visible at the end. -/
theorem executeTraversalVisit_local (env : Env) (hs : env.ContentStable)
    (frameState : FrameState) (base : ℚ) (size : TileId → Nat) (fuel : Nat) (s : State)
    (tile : TileId) (s' : State) (hT : TreeOK size s) (hes : s.emptyTraversal.stack = [])
    (hds : s.descendantTraversal.stack = [])
    (h : executeTraversalVisit env frameState base fuel s tile = some s') :
    Local env (InSubtree s tile) s s'
      ∧ isVisible (s'.tiles tile) = isVisible (s.tiles tile)
      ∧ ∃ pushed, s'.traversal.stack = pushed ++ s.traversal.stack
        ∧ ∀ c ∈ pushed, isVisible (s'.tiles c) = true := by
  obtain ⟨b, r, s3, hr, hsel, rfl⟩ := executeTraversalVisit_parts env frameState base fuel s
    tile s' h
  obtain ⟨sl, hsl⟩ : ∃ sl, sl = updateTileAncestorContentLinks s tile frameState := ⟨_, rfl⟩
  rw [← hsl] at hr hsel
  -- the update of the ancestor links
  have ll : ∀ P : TileId → Prop, Local env P s sl := fun P => by
    rw [hsl]
    exact Local.of_frames [._ancestorWithContent, ._ancestorWithContentAvailable]
      (fun M hM _ => updateTileAncestorContentLinks_frame hM s tile frameState)
      (by decide) (by decide) (by decide) (by decide) (by decide) P
  have fl : Frame (Mask.of [._ancestorWithContent, ._ancestorWithContentAvailable]) s sl := by
    rw [hsl]
    exact updateTileAncestorContentLinks_frame (Mask.contains_of _) s tile frameState
  have hTl := hT.tree_of_frame fl
  have el1 : sl.emptyTraversal = s.emptyTraversal := fl.global .emptyTraversal (by decide)
  have el2 : sl.descendantTraversal = s.descendantTraversal :=
    fl.global .descendantTraversal (by decide)
  have el3 : sl.traversal = s.traversal := fl.global .traversal (by decide)
  have hchl : (sl.tiles tile).children = (s.tiles tile).children :=
    (ll (fun _ => False)).outside tile (fun h => h) |>.children
  -- the last statements
  have lf : ∀ P : TileId → Prop, Local env P s3
      ((touchTile (visitTile s3 tile frameState) tile frameState).setTile tile
        fun t => { t with _refines := r.2 }) := fun P =>
    Local.of_frames [._visitedFrame, ._statistics, ._touchedFrame, ._cache, ._refines]
      (fun M hM _ => visitFinish_frame hM s3 tile frameState r.2)
      (by decide) (by decide) (by decide) (by decide) (by decide) P
  have ef : ((touchTile (visitTile s3 tile frameState) tile frameState).setTile tile
        fun t => { t with _refines := r.2 }).traversal = s3.traversal :=
    (visitFinish_frame (M := Mask.of [._visitedFrame, ._statistics, ._touchedFrame, ._cache,
      ._refines]) (Mask.contains_of _) s3 tile frameState r.2).global .traversal (by decide)
  -- the part that loads and selects
  have fsel := executeTraversalSelect_frame (M := Mask.of (.content :: selectPhaseFields))
    ((Mask.contains_of _).of_subset (by decide)) env (fun h => absurd h (by decide))
    frameState fuel r.1 tile _ _ _ _ s3 hsel
  have es : s3.traversal = r.1.traversal := fsel.global .traversal (by decide)
  -- the refinement
  unfold executeTraversalRefine at hr
  split at hr
  · rw [Option.map_eq_some'] at hr
    obtain ⟨r1, h1, rfl⟩ := hr
    obtain ⟨lr, v1, v2, ⟨pushed, hp, hv⟩, hsetr, er⟩ := updateAndPushChildren_local env hs
      frameState size fuel sl tile r1 hTl (by rw [el1]; exact hes) h1
    obtain ⟨pushed', sorted, hp', hsub, hperm⟩ := updateAndPushChildren_stack env frameState
      fuel sl tile r1 h1
    have hpe : pushed = pushed' := List.append_cancel_right (hp.symm.trans hp')
    have fr := updateAndPushChildren_frame (M := Mask.of (.content :: pushChildrenFields))
      pushMask_contains env (fun h => absurd h (by decide)) frameState fuel sl tile r1 h1
    have hTr := hTl.tree_of_frame fr
    have edr : r1.1.descendantTraversal.stack = [] := by
      rw [fr.global .descendantTraversal (by decide), el2]
      exact hds
    have hmemr : ∀ x, x ∈ (r1.1.tiles tile).children ↔ x ∈ (sl.tiles tile).children :=
      fun x => (fr.tileStatic tile).children.mem_iff
    obtain ⟨_, g2⟩ := executeTraversalSelect_local env hs frameState size fuel r1.1 tile _ _ _
      _ s3 hTr.sizeOK edr hsel
    have fine := g2 (fun hskip c hc => hsetr (by
      unfold skipLevelOfDetail at hskip ⊢
      rw [← fr.tilesetStatic._skipLevelOfDetail]
      exact hskip) c ((hmemr c).mp hc))
    have vt : VisSame r1.1 s3 tile := fine.outside tile (fun ⟨c, hc, hx, _⟩ =>
      InSubtree.ne_of_child hTr.sizeOK hc hx rfl)
    refine ⟨?_, ?_, pushed, ?_, ?_⟩
    · refine Local.local_trans (b := s3) (Local.local_trans (b := r1.1)
        (Local.local_trans (b := sl) (ll _) (lr.local_mono ?_)) (fine.local_mono ?_)) (lf _)
      · intro x hx
        rw [InSubtree.subtree_of_frame fl] at hx
        exact hx
      · rintro x ⟨c, hc, hx, _⟩
        rw [InSubtree.subtree_of_frame fr, InSubtree.subtree_of_frame fl] at hx
        have hc' : c ∈ (s.tiles tile).children := by
          rw [← hchl]
          exact (hmemr c).mp hc
        exact InSubtree.of_child hc' hx
    · rw [((lf (fun _ => False)).outside tile (fun h => h)).isVisible_eq, vt.isVisible_eq,
        ← ((ll (fun _ => False)).outside tile (fun h => h)).isVisible_eq]
      unfold isVisible
      rw [v1, v2]
    · rw [ef, es, hp, el3]
    · intro c hc
      have hcm : c ∈ (r1.1.tiles tile).children := by
        rw [hmemr]
        rw [hpe] at hc
        exact hperm.mem_iff.mp (hsub.subset (List.mem_reverse.mpr hc))
      have vc : VisSame r1.1 s3 c := by
        refine fine.outside c ?_
        rintro ⟨c', hc', hx, hne⟩
        exact hne (InSubtree.children_disjoint hTr.sizeOK hTr.parent_of_child hcm hc'
          (InSubtree.self _ _) hx)
      rw [((lf (fun _ => False)).outside c (fun h => h)).isVisible_eq, vc.isVisible_eq]
      exact hv c hc
  · cases hr
    have edl : sl.descendantTraversal.stack = [] := by rw [el2]; exact hds
    obtain ⟨g1, _⟩ := executeTraversalSelect_local env hs frameState size fuel sl tile _ _ _
      _ s3 hTl.sizeOK edl hsel
    have vt : VisSame sl s3 tile := g1.outside tile (fun ⟨c, hc, hx⟩ =>
      InSubtree.ne_of_child hTl.sizeOK hc hx rfl)
    refine ⟨?_, ?_, [], ?_, fun _ hc => by cases hc⟩
    · refine Local.local_trans (b := s3) (Local.local_trans (b := sl) (ll _)
        (g1.local_mono ?_)) (lf _)
      rintro x ⟨c, hc, hx⟩
      rw [InSubtree.subtree_of_frame fl] at hx
      rw [hchl] at hc
      exact InSubtree.of_child hc hx
    · rw [((lf (fun _ => False)).outside tile (fun h => h)).isVisible_eq, vt.isVisible_eq,
        ((ll (fun _ => False)).outside tile (fun h => h)).isVisible_eq]
    · rw [ef, es, el3]
      rfl

/-- A tile below `t` other than `t` has `t` as a proper ancestor, when the `parent` of a child
is the tile that lists it. -/
theorem properAncestor_of_inSubtree {s : State}
    (hpc : ∀ p c, c ∈ (s.tiles p).children → (s.tiles c).parent = some p) {t x : TileId}
    (h : InSubtree s t x) (hne : x ≠ t) : ProperAncestor s t x := by
  induction h with
  | refl => exact absurd rfl hne
  | @tail b c htb hbc ih =>
    have hp : (s.tiles c).parent = some b := hpc b c hbc
    by_cases hb : b = t
    · subst hb
      exact Relation.TransGen.single hp
    · exact Relation.TransGen.tail (ih hb) hp

/-- The loop of `executeTraversal`, on a finite tree when no content expires, from a state in
which the tiles on the stack and the visited tiles are visible: every tile it pops is visible
when it is popped, and the visited tiles are visible at the end. -/
theorem executeTraversalLoop_popped (env : Env) (hs : env.ContentStable)
    (frameState : FrameState) (base : ℚ) (size : TileId → Nat) (bound : Nat) (s0 : State)
    (hS0 : SizeOK size s0)
    (hpc : ∀ p c, c ∈ (s0.tiles p).children → (s0.tiles c).parent = some p)
    (hroot : (s0.tiles s0.tileset.root).parent = none)
    (hnd : ∀ p, (s0.tiles p).children.Nodup)
    (fuel : Nat) (s : State) (V : List TileId) (s' : State)
    (core : GenCore frameState size bound s0 s V)
    (hvis : ∀ x, x ∈ s.traversal.stack ∨ x ∈ V → isVisible (s.tiles x) = true)
    (h : executeTraversalLoop env frameState base fuel s = some s') :
    ∃ V' log, executeTraversalLoopPopped env frameState base fuel s = some log
      ∧ GenCore frameState size bound s0 s' V'
      ∧ (∀ p ∈ log, p.2 = true)
      ∧ (∀ x ∈ V', isVisible (s'.tiles x) = true)
      ∧ s'.traversal.stack = [] := by
  induction fuel generalizing s V with
  | zero => simp [executeTraversalLoop] at h
  | succ n ih =>
    cases hst : s.traversal.stack with
    | nil =>
      simp only [executeTraversalLoop, hst] at h
      cases h
      exact ⟨V, [], by simp only [executeTraversalLoopPopped, hst], core,
        fun _ hp => (by cases hp), fun x hx => hvis x (Or.inr hx), hst⟩
    | cons tile rest =>
      simp only [executeTraversalLoop, hst] at h
      obtain ⟨sp, hsp⟩ : ∃ sp : State, sp = { s with traversal :=
          { stack := rest
            stackMaximumLength := max s.traversal.stackMaximumLength (tile :: rest).length } } :=
        ⟨_, rfl⟩
      rw [← hsp] at h
      cases hv : executeTraversalVisit env frameState base n sp tile with
      | none => rw [hv] at h; cases h
      | some s1 =>
        rw [hv] at h
        simp only [] at h
        have hTs : TreeOK size s := (TreeOK.mk hS0 hpc hnd).tree_of_frame core.frame
        have hTp : TreeOK size sp := by
          rw [hsp]
          exact ⟨hTs.sizeOK, hTs.parent_of_child, hTs.children_nodup⟩
        have hv' := hv
        rw [hsp] at hv'
        have core1 := GenCore.core_step env frameState base n size bound s0 s s1 V tile rest
          hS0 hpc hroot hnd core hst hv'
        obtain ⟨lv, vt, pushed, hp, hpv⟩ := executeTraversalVisit_local env hs frameState base
          size n sp tile s1 hTp (by rw [hsp]; exact core.emptyStack)
          (by rw [hsp]; exact core.descendantStack) hv
        have htile_stack : tile ∈ s.traversal.stack := by
          rw [hst]; exact List.mem_cons_self _ _
        have htV : tile ∉ V := core.fresh tile htile_stack
        have hnd' := core.nodup
        rw [hst] at hnd'
        have htrest : tile ∉ rest := (List.nodup_cons.mp hnd').1
        -- a tile of the rest of the stack or visited is not below the popped tile
        have hout : ∀ x, x ∈ rest ∨ x ∈ V → ¬InSubtree sp tile x := by
          intro x hx hsub
          have hne : x ≠ tile := by
            rintro rfl
            rcases hx with hx | hx
            · exact htrest hx
            · exact htV hx
          have hsub0 : InSubtree s0 tile x := by
            have hsub' : InSubtree s tile x := by rw [hsp] at hsub; exact hsub
            exact (InSubtree.subtree_of_frame core.frame tile x).mp hsub'
          have hx' : x ∈ s.traversal.stack ∨ x ∈ V := by
            rcases hx with hx | hx
            · exact Or.inl (by rw [hst]; exact List.mem_cons_of_mem _ hx)
            · exact Or.inr hx
          exact htV (core.ancestor hS0 hroot (properAncestor_of_inSubtree hpc hsub0 hne) hx').1
        have hvis1 : ∀ x, x ∈ s1.traversal.stack ∨ x ∈ tile :: V →
            isVisible (s1.tiles x) = true := by
          have hold : ∀ x, x ∈ rest ∨ x ∈ V → isVisible (s1.tiles x) = true := by
            intro x hx
            rw [(lv.outside x (hout x hx)).isVisible_eq]
            have hx' : x ∈ s.traversal.stack ∨ x ∈ V := by
              rcases hx with hx | hx
              · exact Or.inl (by rw [hst]; exact List.mem_cons_of_mem _ hx)
              · exact Or.inr hx
            rw [hsp]
            exact hvis x hx'
          intro x hx
          rcases hx with hx | hx
          · rw [hp] at hx
            rcases List.mem_append.mp hx with hx | hx
            · exact hpv x hx
            · have hx2 : x ∈ rest := by rw [hsp] at hx; exact hx
              exact hold x (Or.inl hx2)
          · rcases List.mem_cons.mp hx with rfl | hx
            · rw [vt, hsp]
              exact hvis x (Or.inl htile_stack)
            · exact hold x (Or.inr hx)
        obtain ⟨V', log, a1, a2, a3, a4, a5⟩ := ih s1 (tile :: V) core1 hvis1 h
        refine ⟨V', (tile, isVisible (s.tiles tile)) :: log, ?_, a2, ?_, a4, a5⟩
        · simp only [executeTraversalLoopPopped, hst]
          rw [← hsp, hv]
          simp only [a1]
          rfl
        · intro p hp'
          rcases List.mem_cons.mp hp' with rfl | hp'
          · exact hvis tile (Or.inl htile_stack)
          · exact a3 p hp'

/-- The loop body of `traverseAndSelect` when the stack is empty and no ancestor waits for the
stack length 0: the stack stays empty. -/
theorem traverseAndSelectStep_idle (env : Env) (frameState : FrameState) (s : State)
    (lastAncestor : Option TileId) (hst : s.selectionTraversal.stack = [])
    (hw : ∀ w ar, s.selectionTraversal.ancestorStack = w :: ar →
      (s.tiles w)._stackLength ≠ s.selectionTraversal.stack.length) :
    (traverseAndSelectStep env frameState s lastAncestor).1.selectionTraversal.stack = [] := by
  unfold traverseAndSelectStep
  dsimp only
  split
  · rename_i w ar heq
    exfalso
    split at heq
    · rename_i w1 ar1 ha
      split at heq
      · rename_i h1
        exact hw _ _ ha h1
      · cases heq
    · cases heq
  · rw [hst]

/-- The tile recorded by `selectionPopped` is the tile on top of the stack. -/
theorem selectionPopped_mem {s : State} {p : TileId × Bool} (hp : p ∈ selectionPopped s) :
    ∃ tile rest, s.selectionTraversal.stack = tile :: rest
      ∧ p = (tile, isVisible (s.tiles tile)) := by
  unfold selectionPopped at hp
  dsimp only at hp
  split at hp
  · cases hp
  · split at hp
    · cases hp
    · rename_i tile rest heq
      exact ⟨tile, rest, heq, List.mem_singleton.mp hp⟩

/-- An iteration of the loop of `traverseAndSelect` from a state whose stack holds visible
tiles: the tile it pops, if any, is visible, and the stack holds visible tiles afterwards. -/
theorem traverseAndSelectStep_visible (env : Env) (frameState : FrameState) (s : State)
    (lastAncestor : Option TileId)
    (hvis : ∀ x ∈ s.selectionTraversal.stack, isVisible (s.tiles x) = true) :
    (∀ p ∈ selectionPopped s, p.2 = true)
      ∧ ∀ x ∈ (traverseAndSelectStep env frameState s lastAncestor).1.selectionTraversal.stack,
          isVisible ((traverseAndSelectStep env frameState s lastAncestor).1.tiles x)
            = true := by
  constructor
  · intro p hp
    obtain ⟨tile, rest, hst, rfl⟩ := selectionPopped_mem hp
    exact hvis tile (by rw [hst]; exact List.mem_cons_self _ _)
  by_cases hwait : ∃ w ar, s.selectionTraversal.ancestorStack = w :: ar
      ∧ (s.tiles w)._stackLength = s.selectionTraversal.stack.length
  · obtain ⟨w, ar, ha, hl⟩ := hwait
    obtain ⟨r, hr, fr, _, _, hstk, _⟩ := traverseAndSelectStep_wait env frameState s
      lastAncestor w ar ha hl
    rw [hr]
    intro x hx
    rw [hstk] at hx
    rw [isVisible_frame fr (by decide) (by decide) x]
    exact hvis x hx
  · have hw : ∀ w ar, s.selectionTraversal.ancestorStack = w :: ar →
        (s.tiles w)._stackLength ≠ s.selectionTraversal.stack.length :=
      fun w ar ha hl => hwait ⟨w, ar, ha, hl⟩
    cases hst : s.selectionTraversal.stack with
    | nil =>
      rw [traverseAndSelectStep_idle env frameState s lastAncestor hst hw]
      intro x hx
      cases hx
    | cons c st =>
      obtain ⟨r, hr, fr, _, hstk, _⟩ := traverseAndSelectStep_pop env frameState s
        lastAncestor c st hst (by rw [← hst]; exact hw)
      rw [hr]
      intro x hx
      rw [hstk] at hx
      rw [isVisible_frame fr (by decide) (by decide) x]
      rcases List.mem_append.mp hx with hx | hx
      · split at hx
        · rw [List.mem_reverse, List.mem_filter] at hx
          exact hx.2
        · cases hx
      · exact hvis x (by rw [hst]; exact List.mem_cons_of_mem _ hx)

/-- The loop of `traverseAndSelect`, from a state whose stack holds visible tiles: every tile it
pops from the stack is visible when it is popped. -/
theorem traverseAndSelectLoop_popped (env : Env) (frameState : FrameState) (fuel : Nat)
    (s : State) (lastAncestor : Option TileId) (s' : State)
    (hvis : ∀ x ∈ s.selectionTraversal.stack, isVisible (s.tiles x) = true)
    (h : traverseAndSelectLoop env frameState fuel s lastAncestor = some s') :
    ∃ log, traverseAndSelectLoopPopped env frameState fuel s lastAncestor = some log
      ∧ ∀ p ∈ log, p.2 = true := by
  induction fuel generalizing s lastAncestor with
  | zero => simp [traverseAndSelectLoop] at h
  | succ n ih =>
    unfold traverseAndSelectLoop at h
    unfold traverseAndSelectLoopPopped
    split at h
    · rename_i hc
      rw [if_pos hc]
      simp only [] at h ⊢
      obtain ⟨v1, v2⟩ := traverseAndSelectStep_visible env frameState s lastAncestor hvis
      obtain ⟨log, a1, a2⟩ := ih _ _ v2 h
      refine ⟨selectionPopped s ++ log, by rw [a1]; rfl, ?_⟩
      intro p hp
      rcases List.mem_append.mp hp with hp | hp
      · exact v1 p hp
      · exact a2 p hp
    · rename_i hc
      rw [if_neg hc]
      exact ⟨[], rfl, fun _ hp => by cases hp⟩

/-- The selection pass started on a visible root with its stack empty: every tile it pops from
the stack is visible when it is popped. -/
theorem traverseAndSelect_popped (env : Env) (frameState : FrameState) (fuel : Nat)
    (s : State) (root : TileId) (s' : State)
    (hst : s.selectionTraversal.stack = []) (hv : isVisible (s.tiles root) = true)
    (h : traverseAndSelect env frameState fuel s root = some s') :
    ∃ log, traverseAndSelectPopped env frameState fuel s root = some log
      ∧ ∀ p ∈ log, p.2 = true := by
  unfold traverseAndSelect at h
  unfold traverseAndSelectPopped
  refine traverseAndSelectLoop_popped env frameState fuel _ none s' ?_ h
  intro x hx
  have hx' : x ∈ root :: s.selectionTraversal.stack := hx
  rw [hst, List.mem_singleton] at hx'
  rw [hx']
  exact hv

/-- The invariant of the loop of `executeTraversal` holds when `selectTiles` starts the main
traversal: `s` is the state at the start of `selectTiles` and `s1` the state after the update
of the root. -/
theorem GenCore.init (env : Env) (frameState : FrameState) (size : TileId → Nat) (fuel : Nat)
    (s s1 : State) (hwf : WellFormed size s)
    (h1 : updateTile env frameState fuel
      { s with tileset := { s.tileset with
          _requestedTiles := [], _selectedTiles := [], _selectedTilesToStyle := [],
          _emptyTiles := [], _hasMixedContent := false } } s.tileset.root = some s1) :
    GenCore frameState size (size s.tileset.root) s
      { s1 with traversal := { s1.traversal with stack := [s.tileset.root] } } [] := by
  have fc : Frame Mask.all s
      { s with tileset := { s.tileset with
        _requestedTiles := [], _selectedTiles := [], _selectedTilesToStyle := [],
        _emptyTiles := [], _hasMixedContent := false } } :=
    Frame.all_of_static _ _ (fun _ => Tile.Static.tile_refl _) (by constructor <;> rfl)
  have fu := updateTile_frame (M := Mask.of (.content :: updateTileFields))
    ((Mask.contains_of _).of_subset (by decide)) env (fun h => absurd h (by decide))
    frameState fuel _ _ s1 h1
  obtain ⟨mu, _, _⟩ := updateTile_mono frameState.frameNumber env frameState fuel _ _ s1 h1
  have hmax1 : s1.traversal.stackMaximumLength = s.traversal.stackMaximumLength :=
    congrArg Traversal.stackMaximumLength (fu.global .traversal (by decide))
  refine ⟨?_, ?_, ?_, ?_, List.nodup_singleton _, fun _ _ h => (by cases h), ?_,
    Or.inl (List.mem_singleton_self _), ?_, ?_, fun _ h => (by cases h), ?_, mu.cache⟩
  · exact (fc.trans (fu.mono (fun _ _ => rfl))).trans (Frame.setTraversal rfl _ _)
  · exact fu.global .selectionTraversal (by decide)
  · show s1.emptyTraversal.stack = []
    rw [fu.global .emptyTraversal (by decide)]; exact hwf.emptyTraversal_stack
  · show s1.descendantTraversal.stack = []
    rw [fu.global .descendantTraversal (by decide)]; exact hwf.descendantTraversal_stack
  · intro x hx
    rcases hx with h | h
    · exact Or.inl (by simpa using h)
    · cases h
  · show stackSize size [s.tileset.root] ≤ size s.tileset.root
    simp [stackSize]
  · show s1.traversal.stackMaximumLength ≤ _
    rw [hmax1]; exact le_max_left _ _
  · intro hfresh x hx
    have : (s1.tiles x)._visitedFrame = frameState.frameNumber := hx
    rw [fu.tile ._visitedFrame (by decide) x] at this
    exact absurd this (hfresh x)

/-- The main traversal as `selectTiles` runs it, on a visible root: every tile it pops is
visible when it is popped, and the root is visible at the end. -/
theorem executeTraversal_popped (env : Env) (hs : env.ContentStable)
    (frameState : FrameState) (size : TileId → Nat) (fuel : Nat) (s s1 : State)
    (base maximum : ℚ) (hwf : WellFormed size s)
    (h1 : updateTile env frameState fuel
      { s with tileset := { s.tileset with
          _requestedTiles := [], _selectedTiles := [], _selectedTilesToStyle := [],
          _emptyTiles := [], _hasMixedContent := false } } s.tileset.root = some s1)
    (hv : isVisible (s1.tiles s.tileset.root) = true) (s2 : State)
    (h2 : executeTraversal env frameState fuel s1 s.tileset.root base maximum = some s2) :
    ∃ log, executeTraversalPopped env frameState fuel s1 s.tileset.root base = some log
      ∧ (∀ p ∈ log, p.2 = true)
      ∧ isVisible (s2.tiles s.tileset.root) = true := by
  have core0 := GenCore.init env frameState size fuel s s1 hwf h1
  unfold executeTraversal at h2
  have hst1 : s1.traversal.stack = [] := by
    have fu := updateTile_frame (M := Mask.of (.content :: updateTileFields))
      ((Mask.contains_of _).of_subset (by decide)) env (fun h => absurd h (by decide))
      frameState fuel _ _ s1 h1
    rw [fu.global .traversal (by decide)]; exact hwf.traversal_stack
  rw [hst1] at h2
  obtain ⟨V', log, a1, a2, a3, a4, a5⟩ := executeTraversalLoop_popped env hs frameState base
    size (size s.tileset.root) s hwf.sizeOK hwf.parent_of_child hwf.root_parent
    hwf.children_nodup fuel _ [] s2 core0
    (by
      intro x hx
      rcases hx with hx | hx
      · have hx' : x ∈ [s.tileset.root] := hx
        rw [List.mem_singleton.mp hx']
        exact hv
      · cases hx)
    h2
  refine ⟨log, ?_, a3, ?_⟩
  · unfold executeTraversalPopped
    rw [hst1]
    exact a1
  · rcases a2.root with h | h
    · rw [a5] at h; cases h
    · exact a4 _ h

/-- The function `selectTilesPopped` with the writes to the output arrays gathered. -/
theorem selectTilesPopped_eq (env : Env) (frameState : FrameState) (fuel : Nat) (s : State) :
    selectTilesPopped env frameState fuel s
      = if s.tileset.debugFreezeFrame = true then some ([], [])
        else
          match updateTile env frameState fuel
            { s with tileset := { s.tileset with
                _requestedTiles := [], _selectedTiles := [], _selectedTilesToStyle := [],
                _emptyTiles := [], _hasMixedContent := false } } s.tileset.root with
          | none => none
          | some s1 =>
            if (!isVisible (s1.tiles s.tileset.root)) = true then some ([], [])
            else if env.getScreenSpaceError frameState s.tileset.root
                ≤ s1.tileset._maximumScreenSpaceError then some ([], [])
            else if (!skipLevelOfDetail s1.tileset) = true then
              executeBaseTraversalPopped env frameState fuel s1 s.tileset.root
            else if s1.tileset.immediatelyLoadDesiredLevelOfDetail = true then
              executeSkipTraversalPopped env frameState fuel s1 s.tileset.root
            else executeBaseAndSkipTraversalPopped env frameState fuel s1 s.tileset.root := by
  unfold selectTilesPopped
  by_cases h : s.tileset.debugFreezeFrame = true
  · rw [if_pos h]
    dsimp only [State.setTileset]
    rw [if_pos h]
  · rw [if_neg h]
    dsimp only [State.setTileset]
    rw [if_neg h]
    first | done | rfl

theorem selectTilesPopped_staleGrandchildState :
    selectTilesPopped hiddenGrandchildEnv sampleFrameState 10 staleGrandchildState
      = some ([(0, true), (1, true)], [(0, true), (1, true)]) := by
  decide!

theorem selectTilesPopped_chainState :
    selectTilesPopped sampleEnv sampleFrameState 10 chainState
      = some ([(0, true), (1, true), (2, true), (3, true)],
          [(0, true), (1, true), (2, true), (3, true)]) := by
  decide!

/-- When `immediatelyLoadDesiredLevelOfDetail` is set, `inBaseTraversal` returns before it reads
the base threshold: its result is the same for every base threshold. -/
theorem inBaseTraversal_immediate (s : State) (tile : TileId) (b1 b2 : ℚ)
    (h : s.tileset.immediatelyLoadDesiredLevelOfDetail = true) :
    inBaseTraversal s tile b1 = inBaseTraversal s tile b2 := by
  unfold inBaseTraversal
  simp only [h, if_true]

/-- The body of the loop of `executeTraversal` leaves the configuration of the tileset as it
is. -/
theorem executeTraversalVisit_tilesetStatic (env : Env) (frameState : FrameState) (base : ℚ)
    (fuel : Nat) (s : State) (tile : TileId) (s' : State)
    (h : executeTraversalVisit env frameState base fuel s tile = some s') :
    Tileset.Static s.tileset s'.tileset := by
  obtain ⟨s3, refines, pushed, sorted, rfl, ph, F1, _⟩ :=
    executeTraversalVisit_general env frameState base fuel s tile s' h
  have f2 := visitTile_frame (M := Mask.all) (Mask.all_contains _) s3 tile frameState
  have f3 := touchTile_frame (M := Mask.all) (Mask.all_contains _)
    (visitTile s3 tile frameState) tile frameState
  have f4 : Frame Mask.all (touchTile (visitTile s3 tile frameState) tile frameState)
      ((touchTile (visitTile s3 tile frameState) tile frameState).setTile tile
        (fun t => { t with _refines := refines })) :=
    Frame.setTile _ _ _ ⟨List.Perm.refl _, rfl, rfl, rfl, rfl, rfl⟩ (fun f hf => by cases hf)
  exact (((F1.mono (fun _ _ => rfl)).trans f2).trans f3).trans f4 |>.tilesetStatic

/-- When `immediatelyLoadDesiredLevelOfDetail` is set, the body of the loop of `executeTraversal`
does the same for every base threshold. -/
theorem executeTraversalVisit_immediate (env : Env) (frameState : FrameState) (b1 b2 : ℚ)
    (fuel : Nat) (s : State) (tile : TileId)
    (h : s.tileset.immediatelyLoadDesiredLevelOfDetail = true) :
    executeTraversalVisit env frameState b1 fuel s tile
      = executeTraversalVisit env frameState b2 fuel s tile := by
  have fl := updateTileAncestorContentLinks_frame (M := Mask.all) (Mask.all_contains _)
    s tile frameState
  have h1 : (updateTileAncestorContentLinks s tile frameState).tileset.immediatelyLoadDesiredLevelOfDetail
      = true := by
    rw [fl.tilesetStatic.immediatelyLoadDesiredLevelOfDetail]; exact h
  unfold executeTraversalVisit
  simp only []
  rw [inBaseTraversal_immediate _ tile b1 b2 h1]

/-- When `immediatelyLoadDesiredLevelOfDetail` is set, the loop of `executeTraversal` does the
same for every base threshold. -/
theorem executeTraversalLoop_immediate (env : Env) (frameState : FrameState) (b1 b2 : ℚ)
    (fuel : Nat) (s : State)
    (h : s.tileset.immediatelyLoadDesiredLevelOfDetail = true) :
    executeTraversalLoop env frameState b1 fuel s
      = executeTraversalLoop env frameState b2 fuel s := by
  induction fuel generalizing s with
  | zero => rfl
  | succ n ih =>
    cases hst : s.traversal.stack with
    | nil => simp only [executeTraversalLoop, hst]
    | cons tile rest =>
      simp only [executeTraversalLoop, hst]
      obtain ⟨sp, hsp⟩ : ∃ sp : State, sp = { s with traversal :=
          { stack := rest
            stackMaximumLength := max s.traversal.stackMaximumLength (tile :: rest).length } } :=
        ⟨_, rfl⟩
      rw [← hsp]
      have hp : sp.tileset.immediatelyLoadDesiredLevelOfDetail = true := by rw [hsp]; exact h
      rw [executeTraversalVisit_immediate env frameState b1 b2 n sp tile hp]
      cases hv : executeTraversalVisit env frameState b2 n sp tile with
      | none => rfl
      | some s1 =>
        simp only []
        have hs := executeTraversalVisit_tilesetStatic env frameState b2 n sp tile s1 hv
        exact ih s1 (by rw [hs.immediatelyLoadDesiredLevelOfDetail]; exact hp)

/-- When `immediatelyLoadDesiredLevelOfDetail` is set, `executeTraversal` does the same for
every base threshold. -/
theorem executeTraversal_immediate (env : Env) (frameState : FrameState) (b1 b2 m1 m2 : ℚ)
    (fuel : Nat) (s : State) (root : TileId)
    (h : s.tileset.immediatelyLoadDesiredLevelOfDetail = true) :
    executeTraversal env frameState fuel s root b1 m1
      = executeTraversal env frameState fuel s root b2 m2 := by
  unfold executeTraversal
  exact executeTraversalLoop_immediate env frameState b1 b2 fuel _ h

theorem immediateChainState_result :
    (executeSkipTraversal sampleEnv sampleFrameState 10 immediateChainState 0).map
        (fun s => (s.tileset._selectedTiles, s.tileset._requestedTiles)) = some ([2], [3])
      ∧ (executeSkipTraversalAtMaximum sampleEnv sampleFrameState 10 immediateChainState 0).map
        (fun s => (s.tileset._selectedTiles, s.tileset._requestedTiles)) = some ([2], [3]) := by
  decide!

/-- The locals `minIndex` and `minPriorityDistance` after the first part of an iteration of the
second loop of `updateAndPushChildren`. -/
theorem pushOrLoadChild_min (env : Env) (frameState : FrameState)
    (checkRefines : Bool) (acc : PushChildren) (ic : Nat × TileId) :
    ((pushOrLoadChild env frameState checkRefines acc ic).minIndex,
        (pushOrLoadChild env frameState checkRefines acc ic).minPriorityDistance)
      = (if comparesPriorityDistance checkRefines acc ic.2 = true
            ∧ (acc.s.tiles ic.2)._priorityDistance < acc.minPriorityDistance then
          (some ic.1, (acc.s.tiles ic.2)._priorityDistance)
        else (acc.minIndex, acc.minPriorityDistance)) := by
  unfold pushOrLoadChild comparesPriorityDistance
  simp only []
  by_cases hv : isVisible (acc.s.tiles ic.2) = true
  · rw [if_pos hv]
    by_cases hd : (acc.s.tiles ic.2)._priorityDistance < acc.minPriorityDistance
    · simp [hv, hd]
    · simp [hv, hd]
  · rw [if_neg hv]
    by_cases hc : (checkRefines || acc.s.tileset.loadSiblings) = true
    · rw [if_pos hc]
      by_cases hd : (acc.s.tiles ic.2)._priorityDistance < acc.minPriorityDistance
      · simp [hv, hc, hd]
      · simp [hv, hc, hd]
    · rw [if_neg hc]
      simp [hv, hc]

/-- The second part of an iteration of the second loop of `updateAndPushChildren` keeps the
locals `minIndex` and `minPriorityDistance`. -/
theorem updateAndPushChildrenStep_min (env : Env) (frameState : FrameState) (fuel : Nat)
    (checkRefines : Bool) (acc : PushChildren) (ic : Nat × TileId) (acc' : PushChildren)
    (h : updateAndPushChildrenStep env frameState fuel checkRefines acc ic = some acc') :
    (acc'.minIndex, acc'.minPriorityDistance)
      = (if comparesPriorityDistance checkRefines acc ic.2 = true
            ∧ (acc.s.tiles ic.2)._priorityDistance < acc.minPriorityDistance then
          (some ic.1, (acc.s.tiles ic.2)._priorityDistance)
        else (acc.minIndex, acc.minPriorityDistance)) := by
  rw [← pushOrLoadChild_min env frameState checkRefines acc ic]
  unfold updateAndPushChildrenStep at h
  simp only [] at h
  split at h
  · rw [Option.map_eq_some'] at h
    obtain ⟨r, _, rfl⟩ := h
    rfl
  · cases h
    rfl

/-- The locals `minIndex` and `minPriorityDistance` of the second loop of
`updateAndPushChildren` after the first `n` children: either no child whose distance was
compared had a distance below the initial `minPriorityDistance`, and `minIndex` is still
undefined, or `minIndex` is the index of the first child of least distance among the children
compared, with the distances read when the loop reaches each child. -/
theorem pushLoop_minIndex (env : Env) (frameState : FrameState) (fuel : Nat)
    (cr : Bool) (l : List (Nat × TileId)) (init : PushChildren)
    (hl : ∀ (k : Nat) (ic : Nat × TileId), l[k]? = some ic → ic.1 = k) (hi : init.minIndex = none)
    (n : Nat) (acc : PushChildren)
    (h : (l.take n).foldlM (updateAndPushChildrenStep env frameState fuel cr) init = some acc) :
    (acc.minIndex = none ∧ acc.minPriorityDistance = init.minPriorityDistance
      ∧ ∀ k ic a, k < n → l[k]? = some ic →
          (l.take k).foldlM (updateAndPushChildrenStep env frameState fuel cr) init = some a →
          comparesPriorityDistance cr a ic.2 = true →
          ¬ (a.s.tiles ic.2)._priorityDistance < init.minPriorityDistance)
    ∨ (∃ m icm am, m < n ∧ l[m]? = some icm
        ∧ (l.take m).foldlM (updateAndPushChildrenStep env frameState fuel cr) init = some am
        ∧ comparesPriorityDistance cr am icm.2 = true
        ∧ acc.minIndex = some m
        ∧ acc.minPriorityDistance = (am.s.tiles icm.2)._priorityDistance
        ∧ (am.s.tiles icm.2)._priorityDistance < init.minPriorityDistance
        ∧ ∀ k ic a, k < n → l[k]? = some ic →
            (l.take k).foldlM (updateAndPushChildrenStep env frameState fuel cr) init = some a →
            comparesPriorityDistance cr a ic.2 = true →
            (am.s.tiles icm.2)._priorityDistance ≤ (a.s.tiles ic.2)._priorityDistance
              ∧ (k < m →
                (am.s.tiles icm.2)._priorityDistance < (a.s.tiles ic.2)._priorityDistance)) := by
  induction n generalizing acc with
  | zero =>
    simp only [List.take_zero, List.foldlM_nil] at h
    cases h
    exact Or.inl ⟨hi, rfl, fun k ic a hk => absurd hk (by omega)⟩
  | succ n ih =>
    rw [List.take_succ, List.foldlM_append] at h
    cases h1 : (l.take n).foldlM (updateAndPushChildrenStep env frameState fuel cr) init with
    | none => rw [h1] at h; cases h
    | some a =>
      rw [h1] at h
      have IH := ih a h1
      cases hk : l[n]? with
      | none =>
        rw [hk] at h
        simp only [Option.toList, List.foldlM_nil, Option.bind_eq_bind, Option.some_bind,
          Option.pure_def, Option.some.injEq] at h
        subst h
        rcases IH with ⟨e1, e2, e3⟩ | ⟨m, icm, am, hm, e1, e2, e3, e4, e5, e6, e7⟩
        · refine Or.inl ⟨e1, e2, fun k ic a' hlt hic ha hc => ?_⟩
          have : k ≠ n := by rintro rfl; rw [hk] at hic; cases hic
          exact e3 k ic a' (by omega) hic ha hc
        · refine Or.inr ⟨m, icm, am, by omega, e1, e2, e3, e4, e5, e6,
            fun k ic a' hlt hic ha hc => ?_⟩
          have : k ≠ n := by rintro rfl; rw [hk] at hic; cases hic
          exact e7 k ic a' (by omega) hic ha hc
      | some icn =>
        rw [hk] at h
        simp only [Option.toList, List.foldlM_cons, List.foldlM_nil, bind_pure,
          Option.bind_eq_bind, Option.some_bind] at h
        have hstep : updateAndPushChildrenStep env frameState fuel cr a icn = some acc := by
          cases hs : updateAndPushChildrenStep env frameState fuel cr a icn with
          | none => rw [hs] at h; simp at h
          | some a' => rw [hs] at h; simpa using h
        have hmin := updateAndPushChildrenStep_min env frameState fuel cr a icn acc hstep
        have hn1 : icn.1 = n := hl n icn hk
        by_cases hnew : comparesPriorityDistance cr a icn.2 = true
            ∧ (a.s.tiles icn.2)._priorityDistance < a.minPriorityDistance
        · -- the child is the new minimum
          rw [if_pos hnew, Prod.mk.injEq, hn1] at hmin
          obtain ⟨hA, hB⟩ := hmin
          rcases IH with ⟨e1, e2, e3⟩ | ⟨m, icm, am, hm, e1, e2, e3, e4, e5, e6, e7⟩
          · refine Or.inr ⟨n, icn, a, by omega, hk, h1, hnew.1, hA, hB, by rw [← e2]; exact hnew.2,
              fun k ic a' hlt hic ha hc => ?_⟩
            by_cases hkn : k = n
            · subst hkn
              rw [hk] at hic; cases hic
              rw [h1] at ha; cases ha
              exact ⟨le_refl _, fun h => absurd h (by omega)⟩
            · have := e3 k ic a' (by omega) hic ha hc
              rw [← e2] at this
              have hlt2 := hnew.2
              exact ⟨le_of_lt (lt_of_lt_of_le hlt2 (not_lt.mp this)),
                fun _ => lt_of_lt_of_le hlt2 (not_lt.mp this)⟩
          · refine Or.inr ⟨n, icn, a, by omega, hk, h1, hnew.1, hA, hB,
              lt_trans (by rw [← e5]; exact hnew.2) e6, fun k ic a' hlt hic ha hc => ?_⟩
            by_cases hkn : k = n
            · subst hkn
              rw [hk] at hic; cases hic
              rw [h1] at ha; cases ha
              exact ⟨le_refl _, fun h => absurd h (by omega)⟩
            · have := (e7 k ic a' (by omega) hic ha hc).1
              have hlt2 := hnew.2
              rw [e5] at hlt2
              exact ⟨le_of_lt (lt_of_lt_of_le hlt2 this), fun _ => lt_of_lt_of_le hlt2 this⟩
        · -- the minimum stays
          rw [if_neg hnew, Prod.mk.injEq] at hmin
          obtain ⟨hA, hB⟩ := hmin
          rcases IH with ⟨e1, e2, e3⟩ | ⟨m, icm, am, hm, e1, e2, e3, e4, e5, e6, e7⟩
          · refine Or.inl ⟨by rw [hA]; exact e1, by rw [hB]; exact e2,
              fun k ic a' hlt hic ha hc => ?_⟩
            by_cases hkn : k = n
            · subst hkn
              rw [hk] at hic; cases hic
              rw [h1] at ha; cases ha
              intro hd
              exact hnew ⟨hc, by rw [e2]; exact hd⟩
            · exact e3 k ic a' (by omega) hic ha hc
          · refine Or.inr ⟨m, icm, am, by omega, e1, e2, e3, by rw [hA]; exact e4,
              by rw [hB]; exact e5, e6, fun k ic a' hlt hic ha hc => ?_⟩
            by_cases hkn : k = n
            · subst hkn
              rw [hk] at hic; cases hic
              rw [h1] at ha; cases ha
              have : ¬ (a.s.tiles icn.2)._priorityDistance < a.minPriorityDistance :=
                fun hd => hnew ⟨hc, hd⟩
              rw [e5] at this
              exact ⟨not_lt.mp this, fun h => absurd h (by omega)⟩
            · exact e7 k ic a' (by omega) hic ha hc

/-- The last part of `updateAndPushChildren` when the loop found no minimum: the state is the
state of the loop. -/
theorem updateAndPushChildrenFinish_none (tile : TileId) (children : List TileId)
    (acc : PushChildren) (hi : acc.minIndex = none) :
    (updateAndPushChildrenFinish tile children acc).1 = acc.s := by
  unfold updateAndPushChildrenFinish
  simp only [hi, Option.none_bind]

/-- The last part of `updateAndPushChildren` when the loop found the minimum `children[i]`: one
tile becomes the `_priorityDistanceHolder` of every child, and its `_priorityDistance` becomes
the minimum of the distance of that child and of the distance it stored. -/
theorem updateAndPushChildrenFinish_holder (tile : TileId) (children : List TileId)
    (acc : PushChildren) (i : Nat) (c : TileId) (hi : acc.minIndex = some i)
    (hc : children[i]? = some c) :
    ∃ holder,
      holder = (if ((acc.s.setTile c fun t => { t with _wasMinPriorityChild := true }).tiles
            tile)._wasMinPriorityChild || decide (tile = acc.s.tileset.root) then
          ((acc.s.setTile c fun t => { t with _wasMinPriorityChild := true }).tiles
            tile)._priorityDistanceHolder
        else tile)
      ∧ ((updateAndPushChildrenFinish tile children acc).1.tiles holder)._priorityDistance
          = min (acc.s.tiles c)._priorityDistance (acc.s.tiles holder)._priorityDistance
      ∧ ∀ x ∈ children,
          ((updateAndPushChildrenFinish tile children acc).1.tiles x)._priorityDistanceHolder
            = holder := by
  have hmin : (acc.minIndex.bind fun i => children[i]?) = some c := by
    rw [hi]; exact hc
  obtain ⟨s1, hs1⟩ : ∃ s1, s1 = acc.s.setTile c fun t => { t with _wasMinPriorityChild := true } :=
    ⟨_, rfl⟩
  have key : ∀ y, (s1.tiles y)._priorityDistance = (acc.s.tiles y)._priorityDistance := by
    intro y
    rw [hs1]
    by_cases h : y = c
    · subst h; simp
    · simp [h]
  obtain ⟨holder, hholder⟩ : ∃ holder, holder
      = (if (s1.tiles tile)._wasMinPriorityChild || decide (tile = acc.s.tileset.root) then
          (s1.tiles tile)._priorityDistanceHolder else tile) := ⟨_, rfl⟩
  have hfin : (updateAndPushChildrenFinish tile children acc).1
      = children.foldl
          (fun (s : State) child =>
            s.setTile child fun t => { t with _priorityDistanceHolder := holder })
          (s1.setTile holder fun t =>
            { t with _priorityDistance := min (s1.tiles c)._priorityDistance t._priorityDistance }) := by
    rw [hholder, hs1]
    unfold updateAndPushChildrenFinish
    simp only [hmin]
    rfl
  refine ⟨holder, by rw [hholder, hs1], ?_⟩
  rw [hfin]
  refine ⟨?_, ?_⟩
  · rw [foldl_setHolder_priorityDistance, State.setTile_tiles_self]
    show min _ _ = _
    rw [key, key]
  · intro x hx
    exact foldl_setHolder_holder _ _ _ x hx

/-- An iteration of the second loop of `updateAndPushChildren` without `checkRefines` writes
only what `loadTile` and `touchTile` write, and the stack. -/
theorem updateAndPushChildrenStep_unchecked {M : Mask}
    (hM : M.contains (loadTileFields ++ touchTileFields ++ [.traversal]))
    (env : Env) (frameState : FrameState) (fuel : Nat) (acc : PushChildren)
    (ic : Nat × TileId) (acc' : PushChildren)
    (h : updateAndPushChildrenStep env frameState fuel false acc ic = some acc') :
    Frame M acc.s acc'.s := by
  unfold updateAndPushChildrenStep at h
  simp only [Bool.false_eq_true, if_false, Option.some.injEq] at h
  subst h
  exact pushOrLoadChild_frame hM env frameState false acc ic

/-- The second loop of `updateAndPushChildren` without `checkRefines` writes only what
`loadTile` and `touchTile` write, and the stack. -/
theorem pushLoop_unchecked {M : Mask}
    (hM : M.contains (loadTileFields ++ touchTileFields ++ [.traversal]))
    (env : Env) (frameState : FrameState) (fuel : Nat) (l : List (Nat × TileId))
    (acc acc' : PushChildren)
    (h : l.foldlM (updateAndPushChildrenStep env frameState fuel false) acc = some acc') :
    Frame M acc.s acc'.s :=
  foldlM_preorder (fun (a b : PushChildren) => Frame M a.s b.s)
    (fun _ => Frame.refl _ _) (fun _ _ _ => Frame.trans) _
    (fun a ic a' => updateAndPushChildrenStep_unchecked hM env frameState fuel a ic a')
    _ _ _ h

theorem twoLeavesState_sizeOK : SizeOK mixedRefineSize twoLeavesState := by
  intro p
  rcases p with _ | _ | _ | p <;>
    simp [twoLeavesState, sampleState, twoLeavesTiles, mixedRefineSize, stackSize, sampleTile]

theorem twoLeavesSortedState_eq :
    updateAndSortChildren nearRootEnv sampleFrameState 4 twoLeavesState 0
      = some twoLeavesSortedState :=
  Option.isSome_getD_eq _ _ (by decide!)

/-- On the root with two leaves, the children are sorted farthest first, the loop finds the leaf
1 at index 1 and distance 10, and the root, which is the holder, keeps the smaller distance 0 it
stored. -/
theorem twoLeavesSortedState_result :
    (twoLeavesSortedState.tiles 0).children = [2, 1]
      ∧ (updateAndPushChildrenAt nearRootEnv sampleFrameState 4 twoLeavesSortedState 0 2).map
          (fun a => (a.minIndex, a.minPriorityDistance)) = some (some 1, 10)
      ∧ (updateAndPushChildren nearRootEnv sampleFrameState 4 twoLeavesState 0).map
          (fun r => ((r.1.tiles 0)._priorityDistance, (r.1.tiles 1)._priorityDistanceHolder,
            (r.1.tiles 2)._priorityDistanceHolder, (r.1.tiles 1)._wasMinPriorityChild))
        = some (0, 0, 0, true) := by
  decide!

/-- The function `loadTile` appends the tile to `_requestedTiles`, or nothing. -/
theorem loadTile_requested (env : Env) (s : State) (tile : TileId) (frameState : FrameState) :
    ∃ q, (loadTile env s tile frameState).tileset._requestedTiles
        = s.tileset._requestedTiles ++ q ∧ (q = [] ∨ q = [tile]) := by
  have hfr := isPriorityDeferred_frame (M := Mask.of [._foveatedFactor])
    (Mask.contains_of _) env s tile frameState
  have hts : (isPriorityDeferred env s tile frameState).1.tileset._requestedTiles
      = s.tileset._requestedTiles := hfr.global ._requestedTiles (by decide)
  unfold loadTile
  split
  · simp only []
    split
    · exact ⟨[tile], by simp [State.setTileset, State.setTile, hts], Or.inr rfl⟩
    · exact ⟨[], by simp [State.setTileset, State.setTile, hts], Or.inl rfl⟩
  · exact ⟨[], by simp, Or.inl rfl⟩

/-- The first part of an iteration of the second loop of `updateAndPushChildren` pushes the
child, or appends it to `_requestedTiles`, or neither, and never both. -/
theorem pushOrLoadChild_requested (env : Env) (frameState : FrameState)
    (checkRefines : Bool) (acc : PushChildren) (ic : Nat × TileId) :
    ∃ p q, (pushOrLoadChild env frameState checkRefines acc ic).s.traversal.stack
        = p ++ acc.s.traversal.stack
      ∧ (pushOrLoadChild env frameState checkRefines acc ic).s.tileset._requestedTiles
        = acc.s.tileset._requestedTiles ++ q
      ∧ ((p = [] ∧ q = []) ∨ (p = [ic.2] ∧ q = []) ∨ (p = [] ∧ q = [ic.2])) := by
  unfold pushOrLoadChild
  simp only []
  split
  · refine ⟨[ic.2], [], ?_, ?_, Or.inr (Or.inl ⟨rfl, rfl⟩)⟩
    · split <;> rfl
    · split <;> simp
  · split
    · obtain ⟨q, hq, hq'⟩ := loadTile_requested env acc.s ic.2 frameState
      have fl := loadTile_frame (M := Mask.of loadTileFields) (Mask.contains_of _) env acc.s ic.2
        frameState
      have ft := touchTile_frame (M := Mask.of touchTileFields) (Mask.contains_of _)
        (loadTile env acc.s ic.2 frameState) ic.2 frameState
      have e1 : (touchTile (loadTile env acc.s ic.2 frameState) ic.2 frameState).traversal
          = acc.s.traversal := by
        rw [ft.global .traversal (by decide), fl.global .traversal (by decide)]
      have e2 : (touchTile (loadTile env acc.s ic.2 frameState) ic.2
          frameState).tileset._requestedTiles = acc.s.tileset._requestedTiles ++ q := by
        rw [ft.global ._requestedTiles (by decide), hq]
      refine ⟨[], q, ?_, ?_, ?_⟩
      · split <;> simp [e1]
      · split <;> simp [e2]
      · rcases hq' with h | h
        · exact Or.inl ⟨rfl, h⟩
        · exact Or.inr (Or.inr ⟨rfl, h⟩)
    · exact ⟨[], [], by simp, by simp, Or.inl ⟨rfl, rfl⟩⟩

/-- The computation of `childRefines` on a child that has content of its own writes nothing. -/
theorem childRefines_of_content (env : Env) (frameState : FrameState) (fuel : Nat) (s : State)
    (child : TileId) (r : State × Bool) (hne : hasEmptyContent (s.tiles child) = false)
    (h : childRefines env frameState fuel s child = some r) : r.1 = s := by
  unfold childRefines at h
  rw [hne] at h
  split at h
  · cases h; rfl
  · simp only [Bool.false_eq_true, if_false, Option.some.injEq] at h
    cases h; rfl

/-- An iteration of the second loop of `updateAndPushChildren`, when `executeEmptyTraversal`
does not run (there is no `checkRefines`, or the child has content of its own), pushes the
child, or appends it to `_requestedTiles`, or neither, and never both. -/
theorem updateAndPushChildrenStep_requested (env : Env) (frameState : FrameState) (fuel : Nat)
    (cr : Bool) (acc : PushChildren) (ic : Nat × TileId) (acc' : PushChildren)
    (hne : cr = true → hasEmptyContent (acc.s.tiles ic.2) = false)
    (h : updateAndPushChildrenStep env frameState fuel cr acc ic = some acc') :
    ∃ p q, acc'.s.traversal.stack = p ++ acc.s.traversal.stack
      ∧ acc'.s.tileset._requestedTiles = acc.s.tileset._requestedTiles ++ q
      ∧ ((p = [] ∧ q = []) ∨ (p = [ic.2] ∧ q = []) ∨ (p = [] ∧ q = [ic.2])) := by
  obtain ⟨p, q, h1, h2, h3⟩ := pushOrLoadChild_requested env frameState cr acc ic
  unfold updateAndPushChildrenStep at h
  simp only [] at h
  split at h
  · rename_i hcr
    rw [Option.map_eq_some'] at h
    obtain ⟨r, hr, rfl⟩ := h
    have hne' : hasEmptyContent ((pushOrLoadChild env frameState cr acc ic).s.tiles ic.2)
        = false := by
      rw [(pushOrLoadChild_child env frameState cr acc ic ic.2).2.1]
      exact hne hcr
    have := childRefines_of_content env frameState fuel _ ic.2 r hne' hr
    simp only []
    rw [this]
    exact ⟨p, q, h1, h2, h3⟩
  · cases h
    exact ⟨p, q, h1, h2, h3⟩

/-- The second loop of `updateAndPushChildren`, when `executeEmptyTraversal` does not run (there
is no `checkRefines`, or no content expires and every tile has content of its own): the
children it pushes and the children it appends to `_requestedTiles` are distinct children of
the list. -/
theorem pushLoop_requested (env : Env) (frameState : FrameState) (fuel : Nat) (cr : Bool)
    (l : List (Nat × TileId)) (acc acc' : PushChildren)
    (hnd : (l.map Prod.snd).Nodup)
    (hne : cr = true → env.ContentStable ∧ ∀ x, hasEmptyContent (acc.s.tiles x) = false)
    (h : l.foldlM (updateAndPushChildrenStep env frameState fuel cr) acc = some acc') :
    ∃ P Q, acc'.s.traversal.stack = P ++ acc.s.traversal.stack
      ∧ acc'.s.tileset._requestedTiles = acc.s.tileset._requestedTiles ++ Q
      ∧ (∀ x ∈ P, x ∈ l.map Prod.snd) ∧ (∀ x ∈ Q, x ∈ l.map Prod.snd)
      ∧ P.Nodup ∧ Q.Nodup ∧ (∀ x ∈ P, x ∉ Q) := by
  induction l generalizing acc with
  | nil =>
    simp only [List.foldlM_nil, Option.pure_def, Option.some.injEq] at h
    subst h
    exact ⟨[], [], by simp, by simp, by simp, by simp, List.nodup_nil, List.nodup_nil, by simp⟩
  | cons ic l ih =>
    rw [List.foldlM_cons] at h
    cases h1 : updateAndPushChildrenStep env frameState fuel cr acc ic with
    | none => rw [h1] at h; simp at h
    | some acc1 =>
      rw [h1] at h
      simp only [Option.bind_eq_bind, Option.some_bind] at h
      rw [List.map_cons, List.nodup_cons] at hnd
      obtain ⟨p, q, e1, e2, e3⟩ := updateAndPushChildrenStep_requested env frameState fuel cr
        acc ic acc1 (fun hcr => (hne hcr).2 ic.2) h1
      have hne1 : cr = true →
          env.ContentStable ∧ ∀ x, hasEmptyContent (acc1.s.tiles x) = false := by
        intro hcr
        obtain ⟨hs, hall⟩ := hne hcr
        have f := updateAndPushChildrenStep_frame (M := Mask.of pushChildrenFields)
          (Mask.contains_of _) env (fun _ => hs) frameState fuel cr acc ic acc1 h1
        refine ⟨hs, fun x => ?_⟩
        rw [hasEmptyContent_congr (f.tile .content (by decide) x)]
        exact hall x
      obtain ⟨P, Q, a1, a2, a3, a4, a5, a6, a7⟩ := ih acc1 hnd.2 hne1 h
      refine ⟨P ++ p, q ++ Q, ?_, ?_, ?_, ?_, ?_, ?_, ?_⟩
      · rw [a1, e1, List.append_assoc]
      · rw [a2, e2, List.append_assoc]
      · intro x hx
        rw [List.map_cons]
        rcases List.mem_append.mp hx with hx | hx
        · exact List.mem_cons_of_mem _ (a3 x hx)
        · rcases e3 with ⟨rfl, _⟩ | ⟨rfl, _⟩ | ⟨rfl, _⟩
          · cases hx
          · rw [List.mem_singleton.mp hx]; exact List.mem_cons_self _ _
          · cases hx
      · intro x hx
        rw [List.map_cons]
        rcases List.mem_append.mp hx with hx | hx
        · rcases e3 with ⟨_, rfl⟩ | ⟨_, rfl⟩ | ⟨_, rfl⟩
          · cases hx
          · cases hx
          · rw [List.mem_singleton.mp hx]; exact List.mem_cons_self _ _
        · exact List.mem_cons_of_mem _ (a4 x hx)
      · rcases e3 with ⟨rfl, _⟩ | ⟨rfl, _⟩ | ⟨rfl, _⟩
        · simpa using a5
        · rw [List.nodup_append]
          refine ⟨a5, List.nodup_singleton _, ?_⟩
          intro x hx hx'
          rw [List.mem_singleton.mp hx'] at hx
          exact hnd.1 (a3 _ hx)
        · simpa using a5
      · rcases e3 with ⟨_, rfl⟩ | ⟨_, rfl⟩ | ⟨_, rfl⟩
        · simpa using a6
        · simpa using a6
        · rw [List.singleton_append, List.nodup_cons]
          exact ⟨fun hx => hnd.1 (a4 _ hx), a6⟩
      · intro x hx hx'
        rcases List.mem_append.mp hx with hx | hx
        · rcases List.mem_append.mp hx' with hx' | hx'
          · rcases e3 with ⟨_, rfl⟩ | ⟨_, rfl⟩ | ⟨_, rfl⟩
            · cases hx'
            · cases hx'
            · rw [List.mem_singleton.mp hx'] at hx
              exact hnd.1 (a3 _ hx)
          · exact a7 x hx hx'
        · rcases e3 with ⟨rfl, rfl⟩ | ⟨rfl, rfl⟩ | ⟨rfl, rfl⟩
          · cases hx
          · rw [List.mem_singleton.mp hx] at hx'
            simp only [List.nil_append] at hx'
            exact hnd.1 (a4 _ hx')
          · cases hx

/-- The function `updateAndPushChildren`, when `executeEmptyTraversal` does not run (mixed-LOD
rendering is on, or no content expires and every tile has content of its own): the children it
pushes and the children it appends to `_requestedTiles` are distinct children of the tile. -/
theorem updateAndPushChildren_requested (env : Env) (frameState : FrameState) (fuel : Nat)
    (s : State) (tile : TileId) (r : State × Bool)
    (hnd : (s.tiles tile).children.Nodup)
    (hne : skipLevelOfDetail s.tileset = true
      ∨ (env.ContentStable ∧ ∀ x, hasEmptyContent (s.tiles x) = false))
    (h : updateAndPushChildren env frameState fuel s tile = some r) :
    ∃ P Q, r.1.traversal.stack = P ++ s.traversal.stack
      ∧ r.1.tileset._requestedTiles = s.tileset._requestedTiles ++ Q
      ∧ (∀ x ∈ P, x ∈ (s.tiles tile).children) ∧ (∀ x ∈ Q, x ∈ (s.tiles tile).children)
      ∧ P.Nodup ∧ Q.Nodup ∧ (∀ x ∈ P, x ∉ Q) := by
  unfold updateAndPushChildren at h
  rw [Option.bind_eq_some] at h
  obtain ⟨s1, h1, h2⟩ := h
  simp only [Option.map_eq_some'] at h2
  obtain ⟨acc, hacc, rfl⟩ := h2
  have f1 := updateAndSortChildren_frame (M := Mask.all) (Mask.all_contains _) env
    (fun h => absurd h (by decide)) frameState fuel s tile s1 h1
  have hperm : (s1.tiles tile).children.Perm (s.tiles tile).children :=
    (f1.tileStatic tile).children
  have hrec := updateAndSortChildren_records env frameState fuel s tile s1 h1
  have hreq1 : s1.tileset._requestedTiles = s.tileset._requestedTiles := by
    have h1' := h1
    unfold updateAndSortChildren at h1'
    rw [Option.map_eq_some'] at h1'
    obtain ⟨s0, h0, rfl⟩ := h1'
    have f0 := updateChildren_frame (M := Mask.of (.content :: updateTileFields))
      ((Mask.contains_of _).of_subset (by decide)) env (fun h => absurd h (by decide))
      frameState fuel s _ s0 h0
    exact f0.global ._requestedTiles (by decide)
  have hne1 : checkRefines s1 tile = true →
      env.ContentStable ∧ ∀ x, hasEmptyContent ((PushChildren.init s1).s.tiles x) = false := by
    intro hcr
    rcases hne with hsk | ⟨hs, hall⟩
    · exfalso
      unfold checkRefines at hcr
      rw [show skipLevelOfDetail s1.tileset = skipLevelOfDetail s.tileset from
        f1.tilesetStatic._skipLevelOfDetail, hsk] at hcr
      simp at hcr
    · have f := updateAndSortChildren_frame (M := Mask.of pushChildrenFields)
        (Mask.contains_of _) env (fun _ => hs) frameState fuel s tile s1 h1
      refine ⟨hs, fun x => ?_⟩
      show hasEmptyContent (s1.tiles x) = false
      rw [hasEmptyContent_congr (f.tile .content (by decide) x)]
      exact hall x
  have hnd1 : ((s1.tiles tile).children.enum.map Prod.snd).Nodup := by
    rw [List.enum_map_snd]
    exact hperm.nodup_iff.mpr hnd
  obtain ⟨P, Q, a1, a2, a3, a4, a5, a6, a7⟩ := pushLoop_requested env frameState fuel
    (checkRefines s1 tile) (s1.tiles tile).children.enum (PushChildren.init s1) acc hnd1 hne1 hacc
  have ff := updateAndPushChildrenFinish_frame
    (M := Mask.of [._wasMinPriorityChild, ._priorityDistance, ._priorityDistanceHolder])
    (Mask.contains_of _) tile (s1.tiles tile).children acc
  rw [List.enum_map_snd] at a3 a4
  refine ⟨P, Q, ?_, ?_, fun x hx => hperm.mem_iff.mp (a3 x hx),
    fun x hx => hperm.mem_iff.mp (a4 x hx), a5, a6, a7⟩
  · rw [ff.global .traversal (by decide), a1]
    show P ++ s1.traversal.stack = _
    rw [hrec.1]
  · rw [ff.global ._requestedTiles (by decide), a2]
    show s1.tileset._requestedTiles ++ Q = _
    rw [hreq1]

/-- The part of the body of the loop of `executeTraversal` that loads the tile and selects the
desired tile appends the tile to `_requestedTiles`, or nothing. -/
theorem executeTraversalSelect_requested (env : Env) (frameState : FrameState) (fuel : Nat)
    (s : State) (tile : TileId) (add replace baseTraversal stoppedRefining : Bool) (s' : State)
    (h : executeTraversalSelect env frameState fuel s tile add replace baseTraversal
      stoppedRefining = some s') :
    ∃ q, s'.tileset._requestedTiles = s.tileset._requestedTiles ++ q
      ∧ (q = [] ∨ q = [tile]) := by
  have hd : ∀ σ σ', selectDesiredTile env frameState fuel σ tile = some σ' →
      σ'.tileset._requestedTiles = σ.tileset._requestedTiles := by
    intro σ σ' hσ
    have f := selectDesiredTile_frame (M := Mask.of (.content :: descendantFields))
      ((Mask.contains_of _).of_subset (by decide)) env (fun h => absurd h (by decide))
      frameState fuel σ tile σ' hσ
    exact f.global ._requestedTiles (by decide)
  have hl := fun σ => loadTile_requested env σ tile frameState
  unfold executeTraversalSelect at h
  split at h
  · simp only [] at h
    obtain ⟨q, hq, hq'⟩ := hl (addEmptyTile s tile)
    have he : (addEmptyTile s tile).tileset._requestedTiles = s.tileset._requestedTiles := rfl
    split at h
    · exact ⟨q, by rw [hd _ _ h, hq, he], hq'⟩
    · cases h; exact ⟨q, by rw [hq, he], hq'⟩
  · split at h
    · rw [Option.map_eq_some'] at h
      obtain ⟨σ, hσ, rfl⟩ := h
      obtain ⟨q, hq, hq'⟩ := hl σ
      exact ⟨q, by rw [hq, hd _ _ hσ], hq'⟩
    · split at h
      · split at h
        · simp only [] at h
          obtain ⟨q, hq, hq'⟩ := hl s
          split at h
          · exact ⟨q, by rw [hd _ _ h, hq], hq'⟩
          · cases h; exact ⟨q, hq, hq'⟩
        · split at h
          · rw [Option.map_eq_some'] at h
            obtain ⟨σ, hσ, rfl⟩ := h
            obtain ⟨q, hq, hq'⟩ := hl σ
            exact ⟨q, by rw [hq, hd _ _ hσ], hq'⟩
          · split at h
            · cases h
              exact hl s
            · cases h; exact ⟨[], by simp, Or.inl rfl⟩
      · cases h; exact ⟨[], by simp, Or.inl rfl⟩

/-- The body of the loop of `executeTraversal`, when `executeEmptyTraversal` does not run
(mixed-LOD rendering is on, or no content expires and every tile has content of its own): the
tiles it appends to `_requestedTiles` are distinct; each is the popped tile or a child of it
that is not pushed. -/
theorem executeTraversalVisit_requested (env : Env) (frameState : FrameState) (base : ℚ)
    (fuel : Nat) (s : State) (tile : TileId) (s' : State)
    (hnd : (s.tiles tile).children.Nodup) (hself : tile ∉ (s.tiles tile).children)
    (hne : skipLevelOfDetail s.tileset = true
      ∨ (env.ContentStable ∧ ∀ x, hasEmptyContent (s.tiles x) = false))
    (h : executeTraversalVisit env frameState base fuel s tile = some s') :
    ∃ P Q, s'.traversal.stack = P ++ s.traversal.stack
      ∧ s'.tileset._requestedTiles = s.tileset._requestedTiles ++ Q
      ∧ Q.Nodup
      ∧ (∀ x ∈ P, x ∈ (s.tiles tile).children)
      ∧ (∀ x ∈ Q, x = tile ∨ (x ∈ (s.tiles tile).children ∧ x ∉ P)) := by
  obtain ⟨b, r, s3, hr, hsel, rfl⟩ := executeTraversalVisit_parts env frameState base fuel s
    tile s' h
  obtain ⟨sl, hsl⟩ : ∃ sl, sl = updateTileAncestorContentLinks s tile frameState := ⟨_, rfl⟩
  rw [← hsl] at hr hsel
  have fl : Frame (Mask.of [._ancestorWithContent, ._ancestorWithContentAvailable]) s sl := by
    rw [hsl]
    exact updateTileAncestorContentLinks_frame (Mask.contains_of _) s tile frameState
  have hch : (sl.tiles tile).children = (s.tiles tile).children :=
    fl.tile .children (by decide) tile
  have hne' : skipLevelOfDetail sl.tileset = true
      ∨ (env.ContentStable ∧ ∀ x, hasEmptyContent (sl.tiles x) = false) := by
    rcases hne with h1 | ⟨h1, h2⟩
    · left
      rw [show skipLevelOfDetail sl.tileset = skipLevelOfDetail s.tileset from
        fl.tilesetStatic._skipLevelOfDetail]
      exact h1
    · right
      refine ⟨h1, fun x => ?_⟩
      rw [hasEmptyContent_congr (fl.tile .content (by decide) x)]
      exact h2 x
  -- the refinement
  have hpush : ∃ P Q, r.1.traversal.stack = P ++ s.traversal.stack
      ∧ r.1.tileset._requestedTiles = s.tileset._requestedTiles ++ Q
      ∧ (∀ x ∈ P, x ∈ (s.tiles tile).children) ∧ (∀ x ∈ Q, x ∈ (s.tiles tile).children)
      ∧ P.Nodup ∧ Q.Nodup ∧ (∀ x ∈ P, x ∉ Q) := by
    unfold executeTraversalRefine at hr
    split at hr
    · rw [Option.map_eq_some'] at hr
      obtain ⟨r1, h1, rfl⟩ := hr
      obtain ⟨P, Q, a1, a2, a3, a4, a5, a6, a7⟩ := updateAndPushChildren_requested env
        frameState fuel sl tile r1 (by rw [hch]; exact hnd) hne' h1
      rw [hch] at a3 a4
      refine ⟨P, Q, ?_, ?_, a3, a4, a5, a6, a7⟩
      · rw [a1, fl.global .traversal (by decide)]
      · rw [a2, fl.global ._requestedTiles (by decide)]
    · cases hr
      refine ⟨[], [], ?_, ?_, by simp, by simp, List.nodup_nil, List.nodup_nil, by simp⟩
      · rw [fl.global .traversal (by decide)]; rfl
      · rw [fl.global ._requestedTiles (by decide)]; simp
  obtain ⟨P, Q, a1, a2, a3, a4, a5, a6, a7⟩ := hpush
  -- the selection of the desired tile
  obtain ⟨q, hq, hq'⟩ := executeTraversalSelect_requested env frameState fuel r.1 tile _ _ _ _
    s3 hsel
  have fs := executeTraversalSelect_frame selectPhaseMask_contains env
    (fun h => absurd h (by decide)) frameState fuel r.1 tile _ _ _ _ s3 hsel
  have f2 := visitTile_frame (M := Mask.of [._visitedFrame, ._statistics]) (Mask.contains_of _)
    s3 tile frameState
  have f3 := touchTile_frame (M := Mask.of touchTileFields) (Mask.contains_of _)
    (visitTile s3 tile frameState) tile frameState
  have e1 : ((touchTile (visitTile s3 tile frameState) tile frameState).setTile tile
      (fun t => { t with _refines := r.2 })).traversal = s3.traversal := by
    show (touchTile (visitTile s3 tile frameState) tile frameState).traversal = _
    rw [f3.global .traversal (by decide), f2.global .traversal (by decide)]
  have e2 : ((touchTile (visitTile s3 tile frameState) tile frameState).setTile tile
      (fun t => { t with _refines := r.2 })).tileset._requestedTiles
      = s3.tileset._requestedTiles := by
    show (touchTile (visitTile s3 tile frameState) tile frameState).tileset._requestedTiles = _
    rw [f3.global ._requestedTiles (by decide), f2.global ._requestedTiles (by decide)]
  refine ⟨P, Q ++ q, ?_, ?_, ?_, a3, ?_⟩
  · rw [e1, fs.global .traversal (by decide), a1]
  · rw [e2, hq, a2, List.append_assoc]
  · rcases hq' with rfl | rfl
    · simpa using a6
    · rw [List.nodup_append]
      refine ⟨a6, List.nodup_singleton _, ?_⟩
      intro x hx hx'
      rw [List.mem_singleton.mp hx'] at hx
      exact hself (a4 _ hx)
  · intro x hx
    rcases List.mem_append.mp hx with hx | hx
    · exact Or.inr ⟨a4 x hx, fun hp => a7 x hp hx⟩
    · rcases hq' with rfl | rfl
      · cases hx
      · exact Or.inl (List.mem_singleton.mp hx)

/-- Induction over the loop of `executeTraversal`: a property `I` of the state and of the list
of the visited tiles that every iteration keeps, together with the invariant `GenCore`, holds
when the loop returns. -/
theorem executeTraversalLoop_invariant (env : Env) (frameState : FrameState) (base : ℚ)
    (size : TileId → Nat) (bound : Nat) (s0 : State)
    (hS0 : SizeOK size s0)
    (hpc : ∀ p c, c ∈ (s0.tiles p).children → (s0.tiles c).parent = some p)
    (hroot : (s0.tiles s0.tileset.root).parent = none)
    (hnd : ∀ p, (s0.tiles p).children.Nodup)
    (I : State → List TileId → Prop)
    (hstep : ∀ (n : Nat) (s s1 : State) (V : List TileId) (tile : TileId)
      (rest : List TileId), GenCore frameState size bound s0 s V → I s V →
      s.traversal.stack = tile :: rest →
      executeTraversalVisit env frameState base n
        { s with traversal :=
          { stack := rest
            stackMaximumLength := max s.traversal.stackMaximumLength (tile :: rest).length } }
        tile = some s1 →
      GenCore frameState size bound s0 s1 (tile :: V) → I s1 (tile :: V))
    (fuel : Nat) (s : State) (V : List TileId) (s' : State)
    (core : GenCore frameState size bound s0 s V) (hI : I s V)
    (h : executeTraversalLoop env frameState base fuel s = some s') :
    ∃ V', GenCore frameState size bound s0 s' V' ∧ I s' V' ∧ s'.traversal.stack = [] := by
  induction fuel generalizing s V with
  | zero => simp [executeTraversalLoop] at h
  | succ n ih =>
    cases hst : s.traversal.stack with
    | nil =>
      simp only [executeTraversalLoop, hst] at h
      cases h
      exact ⟨V, core, hI, hst⟩
    | cons tile rest =>
      simp only [executeTraversalLoop, hst] at h
      cases hv : executeTraversalVisit env frameState base n
          { s with traversal :=
            { stack := rest
              stackMaximumLength := max s.traversal.stackMaximumLength (tile :: rest).length } }
          tile with
      | none => rw [hv] at h; cases h
      | some s1 =>
        rw [hv] at h
        simp only [] at h
        have core1 := GenCore.core_step env frameState base n size bound s0 s s1 V tile rest
          hS0 hpc hroot hnd core hst hv
        exact ih s1 (tile :: V) core1 (hstep n s s1 V tile rest core hI hst hv core1) h

/-- The body of the loop of `executeTraversal` leaves the content state of every tile as it
is, when no content expires. -/
theorem executeTraversalVisit_content (env : Env) (hs : env.ContentStable)
    (frameState : FrameState) (base : ℚ) (fuel : Nat) (s : State) (tile : TileId) (s' : State)
    (h : executeTraversalVisit env frameState base fuel s tile = some s') (x : TileId) :
    (s'.tiles x).contentState = (s.tiles x).contentState := by
  obtain ⟨s3, refines, pushed, sorted, rfl, ph, F1, _⟩ :=
    executeTraversalVisit_general env frameState base fuel s tile s' h
  have fl := updateTileAncestorContentLinks_frame
    (M := Mask.of [._ancestorWithContent, ._ancestorWithContentAvailable]) (Mask.contains_of _)
    s tile frameState
  have f2 := visitTile_frame (M := Mask.of [._visitedFrame, ._statistics]) (Mask.contains_of _)
    s3 tile frameState
  have f3 := touchTile_frame (M := Mask.of touchTileFields) (Mask.contains_of _)
    (visitTile s3 tile frameState) tile frameState
  have e0 : (((touchTile (visitTile s3 tile frameState) tile frameState).setTile tile
      (fun t => { t with _refines := refines })).tiles x).contentState
      = ((touchTile (visitTile s3 tile frameState) tile frameState).tiles x).contentState := by
    rw [State.setTile_tiles]
    split
    · rename_i hx; subst hx; rfl
    · rfl
  rw [e0]
  have e1 := f3.tile .content (by decide) x
  have e2 := f2.tile .content (by decide) x
  have e3 := fl.tile .content (by decide) x
  exact (e1.trans e2).trans ((ph.content hs x).trans e3)

/-- The loop of `executeTraversal` on a finite tree, when `executeEmptyTraversal` does not run
(mixed-LOD rendering is on, or no content expires and every tile has content of its own), from
a state in which `_requestedTiles` lists distinct tiles, each visited or a child of a visited
tile that is neither on the stack nor visited: the same holds at the end. -/
theorem executeTraversalLoop_requested (env : Env) (frameState : FrameState) (base : ℚ)
    (size : TileId → Nat) (bound : Nat) (s0 : State)
    (hS0 : SizeOK size s0)
    (hpc : ∀ p c, c ∈ (s0.tiles p).children → (s0.tiles c).parent = some p)
    (hroot : (s0.tiles s0.tileset.root).parent = none)
    (hnd : ∀ p, (s0.tiles p).children.Nodup)
    (fuel : Nat) (s : State) (V : List TileId) (s' : State)
    (core : GenCore frameState size bound s0 s V)
    (hne : skipLevelOfDetail s.tileset = true
      ∨ (env.ContentStable ∧ ∀ x, hasEmptyContent (s.tiles x) = false))
    (hreq : s.tileset._requestedTiles.Nodup)
    (hin : ∀ x ∈ s.tileset._requestedTiles, x ∈ V
      ∨ (x ∉ s.traversal.stack ∧ x ∉ V ∧ ∃ p ∈ V, x ∈ (s0.tiles p).children))
    (h : executeTraversalLoop env frameState base fuel s = some s') :
    s'.tileset._requestedTiles.Nodup := by
  have hstep : ∀ (n : Nat) (s s1 : State) (V : List TileId) (tile : TileId)
      (rest : List TileId), GenCore frameState size bound s0 s V →
      ((skipLevelOfDetail s.tileset = true
          ∨ (env.ContentStable ∧ ∀ x, hasEmptyContent (s.tiles x) = false))
        ∧ s.tileset._requestedTiles.Nodup
        ∧ ∀ x ∈ s.tileset._requestedTiles, x ∈ V
          ∨ (x ∉ s.traversal.stack ∧ x ∉ V ∧ ∃ p ∈ V, x ∈ (s0.tiles p).children)) →
      s.traversal.stack = tile :: rest →
      executeTraversalVisit env frameState base n
        { s with traversal :=
          { stack := rest
            stackMaximumLength := max s.traversal.stackMaximumLength (tile :: rest).length } }
        tile = some s1 →
      GenCore frameState size bound s0 s1 (tile :: V) →
      ((skipLevelOfDetail s1.tileset = true
          ∨ (env.ContentStable ∧ ∀ x, hasEmptyContent (s1.tiles x) = false))
        ∧ s1.tileset._requestedTiles.Nodup
        ∧ ∀ x ∈ s1.tileset._requestedTiles, x ∈ tile :: V
          ∨ (x ∉ s1.traversal.stack ∧ x ∉ tile :: V
            ∧ ∃ p ∈ tile :: V, x ∈ (s0.tiles p).children)) := by
    intro n s s1 V tile rest core hI hst hv core1
    obtain ⟨hne, hreq, hin⟩ := hI
    obtain ⟨sp, hsp⟩ : ∃ sp : State, sp = { s with traversal :=
        { stack := rest
          stackMaximumLength := max s.traversal.stackMaximumLength (tile :: rest).length } } :=
      ⟨_, rfl⟩
    rw [← hsp] at hv
    have hS : SizeOK size s := hS0.of_frame core.frame
    have hperm : ∀ p, (s.tiles p).children.Perm (s0.tiles p).children :=
      fun p => (core.frame.tileStatic p).children
    have hchp : (sp.tiles tile).children = (s.tiles tile).children := by rw [hsp]
    have hndp : (sp.tiles tile).children.Nodup := by
      rw [hchp]; exact (hperm tile).nodup_iff.mpr (hnd tile)
    have hself : tile ∉ (sp.tiles tile).children := by
      rw [hchp]
      intro hmem
      exact absurd (hS.child_lt hmem) (lt_irrefl _)
    have hnep : skipLevelOfDetail sp.tileset = true
        ∨ (env.ContentStable ∧ ∀ x, hasEmptyContent (sp.tiles x) = false) := by
      rw [hsp]; exact hne
    obtain ⟨P, Q, b1, b2, b3, b4, b5⟩ := executeTraversalVisit_requested env frameState base n
      sp tile s1 hndp hself hnep hv
    have hstack1 : s1.traversal.stack = P ++ rest := by rw [b1, hsp]
    have hreq1 : s1.tileset._requestedTiles = s.tileset._requestedTiles ++ Q := by
      rw [b2, hsp]
    have htile_stack : tile ∈ s.traversal.stack := by
      rw [hst]; exact List.mem_cons_self _ _
    have htV : tile ∉ V := core.fresh tile htile_stack
    -- a child of the popped tile is neither visited nor on the rest of the stack
    have hchild0 : ∀ x, x ∈ (sp.tiles tile).children → x ∈ (s0.tiles tile).children := by
      intro x hx
      rw [hchp] at hx
      exact (hperm tile).mem_iff.mp hx
    have hnew : ∀ x, x ∈ (s0.tiles tile).children → x ∉ V ∧ x ∉ rest := by
      intro x hx
      have hp := hpc tile x hx
      have key : ¬(x ∈ s.traversal.stack ∨ x ∈ V) ∨ x = tile := by
        by_cases hmem : x ∈ s.traversal.stack ∨ x ∈ V
        · rcases core.parent x hmem with h | ⟨p, hp', hpV, _⟩
          · rw [h, hroot] at hp; cases hp
          · rw [hp] at hp'
            cases hp'
            exact absurd hpV htV
        · exact Or.inl hmem
      have hne' : x ≠ tile := by
        rintro rfl
        exact absurd (hS0.child_lt hx) (lt_irrefl _)
      rcases key with h | h
      · refine ⟨fun hV => h (Or.inr hV), fun hr => h (Or.inl ?_)⟩
        rw [hst]; exact List.mem_cons_of_mem _ hr
      · exact absurd h hne'
    have hother : ∀ x p, p ∈ V → x ∈ (s0.tiles p).children → x ∉ (s0.tiles tile).children := by
      intro x p hpV hx hx'
      have e1 := hpc p x hx
      have e2 := hpc tile x hx'
      rw [e1] at e2
      cases e2
      exact htV hpV
    refine ⟨?_, ?_, ?_⟩
    · rcases hne with h1 | ⟨h1, h2⟩
      · left
        have := (core1.frame.tilesetStatic)._skipLevelOfDetail
        have this0 := (core.frame.tilesetStatic)._skipLevelOfDetail
        unfold skipLevelOfDetail at h1 ⊢
        rw [this, ← this0]
        exact h1
      · right
        refine ⟨h1, fun x => ?_⟩
        rw [hasEmptyContent_congr (executeTraversalVisit_content env h1 frameState base n sp
          tile s1 hv x), hsp]
        exact h2 x
    · rw [hreq1, List.nodup_append]
      refine ⟨hreq, b3, ?_⟩
      intro x hx hx'
      rcases b5 x hx' with rfl | ⟨hc, _⟩
      · rcases hin x hx with h | ⟨h, _⟩
        · exact htV h
        · exact h htile_stack
      · have hc0 := hchild0 x hc
        rcases hin x hx with h | ⟨_, _, p, hpV, hxp⟩
        · exact (hnew x hc0).1 h
        · exact hother x p hpV hxp hc0
    · intro x hx
      rw [hreq1] at hx
      rcases List.mem_append.mp hx with hx | hx
      · rcases hin x hx with h | ⟨h1, h2, p, hpV, hxp⟩
        · exact Or.inl (List.mem_cons_of_mem _ h)
        · right
          have hxt : x ≠ tile := by
            rintro rfl
            exact h1 htile_stack
          refine ⟨?_, ?_, p, List.mem_cons_of_mem _ hpV, hxp⟩
          · rw [hstack1]
            intro hmem
            rcases List.mem_append.mp hmem with hm | hm
            · exact hother x p hpV hxp (hchild0 x (b4 x hm))
            · exact h1 (by rw [hst]; exact List.mem_cons_of_mem _ hm)
          · intro hmem
            rcases List.mem_cons.mp hmem with hm | hm
            · exact hxt hm
            · exact h2 hm
      · rcases b5 x hx with rfl | ⟨hc, hnP⟩
        · exact Or.inl (List.mem_cons_self _ _)
        · right
          have hc0 := hchild0 x hc
          have hxt : x ≠ tile := by
            rintro rfl
            exact absurd (hS0.child_lt hc0) (lt_irrefl _)
          refine ⟨?_, ?_, tile, List.mem_cons_self _ _, hc0⟩
          · rw [hstack1]
            intro hmem
            rcases List.mem_append.mp hmem with hm | hm
            · exact hnP hm
            · exact (hnew x hc0).2 hm
          · intro hmem
            rcases List.mem_cons.mp hmem with hm | hm
            · exact hxt hm
            · exact (hnew x hc0).1 hm
  obtain ⟨V', _, hI, _⟩ := executeTraversalLoop_invariant env frameState base size bound s0
    hS0 hpc hroot hnd
    (fun s V => (skipLevelOfDetail s.tileset = true
        ∨ (env.ContentStable ∧ ∀ x, hasEmptyContent (s.tiles x) = false))
      ∧ s.tileset._requestedTiles.Nodup
      ∧ ∀ x ∈ s.tileset._requestedTiles, x ∈ V
        ∨ (x ∉ s.traversal.stack ∧ x ∉ V ∧ ∃ p ∈ V, x ∈ (s0.tiles p).children))
    hstep fuel s V s' core ⟨hne, hreq, hin⟩ h
  exact hI.2.1

/-- The main traversal as `selectTiles` runs it, when `executeEmptyTraversal` does not run: it
returns and `_requestedTiles` lists distinct tiles. -/
theorem executeTraversal_requested (env : Env) (frameState : FrameState) (size : TileId → Nat)
    (fuel : Nat) (s s1 : State) (base maximum : ℚ) (hwf : WellFormed size s)
    (hne : s.tileset._skipLevelOfDetail = true
      ∨ (env.ContentStable ∧ ∀ x, hasEmptyContent (s.tiles x) = false))
    (h1 : updateTile env frameState fuel
      { s with tileset := { s.tileset with
          _requestedTiles := [], _selectedTiles := [], _selectedTilesToStyle := [],
          _emptyTiles := [], _hasMixedContent := false } } s.tileset.root = some s1)
    (hfuel : size s.tileset.root + 2 ≤ fuel) :
    ∃ s2 V, executeTraversal env frameState fuel s1 s.tileset.root base maximum = some s2
      ∧ GenCore frameState size (size s.tileset.root) s s2 V
      ∧ (env.ContentStable → GenStable env frameState s s2 V)
      ∧ s2.traversal.stack = []
      ∧ s2.tileset._requestedTiles.Nodup := by
  obtain ⟨s2, V, h2, core, stable, hst⟩ := executeTraversal_general env frameState size fuel s
    s1 base maximum hwf h1 hfuel
  refine ⟨s2, V, h2, core, stable, hst, ?_⟩
  have core0 := GenCore.init env frameState size fuel s s1 hwf h1
  have fu := updateTile_frame (M := Mask.of (.content :: updateTileFields))
    ((Mask.contains_of _).of_subset (by decide)) env (fun h => absurd h (by decide))
    frameState fuel _ _ s1 h1
  have hst1 : s1.traversal.stack = [] := by
    rw [fu.global .traversal (by decide)]; exact hwf.traversal_stack
  have hreq1 : s1.tileset._requestedTiles = [] := fu.global ._requestedTiles (by decide)
  unfold executeTraversal at h2
  rw [hst1] at h2
  refine executeTraversalLoop_requested env frameState base size (size s.tileset.root) s
    hwf.sizeOK hwf.parent_of_child hwf.root_parent hwf.children_nodup fuel _ [] s2 core0 ?_ ?_
    ?_ h2
  · rcases hne with h | ⟨hs, hall⟩
    · left
      show s1.tileset._skipLevelOfDetail = true
      rw [fu.tilesetStatic._skipLevelOfDetail]
      exact h
    · right
      refine ⟨hs, fun x => ?_⟩
      have fu' := updateTile_frame (M := Mask.of updateTileFields) (Mask.contains_of _) env
        (fun _ => hs) frameState fuel _ _ s1 h1
      show hasEmptyContent (s1.tiles x) = false
      rw [hasEmptyContent_congr (fu'.tile .content (by decide) x)]
      exact hall x
  · show s1.tileset._requestedTiles.Nodup
    rw [hreq1]; exact List.nodup_nil
  · intro x hx
    have hx' : x ∈ s1.tileset._requestedTiles := hx
    rw [hreq1] at hx'
    cases hx'

/-- The first loop of `updateAndPushChildren`, over children `l` of `t`, writes no tile outside
the subtree of `t`. -/
theorem updateChildren_outside (env : Env) (frameState : FrameState) (fuel : Nat) (t : TileId)
    (l : List TileId) (s s' : State) (hl : ∀ c ∈ l, c ∈ (s.tiles t).children)
    (h : updateChildren env frameState fuel s l = some s') (x : TileId)
    (hx : ¬InSubtree s t x) : s'.tiles x = s.tiles x := by
  unfold updateChildren at h
  induction l generalizing s with
  | nil =>
    simp at h
    subst h
    rfl
  | cons a l ih =>
    rw [List.foldlM_cons] at h
    cases h1 : updateTile env frameState fuel s a with
    | none => simp [h1] at h
    | some s1 =>
      rw [h1] at h
      simp only [Option.bind_eq_bind, Option.some_bind] at h
      have f1 := updateTile_frame (M := Mask.all) (Mask.all_contains _) env
        (fun h => absurd h (by decide)) frameState fuel s a s1 h1
      have ha : a ∈ (s.tiles t).children := hl a (List.mem_cons_self _ _)
      have e1 : s1.tiles x = s.tiles x :=
        updateTile_outside env frameState fuel s a s1 h1 x
          (fun hsub => hx (InSubtree.of_child ha hsub))
      rw [← e1]
      refine ih s1 (fun c hc => ?_) h ?_
      · exact (f1.tileStatic t).children.mem_iff.mpr (hl c (List.mem_cons_of_mem _ hc))
      · intro hsub
        exact hx ((InSubtree.subtree_of_frame f1 t x).mp hsub)

/-- In mixed-LOD rendering `updateAndPushChildren` writes the `_shouldSelect` flag of no tile
outside the subtree of the tile. -/
theorem updateAndPushChildren_shouldSelect (env : Env) (frameState : FrameState) (fuel : Nat)
    (s : State) (tile : TileId) (r : State × Bool)
    (hskip : skipLevelOfDetail s.tileset = true)
    (h : updateAndPushChildren env frameState fuel s tile = some r) (x : TileId)
    (hx : ¬InSubtree s tile x) :
    (r.1.tiles x)._shouldSelect = (s.tiles x)._shouldSelect := by
  unfold updateAndPushChildren at h
  rw [Option.bind_eq_some] at h
  obtain ⟨s1, h1, h2⟩ := h
  simp only [Option.map_eq_some'] at h2
  obtain ⟨acc, hacc, rfl⟩ := h2
  have f1 := updateAndSortChildren_frame (M := Mask.all) (Mask.all_contains _) env
    (fun h => absurd h (by decide)) frameState fuel s tile s1 h1
  have hcr : checkRefines s1 tile = false := by
    unfold checkRefines
    rw [show skipLevelOfDetail s1.tileset = skipLevelOfDetail s.tileset from
      f1.tilesetStatic._skipLevelOfDetail, hskip]
    rfl
  rw [hcr] at hacc
  have f2 := pushLoop_unchecked (M := Mask.of (loadTileFields ++ touchTileFields ++ [.traversal]))
    (Mask.contains_of _) env frameState fuel _ _ _ hacc
  have f3 := updateAndPushChildrenFinish_frame
    (M := Mask.of [._wasMinPriorityChild, ._priorityDistance, ._priorityDistanceHolder])
    (Mask.contains_of _) tile (s1.tiles tile).children acc
  have e3 : ((updateAndPushChildrenFinish tile (s1.tiles tile).children acc).1.tiles x)._shouldSelect
      = (acc.s.tiles x)._shouldSelect := f3.tile ._shouldSelect (by decide) x
  have e2 : (acc.s.tiles x)._shouldSelect = (s1.tiles x)._shouldSelect :=
    f2.tile ._shouldSelect (by decide) x
  have e1 : (s1.tiles x)._shouldSelect = (s.tiles x)._shouldSelect := by
    unfold updateAndSortChildren at h1
    rw [Option.map_eq_some'] at h1
    obtain ⟨s0, h0, rfl⟩ := h1
    have := updateChildren_outside env frameState fuel tile _ s s0 (fun c hc => hc) h0 x hx
    rw [← this, State.setTile_tiles]
    split
    · rename_i hxt; subst hxt; rfl
    · rfl
  rw [e3, e2, e1]

theorem loadedTile_congr {s s' : State} {t : TileId}
    (hc : (s'.tiles t).contentState = (s.tiles t).contentState)
    (hl : (s'.tiles t)._ancestorWithContentAvailable
      = (s.tiles t)._ancestorWithContentAvailable) :
    loadedTile s' t = loadedTile s t := by
  unfold loadedTile
  rw [contentAvailable_congr hc, hl]

/-- In mixed-LOD rendering, `selectDesiredTile` flags the loaded tile when there is one. -/
theorem selectDesiredTile_loaded (env : Env) (frameState : FrameState) (fuel : Nat) (s : State)
    (tile x : TileId) (hskip : skipLevelOfDetail s.tileset = true)
    (hload : loadedTile s tile = some x) :
    selectDesiredTile env frameState fuel s tile
      = some (s.setTile x fun t => { t with _shouldSelect := true }) := by
  unfold selectDesiredTile
  rw [hskip]
  simp only [Bool.not_true, Bool.false_eq_true, if_false]
  unfold loadedTile at hload
  rw [hload]

/-- What `loadTile` keeps: the `_shouldSelect` flags, the loaded tile of every tile and the
configuration of the tileset. -/
theorem loadTile_keeps (env : Env) (s : State) (tile : TileId) (frameState : FrameState) :
    (∀ y, ((loadTile env s tile frameState).tiles y)._shouldSelect = (s.tiles y)._shouldSelect)
      ∧ (∀ t, loadedTile (loadTile env s tile frameState) t = loadedTile s t)
      ∧ skipLevelOfDetail (loadTile env s tile frameState).tileset
        = skipLevelOfDetail s.tileset := by
  have f := loadTile_frame (M := Mask.of loadTileFields) (Mask.contains_of _) env s tile
    frameState
  exact ⟨fun y => f.tile ._shouldSelect (by decide) y,
    fun t => loadedTile_congr (f.tile .content (by decide) t)
      (f.tile ._ancestorWithContentAvailable (by decide) t),
    f.tilesetStatic._skipLevelOfDetail⟩

/-- In mixed-LOD rendering, when the tile has a loaded tile `x`, the part of the body of the
loop of `executeTraversal` that loads the tile and selects the desired tile clears no
`_shouldSelect` flag, and it flags `x` when the tile stopped refining or is an ADD tile with
content of its own. -/
theorem executeTraversalSelect_flags (env : Env) (frameState : FrameState) (fuel : Nat)
    (s : State) (tile x : TileId) (add replace baseTraversal stoppedRefining : Bool)
    (s' : State) (hskip : skipLevelOfDetail s.tileset = true)
    (hload : loadedTile s tile = some x)
    (h : executeTraversalSelect env frameState fuel s tile add replace baseTraversal
      stoppedRefining = some s') :
    (∀ y, (s.tiles y)._shouldSelect = true → (s'.tiles y)._shouldSelect = true)
      ∧ ((stoppedRefining = true ∨ (add = true ∧ hasEmptyContent (s.tiles tile) = false)) →
          (hasEmptyContent (s.tiles tile) = true ∨ add = true ∨ replace = true) →
          (s'.tiles x)._shouldSelect = true) := by
  -- the call of `selectDesiredTile`
  have hd : ∀ σ σ', skipLevelOfDetail σ.tileset = true → loadedTile σ tile = some x →
      selectDesiredTile env frameState fuel σ tile = some σ' →
      (∀ y, (σ.tiles y)._shouldSelect = true → (σ'.tiles y)._shouldSelect = true)
        ∧ (σ'.tiles x)._shouldSelect = true
        ∧ (∀ t, loadedTile σ' t = loadedTile σ t)
        ∧ skipLevelOfDetail σ'.tileset = skipLevelOfDetail σ.tileset := by
    intro σ σ' h1 h2 h3
    rw [selectDesiredTile_loaded env frameState fuel σ tile x h1 h2] at h3
    cases h3
    refine ⟨fun y hy => ?_, by simp, fun t => ?_, rfl⟩
    · rw [State.setTile_tiles]
      split
      · rfl
      · exact hy
    · refine loadedTile_congr ?_ ?_
      · rw [State.setTile_tiles]
        split
        · rename_i e; subst e; rfl
        · rfl
      · rw [State.setTile_tiles]
        split
        · rename_i e; subst e; rfl
        · rfl
  have hl := fun σ => loadTile_keeps env σ tile frameState
  unfold executeTraversalSelect at h
  split at h
  · rename_i hempty
    simp only [] at h
    have k := hl (addEmptyTile s tile)
    split at h
    · rename_i hstop
      obtain ⟨d1, d2, _, _⟩ := hd _ s' (by rw [k.2.2]; exact hskip)
        (by rw [k.2.1]; exact hload) h
      exact ⟨fun y hy => d1 y (by rw [k.1]; exact hy), fun _ _ => d2⟩
    · rename_i hstop
      cases h
      refine ⟨fun y hy => by rw [k.1]; exact hy, fun hc _ => ?_⟩
      rcases hc with hc | ⟨_, hc⟩
      · exact absurd hc hstop
      · rw [hempty] at hc; cases hc
  · rename_i hempty
    split at h
    · rename_i hadd
      rw [Option.map_eq_some'] at h
      obtain ⟨σ, hσ, rfl⟩ := h
      obtain ⟨d1, d2, _, _⟩ := hd s σ hskip hload hσ
      have k := hl σ
      exact ⟨fun y hy => by rw [k.1]; exact d1 y hy, fun _ _ => by rw [k.1]; exact d2⟩
    · rename_i hadd
      split at h
      · rename_i hrep
        split at h
        · simp only [] at h
          have k := hl s
          split at h
          · obtain ⟨d1, d2, _, _⟩ := hd _ s' (by rw [k.2.2]; exact hskip)
              (by rw [k.2.1]; exact hload) h
            exact ⟨fun y hy => d1 y (by rw [k.1]; exact hy), fun _ _ => d2⟩
          · rename_i hstop
            cases h
            refine ⟨fun y hy => by rw [k.1]; exact hy, fun hc _ => ?_⟩
            rcases hc with hc | ⟨hc, _⟩
            · exact absurd hc hstop
            · exact absurd hc hadd
        · split at h
          · rw [Option.map_eq_some'] at h
            obtain ⟨σ, hσ, rfl⟩ := h
            obtain ⟨d1, d2, _, _⟩ := hd s σ hskip hload hσ
            have k := hl σ
            exact ⟨fun y hy => by rw [k.1]; exact d1 y hy, fun _ _ => by rw [k.1]; exact d2⟩
          · rename_i hstop
            have hflag : ∀ y, (s.tiles y)._shouldSelect = true →
                (s'.tiles y)._shouldSelect = true := by
              split at h
              · cases h
                intro y hy
                rw [(hl s).1]; exact hy
              · cases h
                exact fun y hy => hy
            refine ⟨hflag, fun hc _ => ?_⟩
            rcases hc with hc | ⟨hc, _⟩
            · exact absurd hc hstop
            · exact absurd hc hadd
      · rename_i hrep
        cases h
        refine ⟨fun y hy => hy, fun _ hc => ?_⟩
        rcases hc with hc | hc | hc
        · exact absurd hc hempty
        · exact absurd hc hadd
        · exact absurd hc hrep

theorem desiresSelection_congr {s s' : State} {t : TileId}
    (hr : (s'.tiles t)._refines = (s.tiles t)._refines)
    (hp : parentRefines s' t = parentRefines s t)
    (hs : (s'.tiles t).refine = (s.tiles t).refine)
    (hc : (s'.tiles t).contentState = (s.tiles t).contentState) :
    desiresSelection s' t = desiresSelection s t := by
  unfold desiresSelection
  rw [hr, hp, hs, hasEmptyContent_congr hc]

/-- What the body of the loop of `executeTraversal` does to the `_shouldSelect` flags, in
mixed-LOD rendering when no content expires, for a popped tile that has a loaded tile `x` (the
tile itself when its content is available, and otherwise its ancestor with available content):
it clears no flag outside the subtree of the tile; it flags `x` when the tile stopped refining
or is an ADD tile with content of its own; and it leaves the loaded tile of every other tile,
and whether it desires selection, as they were. -/
theorem executeTraversalVisit_flags (env : Env) (hs : env.ContentStable)
    (frameState : FrameState) (base : ℚ) (fuel : Nat) (s : State) (tile x : TileId)
    (s' : State) (hskip : skipLevelOfDetail s.tileset = true)
    (hpar : (s.tiles tile).parent ≠ some tile)
    (hload' : loadedTile s' tile = some x)
    (h : executeTraversalVisit env frameState base fuel s tile = some s') :
    (∀ y, ¬InSubtree s tile y → (s.tiles y)._shouldSelect = true →
        (s'.tiles y)._shouldSelect = true)
      ∧ (desiresSelection s' tile = true → (s'.tiles x)._shouldSelect = true)
      ∧ (∀ t, t ≠ tile → loadedTile s' t = loadedTile s t)
      ∧ (∀ t, t ≠ tile → (s.tiles t).parent ≠ some tile →
          desiresSelection s' t = desiresSelection s t) := by
  obtain ⟨b, r, s3, hr, hsel, rfl⟩ := executeTraversalVisit_parts env frameState base fuel s
    tile s' h
  obtain ⟨sl, hsl⟩ : ∃ sl, sl = updateTileAncestorContentLinks s tile frameState := ⟨_, rfl⟩
  rw [← hsl] at hr hsel
  have fl : Frame (Mask.of [._ancestorWithContent, ._ancestorWithContentAvailable]) s sl := by
    rw [hsl]
    exact updateTileAncestorContentLinks_frame (Mask.contains_of _) s tile frameState
  have fr := executeTraversalRefine_frame (M := Mask.of pushChildrenFields)
    (Mask.contains_of _) env (fun _ => hs) frameState fuel sl tile _ r hr
  have fs := executeTraversalSelect_frame (M := Mask.of selectPhaseFields)
    (Mask.contains_of _) env (fun _ => hs) frameState fuel r.1 tile _ _ _ _ s3 hsel
  have Ff := visitFinish_frame
    (M := Mask.of [._visitedFrame, ._statistics, ._touchedFrame, ._cache, ._refines])
    (Mask.contains_of _) s3 tile frameState r.2
  obtain ⟨sf, hsf⟩ : ∃ sf, sf = (touchTile (visitTile s3 tile frameState) tile
      frameState).setTile tile (fun t => { t with _refines := r.2 }) := ⟨_, rfl⟩
  rw [← hsf] at Ff hload' ⊢
  have hskipl : skipLevelOfDetail sl.tileset = true := by
    rw [show skipLevelOfDetail sl.tileset = skipLevelOfDetail s.tileset from
      fl.tilesetStatic._skipLevelOfDetail]
    exact hskip
  have hskipr : skipLevelOfDetail r.1.tileset = true := by
    rw [show skipLevelOfDetail r.1.tileset = skipLevelOfDetail sl.tileset from
      fr.tilesetStatic._skipLevelOfDetail]
    exact hskipl
  -- the content state and the links, from the update of the links on
  have hcont : ∀ t, (sf.tiles t).contentState = (sl.tiles t).contentState := fun t =>
    ((Ff.tile .content (by decide) t).trans (fs.tile .content (by decide) t)).trans
      (fr.tile .content (by decide) t)
  have hlinks : ∀ t, (sf.tiles t)._ancestorWithContentAvailable
      = (sl.tiles t)._ancestorWithContentAvailable := fun t =>
    ((Ff.tile ._ancestorWithContentAvailable (by decide) t).trans
      (fs.tile ._ancestorWithContentAvailable (by decide) t)).trans
      (fr.tile ._ancestorWithContentAvailable (by decide) t)
  have hload : loadedTile sl tile = some x := by
    rw [← loadedTile_congr (hcont tile) (hlinks tile)]
    exact hload'
  have hloadr : loadedTile r.1 tile = some x := by
    rw [loadedTile_congr (fr.tile .content (by decide) tile)
      (fr.tile ._ancestorWithContentAvailable (by decide) tile)]
    exact hload
  -- the `_refines` of the other tiles
  have href : ∀ t, t ≠ tile → (sf.tiles t)._refines = (s.tiles t)._refines := by
    intro t ht
    have f2 := visitTile_frame (M := Mask.of [._visitedFrame, ._statistics])
      (Mask.contains_of _) s3 tile frameState
    have f3 := touchTile_frame (M := Mask.of touchTileFields) (Mask.contains_of _)
      (visitTile s3 tile frameState) tile frameState
    rw [hsf, State.setTile_tiles, if_neg ht]
    exact (((f3.tile ._refines (by decide) t).trans (f2.tile ._refines (by decide) t)).trans
      (fs.tile ._refines (by decide) t)).trans
      ((fr.tile ._refines (by decide) t).trans (fl.tile ._refines (by decide) t))
  have hreft : (sf.tiles tile)._refines = r.2 := by
    rw [hsf, State.setTile_tiles, if_pos rfl]
  have hparent : ∀ t, (sf.tiles t).parent = (s.tiles t).parent := fun t =>
    (((Ff.tileStatic t).parent.trans (fs.tileStatic t).parent).trans
      (fr.tileStatic t).parent).trans (fl.tileStatic t).parent
  have hrefine : ∀ t, (sf.tiles t).refine = (s.tiles t).refine := fun t =>
    (((Ff.tileStatic t).refine.trans (fs.tileStatic t).refine).trans
      (fr.tileStatic t).refine).trans (fl.tileStatic t).refine
  have hpr : ∀ t, (s.tiles t).parent ≠ some tile → parentRefines sf t = parentRefines s t := by
    intro t ht
    refine parentRefines_congr s sf t (hparent t) (fun p hp => href p ?_)
    rintro rfl
    exact ht hp
  -- the flags, phase by phase
  have hflr : ∀ y, ¬InSubtree s tile y →
      (r.1.tiles y)._shouldSelect = (s.tiles y)._shouldSelect := by
    intro y hy
    have e0 : (sl.tiles y)._shouldSelect = (s.tiles y)._shouldSelect :=
      fl.tile ._shouldSelect (by decide) y
    rw [← e0]
    unfold executeTraversalRefine at hr
    split at hr
    · rw [Option.map_eq_some'] at hr
      obtain ⟨r1, h1, rfl⟩ := hr
      exact updateAndPushChildren_shouldSelect env frameState fuel sl tile r1 hskipl h1 y
        (fun hsub => hy ((InSubtree.subtree_of_frame fl tile y).mp hsub))
    · cases hr; rfl
  obtain ⟨g1, g2⟩ := executeTraversalSelect_flags env frameState fuel r.1 tile x _ _ _ _ s3
    hskipr hloadr hsel
  refine ⟨fun y hy hf => ?_, fun hd => ?_, fun t ht => ?_, fun t ht hpt => ?_⟩
  · rw [Ff.tile ._shouldSelect (by decide) y]
    exact g1 y (by rw [hflr y hy]; exact hf)
  · rw [Ff.tile ._shouldSelect (by decide) x]
    refine g2 ?_ ?_
    · unfold desiresSelection at hd
      rw [hreft, hpr tile hpar, ← parentRefines_links s tile frameState, ← hsl] at hd
      rw [Bool.or_eq_true] at hd
      rcases hd with hd | hd
      · exact Or.inl hd
      · right
        rw [Bool.and_eq_true] at hd
        refine ⟨?_, ?_⟩
        · rw [hrefine tile, ← (fl.tileStatic tile).refine] at hd
          exact hd.1
        · have := hd.2
          rw [hasEmptyContent_congr ((Ff.tile .content (by decide) tile).trans
            (fs.tile .content (by decide) tile))] at this
          simpa using this
    · right
      cases hrf : (sl.tiles tile).refine with
      | ADD => left; simp
      | REPLACE => right; simp
  · rw [loadedTile_congr (hcont t) (hlinks t)]
    refine loadedTile_congr (fl.tile .content (by decide) t) ?_
    rw [hsl, updateTileAncestorContentLinks_tiles_ne _ _ _ _ ht]
  · refine desiresSelection_congr (href t ht) (hpr t hpt) (hrefine t) ?_
    exact (hcont t).trans (fl.tile .content (by decide) t)

/-- The body of the loop of `executeTraversal` keeps what `MonoVis` records: the visibility
computed in this frame and the tiles touched in it. -/
theorem executeTraversalVisit_monoVis (env : Env) (frameState : FrameState) (base : ℚ)
    (fuel : Nat) (s : State) (tile : TileId) (s' : State)
    (h : executeTraversalVisit env frameState base fuel s tile = some s') :
    MonoVis frameState.frameNumber s s' := by
  obtain ⟨s3, refines, pushed, sorted, rfl, ph, _⟩ :=
    executeTraversalVisit_general env frameState base fuel s tile s' h
  have fl := updateTileAncestorContentLinks_frame
    (M := Mask.of [._ancestorWithContent, ._ancestorWithContentAvailable]) (Mask.contains_of _)
    s tile frameState
  obtain ⟨vf, _⟩ := visitFinish_vis s3 tile frameState refines
  exact ((MonoVis.vis_of_frame (n := frameState.frameNumber) fl rfl rfl rfl rfl rfl
    rfl).vis_trans ph.vis).vis_trans vf

/-- One iteration of the loop of `executeTraversal` keeps the part of the invariant that holds
in mixed-LOD rendering when no content expires and the content of the root is available, with
the popped tile added to the visited tiles. -/
theorem SkipInv.skip_step (env : Env) (hs : env.ContentStable) (frameState : FrameState)
    (base : ℚ) (fuel : Nat) (size : TileId → Nat) (bound : Nat)
    (s0 s s1 : State) (V : List TileId) (tile : TileId) (rest : List TileId)
    (hS0 : SizeOK size s0)
    (hpc : ∀ p c, c ∈ (s0.tiles p).children → (s0.tiles c).parent = some p)
    (hroot : (s0.tiles s0.tileset.root).parent = none)
    (hnd : ∀ p, (s0.tiles p).children.Nodup)
    (hskip : s0.tileset._skipLevelOfDetail = true)
    (havail : (s0.tiles s0.tileset.root).contentAvailable = true)
    (core : GenCore frameState size bound s0 s V)
    (inv : SkipInv env frameState s0 s V) (hst : s.traversal.stack = tile :: rest)
    (hv : executeTraversalVisit env frameState base fuel
      { s with traversal :=
        { stack := rest
          stackMaximumLength := max s.traversal.stackMaximumLength (tile :: rest).length } }
      tile = some s1)
    (core1 : GenCore frameState size bound s0 s1 (tile :: V)) :
    SkipInv env frameState s0 s1 (tile :: V) := by
  have stable1 := GenStable.stable_step env frameState base fuel size bound s0 s s1 V tile rest
    hs hS0 hroot core inv.stable hst hv
  obtain ⟨sp, hsp⟩ : ∃ sp : State, sp = { s with traversal :=
      { stack := rest
        stackMaximumLength := max s.traversal.stackMaximumLength (tile :: rest).length } } :=
    ⟨_, rfl⟩
  rw [← hsp] at hv
  have htile_stack : tile ∈ s.traversal.stack := by
    rw [hst]; exact List.mem_cons_self _ _
  have htV : tile ∉ V := core.fresh tile htile_stack
  have hnd' := core.nodup
  rw [hst] at hnd'
  have htrest : tile ∉ rest := (List.nodup_cons.mp hnd').1
  have hTs : TreeOK size s := (TreeOK.mk hS0 hpc hnd).tree_of_frame core.frame
  have hTp : TreeOK size sp := by
    rw [hsp]
    exact ⟨hTs.sizeOK, hTs.parent_of_child, hTs.children_nodup⟩
  have hpar : ∀ x, (s.tiles x).parent = (s0.tiles x).parent :=
    fun x => (core.frame.tileStatic x).parent
  obtain ⟨lv, vt, pushed, hp, hpv⟩ := executeTraversalVisit_local env hs frameState base
    size fuel sp tile s1 hTp (by rw [hsp]; exact core.emptyStack)
    (by rw [hsp]; exact core.descendantStack) hv
  have hstack1 : s1.traversal.stack = pushed ++ rest := by rw [hp, hsp]
  have hpushed : (canTraverse sp.tileset (sp.tiles tile) = false → pushed = [])
      ∧ ∀ x ∈ pushed, x ∈ (sp.tiles tile).children := by
    obtain ⟨s3, refines, pushed', sorted, e, _, _, hstk', _, hsub, hperm, _, _, hnil, _⟩ :=
      executeTraversalVisit_general env frameState base fuel sp tile s1 hv
    have Ff := visitFinish_frame
      (M := Mask.of [._visitedFrame, ._statistics, ._touchedFrame, ._cache, ._refines])
      (Mask.contains_of _) s3 tile frameState refines
    rw [← e] at Ff
    have h1 : pushed ++ sp.traversal.stack = pushed' ++ sp.traversal.stack := by
      rw [← hp, ← hstk']
      exact congrArg Traversal.stack (Ff.global .traversal (by decide))
    have e2 : pushed = pushed' := List.append_cancel_right h1
    rw [e2]
    exact ⟨hnil, fun x hx => hperm.subset (hsub.subset (List.mem_reverse.mpr hx))⟩
  -- a tile of the rest of the stack or visited is not below the popped tile
  have hout : ∀ x, x ∈ rest ∨ x ∈ V → ¬InSubtree sp tile x := by
    intro x hx hsub
    have hne : x ≠ tile := by
      rintro rfl
      rcases hx with hx | hx
      · exact htrest hx
      · exact htV hx
    have hsub0 : InSubtree s0 tile x := by
      have hsub' : InSubtree s tile x := by rw [hsp] at hsub; exact hsub
      exact (InSubtree.subtree_of_frame core.frame tile x).mp hsub'
    have hx' : x ∈ s.traversal.stack ∨ x ∈ V := by
      rcases hx with hx | hx
      · exact Or.inl (by rw [hst]; exact List.mem_cons_of_mem _ hx)
      · exact Or.inr hx
    exact htV (core.ancestor hS0 hroot (properAncestor_of_inSubtree hpc hsub0 hne) hx').1
  have hmv := executeTraversalVisit_monoVis env frameState base fuel sp tile s1 hv
  have hframe : Frame Mask.all s s1 := by
    have fsp : Frame Mask.all s sp := by rw [hsp]; exact Frame.setTraversal rfl s _
    exact fsp.trans lv.frame
  have hmvs : MonoVis frameState.frameNumber s s1 :=
    ⟨by rw [hmv.tilesetStamp, hsp], fun x hx => by
        have := hmv.stamp x (by rw [hsp]; exact hx)
        rw [hsp] at this
        exact this,
      fun x hx => by
        have := hmv.touched x (by rw [hsp]; exact hx)
        exact this,
      by
        have := hmv.cache
        rw [hsp] at this
        exact this⟩
  have hcont : ∀ x, (s1.tiles x).contentState = (s.tiles x).contentState := by
    intro x
    rw [lv.content hs x, hsp]
  have hskips : skipLevelOfDetail sp.tileset = true := by
    rw [hsp]
    show s.tileset._skipLevelOfDetail = true
    rw [core.frame.tilesetStatic._skipLevelOfDetail]
    exact hskip
  -- the canTraverse of a member of the stack or a visited tile is kept
  have hcan : ∀ p, p ∈ s.traversal.stack ∨ p ∈ V →
      canTraverse s1.tileset (s1.tiles p) = canTraverse s.tileset (s.tiles p) := fun p hp =>
    canTraverse_stable hframe p (hcont p)
      (hmvs.screenSpaceError (inv.stable.stampedMember p hp))
  have hchild0 : ∀ x, x ∈ pushed → x ∈ (s0.tiles tile).children := by
    intro x hx
    have := hpushed.2 x hx
    rw [hsp] at this
    exact (core.frame.tileStatic tile).children.mem_iff.mp this
  have hcant : pushed ≠ [] → canTraverse s.tileset (s.tiles tile) = true := by
    intro hne
    cases hc : canTraverse s.tileset (s.tiles tile) with
    | true => rfl
    | false =>
      exact absurd (hpushed.1 (by rw [hsp]; exact hc)) hne
  have hmem : ∀ x, x ∈ s1.traversal.stack ∨ x ∈ tile :: V →
      x ∈ pushed ∨ (x ∈ s.traversal.stack ∨ x ∈ V) := by
    intro x hx
    rcases hx with h | h
    · rw [hstack1] at h
      rcases List.mem_append.mp h with h | h
      · exact Or.inl h
      · exact Or.inr (Or.inl (by rw [hst]; exact List.mem_cons_of_mem _ h))
    · rcases List.mem_cons.mp h with h | h
      · exact Or.inr (Or.inl (h ▸ htile_stack))
      · exact Or.inr (Or.inr h)
  -- the loaded tile of the popped tile
  have hloaded : ∃ x, loadedTile s1 tile = some x := by
    unfold loadedTile
    by_cases ha : (s1.tiles tile).contentAvailable = true
    · exact ⟨tile, by rw [if_pos ha]⟩
    · rw [if_neg ha]
      have hlink := stable1.links tile (List.mem_cons_self _ _)
      cases hl : (s1.tiles tile)._ancestorWithContentAvailable with
      | some a => exact ⟨a, rfl⟩
      | none =>
        exfalso
        rw [hl] at hlink
        rcases inv.belowRoot tile (Or.inl htile_stack) with h | h
        · apply ha
          rw [contentAvailable_congr (stable1.content tile), h]
          exact havail
        · have := hlink _ h
          rw [havail] at this
          cases this
  obtain ⟨x0, hx0⟩ := hloaded
  have hparT : (sp.tiles tile).parent ≠ some tile := by
    rw [hsp]
    show (s.tiles tile).parent ≠ some tile
    rw [hpar]
    rcases core.parent tile (Or.inl htile_stack) with h | ⟨p, hp', hpV, _⟩
    · rw [h, hroot]; exact fun h => by cases h
    · rw [hp']
      intro h
      cases h
      exact htV hpV
  obtain ⟨fa, fb, fc, fd⟩ := executeTraversalVisit_flags env hs frameState base fuel sp tile x0
    s1 hskips hparT hx0 hv
  refine ⟨stable1, ?_, ?_, ?_, ?_⟩
  · -- flagged
    intro t ht hd x hx
    rcases List.mem_cons.mp ht with rfl | htV'
    · rw [hx0] at hx
      cases hx
      exact fb hd
    · have hne : t ≠ tile := fun h => htV (h ▸ htV')
      have hpt : (sp.tiles t).parent ≠ some tile := by
        rw [hsp]
        show (s.tiles t).parent ≠ some tile
        rw [hpar]
        rcases core.parent t (Or.inr htV') with h | ⟨p, hp', hpV, _⟩
        · rw [h, hroot]; exact fun h => by cases h
        · rw [hp']
          intro h
          cases h
          exact htV hpV
      have e1 : desiresSelection s1 t = desiresSelection s t := by
        rw [fd t hne hpt, hsp]
        rfl
      have e2 : loadedTile s1 t = loadedTile s t := by
        rw [fc t hne, hsp]
        rfl
      rw [e1] at hd
      rw [e2] at hx
      have hflag := inv.flagged t htV' hd x hx
      have hxV : x ∈ V := by
        unfold loadedTile at hx
        by_cases ha : (s.tiles t).contentAvailable = true
        · rw [if_pos ha] at hx
          cases hx
          exact htV'
        · rw [if_neg ha] at hx
          have hlink := inv.stable.links t htV'
          rw [hx] at hlink
          exact (core.ancestor hS0 hroot hlink.1 (Or.inr htV')).1
      exact fa x (hout x (Or.inr hxV)) (by rw [hsp]; exact hflag)
  · -- traversable
    intro x hx p hp'
    rcases hmem x hx with h | h
    · have hpt : p = tile := by
        have := hpc tile x (hchild0 x h)
        rw [this] at hp'
        exact (Option.some.inj hp').symm
      subst hpt
      rw [hcan p (Or.inl htile_stack)]
      exact hcant (List.ne_nil_of_mem h)
    · have hpV : p ∈ V := by
        rcases core.parent x h with h1 | ⟨q, hq, hqV, _⟩
        · rw [h1, hroot] at hp'; cases hp'
        · rw [hq] at hp'
          cases hp'
          exact hqV
      rw [hcan p (Or.inr hpV)]
      exact inv.traversable x h p hp'
  · -- visible
    have hold : ∀ x, x ∈ rest ∨ x ∈ V → isVisible (s1.tiles x) = true := by
      intro x hx
      rw [(lv.outside x (hout x hx)).isVisible_eq]
      have hx' : x ∈ s.traversal.stack ∨ x ∈ V := by
        rcases hx with hx | hx
        · exact Or.inl (by rw [hst]; exact List.mem_cons_of_mem _ hx)
        · exact Or.inr hx
      rw [hsp]
      exact inv.visible x hx'
    intro x hx
    rcases hx with hx | hx
    · rw [hp] at hx
      rcases List.mem_append.mp hx with hx | hx
      · exact hpv x hx
      · have hx2 : x ∈ rest := by rw [hsp] at hx; exact hx
        exact hold x (Or.inl hx2)
    · rcases List.mem_cons.mp hx with rfl | hx
      · rw [vt, hsp]
        exact inv.visible x (Or.inl htile_stack)
      · exact hold x (Or.inr hx)
  · -- belowRoot
    intro x hx
    rcases hmem x hx with h | h
    · right
      have hpx := hpc tile x (hchild0 x h)
      rcases inv.belowRoot tile (Or.inl htile_stack) with h1 | h1
      · rw [← h1]
        exact Relation.TransGen.single hpx
      · exact Relation.TransGen.tail h1 hpx
    · exact inv.belowRoot x h

/-- The part of the invariant of the loop of `executeTraversal` that holds when no content
expires holds when `selectTiles` starts the main traversal. -/
theorem GenStable.start (env : Env) (hs : env.ContentStable) (frameState : FrameState)
    (size : TileId → Nat) (fuel : Nat) (s s1 : State) (hwf : WellFormed size s)
    (h1 : updateTile env frameState fuel
      { s with tileset := { s.tileset with
          _requestedTiles := [], _selectedTiles := [], _selectedTilesToStyle := [],
          _emptyTiles := [], _hasMixedContent := false } } s.tileset.root = some s1) :
    GenStable env frameState s
      { s1 with traversal := { s1.traversal with stack := [s.tileset.root] } } [] := by
  have fu := updateTile_frame (M := Mask.of updateTileFields) (Mask.contains_of _) env
    (fun _ => hs) frameState fuel _ _ s1 h1
  obtain ⟨mu, st1, fl1⟩ := updateTile_mono frameState.frameNumber env frameState fuel _ _ s1 h1
  have hsel1 : s1.tileset._selectedTiles = [] := fu.global ._selectedTiles (by decide)
  refine ⟨?_, ?_, fun _ h => (by cases h), fun _ h => (by cases h), ?_, ?_,
    fun _ h => (by cases h)⟩
  · intro x
    exact fu.tile .content (by decide) x
  · intro x hx
    rcases hx with h | h
    · have : x = s.tileset.root := by simpa using h
      subst this
      exact st1
    · cases h
  · intro x hx
    have : x ∈ s1.tileset._selectedTiles := hx
    rw [hsel1] at this; cases this
  · intro x hx hf
    rcases hx with h | h
    · have : x = s.tileset.root := by simpa using h
      subst this
      have hf' : (s1.tiles s.tileset.root)._shouldSelect = true := hf
      rw [fl1] at hf'; cases hf'
    · cases h

/-- A path of the selection pass extended by one more tile at its end. -/
theorem SelectionPath.snoc {s : State} {t p x : TileId} {l : List TileId}
    (h : SelectionPath s t l p) (hc : SelectionChild s p x) :
    SelectionPath s t (l ++ [p]) x := by
  induction h with
  | nil t => exact SelectionPath.cons hc (SelectionPath.nil x)
  | cons h1 _ ih => exact SelectionPath.cons h1 (ih hc)

/-- At the end of the main traversal the selection pass reaches every visited tile from the
root. -/
theorem SkipInv.selectionPath {env : Env} {frameState : FrameState} {size : TileId → Nat} {bound : Nat}
    {s0 s : State} {V : List TileId} (core : GenCore frameState size bound s0 s V)
    (inv : SkipInv env frameState s0 s V) (hroot : (s0.tiles s0.tileset.root).parent = none)
    (x : TileId) (hx : x ∈ V) :
    ∃ l, SelectionPath s s0.tileset.root l x := by
  have key : ∀ y, ProperAncestor s0 s0.tileset.root y → y ∈ V →
      ∃ l, SelectionPath s s0.tileset.root l y := by
    intro y hy
    unfold ProperAncestor at hy
    induction hy with
    | @single c hrc =>
      intro hc
      have hch : SelectionChild s s0.tileset.root c := by
        rcases core.parent c (Or.inr hc) with h | ⟨p, hp, hpV, hmem⟩
        · rw [h] at hrc
          have : (s0.tiles s0.tileset.root).parent = some s0.tileset.root := hrc
          rw [hroot] at this
          cases this
        · have e : p = s0.tileset.root := by
            have : (s0.tiles c).parent = some s0.tileset.root := hrc
            rw [hp] at this
            exact Option.some.inj this
          subst e
          exact ⟨inv.traversable c (Or.inr hc) _ hp,
            (core.frame.tileStatic _).children.mem_iff.mpr hmem, inv.visible c (Or.inr hc)⟩
      exact ⟨[s0.tileset.root], SelectionPath.cons hch (SelectionPath.nil c)⟩
    | @tail b c _ hbc ih =>
      intro hc
      rcases core.parent c (Or.inr hc) with h | ⟨p, hp, hpV, hmem⟩
      · rw [h] at hbc
        have : (s0.tiles s0.tileset.root).parent = some b := hbc
        rw [hroot] at this
        cases this
      · have e : p = b := by
          have : (s0.tiles c).parent = some b := hbc
          rw [hp] at this
          exact Option.some.inj this
        subst e
        obtain ⟨l, hl⟩ := ih hpV
        exact ⟨l ++ [p], hl.snoc ⟨inv.traversable c (Or.inr hc) _ hp,
          (core.frame.tileStatic _).children.mem_iff.mpr hmem, inv.visible c (Or.inr hc)⟩⟩
  rcases inv.belowRoot x (Or.inr hx) with h | h
  · rw [h]
    exact ⟨[], SelectionPath.nil _⟩
  · exact key x h hx

/-- The selection pass after the main traversal, in mixed-LOD rendering on a visible root with
available content when no content expires. -/
theorem traverseAndSelect_skip (env : Env) (hs : env.ContentStable) (frameState : FrameState)
    (size : TileId → Nat) (fuel : Nat) (s s2 : State) (V : List TileId)
    (hwf : WellFormed size s)
    (hfresh : ∀ x, (s.tiles x)._visitedFrame ≠ frameState.frameNumber)
    (core : GenCore frameState size (size s.tileset.root) s s2 V)
    (inv : SkipInv env frameState s s2 V) (hst : s2.traversal.stack = [])
    (hfuel : 2 * size s.tileset.root + 1 ≤ fuel) :
    ∃ s', traverseAndSelect env frameState fuel s2 s.tileset.root = some s'
      ∧ (∀ t x, (s'.tiles t)._visitedFrame = frameState.frameNumber →
          desiresSelection s' t = true → loadedTile s' t = some x →
          env.contentVisibility frameState x ≠ Intersect.OUTSIDE →
          x ∈ s'.tileset._selectedTiles)
      ∧ ∀ t1 t2 g, (s'.tiles t1)._visitedFrame = frameState.frameNumber →
          desiresSelection s' t1 = true → loadedTile s' t1 = some s.tileset.root →
          (s'.tiles t2)._visitedFrame = frameState.frameNumber →
          desiresSelection s' t2 = true → loadedTile s' t2 = some g →
          g ≠ s.tileset.root →
          (s.tiles s.tileset.root).refine ≠ Cesium3DTileRefine.ADD →
          (s.tiles g).refine ≠ Cesium3DTileRefine.ADD →
          env.contentVisibility frameState s.tileset.root ≠ Intersect.OUTSIDE →
          env.contentVisibility frameState g ≠ Intersect.OUTSIDE →
          Precedes g s.tileset.root s'.tileset._selectedTiles
            ∧ (s'.tiles s.tileset.root)._selectionDepth < (s'.tiles g)._selectionDepth := by
  obtain ⟨wf2, f2, _⟩ := core.done hwf (fun _ => inv.stable) hst
  obtain ⟨k, s3, la, out, h3, hanc, hsel, d⟩ := traverseAndSelect_done env frameState size fuel
    s2 s.tileset.root wf2.sizeOK wf2.parent_of_child wf2.children_nodup
    wf2.selectionTraversal_stack wf2.selectionTraversal_ancestorStack hfuel
  have f3 := d.frame
  have hrootV : s.tileset.root ∈ V := by
    rcases core.root with h | h
    · rw [hst] at h; cases h
    · exact h
  -- a desire read in the final state is a desire at the end of the main traversal
  have hback : ∀ t x, (s3.tiles t)._visitedFrame = frameState.frameNumber →
      desiresSelection s3 t = true → loadedTile s3 t = some x →
      t ∈ V ∧ x ∈ V ∧ (s2.tiles x)._shouldSelect = true := by
    intro t x hvis hd hl
    rw [f3.tile ._visitedFrame (by decide) t] at hvis
    have htV : t ∈ V := core.stamped hfresh t hvis
    have e1 : desiresSelection s3 t = desiresSelection s2 t :=
      desiresSelection_congr (f3.tile ._refines (by decide) t)
        (parentRefines_congr s2 s3 t (f3.tileStatic t).parent
          (fun p _ => f3.tile ._refines (by decide) p))
        (f3.tileStatic t).refine (f3.tile .content (by decide) t)
    have e2 : loadedTile s3 t = loadedTile s2 t :=
      loadedTile_congr (f3.tile .content (by decide) t)
        (f3.tile ._ancestorWithContentAvailable (by decide) t)
    rw [e1] at hd
    rw [e2] at hl
    refine ⟨htV, ?_, inv.flagged t htV hd x hl⟩
    unfold loadedTile at hl
    by_cases ha : (s2.tiles t).contentAvailable = true
    · rw [if_pos ha] at hl
      cases hl
      exact htV
    · rw [if_neg ha] at hl
      have hlink := inv.stable.links t htV
      rw [hl] at hlink
      exact (core.ancestor hwf.sizeOK hwf.root_parent hlink.1 (Or.inr htV)).1
  have hsel_mem : ∀ t x, (s3.tiles t)._visitedFrame = frameState.frameNumber →
      desiresSelection s3 t = true → loadedTile s3 t = some x →
      env.contentVisibility frameState x ≠ Intersect.OUTSIDE →
      ∃ l, SelectionPath s2 s.tileset.root l x ∧ (s2.tiles x)._shouldSelect = true
        ∧ x ∈ out := by
    intro t x hvis hd hl hview
    obtain ⟨_, hxV, hflag⟩ := hback t x hvis hd hl
    obtain ⟨l, hl'⟩ := SkipInv.selectionPath core inv hwf.root_parent x hxV
    exact ⟨l, hl', hflag, d.complete _ (List.mem_singleton.2 rfl) l x hl' hflag hview⟩
  refine ⟨s3, h3, ?_, ?_⟩
  · intro t x hvis hd hl hview
    obtain ⟨_, _, _, hm⟩ := hsel_mem t x hvis hd hl hview
    rw [hsel]
    exact List.mem_append_right _ hm
  · intro t1 t2 g v1 d1 l1 v2 d2 l2 hne hr1 hr2 hw1 hw2
    obtain ⟨_, _, hf1, hm1⟩ := hsel_mem t1 _ v1 d1 l1 hw1
    obtain ⟨l, hp2, hf2, hm2⟩ := hsel_mem t2 g v2 d2 l2 hw2
    have hrs : ∀ y, (s2.tiles y).refine = (s.tiles y).refine := fun y =>
      (f2.tileStatic y).refine
    have hfr : ∀ y, (s2.tiles y)._shouldSelect = true →
        (s.tiles y).refine ≠ Cesium3DTileRefine.ADD → flaggedReplace s2 y = true := by
      intro y h1 h2
      unfold flaggedReplace
      rw [h1, hrs y]
      simpa using h2
    constructor
    · have hord := d.order s.tileset.root g hm1 hm2 (by rw [hrs]; exact hr1) hp2.inSubtree
        (fun e => hne e.symm)
      obtain ⟨a, b, c, habc⟩ := hord
      rw [hsel, habc]
      exact ⟨s2.tileset._selectedTiles ++ a, b, c, by simp [List.append_assoc]⟩
    · have e1 := d.depth _ (List.mem_singleton.2 rfl) [] _ (SelectionPath.nil _)
        (hfr _ hf1 hr1)
      have e2 := d.depth _ (List.mem_singleton.2 rfl) l g hp2 (hfr g hf2 hr2)
      rw [e1, e2]
      cases hp2 with
      | nil => exact absurd rfl hne
      | cons hc hp =>
        rw [List.filter_cons, hfr _ hf1 hr1]
        simp

/-- The chain with the second child of the root is well formed. -/
theorem forkState_wellFormed : WellFormed forkSize forkState := by
  refine ⟨?_, ?_, rfl, ?_, rfl, rfl, rfl, rfl, rfl⟩
  · intro p
    rcases p with _ | _ | _ | _ | _ | p <;>
      simp [forkState, sampleState, forkTiles, chainTiles, forkSize, stackSize, sampleTile]
    split
    · rename_i h
      have h1 : (p : Nat) + 1 + 1 + 1 + 1 + 1 < 4 := h
      omega
    · exact Nat.one_pos
  · intro p c hc
    rcases p with _ | _ | _ | _ | _ | p <;>
      simp [forkState, sampleState, forkTiles, chainTiles, sampleTile] at hc
    · rcases hc with hc | hc <;> subst hc <;> rfl
    · subst hc; rfl
    · subst hc; rfl
  · intro p
    rcases p with _ | _ | _ | _ | _ | p <;>
      simp [forkState, sampleState, forkTiles, chainTiles, sampleTile]

/-- No tile of the chain with the second child of the root carries the visited stamp of the
sample frame. -/
theorem forkState_fresh (x : TileId) :
    (forkState.tiles x)._visitedFrame ≠ sampleFrameState.frameNumber := by
  rcases x with _ | _ | _ | _ | _ | x <;>
    simp [forkState, sampleState, forkTiles, chainTiles, sampleTile, sampleFrameState]

/-- On the chain with the second child of the root, `selectTiles` visits the five tiles; the
unloaded leaves 4 and 3 cannot be traversed, stop the refinement and fall back to the root 0
and to the grandchild 2; the selection is the grandchild, then the root, with selection depths
1 and 0. -/
theorem forkState_result :
    (selectTiles sampleEnv sampleFrameState 12 forkState).map
        (fun s => (s.tileset._selectedTiles, (s.tiles 0)._selectionDepth,
          (s.tiles 2)._selectionDepth)) = some ([2, 0], 0, 1)
      ∧ (selectTiles sampleEnv sampleFrameState 12 forkState).map
        (fun s => [4, 3].map fun i => ((s.tiles i)._visitedFrame, desiresSelection s i))
          = some [(1, true), (1, true)]
      ∧ (selectTiles sampleEnv sampleFrameState 12 forkState).map
        (fun s => [4, 3].map fun i => loadedTile s i) = some [some 0, some 2]
      ∧ (selectTiles sampleEnv sampleFrameState 12 forkState).map
        (fun s => [4, 3].map fun i => canTraverse s.tileset (s.tiles i))
          = some [false, false] := by
  decide!

/-- The second loop of `updateAndPushChildren` without `checkRefines` leaves the local
`refines` as it is, and the local `anyChildrenVisible` is set exactly when it was set before or
a child was pushed. -/
theorem pushLoop_anyChildrenVisible (env : Env) (frameState : FrameState) (fuel : Nat)
    (l : List (Nat × TileId)) (acc acc' : PushChildren)
    (h : l.foldlM (updateAndPushChildrenStep env frameState fuel false) acc = some acc') :
    acc'.refines = acc.refines
      ∧ ∃ pushed, acc'.s.traversal.stack = pushed ++ acc.s.traversal.stack
        ∧ acc'.anyChildrenVisible = (acc.anyChildrenVisible || !pushed.isEmpty) := by
  induction l generalizing acc with
  | nil =>
    simp only [List.foldlM, pure, Option.some.injEq] at h
    subst h
    exact ⟨rfl, [], rfl, by simp⟩
  | cons ic l ih =>
    rw [List.foldlM_cons] at h
    have hstep : updateAndPushChildrenStep env frameState fuel false acc ic
        = some (pushOrLoadChild env frameState false acc ic) := by
      unfold updateAndPushChildrenStep
      simp
    rw [hstep] at h
    simp only [Option.some_bind, bind] at h
    obtain ⟨h1, pushed, h2, h3⟩ := ih _ h
    refine ⟨h1.trans (pushOrLoadChild_refines env frameState false acc ic), ?_⟩
    rw [pushOrLoadChild_stack] at h2
    rw [pushOrLoadChild_anyChildrenVisible] at h3
    by_cases hv : isVisible (acc.s.tiles ic.2) = true
    · rw [if_pos hv] at h2
      refine ⟨pushed ++ [ic.2], by rw [h2]; simp, ?_⟩
      rw [h3, hv]
      simp
    · rw [if_neg hv] at h2
      refine ⟨pushed, h2, ?_⟩
      rw [h3]
      have : isVisible (acc.s.tiles ic.2) = false := by simpa using hv
      rw [this]
      simp

/-- In mixed-LOD rendering the local `refines` that `updateAndPushChildren` returns says
whether it pushed a child. -/
theorem updateAndPushChildren_skip_refines (env : Env) (frameState : FrameState)
    (fuel : Nat) (s : State) (tile : TileId) (r : State × Bool)
    (hskip : skipLevelOfDetail s.tileset = true)
    (h : updateAndPushChildren env frameState fuel s tile = some r) :
    ∃ pushed, r.1.traversal.stack = pushed ++ s.traversal.stack
      ∧ r.2 = !pushed.isEmpty := by
  unfold updateAndPushChildren at h
  rw [Option.bind_eq_some] at h
  obtain ⟨s1, h1, h2⟩ := h
  simp only [] at h2
  rw [Option.map_eq_some'] at h2
  obtain ⟨acc, h3, rfl⟩ := h2
  have f1 := updateAndSortChildren_frame (M := Mask.all) (Mask.all_contains _) env
    (fun h => absurd h (by decide)) frameState fuel s tile s1 h1
  have hck : checkRefines s1 tile = false := by
    unfold checkRefines
    rw [show skipLevelOfDetail s1.tileset = skipLevelOfDetail s.tileset from
      f1.tilesetStatic._skipLevelOfDetail, hskip]
    rfl
  rw [hck] at h3
  obtain ⟨hr, pushed, hp, hany⟩ := pushLoop_anyChildrenVisible env frameState fuel _ _ acc h3
  refine ⟨pushed, ?_, ?_⟩
  · rw [updateAndPushChildrenFinish_traversal, hp]
    exact congrArg (fun x => pushed ++ Traversal.stack x)
      (updateAndSortChildren_records env frameState fuel s tile s1 h1).1
  · rw [updateAndPushChildrenFinish_refines, hr, hany]
    cases pushed <;> simp [PushChildren.init]

/-- What the body of the loop of `executeTraversal` writes to `_refines`, in mixed-LOD
rendering: the popped tile refines exactly when it can be traversed, a child of it was pushed
and its parent refines; the `_refines` of every other tile is left as it is. -/
theorem executeTraversalVisit_refines (env : Env) (frameState : FrameState) (base : ℚ)
    (fuel : Nat) (s : State) (tile : TileId) (s' : State)
    (hskip : skipLevelOfDetail s.tileset = true)
    (h : executeTraversalVisit env frameState base fuel s tile = some s') :
    (∃ pushed, s'.traversal.stack = pushed ++ s.traversal.stack
        ∧ (s'.tiles tile)._refines
          = (canTraverse s.tileset (s.tiles tile) && !pushed.isEmpty && parentRefines s tile))
      ∧ ∀ t, t ≠ tile → (s'.tiles t)._refines = (s.tiles t)._refines := by
  obtain ⟨b, r, s3, hr, hsel, rfl⟩ := executeTraversalVisit_parts env frameState base fuel s
    tile s' h
  obtain ⟨sl, hsl⟩ : ∃ sl, sl = updateTileAncestorContentLinks s tile frameState := ⟨_, rfl⟩
  rw [← hsl] at hr hsel
  have fl : Frame (Mask.of [._ancestorWithContent, ._ancestorWithContentAvailable]) s sl := by
    rw [hsl]
    exact updateTileAncestorContentLinks_frame (Mask.contains_of _) s tile frameState
  have fr := executeTraversalRefine_frame (M := Mask.of (.content :: pushChildrenFields))
    pushMask_contains env (fun h => absurd h (by decide)) frameState fuel sl tile _ r hr
  have fs := executeTraversalSelect_frame (M := Mask.of (.content :: selectPhaseFields))
    selectPhaseMask_contains env (fun h => absurd h (by decide)) frameState fuel r.1 tile _ _ _
    _ s3 hsel
  have Ff := visitFinish_frame
    (M := Mask.of [._visitedFrame, ._statistics, ._touchedFrame, ._cache, ._refines])
    (Mask.contains_of _) s3 tile frameState r.2
  have hskipl : skipLevelOfDetail sl.tileset = true := by
    rw [show skipLevelOfDetail sl.tileset = skipLevelOfDetail s.tileset from
      fl.tilesetStatic._skipLevelOfDetail]
    exact hskip
  have hct : canTraverse sl.tileset (sl.tiles tile) = canTraverse s.tileset (s.tiles tile) :=
    canTraverse_frame fl (by decide) (by decide) (by decide) tile
  have hpl : parentRefines sl tile = parentRefines s tile := by
    rw [hsl]
    exact parentRefines_links s tile frameState
  have hstk : ((touchTile (visitTile s3 tile frameState) tile frameState).setTile tile
      (fun t => { t with _refines := r.2 })).traversal.stack = r.1.traversal.stack :=
    congrArg Traversal.stack ((Ff.global .traversal (by decide)).trans
      (fs.global .traversal (by decide)))
  have hsls : sl.traversal.stack = s.traversal.stack :=
    congrArg Traversal.stack (fl.global .traversal (by decide))
  refine ⟨?_, fun t ht => ?_⟩
  · rw [hstk, State.setTile_tiles, if_pos rfl]
    show ∃ pushed, r.1.traversal.stack = pushed ++ s.traversal.stack
      ∧ r.2 = (canTraverse s.tileset (s.tiles tile) && !pushed.isEmpty && parentRefines s tile)
    unfold executeTraversalRefine at hr
    by_cases hc : canTraverse sl.tileset (sl.tiles tile) = true
    · rw [if_pos hc, Option.map_eq_some'] at hr
      obtain ⟨r1, h1, rfl⟩ := hr
      obtain ⟨pushed, hp, hr2⟩ := updateAndPushChildren_skip_refines env frameState fuel sl
        tile r1 hskipl h1
      refine ⟨pushed, by rw [← hsls]; exact hp, ?_⟩
      show (r1.2 && parentRefines sl tile) = _
      rw [← hct, hc, hr2, hpl]
      simp
    · rw [if_neg hc] at hr
      cases hr
      refine ⟨[], by rw [← hsls]; rfl, ?_⟩
      have hc' : canTraverse s.tileset (s.tiles tile) = false := by
        rw [← hct]; simpa using hc
      rw [hc']
      rfl
  · have f2 := visitTile_frame (M := Mask.of [._visitedFrame, ._statistics])
      (Mask.contains_of _) s3 tile frameState
    have f3 := touchTile_frame (M := Mask.of touchTileFields) (Mask.contains_of _)
      (visitTile s3 tile frameState) tile frameState
    rw [State.setTile_tiles, if_neg ht]
    exact (((f3.tile ._refines (by decide) t).trans (f2.tile ._refines (by decide) t)).trans
      (fs.tile ._refines (by decide) t)).trans
      ((fr.tile ._refines (by decide) t).trans (fl.tile ._refines (by decide) t))

/-- One iteration of the loop of `executeTraversal` keeps the part of the invariant about
`_refines`, in mixed-LOD rendering when no content expires, with the popped tile added to the
visited tiles. -/
theorem RefineInv.refine_step (env : Env) (hs : env.ContentStable) (frameState : FrameState)
    (base : ℚ) (fuel : Nat) (size : TileId → Nat) (bound : Nat)
    (s0 s s1 : State) (V : List TileId) (tile : TileId) (rest : List TileId)
    (hS0 : SizeOK size s0)
    (hpc : ∀ p c, c ∈ (s0.tiles p).children → (s0.tiles c).parent = some p)
    (hroot : (s0.tiles s0.tileset.root).parent = none)
    (hnd : ∀ p, (s0.tiles p).children.Nodup)
    (hskip : s0.tileset._skipLevelOfDetail = true)
    (core : GenCore frameState size bound s0 s V)
    (stable : GenStable env frameState s0 s V)
    (inv : RefineInv s V) (hst : s.traversal.stack = tile :: rest)
    (hv : executeTraversalVisit env frameState base fuel
      { s with traversal :=
        { stack := rest
          stackMaximumLength := max s.traversal.stackMaximumLength (tile :: rest).length } }
      tile = some s1)
    (core1 : GenCore frameState size bound s0 s1 (tile :: V)) :
    RefineInv s1 (tile :: V) := by
  obtain ⟨sp, hsp⟩ : ∃ sp : State, sp = { s with traversal :=
      { stack := rest
        stackMaximumLength := max s.traversal.stackMaximumLength (tile :: rest).length } } :=
    ⟨_, rfl⟩
  rw [← hsp] at hv
  have htile_stack : tile ∈ s.traversal.stack := by
    rw [hst]; exact List.mem_cons_self _ _
  have htV : tile ∉ V := core.fresh tile htile_stack
  have hnd' := core.nodup
  rw [hst] at hnd'
  have htrest : tile ∉ rest := (List.nodup_cons.mp hnd').1
  have hpar : ∀ x, (s.tiles x).parent = (s0.tiles x).parent :=
    fun x => (core.frame.tileStatic x).parent
  have hskips : skipLevelOfDetail sp.tileset = true := by
    rw [hsp]
    show s.tileset._skipLevelOfDetail = true
    rw [core.frame.tilesetStatic._skipLevelOfDetail]
    exact hskip
  obtain ⟨⟨pushed, hp, hreft⟩, hrefo⟩ := executeTraversalVisit_refines env frameState base fuel
    sp tile s1 hskips hv
  have hstack1 : s1.traversal.stack = pushed ++ rest := by rw [hp, hsp]
  have hframe : Frame Mask.all s s1 := by
    obtain ⟨s3, refines, _, _, e, _, F1, _⟩ :=
      executeTraversalVisit_general env frameState base fuel sp tile s1 hv
    have fsp : Frame Mask.all s sp := by rw [hsp]; exact Frame.setTraversal rfl s _
    have Ff := visitFinish_frame (M := Mask.all) (Mask.all_contains _) s3 tile frameState
      refines
    rw [← e] at Ff
    exact (fsp.trans (F1.mono (fun _ _ => rfl))).trans Ff
  have hmv := executeTraversalVisit_monoVis env frameState base fuel sp tile s1 hv
  have hcont : ∀ x, (s1.tiles x).contentState = (s.tiles x).contentState := by
    intro x
    rw [executeTraversalVisit_content env hs frameState base fuel sp tile s1 hv x, hsp]
  -- the canTraverse of a member of the stack or a visited tile is kept
  have hcan : ∀ p, p ∈ s.traversal.stack ∨ p ∈ V →
      canTraverse s1.tileset (s1.tiles p) = canTraverse s.tileset (s.tiles p) := by
    intro p hp'
    refine canTraverse_stable hframe p (hcont p) ?_
    have hst' : Stamped sp p := by
      rw [hsp]
      exact stable.stampedMember p hp'
    have := hmv.screenSpaceError hst'
    rw [this, hsp]
  have hch1 : ∀ t c, c ∈ (s1.tiles t).children ↔ c ∈ (s0.tiles t).children := fun t c =>
    (core1.frame.tileStatic t).children.mem_iff
  have hch : ∀ t c, c ∈ (s.tiles t).children ↔ c ∈ (s0.tiles t).children := fun t c =>
    (core.frame.tileStatic t).children.mem_iff
  have hpar1 : ∀ x, (s1.tiles x).parent = (s0.tiles x).parent :=
    fun x => (core1.frame.tileStatic x).parent
  -- the pushed tiles are children of the popped tile
  have hchild0 : ∀ x, x ∈ pushed → x ∈ (s0.tiles tile).children := by
    intro x hx
    obtain ⟨s3, refines, pushed', sorted, e, _, _, hstk', _, hsub, hperm, _⟩ :=
      executeTraversalVisit_general env frameState base fuel sp tile s1 hv
    have Ff := visitFinish_frame
      (M := Mask.of [._visitedFrame, ._statistics, ._touchedFrame, ._cache, ._refines])
      (Mask.contains_of _) s3 tile frameState refines
    rw [← e] at Ff
    have h1 : pushed ++ sp.traversal.stack = pushed' ++ sp.traversal.stack := by
      rw [← hp, ← hstk']
      exact congrArg Traversal.stack (Ff.global .traversal (by decide))
    have e2 : pushed = pushed' := List.append_cancel_right h1
    rw [e2] at hx
    have := hperm.subset (hsub.subset (List.mem_reverse.mpr hx))
    rw [hsp] at this
    exact (hch tile x).mp this
  -- the parent of a tile of the rest of the stack or visited is not the popped tile
  have hparne : ∀ x, x ∈ rest ∨ x ∈ V → (s0.tiles x).parent ≠ some tile := by
    intro x hx
    have hx' : x ∈ s.traversal.stack ∨ x ∈ V := by
      rcases hx with hx | hx
      · exact Or.inl (by rw [hst]; exact List.mem_cons_of_mem _ hx)
      · exact Or.inr hx
    rcases core.parent x hx' with h | ⟨p, hp', hpV, _⟩
    · rw [h, hroot]; exact fun h => by cases h
    · rw [hp']
      intro h
      cases h
      exact htV hpV
  have hparT : (s0.tiles tile).parent ≠ some tile := by
    rcases core.parent tile (Or.inl htile_stack) with h | ⟨p, hp', hpV, _⟩
    · rw [h, hroot]; exact fun h => by cases h
    · rw [hp']
      intro h
      cases h
      exact htV hpV
  -- the `_refines` of the parent of a tile other than a child of the popped tile is kept
  have hpr : ∀ x, (s0.tiles x).parent ≠ some tile → parentRefines s1 x = parentRefines s x := by
    intro x hx
    refine parentRefines_congr s s1 x ((hpar1 x).trans (hpar x).symm) (fun p hp' => ?_)
    have hne : p ≠ tile := by
      rintro rfl
      rw [hpar] at hp'
      exact hx hp'
    rw [hrefo p hne, hsp]
  have hprt : parentRefines sp tile = true := by
    rw [hsp]
    exact inv.parentOK tile (Or.inl htile_stack)
  refine ⟨?_, ?_⟩
  · intro x hx
    have hcase : x ∈ pushed ∨ (x = tile ∨ x ∈ rest ∨ x ∈ V) := by
      rcases hx with h | h
      · rw [hstack1] at h
        rcases List.mem_append.mp h with h | h
        · exact Or.inl h
        · exact Or.inr (Or.inr (Or.inl h))
      · rcases List.mem_cons.mp h with h | h
        · exact Or.inr (Or.inl h)
        · exact Or.inr (Or.inr (Or.inr h))
    rcases hcase with h | h | h
    · -- a pushed child: its parent is the popped tile, which refines
      have hpx : (s1.tiles x).parent = some tile := by
        rw [hpar1]; exact hpc tile x (hchild0 x h)
      unfold parentRefines
      rw [hpx]
      show (s1.tiles tile)._refines = true
      rw [hreft, hprt]
      have hne : pushed ≠ [] := List.ne_nil_of_mem h
      have hcant : canTraverse sp.tileset (sp.tiles tile) = true := by
        cases hc : canTraverse sp.tileset (sp.tiles tile) with
        | true => rfl
        | false =>
          exfalso
          obtain ⟨s3, refines, pushed', sorted, e, _, _, hstk', _, _, _, _, _, hnil, _⟩ :=
            executeTraversalVisit_general env frameState base fuel sp tile s1 hv
          have Ff := visitFinish_frame
            (M := Mask.of [._visitedFrame, ._statistics, ._touchedFrame, ._cache, ._refines])
            (Mask.contains_of _) s3 tile frameState refines
          rw [← e] at Ff
          have h1 : pushed ++ sp.traversal.stack = pushed' ++ sp.traversal.stack := by
            rw [← hp, ← hstk']
            exact congrArg Traversal.stack (Ff.global .traversal (by decide))
          have e2 : pushed = pushed' := List.append_cancel_right h1
          exact hne (e2.trans (hnil hc))
      rw [hcant]
      cases pushed with
      | nil => exact absurd rfl hne
      | cons a l => rfl
    · subst h
      rw [hpr x hparT]
      exact inv.parentOK x (Or.inl htile_stack)
    · rw [hpr x (hparne x h)]
      refine inv.parentOK x ?_
      rcases h with h | h
      · exact Or.inl (by rw [hst]; exact List.mem_cons_of_mem _ h)
      · exact Or.inr h
  · intro t ht
    rcases List.mem_cons.mp ht with rfl | htV'
    · -- the popped tile
      rw [hreft, hprt, hcan t (Or.inl htile_stack)]
      have hcs : canTraverse sp.tileset (sp.tiles t) = canTraverse s.tileset (s.tiles t) := by
        rw [hsp]
      rw [hcs]
      constructor
      · intro h
        simp only [Bool.and_true, Bool.and_eq_true, Bool.not_eq_true',
          List.isEmpty_eq_false] at h
        obtain ⟨h1, h2⟩ := h
        refine ⟨h1, ?_⟩
        obtain ⟨c, hc⟩ := List.exists_mem_of_ne_nil _ h2
        exact ⟨c, (hch1 t c).mpr (hchild0 c hc),
          Or.inl (by rw [hstack1]; exact List.mem_append_left _ hc)⟩
      · rintro ⟨h1, c, hc, hcm⟩
        have hc0 := (hch1 t c).mp hc
        have hpc' := hpc t c hc0
        have hcp : c ∈ pushed := by
          rcases hcm with h | h
          · rw [hstack1] at h
            rcases List.mem_append.mp h with h | h
            · exact h
            · exact absurd hpc' (hparne c (Or.inl h))
          · rcases List.mem_cons.mp h with h | h
            · rw [h] at hpc'
              exact absurd hpc' hparT
            · exact absurd hpc' (hparne c (Or.inr h))
        rw [h1]
        cases pushed with
        | nil => cases hcp
        | cons a l => rfl
    · have hne : t ≠ tile := fun h => htV (h ▸ htV')
      rw [hrefo t hne, hcan t (Or.inr htV')]
      have hrs : (sp.tiles t)._refines = (s.tiles t)._refines := by rw [hsp]
      rw [hrs, inv.refinesIff t htV']
      constructor
      · rintro ⟨h1, c, hc, hcm⟩
        refine ⟨h1, c, (hch1 t c).mpr ((hch t c).mp hc), ?_⟩
        rcases hcm with h | h
        · rw [hst] at h
          rcases List.mem_cons.mp h with h | h
          · exact Or.inr (by rw [h]; exact List.mem_cons_self _ _)
          · exact Or.inl (by rw [hstack1]; exact List.mem_append_right _ h)
        · exact Or.inr (List.mem_cons_of_mem _ h)
      · rintro ⟨h1, c, hc, hcm⟩
        have hc0 := (hch1 t c).mp hc
        refine ⟨h1, c, (hch t c).mpr hc0, ?_⟩
        rcases hcm with h | h
        · rw [hstack1] at h
          rcases List.mem_append.mp h with h | h
          · exfalso
            have h1' := hpc t c hc0
            have h2' := hpc tile c (hchild0 c h)
            rw [h1'] at h2'
            exact hne (Option.some.inj h2')
          · exact Or.inl (by rw [hst]; exact List.mem_cons_of_mem _ h)
        · rcases List.mem_cons.mp h with h | h
          · exact Or.inl (by rw [h]; exact htile_stack)
          · exact Or.inr h

/-- The main traversal as `selectTiles` runs it in mixed-LOD rendering, on a visible root with
available content, when no content expires: it returns, and its invariants hold at the end,
with an empty stack. -/
theorem executeTraversal_skip_refines (env : Env) (hs : env.ContentStable)
    (frameState : FrameState)
    (size : TileId → Nat) (fuel : Nat) (s s1 : State) (base maximum : ℚ)
    (hwf : WellFormed size s) (hskip : s.tileset._skipLevelOfDetail = true)
    (havail : (s.tiles s.tileset.root).contentAvailable = true)
    (h1 : updateTile env frameState fuel
      { s with tileset := { s.tileset with
          _requestedTiles := [], _selectedTiles := [], _selectedTilesToStyle := [],
          _emptyTiles := [], _hasMixedContent := false } } s.tileset.root = some s1)
    (hv : isVisible (s1.tiles s.tileset.root) = true)
    (hfuel : size s.tileset.root + 2 ≤ fuel) :
    ∃ s2 V, executeTraversal env frameState fuel s1 s.tileset.root base maximum = some s2
      ∧ GenCore frameState size (size s.tileset.root) s s2 V
      ∧ SkipInv env frameState s s2 V
      ∧ RefineInv s2 V
      ∧ s2.traversal.stack = [] := by
  obtain ⟨s2, V, h2, _, _, _⟩ := executeTraversal_general env frameState size fuel s
    s1 base maximum hwf h1 hfuel
  have core0 := GenCore.init env frameState size fuel s s1 hwf h1
  have stable0 := GenStable.start env hs frameState size fuel s s1 hwf h1
  have fu := updateTile_frame (M := Mask.of (.content :: updateTileFields))
    ((Mask.contains_of _).of_subset (by decide)) env (fun h => absurd h (by decide))
    frameState fuel _ _ s1 h1
  have hst1 : s1.traversal.stack = [] := by
    rw [fu.global .traversal (by decide)]; exact hwf.traversal_stack
  have h2' := h2
  unfold executeTraversal at h2'
  rw [hst1] at h2'
  have inv0 : SkipInv env frameState s
      { s1 with traversal := { s1.traversal with stack := [s.tileset.root] } } [] := by
    refine ⟨stable0, fun _ h => (by cases h), ?_, ?_, ?_⟩
    · intro x hx p hp
      rcases hx with h | h
      · have : x = s.tileset.root := by simpa using h
        rw [this, hwf.root_parent] at hp
        cases hp
      · cases h
    · intro x hx
      rcases hx with h | h
      · have : x = s.tileset.root := by simpa using h
        rw [this]
        exact hv
      · cases h
    · intro x hx
      rcases hx with h | h
      · exact Or.inl (by simpa using h)
      · cases h
  have rinv0 : RefineInv
      { s1 with traversal := { s1.traversal with stack := [s.tileset.root] } } [] := by
    refine ⟨?_, fun _ h => (by cases h)⟩
    intro x hx
    rcases hx with h | h
    · have hx : x = s.tileset.root := by simpa using h
      unfold parentRefines
      show (match (s1.tiles x).parent with
        | none => true
        | some parent => (s1.tiles parent)._refines) = true
      rw [hx, (fu.tileStatic s.tileset.root).parent]
      show (match (s.tiles s.tileset.root).parent with
        | none => true
        | some parent => (s1.tiles parent)._refines) = true
      rw [hwf.root_parent]
    · cases h
  obtain ⟨V', c2, i2, e2⟩ := executeTraversalLoop_invariant env frameState base size
    (size s.tileset.root) s hwf.sizeOK hwf.parent_of_child hwf.root_parent hwf.children_nodup
    (fun σ W => SkipInv env frameState s σ W ∧ RefineInv σ W)
    (fun n σ σ1 W tile rest core inv hst hvis core1 =>
      ⟨SkipInv.skip_step env hs frameState base n size (size s.tileset.root) s σ σ1 W tile rest
        hwf.sizeOK hwf.parent_of_child hwf.root_parent hwf.children_nodup hskip havail core
        inv.1 hst hvis core1,
       RefineInv.refine_step env hs frameState base n size (size s.tileset.root) s σ σ1 W tile
        rest hwf.sizeOK hwf.parent_of_child hwf.root_parent hwf.children_nodup hskip core
        inv.1.stable inv.2 hst hvis core1⟩)
    fuel _ [] s2 core0 ⟨inv0, rinv0⟩ h2'
  exact ⟨s2, V', h2, c2, i2.1, i2.2, e2⟩

/-- After the main traversal and the selection pass, in mixed-LOD rendering: a tile visited in
this frame desires selection exactly when it cannot be traversed, or none of its children was
visited, or it is an ADD tile with content of its own. -/
theorem traverseAndSelect_desires (env : Env) (frameState : FrameState)
    (size : TileId → Nat) (fuel : Nat) (s s2 s3 : State) (V : List TileId)
    (hwf : WellFormed size s)
    (hfresh : ∀ x, (s.tiles x)._visitedFrame ≠ frameState.frameNumber)
    (core : GenCore frameState size (size s.tileset.root) s s2 V)
    (stable : GenStable env frameState s s2 V)
    (rinv : RefineInv s2 V) (hst : s2.traversal.stack = [])
    (hfuel : 2 * size s.tileset.root + 1 ≤ fuel)
    (h3 : traverseAndSelect env frameState fuel s2 s.tileset.root = some s3) :
    ∀ t, (s3.tiles t)._visitedFrame = frameState.frameNumber →
      (desiresSelection s3 t = true ↔
        canTraverse s3.tileset (s3.tiles t) = false
          ∨ (∀ c ∈ (s3.tiles t).children,
              (s3.tiles c)._visitedFrame ≠ frameState.frameNumber)
          ∨ ((s3.tiles t).refine = Cesium3DTileRefine.ADD
            ∧ hasEmptyContent (s3.tiles t) = false)) := by
  obtain ⟨wf2, f2, _⟩ := core.done hwf (fun _ => stable) hst
  obtain ⟨k, s3', la, out, h3', hanc, hsel, d⟩ := traverseAndSelect_done env frameState size
    fuel s2 s.tileset.root wf2.sizeOK wf2.parent_of_child wf2.children_nodup
    wf2.selectionTraversal_stack wf2.selectionTraversal_ancestorStack hfuel
  rw [h3] at h3'
  cases h3'
  have f3 := d.frame
  intro t hvis
  have hvis2 : (s2.tiles t)._visitedFrame = frameState.frameNumber := by
    rw [← f3.tile ._visitedFrame (by decide) t]; exact hvis
  have htV : t ∈ V := core.stamped hfresh t hvis2
  have hpr : parentRefines s3 t = true := by
    rw [parentRefines_congr s2 s3 t (f3.tileStatic t).parent
      (fun p _ => f3.tile ._refines (by decide) p)]
    exact rinv.parentOK t (Or.inr htV)
  have href := rinv.refinesIff t htV
  rw [hst] at href
  have hcan : canTraverse s3.tileset (s3.tiles t) = canTraverse s2.tileset (s2.tiles t) :=
    canTraverse_frame f3 (by decide) (by decide) (by decide) t
  have hch : (s3.tiles t).children = (s2.tiles t).children := f3.tile .children (by decide) t
  have hr3 : (s3.tiles t)._refines = (s2.tiles t)._refines := f3.tile ._refines (by decide) t
  have hvc : ∀ c, (s3.tiles c)._visitedFrame = frameState.frameNumber ↔ c ∈ V := by
    intro c
    rw [f3.tile ._visitedFrame (by decide) c]
    exact ⟨core.stamped hfresh c, core.visitedStamp c⟩
  unfold desiresSelection
  rw [hpr, hr3, hcan, hch]
  simp only [Bool.and_true, Bool.or_eq_true, Bool.not_eq_true', Bool.and_eq_true,
    decide_eq_true_eq]
  constructor
  · rintro (h | h)
    · by_cases hc : canTraverse s2.tileset (s2.tiles t) = true
      · right; left
        intro c hc' hcv
        have : (s2.tiles t)._refines = true :=
          href.mpr ⟨hc, c, hc', Or.inr ((hvc c).mp hcv)⟩
        rw [h] at this
        cases this
      · left
        simpa using hc
    · exact Or.inr (Or.inr h)
  · rintro (h | h | h)
    · left
      cases hr : (s2.tiles t)._refines with
      | false => rfl
      | true =>
        rw [(href.mp hr).1] at h
        cases h
    · left
      cases hr : (s2.tiles t)._refines with
      | false => rfl
      | true =>
        obtain ⟨_, c, hc, hcm⟩ := href.mp hr
        rcases hcm with hcm | hcm
        · cases hcm
        · exact absurd ((hvc c).mpr hcm) (h c hc)
    · exact Or.inr h

/-! ## Theorems -/

/-- C4: when `tileset.debugFreezeFrame` is set, `selectTiles` returns (for any fuel) the state it
was given with `_requestedTiles` emptied and nothing else changed: every other tileset field,
every field of every tile and the traversal records are as before the call. -/
theorem selectTiles_debugFreezeFrame (env : Env) (frameState : FrameState) (fuel : Nat)
    (s : State) (h : s.tileset.debugFreezeFrame = true) :
    selectTiles env frameState fuel s
      = some { s with tileset := { s.tileset with _requestedTiles := [] } } := by
  simp [selectTiles, State.setTileset, h]

/-- Witness of C4 on the frozen sample tileset. -/
theorem selectTiles_debugFreezeFrame_witness :
    frozenState.tileset.debugFreezeFrame = true
      ∧ selectTiles sampleEnv sampleFrameState 0 frozenState
        = some { frozenState with tileset := { frozenState.tileset with _requestedTiles := [] } } :=
  ⟨rfl, selectTiles_debugFreezeFrame sampleEnv sampleFrameState 0 frozenState rfl⟩

/-- C5 (refuted as stated): on a tileset whose root is not visible, `selectTiles` does not keep
the output arrays: `_selectedTiles` was `[7]` before the call and is empty after it. -/
theorem selectTiles_invisible_root_empties_selectedTiles :
    staleState.tileset._selectedTiles = [7]
      ∧ (selectTiles hiddenEnv sampleFrameState 1 staleState).map
          (fun s' => (isVisible (s'.tiles s'.tileset.root), s'.tileset._selectedTiles))
        = some (false, []) := by
  decide!

/-- C5 (amended): when the tileset is not frozen, `selectTiles` first empties `_requestedTiles`,
`_selectedTiles`, `_selectedTilesToStyle` and `_emptyTiles` and resets `_hasMixedContent`, then
updates the root (which returns once the fuel reaches the size of the tree); if the root is then
not visible, or its screen-space error is at most `_maximumScreenSpaceError`, `selectTiles`
returns that state, in which the four arrays are empty and `_hasMixedContent` is false. -/
theorem selectTiles_early_return (env : Env) (frameState : FrameState) (size : TileId → Nat)
    (fuel : Nat) (s : State) (hS : SizeOK size s) (hfuel : size s.tileset.root ≤ fuel)
    (hfreeze : s.tileset.debugFreezeFrame = false) :
    (∃ s1, updateTile env frameState fuel
        { s with tileset := { s.tileset with
            _requestedTiles := [], _selectedTiles := [], _selectedTilesToStyle := [],
            _emptyTiles := [], _hasMixedContent := false } } s.tileset.root = some s1)
    ∧ ∀ s1, updateTile env frameState fuel
        { s with tileset := { s.tileset with
            _requestedTiles := [], _selectedTiles := [], _selectedTilesToStyle := [],
            _emptyTiles := [], _hasMixedContent := false } } s.tileset.root = some s1 →
      (isVisible (s1.tiles s.tileset.root) = false
        ∨ env.getScreenSpaceError frameState s.tileset.root ≤ s1.tileset._maximumScreenSpaceError) →
      selectTiles env frameState fuel s = some s1
        ∧ s1.tileset._requestedTiles = [] ∧ s1.tileset._selectedTiles = []
        ∧ s1.tileset._selectedTilesToStyle = [] ∧ s1.tileset._emptyTiles = []
        ∧ s1.tileset._hasMixedContent = false := by
  constructor
  · exact updateTile_isSome env frameState size fuel _ _ (fun p => hS p) hfuel
  · intro s1 h1 hcond
    have hf := updateTile_frame (M := Mask.of (.content :: updateTileFields))
      (Mask.contains_of _ |>.of_subset (by decide)) env (fun h => absurd h (by decide))
      frameState fuel _ _ s1 h1
    refine ⟨?_, hf.global ._requestedTiles (by decide), hf.global ._selectedTiles (by decide),
      hf.global ._selectedTilesToStyle (by decide), hf.global ._emptyTiles (by decide),
      hf.global ._hasMixedContent (by decide)⟩
    rw [selectTiles_eq, if_neg (by simp [hfreeze]), h1]
    simp only []
    rcases hcond with hv | hsse
    · simp [hv]
    · by_cases hv : (!isVisible (s1.tiles s.tileset.root)) = true
      · rw [if_pos hv]
      · rw [if_neg hv, if_pos hsse]

/-- Witness of C5 (amended) on the sample tileset with an invisible root. -/
theorem selectTiles_early_return_witness :
    SizeOK (fun _ => 1) staleState ∧ (fun _ => 1) staleState.tileset.root ≤ 1
      ∧ staleState.tileset.debugFreezeFrame = false
      ∧ ((∃ s1, updateTile hiddenEnv sampleFrameState 1
          { staleState with tileset := { staleState.tileset with
              _requestedTiles := [], _selectedTiles := [], _selectedTilesToStyle := [],
              _emptyTiles := [], _hasMixedContent := false } } staleState.tileset.root = some s1)
        ∧ ∀ s1, updateTile hiddenEnv sampleFrameState 1
          { staleState with tileset := { staleState.tileset with
              _requestedTiles := [], _selectedTiles := [], _selectedTilesToStyle := [],
              _emptyTiles := [], _hasMixedContent := false } } staleState.tileset.root = some s1 →
          (isVisible (s1.tiles staleState.tileset.root) = false
            ∨ hiddenEnv.getScreenSpaceError sampleFrameState staleState.tileset.root
              ≤ s1.tileset._maximumScreenSpaceError) →
          selectTiles hiddenEnv sampleFrameState 1 staleState = some s1
            ∧ s1.tileset._requestedTiles = [] ∧ s1.tileset._selectedTiles = []
            ∧ s1.tileset._selectedTilesToStyle = [] ∧ s1.tileset._emptyTiles = []
            ∧ s1.tileset._hasMixedContent = false) :=
  have hS : SizeOK (fun _ => 1) staleState := fun _ => by
    simp [stackSize, staleState, sampleState, sampleTile]
  ⟨hS, le_refl _, rfl,
    selectTiles_early_return hiddenEnv sampleFrameState (fun _ => 1) 1 staleState hS (le_refl _)
      rfl⟩

/-- C6: `loadTile` appends the tile to `_requestedTiles` and stamps its `_requestedFrame` with the
current frame number exactly when (the tile has non-empty unloaded content, or its content is
expired) and `isOnScreenLongEnough` holds and `isPriorityDeferred` returns false; no other tile's
`_requestedFrame` is written then, and in every other case `_requestedTiles` and every
`_requestedFrame` are unchanged. -/
theorem loadTile_requests_iff (env : Env) (s : State) (tile : TileId) (frameState : FrameState) :
    (((hasUnloadedContent (s.tiles tile) || (s.tiles tile).contentExpired) = true
        ∧ isOnScreenLongEnough s.tileset (s.tiles tile) frameState = true
        ∧ (isPriorityDeferred env s tile frameState).2 = false) →
      (loadTile env s tile frameState).tileset._requestedTiles
          = s.tileset._requestedTiles ++ [tile]
        ∧ ((loadTile env s tile frameState).tiles tile)._requestedFrame = frameState.frameNumber
        ∧ ∀ t, t ≠ tile →
            ((loadTile env s tile frameState).tiles t)._requestedFrame
              = (s.tiles t)._requestedFrame)
    ∧ (¬((hasUnloadedContent (s.tiles tile) || (s.tiles tile).contentExpired) = true
        ∧ isOnScreenLongEnough s.tileset (s.tiles tile) frameState = true
        ∧ (isPriorityDeferred env s tile frameState).2 = false) →
      (loadTile env s tile frameState).tileset._requestedTiles = s.tileset._requestedTiles
        ∧ ∀ t, ((loadTile env s tile frameState).tiles t)._requestedFrame
            = (s.tiles t)._requestedFrame) := by
  have hfr := isPriorityDeferred_frame (M := Mask.of [._foveatedFactor])
    (Mask.contains_of _) env s tile frameState
  have hts : (isPriorityDeferred env s tile frameState).1.tileset._requestedTiles
      = s.tileset._requestedTiles := hfr.global ._requestedTiles (by decide)
  have hrf : ∀ t, ((isPriorityDeferred env s tile frameState).1.tiles t)._requestedFrame
      = (s.tiles t)._requestedFrame := hfr.tile ._requestedFrame (by decide)
  constructor
  · rintro ⟨h1, h2, h3⟩
    refine ⟨?_, ?_, ?_⟩
    · simp [loadTile, h1, h2, h3, hts]
    · simp [loadTile, h1, h2, h3]
    · intro t ht
      simp [loadTile, h1, h2, h3, ht, hrf]
  · intro hn
    by_cases h12 : ((hasUnloadedContent (s.tiles tile) || (s.tiles tile).contentExpired)
        && isOnScreenLongEnough s.tileset (s.tiles tile) frameState) = true
    · have h3 : (isPriorityDeferred env s tile frameState).2 = true := by
        rw [Bool.and_eq_true] at h12
        by_contra h
        exact hn ⟨h12.1, h12.2, by simpa using h⟩
      constructor
      · simp [loadTile, h12, h3, hts]
      · intro t
        simp only [loadTile, h12, h3, if_true, Bool.not_true, Bool.false_eq_true, if_false]
        rw [State.setTile_tiles]
        split
        · rename_i h; subst h; exact hrf t
        · exact hrf t
    · constructor
      · simp [loadTile, h12]
      · intro t
        simp [loadTile, h12]

/-- C7 (refuted as stated): with mixed-LOD rendering and foveation on and cone size 1/10, tile 1
has foveated factor above the cone factor, unloaded content and is on screen long enough, and
the camera moved recently; `loadTile` still adds it to `_requestedTiles`, because its
screen-space error 4 is below the relaxed threshold. -/
theorem loadTile_requests_peripheral_tile_while_moving :
    (peripheralState 4).tileset._skipLevelOfDetail = true
      ∧ (peripheralState 4).tileset.foveatedScreenSpaceError = true
      ∧ (peripheralState 4).tileset.foveatedConeSize < 1
      ∧ ((updateFoveatedFactor sampleEnv (peripheralState 4) 1 movingFrameState).tiles
            1)._foveatedFactor
          > foveatedConeFactor sampleEnv (peripheralState 4).tileset movingFrameState
      ∧ hasUnloadedContent ((peripheralState 4).tiles 1) = true
      ∧ isOnScreenLongEnough (peripheralState 4).tileset ((peripheralState 4).tiles 1)
          movingFrameState = true
      ∧ cameraMovedRecently (peripheralState 4).tileset movingFrameState = true
      ∧ (peripheralState 4).tileset._requestedTiles = []
      ∧ (loadTile sampleEnv (peripheralState 4) 1 movingFrameState).tileset._requestedTiles
          = [1] := by
  decide!

/-- C7 (amended): with mixed-LOD rendering and foveation on and a cone size below 1, for a tile
whose foveated factor exceeds the cone factor, whose content is unloaded and for which
`isOnScreenLongEnough` holds: when the camera moved recently and the tile's screen-space error
(half the parent's for a tile with error 0) is at least `maximumScreenSpaceError` minus the
relaxation, `loadTile` leaves `_requestedTiles` unchanged; when the camera did not move recently,
`loadTile` appends the tile to `_requestedTiles`. -/
theorem loadTile_foveated (env : Env) (s : State) (tile : TileId) (frameState : FrameState)
    (hskip : s.tileset._skipLevelOfDetail = true)
    (hfov : s.tileset.foveatedScreenSpaceError = true)
    (hcone : s.tileset.foveatedConeSize < 1)
    (hfactor : ((updateFoveatedFactor env s tile frameState).tiles tile)._foveatedFactor
      > foveatedConeFactor env s.tileset frameState)
    (hunloaded : hasUnloadedContent (s.tiles tile) = true)
    (hscreen : isOnScreenLongEnough s.tileset (s.tiles tile) frameState = true) :
    (cameraMovedRecently s.tileset frameState = true →
      s.tileset.maximumScreenSpaceError
          - sseRelaxation env s.tileset
              ((updateFoveatedFactor env s tile frameState).tiles tile) frameState
        ≤ foveatedSse (updateFoveatedFactor env s tile frameState) tile →
      (loadTile env s tile frameState).tileset._requestedTiles = s.tileset._requestedTiles)
    ∧ (cameraMovedRecently s.tileset frameState = false →
      (loadTile env s tile frameState).tileset._requestedTiles
        = s.tileset._requestedTiles ++ [tile]) := by
  have hne : ¬ s.tileset.foveatedConeSize = 1 := ne_of_lt hcone
  have hnle : ¬ ((updateFoveatedFactor env s tile frameState).tiles tile)._foveatedFactor
      ≤ foveatedConeFactor env s.tileset frameState := not_le.mpr hfactor
  have hts : (updateFoveatedFactor env s tile frameState).tileset = s.tileset := by
    unfold updateFoveatedFactor
    simp only []
    split <;> rfl
  have hd : isPriorityDeferred env s tile frameState
      = (updateFoveatedFactor env s tile frameState,
          decide (s.tileset.maximumScreenSpaceError
            - sseRelaxation env s.tileset
                ((updateFoveatedFactor env s tile frameState).tiles tile) frameState
            ≤ foveatedSse (updateFoveatedFactor env s tile frameState) tile)
          && cameraMovedRecently s.tileset frameState) := by
    unfold isPriorityDeferred
    simp [hskip, hfov, hne, hnle]
  constructor
  · intro hcam hdefer
    simp [loadTile, hunloaded, hscreen, hd, hcam, hdefer, hts]
  · intro hcam
    simp [loadTile, hunloaded, hscreen, hd, hcam, hts]

/-- Witness of C7 (amended): tile 1 with screen-space error 16 in the peripheral sample scene,
camera moving. -/
theorem loadTile_foveated_witness :
    (peripheralState 16).tileset._skipLevelOfDetail = true
      ∧ (peripheralState 16).tileset.foveatedScreenSpaceError = true
      ∧ (peripheralState 16).tileset.foveatedConeSize < 1
      ∧ ((updateFoveatedFactor sampleEnv (peripheralState 16) 1 movingFrameState).tiles
            1)._foveatedFactor
          > foveatedConeFactor sampleEnv (peripheralState 16).tileset movingFrameState
      ∧ hasUnloadedContent ((peripheralState 16).tiles 1) = true
      ∧ isOnScreenLongEnough (peripheralState 16).tileset ((peripheralState 16).tiles 1)
          movingFrameState = true
      ∧ ((cameraMovedRecently (peripheralState 16).tileset movingFrameState = true →
          (peripheralState 16).tileset.maximumScreenSpaceError
              - sseRelaxation sampleEnv (peripheralState 16).tileset
                  ((updateFoveatedFactor sampleEnv (peripheralState 16) 1 movingFrameState).tiles
                    1) movingFrameState
            ≤ foveatedSse (updateFoveatedFactor sampleEnv (peripheralState 16) 1
                movingFrameState) 1 →
          (loadTile sampleEnv (peripheralState 16) 1 movingFrameState).tileset._requestedTiles
            = (peripheralState 16).tileset._requestedTiles)
        ∧ (cameraMovedRecently (peripheralState 16).tileset movingFrameState = false →
          (loadTile sampleEnv (peripheralState 16) 1 movingFrameState).tileset._requestedTiles
            = (peripheralState 16).tileset._requestedTiles ++ [1])) :=
  ⟨rfl, rfl, by decide!, by decide!, rfl, rfl,
    loadTile_foveated sampleEnv (peripheralState 16) 1 movingFrameState rfl rfl (by decide!)
      (by decide!) rfl rfl⟩

/-- C8: whenever `skipLevelOfDetail` is disabled, `foveatedScreenSpaceError` is disabled or
`foveatedConeSize` equals 1, `isPriorityDeferred` returns false and leaves the whole state, in
particular `tile._foveatedFactor`, unchanged. -/
theorem isPriorityDeferred_disabled (env : Env) (s : State) (tile : TileId)
    (frameState : FrameState)
    (h : s.tileset._skipLevelOfDetail = false ∨ s.tileset.foveatedScreenSpaceError = false
      ∨ s.tileset.foveatedConeSize = 1) :
    isPriorityDeferred env s tile frameState = (s, false) := by
  unfold isPriorityDeferred
  rcases h with h | h | h <;> simp [h]

/-- Witness of C8 on the sample tileset, where mixed-LOD rendering is off. -/
theorem isPriorityDeferred_disabled_witness :
    (staleState.tileset._skipLevelOfDetail = false
        ∨ staleState.tileset.foveatedScreenSpaceError = false
        ∨ staleState.tileset.foveatedConeSize = 1)
      ∧ isPriorityDeferred sampleEnv staleState 0 movingFrameState = (staleState, false) :=
  ⟨Or.inl rfl, isPriorityDeferred_disabled sampleEnv staleState 0 movingFrameState (Or.inl rfl)⟩

/-- C9: with `skipLevelOfDetail` enabled, `selectDesiredTile` sets `_shouldSelect` on the tile
itself, and writes nothing else, when the tile's content is available; otherwise it sets
`_shouldSelect` on `tile._ancestorWithContentAvailable`, and writes nothing else, when that link
is defined; and only when the content is unavailable and the link is undefined does it run
`selectDescendants` on the tile. -/
theorem selectDesiredTile_skipLevelOfDetail (env : Env) (frameState : FrameState) (fuel : Nat)
    (s : State) (tile : TileId) (hskip : s.tileset._skipLevelOfDetail = true) :
    ((s.tiles tile).contentAvailable = true →
      selectDesiredTile env frameState fuel s tile
        = some (s.setTile tile fun t => { t with _shouldSelect := true }))
    ∧ ((s.tiles tile).contentAvailable = false →
        ∀ a, (s.tiles tile)._ancestorWithContentAvailable = some a →
          selectDesiredTile env frameState fuel s tile
            = some (s.setTile a fun t => { t with _shouldSelect := true }))
    ∧ ((s.tiles tile).contentAvailable = false →
        (s.tiles tile)._ancestorWithContentAvailable = none →
          selectDesiredTile env frameState fuel s tile
            = selectDescendants env frameState fuel s tile) := by
  refine ⟨?_, ?_, ?_⟩
  · intro h
    simp [selectDesiredTile, skipLevelOfDetail, hskip, h]
  · intro h a ha
    simp [selectDesiredTile, skipLevelOfDetail, hskip, h, ha]
  · intro h ha
    simp [selectDesiredTile, skipLevelOfDetail, hskip, h, ha]

/-- Witness of C9 on the peripheral sample scene, where mixed-LOD rendering is on. -/
theorem selectDesiredTile_skipLevelOfDetail_witness :
    (peripheralState 16).tileset._skipLevelOfDetail = true
      ∧ ((((peripheralState 16).tiles 1).contentAvailable = true →
          selectDesiredTile sampleEnv sampleFrameState 3 (peripheralState 16) 1
            = some ((peripheralState 16).setTile 1 fun t => { t with _shouldSelect := true }))
        ∧ (((peripheralState 16).tiles 1).contentAvailable = false →
            ∀ a, ((peripheralState 16).tiles 1)._ancestorWithContentAvailable = some a →
              selectDesiredTile sampleEnv sampleFrameState 3 (peripheralState 16) 1
                = some ((peripheralState 16).setTile a fun t => { t with _shouldSelect := true }))
        ∧ (((peripheralState 16).tiles 1).contentAvailable = false →
            ((peripheralState 16).tiles 1)._ancestorWithContentAvailable = none →
              selectDesiredTile sampleEnv sampleFrameState 3 (peripheralState 16) 1
                = selectDescendants sampleEnv sampleFrameState 3 (peripheralState 16) 1)) :=
  ⟨rfl, selectDesiredTile_skipLevelOfDetail sampleEnv sampleFrameState 3 (peripheralState 16) 1
    rfl⟩

/-- C1 (refuted as stated): with mixed-LOD rendering off, on the three-tile tree whose REPLACE
root has an ADD child with available content and an unloaded REPLACE child, `selectTiles`
selects both the root and its ADD child. -/
theorem selectTiles_selects_replace_parent_and_add_child :
    mixedRefineState.tileset._skipLevelOfDetail = false
      ∧ (mixedRefineState.tiles 0).refine = Cesium3DTileRefine.REPLACE
      ∧ 1 ∈ (mixedRefineState.tiles 0).children
      ∧ (selectTiles sampleEnv sampleFrameState 4 mixedRefineState).map
          (fun s' => s'.tileset._selectedTiles) = some [0, 1] := by
  decide!

/-- C1 (amended): with mixed-LOD rendering off and the traversal not frozen, on a well-formed
tile tree `selectTiles` returns (once the fuel exceeds the size of the tree) and `_selectedTiles`
never contains both a REPLACE tile and one of its children that is not an ADD tile. -/
theorem selectTiles_base_parent_child_exclusive (env : Env) (frameState : FrameState)
    (size : TileId → Nat) (fuel : Nat) (s : State) (hwf : WellFormed size s)
    (hskip : s.tileset._skipLevelOfDetail = false)
    (hfreeze : s.tileset.debugFreezeFrame = false)
    (hfuel : size s.tileset.root + 1 ≤ fuel) :
    ∃ s', selectTiles env frameState fuel s = some s'
      ∧ ∀ p c, (s.tiles p).refine = Cesium3DTileRefine.REPLACE → c ∈ (s.tiles p).children →
          (s.tiles c).refine ≠ Cesium3DTileRefine.ADD →
          ¬(p ∈ s'.tileset._selectedTiles ∧ c ∈ s'.tileset._selectedTiles) := by
  obtain ⟨s', V, h, inv⟩ := selectTiles_base env frameState size fuel s hwf hskip hfreeze hfuel
  refine ⟨s', h, ?_⟩
  intro p c hp hc hna ⟨hps, hcs⟩
  have h1 := ((inv.selected p hps).2 (by rw [hp]; decide)).1
  have h2 := ((inv.selected c hcs).2 hna).2
  unfold parentRefines at h2
  rw [(inv.frame.tileStatic c).parent, hwf.parent_of_child p c hc] at h2
  simp only [] at h2
  rw [h1] at h2
  cases h2

/-- Witness of C1 (amended) on the three-tile tree. -/
theorem selectTiles_base_parent_child_exclusive_witness :
    WellFormed mixedRefineSize mixedRefineState
      ∧ mixedRefineState.tileset._skipLevelOfDetail = false
      ∧ mixedRefineState.tileset.debugFreezeFrame = false
      ∧ mixedRefineSize mixedRefineState.tileset.root + 1 ≤ 4
      ∧ ∃ s', selectTiles sampleEnv sampleFrameState 4 mixedRefineState = some s'
        ∧ ∀ p c, (mixedRefineState.tiles p).refine = Cesium3DTileRefine.REPLACE →
            c ∈ (mixedRefineState.tiles p).children →
            (mixedRefineState.tiles c).refine ≠ Cesium3DTileRefine.ADD →
            ¬(p ∈ s'.tileset._selectedTiles ∧ c ∈ s'.tileset._selectedTiles) :=
  ⟨mixedRefineState_wellFormed, rfl, rfl, by decide,
    selectTiles_base_parent_child_exclusive sampleEnv sampleFrameState mixedRefineSize 4
      mixedRefineState mixedRefineState_wellFormed rfl rfl (by decide)⟩

/-- C2: with mixed-LOD rendering off and the traversal not frozen, on a well-formed tile tree,
when no content expires during the frame and no tile carries the visit stamp of this frame
beforehand: `selectTiles` returns (once the fuel exceeds the size of the tree), and every ADD
tile with non-empty content that the traversal visited (stamped with this frame number), whose
content is available and whose `contentVisibility` is not OUTSIDE, is in `_selectedTiles`,
whatever the state of its children.  Moreover the visit of an ADD tile with non-empty content
is `selectDesiredTile` followed by `loadTile` on that tile. -/
theorem selectTiles_base_selects_additive (env : Env) (frameState : FrameState)
    (size : TileId → Nat) (fuel : Nat) (s : State) (hwf : WellFormed size s)
    (hskip : s.tileset._skipLevelOfDetail = false)
    (hfreeze : s.tileset.debugFreezeFrame = false)
    (hstable : env.ContentStable)
    (hfresh : ∀ x, (s.tiles x)._visitedFrame ≠ frameState.frameNumber)
    (hfuel : size s.tileset.root + 1 ≤ fuel) :
    (∃ s', selectTiles env frameState fuel s = some s'
      ∧ ∀ x, (s'.tiles x)._visitedFrame = frameState.frameNumber →
          (s.tiles x).refine = Cesium3DTileRefine.ADD → hasEmptyContent (s.tiles x) = false →
          (s.tiles x).contentAvailable = true →
          env.contentVisibility frameState x ≠ Intersect.OUTSIDE →
          x ∈ s'.tileset._selectedTiles)
    ∧ ∀ (σ : State) (tile : TileId) (replace baseTraversal stoppedRefining : Bool),
        hasEmptyContent (σ.tiles tile) = false →
        executeTraversalSelect env frameState fuel σ tile true replace baseTraversal
            stoppedRefining
          = (selectDesiredTile env frameState fuel σ tile).map
              fun s1 => loadTile env s1 tile frameState := by
  constructor
  · obtain ⟨s', V, h, inv⟩ := selectTiles_base env frameState size fuel s hwf hskip hfreeze hfuel
    refine ⟨s', h, ?_⟩
    intro x hx hadd hne hav hcv
    exact inv.additive hstable x (inv.stamped hfresh x hx) hadd hne hav hcv
  · intro σ tile replace baseTraversal stoppedRefining hne
    unfold executeTraversalSelect
    simp [hne]

/-- Witness of C2 on the three-tile tree, whose ADD tile 1 has an unloaded sibling and no
children. -/
theorem selectTiles_base_selects_additive_witness :
    WellFormed mixedRefineSize mixedRefineState
      ∧ mixedRefineState.tileset._skipLevelOfDetail = false
      ∧ mixedRefineState.tileset.debugFreezeFrame = false
      ∧ sampleEnv.ContentStable
      ∧ (∀ x, (mixedRefineState.tiles x)._visitedFrame ≠ sampleFrameState.frameNumber)
      ∧ mixedRefineSize mixedRefineState.tileset.root + 1 ≤ 4
      ∧ ((∃ s', selectTiles sampleEnv sampleFrameState 4 mixedRefineState = some s'
          ∧ ∀ x, (s'.tiles x)._visitedFrame = sampleFrameState.frameNumber →
              (mixedRefineState.tiles x).refine = Cesium3DTileRefine.ADD →
              hasEmptyContent (mixedRefineState.tiles x) = false →
              (mixedRefineState.tiles x).contentAvailable = true →
              sampleEnv.contentVisibility sampleFrameState x ≠ Intersect.OUTSIDE →
              x ∈ s'.tileset._selectedTiles)
        ∧ ∀ (σ : State) (tile : TileId) (replace baseTraversal stoppedRefining : Bool),
            hasEmptyContent (σ.tiles tile) = false →
            executeTraversalSelect sampleEnv sampleFrameState 4 σ tile true replace baseTraversal
                stoppedRefining
              = (selectDesiredTile sampleEnv sampleFrameState 4 σ tile).map
                  fun s1 => loadTile sampleEnv s1 tile sampleFrameState) :=
  have hfresh : ∀ x, (mixedRefineState.tiles x)._visitedFrame ≠ sampleFrameState.frameNumber := by
    intro x
    rcases x with _ | _ | _ | x <;>
      simp [mixedRefineState, sampleState, mixedRefineTiles, sampleTile, sampleFrameState]
  ⟨mixedRefineState_wellFormed, rfl, rfl, fun _ _ => rfl, hfresh, by decide,
    selectTiles_base_selects_additive sampleEnv sampleFrameState mixedRefineSize 4
      mixedRefineState mixedRefineState_wellFormed rfl rfl (fun _ _ => rfl) hfresh (by decide)⟩

/-- C3: with mixed-LOD rendering off, for a REPLACE tile whose content is not empty when its
children have been updated and sorted (state `s1`), `updateAndPushChildren` returns (given
enough fuel), and it returns true if and only if at least one child is visible when the loop
reaches it and every child, when the loop reaches it, is inside the request volume and, if it
is an empty tile or an external-subtree pointer, `executeEmptyTraversal` on it returns true,
and otherwise its content is available. -/
theorem updateAndPushChildren_refines_iff (env : Env) (frameState : FrameState)
    (size : TileId → Nat) (fuel : Nat) (s : State) (tile : TileId) (s1 : State)
    (hS : SizeOK size s) (hst : s.emptyTraversal.stack = []) (hfuel : size tile ≤ fuel)
    (hskip : skipLevelOfDetail s.tileset = false)
    (hrep : (s.tiles tile).refine = Cesium3DTileRefine.REPLACE)
    (h1 : updateAndSortChildren env frameState fuel s tile = some s1)
    (hne : hasEmptyContent (s1.tiles tile) = false) :
    ∃ r, updateAndPushChildren env frameState fuel s tile = some r
      ∧ (r.2 = true ↔
        (∃ i child a, (s1.tiles tile).children[i]? = some child
          ∧ updateAndPushChildrenAt env frameState fuel s1 tile i = some a
          ∧ isVisible (a.s.tiles child) = true)
        ∧ ∀ i child, (s1.tiles tile).children[i]? = some child →
            ∃ a, updateAndPushChildrenAt env frameState fuel s1 tile i = some a
              ∧ (a.s.tiles child)._inRequestVolume = true
              ∧ (if hasEmptyContent (a.s.tiles child) then
                  ∃ r1, executeEmptyTraversal env frameState fuel
                      (pushOrLoadChild env frameState true a (i, child)).s child = some r1
                    ∧ r1.2 = true
                else (a.s.tiles child).contentAvailable = true)) := by
  obtain ⟨r, hr, _⟩ := updateAndPushChildren_isSome env frameState size fuel s tile hS hst hfuel
  refine ⟨r, hr, ?_⟩
  have f1 := updateAndSortChildren_frame (M := Mask.all) (Mask.all_contains _) env
    (fun h => absurd h (by decide)) frameState fuel s tile s1 h1
  have hcr : checkRefines s1 tile = true := by
    unfold checkRefines skipLevelOfDetail
    unfold skipLevelOfDetail at hskip
    rw [f1.tilesetStatic._skipLevelOfDetail, hskip, (f1.tileStatic tile).refine, hrep, hne]
    rfl
  unfold updateAndPushChildren at hr
  rw [h1] at hr
  simp only [Option.some_bind, Option.map_eq_some', hcr] at hr
  obtain ⟨acc, hacc, rfl⟩ := hr
  have hloop := pushLoop_refines env frameState fuel (s1.tiles tile).children.enum
    (PushChildren.init s1) rfl rfl (s1.tiles tile).children.enum.length acc
    (by rw [List.take_length]; exact hacc)
  unfold updateAndPushChildrenAt
  rw [hcr, updateAndPushChildrenFinish_refines]
  obtain ⟨hrf, hav⟩ := hloop
  have hlen : ∀ (k : Nat) (ic : Nat × TileId), (s1.tiles tile).children.enum[k]? = some ic →
      k < (s1.tiles tile).children.enum.length := by
    intro k ic hk
    by_contra hge
    rw [List.getElem?_eq_none (by omega)] at hk
    cases hk
  have henum : ∀ (k : Nat) (c : TileId), (s1.tiles tile).children[k]? = some c →
      (s1.tiles tile).children.enum[k]? = some (k, c) := by
    intro k c hk
    simp [List.getElem?_enum, hk]
  have henum2 : ∀ (k : Nat) (ic : Nat × TileId), (s1.tiles tile).children.enum[k]? = some ic →
      ic.1 = k ∧ (s1.tiles tile).children[k]? = some ic.2 := by
    intro k ic hk
    simp only [List.getElem?_enum, Option.map_eq_some'] at hk
    obtain ⟨c, hc, rfl⟩ := hk
    exact ⟨rfl, hc⟩
  constructor
  · intro hres
    cases hany : acc.anyChildrenVisible with
    | false => rw [hany] at hres; simp at hres
    | true =>
      rw [hany] at hres
      simp only [Bool.not_true, Bool.false_eq_true, if_false] at hres
      constructor
      · obtain ⟨k, ic, a, _, hk, ha, hvis⟩ := hav.1 hany
        exact ⟨k, ic.2, a, (henum2 k ic hk).2, ha, hvis⟩
      · intro i child hi
        obtain ⟨a, r1, ha, hc, hr1⟩ := hrf.1 hres i (i, child)
          (hlen i _ (henum i child hi)) (henum i child hi)
        refine ⟨a, ha, ?_⟩
        have hch := (childRefines_true_iff env frameState fuel _ child).1 ⟨r1, hc, hr1⟩
        obtain ⟨e1, e2, e3⟩ := pushOrLoadChild_child env frameState true a (i, child) child
        rw [e1, e2, e3] at hch
        exact hch
  · rintro ⟨⟨i, child, a, hi, ha, hvis⟩, hall⟩
    have hany : acc.anyChildrenVisible = true :=
      hav.2 ⟨i, (i, child), a, hlen i _ (henum i child hi), henum i child hi, ha, hvis⟩
    rw [hany]
    simp only [Bool.not_true, Bool.false_eq_true, if_false]
    rw [hrf]
    intro k ic hlt hk
    obtain ⟨e0, hk2⟩ := henum2 k ic hk
    obtain ⟨a1, ha1, hin, hrest⟩ := hall k ic.2 hk2
    have hic : ic = (k, ic.2) := by rw [← e0]
    obtain ⟨e1, e2, e3⟩ := pushOrLoadChild_child env frameState true a1 (k, ic.2) ic.2
    have hch := (childRefines_true_iff env frameState fuel
      (pushOrLoadChild env frameState true a1 (k, ic.2)).s ic.2).2
      (by rw [e1, e2, e3]; exact ⟨hin, hrest⟩)
    obtain ⟨r1, hc, hr1⟩ := hch
    refine ⟨a1, r1, ha1, ?_, hr1⟩
    rw [hic]
    exact hc

/-- Witness of C3 on the three-tile tree: the REPLACE root has an ADD child with available
content and an unloaded REPLACE child. -/
theorem updateAndPushChildren_refines_iff_witness :
    SizeOK mixedRefineSize mixedRefineState
      ∧ mixedRefineState.emptyTraversal.stack = []
      ∧ mixedRefineSize 0 ≤ 4
      ∧ skipLevelOfDetail mixedRefineState.tileset = false
      ∧ (mixedRefineState.tiles 0).refine = Cesium3DTileRefine.REPLACE
      ∧ updateAndSortChildren sampleEnv sampleFrameState 4 mixedRefineState 0
          = some ((updateAndSortChildren sampleEnv sampleFrameState 4 mixedRefineState 0).getD
              mixedRefineState)
      ∧ hasEmptyContent
          ((((updateAndSortChildren sampleEnv sampleFrameState 4 mixedRefineState 0).getD
              mixedRefineState).tiles 0)) = false
      ∧ ∃ r, updateAndPushChildren sampleEnv sampleFrameState 4 mixedRefineState 0 = some r
        ∧ (r.2 = true ↔
          (∃ i child a,
            ((((updateAndSortChildren sampleEnv sampleFrameState 4 mixedRefineState 0).getD
              mixedRefineState).tiles 0)).children[i]? = some child
            ∧ updateAndPushChildrenAt sampleEnv sampleFrameState 4
                ((updateAndSortChildren sampleEnv sampleFrameState 4 mixedRefineState 0).getD
                  mixedRefineState) 0 i = some a
            ∧ isVisible (a.s.tiles child) = true)
          ∧ ∀ i child,
              ((((updateAndSortChildren sampleEnv sampleFrameState 4 mixedRefineState 0).getD
                mixedRefineState).tiles 0)).children[i]? = some child →
              ∃ a, updateAndPushChildrenAt sampleEnv sampleFrameState 4
                  ((updateAndSortChildren sampleEnv sampleFrameState 4 mixedRefineState 0).getD
                    mixedRefineState) 0 i = some a
                ∧ (a.s.tiles child)._inRequestVolume = true
                ∧ (if hasEmptyContent (a.s.tiles child) then
                    ∃ r1, executeEmptyTraversal sampleEnv sampleFrameState 4
                        (pushOrLoadChild sampleEnv sampleFrameState true a (i, child)).s child
                          = some r1
                      ∧ r1.2 = true
                  else (a.s.tiles child).contentAvailable = true)) :=
  have h1 : updateAndSortChildren sampleEnv sampleFrameState 4 mixedRefineState 0
      = some ((updateAndSortChildren sampleEnv sampleFrameState 4 mixedRefineState 0).getD
          mixedRefineState) :=
    Option.isSome_getD_eq _ _ (by decide!)
  have hne : hasEmptyContent
      ((((updateAndSortChildren sampleEnv sampleFrameState 4 mixedRefineState 0).getD
          mixedRefineState).tiles 0)) = false := by decide!
  ⟨mixedRefineState_wellFormed.sizeOK, rfl, by decide, rfl, rfl, h1, hne,
    updateAndPushChildren_refines_iff sampleEnv sampleFrameState mixedRefineSize 4
      mixedRefineState 0 _ mixedRefineState_wellFormed.sizeOK rfl (by decide) rfl rfl h1 hne⟩

/-- C15: the six passes RENDER, PICK, SHADOW, PREFETCH, MOST_DETAILED_PREFETCH and
MOST_DETAILED_PICK are the numbers 0 to 5, and for each of them `getPassOptions` returns a
defined options record whose `isRender` flag is true if and only if the pass is RENDER. -/
theorem getPassOptions_isRender :
    [Cesium3DTilePass.RENDER, Cesium3DTilePass.PICK, Cesium3DTilePass.SHADOW,
        Cesium3DTilePass.PREFETCH, Cesium3DTilePass.MOST_DETAILED_PREFETCH,
        Cesium3DTilePass.MOST_DETAILED_PICK] = List.range Cesium3DTilePass.NUMBER_OF_PASSES
      ∧ ∀ pass : Fin Cesium3DTilePass.NUMBER_OF_PASSES,
          ∃ o, Cesium3DTilePass.getPassOptions pass.val = some o
            ∧ (o.isRender = true ↔ pass.val = Cesium3DTilePass.RENDER) := by
  refine ⟨by decide, ?_⟩
  intro pass
  have h : (match Cesium3DTilePass.getPassOptions pass.val with
      | some o => decide (o.isRender = true ↔ pass.val = Cesium3DTilePass.RENDER)
      | none => false) = true := by
    revert pass
    decide
  cases ho : Cesium3DTilePass.getPassOptions pass.val with
  | none => rw [ho] at h; cases h
  | some o =>
    rw [ho] at h
    exact ⟨o, rfl, of_decide_eq_true h⟩

/-- C16 (refuted as stated): a tile with a child that points to an external tileset whose
content has not expired can be traversed, whatever its screen-space error (here 0, below the
maximum of 16), so `canTraverse` is not equivalent to the conjunction of the claim. -/
theorem canTraverse_unexpired_external_pointer :
    canTraverse sampleTileset externalPointerTile = true
      ∧ ¬(externalPointerTile.children.length ≥ 1
          ∧ ¬(externalPointerTile.hasTilesetContent = true
              ∧ externalPointerTile.contentExpired = false)
          ∧ externalPointerTile._screenSpaceError > sampleTileset._maximumScreenSpaceError) := by
  decide!

/-- C16 (amended): `canTraverse(tileset, tile)` is true if and only if the tile has at least
one child and, when it points to an external tileset, its content has not expired, and
otherwise its `_screenSpaceError` exceeds `tileset._maximumScreenSpaceError`. -/
theorem canTraverse_iff (tileset : Tileset) (tile : Tile) :
    canTraverse tileset tile = true
      ↔ tile.children.length ≥ 1
        ∧ (if tile.hasTilesetContent = true then tile.contentExpired = false
          else tile._screenSpaceError > tileset._maximumScreenSpaceError) := by
  unfold canTraverse
  by_cases h0 : tile.children.length = 0
  · simp [h0]
  · have h1 : tile.children.length ≥ 1 := Nat.one_le_iff_ne_zero.2 h0
    rw [if_neg h0]
    by_cases h2 : tile.hasTilesetContent = true
    · simp [h2, h1]
    · simp [h2, h1]

/-- C18: the frame-stamp guards make repeated work a no-op.  `updateVisibility` on a tile whose
`_updatedVisibilityFrame` equals `tileset._updatedVisibilityFrame` returns the state unchanged,
whatever `tile.updateVisibility` would compute; `touchTile` on a tile whose `_touchedFrame`
equals the frame number returns the state unchanged, so nothing is added to the record of
`cache.touch` calls; and applying either operation twice equals applying it once. -/
theorem updateVisibility_touchTile_idempotent (env : Env) (s : State) (tile : TileId)
    (frameState : FrameState) :
    ((s.tiles tile)._updatedVisibilityFrame = s.tileset._updatedVisibilityFrame →
        updateVisibility env s tile frameState = s)
      ∧ ((s.tiles tile)._touchedFrame = frameState.frameNumber →
        touchTile s tile frameState = s)
      ∧ updateVisibility env (updateVisibility env s tile frameState) tile frameState
          = updateVisibility env s tile frameState
      ∧ touchTile (touchTile s tile frameState) tile frameState = touchTile s tile frameState := by
  have hv : ∀ σ : State, (σ.tiles tile)._updatedVisibilityFrame = σ.tileset._updatedVisibilityFrame →
      updateVisibility env σ tile frameState = σ := by
    intro σ h
    unfold updateVisibility
    rw [if_pos h]
  have ht : ∀ σ : State, (σ.tiles tile)._touchedFrame = frameState.frameNumber →
      touchTile σ tile frameState = σ := by
    intro σ h
    unfold touchTile
    rw [if_pos h]
  refine ⟨hv s, ht s, ?_, ?_⟩
  · apply hv
    unfold updateVisibility
    split
    · assumption
    · simp [State.setTile]
  · apply ht
    unfold touchTile
    split
    · assumption
    · simp [State.setTile, State.setTileset]

/-- Witness of C18 on the states reached by one call of each operation on tile 0, which carry
the stamps of frame 1. -/
theorem updateVisibility_touchTile_idempotent_witness :
    ((updateVisibility sampleEnv staleState 0 sampleFrameState).tiles 0)._updatedVisibilityFrame
        = (updateVisibility sampleEnv staleState 0 sampleFrameState).tileset._updatedVisibilityFrame
      ∧ ((touchTile staleState 0 sampleFrameState).tiles 0)._touchedFrame
          = sampleFrameState.frameNumber
      ∧ updateVisibility sampleEnv (updateVisibility sampleEnv staleState 0 sampleFrameState) 0
          sampleFrameState = updateVisibility sampleEnv staleState 0 sampleFrameState
      ∧ touchTile (touchTile staleState 0 sampleFrameState) 0 sampleFrameState
          = touchTile staleState 0 sampleFrameState :=
  ⟨by decide!, by decide!,
    (updateVisibility_touchTile_idempotent sampleEnv
      (updateVisibility sampleEnv staleState 0 sampleFrameState) 0 sampleFrameState).1
      (by decide!),
    (updateVisibility_touchTile_idempotent sampleEnv (touchTile staleState 0 sampleFrameState) 0
      sampleFrameState).2.1 (by decide!)⟩

/-- C17 (refuted as stated): on a root that points to an external tileset, has no children and
no available content, `executeEmptyTraversal` returns false although the only tile it reaches
is that empty tile, so that every content-bearing tile it reaches (there is none) has available
content. -/
theorem executeEmptyTraversal_failed_pointer :
    (executeEmptyTraversal sampleEnv sampleFrameState 2 failedPointerState 0).map
        (fun r => r.2) = some false
      ∧ (executeEmptyTraversalTiles sampleEnv sampleFrameState 2 failedPointerState 0).map
          (fun l => l.map fun p => (p.1, hasEmptyContent (p.2.tiles p.1))) = some [(0, true)] := by
  decide!

/-- C17 (amended): `executeEmptyTraversal(root)` returns (given enough fuel), and it returns
true if and only if every tile at which the traversal stops, that is every popped tile that is
not an empty tile that can be traversed, has available content when it is popped.  The popped
tiles are the root and the children of the popped tiles that are traversed. -/
theorem executeEmptyTraversal_iff (env : Env) (frameState : FrameState) (size : TileId → Nat)
    (fuel : Nat) (s : State) (root : TileId) (hS : SizeOK size s)
    (hst : s.emptyTraversal.stack = []) (hfuel : size root + 1 ≤ fuel) :
    ∃ r popped, executeEmptyTraversal env frameState fuel s root = some r
      ∧ executeEmptyTraversalTiles env frameState fuel s root = some popped
      ∧ (r.2 = true ↔ ∀ p ∈ popped, emptyTraverse p.2 p.1 = false →
          (p.2.tiles p.1).contentAvailable = true)
      ∧ (∃ σ, (root, σ) ∈ popped)
      ∧ (∀ p ∈ popped, emptyTraverse p.2 p.1 = true →
          ∀ c ∈ (p.2.tiles p.1).children, ∃ σ, (c, σ) ∈ popped)
      ∧ (∀ p ∈ popped, p.1 = root
          ∨ ∃ q ∈ popped, emptyTraverse q.2 q.1 = true ∧ p.1 ∈ (q.2.tiles q.1).children) := by
  obtain ⟨r, hr, _⟩ := executeEmptyTraversal_isSome env frameState size fuel s root hS hst hfuel
  have hr' := hr
  unfold executeEmptyTraversal at hr'
  obtain ⟨popped, hp, hres, hstk, hcl, hor⟩ :=
    executeEmptyTraversalLoop_popped env frameState fuel _ true r hr'
  refine ⟨r, popped, hr, hp, ?_, ?_, hcl, ?_⟩
  · rw [hres]; simp
  · exact hstk root (by simp)
  · intro p hp'
    rcases hor p hp' with hin | h
    · left
      simpa [hst] using hin
    · exact Or.inr h

/-- Witness of C17 (amended) on the root that points to an external tileset that failed to
load. -/
theorem executeEmptyTraversal_iff_witness :
    SizeOK (fun _ => 1) failedPointerState
      ∧ failedPointerState.emptyTraversal.stack = []
      ∧ (fun _ : TileId => 1) 0 + 1 ≤ 2
      ∧ ∃ r popped, executeEmptyTraversal sampleEnv sampleFrameState 2 failedPointerState 0 = some r
        ∧ executeEmptyTraversalTiles sampleEnv sampleFrameState 2 failedPointerState 0
            = some popped
        ∧ (r.2 = true ↔ ∀ p ∈ popped, emptyTraverse p.2 p.1 = false →
            (p.2.tiles p.1).contentAvailable = true)
        ∧ (∃ σ, (0, σ) ∈ popped)
        ∧ (∀ p ∈ popped, emptyTraverse p.2 p.1 = true →
            ∀ c ∈ (p.2.tiles p.1).children, ∃ σ, (c, σ) ∈ popped)
        ∧ (∀ p ∈ popped, p.1 = 0
            ∨ ∃ q ∈ popped, emptyTraverse q.2 q.1 = true ∧ p.1 ∈ (q.2.tiles q.1).children) :=
  have hS : SizeOK (fun _ => 1) failedPointerState := fun p => by
    simp [failedPointerState, sampleState, sampleTile, stackSize]
  ⟨hS, rfl, by decide,
    executeEmptyTraversal_iff sampleEnv sampleFrameState (fun _ => 1) 2 failedPointerState 0
      hS rfl (by decide)⟩

/-- C10: on a finite tree of tiles `traverseAndSelect` returns (given enough fuel) and appends
to `_selectedTiles`, each once, exactly the flagged tiles it reaches whose content is in view;
every appended tile that lies below an appended tile that is not an ADD tile stands before it
in `_selectedTiles`: a flagged non-ADD tile that can be traversed is appended only after the
tiles of its subtree, so a descendant precedes its flagged non-ADD ancestor. -/
theorem traverseAndSelect_descendants_first (env : Env) (frameState : FrameState)
    (size : TileId → Nat) (fuel : Nat) (s : State) (root : TileId) (hS : SizeOK size s)
    (hpar : ∀ p c, c ∈ (s.tiles p).children → (s.tiles c).parent = some p)
    (hnd : ∀ p, (s.tiles p).children.Nodup)
    (hst : s.selectionTraversal.stack = [])
    (hanc : s.selectionTraversal.ancestorStack = [])
    (hfuel : 2 * size root + 1 ≤ fuel) :
    ∃ s1 out, traverseAndSelect env frameState fuel s root = some s1
      ∧ s1.tileset._selectedTiles = s.tileset._selectedTiles ++ out
      ∧ out.Nodup
      ∧ (∀ x, x ∈ out ↔ (s.tiles x)._shouldSelect = true
          ∧ env.contentVisibility frameState x ≠ Intersect.OUTSIDE
          ∧ ∃ l, SelectionPath s root l x)
      ∧ ∀ a d, a ∈ out → d ∈ out → (s.tiles a).refine ≠ Cesium3DTileRefine.ADD →
          InSubtree s a d → a ≠ d → Precedes d a out := by
  obtain ⟨k, s1, la1, out, h, _, hsel, d⟩ :=
    traverseAndSelect_done env frameState size fuel s root hS hpar hnd hst hanc hfuel
  refine ⟨s1, out, h, hsel, d.nodup, ?_, d.order⟩
  intro x
  constructor
  · intro hx
    obtain ⟨h1, h2, c, hc, l, hl⟩ := d.sound x hx
    rw [List.mem_singleton.1 hc] at hl
    exact ⟨h1, h2, l, hl⟩
  · rintro ⟨h1, h2, l, hl⟩
    exact d.complete root (List.mem_singleton.2 rfl) l x hl h1 h2

/-- Witness of C10 on the tree of two flagged REPLACE tiles. -/
theorem traverseAndSelect_descendants_first_witness :
    SizeOK chainSize flaggedPairState
      ∧ (∀ p c, c ∈ (flaggedPairState.tiles p).children →
          (flaggedPairState.tiles c).parent = some p)
      ∧ (∀ p, (flaggedPairState.tiles p).children.Nodup)
      ∧ flaggedPairState.selectionTraversal.stack = []
      ∧ flaggedPairState.selectionTraversal.ancestorStack = []
      ∧ 2 * chainSize 0 + 1 ≤ 9
      ∧ ∃ s1 out, traverseAndSelect sampleEnv sampleFrameState 9 flaggedPairState 0 = some s1
        ∧ s1.tileset._selectedTiles = flaggedPairState.tileset._selectedTiles ++ out
        ∧ out.Nodup
        ∧ (∀ x, x ∈ out ↔ (flaggedPairState.tiles x)._shouldSelect = true
            ∧ sampleEnv.contentVisibility sampleFrameState x ≠ Intersect.OUTSIDE
            ∧ ∃ l, SelectionPath flaggedPairState 0 l x)
        ∧ ∀ a d, a ∈ out → d ∈ out →
            (flaggedPairState.tiles a).refine ≠ Cesium3DTileRefine.ADD →
            InSubtree flaggedPairState a d → a ≠ d → Precedes d a out :=
  ⟨flaggedPairState_tree.1, flaggedPairState_tree.2.1, flaggedPairState_tree.2.2, rfl, rfl,
    by decide,
    traverseAndSelect_descendants_first sampleEnv sampleFrameState chainSize 9 flaggedPairState 0
      flaggedPairState_tree.1 flaggedPairState_tree.2.1 flaggedPairState_tree.2.2 rfl rfl
      (by decide)⟩

/-- C11: the code departs from the claim and from the description of `traverseAndSelect` in the
source, by which the selection depth of a tile is its depth in the tree of the selected tiles.
In mixed-LOD rendering, on the tree of an ADD root and its REPLACE child, both with available
content, `selectTiles` flags and selects both tiles, and `traverseAndSelect` writes 0 to the
`_selectionDepth` of the child (it held 7), although the root, its one proper ancestor, is
flagged `_shouldSelect` and selected in this pass: the depth of the child among the selected
tiles is 1. -/
theorem selectionDepth_ignores_additive_ancestor :
    (selectTiles sampleEnv sampleFrameState 10 additiveRootState).map
        (fun s => (s.tileset._selectedTiles, (s.tiles 0)._shouldSelect,
          (s.tiles 1)._shouldSelect, (s.tiles 1).parent,
          decide ((s.tiles 1).refine = Cesium3DTileRefine.REPLACE),
          (s.tiles 1)._selectionDepth))
      = some ([0, 1], true, true, some 0, true, 0)
    ∧ (additiveRootState.tiles 1)._selectionDepth = 7 := by
  decide!

/-- What `traverseAndSelect` writes to `_selectionDepth`: on a finite tree of tiles, after the pass
the `_selectionDepth` of every flagged non-ADD tile it reaches is the number of the tiles above
it, on the path from the root of the pass, that are flagged `_shouldSelect` and are not ADD
tiles. -/
theorem traverseAndSelect_selectionDepth (env : Env) (frameState : FrameState)
    (size : TileId → Nat) (fuel : Nat) (s : State) (root : TileId) (hS : SizeOK size s)
    (hpar : ∀ p c, c ∈ (s.tiles p).children → (s.tiles c).parent = some p)
    (hnd : ∀ p, (s.tiles p).children.Nodup)
    (hst : s.selectionTraversal.stack = [])
    (hanc : s.selectionTraversal.ancestorStack = [])
    (hfuel : 2 * size root + 1 ≤ fuel) :
    ∃ s1, traverseAndSelect env frameState fuel s root = some s1
      ∧ ∀ l x, SelectionPath s root l x → flaggedReplace s x = true →
          (s1.tiles x)._selectionDepth = (l.filter (flaggedReplace s)).length := by
  obtain ⟨k, s1, la1, out, h, _, hsel, d⟩ :=
    traverseAndSelect_done env frameState size fuel s root hS hpar hnd hst hanc hfuel
  refine ⟨s1, h, ?_⟩
  intro l x hl hfl
  have := d.depth root (List.mem_singleton.2 rfl) l x hl hfl
  rw [this]
  show s.selectionTraversal.ancestorStack.length + _ = _
  rw [hanc]
  simp

/-- An instance of `traverseAndSelect_selectionDepth` on the tree of two flagged REPLACE tiles. -/
theorem traverseAndSelect_selectionDepth_witness :
    SizeOK chainSize flaggedPairState
      ∧ (∀ p c, c ∈ (flaggedPairState.tiles p).children →
          (flaggedPairState.tiles c).parent = some p)
      ∧ (∀ p, (flaggedPairState.tiles p).children.Nodup)
      ∧ flaggedPairState.selectionTraversal.stack = []
      ∧ flaggedPairState.selectionTraversal.ancestorStack = []
      ∧ 2 * chainSize 0 + 1 ≤ 9
      ∧ ∃ s1, traverseAndSelect sampleEnv sampleFrameState 9 flaggedPairState 0 = some s1
        ∧ ∀ l x, SelectionPath flaggedPairState 0 l x → flaggedReplace flaggedPairState x = true →
            (s1.tiles x)._selectionDepth = (l.filter (flaggedReplace flaggedPairState)).length :=
  ⟨flaggedPairState_tree.1, flaggedPairState_tree.2.1, flaggedPairState_tree.2.2, rfl, rfl,
    by decide,
    traverseAndSelect_selectionDepth sampleEnv sampleFrameState chainSize 9 flaggedPairState 0
      flaggedPairState_tree.1 flaggedPairState_tree.2.1 flaggedPairState_tree.2.2 rfl rfl
      (by decide)⟩

/-- C21 (the code diverges from its test): for every KTX2 header whose `layerCount` is not 0,
`parseKTX2` fails and returns no result, but the message of the error is "KTX2 Videos are not
supported", not the message "KTX2 texture arrays are not supported." that the test
"texture arrays are unsupported" expects. -/
theorem parseKTX2_layerCount (env : KTX2Env) (data : List Nat) (formats : List String)
    (header : KTX2Header) (hread : env.read data = some header)
    (hlayer : header.layerCount ≠ 0) :
    parseKTX2 env data (some formats) = .error "KTX2 Videos are not supported"
      ∧ "KTX2 Videos are not supported" ≠ "KTX2 texture arrays are not supported." := by
  refine ⟨?_, by decide⟩
  unfold parseKTX2
  simp only [hread]
  rw [if_pos hlayer]

/-- Witness of C21 on the header of the test, with `layerCount` 15. -/
theorem parseKTX2_layerCount_witness :
    layeredKTX2Env.read [] = some
        { layerCount := 15, pixelDepth := 0, vkFormat := 43, levelCount := 1, colorModel := 1 }
      ∧ (15 : Nat) ≠ 0
      ∧ parseKTX2 layeredKTX2Env [] (some []) = .error "KTX2 Videos are not supported"
      ∧ "KTX2 Videos are not supported" ≠ "KTX2 texture arrays are not supported." :=
  ⟨rfl, by decide,
    parseKTX2_layerCount layeredKTX2Env [] []
      { layerCount := 15, pixelDepth := 0, vkFormat := 43, levelCount := 1, colorModel := 1 }
      rfl (by decide)⟩

/-- In a state in which `immediatelyLoadDesiredLevelOfDetail` is off, which `selectTiles` never
hands to `executeSkipTraversal`, the base threshold would matter: on the four-tile chain, after
the update of the root, `executeSkipTraversal` requests the tile 3 only, whereas the traversal
run with the base threshold `tileset._maximumScreenSpaceError` requests the tiles 1 and 3. -/
theorem executeSkipTraversal_differs_from_base_at_maximum :
    (executeSkipTraversal sampleEnv sampleFrameState 10 chainUpdatedState 0).map
        (fun s => s.tileset._requestedTiles) = some [3]
      ∧ (executeSkipTraversalAtMaximum sampleEnv sampleFrameState 10 chainUpdatedState 0).map
        (fun s => s.tileset._requestedTiles) = some [1, 3]
      ∧ chainUpdatedState.tileset._maximumScreenSpaceError ≠ Number.MAX_VALUE := by
  decide!

/-- C25: the code departs from the claim and from the comment on the test in `selectTile`
("Tile is newly selected; it is selected this frame, but was not selected last frame").  A tile
whose content is in view, whose feature properties are not dirty and whose `_selectedFrame` is 5
is selected in frame 1: it was not selected in frame 0, its `_selectedFrame` differs from the
frame number and from the frame number minus one, but `selectTile` does not add it to
`_selectedTilesToStyle`.  Two calls of `selectTiles` lead there: the first, in frame 5, selects
the root of a tileset of one tile and adds it to `_selectedTilesToStyle`; the second, in frame 1,
selects the root again and leaves `_selectedTilesToStyle` empty. -/
theorem selectTile_later_selectedFrame_not_styled :
    sampleEnv.contentVisibility sampleFrameState 0 ≠ Intersect.OUTSIDE
      ∧ (laterSelectedState.tiles 0).featurePropertiesDirty = false
      ∧ (laterSelectedState.tiles 0)._selectedFrame ≠ sampleFrameState.frameNumber - 1
      ∧ (laterSelectedState.tiles 0)._selectedFrame ≠ sampleFrameState.frameNumber
      ∧ (selectTile sampleEnv laterSelectedState 0 sampleFrameState).tileset._selectedTilesToStyle
          = []
      ∧ (selectTile sampleEnv laterSelectedState 0 sampleFrameState).tileset._selectedTiles
          = [0]
      ∧ (selectTiles sampleEnv laterFrameState 4 loadedRootState).map
          (fun s => (s.tileset._selectedTiles, s.tileset._selectedTilesToStyle,
            (s.tiles 0)._selectedFrame)) = some ([0], [0], 5)
      ∧ (selectTiles sampleEnv sampleFrameState 4 selectedInFrameFiveState).map
          (fun s => (s.tileset._selectedTiles, s.tileset._selectedTilesToStyle))
          = some ([0], []) := by
  decide!

/-- C27: on a finite tree of tiles, `traverseAndSelect` returns (given enough fuel) with the
selection stack and the ancestor stack both empty; and in any state in which the selection
stack is empty and the tile on top of the ancestor stack has `_stackLength` 0, an iteration of
the loop takes that tile off the ancestor stack. -/
theorem traverseAndSelect_terminates (env : Env) (frameState : FrameState)
    (size : TileId → Nat) (fuel : Nat) (s : State) (root : TileId) (hS : SizeOK size s)
    (hpar : ∀ p c, c ∈ (s.tiles p).children → (s.tiles c).parent = some p)
    (hnd : ∀ p, (s.tiles p).children.Nodup)
    (hst : s.selectionTraversal.stack = [])
    (hanc : s.selectionTraversal.ancestorStack = [])
    (hfuel : 2 * size root + 1 ≤ fuel) :
    (∃ s1, traverseAndSelect env frameState fuel s root = some s1
        ∧ s1.selectionTraversal.stack = [] ∧ s1.selectionTraversal.ancestorStack = [])
      ∧ ∀ (σ : State) (lastAncestor : Option TileId) (w : TileId) (rest : List TileId),
          σ.selectionTraversal.stack = [] → σ.selectionTraversal.ancestorStack = w :: rest →
          (σ.tiles w)._stackLength = 0 →
          (traverseAndSelectStep env frameState σ lastAncestor).1.selectionTraversal.stack = []
            ∧ (traverseAndSelectStep env frameState σ lastAncestor).1.selectionTraversal.ancestorStack
              = rest := by
  constructor
  · obtain ⟨k, s1, la1, out, h, hanc1, _, d⟩ :=
      traverseAndSelect_done env frameState size fuel s root hS hpar hnd hst hanc hfuel
    exact ⟨s1, h, d.stack, hanc1⟩
  · intro σ la w rest h1 h2 h3
    obtain ⟨r, hr, _, _, _, hstack, hanc2, _⟩ :=
      traverseAndSelectStep_wait env frameState σ la w rest h2 (by rw [h3, h1]; rfl)
    rw [hr, hstack, hanc2]
    exact ⟨h1, rfl⟩

/-- Witness of C27 on the chain with the flagged root and grandchild. -/
theorem traverseAndSelect_terminates_witness :
    SizeOK chainSize flaggedChainState
      ∧ (∀ p c, c ∈ (flaggedChainState.tiles p).children →
          (flaggedChainState.tiles c).parent = some p)
      ∧ (∀ p, (flaggedChainState.tiles p).children.Nodup)
      ∧ flaggedChainState.selectionTraversal.stack = []
      ∧ flaggedChainState.selectionTraversal.ancestorStack = []
      ∧ 2 * chainSize 0 + 1 ≤ 9
      ∧ ∃ s1, traverseAndSelect sampleEnv sampleFrameState 9 flaggedChainState 0 = some s1
        ∧ s1.selectionTraversal.stack = [] ∧ s1.selectionTraversal.ancestorStack = [] :=
  ⟨flaggedChainState_tree.1, flaggedChainState_tree.2.1, flaggedChainState_tree.2.2, rfl, rfl,
    by decide,
    (traverseAndSelect_terminates sampleEnv sampleFrameState chainSize 9 flaggedChainState 0
      flaggedChainState_tree.1 flaggedChainState_tree.2.1 flaggedChainState_tree.2.2 rfl rfl
      (by decide)).1⟩

/-- C12 (refuted as stated): in mixed-LOD rendering, on the chain of four REPLACE tiles in which
only the root 0 and the grandchild 2 have available content, `selectTiles` selects the
grandchild only: the root is not in `_selectedTiles`. -/
theorem selectTiles_chain_selects_grandchild_only :
    chainState.tileset._skipLevelOfDetail = true
      ∧ ([0, 1, 2, 3].map fun i => (chainState.tiles i).contentAvailable)
          = [true, false, true, false]
      ∧ (selectTiles sampleEnv sampleFrameState 10 chainState).map
          (fun s => s.tileset._selectedTiles) = some [2] := by
  decide!

/-- C13 (refuted as stated): with mixed-LOD rendering off, on the root 0 at distance 5 with the
leaves 1 at distance 10 and 2 at distance 20, after the traversal the leaf 1 is visited, is
nearer than its sibling and has the root as its `_priorityDistanceHolder`, but the
`_priorityDistance` stored on the root is 5, the distance of the root, not the distance 10 of
the leaf. -/
theorem priorityDistance_of_holder_is_its_own :
    (selectTiles nearRootEnv sampleFrameState 10 twoLeavesState).map
        (fun s => ((s.tiles 1)._visitedFrame, (s.tiles 1)._distanceToCamera,
          (s.tiles 2)._distanceToCamera, (s.tiles 1)._priorityDistanceHolder,
          (s.tiles 0)._priorityDistance, (s.tiles 0)._distanceToCamera))
      = some (1, 10, 20, 0, 5, 5) := by
  decide!

/-- C22: the code departs from the claim, and from the other paths of the traversal, which call
`updateTile` on a tile before they read `isVisible` on it (the root in `selectTiles`, the
children in `updateAndPushChildren`, the popped tile in `executeEmptyTraversal`).
`selectDescendants` reads `isVisible(child)` first and calls `updateTile(child)` afterwards.
The grandchild 2 of the chain carries visibility flags of an earlier frame (visible, with a
stamp that is not the stamp of the tileset), and is not visible in the current frame;
`selectTiles` selects it, through `selectDescendants`: after the call the tile is selected, its
visibility has been computed in this frame, and it is not visible. -/
theorem selectTiles_selects_on_stale_visibility :
    isVisible (staleGrandchildState.tiles 2) = true
      ∧ (staleGrandchildState.tiles 2)._updatedVisibilityFrame
          ≠ staleGrandchildState.tileset._updatedVisibilityFrame
      ∧ (hiddenGrandchildEnv.tileUpdateVisibility sampleFrameState 2)._visible = false
      ∧ (selectTiles hiddenGrandchildEnv sampleFrameState 10 staleGrandchildState).map
          (fun s => (s.tileset._selectedTiles, isVisible (s.tiles 2),
            decide ((s.tiles 2)._updatedVisibilityFrame = s.tileset._updatedVisibilityFrame)))
        = some ([2], false, true) := by
  decide!

/-- C28 (refuted as stated): in mixed-LOD rendering, on the unloaded ADD root 0 with the
available leaf 1, `selectTiles` selects the leaf twice: once through `selectDescendants` on the
root, and once in `traverseAndSelect`, after the visit of the leaf has flagged it. -/
theorem selectTiles_selects_leaf_twice :
    (selectTiles sampleEnv sampleFrameState 10 unloadedAdditiveRootState).map
        (fun s => s.tileset._selectedTiles) = some [1, 1]
      ∧ (selectTiles sampleEnv sampleFrameState 10
          { unloadedAdditiveRootState with tileset :=
            { skipTileset with immediatelyLoadDesiredLevelOfDetail := true } }).map
        (fun s => s.tileset._selectedTiles) = some [1, 1] := by
  decide!

/-- C28 (amended): with mixed-LOD rendering off (the base traversal), on a finite tree of
tiles, `selectTiles` returns and every tile appears at most once in `_selectedTiles`. -/
theorem selectTiles_base_selected_nodup (env : Env) (frameState : FrameState)
    (size : TileId → Nat) (fuel : Nat) (s : State) (hwf : WellFormed size s)
    (hskip : s.tileset._skipLevelOfDetail = false)
    (hfreeze : s.tileset.debugFreezeFrame = false)
    (hfuel : size s.tileset.root + 1 ≤ fuel) :
    ∃ s', selectTiles env frameState fuel s = some s' ∧ s'.tileset._selectedTiles.Nodup := by
  obtain ⟨s', V, h, inv⟩ := selectTiles_base env frameState size fuel s hwf hskip hfreeze hfuel
  exact ⟨s', h, inv.selectedNodup⟩

/-- Witness of C28 (amended) on the three-tile sample tree. -/
theorem selectTiles_base_selected_nodup_witness :
    WellFormed mixedRefineSize mixedRefineState
      ∧ mixedRefineState.tileset._skipLevelOfDetail = false
      ∧ mixedRefineState.tileset.debugFreezeFrame = false
      ∧ mixedRefineSize mixedRefineState.tileset.root + 1 ≤ 10
      ∧ ∃ s', selectTiles sampleEnv sampleFrameState 10 mixedRefineState = some s'
        ∧ s'.tileset._selectedTiles.Nodup :=
  ⟨mixedRefineState_wellFormed, rfl, rfl, by decide,
    selectTiles_base_selected_nodup sampleEnv sampleFrameState mixedRefineSize 10
      mixedRefineState mixedRefineState_wellFormed rfl rfl (by decide)⟩

/-- C29 (refuted as stated): with mixed-LOD rendering off, on the root 0 whose one child 1 is an
expired pointer to an external tileset, not visible but inside the request volume,
`selectTiles` queues the child twice: once as a child that is not visible, in
`updateAndPushChildren`, and once in `executeEmptyTraversal`. -/
theorem selectTiles_requests_child_twice :
    (selectTiles hiddenChildEnv sampleFrameState 10 expiredPointerState).map
        (fun s => s.tileset._requestedTiles) = some [1, 1, 0] := by
  decide!

/-- C14: on a finite tree of tiles, when `debugFreezeFrame` is off and no content expires during
the call, `selectTiles` returns, in every traversal strategy, and every tile in
`_selectedTiles` has `_touchedFrame` equal to the frame number, and it was passed to
`tileset._cache.touch` during the call (it is among the tiles the call appended to `_cache`)
or it was already touched in this frame before the call. -/
theorem selectTiles_selected_touched (env : Env) (frameState : FrameState)
    (size : TileId → Nat) (fuel : Nat) (s : State) (hwf : WellFormed size s)
    (hstable : env.ContentStable) (hfreeze : s.tileset.debugFreezeFrame = false)
    (hfuel : 2 * size s.tileset.root + 1 ≤ fuel) :
    ∃ s' touched, selectTiles env frameState fuel s = some s'
      ∧ s'.tileset._cache = s.tileset._cache ++ touched
      ∧ ∀ x ∈ s'.tileset._selectedTiles,
          (s'.tiles x)._touchedFrame = frameState.frameNumber
            ∧ (x ∈ touched ∨ (s.tiles x)._touchedFrame = frameState.frameNumber) := by
  obtain ⟨s', h, _, _, _, hsel, _, l, hl, ht⟩ :=
    selectTiles_general env frameState size fuel s hwf hfuel
  refine ⟨s', l, h, hl, fun x hx => ?_⟩
  have h1 := (hsel hstable hfreeze x hx).1
  exact ⟨h1, (ht x h1).symm⟩

/-- Witness of C14 on the four-tile chain, in mixed-LOD rendering. -/
theorem selectTiles_selected_touched_witness :
    WellFormed chainSize chainState ∧ sampleEnv.ContentStable
      ∧ chainState.tileset.debugFreezeFrame = false
      ∧ 2 * chainSize chainState.tileset.root + 1 ≤ 10
      ∧ ∃ s' touched, selectTiles sampleEnv sampleFrameState 10 chainState = some s'
        ∧ s'.tileset._cache = chainState.tileset._cache ++ touched
        ∧ ∀ x ∈ s'.tileset._selectedTiles,
            (s'.tiles x)._touchedFrame = sampleFrameState.frameNumber
              ∧ (x ∈ touched
                ∨ (chainState.tiles x)._touchedFrame = sampleFrameState.frameNumber) :=
  ⟨chainState_wellFormed, sampleEnv_contentStable, rfl, by decide,
    selectTiles_selected_touched sampleEnv sampleFrameState chainSize 10 chainState
      chainState_wellFormed sampleEnv_contentStable rfl (by decide)⟩

/-- C20: on a fixed finite tree of tiles, whose traversal stack has a high-water mark of at
most the size of the tree at the start (it is 0 when the module is loaded), after any number of
successive calls of `selectTiles`, each with its own frame state and environment, every call
returns and the high-water mark `traversal.stackMaximumLength` is still at most the size of
the tree; `size` is any function that bounds the subtrees, such as the number of tiles of the
subtree of each tile. -/
theorem selectTiles_stackMaximumLength_bounded (frames : List (Env × FrameState))
    (size : TileId → Nat) (fuel : Nat) (s : State) (hwf : WellFormed size s)
    (hmax : s.traversal.stackMaximumLength ≤ size s.tileset.root)
    (hfuel : 2 * size s.tileset.root + 1 ≤ fuel) :
    ∃ s', frames.foldlM (fun s ef => selectTiles ef.1 ef.2 fuel s) s = some s'
      ∧ s'.traversal.stackMaximumLength ≤ size s.tileset.root := by
  suffices h : ∃ s', frames.foldlM (fun s ef => selectTiles ef.1 ef.2 fuel s) s = some s'
      ∧ WellFormed size s' ∧ s'.tileset.root = s.tileset.root
      ∧ s'.traversal.stackMaximumLength ≤ size s.tileset.root by
    obtain ⟨s', h1, _, _, h2⟩ := h
    exact ⟨s', h1, h2⟩
  induction frames generalizing s with
  | nil => exact ⟨s, rfl, hwf, rfl, hmax⟩
  | cons ef l ih =>
    obtain ⟨s1, h1, wf1, f1, m1, _⟩ := selectTiles_general ef.1 ef.2 size fuel s hwf hfuel
    have hr : s1.tileset.root = s.tileset.root := f1.tilesetStatic.root
    have hm1 : s1.traversal.stackMaximumLength ≤ size s1.tileset.root := by
      rw [hr]; exact le_trans m1 (max_le hmax (le_refl _))
    obtain ⟨s2, h2, wf2, r2, m2⟩ := ih s1 wf1 hm1 (by rw [hr]; exact hfuel)
    refine ⟨s2, ?_, wf2, r2.trans hr, by rw [← hr]; exact m2⟩
    rw [List.foldlM_cons, h1]
    exact h2

/-- Witness of C20: three frames on the four-tile chain. -/
theorem selectTiles_stackMaximumLength_bounded_witness :
    WellFormed chainSize chainState
      ∧ chainState.traversal.stackMaximumLength ≤ chainSize chainState.tileset.root
      ∧ 2 * chainSize chainState.tileset.root + 1 ≤ 10
      ∧ ∃ s', [(sampleEnv, sampleFrameState), (hiddenEnv, sampleFrameState),
            (sampleEnv, sampleFrameState)].foldlM
            (fun s ef => selectTiles ef.1 ef.2 10 s) chainState = some s'
        ∧ s'.traversal.stackMaximumLength ≤ chainSize chainState.tileset.root :=
  ⟨chainState_wellFormed, by decide, by decide,
    selectTiles_stackMaximumLength_bounded
      [(sampleEnv, sampleFrameState), (hiddenEnv, sampleFrameState),
        (sampleEnv, sampleFrameState)] chainSize 10 chainState chainState_wellFormed
      (by decide) (by decide)⟩

/-- C26: on a finite tree of tiles, when no content expires during the call (and
`debugFreezeFrame` is off), `selectTiles` returns, in every traversal strategy, and every tile
in `_selectedTiles` has available content and a content visibility other than OUTSIDE; a
`_shouldSelect` flag of an earlier frame selects nothing, since every tile the selection pass
reaches was updated in this frame. -/
theorem selectTiles_selected_available (env : Env) (frameState : FrameState)
    (size : TileId → Nat) (fuel : Nat) (s : State) (hwf : WellFormed size s)
    (hstable : env.ContentStable) (hfreeze : s.tileset.debugFreezeFrame = false)
    (hfuel : 2 * size s.tileset.root + 1 ≤ fuel) :
    ∃ s', selectTiles env frameState fuel s = some s'
      ∧ ∀ x ∈ s'.tileset._selectedTiles,
          (s'.tiles x).contentAvailable = true
            ∧ env.contentVisibility frameState x ≠ Intersect.OUTSIDE := by
  obtain ⟨s', h, _, _, _, hsel, _⟩ := selectTiles_general env frameState size fuel s hwf hfuel
  exact ⟨s', h, fun x hx => ⟨(hsel hstable hfreeze x hx).2.2, (hsel hstable hfreeze x hx).2.1⟩⟩

/-- Witness of C26 on the four-tile chain, in mixed-LOD rendering. -/
theorem selectTiles_selected_available_witness :
    WellFormed chainSize chainState ∧ sampleEnv.ContentStable
      ∧ chainState.tileset.debugFreezeFrame = false
      ∧ 2 * chainSize chainState.tileset.root + 1 ≤ 10
      ∧ ∃ s', selectTiles sampleEnv sampleFrameState 10 chainState = some s'
        ∧ ∀ x ∈ s'.tileset._selectedTiles,
            (s'.tiles x).contentAvailable = true
              ∧ sampleEnv.contentVisibility sampleFrameState x ≠ Intersect.OUTSIDE :=
  ⟨chainState_wellFormed, sampleEnv_contentStable, rfl, by decide,
    selectTiles_selected_available sampleEnv sampleFrameState chainSize 10 chainState
      chainState_wellFormed sampleEnv_contentStable rfl (by decide)⟩

/-- C30: on a finite tree of tiles, when no content expires during the call and no tile carries
the frame number in `_visitedFrame` at the start, `executeTraversal`, run as `selectTiles` runs
it after the update of the root, returns, and for every tile it visited (the tiles it stamped
with the frame number) `_ancestorWithContentAvailable` is the nearest proper ancestor whose
content is available; it is undefined exactly when no proper ancestor has available content,
so it is undefined for a tile without a parent. -/
theorem executeTraversal_ancestorWithContentAvailable (env : Env) (frameState : FrameState)
    (size : TileId → Nat) (fuel : Nat) (s s1 : State) (base maximum : ℚ)
    (hwf : WellFormed size s) (hstable : env.ContentStable)
    (hfresh : ∀ x, (s.tiles x)._visitedFrame ≠ frameState.frameNumber)
    (h1 : updateTile env frameState fuel
      { s with tileset := { s.tileset with
          _requestedTiles := [], _selectedTiles := [], _selectedTilesToStyle := [],
          _emptyTiles := [], _hasMixedContent := false } } s.tileset.root = some s1)
    (hfuel : size s.tileset.root + 2 ≤ fuel) :
    ∃ s2, executeTraversal env frameState fuel s1 s.tileset.root base maximum = some s2
      ∧ (s2.tiles s.tileset.root)._visitedFrame = frameState.frameNumber
      ∧ ∀ x, (s2.tiles x)._visitedFrame = frameState.frameNumber →
          NearestAvailable s2 x (s2.tiles x)._ancestorWithContentAvailable
          ∧ ((s2.tiles x)._ancestorWithContentAvailable = none
            ↔ ∀ b, ProperAncestor s2 b x → (s2.tiles b).contentAvailable = false)
          ∧ ((s2.tiles x).parent = none →
              (s2.tiles x)._ancestorWithContentAvailable = none) := by
  obtain ⟨s2, V, h2, core, stable, hst⟩ := executeTraversal_general env frameState size fuel s
    s1 base maximum hwf h1 hfuel
  obtain ⟨_, _, _, _, hl, _⟩ := core.done hwf stable hst
  have hrootV : s.tileset.root ∈ V := by
    rcases core.root with h | h
    · rw [hst] at h; cases h
    · exact h
  refine ⟨s2, h2, core.visitedStamp _ hrootV, fun x hx => ?_⟩
  have hN := hl hstable hfresh x hx
  have hiff : (s2.tiles x)._ancestorWithContentAvailable = none
      ↔ ∀ b, ProperAncestor s2 b x → (s2.tiles b).contentAvailable = false := by
    constructor
    · intro h
      rw [h] at hN
      exact hN
    · intro h
      cases hl' : (s2.tiles x)._ancestorWithContentAvailable with
      | none => rfl
      | some a =>
        rw [hl'] at hN
        have := h a hN.1
        rw [hN.2.1] at this
        cases this
  refine ⟨hN, hiff, fun hp => ?_⟩
  exact hiff.mpr (fun b hb => (properAncestor_of_root hp hb).elim)

/-- Witness of C30 on the four-tile chain, in mixed-LOD rendering. -/
theorem executeTraversal_ancestorWithContentAvailable_witness :
    WellFormed chainSize chainState ∧ sampleEnv.ContentStable
      ∧ (∀ x, (chainState.tiles x)._visitedFrame ≠ sampleFrameState.frameNumber)
      ∧ updateTile sampleEnv sampleFrameState 10
          { chainState with tileset := { chainState.tileset with
              _requestedTiles := [], _selectedTiles := [], _selectedTilesToStyle := [],
              _emptyTiles := [], _hasMixedContent := false } } chainState.tileset.root
          = some chainRootUpdatedState
      ∧ chainSize chainState.tileset.root + 2 ≤ 10
      ∧ ∃ s2, executeTraversal sampleEnv sampleFrameState 10 chainRootUpdatedState
            chainState.tileset.root Number.MAX_VALUE 16 = some s2
        ∧ (s2.tiles chainState.tileset.root)._visitedFrame = sampleFrameState.frameNumber
        ∧ ∀ x, (s2.tiles x)._visitedFrame = sampleFrameState.frameNumber →
            NearestAvailable s2 x (s2.tiles x)._ancestorWithContentAvailable
            ∧ ((s2.tiles x)._ancestorWithContentAvailable = none
              ↔ ∀ b, ProperAncestor s2 b x → (s2.tiles b).contentAvailable = false)
            ∧ ((s2.tiles x).parent = none →
                (s2.tiles x)._ancestorWithContentAvailable = none) := by
  have hfresh : ∀ x, (chainState.tiles x)._visitedFrame ≠ sampleFrameState.frameNumber := by
    intro x
    rcases x with _ | _ | _ | _ | x <;>
      simp [chainState, sampleState, chainTiles, sampleTile, sampleFrameState]
  have h1 : updateTile sampleEnv sampleFrameState 10
      { chainState with tileset := { chainState.tileset with
          _requestedTiles := [], _selectedTiles := [], _selectedTilesToStyle := [],
          _emptyTiles := [], _hasMixedContent := false } } chainState.tileset.root
      = some chainRootUpdatedState := by
    refine Option.isSome_getD_eq _ _ ?_
    obtain ⟨s1, h⟩ := updateTile_isSome sampleEnv sampleFrameState chainSize 10
      { chainState with tileset := { chainState.tileset with
          _requestedTiles := [], _selectedTiles := [], _selectedTilesToStyle := [],
          _emptyTiles := [], _hasMixedContent := false } } chainState.tileset.root
      (fun p => chainState_wellFormed.sizeOK p) (by decide)
    rw [h]
    rfl
  exact ⟨chainState_wellFormed, sampleEnv_contentStable, hfresh, h1, by decide,
    executeTraversal_ancestorWithContentAvailable sampleEnv sampleFrameState chainSize 10
      chainState chainRootUpdatedState Number.MAX_VALUE 16 chainState_wellFormed
      sampleEnv_contentStable hfresh h1 (by decide)⟩

/-- The visibility that `selectDescendants` tests is the one stored on the child when the test
runs, before `updateTile(child)`.  On the chain of the unloaded tiles 0 and 1 and the available
grandchild 2, which carries `_visible = true` from an earlier frame and is not visible in this
one, `selectDescendants(0)` reads the stored flags of 2 as visible, `updateTile(2)` then clears
the flag, and 2 is selected. -/
theorem selectDescendants_selects_hidden_tile :
    isVisible (staleDescendantState.tiles 2) = true
      ∧ (updateTile hiddenGrandchildEnv sampleFrameState 10 staleDescendantState 2).map
          (fun s => isVisible (s.tiles 2)) = some false
      ∧ (selectDescendants hiddenGrandchildEnv sampleFrameState 10 staleDescendantState 0).map
          (fun s => (s.tileset._selectedTiles, isVisible (s.tiles 2))) = some ([2], false) := by
  decide!

/-- C24: when the `_depth` of every child is one more than that of its parent, on a finite tree
of tiles `selectDescendants(root)` returns, with its stack empty again, and the records of the
passes of its inner loop say what it did.  It appended to `_selectedTiles` the children
recorded as selected, in order.  Every child it examined is a child of the root or of a child of
the root, so it is one or two levels below the root and no tile further down is selected or
pushed.  A child it selected was visible when the loop tested it for selection (`isVisible` on
the flags the child carried at that test) with available content, and its content is in view.
A child it pushed is a child of the root that was visible at that test and without available
content. -/
theorem selectDescendants_two_levels (env : Env) (frameState : FrameState)
    (size : TileId → Nat) (fuel : Nat) (s : State) (root : TileId)
    (hS : SizeOK size s) (hdepth : DepthOK s) (hst : s.descendantTraversal.stack = [])
    (hfuel : size root + 1 ≤ fuel) :
    ∃ s' checks, selectDescendants env frameState fuel s root = some s'
      ∧ selectDescendantsChecks env frameState fuel s root = some checks
      ∧ s'.descendantTraversal.stack = []
      ∧ s'.tileset._selectedTiles = s.tileset._selectedTiles
          ++ ((checks.filter fun c => c.selected).map fun c => c.child)
      ∧ ∀ c ∈ checks,
          (c.tile = root ∨ c.tile ∈ (s.tiles root).children)
          ∧ c.child ∈ (s.tiles c.tile).children
          ∧ ((s.tiles c.child)._depth = (s.tiles root)._depth + 1
            ∨ (s.tiles c.child)._depth = (s.tiles root)._depth + 2)
          ∧ (c.selected = true → c.visible = true ∧ c.contentAvailable = true
              ∧ env.contentVisibility frameState c.child ≠ Intersect.OUTSIDE)
          ∧ (c.pushed = true → c.tile = root ∧ c.visible = true
              ∧ c.contentAvailable = false) := by
  obtain ⟨s', checks, a1, a2, a3, a4, a5⟩ := selectDescendantsLoopChecks_spec env frameState
    size root s hdepth fuel
    { s with descendantTraversal := { s.descendantTraversal with
        stack := root :: s.descendantTraversal.stack } }
    (fun p => hS p) (fun _ => ⟨rfl, rfl⟩)
    (by
      intro t ht
      have ht' : t ∈ root :: s.descendantTraversal.stack := ht
      rw [hst] at ht'
      exact Or.inl (List.mem_singleton.mp ht'))
    (by
      show stackSize size (root :: s.descendantTraversal.stack) + 1 ≤ fuel
      rw [hst, stackSize_cons]
      simp [stackSize]
      omega)
  refine ⟨s', checks, a1, a2, a4, a3, ?_⟩
  intro c hc
  obtain ⟨c1, c2, c3, c4⟩ := a5 c hc
  refine ⟨c1, c2, ?_, c3, c4⟩
  rcases c1 with h | h
  · rw [h] at c2
    exact Or.inl (hdepth root c.child c2)
  · refine Or.inr ?_
    rw [hdepth c.tile c.child c2, hdepth root c.tile h]
    ring

/-- Witness of C24 on the chain with the stale grandchild. -/
theorem selectDescendants_two_levels_witness :
    SizeOK chainSize staleDescendantState ∧ DepthOK staleDescendantState
      ∧ staleDescendantState.descendantTraversal.stack = [] ∧ chainSize 0 + 1 ≤ 10
      ∧ ∃ s' checks,
        selectDescendants hiddenGrandchildEnv sampleFrameState 10 staleDescendantState 0 = some s'
        ∧ selectDescendantsChecks hiddenGrandchildEnv sampleFrameState 10 staleDescendantState 0
          = some checks
        ∧ s'.descendantTraversal.stack = []
        ∧ s'.tileset._selectedTiles = staleDescendantState.tileset._selectedTiles
            ++ ((checks.filter fun c => c.selected).map fun c => c.child)
        ∧ ∀ c ∈ checks,
            (c.tile = 0 ∨ c.tile ∈ (staleDescendantState.tiles 0).children)
            ∧ c.child ∈ (staleDescendantState.tiles c.tile).children
            ∧ ((staleDescendantState.tiles c.child)._depth
                = (staleDescendantState.tiles 0)._depth + 1
              ∨ (staleDescendantState.tiles c.child)._depth
                = (staleDescendantState.tiles 0)._depth + 2)
            ∧ (c.selected = true → c.visible = true ∧ c.contentAvailable = true
                ∧ hiddenGrandchildEnv.contentVisibility sampleFrameState c.child
                  ≠ Intersect.OUTSIDE)
            ∧ (c.pushed = true → c.tile = 0 ∧ c.visible = true
                ∧ c.contentAvailable = false) :=
  ⟨staleDescendantState_sizeOK, staleDescendantState_depthOK, rfl, by decide,
    selectDescendants_two_levels hiddenGrandchildEnv sampleFrameState chainSize 10
      staleDescendantState 0 staleDescendantState_sizeOK staleDescendantState_depthOK rfl
      (by decide)⟩

/-- C19: on a finite tree of tiles, when no content expires during the call, `selectTiles`
returns in every traversal strategy, and every tile that it pops from the stack of the main
traversal (`executeTraversal`) or from the stack of the selection pass (`traverseAndSelect`) is
visible (`isVisible`: `_visible` and `_inRequestVolume`) in the state in which it is popped.
The lists `main` and `selection` record the popped tiles, each with the value of
`isVisible(tile)` at its pop; children are pushed on these stacks only in the iteration that
has popped their parent, so only from visible tiles. -/
theorem selectTiles_popped_visible (env : Env) (frameState : FrameState)
    (size : TileId → Nat) (fuel : Nat) (s : State) (hwf : WellFormed size s)
    (hs : env.ContentStable) (hfuel : 2 * size s.tileset.root + 1 ≤ fuel) :
    ∃ s' main selection, selectTiles env frameState fuel s = some s'
      ∧ selectTilesPopped env frameState fuel s = some (main, selection)
      ∧ (∀ p ∈ main, p.2 = true) ∧ (∀ p ∈ selection, p.2 = true) := by
  have hpos := hwf.sizeOK.size_pos s.tileset.root
  rw [selectTiles_eq, selectTilesPopped_eq]
  by_cases hfreeze : s.tileset.debugFreezeFrame = true
  · rw [if_pos hfreeze, if_pos hfreeze]
    exact ⟨_, [], [], rfl, rfl, fun _ h => (by cases h), fun _ h => (by cases h)⟩
  · rw [if_neg hfreeze, if_neg hfreeze]
    obtain ⟨s1, h1⟩ := updateTile_isSome env frameState size fuel
      { s with tileset := { s.tileset with
          _requestedTiles := [], _selectedTiles := [], _selectedTilesToStyle := [],
          _emptyTiles := [], _hasMixedContent := false } } s.tileset.root
      (fun p => hwf.sizeOK p) (by omega)
    rw [h1]
    simp only []
    by_cases hv : (!isVisible (s1.tiles s.tileset.root)) = true
    · rw [if_pos hv, if_pos hv]
      exact ⟨_, [], [], rfl, rfl, fun _ h => (by cases h), fun _ h => (by cases h)⟩
    · rw [if_neg hv, if_neg hv]
      have hv' : isVisible (s1.tiles s.tileset.root) = true := by simpa using hv
      by_cases hsse : env.getScreenSpaceError frameState s.tileset.root
          ≤ s1.tileset._maximumScreenSpaceError
      · rw [if_pos hsse, if_pos hsse]
        exact ⟨_, [], [], rfl, rfl, fun _ h => (by cases h), fun _ h => (by cases h)⟩
      · rw [if_neg hsse, if_neg hsse]
        -- the selection pass after a main traversal
        have pass : ∀ (base maximum : ℚ),
            ∃ s3 main selection,
              ((executeTraversal env frameState fuel s1 s.tileset.root base maximum).bind
                fun σ => traverseAndSelect env frameState fuel σ s.tileset.root) = some s3
              ∧ ((executeTraversalPopped env frameState fuel s1 s.tileset.root base).bind
                  fun main =>
                    (executeTraversal env frameState fuel s1 s.tileset.root base
                        maximum).bind fun σ =>
                      (traverseAndSelectPopped env frameState fuel σ s.tileset.root).map
                        fun selection => (main, selection)) = some (main, selection)
              ∧ (∀ p ∈ main, p.2 = true) ∧ (∀ p ∈ selection, p.2 = true) := by
          intro base maximum
          obtain ⟨s2, V, h2, core, stable, hst⟩ := executeTraversal_general env frameState size
            fuel s s1 base maximum hwf h1 (by omega)
          obtain ⟨s3, h3, _⟩ := traverseAndSelect_general env frameState size fuel s s2 V hwf
            core stable hst hfuel
          obtain ⟨main, m1, m2, m3⟩ := executeTraversal_popped env hs frameState size fuel s s1
            base maximum hwf h1 hv' s2 h2
          obtain ⟨selection, n1, n2⟩ := traverseAndSelect_popped env frameState fuel s2
            s.tileset.root s3
            (by rw [core.selectionTraversal]; exact hwf.selectionTraversal_stack) m3 h3
          refine ⟨s3, main, selection, ?_, ?_, m2, n2⟩
          · simp only [h2, Option.some_bind, h3]
          · simp only [m1, h2, Option.some_bind, n1, Option.map_some']
        by_cases hskip : (!skipLevelOfDetail s1.tileset) = true
        · rw [if_pos hskip, if_pos hskip]
          unfold executeBaseTraversal executeBaseTraversalPopped
          obtain ⟨s2, V, h2, core, stable, hst⟩ := executeTraversal_general env frameState size
            fuel s s1 s1.tileset._maximumScreenSpaceError s1.tileset._maximumScreenSpaceError hwf
            h1 (by omega)
          obtain ⟨main, m1, m2, _⟩ := executeTraversal_popped env hs frameState size fuel s s1
            s1.tileset._maximumScreenSpaceError s1.tileset._maximumScreenSpaceError hwf h1 hv'
            s2 h2
          refine ⟨s2, main, [], h2, ?_, m2, fun _ h => (by cases h)⟩
          simp only [m1, Option.map_some']
        · rw [if_neg hskip, if_neg hskip]
          by_cases himm : s1.tileset.immediatelyLoadDesiredLevelOfDetail = true
          · rw [if_pos himm, if_pos himm]
            unfold executeSkipTraversal executeSkipTraversalPopped
            exact pass _ _
          · rw [if_neg himm, if_neg himm]
            unfold executeBaseAndSkipTraversal executeBaseAndSkipTraversalPopped
            exact pass _ _

/-- Witness of C19 on the four-tile chain in mixed-LOD rendering. -/
theorem selectTiles_popped_visible_witness :
    WellFormed chainSize chainState ∧ sampleEnv.ContentStable
      ∧ 2 * chainSize chainState.tileset.root + 1 ≤ 10
      ∧ ∃ s' main selection, selectTiles sampleEnv sampleFrameState 10 chainState = some s'
        ∧ selectTilesPopped sampleEnv sampleFrameState 10 chainState = some (main, selection)
        ∧ (∀ p ∈ main, p.2 = true) ∧ (∀ p ∈ selection, p.2 = true) :=
  ⟨chainState_wellFormed, sampleEnv_contentStable, by decide,
    selectTiles_popped_visible sampleEnv sampleFrameState chainSize 10 chainState
      chainState_wellFormed sampleEnv_contentStable (by decide)⟩

/-- C23: `selectTiles` calls `executeSkipTraversal` only when
`immediatelyLoadDesiredLevelOfDetail` is set, and then `inBaseTraversal` returns before it reads
the base threshold.  So `executeSkipTraversal`, whose source passes `Number.MAX_VALUE`, is
`executeTraversal` run with the base threshold `tileset._maximumScreenSpaceError` (and the same
maximum threshold) followed by `traverseAndSelect`; and `selectTiles` is the same function of its
input when that call is replaced by this reading. -/
theorem executeSkipTraversal_base_is_maximum (env : Env) (frameState : FrameState)
    (fuel : Nat) :
    (∀ (s : State) (root : TileId), s.tileset.immediatelyLoadDesiredLevelOfDetail = true →
      executeSkipTraversal env frameState fuel s root
        = (executeTraversal env frameState fuel s root s.tileset._maximumScreenSpaceError
            s.tileset._maximumScreenSpaceError).bind
          fun s1 => traverseAndSelect env frameState fuel s1 root)
    ∧ ∀ s : State, selectTiles env frameState fuel s
      = if s.tileset.debugFreezeFrame = true then
          some { s with tileset := { s.tileset with _requestedTiles := [] } }
        else
          match updateTile env frameState fuel
            { s with tileset := { s.tileset with
                _requestedTiles := [], _selectedTiles := [], _selectedTilesToStyle := [],
                _emptyTiles := [], _hasMixedContent := false } } s.tileset.root with
          | none => none
          | some s1 =>
            if (!isVisible (s1.tiles s.tileset.root)) = true then some s1
            else if env.getScreenSpaceError frameState s.tileset.root
                ≤ s1.tileset._maximumScreenSpaceError then some s1
            else if (!skipLevelOfDetail s1.tileset) = true then
              executeBaseTraversal env frameState fuel s1 s.tileset.root
            else if s1.tileset.immediatelyLoadDesiredLevelOfDetail = true then
              executeSkipTraversalAtMaximum env frameState fuel s1 s.tileset.root
            else executeBaseAndSkipTraversal env frameState fuel s1 s.tileset.root := by
  have key : ∀ (s : State) (root : TileId),
      s.tileset.immediatelyLoadDesiredLevelOfDetail = true →
      executeSkipTraversal env frameState fuel s root
        = executeSkipTraversalAtMaximum env frameState fuel s root := by
    intro s root himm
    unfold executeSkipTraversal executeSkipTraversalAtMaximum
    simp only []
    rw [executeTraversal_immediate env frameState Number.MAX_VALUE
      s.tileset._maximumScreenSpaceError s.tileset._maximumScreenSpaceError
      s.tileset._maximumScreenSpaceError fuel s root himm]
  refine ⟨fun s root himm => key s root himm, fun s => ?_⟩
  rw [selectTiles_eq]
  by_cases hf : s.tileset.debugFreezeFrame = true
  · rw [if_pos hf, if_pos hf]
  · rw [if_neg hf, if_neg hf]
    cases hu : updateTile env frameState fuel
        { s with tileset := { s.tileset with
            _requestedTiles := [], _selectedTiles := [], _selectedTilesToStyle := [],
            _emptyTiles := [], _hasMixedContent := false } } s.tileset.root with
    | none => rfl
    | some s1 =>
      simp only []
      by_cases himm : s1.tileset.immediatelyLoadDesiredLevelOfDetail = true
      · rw [key s1 s.tileset.root himm]
      · rw [if_neg himm, if_neg himm]

/-- Witness of C23 on the four-tile chain with `immediatelyLoadDesiredLevelOfDetail` set, where
both traversals select the tile 2 and request the tile 3. -/
theorem executeSkipTraversal_base_is_maximum_witness :
    immediateChainState.tileset.immediatelyLoadDesiredLevelOfDetail = true
      ∧ immediateChainState.tileset._maximumScreenSpaceError ≠ Number.MAX_VALUE
      ∧ executeSkipTraversal sampleEnv sampleFrameState 10 immediateChainState 0
        = (executeTraversal sampleEnv sampleFrameState 10 immediateChainState 0
            immediateChainState.tileset._maximumScreenSpaceError
            immediateChainState.tileset._maximumScreenSpaceError).bind
          fun s1 => traverseAndSelect sampleEnv sampleFrameState 10 s1 0 :=
  ⟨rfl, by decide!,
    (executeSkipTraversal_base_is_maximum sampleEnv sampleFrameState 10).1
      immediateChainState 0 rfl⟩

/-- C13 (amended): on a finite tree `updateAndPushChildren` returns (given enough fuel).  Its
second loop compares the `_priorityDistance` of a child when the child is visible, or when
`checkRefines` or `loadSiblings` holds.  Either no compared child has a distance below
`Number.MAX_VALUE`, and then the last part of the function writes nothing; or the loop finds the
first child `c` of least distance among the compared children (each distance read when the loop
reaches the child), one tile `holder` becomes the `_priorityDistanceHolder` of every child (the
holder of the tile when the tile was itself such a child or is the root, and otherwise the
tile), and the `_priorityDistance` stored on `holder` becomes the minimum of the distance of `c`
and of the value `holder` stored before: it is the distance of `c` only when that is not
greater than the value stored before.  Without `checkRefines` the loop leaves every
`_priorityDistance` and every visibility flag as they were when the children had been updated
and sorted (state `s1`). -/
theorem updateAndPushChildren_priority (env : Env) (frameState : FrameState)
    (size : TileId → Nat) (fuel : Nat) (s : State) (tile : TileId) (s1 : State)
    (hS : SizeOK size s) (hst : s.emptyTraversal.stack = []) (hfuel : size tile ≤ fuel)
    (h1 : updateAndSortChildren env frameState fuel s tile = some s1) :
    ∃ r acc, updateAndPushChildren env frameState fuel s tile = some r
      ∧ updateAndPushChildrenAt env frameState fuel s1 tile (s1.tiles tile).children.length
          = some acc
      ∧ ((acc.minIndex = none ∧ r.1 = acc.s
          ∧ ∀ i child a, (s1.tiles tile).children[i]? = some child →
              updateAndPushChildrenAt env frameState fuel s1 tile i = some a →
              comparesPriorityDistance (checkRefines s1 tile) a child = true →
              Number.MAX_VALUE ≤ (a.s.tiles child)._priorityDistance)
        ∨ ∃ m c am holder, (s1.tiles tile).children[m]? = some c
          ∧ acc.minIndex = some m
          ∧ updateAndPushChildrenAt env frameState fuel s1 tile m = some am
          ∧ comparesPriorityDistance (checkRefines s1 tile) am c = true
          ∧ (am.s.tiles c)._priorityDistance < Number.MAX_VALUE
          ∧ (∀ i child a, (s1.tiles tile).children[i]? = some child →
              updateAndPushChildrenAt env frameState fuel s1 tile i = some a →
              comparesPriorityDistance (checkRefines s1 tile) a child = true →
              (am.s.tiles c)._priorityDistance ≤ (a.s.tiles child)._priorityDistance
                ∧ (i < m →
                  (am.s.tiles c)._priorityDistance < (a.s.tiles child)._priorityDistance))
          ∧ holder = (if ((acc.s.setTile c fun t =>
                { t with _wasMinPriorityChild := true }).tiles tile)._wasMinPriorityChild
                || decide (tile = acc.s.tileset.root) then
              ((acc.s.setTile c fun t =>
                { t with _wasMinPriorityChild := true }).tiles tile)._priorityDistanceHolder
            else tile)
          ∧ (r.1.tiles holder)._priorityDistance
              = min (acc.s.tiles c)._priorityDistance (acc.s.tiles holder)._priorityDistance
          ∧ ∀ x ∈ (s1.tiles tile).children, (r.1.tiles x)._priorityDistanceHolder = holder)
      ∧ (checkRefines s1 tile = false →
          ∀ i a, updateAndPushChildrenAt env frameState fuel s1 tile i = some a →
            ∀ x, (a.s.tiles x)._priorityDistance = (s1.tiles x)._priorityDistance
              ∧ isVisible (a.s.tiles x) = isVisible (s1.tiles x)) := by
  obtain ⟨r, hr, _⟩ := updateAndPushChildren_isSome env frameState size fuel s tile hS hst hfuel
  have hr' := hr
  unfold updateAndPushChildren at hr'
  rw [h1] at hr'
  simp only [Option.some_bind, Option.map_eq_some'] at hr'
  obtain ⟨acc, hacc, rfl⟩ := hr'
  have hat : updateAndPushChildrenAt env frameState fuel s1 tile (s1.tiles tile).children.length
      = some acc := by
    unfold updateAndPushChildrenAt
    rw [← List.enum_length, List.take_length]
    exact hacc
  have henum : ∀ (k : Nat) (c : TileId), (s1.tiles tile).children[k]? = some c →
      (s1.tiles tile).children.enum[k]? = some (k, c) := by
    intro k c hk
    simp [List.getElem?_enum, hk]
  have henum2 : ∀ (k : Nat) (ic : Nat × TileId), (s1.tiles tile).children.enum[k]? = some ic →
      ic.1 = k ∧ (s1.tiles tile).children[k]? = some ic.2 := by
    intro k ic hk
    simp only [List.getElem?_enum, Option.map_eq_some'] at hk
    obtain ⟨c, hc, rfl⟩ := hk
    exact ⟨rfl, hc⟩
  have hlen : ∀ (k : Nat) (c : TileId), (s1.tiles tile).children[k]? = some c →
      k < (s1.tiles tile).children.enum.length := by
    intro k c hk
    by_contra hge
    rw [List.enum_length] at hge
    rw [List.getElem?_eq_none (by omega)] at hk
    cases hk
  have hloop := pushLoop_minIndex env frameState fuel (checkRefines s1 tile)
    (s1.tiles tile).children.enum (PushChildren.init s1) (fun k ic hk => (henum2 k ic hk).1) rfl
    (s1.tiles tile).children.enum.length acc (by rw [List.take_length]; exact hacc)
  refine ⟨_, acc, hr, hat, ?_, ?_⟩
  · rcases hloop with ⟨e1, e2, e3⟩ | ⟨m, icm, am, hm, e1, e2, e3, e4, e5, e6, e7⟩
    · refine Or.inl ⟨e1, updateAndPushChildrenFinish_none _ _ _ e1, fun i child a hi ha hc => ?_⟩
      exact not_lt.mp (e3 i (i, child) a (hlen i child hi) (henum i child hi) ha hc)
    · obtain ⟨hm1, hm2⟩ := henum2 m icm e1
      obtain ⟨holder, k1, k2, k3⟩ := updateAndPushChildrenFinish_holder tile
        (s1.tiles tile).children acc m icm.2 e4 hm2
      refine Or.inr ⟨m, icm.2, am, holder, hm2, e4, e2, e3, e6, fun i child a hi ha hc => ?_,
        k1, k2, k3⟩
      exact e7 i (i, child) a (hlen i child hi) (henum i child hi) ha hc
  · intro hcr i a ha x
    unfold updateAndPushChildrenAt at ha
    rw [hcr] at ha
    have f := pushLoop_unchecked (M := Mask.of (loadTileFields ++ touchTileFields ++ [.traversal]))
      (Mask.contains_of _) env frameState fuel _ _ _ ha
    have e1 := f.tile ._priorityDistance (by decide) x
    have e2 := f.tile ._visible (by decide) x
    have e3 := f.tile ._inRequestVolume (by decide) x
    refine ⟨e1, ?_⟩
    unfold isVisible
    rw [show (a.s.tiles x)._visible = (s1.tiles x)._visible from e2,
      show (a.s.tiles x)._inRequestVolume = (s1.tiles x)._inRequestVolume from e3]

/-- Witness of C13 (amended) on the root with two leaves. -/
theorem updateAndPushChildren_priority_witness :
    SizeOK mixedRefineSize twoLeavesState
      ∧ twoLeavesState.emptyTraversal.stack = []
      ∧ mixedRefineSize 0 ≤ 4
      ∧ updateAndSortChildren nearRootEnv sampleFrameState 4 twoLeavesState 0
          = some twoLeavesSortedState
      ∧ ∃ r acc, updateAndPushChildren nearRootEnv sampleFrameState 4 twoLeavesState 0 = some r
      ∧ updateAndPushChildrenAt nearRootEnv sampleFrameState 4 twoLeavesSortedState 0 (twoLeavesSortedState.tiles 0).children.length
          = some acc
      ∧ ((acc.minIndex = none ∧ r.1 = acc.s
          ∧ ∀ i child a, (twoLeavesSortedState.tiles 0).children[i]? = some child →
              updateAndPushChildrenAt nearRootEnv sampleFrameState 4 twoLeavesSortedState 0 i = some a →
              comparesPriorityDistance (checkRefines twoLeavesSortedState 0) a child = true →
              Number.MAX_VALUE ≤ (a.s.tiles child)._priorityDistance)
        ∨ ∃ m c am holder, (twoLeavesSortedState.tiles 0).children[m]? = some c
          ∧ acc.minIndex = some m
          ∧ updateAndPushChildrenAt nearRootEnv sampleFrameState 4 twoLeavesSortedState 0 m = some am
          ∧ comparesPriorityDistance (checkRefines twoLeavesSortedState 0) am c = true
          ∧ (am.s.tiles c)._priorityDistance < Number.MAX_VALUE
          ∧ (∀ i child a, (twoLeavesSortedState.tiles 0).children[i]? = some child →
              updateAndPushChildrenAt nearRootEnv sampleFrameState 4 twoLeavesSortedState 0 i = some a →
              comparesPriorityDistance (checkRefines twoLeavesSortedState 0) a child = true →
              (am.s.tiles c)._priorityDistance ≤ (a.s.tiles child)._priorityDistance
                ∧ (i < m →
                  (am.s.tiles c)._priorityDistance < (a.s.tiles child)._priorityDistance))
          ∧ holder = (if ((acc.s.setTile c fun t =>
                { t with _wasMinPriorityChild := true }).tiles 0)._wasMinPriorityChild
                || decide ((0 : TileId) = acc.s.tileset.root) then
              ((acc.s.setTile c fun t =>
                { t with _wasMinPriorityChild := true }).tiles 0)._priorityDistanceHolder
            else 0)
          ∧ (r.1.tiles holder)._priorityDistance
              = min (acc.s.tiles c)._priorityDistance (acc.s.tiles holder)._priorityDistance
          ∧ ∀ x ∈ (twoLeavesSortedState.tiles 0).children, (r.1.tiles x)._priorityDistanceHolder = holder)
      ∧ (checkRefines twoLeavesSortedState 0 = false →
          ∀ i a, updateAndPushChildrenAt nearRootEnv sampleFrameState 4 twoLeavesSortedState 0 i = some a →
            ∀ x, (a.s.tiles x)._priorityDistance = (twoLeavesSortedState.tiles x)._priorityDistance
              ∧ isVisible (a.s.tiles x) = isVisible (twoLeavesSortedState.tiles x)) :=
  ⟨twoLeavesState_sizeOK, rfl, by decide, twoLeavesSortedState_eq,
    updateAndPushChildren_priority nearRootEnv sampleFrameState mixedRefineSize 4
      twoLeavesState 0 twoLeavesSortedState twoLeavesState_sizeOK rfl (by decide)
      twoLeavesSortedState_eq⟩

/-- C29 (amended): on a finite tree of tiles `selectTiles` returns, and every tile appears at
most once in `_requestedTiles` whenever `executeEmptyTraversal` does not run: when mixed-LOD
rendering (`skipLevelOfDetail`) is on, or when no tile has empty content or points to an
external tileset and no content expires during the call.  (`loadTile` itself does not look at
`_requestedFrame`; with mixed-LOD rendering off, a tile that `executeEmptyTraversal` loads can
be queued a second time.) -/
theorem selectTiles_requested_nodup (env : Env) (frameState : FrameState)
    (size : TileId → Nat) (fuel : Nat) (s : State) (hwf : WellFormed size s)
    (hne : s.tileset._skipLevelOfDetail = true
      ∨ (env.ContentStable ∧ ∀ x, hasEmptyContent (s.tiles x) = false))
    (hfuel : 2 * size s.tileset.root + 1 ≤ fuel) :
    ∃ s', selectTiles env frameState fuel s = some s'
      ∧ s'.tileset._requestedTiles.Nodup := by
  have hpos := hwf.sizeOK.size_pos s.tileset.root
  rw [selectTiles_eq]
  by_cases hfreeze : s.tileset.debugFreezeFrame = true
  · rw [if_pos hfreeze]
    exact ⟨_, rfl, List.nodup_nil⟩
  · rw [if_neg hfreeze]
    obtain ⟨s1, h1⟩ := updateTile_isSome env frameState size fuel
      { s with tileset := { s.tileset with
          _requestedTiles := [], _selectedTiles := [], _selectedTilesToStyle := [],
          _emptyTiles := [], _hasMixedContent := false } } s.tileset.root
      (fun p => hwf.sizeOK p) (by omega)
    rw [h1]
    simp only []
    have fu := updateTile_frame (M := Mask.of (.content :: updateTileFields))
      ((Mask.contains_of _).of_subset (by decide)) env (fun h => absurd h (by decide))
      frameState fuel _ _ s1 h1
    have hreq1 : s1.tileset._requestedTiles = [] := fu.global ._requestedTiles (by decide)
    by_cases hv : (!isVisible (s1.tiles s.tileset.root)) = true
    · rw [if_pos hv]
      exact ⟨_, rfl, by rw [hreq1]; exact List.nodup_nil⟩
    · rw [if_neg hv]
      by_cases hsse : env.getScreenSpaceError frameState s.tileset.root
          ≤ s1.tileset._maximumScreenSpaceError
      · rw [if_pos hsse]
        exact ⟨_, rfl, by rw [hreq1]; exact List.nodup_nil⟩
      · rw [if_neg hsse]
        have pass : ∀ (base maximum : ℚ),
            ∃ s3, ((executeTraversal env frameState fuel s1 s.tileset.root base maximum).bind
                fun σ => traverseAndSelect env frameState fuel σ s.tileset.root) = some s3
              ∧ s3.tileset._requestedTiles.Nodup := by
          intro base maximum
          obtain ⟨s2, V, h2, core, stable, hst, hnd2⟩ := executeTraversal_requested env
            frameState size fuel s s1 base maximum hwf hne h1 (by omega)
          obtain ⟨wf2, _⟩ := core.done hwf stable hst
          obtain ⟨k, s3, la, out, h3, _, _, d⟩ := traverseAndSelect_done env frameState size
            fuel s2 s.tileset.root wf2.sizeOK wf2.parent_of_child wf2.children_nodup
            wf2.selectionTraversal_stack wf2.selectionTraversal_ancestorStack hfuel
          refine ⟨s3, by simp only [h2, Option.some_bind, h3], ?_⟩
          rw [d.frame.global ._requestedTiles (by decide)]
          exact hnd2
        by_cases hskip : (!skipLevelOfDetail s1.tileset) = true
        · rw [if_pos hskip]
          unfold executeBaseTraversal
          obtain ⟨s2, V, h2, _, _, _, hnd2⟩ := executeTraversal_requested env frameState size
            fuel s s1 s1.tileset._maximumScreenSpaceError s1.tileset._maximumScreenSpaceError
            hwf hne h1 (by omega)
          exact ⟨s2, h2, hnd2⟩
        · rw [if_neg hskip]
          by_cases himm : s1.tileset.immediatelyLoadDesiredLevelOfDetail = true
          · rw [if_pos himm]
            unfold executeSkipTraversal
            exact pass _ _
          · rw [if_neg himm]
            unfold executeBaseAndSkipTraversal
            exact pass _ _

/-- Witness of C29 (amended) on the four-tile chain, in mixed-LOD rendering. -/
theorem selectTiles_requested_nodup_witness :
    WellFormed chainSize chainState
      ∧ (chainState.tileset._skipLevelOfDetail = true
        ∨ (sampleEnv.ContentStable ∧ ∀ x, hasEmptyContent (chainState.tiles x) = false))
      ∧ 2 * chainSize chainState.tileset.root + 1 ≤ 10
      ∧ ∃ s', selectTiles sampleEnv sampleFrameState 10 chainState = some s'
        ∧ s'.tileset._requestedTiles.Nodup :=
  ⟨chainState_wellFormed, Or.inl rfl, by decide,
    selectTiles_requested_nodup sampleEnv sampleFrameState chainSize 10 chainState
      chainState_wellFormed (Or.inl rfl) (by decide)⟩

/-- C12 (amended): with `skipLevelOfDetail` on, on a finite tree of tiles whose root has
available content, when no content expires during the call and no tile carries the visited stamp
of this frame yet, `selectTiles` returns, and in the state it leaves:
every tile visited in this frame at which the traversal called `selectDesiredTile` (it stopped
refining while its parent refines, or it is an ADD tile with content) has its loaded tile, the
tile itself when its content is available and else its `_ancestorWithContentAvailable`, in
`_selectedTiles` when the content of that loaded tile is in view;
a visited tile is such a tile exactly when it cannot be traversed (a leaf, for instance), or
none of its children was visited, or it is an ADD tile with content;
and when one such visited tile falls back to the root and another to a tile `g` other than the
root (a grandchild with available content, for a chain of four levels), neither of the two an
ADD tile, `g` stands before the root in `_selectedTiles` and the `_selectionDepth` of `g` is
greater than that of the root.
Available content on the root does not by itself select the root: some visited tile that stops
refining must have the root as its nearest loaded tile, such as an unloaded leaf that is a child
of the root. -/
theorem selectTiles_skip_root_and_descendant (env : Env) (frameState : FrameState)
    (size : TileId → Nat) (fuel : Nat) (s : State) (hwf : WellFormed size s)
    (hs : env.ContentStable) (hskip : s.tileset._skipLevelOfDetail = true)
    (hfresh : ∀ x, (s.tiles x)._visitedFrame ≠ frameState.frameNumber)
    (havail : (s.tiles s.tileset.root).contentAvailable = true)
    (hfuel : 2 * size s.tileset.root + 1 ≤ fuel) :
    ∃ s', selectTiles env frameState fuel s = some s'
      ∧ (∀ t x, (s'.tiles t)._visitedFrame = frameState.frameNumber →
          desiresSelection s' t = true → loadedTile s' t = some x →
          env.contentVisibility frameState x ≠ Intersect.OUTSIDE →
          x ∈ s'.tileset._selectedTiles)
      ∧ (∀ t, (s'.tiles t)._visitedFrame = frameState.frameNumber →
          (desiresSelection s' t = true ↔
            canTraverse s'.tileset (s'.tiles t) = false
              ∨ (∀ c ∈ (s'.tiles t).children,
                  (s'.tiles c)._visitedFrame ≠ frameState.frameNumber)
              ∨ ((s'.tiles t).refine = Cesium3DTileRefine.ADD
                ∧ hasEmptyContent (s'.tiles t) = false)))
      ∧ ∀ t1 t2 g, (s'.tiles t1)._visitedFrame = frameState.frameNumber →
          desiresSelection s' t1 = true → loadedTile s' t1 = some s.tileset.root →
          (s'.tiles t2)._visitedFrame = frameState.frameNumber →
          desiresSelection s' t2 = true → loadedTile s' t2 = some g →
          g ≠ s.tileset.root →
          (s.tiles s.tileset.root).refine ≠ Cesium3DTileRefine.ADD →
          (s.tiles g).refine ≠ Cesium3DTileRefine.ADD →
          env.contentVisibility frameState s.tileset.root ≠ Intersect.OUTSIDE →
          env.contentVisibility frameState g ≠ Intersect.OUTSIDE →
          Precedes g s.tileset.root s'.tileset._selectedTiles
            ∧ (s'.tiles s.tileset.root)._selectionDepth < (s'.tiles g)._selectionDepth := by
  have hpos := hwf.sizeOK.size_pos s.tileset.root
  rw [selectTiles_eq]
  by_cases hfreeze : s.tileset.debugFreezeFrame = true
  · rw [if_pos hfreeze]
    exact ⟨_, rfl, fun t x hv => absurd hv (hfresh t), fun t hv => absurd hv (hfresh t),
      fun t1 t2 g hv => absurd hv (hfresh t1)⟩
  · rw [if_neg hfreeze]
    obtain ⟨s1, h1⟩ := updateTile_isSome env frameState size fuel
      { s with tileset := { s.tileset with
          _requestedTiles := [], _selectedTiles := [], _selectedTilesToStyle := [],
          _emptyTiles := [], _hasMixedContent := false } } s.tileset.root
      (fun p => hwf.sizeOK p) (by omega)
    rw [h1]
    simp only []
    have fu := updateTile_frame (M := Mask.of (.content :: updateTileFields))
      ((Mask.contains_of _).of_subset (by decide)) env (fun h => absurd h (by decide))
      frameState fuel _ _ s1 h1
    have hfresh1 : ∀ x, (s1.tiles x)._visitedFrame ≠ frameState.frameNumber := by
      intro x
      rw [fu.tile ._visitedFrame (by decide) x]
      exact hfresh x
    have hskip1 : s1.tileset._skipLevelOfDetail = true := by
      rw [fu.tilesetStatic._skipLevelOfDetail]
      exact hskip
    by_cases hv : (!isVisible (s1.tiles s.tileset.root)) = true
    · rw [if_pos hv]
      exact ⟨_, rfl, fun t x hv => absurd hv (hfresh1 t), fun t hv => absurd hv (hfresh1 t),
        fun t1 t2 g hv => absurd hv (hfresh1 t1)⟩
    · rw [if_neg hv]
      have hv' : isVisible (s1.tiles s.tileset.root) = true := by
        simpa using hv
      by_cases hsse : env.getScreenSpaceError frameState s.tileset.root
          ≤ s1.tileset._maximumScreenSpaceError
      · rw [if_pos hsse]
        exact ⟨_, rfl, fun t x hv => absurd hv (hfresh1 t),
          fun t hv => absurd hv (hfresh1 t), fun t1 t2 g hv => absurd hv (hfresh1 t1)⟩
      · rw [if_neg hsse]
        have hnb : ¬ (!skipLevelOfDetail s1.tileset) = true := by
          unfold skipLevelOfDetail
          rw [hskip1]
          decide
        rw [if_neg hnb]
        have pass : ∀ (base maximum : ℚ),
            ∃ s', ((executeTraversal env frameState fuel s1 s.tileset.root base maximum).bind
                fun σ => traverseAndSelect env frameState fuel σ s.tileset.root) = some s'
              ∧ (∀ t x, (s'.tiles t)._visitedFrame = frameState.frameNumber →
                  desiresSelection s' t = true → loadedTile s' t = some x →
                  env.contentVisibility frameState x ≠ Intersect.OUTSIDE →
                  x ∈ s'.tileset._selectedTiles)
              ∧ (∀ t, (s'.tiles t)._visitedFrame = frameState.frameNumber →
                  (desiresSelection s' t = true ↔
                    canTraverse s'.tileset (s'.tiles t) = false
                      ∨ (∀ c ∈ (s'.tiles t).children,
                          (s'.tiles c)._visitedFrame ≠ frameState.frameNumber)
                      ∨ ((s'.tiles t).refine = Cesium3DTileRefine.ADD
                        ∧ hasEmptyContent (s'.tiles t) = false)))
              ∧ ∀ t1 t2 g, (s'.tiles t1)._visitedFrame = frameState.frameNumber →
                  desiresSelection s' t1 = true → loadedTile s' t1 = some s.tileset.root →
                  (s'.tiles t2)._visitedFrame = frameState.frameNumber →
                  desiresSelection s' t2 = true → loadedTile s' t2 = some g →
                  g ≠ s.tileset.root →
                  (s.tiles s.tileset.root).refine ≠ Cesium3DTileRefine.ADD →
                  (s.tiles g).refine ≠ Cesium3DTileRefine.ADD →
                  env.contentVisibility frameState s.tileset.root ≠ Intersect.OUTSIDE →
                  env.contentVisibility frameState g ≠ Intersect.OUTSIDE →
                  Precedes g s.tileset.root s'.tileset._selectedTiles
                    ∧ (s'.tiles s.tileset.root)._selectionDepth
                      < (s'.tiles g)._selectionDepth := by
          intro base maximum
          obtain ⟨s2, V, h2, core, inv, rinv, hst⟩ := executeTraversal_skip_refines env hs
            frameState size fuel s s1 base maximum hwf hskip havail h1 hv' (by omega)
          obtain ⟨s3, h3, hA, hB⟩ := traverseAndSelect_skip env hs frameState size fuel s s2 V
            hwf hfresh core inv hst hfuel
          exact ⟨s3, by simp only [h2, Option.some_bind, h3], hA,
            traverseAndSelect_desires env frameState size fuel s s2 s3 V hwf hfresh core
              inv.stable rinv hst hfuel h3, hB⟩
        by_cases himm : s1.tileset.immediatelyLoadDesiredLevelOfDetail = true
        · rw [if_pos himm]
          unfold executeSkipTraversal
          exact pass _ _
        · rw [if_neg himm]
          unfold executeBaseAndSkipTraversal
          exact pass _ _

/-- Witness of C12 (amended) on the chain 0, 1, 2, 3 with a second, unloaded child 4 of the
root; there the selection is the grandchild 2, then the root 0 (`forkState_result`). -/
theorem selectTiles_skip_root_and_descendant_witness :
    WellFormed forkSize forkState
      ∧ sampleEnv.ContentStable
      ∧ forkState.tileset._skipLevelOfDetail = true
      ∧ (∀ x, (forkState.tiles x)._visitedFrame ≠ sampleFrameState.frameNumber)
      ∧ (forkState.tiles forkState.tileset.root).contentAvailable = true
      ∧ 2 * forkSize forkState.tileset.root + 1 ≤ 12
      ∧ ∃ s', selectTiles sampleEnv sampleFrameState 12 forkState = some s'
        ∧ (∀ t x, (s'.tiles t)._visitedFrame = sampleFrameState.frameNumber →
            desiresSelection s' t = true → loadedTile s' t = some x →
            sampleEnv.contentVisibility sampleFrameState x ≠ Intersect.OUTSIDE →
            x ∈ s'.tileset._selectedTiles)
        ∧ (∀ t, (s'.tiles t)._visitedFrame = sampleFrameState.frameNumber →
            (desiresSelection s' t = true ↔
              canTraverse s'.tileset (s'.tiles t) = false
                ∨ (∀ c ∈ (s'.tiles t).children,
                    (s'.tiles c)._visitedFrame ≠ sampleFrameState.frameNumber)
                ∨ ((s'.tiles t).refine = Cesium3DTileRefine.ADD
                  ∧ hasEmptyContent (s'.tiles t) = false)))
        ∧ ∀ t1 t2 g, (s'.tiles t1)._visitedFrame = sampleFrameState.frameNumber →
            desiresSelection s' t1 = true → loadedTile s' t1 = some forkState.tileset.root →
            (s'.tiles t2)._visitedFrame = sampleFrameState.frameNumber →
            desiresSelection s' t2 = true → loadedTile s' t2 = some g →
            g ≠ forkState.tileset.root →
            (forkState.tiles forkState.tileset.root).refine ≠ Cesium3DTileRefine.ADD →
            (forkState.tiles g).refine ≠ Cesium3DTileRefine.ADD →
            sampleEnv.contentVisibility sampleFrameState forkState.tileset.root
              ≠ Intersect.OUTSIDE →
            sampleEnv.contentVisibility sampleFrameState g ≠ Intersect.OUTSIDE →
            Precedes g forkState.tileset.root s'.tileset._selectedTiles
              ∧ (s'.tiles forkState.tileset.root)._selectionDepth
                < (s'.tiles g)._selectionDepth :=
  ⟨forkState_wellFormed, sampleEnv_contentStable, rfl, forkState_fresh, rfl, by decide,
    selectTiles_skip_root_and_descendant sampleEnv sampleFrameState forkSize 12 forkState
      forkState_wellFormed sampleEnv_contentStable rfl forkState_fresh rfl (by decide)⟩

end Cesium
